import Mathlib

/-!
# Packet iterator of the JPEG 2000 codec (`libopenjpeg/pi.c`)

A shallow embedding of the packet iterator: the iterator record, the five
progression engines `pi_next_lrcp`, `pi_next_rlcp`, `pi_next_rpcl`,
`pi_next_pcrl`, `pi_next_cprl`, the dispatcher `pi_next`, the geometry builder
`get_all_encoding_parameters` and the decode constructor `pi_create_decode_v2`.

Conventions of the embedding.

* C `int` / `OPJ_INT32` / `OPJ_UINT32` values are integers (`Int`).  Arithmetic
  is the mathematical one: the embedding describes the executions of the C code
  in which no intermediate result leaves the 32-bit range (for signed values
  the C behaviour is undefined otherwise).  A property that holds only for such
  executions states the range as a hypothesis (`steps_fit`, `edges_fit`,
  `records_fit`, `strides_fit`, `slot_fits`, `walk_fits`, `build_fits`).
* C arrays are lists; every read or write through an index is checked and an
  index outside the array is the fault `pi_fault.bounds`.
* A division or remainder by zero is the fault `pi_fault.div_by_zero`.
* A `for` loop is the combinator `pi_for`, which re-evaluates the loop
  condition before every iteration exactly as the C loop does.  The numeral it
  recurses on is computed from the distance between the cursor and its bound at
  loop entry; the fault `pi_fault.no_progress` is returned when that many
  iterations did not make the condition false, which only happens when the C
  loop does not advance its cursor.
* The `goto LABEL_SKIP` of the engines re-enters the loop nest at the end of
  the body of the innermost loop: the embedding continues the innermost loop
  from its increment, then each enclosing loop from its increment.
* `pi->include` is the field `incl` of the record (`include` is reserved in Lean).  The slots of one iterator array
  alias one buffer; `pi_next_slot` writes the buffer back to every slot.
-/

namespace OpjPi

/-! ## Integer helpers -/

/-- Two to the power `k`, the value of `1 << k` for `0 ≤ k`. -/
def pow2 (k : Int) : Int := ((2 ^ k.toNat : Nat) : Int)

/-- The C expression `a << k`, over the integers: its value in C when `0 <= k` and
`a * 2^k` fits the type of the expression. -/
def shl (a k : Int) : Int := a * pow2 k

/-- The C expression `a >> k` on a signed value (arithmetic shift). -/
def shr (a k : Int) : Int := a / pow2 k

/-- Modelled from the spec: `int_min` of `int.h`, the ordinary integer minimum. -/
def int_min (a b : Int) : Int := if a < b then a else b

/-- Modelled from the spec: `int_max` of `int.h`, the ordinary integer maximum. -/
def int_max (a b : Int) : Int := if a > b then a else b

/-- Modelled from the spec: `int_ceildiv` of `int.h`,
`ceil_div(a, b) = (a + b - 1) / b` with the division of C (toward zero). -/
def int_ceildiv (a b : Int) : Int := Int.tdiv (a + b - 1) b

/-- Modelled from the spec: `int_ceildivpow2` of `int.h`,
`ceil_div_pow2(a, k) = (a + (1 << k) - 1) >> k`. -/
def int_ceildivpow2 (a k : Int) : Int := shr (a + shl 1 k - 1) k

/-- Modelled from the spec: `int_floordivpow2` of `int.h`,
`floor_div_pow2(a, k) = a >> k`. -/
def int_floordivpow2 (a k : Int) : Int := shr a k

/-- Read `xs[i]` for a C `int` index. -/
def arr_get {α : Type} (xs : List α) (i : Int) : Option α :=
  if 0 ≤ i then xs[i.toNat]? else none

/-! ## Data model -/

/-- Progression orders (`OPJ_PROG_ORDER`). -/
inductive OPJ_PROG_ORDER where
  | PROG_UNKNOWN
  | LRCP
  | RLCP
  | RPCL
  | PCRL
  | CPRL
  deriving DecidableEq, Repr

/-- Faults of an execution. -/
inductive pi_fault where
  | bounds
  | div_by_zero
  | no_progress
  deriving DecidableEq, Repr

/-- The fields of `opj_poc_t` used by the packet iterator. -/
structure opj_poc where
  resno0 : Int
  compno0 : Int
  layno1 : Int
  resno1 : Int
  compno1 : Int
  layno0 : Int
  precno0 : Int
  precno1 : Int
  prg1 : OPJ_PROG_ORDER
  prg : OPJ_PROG_ORDER
  tx0 : Int
  tx1 : Int
  ty0 : Int
  ty1 : Int
  layS : Int
  resS : Int
  compS : Int
  prcS : Int
  layE : Int
  resE : Int
  compE : Int
  prcE : Int
  txS : Int
  txE : Int
  tyS : Int
  tyE : Int
  dx : Int
  dy : Int
  lay_t : Int
  res_t : Int
  comp_t : Int
  prc_t : Int
  tx0_t : Int
  ty0_t : Int

/-- Resolution record `opj_pi_resolution_t`. -/
structure opj_pi_resolution where
  pdx : Int
  pdy : Int
  pw : Int
  ph : Int
  deriving DecidableEq, Repr

/-- Component record `opj_pi_comp_t`. -/
structure opj_pi_comp where
  dx : Int
  dy : Int
  numresolutions : Int
  resolutions : List opj_pi_resolution
  deriving DecidableEq, Repr

/-- Packet iterator `opj_pi_iterator_t`. -/
structure opj_pi_iterator where
  tp_on : Bool
  incl : List Int
  step_l : Int
  step_r : Int
  step_c : Int
  step_p : Int
  compno : Int
  resno : Int
  precno : Int
  layno : Int
  first : Bool
  poc : opj_poc
  numcomps : Int
  comps : List opj_pi_comp
  tx0 : Int
  ty0 : Int
  tx1 : Int
  ty1 : Int
  x : Int
  y : Int
  dx : Int
  dy : Int

/-- Result of a piece of an engine: a fault, or the flag "returned `OPJ_TRUE`"
together with the iterator.  The flag `false` means that the piece ran to its
end without returning. -/
abbrev pi_outcome := Except pi_fault (Bool × opj_pi_iterator)

/-! ## Loops -/

/-- The C loop `for (; cond; incr) body`, entered at its condition. -/
def pi_for (cond : opj_pi_iterator → Bool) (body : opj_pi_iterator → pi_outcome)
    (incr : opj_pi_iterator → Except pi_fault opj_pi_iterator) :
    Nat → opj_pi_iterator → pi_outcome
  | 0, _ => .error .no_progress
  | n + 1, s =>
    if cond s then
      match body s with
      | .error e => .error e
      | .ok (true, s1) => .ok (true, s1)
      | .ok (false, s1) =>
        match incr s1 with
        | .error e => .error e
        | .ok s2 => pi_for cond body incr n s2
    else .ok (false, s)

/-- Number of iterations granted to a loop whose cursor is `a` and bound `b`. -/
def pi_span (a b : Int) : Nat := (b - a).toNat + 1

/-- A counted loop `for (i = i0; i < i0 + n; ++i) s = f i s` over a local index. -/
def opj_for {σ : Type} (f : Nat → σ → Except pi_fault σ) : Nat → Nat → σ → Except pi_fault σ
  | 0, _, s => .ok s
  | n + 1, i, s =>
    match f i s with
    | .error e => .error e
    | .ok s1 => opj_for f n (i + 1) s1

/-! ## The visited bitmap -/

/-- The index `layno * step_l + resno * step_r + compno * step_c + precno * step_p`. -/
def pi_index (s : opj_pi_iterator) : Int :=
  s.layno * s.step_l + s.resno * s.step_r + s.compno * s.step_c + s.precno * s.step_p

/-- The statement `if (!pi->include[index]) { pi->include[index] = 1; return OPJ_TRUE; }`. -/
def pi_visit (s : opj_pi_iterator) : pi_outcome :=
  match arr_get s.incl (pi_index s) with
  | none => .error .bounds
  | some v =>
    if v = 0 then .ok (true, { s with incl := s.incl.set (pi_index s).toNat 1 })
    else .ok (false, s)

/-! ## Cursor updates -/

/-- The increment `pi->layno++`. -/
def incr_layno (s : opj_pi_iterator) : Except pi_fault opj_pi_iterator :=
  .ok { s with layno := s.layno + 1 }

/-- The increment `pi->resno++`. -/
def incr_resno (s : opj_pi_iterator) : Except pi_fault opj_pi_iterator :=
  .ok { s with resno := s.resno + 1 }

/-- The increment `pi->compno++`. -/
def incr_compno (s : opj_pi_iterator) : Except pi_fault opj_pi_iterator :=
  .ok { s with compno := s.compno + 1 }

/-- The increment `pi->precno++`. -/
def incr_precno (s : opj_pi_iterator) : Except pi_fault opj_pi_iterator :=
  .ok { s with precno := s.precno + 1 }

/-- The increment `pi->x += pi->dx - (pi->x % pi->dx)`, over the integers: the value of
the C statement when the sum is at most `0x7fffffff` (`incr_pos32` is the statement in
32-bit arithmetic, `walk_fits` the condition under which a walk stays in range). -/
def incr_x (s : opj_pi_iterator) : Except pi_fault opj_pi_iterator :=
  if s.dx = 0 then .error .div_by_zero
  else .ok { s with x := s.x + (s.dx - Int.tmod s.x s.dx) }

/-- The increment `pi->y += pi->dy - (pi->y % pi->dy)`, over the integers: the value of
the C statement when the sum is at most `0x7fffffff`. -/
def incr_y (s : opj_pi_iterator) : Except pi_fault opj_pi_iterator :=
  if s.dy = 0 then .error .div_by_zero
  else .ok { s with y := s.y + (s.dy - Int.tmod s.y s.dy) }

/-- Continue an enclosing loop after an inner piece: when the inner piece ran to
its end, apply the increment of the enclosing loop and run `rest`. -/
def pi_then (r : pi_outcome) (incr : opj_pi_iterator → Except pi_fault opj_pi_iterator)
    (rest : opj_pi_iterator → pi_outcome) : pi_outcome :=
  match r with
  | .error e => .error e
  | .ok (true, s1) => .ok (true, s1)
  | .ok (false, s1) =>
    match incr s1 with
    | .error e => .error e
    | .ok s2 => rest s2

/-! ## LRCP and RLCP -/

/-- The loop `for (...; pi->precno < pi->poc.precno1; pi->precno++)` of
`pi_next_lrcp` and `pi_next_rlcp`, entered at its condition. -/
def lrcp_precno_loop (s : opj_pi_iterator) : pi_outcome :=
  pi_for (fun t => decide (t.precno < t.poc.precno1)) pi_visit incr_precno
    (pi_span s.precno s.poc.precno1) s

/-- Body of the loop over `compno` of `pi_next_lrcp` and `pi_next_rlcp`. -/
def lrcp_compno_body (s : opj_pi_iterator) : pi_outcome :=
  match arr_get s.comps s.compno with
  | none => .error .bounds
  | some comp =>
    if s.resno ≥ comp.numresolutions then .ok (false, s)
    else if s.tp_on then lrcp_precno_loop { s with precno := s.poc.precno0 }
    else
      match arr_get comp.resolutions s.resno with
      | none => .error .bounds
      | some res =>
        lrcp_precno_loop
          { s with poc := { s.poc with precno1 := res.pw * res.ph }, precno := s.poc.precno0 }

/-- The loop over `compno` of `pi_next_lrcp` and `pi_next_rlcp`, entered at its condition. -/
def lrcp_compno_loop (s : opj_pi_iterator) : pi_outcome :=
  pi_for (fun t => decide (t.compno < t.poc.compno1)) lrcp_compno_body incr_compno
    (pi_span s.compno s.poc.compno1) s

/-- The loop over `resno` of `pi_next_lrcp`, entered at its condition. -/
def lrcp_resno_loop (s : opj_pi_iterator) : pi_outcome :=
  pi_for (fun t => decide (t.resno < t.poc.resno1))
    (fun t => lrcp_compno_loop { t with compno := t.poc.compno0 }) incr_resno
    (pi_span s.resno s.poc.resno1) s

/-- The loop over `layno` of `pi_next_lrcp`, entered at its condition. -/
def lrcp_layno_loop (s : opj_pi_iterator) : pi_outcome :=
  pi_for (fun t => decide (t.layno < t.poc.layno1))
    (fun t => lrcp_resno_loop { t with resno := t.poc.resno0 }) incr_layno
    (pi_span s.layno s.poc.layno1) s

/-- The function `pi_next_lrcp`. -/
def pi_next_lrcp (s : opj_pi_iterator) : pi_outcome :=
  if !s.first then
    match arr_get s.comps s.compno with
    | none => .error .bounds
    | some _ =>
      pi_then (pi_then (pi_then (pi_then (.ok (false, s))
        incr_precno lrcp_precno_loop)
        incr_compno lrcp_compno_loop)
        incr_resno lrcp_resno_loop)
        incr_layno lrcp_layno_loop
  else
    lrcp_layno_loop { s with first := false, layno := s.poc.layno0 }

/-- The loop over `layno` of `pi_next_rlcp`, entered at its condition. -/
def rlcp_layno_loop (s : opj_pi_iterator) : pi_outcome :=
  pi_for (fun t => decide (t.layno < t.poc.layno1))
    (fun t => lrcp_compno_loop { t with compno := t.poc.compno0 }) incr_layno
    (pi_span s.layno s.poc.layno1) s

/-- The loop over `resno` of `pi_next_rlcp`, entered at its condition. -/
def rlcp_resno_loop (s : opj_pi_iterator) : pi_outcome :=
  pi_for (fun t => decide (t.resno < t.poc.resno1))
    (fun t => rlcp_layno_loop { t with layno := t.poc.layno0 }) incr_resno
    (pi_span s.resno s.poc.resno1) s

/-- The function `pi_next_rlcp`. -/
def pi_next_rlcp (s : opj_pi_iterator) : pi_outcome :=
  if !s.first then
    match arr_get s.comps s.compno with
    | none => .error .bounds
    | some _ =>
      pi_then (pi_then (pi_then (pi_then (.ok (false, s))
        incr_precno lrcp_precno_loop)
        incr_compno lrcp_compno_loop)
        incr_layno rlcp_layno_loop)
        incr_resno rlcp_resno_loop
  else
    rlcp_resno_loop { s with first := false, resno := s.poc.resno0 }

/-! ## The spatial engines RPCL, PCRL and CPRL -/

/-- One iteration of the loop over `resno` that computes `pi->dx` and `pi->dy`.  The
products `comp->dx * (1 << (res->pdx + levelno))` are taken over the integers: their
values in C when the shift count is below 31 and the product is at most `0x7fffffff`
(`steps_fit`, `walk_fits`). -/
def pi_step_res (comp : opj_pi_comp) (resno : Nat) (d : Int × Int) :
    Except pi_fault (Int × Int) :=
  match comp.resolutions[resno]? with
  | none => .error .bounds
  | some res =>
    let dx := comp.dx * pow2 (res.pdx + comp.numresolutions - 1 - resno)
    let dy := comp.dy * pow2 (res.pdy + comp.numresolutions - 1 - resno)
    .ok (if d.1 = 0 then dx else int_min d.1 dx, if d.2 = 0 then dy else int_min d.2 dy)

/-- The loop `for (resno = 0; resno < comp->numresolutions; resno++)` that
updates `(pi->dx, pi->dy)` for one component. -/
def pi_step_comp (comp : opj_pi_comp) (d : Int × Int) : Except pi_fault (Int × Int) :=
  opj_for (pi_step_res comp) comp.numresolutions.toNat 0 d

/-- The loop `for (compno = 0; compno < pi->numcomps; compno++)` that computes
`(pi->dx, pi->dy)` from `(0, 0)` in `pi_next_rpcl` and `pi_next_pcrl`. -/
def pi_step (s : opj_pi_iterator) : Except pi_fault (Int × Int) :=
  opj_for (fun compno d =>
      match s.comps[compno]? with
      | none => .error .bounds
      | some comp => pi_step_comp comp d)
    s.numcomps.toNat 0 (0, 0)

/-- The block `if (!pi->tp_on) { pi->poc.ty0 = pi->ty0; ... }`. -/
def pi_window (s : opj_pi_iterator) : opj_pi_iterator :=
  if s.tp_on then s
  else { s with poc := { s.poc with ty0 := s.ty0, tx0 := s.tx0, ty1 := s.ty1, tx1 := s.tx1 } }

/-- The computation shared by the three spatial engines between
`levelno = comp->numresolutions - 1 - pi->resno` and `pi->precno = prci + prcj * res->pw`:
`none` when one of the `continue` statements is taken, otherwise the precinct number. -/
def pi_precinct_at (s : opj_pi_iterator) (comp : opj_pi_comp) (res : opj_pi_resolution) :
    Except pi_fault (Option Int) :=
  let levelno := comp.numresolutions - 1 - s.resno
  if shl comp.dx levelno = 0 ∨ shl comp.dy levelno = 0 then .error .div_by_zero
  else
    let trx0 := int_ceildiv s.tx0 (shl comp.dx levelno)
    let try0 := int_ceildiv s.ty0 (shl comp.dy levelno)
    let trx1 := int_ceildiv s.tx1 (shl comp.dx levelno)
    let try1 := int_ceildiv s.ty1 (shl comp.dy levelno)
    let rpx := res.pdx + levelno
    let rpy := res.pdy + levelno
    if shl comp.dy rpy = 0 ∨ shl comp.dx rpx = 0 then .error .div_by_zero
    else if ¬ (Int.tmod s.y (shl comp.dy rpy) = 0 ∨
        (s.y = s.ty0 ∧ Int.tmod (shl try0 levelno) (shl 1 rpy) ≠ 0)) then .ok none
    else if ¬ (Int.tmod s.x (shl comp.dx rpx) = 0 ∨
        (s.x = s.tx0 ∧ Int.tmod (shl trx0 levelno) (shl 1 rpx) ≠ 0)) then .ok none
    else if res.pw = 0 ∨ res.ph = 0 then .ok none
    else if trx0 = trx1 ∨ try0 = try1 then .ok none
    else
      let prci := int_floordivpow2 (int_ceildiv s.x (shl comp.dx levelno)) res.pdx
        - int_floordivpow2 trx0 res.pdx
      let prcj := int_floordivpow2 (int_ceildiv s.y (shl comp.dy levelno)) res.pdy
        - int_floordivpow2 try0 res.pdy
      .ok (some (prci + prcj * res.pw))

/-- The innermost loop `for (...; pi->layno < pi->poc.layno1; pi->layno++)` of the
spatial engines, entered at its condition. -/
def spatial_layno_loop (s : opj_pi_iterator) : pi_outcome :=
  pi_for (fun t => decide (t.layno < t.poc.layno1)) pi_visit incr_layno
    (pi_span s.layno s.poc.layno1) s

/-- The statements of a spatial engine from `res = &comp->resolutions[pi->resno]`
to the end of the loop over `layno`. -/
def pi_spatial_body (comp : opj_pi_comp) (s : opj_pi_iterator) : pi_outcome :=
  match arr_get comp.resolutions s.resno with
  | none => .error .bounds
  | some res =>
    match pi_precinct_at s comp res with
    | .error e => .error e
    | .ok none => .ok (false, s)
    | .ok (some p) => spatial_layno_loop { s with precno := p, layno := s.poc.layno0 }

/-- Body of the loop over `compno` of `pi_next_rpcl`. -/
def rpcl_compno_body (s : opj_pi_iterator) : pi_outcome :=
  match arr_get s.comps s.compno with
  | none => .error .bounds
  | some comp =>
    if s.resno ≥ comp.numresolutions then .ok (false, s)
    else pi_spatial_body comp s

/-- The loop over `compno` of `pi_next_rpcl`, entered at its condition. -/
def rpcl_compno_loop (s : opj_pi_iterator) : pi_outcome :=
  pi_for (fun t => decide (t.compno < t.poc.compno1)) rpcl_compno_body incr_compno
    (pi_span s.compno s.poc.compno1) s

/-- The loop over `x` of `pi_next_rpcl`, entered at its condition. -/
def rpcl_x_loop (s : opj_pi_iterator) : pi_outcome :=
  pi_for (fun t => decide (t.x < t.poc.tx1))
    (fun t => rpcl_compno_loop { t with compno := t.poc.compno0 }) incr_x
    (pi_span s.x s.poc.tx1) s

/-- The loop over `y` of `pi_next_rpcl`, entered at its condition. -/
def rpcl_y_loop (s : opj_pi_iterator) : pi_outcome :=
  pi_for (fun t => decide (t.y < t.poc.ty1))
    (fun t => rpcl_x_loop { t with x := t.poc.tx0 }) incr_y
    (pi_span s.y s.poc.ty1) s

/-- The loop over `resno` of `pi_next_rpcl`, entered at its condition. -/
def rpcl_resno_loop (s : opj_pi_iterator) : pi_outcome :=
  pi_for (fun t => decide (t.resno < t.poc.resno1))
    (fun t => rpcl_y_loop { t with y := t.poc.ty0 }) incr_resno
    (pi_span s.resno s.poc.resno1) s

/-- The function `pi_next_rpcl`. -/
def pi_next_rpcl (s : opj_pi_iterator) : pi_outcome :=
  if !s.first then
    pi_then (pi_then (pi_then (pi_then (pi_then (.ok (false, s))
      incr_layno spatial_layno_loop)
      incr_compno rpcl_compno_loop)
      incr_x rpcl_x_loop)
      incr_y rpcl_y_loop)
      incr_resno rpcl_resno_loop
  else
    match pi_step s with
    | .error e => .error e
    | .ok d =>
      let s1 := pi_window { s with first := false, dx := d.1, dy := d.2 }
      rpcl_resno_loop { s1 with resno := s1.poc.resno0 }

/-- The loop `for (...; pi->resno < int_min(pi->poc.resno1, comp->numresolutions); pi->resno++)`
of `pi_next_pcrl` and `pi_next_cprl`, entered at its condition. -/
def pcrl_resno_loop (comp : opj_pi_comp) (s : opj_pi_iterator) : pi_outcome :=
  pi_for (fun t => decide (t.resno < int_min t.poc.resno1 comp.numresolutions))
    (pi_spatial_body comp) incr_resno
    (pi_span s.resno (int_min s.poc.resno1 comp.numresolutions)) s

/-- The loop over `resno` re-entered through `LABEL_SKIP`, where `comp` is
`&pi->comps[pi->compno]`. -/
def pcrl_resno_resume (s : opj_pi_iterator) : pi_outcome :=
  match arr_get s.comps s.compno with
  | none => .error .bounds
  | some comp => pcrl_resno_loop comp s

/-- Body of the loop over `compno` of `pi_next_pcrl`. -/
def pcrl_compno_body (s : opj_pi_iterator) : pi_outcome :=
  match arr_get s.comps s.compno with
  | none => .error .bounds
  | some comp => pcrl_resno_loop comp { s with resno := s.poc.resno0 }

/-- The loop over `compno` of `pi_next_pcrl`, entered at its condition. -/
def pcrl_compno_loop (s : opj_pi_iterator) : pi_outcome :=
  pi_for (fun t => decide (t.compno < t.poc.compno1)) pcrl_compno_body incr_compno
    (pi_span s.compno s.poc.compno1) s

/-- The loop over `x` of `pi_next_pcrl`, entered at its condition. -/
def pcrl_x_loop (s : opj_pi_iterator) : pi_outcome :=
  pi_for (fun t => decide (t.x < t.poc.tx1))
    (fun t => pcrl_compno_loop { t with compno := t.poc.compno0 }) incr_x
    (pi_span s.x s.poc.tx1) s

/-- The loop over `y` of `pi_next_pcrl`, entered at its condition. -/
def pcrl_y_loop (s : opj_pi_iterator) : pi_outcome :=
  pi_for (fun t => decide (t.y < t.poc.ty1))
    (fun t => pcrl_x_loop { t with x := t.poc.tx0 }) incr_y
    (pi_span s.y s.poc.ty1) s

/-- The function `pi_next_pcrl`. -/
def pi_next_pcrl (s : opj_pi_iterator) : pi_outcome :=
  if !s.first then
    pi_then (pi_then (pi_then (pi_then (pi_then (.ok (false, s))
      incr_layno spatial_layno_loop)
      incr_resno pcrl_resno_resume)
      incr_compno pcrl_compno_loop)
      incr_x pcrl_x_loop)
      incr_y pcrl_y_loop
  else
    match pi_step s with
    | .error e => .error e
    | .ok d =>
      let s1 := pi_window { s with first := false, dx := d.1, dy := d.2 }
      pcrl_y_loop { s1 with y := s1.poc.ty0 }

/-- The loop over `x` of `pi_next_cprl`, entered at its condition. -/
def cprl_x_loop (comp : opj_pi_comp) (s : opj_pi_iterator) : pi_outcome :=
  pi_for (fun t => decide (t.x < t.poc.tx1))
    (fun t => pcrl_resno_loop comp { t with resno := t.poc.resno0 }) incr_x
    (pi_span s.x s.poc.tx1) s

/-- The loop over `y` of `pi_next_cprl`, entered at its condition. -/
def cprl_y_loop (comp : opj_pi_comp) (s : opj_pi_iterator) : pi_outcome :=
  pi_for (fun t => decide (t.y < t.poc.ty1))
    (fun t => cprl_x_loop comp { t with x := t.poc.tx0 }) incr_y
    (pi_span s.y s.poc.ty1) s

/-- Body of the loop over `compno` of `pi_next_cprl`. -/
def cprl_compno_body (s : opj_pi_iterator) : pi_outcome :=
  match arr_get s.comps s.compno with
  | none => .error .bounds
  | some comp =>
    match pi_step_comp comp (0, 0) with
    | .error e => .error e
    | .ok d =>
      let s1 := pi_window { s with dx := d.1, dy := d.2 }
      cprl_y_loop comp { s1 with y := s1.poc.ty0 }

/-- The loop over `compno` of `pi_next_cprl`, entered at its condition. -/
def cprl_compno_loop (s : opj_pi_iterator) : pi_outcome :=
  pi_for (fun t => decide (t.compno < t.poc.compno1)) cprl_compno_body incr_compno
    (pi_span s.compno s.poc.compno1) s

/-- The loops over `resno`, `x` and `y` of `pi_next_cprl` re-entered through
`LABEL_SKIP`, where `comp` is `&pi->comps[pi->compno]`. -/
def cprl_resume (s : opj_pi_iterator) : pi_outcome :=
  match arr_get s.comps s.compno with
  | none => .error .bounds
  | some comp =>
    pi_then (pi_then (pcrl_resno_loop comp s)
      incr_x (cprl_x_loop comp))
      incr_y (cprl_y_loop comp)

/-- The function `pi_next_cprl`. -/
def pi_next_cprl (s : opj_pi_iterator) : pi_outcome :=
  if !s.first then
    pi_then (pi_then (pi_then (.ok (false, s))
      incr_layno spatial_layno_loop)
      incr_resno cprl_resume)
      incr_compno cprl_compno_loop
  else
    cprl_compno_loop { s with first := false, compno := s.poc.compno0 }

/-- The dispatcher `pi_next`. -/
def pi_next (s : opj_pi_iterator) : pi_outcome :=
  match s.poc.prg with
  | .LRCP => pi_next_lrcp s
  | .RLCP => pi_next_rlcp s
  | .RPCL => pi_next_rpcl s
  | .PCRL => pi_next_pcrl s
  | .CPRL => pi_next_cprl s
  | .PROG_UNKNOWN => .ok (false, s)

/-! ## Image and coding parameters -/

/-- The fields of `opj_image_comp_t` read by the packet iterator. -/
structure opj_image_comp where
  dx : Int
  dy : Int
  deriving DecidableEq, Repr

/-- The fields of `opj_image_t` read by the packet iterator. -/
structure opj_image where
  x0 : Int
  y0 : Int
  x1 : Int
  y1 : Int
  numcomps : Int
  comps : List opj_image_comp
  deriving DecidableEq, Repr

/-- The fields of `opj_tccp_t` read by the packet iterator. -/
structure opj_tccp where
  csty : Nat
  numresolutions : Int
  prcw : List Int
  prch : List Int
  deriving DecidableEq, Repr

/-- The fields of `opj_tcp_t` / `opj_tcp_v2_t` read or written by the packet iterator. -/
structure opj_tcp where
  numlayers : Int
  prg : OPJ_PROG_ORDER
  numpocs : Int
  POC : Bool
  pocs : List opj_poc
  tccps : List opj_tccp

/-- The fields of `opj_cp_t` / `opj_cp_v2_t` read by the packet iterator. -/
structure opj_cp where
  cinema : Int
  tp_on : Bool
  tx0 : Int
  ty0 : Int
  tdx : Int
  tdy : Int
  tw : Int
  th : Int
  tcps : List opj_tcp

/-- Modelled from the spec: the precinct flag `J2K_CCP_CSTY_PRT` of `csty`
(declared in `j2k.h`), the bit that says explicit precinct sizes are present. -/
def J2K_CCP_CSTY_PRT : Nat := 1

/-- Modelled from the spec: the modes `THRESH_CALC` and `FINAL_PASS` of
`J2K_T2_MODE` (declared in `t2.h`). -/
inductive J2K_T2_MODE where
  | THRESH_CALC
  | FINAL_PASS
  deriving DecidableEq, Repr

/-- An `opj_poc_t` whose bytes are all zero. -/
def poc_zero : opj_poc :=
  { resno0 := 0, compno0 := 0, layno1 := 0, resno1 := 0, compno1 := 0, layno0 := 0,
    precno0 := 0, precno1 := 0, prg1 := .LRCP, prg := .LRCP, tx0 := 0, tx1 := 0, ty0 := 0,
    ty1 := 0, layS := 0, resS := 0, compS := 0, prcS := 0, layE := 0, resE := 0, compE := 0,
    prcE := 0, txS := 0, txE := 0, tyS := 0, tyE := 0, dx := 0, dy := 0, lay_t := 0,
    res_t := 0, comp_t := 0, prc_t := 0, tx0_t := 0, ty0_t := 0 }

/-- An `opj_pi_resolution_t` whose bytes are all zero. -/
def res_zero : opj_pi_resolution := { pdx := 0, pdy := 0, pw := 0, ph := 0 }

/-- An `opj_pi_comp_t` whose bytes are all zero. -/
def comp_zero : opj_pi_comp := { dx := 0, dy := 0, numresolutions := 0, resolutions := [] }

/-- An `opj_pi_iterator_t` whose bytes are all zero, as `opj_calloc` returns it. -/
def pi_zero : opj_pi_iterator :=
  { tp_on := false, incl := [], step_l := 0, step_r := 0, step_c := 0, step_p := 0,
    compno := 0, resno := 0, precno := 0, layno := 0, first := false, poc := poc_zero,
    numcomps := 0, comps := [], tx0 := 0, ty0 := 0, tx1 := 0, ty1 := 0, x := 0, y := 0,
    dx := 0, dy := 0 }

/-! ## The geometry builder -/

/-- The resolution record computed from the component-grid extents of the tile:
the statements from `l_rx0 = int_ceildivpow2(l_tcx0, l_level_no)` to
`l_ph = (l_ry0==l_ry1)?0:((py1 - l_py0) >> l_pdy)`, which `pi_create_decode` and
`pi_initialise_encode` repeat word for word. -/
def enc_resolution (tcx0 tcy0 tcx1 tcy1 levelno pdx pdy : Int) : opj_pi_resolution :=
  let rx0 := int_ceildivpow2 tcx0 levelno
  let ry0 := int_ceildivpow2 tcy0 levelno
  let rx1 := int_ceildivpow2 tcx1 levelno
  let ry1 := int_ceildivpow2 tcy1 levelno
  let px0 := shl (int_floordivpow2 rx0 pdx) pdx
  let py0 := shl (int_floordivpow2 ry0 pdy) pdy
  let px1 := shl (int_ceildivpow2 rx1 pdx) pdx
  let py1 := shl (int_ceildivpow2 ry1 pdy) pdy
  { pdx := pdx, pdy := pdy,
    pw := if rx0 = rx1 then 0 else shr (px1 - px0) pdx,
    ph := if ry0 = ry1 then 0 else shr (py1 - py0) pdy }

/-- The values written by `get_all_encoding_parameters` through its pointer
arguments; `p_resolutions` holds, per component, the records `(pdx, pdy, pw, ph)`
written to `p_resolutions[compno]`, one per resolution. -/
structure opj_enc_params where
  p_tx0 : Int
  p_tx1 : Int
  p_ty0 : Int
  p_ty1 : Int
  p_dx_min : Int
  p_dy_min : Int
  p_max_prec : Int
  p_max_res : Int
  p_resolutions : List (List opj_pi_resolution)
  deriving DecidableEq, Repr

/-- One iteration of the loop over `resno` of `get_all_encoding_parameters`.  The
counter `l_level_no` starts at `numresolutions - 1` and is decremented at the end
of every iteration, so it is `numresolutions - 1 - resno`.  The record is appended
to the row of the component.  The row `p_resolutions[compno]` has room for as many
records as `prcw` has entries, so a write beyond the row comes after a read of
`prcw` beyond its end, which is the fault.  The `OPJ_UINT32` values `l_dx`, `l_dy`,
`l_pw`, `l_ph` and `l_product` are taken over the integers: their values in C when they
are not negative and fit 32 bits (`steps_fit`, `records_fit`). -/
def enc_res_iter (ic : opj_image_comp) (tccp : opj_tccp) (tcx0 tcy0 tcx1 tcy1 : Int)
    (resno : Nat) (a : opj_enc_params × List opj_pi_resolution) :
    Except pi_fault (opj_enc_params × List opj_pi_resolution) :=
  match tccp.prcw[resno]?, tccp.prch[resno]? with
  | some pdx, some pdy =>
    let levelno := tccp.numresolutions - 1 - resno
    let l_dx := ic.dx * pow2 (pdx + levelno)
    let l_dy := ic.dy * pow2 (pdy + levelno)
    let r := enc_resolution tcx0 tcy0 tcx1 tcy1 levelno pdx pdy
    .ok ({ a.1 with
            p_dx_min := int_min a.1.p_dx_min l_dx,
            p_dy_min := int_min a.1.p_dy_min l_dy,
            p_max_prec := if r.pw * r.ph > a.1.p_max_prec then r.pw * r.ph else a.1.p_max_prec },
         a.2 ++ [r])
  | _, _ => .error .bounds

/-- One iteration of the loop over `compno` of `get_all_encoding_parameters`. -/
def enc_comp_iter (image : opj_image) (tcp : opj_tcp) (compno : Nat) (a : opj_enc_params) :
    Except pi_fault opj_enc_params :=
  match image.comps[compno]?, tcp.tccps[compno]? with
  | some ic, some tccp =>
    if ic.dx = 0 ∨ ic.dy = 0 then .error .div_by_zero
    else
      let tcx0 := int_ceildiv a.p_tx0 ic.dx
      let tcy0 := int_ceildiv a.p_ty0 ic.dy
      let tcx1 := int_ceildiv a.p_tx1 ic.dx
      let tcy1 := int_ceildiv a.p_ty1 ic.dy
      let a1 := if tccp.numresolutions > a.p_max_res
        then { a with p_max_res := tccp.numresolutions } else a
      match opj_for (enc_res_iter ic tccp tcx0 tcy0 tcx1 tcy1) tccp.numresolutions.toNat 0
          (a1, []) with
      | .error e => .error e
      | .ok (a2, row) => .ok { a2 with p_resolutions := a2.p_resolutions ++ [row] }
  | _, _ => .error .bounds

/-- The function `get_all_encoding_parameters`.  The tile edges
`p_cp->tx0 + p * p_cp->tdx` and the like, `OPJ_UINT32` in the source and converted to
`int`, are taken over the integers: their values in C when they lie in
`[0, 0x7fffffff]` (`edges_fit`). -/
def get_all_encoding_parameters (image : opj_image) (cp : opj_cp) (tileno : Int) :
    Except pi_fault opj_enc_params :=
  match arr_get cp.tcps tileno with
  | none => .error .bounds
  | some tcp =>
    if cp.tw = 0 then .error .div_by_zero
    else
      let p := Int.tmod tileno cp.tw
      let q := Int.tdiv tileno cp.tw
      opj_for (enc_comp_iter image tcp) image.numcomps.toNat 0
        { p_tx0 := int_max (cp.tx0 + p * cp.tdx) image.x0,
          p_tx1 := int_min (cp.tx0 + (p + 1) * cp.tdx) image.x1,
          p_ty0 := int_max (cp.ty0 + q * cp.tdy) image.y0,
          p_ty1 := int_min (cp.ty0 + (q + 1) * cp.tdy) image.y1,
          p_dx_min := 0x7fffffff, p_dy_min := 0x7fffffff,
          p_max_prec := 0, p_max_res := 0, p_resolutions := [] }

/-! ## The decode constructor `pi_create_decode_v2` -/

/-- One iteration of the loop over `compno` of `pi_create`: the component record
gets `numresolutions` zeroed resolution records. -/
def pi_create_comp (tcp : opj_tcp) (compno : Nat) (comps : List opj_pi_comp) :
    Except pi_fault (List opj_pi_comp) :=
  match tcp.tccps[compno]? with
  | none => .error .bounds
  | some tccp =>
    if compno < comps.length then
      .ok (comps.set compno
        { comp_zero with
          numresolutions := tccp.numresolutions,
          resolutions := List.replicate tccp.numresolutions.toNat res_zero })
    else .error .bounds

/-- One iteration of the loop over `pino` of `pi_create`. -/
def pi_create_slot (image : opj_image) (tcp : opj_tcp) (pino : Nat)
    (l_pi : List opj_pi_iterator) : Except pi_fault (List opj_pi_iterator) :=
  match opj_for (pi_create_comp tcp) image.numcomps.toNat 0
      (List.replicate image.numcomps.toNat comp_zero) with
  | .error e => .error e
  | .ok comps =>
    if pino < l_pi.length then
      .ok (l_pi.set pino { pi_zero with numcomps := image.numcomps, comps := comps })
    else .error .bounds

/-- The function `pi_create` (allocation is assumed to succeed). -/
def pi_create (image : opj_image) (cp : opj_cp) (tileno : Int) :
    Except pi_fault (List opj_pi_iterator) :=
  match arr_get cp.tcps tileno with
  | none => .error .bounds
  | some tcp =>
    opj_for (pi_create_slot image tcp) (tcp.numpocs + 1).toNat 0
      (List.replicate (tcp.numpocs + 1).toNat pi_zero)

/-- One iteration of the loop over `pino` of `pi_update_decode_poc`. -/
def pi_update_decode_poc_iter (tcp : opj_tcp) (p_max_precision : Int) (pino : Nat)
    (l_pi : List opj_pi_iterator) : Except pi_fault (List opj_pi_iterator) :=
  match l_pi[pino]?, tcp.pocs[pino]? with
  | some s, some poc =>
    .ok (l_pi.set pino
      { s with
        first := true,
        poc := { s.poc with
          prg := poc.prg, resno0 := poc.resno0, compno0 := poc.compno0, layno0 := 0,
          precno0 := 0, resno1 := poc.resno1, compno1 := poc.compno1, layno1 := poc.layno1,
          precno1 := p_max_precision } })
  | _, _ => .error .bounds

/-- The function `pi_update_decode_poc`. -/
def pi_update_decode_poc (l_pi : List opj_pi_iterator) (tcp : opj_tcp)
    (p_max_precision _p_max_res : Int) : Except pi_fault (List opj_pi_iterator) :=
  opj_for (pi_update_decode_poc_iter tcp p_max_precision) (tcp.numpocs + 1).toNat 0 l_pi

/-- One iteration of the loop over `pino` of `pi_update_decode_not_poc`. -/
def pi_update_decode_not_poc_iter (tcp : opj_tcp) (p_max_precision p_max_res : Int) (pino : Nat)
    (l_pi : List opj_pi_iterator) : Except pi_fault (List opj_pi_iterator) :=
  match l_pi[pino]? with
  | some s =>
    .ok (l_pi.set pino
      { s with
        first := true,
        poc := { s.poc with
          prg := tcp.prg, resno0 := 0, compno0 := 0, layno0 := 0, precno0 := 0,
          resno1 := p_max_res, compno1 := s.numcomps, layno1 := tcp.numlayers,
          precno1 := p_max_precision } })
  | none => .error .bounds

/-- The function `pi_update_decode_not_poc`. -/
def pi_update_decode_not_poc (l_pi : List opj_pi_iterator) (tcp : opj_tcp)
    (p_max_precision p_max_res : Int) : Except pi_fault (List opj_pi_iterator) :=
  opj_for (pi_update_decode_not_poc_iter tcp p_max_precision p_max_res) (tcp.numpocs + 1).toNat 0 l_pi

/-- The loop over `resno` of `pi_create_decode_v2` that copies the records of one
component out of `l_tmp_ptr[compno]`. -/
def pi_copy_res (row : List opj_pi_resolution) (resno : Nat) (rs : List opj_pi_resolution) :
    Except pi_fault (List opj_pi_resolution) :=
  match row[resno]? with
  | none => .error .bounds
  | some r => if resno < rs.length then .ok (rs.set resno r) else .error .bounds

/-- One iteration of the loop over `compno` of `pi_create_decode_v2`. -/
def pi_copy_comp (image : opj_image) (table : List (List opj_pi_resolution)) (compno : Nat)
    (comps : List opj_pi_comp) : Except pi_fault (List opj_pi_comp) :=
  match comps[compno]?, image.comps[compno]?, table[compno]? with
  | some comp, some ic, some row =>
    match opj_for (pi_copy_res row) comp.numresolutions.toNat 0 comp.resolutions with
    | .error e => .error e
    | .ok rs => .ok (comps.set compno { comp with dx := ic.dx, dy := ic.dy, resolutions := rs })
  | _, _, _ => .error .bounds

/-- The fields that `pi_create_decode_v2` stores in one slot; `incl` is the
buffer the slot points to. -/
def pi_decode_slot (image : opj_image) (e : opj_enc_params) (incl : List Int)
    (s : opj_pi_iterator) : Except pi_fault opj_pi_iterator :=
  match opj_for (pi_copy_comp image e.p_resolutions) s.numcomps.toNat 0 s.comps with
  | .error err => .error err
  | .ok comps =>
    .ok { s with
      incl := incl, tx0 := e.p_tx0, ty0 := e.p_ty0, tx1 := e.p_tx1, ty1 := e.p_ty1,
      step_p := 1, step_c := e.p_max_prec * 1,
      step_r := image.numcomps * (e.p_max_prec * 1),
      step_l := e.p_max_res * (image.numcomps * (e.p_max_prec * 1)),
      comps := comps }

/-- One iteration of the loop `for (pino = 1; pino < l_bound; ++pino)` of
`pi_create_decode_v2`; the slot takes the buffer of the slot before it. -/
def pi_decode_iter (image : opj_image) (e : opj_enc_params) (pino : Nat)
    (l_pi : List opj_pi_iterator) : Except pi_fault (List opj_pi_iterator) :=
  match l_pi[pino - 1]?, l_pi[pino]? with
  | some prev, some s =>
    match pi_decode_slot image e prev.incl s with
    | .error err => .error err
    | .ok s1 => .ok (l_pi.set pino s1)
  | _, _ => .error .bounds

/-- The function `pi_create_decode_v2` (allocation is assumed to succeed).  The strides
and the number of cells of the bitmap, `OPJ_UINT32` in the source, are taken over the
integers: their values in C when they are at most `0x7fffffff` (`strides_fit`,
`slot_fits`). -/
def pi_create_decode_v2 (image : opj_image) (cp : opj_cp) (tile_no : Int) :
    Except pi_fault (List opj_pi_iterator) :=
  match arr_get cp.tcps tile_no with
  | none => .error .bounds
  | some tcp =>
    match pi_create image cp tile_no with
    | .error err => .error err
    | .ok l_pi =>
      match get_all_encoding_parameters image cp tile_no with
      | .error err => .error err
      | .ok e =>
        let l_step_l := e.p_max_res * (image.numcomps * (e.p_max_prec * 1))
        match l_pi[0]? with
        | none => .error .bounds
        | some s0 =>
          match pi_decode_slot image e
              (List.replicate ((tcp.numlayers + 1) * l_step_l).toNat 0) s0 with
          | .error err => .error err
          | .ok s1 =>
            match opj_for (pi_decode_iter image e) ((tcp.numpocs + 1).toNat - 1) 1
                (l_pi.set 0 s1) with
            | .error err => .error err
            | .ok l_pi2 =>
              if tcp.POC then pi_update_decode_poc l_pi2 tcp e.p_max_prec e.p_max_res
              else pi_update_decode_not_poc l_pi2 tcp e.p_max_prec e.p_max_res

/-! ## The constructors `pi_create_decode` and `pi_initialise_encode` -/

/-- The statement `if (tccp->csty & J2K_CCP_CSTY_PRT) { res->pdx = tccp->prcw[resno];
res->pdy = tccp->prch[resno]; } else { res->pdx = 15; res->pdy = 15; }` of
`pi_create_decode` and `pi_initialise_encode`. -/
def pi_precinct_exps (tccp : opj_tccp) (resno : Nat) : Except pi_fault (Int × Int) :=
  if tccp.csty &&& J2K_CCP_CSTY_PRT ≠ 0 then
    match tccp.prcw[resno]?, tccp.prch[resno]? with
    | some pdx, some pdy => .ok (pdx, pdy)
    | _, _ => .error .bounds
  else .ok (15, 15)

/-- One iteration of the loop over `resno` of `pi_create_decode`, which
`pi_initialise_encode` repeats.  The loop carries `maxprec` and the records of
`comp->resolutions` written so far; the array has `comp->numresolutions` records and
the loop writes all of them in order. -/
def pi_res_iter (tccp : opj_tccp) (tcx0 tcy0 tcx1 tcy1 : Int) (resno : Nat)
    (a : Int × List opj_pi_resolution) : Except pi_fault (Int × List opj_pi_resolution) :=
  match pi_precinct_exps tccp resno with
  | .error e => .error e
  | .ok (pdx, pdy) =>
    let r := enc_resolution tcx0 tcy0 tcx1 tcy1 (tccp.numresolutions - 1 - resno) pdx pdy
    .ok (if r.pw * r.ph > a.1 then r.pw * r.ph else a.1, a.2 ++ [r])

/-- One iteration of the loop over `compno` of `pi_create_decode`, which
`pi_initialise_encode` repeats.  The loop carries `maxres`, `maxprec` and the
component records written so far; `tx0 .. ty1` are the tile extents that the loop
reads from the iterator. -/
def pi_comp_iter (image : opj_image) (tcp : opj_tcp) (tx0 ty0 tx1 ty1 : Int) (compno : Nat)
    (a : Int × Int × List opj_pi_comp) : Except pi_fault (Int × Int × List opj_pi_comp) :=
  match image.comps[compno]?, tcp.tccps[compno]? with
  | some ic, some tccp =>
    if ic.dx = 0 ∨ ic.dy = 0 then .error .div_by_zero
    else
      let maxres := if tccp.numresolutions > a.1 then tccp.numresolutions else a.1
      match opj_for (pi_res_iter tccp (int_ceildiv tx0 ic.dx) (int_ceildiv ty0 ic.dy)
          (int_ceildiv tx1 ic.dx) (int_ceildiv ty1 ic.dy)) tccp.numresolutions.toNat 0
          (a.2.1, []) with
      | .error e => .error e
      | .ok (maxprec, row) =>
        .ok (maxres, maxprec,
          a.2.2 ++ [{ dx := ic.dx, dy := ic.dy, numresolutions := tccp.numresolutions,
                      resolutions := row }])
  | _, _ => .error .bounds

/-- One iteration of the loop over `pino` of `pi_create_decode`.  The loop over
`compno` runs to `pi->numcomps` and reads `pi->tx0 .. pi->ty1`, the fields of slot 0;
`maxres` and `maxprec` are locals of the iteration and start at 0. -/
def pi_create_decode_slot (image : opj_image) (cp : opj_cp) (tcp : opj_tcp) (tileno : Int)
    (pino : Nat) (l_pi : List opj_pi_iterator) : Except pi_fault (List opj_pi_iterator) :=
  match l_pi[pino]? with
  | none => .error .bounds
  | some s =>
    if cp.tw = 0 then .error .div_by_zero
    else
      let p := Int.tmod tileno cp.tw
      let q := Int.tdiv tileno cp.tw
      let s1 := { s with
        tx0 := int_max (cp.tx0 + p * cp.tdx) image.x0,
        ty0 := int_max (cp.ty0 + q * cp.tdy) image.y0,
        tx1 := int_min (cp.tx0 + (p + 1) * cp.tdx) image.x1,
        ty1 := int_min (cp.ty0 + (q + 1) * cp.tdy) image.y1,
        numcomps := image.numcomps }
      let l1 := l_pi.set pino s1
      match l1[0]? with
      | none => .error .bounds
      | some s0 =>
        match opj_for (pi_comp_iter image tcp s0.tx0 s0.ty0 s0.tx1 s0.ty1) s0.numcomps.toNat 0
            (0, 0, []) with
        | .error e => .error e
        | .ok (maxres, maxprec, comps) =>
          let buf :=
            if pino = 0 then
              some (List.replicate (image.numcomps * maxres * tcp.numlayers * maxprec).toNat 0)
            else
              match l1[pino - 1]? with
              | some prev => some prev.incl
              | none => none
          match buf with
          | none => .error .bounds
          | some incl =>
            let s2 := { s1 with
              comps := comps, step_p := 1, step_c := maxprec * 1,
              step_r := image.numcomps * (maxprec * 1),
              step_l := maxres * (image.numcomps * (maxprec * 1)),
              incl := incl }
            if tcp.POC = false then
              .ok (l1.set pino
                { s2 with
                  first := true,
                  poc := { s2.poc with
                    resno0 := 0, compno0 := 0, layno1 := tcp.numlayers, resno1 := maxres,
                    compno1 := image.numcomps, prg := tcp.prg, layno0 := 0, precno0 := 0,
                    precno1 := maxprec } })
            else
              match tcp.pocs[pino]? with
              | none => .error .bounds
              | some poc =>
                .ok (l1.set pino
                  { s2 with
                    first := true,
                    poc := { s2.poc with
                      resno0 := poc.resno0, compno0 := poc.compno0, layno1 := poc.layno1,
                      resno1 := poc.resno1, compno1 := poc.compno1, prg := poc.prg,
                      layno0 := 0, precno0 := 0, precno1 := maxprec } })

/-- The function `pi_create_decode` (allocation is assumed to succeed). -/
def pi_create_decode (image : opj_image) (cp : opj_cp) (tileno : Int) :
    Except pi_fault (List opj_pi_iterator) :=
  match arr_get cp.tcps tileno with
  | none => .error .bounds
  | some tcp =>
    opj_for (pi_create_decode_slot image cp tcp tileno) (tcp.numpocs + 1).toNat 0
      (List.replicate (tcp.numpocs + 1).toNat pi_zero)

/-- The variables carried by the loop over `pino` of `pi_initialise_encode`: the
iterator array, the array `tcp->pocs` that the function writes, and the locals
`maxres` and `maxprec`, which are declared outside the loop. -/
structure pi_enc_state where
  l_pi : List opj_pi_iterator
  pocs : List opj_poc
  maxres : Int
  maxprec : Int

/-- One iteration of the loop over `resno` that computes `pi[pino].dx` and
`pi[pino].dy` in `pi_initialise_encode`; the component record and the running
values `pi->dx`, `pi->dy` are read from slot 0. -/
def pi_encode_step_res (pino compno resno : Nat) (l_pi : List opj_pi_iterator) :
    Except pi_fault (List opj_pi_iterator) :=
  match l_pi[0]?, l_pi[pino]? with
  | some s0, some s =>
    match s0.comps[compno]? with
    | none => .error .bounds
    | some comp =>
      match comp.resolutions[resno]? with
      | none => .error .bounds
      | some res =>
        let dx : Int := comp.dx * pow2 (res.pdx + comp.numresolutions - 1 - resno)
        let dy : Int := comp.dy * pow2 (res.pdy + comp.numresolutions - 1 - resno)
        let s1 : opj_pi_iterator :=
          { s with
            dx := if s0.dx = (0 : Int) then dx else int_min s0.dx dx,
            dy := if s0.dy = (0 : Int) then dy else int_min s0.dy dy }
        .ok (l_pi.set pino s1)
  | _, _ => .error .bounds

/-- One iteration of the loop `for (compno = 0; compno < pi->numcomps; compno++)`
that computes the steps in `pi_initialise_encode`. -/
def pi_encode_step_comp (pino compno : Nat) (l_pi : List opj_pi_iterator) :
    Except pi_fault (List opj_pi_iterator) :=
  match l_pi[0]? with
  | none => .error .bounds
  | some s0 =>
    match s0.comps[compno]? with
    | none => .error .bounds
    | some comp => opj_for (pi_encode_step_res pino compno) comp.numresolutions.toNat 0 l_pi

/-- The block "Generation of boundaries for each prog flag" of `pi_initialise_encode`
for POC `pino`, up to the assignments of `prcS`. -/
def pi_encode_bounds (image : opj_image) (cp : opj_cp) (tcp : opj_tcp) (t2_mode : J2K_T2_MODE)
    (maxres : Int) (pino : Nat) (pocs : List opj_poc) (poc : opj_poc) : Except pi_fault opj_poc :=
  if tcp.POC && (cp.cinema != 0 || (cp.cinema == 0 && t2_mode == J2K_T2_MODE.FINAL_PASS)) then
    let poc1 := { poc with
      compS := poc.compno0, compE := poc.compno1, resS := poc.resno0, resE := poc.resno1,
      layE := poc.layno1, prg := poc.prg1 }
    if pino > 0 then
      match pocs[pino - 1]? with
      | none => .error .bounds
      | some prev => .ok { poc1 with layS := if poc1.layE > prev.layE then prev.layE else 0 }
    else .ok poc1
  else
    .ok { poc with
      compS := 0, compE := image.numcomps, resS := 0, resE := maxres, layS := 0,
      layE := tcp.numlayers, prg := tcp.prg }

/-- One iteration of the loop over `pino` of `pi_initialise_encode`. -/
def pi_initialise_encode_slot (image : opj_image) (cp : opj_cp) (tcp : opj_tcp) (tileno : Int)
    (t2_mode : J2K_T2_MODE) (pino : Nat) (st : pi_enc_state) : Except pi_fault pi_enc_state :=
  match st.l_pi[pino]? with
  | none => .error .bounds
  | some s =>
    if cp.tw = 0 then .error .div_by_zero
    else
      let p := Int.tmod tileno cp.tw
      let q := Int.tdiv tileno cp.tw
      let s1 := { s with
        tx0 := int_max (cp.tx0 + p * cp.tdx) image.x0,
        ty0 := int_max (cp.ty0 + q * cp.tdy) image.y0,
        tx1 := int_min (cp.tx0 + (p + 1) * cp.tdx) image.x1,
        ty1 := int_min (cp.ty0 + (q + 1) * cp.tdy) image.y1,
        numcomps := image.numcomps }
      match opj_for (pi_comp_iter image tcp s1.tx0 s1.ty0 s1.tx1 s1.ty1) s1.numcomps.toNat 0
          (st.maxres, st.maxprec, []) with
      | .error e => .error e
      | .ok (maxres, maxprec, comps) =>
        let l2 := st.l_pi.set pino
          { s1 with
            comps := comps, step_p := 1, step_c := maxprec * 1,
            step_r := image.numcomps * (maxprec * 1),
            step_l := maxres * (image.numcomps * (maxprec * 1)) }
        match l2[0]? with
        | none => .error .bounds
        | some s0 =>
          match opj_for (pi_encode_step_comp pino) s0.numcomps.toNat 0 l2 with
          | .error e => .error e
          | .ok l3 =>
            match l3[pino]?, st.pocs[pino]? with
            | some s3, some poc =>
              let buf :=
                if pino = 0 then some (List.replicate (tcp.numlayers * s3.step_l).toNat 0)
                else
                  match l3[pino - 1]? with
                  | some prev => some prev.incl
                  | none => none
              match buf with
              | none => .error .bounds
              | some incl =>
                match pi_encode_bounds image cp tcp t2_mode maxres pino st.pocs poc with
                | .error e => .error e
                | .ok poc1 =>
                  .ok { l_pi := l3.set pino { s3 with incl := incl },
                        pocs := st.pocs.set pino
                          { poc1 with
                            prcS := 0, prcE := maxprec, txS := s3.tx0, txE := s3.tx1,
                            tyS := s3.ty0, tyE := s3.ty1, dx := s3.dx, dy := s3.dy },
                        maxres := maxres, maxprec := maxprec }
            | _, _ => .error .bounds

/-- The function `pi_initialise_encode` (allocation is assumed to succeed).  It
returns the iterator array and the tile coding parameters with the array `pocs`
that it has written. -/
def pi_initialise_encode (image : opj_image) (cp : opj_cp) (tileno : Int)
    (t2_mode : J2K_T2_MODE) : Except pi_fault (List opj_pi_iterator × opj_tcp) :=
  match arr_get cp.tcps tileno with
  | none => .error .bounds
  | some tcp =>
    match (List.replicate (tcp.numpocs + 1).toNat pi_zero)[0]? with
    | none => .error .bounds
    | some s0 =>
      match opj_for (pi_initialise_encode_slot image cp tcp tileno t2_mode)
          (tcp.numpocs + 1).toNat 0
          { l_pi := (List.replicate (tcp.numpocs + 1).toNat pi_zero).set 0
              { s0 with tp_on := cp.tp_on },
            pocs := tcp.pocs, maxres := 0, maxprec := 0 } with
      | .error e => .error e
      | .ok st => .ok (st.l_pi, { tcp with pocs := st.pocs })

/-! ## The tile-part configurator `pi_create_encode` -/

/-- The letters of the progression strings copied into `prog`. -/
inductive pi_axis where
  | C
  | P
  | R
  | L
  deriving DecidableEq, Repr

/-- The string that `pi_create_encode` copies into `prog`; `none` for `PROG_UNKNOWN`,
where the function returns. -/
def pi_prog : OPJ_PROG_ORDER → Option (List pi_axis)
  | .CPRL => some [.C, .P, .R, .L]
  | .LRCP => some [.L, .R, .C, .P]
  | .PCRL => some [.P, .C, .R, .L]
  | .RLCP => some [.R, .L, .C, .P]
  | .RPCL => some [.R, .P, .C, .L]
  | .PROG_UNKNOWN => none

/-- The variables of the loop `for (i = 3; i >= 0; i--)` of `pi_create_encode`:
`pi[pino].poc`, the POC `tcps->pocs[pino]` (the variable `tcp` of the source) and the
locals `incr_top` and `resetX`. -/
structure pi_tp_state where
  poc : opj_poc
  tcp : opj_poc
  incr_top : Int
  resetX : Int

/-- The statements of one of the cases `'C'`, `'R'`, `'L'` and `'P'` (under LRCP and
RLCP), which the source repeats for the four axes: from the range `[S, E)`, the tail
cursor `t` and `incr_top`, the window `(lo, hi)` stored in `pi[pino].poc`, the new tail
cursor and the new `incr_top`. -/
def pi_tp_axis (S E t i tppos tpnum incr_top : Int) : Int × Int × Int × Int :=
  if i > tppos then (S, E, t, incr_top)
  else if tpnum = 0 then (S, S + 1, S + 1, incr_top)
  else if incr_top = 1 then
    if t = E then (S, S + 1, S + 1, 1)
    else (t, t + 1, t + 1, 0)
  else (t - 1, t, t, incr_top)

/-- The case `'C'`. -/
def pi_tp_comp (i tppos tpnum : Int) (st : pi_tp_state) : pi_tp_state :=
  let r := pi_tp_axis st.tcp.compS st.tcp.compE st.tcp.comp_t i tppos tpnum st.incr_top
  { st with
    poc := { st.poc with compno0 := r.1, compno1 := r.2.1 },
    tcp := { st.tcp with comp_t := r.2.2.1 },
    incr_top := r.2.2.2 }

/-- The case `'R'`. -/
def pi_tp_res (i tppos tpnum : Int) (st : pi_tp_state) : pi_tp_state :=
  let r := pi_tp_axis st.tcp.resS st.tcp.resE st.tcp.res_t i tppos tpnum st.incr_top
  { st with
    poc := { st.poc with resno0 := r.1, resno1 := r.2.1 },
    tcp := { st.tcp with res_t := r.2.2.1 },
    incr_top := r.2.2.2 }

/-- The case `'L'`. -/
def pi_tp_lay (i tppos tpnum : Int) (st : pi_tp_state) : pi_tp_state :=
  let r := pi_tp_axis st.tcp.layS st.tcp.layE st.tcp.lay_t i tppos tpnum st.incr_top
  { st with
    poc := { st.poc with layno0 := r.1, layno1 := r.2.1 },
    tcp := { st.tcp with lay_t := r.2.2.1 },
    incr_top := r.2.2.2 }

/-- The case `'P'` under LRCP and RLCP. -/
def pi_tp_prec (i tppos tpnum : Int) (st : pi_tp_state) : pi_tp_state :=
  let r := pi_tp_axis st.tcp.prcS st.tcp.prcE st.tcp.prc_t i tppos tpnum st.incr_top
  { st with
    poc := { st.poc with precno0 := r.1, precno1 := r.2.1 },
    tcp := { st.tcp with prc_t := r.2.2.1 },
    incr_top := r.2.2.2 }

/-- The case `'P'` under RPCL, PCRL and CPRL (the `default` of the inner switch).
Every branch with `i <= tppos` evaluates both `% tcp->dx` and `% tcp->dy`. -/
def pi_tp_pos (i tppos tpnum : Int) (st : pi_tp_state) : Except pi_fault pi_tp_state :=
  let tcp := st.tcp
  if i > tppos then
    .ok { st with
      poc := { st.poc with tx0 := tcp.txS, ty0 := tcp.tyS, tx1 := tcp.txE, ty1 := tcp.tyE } }
  else if tcp.dx = 0 ∨ tcp.dy = 0 then .error .div_by_zero
  else if tpnum = 0 then
    let x1 := tcp.txS + tcp.dx - Int.tmod tcp.txS tcp.dx
    let y1 := tcp.tyS + tcp.dy - Int.tmod tcp.tyS tcp.dy
    .ok { st with
      poc := { st.poc with tx0 := tcp.txS, tx1 := x1, ty0 := tcp.tyS, ty1 := y1 },
      tcp := { tcp with tx0_t := x1, ty0_t := y1 } }
  else if st.incr_top = 1 then
    if tcp.tx0_t ≥ tcp.txE then
      let y0 := if tcp.ty0_t ≥ tcp.tyE then tcp.tyS else tcp.ty0_t
      let top : Int := if tcp.ty0_t ≥ tcp.tyE then 1 else 0
      let y1 := y0 + tcp.dy - Int.tmod y0 tcp.dy
      let resetX : Int := 1
      if resetX = 1 then
        let x1 := tcp.txS + tcp.dx - Int.tmod tcp.txS tcp.dx
        .ok { st with
          poc := { st.poc with ty0 := y0, ty1 := y1, tx0 := tcp.txS, tx1 := x1 },
          tcp := { tcp with ty0_t := y1, tx0_t := x1 },
          incr_top := top, resetX := resetX }
      else
        .ok { st with
          poc := { st.poc with ty0 := y0, ty1 := y1 },
          tcp := { tcp with ty0_t := y1 },
          incr_top := top, resetX := resetX }
    else
      let x1 := tcp.tx0_t + tcp.dx - Int.tmod tcp.tx0_t tcp.dx
      .ok { st with
        poc := { st.poc with
          tx0 := tcp.tx0_t, tx1 := x1,
          ty0 := tcp.ty0_t - tcp.dy - Int.tmod tcp.ty0_t tcp.dy, ty1 := tcp.ty0_t },
        tcp := { tcp with tx0_t := x1 },
        incr_top := 0 }
  else
    .ok { st with
      poc := { st.poc with
        tx0 := tcp.tx0_t - tcp.dx - Int.tmod tcp.tx0_t tcp.dx, tx1 := tcp.tx0_t,
        ty0 := tcp.ty0_t - tcp.dy - Int.tmod tcp.ty0_t tcp.dy, ty1 := tcp.ty0_t } }

/-- One iteration of the loop `for (i = 3; i >= 0; i--)`: the `switch (prog[i])`. -/
def pi_tp_step (prg : OPJ_PROG_ORDER) (tppos tpnum : Int) (prog : List pi_axis) (i : Nat)
    (st : pi_tp_state) : Except pi_fault pi_tp_state :=
  match prog[i]? with
  | none => .error .bounds
  | some .C => .ok (pi_tp_comp i tppos tpnum st)
  | some .R => .ok (pi_tp_res i tppos tpnum st)
  | some .L => .ok (pi_tp_lay i tppos tpnum st)
  | some .P =>
    match prg with
    | .LRCP => .ok (pi_tp_prec i tppos tpnum st)
    | .RLCP => .ok (pi_tp_prec i tppos tpnum st)
    | _ => pi_tp_pos i tppos tpnum st

/-- The loop `for (i = 3; i >= 0; i--)` of `pi_create_encode`. -/
def pi_tp_loop (prg : OPJ_PROG_ORDER) (tppos tpnum : Int) (prog : List pi_axis)
    (st : pi_tp_state) : Except pi_fault pi_tp_state :=
  match pi_tp_step prg tppos tpnum prog 3 st with
  | .error e => .error e
  | .ok st3 =>
    match pi_tp_step prg tppos tpnum prog 2 st3 with
    | .error e => .error e
    | .ok st2 =>
      match pi_tp_step prg tppos tpnum prog 1 st2 with
      | .error e => .error e
      | .ok st1 => pi_tp_step prg tppos tpnum prog 0 st1

/-- Tile-parts are active: `cp->tp_on && ((!cp->cinema && (t2_mode == FINAL_PASS)) ||
cp->cinema)`. -/
def pi_tp_active (cp : opj_cp) (t2_mode : J2K_T2_MODE) : Bool :=
  cp.tp_on && ((cp.cinema == 0 && t2_mode == J2K_T2_MODE.FINAL_PASS) || cp.cinema != 0)

/-- The coding parameters with `tcps[tileno].pocs[pino]` replaced by `poc`. -/
def cp_set_poc (cp : opj_cp) (tcps : opj_tcp) (tileno pino : Int) (poc : opj_poc) : opj_cp :=
  { cp with
    tcps := cp.tcps.set tileno.toNat { tcps with pocs := tcps.pocs.set pino.toNat poc } }

/-- The function `pi_create_encode`.  It returns its result, the iterator array,
and the coding parameters, of which it writes `tcps[tileno].pocs[pino]`. -/
def pi_create_encode (l_pi : List opj_pi_iterator) (cp : opj_cp) (tileno pino tpnum tppos : Int)
    (t2_mode : J2K_T2_MODE) (cur_totnum_tp : Int) :
    Except pi_fault (Bool × List opj_pi_iterator × opj_cp) :=
  match arr_get cp.tcps tileno with
  | none => .error .bounds
  | some tcps =>
    match arr_get tcps.pocs pino, arr_get l_pi pino with
    | some tcp, some s =>
      let s1 := { s with first := true, poc := { s.poc with prg := tcp.prg } }
      match pi_prog tcp.prg with
      | none => .ok (true, l_pi.set pino.toNat s1, cp)
      | some prog =>
        if !(pi_tp_active cp t2_mode) then
          .ok (false,
            l_pi.set pino.toNat
              { s1 with
                poc := { s1.poc with
                  resno0 := tcp.resS, resno1 := tcp.resE, compno0 := tcp.compS,
                  compno1 := tcp.compE, layno0 := tcp.layS, layno1 := tcp.layE,
                  precno0 := tcp.prcS, precno1 := tcp.prcE, tx0 := tcp.txS, ty0 := tcp.tyS,
                  tx1 := tcp.txE, ty1 := tcp.tyE } },
            cp)
        else if tpnum < cur_totnum_tp then
          match pi_tp_loop tcp.prg tppos tpnum prog
              { poc := s1.poc, tcp := tcp, incr_top := 1, resetX := 0 } with
          | .error e => .error e
          | .ok st =>
            .ok (false, l_pi.set pino.toNat { s1 with poc := st.poc },
              cp_set_poc cp tcps tileno pino st.tcp)
        else .ok (false, l_pi.set pino.toNat s1, cp)
    | _, _ => .error .bounds

/-- The calls `pi_create_encode(..., tpnum, ...)` for `tpnum = 0, 1, ..., k` in turn
on one POC, each on the array and the coding parameters that the call before it
left. -/
def pi_create_encode_seq (tileno pino tppos : Int) (t2_mode : J2K_T2_MODE)
    (cur_totnum_tp : Int) : Nat → List opj_pi_iterator → opj_cp →
    Except pi_fault (List opj_pi_iterator × opj_cp)
  | 0, l_pi, cp =>
    match pi_create_encode l_pi cp tileno pino 0 tppos t2_mode cur_totnum_tp with
    | .error e => .error e
    | .ok r => .ok r.2
  | k + 1, l_pi, cp =>
    match pi_create_encode_seq tileno pino tppos t2_mode cur_totnum_tp k l_pi cp with
    | .error e => .error e
    | .ok (l1, cp1) =>
      match pi_create_encode l1 cp1 tileno pino (k + 1) tppos t2_mode cur_totnum_tp with
      | .error e => .error e
      | .ok r => .ok r.2

/-- A POC as `pi_initialise_encode` leaves it for a tile of `[0, 2) x [0, 1)` with
three resolutions, one component and one layer: progression RPCL and steps
`dx = dy = 1`. -/
def ex_poc_tp : opj_poc :=
  { poc_zero with
    prg := .RPCL, prg1 := .RPCL, resS := 0, resE := 3, compS := 0, compE := 1, layS := 0,
    layE := 1, prcS := 0, prcE := 2, txS := 0, txE := 2, tyS := 0, tyE := 1, dx := 1, dy := 1 }

/-- Coding parameters with tile-parts on and the POC `ex_poc_tp`. -/
def ex_cp_tp : opj_cp :=
  { cinema := 0, tp_on := true, tx0 := 0, ty0 := 0, tdx := 2, tdy := 1, tw := 1, th := 1,
    tcps := [{ numlayers := 1, prg := .RPCL, numpocs := 0, POC := false, pocs := [ex_poc_tp],
               tccps := [{ csty := 1, numresolutions := 3, prcw := [0, 0, 0],
                           prch := [0, 0, 0] }] }] }

/-! ## Frames and emission facts -/

/-- The cell of the cursor of `t` holds 0 in the bitmap of `s`, and the bitmap of
`t` is that of `s` with this cell set to 1. -/
def pi_marks (s t : opj_pi_iterator) : Prop :=
  arr_get s.incl (pi_index t) = some 0 ∧ t.incl = s.incl.set (pi_index t).toNat 1

/-- The cursor lies in the POC box of the iterator. -/
def pi_in_box (t : opj_pi_iterator) : Prop :=
  t.poc.layno0 ≤ t.layno ∧ t.layno < t.poc.layno1 ∧
  t.poc.resno0 ≤ t.resno ∧ t.resno < t.poc.resno1 ∧
  t.poc.compno0 ≤ t.compno ∧ t.compno < t.poc.compno1

/-- The iterator with the fields written by the loop over `precno` of LRCP and
RLCP blanked. -/
def view_p (t : opj_pi_iterator) : opj_pi_iterator :=
  { t with incl := [], precno := 0 }

/-- The iterator with the fields written by the loop over `compno` of LRCP and
RLCP blanked. -/
def view_c (t : opj_pi_iterator) : opj_pi_iterator :=
  { t with incl := [], precno := 0, compno := 0, poc := { t.poc with precno1 := 0 } }

/-- The iterator with the fields written by `pi_next_lrcp` and `pi_next_rlcp`
blanked. -/
def view_lrcp (t : opj_pi_iterator) : opj_pi_iterator :=
  { t with incl := [], precno := 0, compno := 0, resno := 0, layno := 0, first := false,
           poc := { t.poc with precno1 := 0 } }

/-- The iterator with the fields written by the loops of LRCP and RLCP blanked
(all but `first`). -/
def view_l (t : opj_pi_iterator) : opj_pi_iterator :=
  { t with incl := [], precno := 0, compno := 0, resno := 0, layno := 0,
           poc := { t.poc with precno1 := 0 } }

/-- What holds of the precinct cursor after `pi_next_lrcp` or `pi_next_rlcp`
returned `OPJ_TRUE`. -/
def lrcp_cell (t : opj_pi_iterator) : Prop :=
  t.poc.precno0 ≤ t.precno ∧ t.precno < t.poc.precno1 ∧
  ∃ comp, arr_get t.comps t.compno = some comp ∧ t.resno < comp.numresolutions ∧
    (t.tp_on = false →
      ∃ res, arr_get comp.resolutions t.resno = some res ∧ t.poc.precno1 = res.pw * res.ph)

/-- What holds of the cursor after `pi_next_lrcp` or `pi_next_rlcp` returned
`OPJ_TRUE`. -/
def lrcp_at (t : opj_pi_iterator) : Prop :=
  t.first = false ∧ pi_in_box t ∧ lrcp_cell t

/-- The fields that no engine writes are the same in `s` and `t`. -/
structure pi_frame (s t : opj_pi_iterator) : Prop where
  tp_on : t.tp_on = s.tp_on
  step_l : t.step_l = s.step_l
  step_r : t.step_r = s.step_r
  step_c : t.step_c = s.step_c
  step_p : t.step_p = s.step_p
  numcomps : t.numcomps = s.numcomps
  comps : t.comps = s.comps
  tx0 : t.tx0 = s.tx0
  ty0 : t.ty0 = s.ty0
  tx1 : t.tx1 = s.tx1
  ty1 : t.ty1 = s.ty1
  layno0 : t.poc.layno0 = s.poc.layno0
  layno1 : t.poc.layno1 = s.poc.layno1
  resno0 : t.poc.resno0 = s.poc.resno0
  resno1 : t.poc.resno1 = s.poc.resno1
  compno0 : t.poc.compno0 = s.poc.compno0
  compno1 : t.poc.compno1 = s.poc.compno1
  precno0 : t.poc.precno0 = s.poc.precno0
  prg : t.poc.prg = s.poc.prg

/-- The iterator with every field that some engine writes blanked. -/
def pi_core (t : opj_pi_iterator) : opj_pi_iterator :=
  { t with incl := [], precno := 0, compno := 0, resno := 0, layno := 0, x := 0, y := 0,
           dx := 0, dy := 0, first := false,
           poc := { t.poc with precno1 := 0, tx0 := 0, tx1 := 0, ty0 := 0, ty1 := 0 } }

/-- The iterator with the fields written by the loop over `layno` of a spatial
engine blanked. -/
def view_sl (t : opj_pi_iterator) : opj_pi_iterator :=
  { t with incl := [], layno := 0 }

/-- The iterator with the fields written by `pi_spatial_body` blanked. -/
def view_s0 (t : opj_pi_iterator) : opj_pi_iterator :=
  { t with incl := [], layno := 0, precno := 0 }

/-- The iterator with the bitmap and the whole cursor blanked. -/
def view_s1 (t : opj_pi_iterator) : opj_pi_iterator :=
  { t with incl := [], layno := 0, precno := 0, resno := 0, compno := 0, x := 0, y := 0 }

/-- The iterator with the bitmap, the cursor, the step and the window blanked. -/
def view_s2 (t : opj_pi_iterator) : opj_pi_iterator :=
  { t with incl := [], layno := 0, precno := 0, resno := 0, compno := 0, x := 0, y := 0,
           dx := 0, dy := 0,
           poc := { t.poc with tx0 := 0, tx1 := 0, ty0 := 0, ty1 := 0 } }

/-- The layer cursor lies in the POC box. -/
def in_l (t : opj_pi_iterator) : Prop := t.poc.layno0 ≤ t.layno ∧ t.layno < t.poc.layno1

/-- The resolution cursor lies in the POC box. -/
def in_r (t : opj_pi_iterator) : Prop := t.poc.resno0 ≤ t.resno ∧ t.resno < t.poc.resno1

/-- The component cursor lies in the POC box. -/
def in_c (t : opj_pi_iterator) : Prop := t.poc.compno0 ≤ t.compno ∧ t.compno < t.poc.compno1

/-- The position `x` lies in the window of the POC (the lower bound is kept only
by a step that is not negative). -/
def in_x (t : opj_pi_iterator) : Prop := (0 ≤ t.dx → t.poc.tx0 ≤ t.x) ∧ t.x < t.poc.tx1

/-- The position `y` lies in the window of the POC. -/
def in_y (t : opj_pi_iterator) : Prop := (0 ≤ t.dy → t.poc.ty0 ≤ t.y) ∧ t.y < t.poc.ty1

/-- Without tile-parts the window of the POC is the tile. -/
def window_ok (t : opj_pi_iterator) : Prop :=
  t.tp_on = false →
    t.poc.tx0 = t.tx0 ∧ t.poc.ty0 = t.ty0 ∧ t.poc.tx1 = t.tx1 ∧ t.poc.ty1 = t.ty1

/-- The cursor is at a precinct of its component and resolution: the resolution
exists, the position passed every `continue` of the spatial engine, and `precno`
is the number computed there. -/
def spatial_hit (t : opj_pi_iterator) : Prop :=
  ∃ comp res, arr_get t.comps t.compno = some comp ∧ t.resno < comp.numresolutions ∧
    arr_get comp.resolutions t.resno = some res ∧
    pi_precinct_at t comp res = .ok (some t.precno)

/-- What holds of the cursor after a spatial engine returned `OPJ_TRUE`. -/
def spatial_at (t : opj_pi_iterator) : Prop :=
  t.first = false ∧ window_ok t ∧ in_l t ∧ in_r t ∧ in_c t ∧ in_x t ∧ in_y t ∧ spatial_hit t

/-- The step of `pi_next_cprl` is the one computed for the component of the cursor. -/
def cprl_step (t : opj_pi_iterator) : Prop :=
  ∃ comp, arr_get t.comps t.compno = some comp ∧ pi_step_comp comp (0, 0) = .ok (t.dx, t.dy)

/-- What the loops of `pi_next_cprl` re-entered through `LABEL_SKIP` need of the
state they start from. -/
def cprl_entry (u : opj_pi_iterator) : Prop :=
  u.first = false ∧ window_ok u ∧ u.poc.resno0 ≤ u.resno ∧ in_c u ∧ in_x u ∧ in_y u

/-! ## Example inputs -/

/-- An image of 16 x 16 samples with two components that are not subsampled. -/
def ex_image : opj_image :=
  { x0 := 0, y0 := 0, x1 := 16, y1 := 16, numcomps := 2, comps := [⟨1, 1⟩, ⟨1, 1⟩] }

/-- Component coding parameters: three resolutions, precinct exponents 15. -/
def ex_tccp : opj_tccp :=
  { csty := 0, numresolutions := 3, prcw := List.replicate 33 15, prch := List.replicate 33 15 }

/-- Coding parameters: one tile of 16 x 16, two layers, no POC, progression `prg`. -/
def ex_cp (prg : OPJ_PROG_ORDER) : opj_cp :=
  { cinema := 0, tp_on := false, tx0 := 0, ty0 := 0, tdx := 16, tdy := 16, tw := 1, th := 1,
    tcps := [{ numlayers := 2, prg := prg, numpocs := 0, POC := false, pocs := [],
               tccps := [ex_tccp, ex_tccp] }] }

/-- The component record of the example: one precinct at each of three resolutions. -/
def ex_comp : opj_pi_comp :=
  { dx := 1, dy := 1, numresolutions := 3, resolutions := List.replicate 3 ⟨15, 15, 1, 1⟩ }

/-- The iterator that `pi_create_decode_v2` builds for `ex_image` and `ex_cp prg`. -/
def ex_slot (prg : OPJ_PROG_ORDER) : opj_pi_iterator :=
  { pi_zero with
    incl := List.replicate 18 0, step_p := 1, step_c := 1, step_r := 2, step_l := 6,
    first := true, numcomps := 2, comps := [ex_comp, ex_comp], tx1 := 16, ty1 := 16,
    poc := { poc_zero with prg := prg, resno1 := 3, compno1 := 2, layno1 := 2, precno1 := 1 } }

/-- The row `row` of `get_all_encoding_parameters` holds, for every resolution of a
component with image record `ic` and coding parameters `tccp`, the record computed
from the tile extents and the precinct exponents `prcw[resno]`, `prch[resno]`. -/
def enc_row_ok (tx0 tx1 ty0 ty1 : Int) (ic : opj_image_comp) (tccp : opj_tccp)
    (row : List opj_pi_resolution) : Prop :=
  row.length = tccp.numresolutions.toNat ∧
  ∀ r : Nat, r < tccp.numresolutions.toNat →
    ∃ pdx pdy, tccp.prcw[r]? = some pdx ∧ tccp.prch[r]? = some pdy ∧
      row[r]? = some (enc_resolution (int_ceildiv tx0 ic.dx) (int_ceildiv ty0 ic.dy)
        (int_ceildiv tx1 ic.dx) (int_ceildiv ty1 ic.dy) (tccp.numresolutions - 1 - r) pdx pdy)

/-- The values that `get_all_encoding_parameters` returns for `ex_image` and `ex_cp`. -/
def ex_enc : opj_enc_params :=
  { p_tx0 := 0, p_tx1 := 16, p_ty0 := 0, p_ty1 := 16, p_dx_min := 32768, p_dy_min := 32768,
    p_max_prec := 1, p_max_res := 3,
    p_resolutions := [List.replicate 3 ⟨15, 15, 1, 1⟩, List.replicate 3 ⟨15, 15, 1, 1⟩] }

/-- The count `(r0 == r1) ? 0 : ((p1 - p0) >> pd)` with `p0 = int_floordivpow2(r0, pd) << pd`
and `p1 = int_ceildivpow2(r1, pd) << pd`, which `enc_resolution` stores in `pw` and `ph`. -/
def precinct_count (r0 r1 pd : Int) : Int :=
  if r0 = r1 then 0
  else shr (shl (int_ceildivpow2 r1 pd) pd - shl (int_floordivpow2 r0 pd) pd) pd

/-- An example POC segment: LRCP over resolutions `[0, 2)`, component 0, layer 0. -/
def ex_poc : opj_poc :=
  { poc_zero with prg := .LRCP, resno0 := 0, compno0 := 0, layno1 := 1, resno1 := 2,
                  compno1 := 1 }

/-- Tile coding parameters with two identical POC segments (scenario S4). -/
def ex_tcp_poc : opj_tcp :=
  { numlayers := 1, prg := .LRCP, numpocs := 1, POC := true, pocs := [ex_poc, ex_poc],
    tccps := [{ csty := 0, numresolutions := 2, prcw := List.replicate 33 15,
                prch := List.replicate 33 15 }] }

/-- The component records of a slot built by `pi_create_decode_v2`: the subsampling
of the image component, the resolution count of its coding parameters and the row of
records that `get_all_encoding_parameters` returned for it. -/
def decode_comps_ok (image : opj_image) (tcp : opj_tcp) (e : opj_enc_params)
    (cs : List opj_pi_comp) : Prop :=
  cs.length = image.numcomps.toNat ∧
  ∀ c : Nat, c < image.numcomps.toNat →
    ∃ ic tccp row, image.comps[c]? = some ic ∧ tcp.tccps[c]? = some tccp ∧
      e.p_resolutions[c]? = some row ∧
      cs[c]? = some { dx := ic.dx, dy := ic.dy, numresolutions := tccp.numresolutions,
                      resolutions := row }

/-- The POC box that `pi_update_decode_poc` (when the tile has POC segments) or
`pi_update_decode_not_poc` (otherwise) stores in slot `pino` of a zeroed iterator. -/
def decode_poc (tcp : opj_tcp) (e : opj_enc_params) (numcomps : Int) (pino : Nat) :
    Option opj_poc :=
  if tcp.POC then
    match tcp.pocs[pino]? with
    | some poc =>
      some { poc_zero with
        prg := poc.prg, resno0 := poc.resno0, compno0 := poc.compno0, layno0 := 0,
        precno0 := 0, resno1 := poc.resno1, compno1 := poc.compno1, layno1 := poc.layno1,
        precno1 := e.p_max_prec }
    | none => none
  else
    some { poc_zero with
      prg := tcp.prg, resno0 := 0, compno0 := 0, layno0 := 0, precno0 := 0,
      resno1 := e.p_max_res, compno1 := numcomps, layno1 := tcp.numlayers,
      precno1 := e.p_max_prec }

/-- The slot that `pi_create_decode_v2` returns, given its component records and its
POC box. -/
def decode_slot (image : opj_image) (tcp : opj_tcp) (e : opj_enc_params)
    (cs : List opj_pi_comp) (poc : opj_poc) : opj_pi_iterator :=
  { pi_zero with
    numcomps := image.numcomps, comps := cs,
    incl := List.replicate
      ((tcp.numlayers + 1) * (e.p_max_res * (image.numcomps * (e.p_max_prec * 1)))).toNat 0,
    tx0 := e.p_tx0, ty0 := e.p_ty0, tx1 := e.p_tx1, ty1 := e.p_ty1,
    step_p := 1, step_c := e.p_max_prec, step_r := image.numcomps * e.p_max_prec,
    step_l := e.p_max_res * (image.numcomps * e.p_max_prec),
    first := true, poc := poc }

/-- The row `row` written by the loop over `resno` of `pi_create_decode` and
`pi_initialise_encode` for a component with image record `ic` and coding parameters
`tccp`: one record per resolution, computed from the tile extents and the precinct
exponents of `pi_precinct_exps`. -/
def pi_row_ok (tx0 ty0 tx1 ty1 : Int) (ic : opj_image_comp) (tccp : opj_tccp)
    (row : List opj_pi_resolution) : Prop :=
  row.length = tccp.numresolutions.toNat ∧
  ∀ r : Nat, r < tccp.numresolutions.toNat →
    ∃ pdx pdy, pi_precinct_exps tccp r = .ok (pdx, pdy) ∧
      row[r]? = some (enc_resolution (int_ceildiv tx0 ic.dx) (int_ceildiv ty0 ic.dy)
        (int_ceildiv tx1 ic.dx) (int_ceildiv ty1 ic.dy) (tccp.numresolutions - 1 - r) pdx pdy)

/-- The component records written by the loop over `compno` of `pi_create_decode`
and `pi_initialise_encode`. -/
def pi_comps_ok (image : opj_image) (tcp : opj_tcp) (tx0 ty0 tx1 ty1 : Int) (n : Nat)
    (cs : List opj_pi_comp) : Prop :=
  cs.length = n ∧
  ∀ c : Nat, c < n → ∃ ic tccp row, image.comps[c]? = some ic ∧ tcp.tccps[c]? = some tccp ∧
    ic.dx ≠ 0 ∧ ic.dy ≠ 0 ∧
    cs[c]? = some { dx := ic.dx, dy := ic.dy, numresolutions := tccp.numresolutions,
                    resolutions := row } ∧
    pi_row_ok tx0 ty0 tx1 ty1 ic tccp row

/-- The iterator without its steps `dx` and `dy`. -/
def view_step (t : opj_pi_iterator) : opj_pi_iterator := { t with dx := 0, dy := 0 }

/-- An image of 16 x 16 samples with one component. -/
def ex_image_one : opj_image :=
  { x0 := 0, y0 := 0, x1 := 16, y1 := 16, numcomps := 1, comps := [⟨1, 1⟩] }

/-- Coding parameters whose only component has the precinct flag of `csty` clear
while `prcw[0] = 5` and `prch[0] = 4`: one tile, one layer, one resolution. -/
def ex_cp_prc : opj_cp :=
  { cinema := 0, tp_on := false, tx0 := 0, ty0 := 0, tdx := 16, tdy := 16, tw := 1, th := 1,
    tcps := [{ numlayers := 1, prg := .LRCP, numpocs := 0, POC := false, pocs := [poc_zero],
               tccps := [{ csty := 0, numresolutions := 1, prcw := [5], prch := [4] }] }] }

/-- Coding parameters of `ex_cp` with room for the boundaries of one POC, which
`pi_initialise_encode` writes. -/
def ex_cp_enc : opj_cp :=
  { cinema := 0, tp_on := false, tx0 := 0, ty0 := 0, tdx := 16, tdy := 16, tw := 1, th := 1,
    tcps := [{ numlayers := 2, prg := .LRCP, numpocs := 0, POC := false, pocs := [poc_zero],
               tccps := [ex_tccp, ex_tccp] }] }

/-- Call number `n` (counted from 0) of `pi_next` on one slot, each call made on the
state that the call before it left and only after that call returned `OPJ_TRUE`: the
outcome of call `n` when the calls `0 .. n - 1` all returned `OPJ_TRUE`, otherwise the
outcome of the first call that did not. -/
def pi_next_nth : Nat → opj_pi_iterator → pi_outcome
  | 0, s => pi_next s
  | n + 1, s =>
    match pi_next s with
    | .error e => .error e
    | .ok (false, t) => .ok (false, t)
    | .ok (true, t) => pi_next_nth n t

/-- What holds of an iterator after its engine returned `OPJ_TRUE`. -/
def pi_at (t : opj_pi_iterator) : Prop :=
  match t.poc.prg with
  | .LRCP => lrcp_at t
  | .RLCP => lrcp_at t
  | .RPCL => spatial_at t ∧ pi_step t = .ok (t.dx, t.dy)
  | .PCRL => spatial_at t ∧ pi_step t = .ok (t.dx, t.dy)
  | .CPRL => spatial_at t ∧ cprl_step t
  | .PROG_UNKNOWN => False

/-- An LRCP iterator with the tile-part flag set, whose only resolution record has
`pw = ph = 0` while the precinct range of the POC is `[0, 1)`. -/
def ex_slot_tp : opj_pi_iterator :=
  { pi_zero with
    tp_on := true, incl := [0], step_p := 1, step_c := 1, step_r := 1, step_l := 1,
    first := true, numcomps := 1,
    comps := [{ dx := 1, dy := 1, numresolutions := 1, resolutions := [⟨15, 15, 0, 0⟩] }],
    tx1 := 16, ty1 := 16,
    poc := { poc_zero with prg := .LRCP, resno1 := 1, compno1 := 1, layno1 := 1, precno1 := 1 } }

/-! ## Runs over the slots of one iterator array -/

/-- The quadruple `(layno, resno, compno, precno)` that a call reports. -/
def pi_packet (t : opj_pi_iterator) : Int × Int × Int × Int :=
  (t.layno, t.resno, t.compno, t.precno)

/-- One call `pi_next(&pi[pino])` on an iterator array.  The slots of the array
point to one bitmap: the bitmap that the call leaves is the one of every slot after
it. -/
def pi_next_slot (l_pi : List opj_pi_iterator) (pino : Nat) :
    Except pi_fault (Bool × List opj_pi_iterator) :=
  match l_pi[pino]? with
  | none => .error .bounds
  | some s =>
    match pi_next s with
    | .error e => .error e
    | .ok (b, t) => .ok (b, (l_pi.set pino t).map (fun u => { u with incl := t.incl }))

/-- A sequence of calls of `pi_next`, one for every slot number of the list in turn;
the result holds the quadruples reported by the calls that returned `OPJ_TRUE`, in the
order of the calls, and the iterator array after the last call. -/
def pi_run : List Nat → List opj_pi_iterator →
    Except pi_fault (List (Int × Int × Int × Int) × List opj_pi_iterator)
  | [], l_pi => .ok ([], l_pi)
  | pino :: rest, l_pi =>
    match pi_next_slot l_pi pino with
    | .error e => .error e
    | .ok (b, l1) =>
      match l1[pino]?, pi_run rest l1 with
      | some t, .ok (ps, l2) => .ok (if b then pi_packet t :: ps else ps, l2)
      | none, .ok _ => .error .bounds
      | _, .error e => .error e

/-- Coding parameters of scenario S4: one tile of 16 x 16 with one component, two
resolutions, one layer and two POC segments that cover the same box. -/
def ex_cp_poc : opj_cp :=
  { cinema := 0, tp_on := false, tx0 := 0, ty0 := 0, tdx := 16, tdy := 16, tw := 1, th := 1,
    tcps := [ex_tcp_poc] }

/-- Every slot of the array holds the bitmap `I` and the strides `L`, `R`, `C`, `P`. -/
def pi_shared (l_pi : List opj_pi_iterator) (I : List Int) (L R C P : Int) : Prop :=
  ∀ s, s ∈ l_pi → s.incl = I ∧ s.step_l = L ∧ s.step_r = R ∧ s.step_c = C ∧ s.step_p = P

/-- The bitmap index of a quadruple for the strides `L`, `R`, `C`, `P`. -/
def packet_index (L R C P : Int) (q : Int × Int × Int × Int) : Int :=
  q.1 * L + q.2.1 * R + q.2.2.1 * C + q.2.2.2 * P

/-- The calls `while (pi_next(pi)) ...` of a caller that reads one slot to exhaustion:
the quadruples reported by the calls that returned `OPJ_TRUE`, in order, and the slot
after the first call that returned `OPJ_FALSE`.  At most `n` calls are made. -/
def pi_drain : Nat → opj_pi_iterator →
    Except pi_fault (List (Int × Int × Int × Int) × opj_pi_iterator)
  | 0, _ => .error .no_progress
  | n + 1, s =>
    match pi_next s with
    | .error e => .error e
    | .ok (false, t) => .ok ([], t)
    | .ok (true, t) =>
      match pi_drain n t with
      | .error e => .error e
      | .ok (ps, u) => .ok (pi_packet t :: ps, u)

/-- An image of 12 x 1 samples with two components, subsampled by 2 and by 3 in `x`. -/
def ex_image_sub : opj_image :=
  { x0 := 0, y0 := 0, x1 := 12, y1 := 1, numcomps := 2, comps := [⟨2, 1⟩, ⟨3, 1⟩] }

/-- Coding parameters for `ex_image_sub`: one tile, one layer, no POC, one resolution
per component with precincts of 1 x 1 samples (`prcw[0] = prch[0] = 0`), progression
`prg`. -/
def ex_cp_sub (prg : OPJ_PROG_ORDER) : opj_cp :=
  { cinema := 0, tp_on := false, tx0 := 0, ty0 := 0, tdx := 12, tdy := 1, tw := 1, th := 1,
    tcps := [{ numlayers := 1, prg := prg, numpocs := 0, POC := false, pocs := [],
               tccps := [{ csty := 1, numresolutions := 1, prcw := [0], prch := [0] },
                         { csty := 1, numresolutions := 1, prcw := [0], prch := [0] }] }] }

/-- The strict lexicographic order of the key `(layno, resno, compno, precno)`. -/
def lrcp_lt (a b : Int × Int × Int × Int) : Prop :=
  a.1 < b.1 ∨ (a.1 = b.1 ∧ (a.2.1 < b.2.1 ∨ (a.2.1 = b.2.1 ∧
    (a.2.2.1 < b.2.2.1 ∨ (a.2.2.1 = b.2.2.1 ∧ a.2.2.2 < b.2.2.2)))))

/-- The strict lexicographic order of a key of five integers. -/
def rpcl_lt (a b : Int × Int × Int × Int × Int) : Prop :=
  a.1 < b.1 ∨ (a.1 = b.1 ∧ (a.2.1 < b.2.1 ∨ (a.2.1 = b.2.1 ∧
    (a.2.2.1 < b.2.2.1 ∨ (a.2.2.1 = b.2.2.1 ∧
      (a.2.2.2.1 < b.2.2.2.1 ∨ (a.2.2.2.1 = b.2.2.2.1 ∧ a.2.2.2.2 < b.2.2.2.2)))))))

/-- The key `(resno, y, x, compno, layno)` of the cursor, with the position `(x, y)`
on the reference grid. -/
def rpcl_pos (t : opj_pi_iterator) : Int × Int × Int × Int × Int :=
  (t.resno, t.y, t.x, t.compno, t.layno)

/-- The key `(resno, prcj, prci, compno, layno)` of a reported quadruple, where
`prci = precno mod pw` and `prcj = precno / pw` for the record of its component and
resolution. -/
def rpcl_key (s : opj_pi_iterator) (q : Int × Int × Int × Int) :
    Option (Int × Int × Int × Int × Int) :=
  match arr_get s.comps q.2.2.1 with
  | none => none
  | some comp =>
    match arr_get comp.resolutions q.2.1 with
    | none => none
    | some res =>
      if res.pw = 0 then none
      else some (q.2.1, Int.tdiv q.2.2.2 res.pw, Int.tmod q.2.2.2 res.pw, q.2.2.1, q.1)

/-- An image of 8 x 1 samples with two components that are not subsampled. -/
def ex_image_row : opj_image :=
  { x0 := 0, y0 := 0, x1 := 8, y1 := 1, numcomps := 2, comps := [⟨1, 1⟩, ⟨1, 1⟩] }

/-- Coding parameters for `ex_image_row`: one tile, one layer, no POC, progression
RPCL, one resolution per component, precincts of 4 x 1 samples in component 0 and of
2 x 1 samples in component 1. -/
def ex_cp_row : opj_cp :=
  { cinema := 0, tp_on := false, tx0 := 0, ty0 := 0, tdx := 8, tdy := 1, tw := 1, th := 1,
    tcps := [{ numlayers := 1, prg := .RPCL, numpocs := 0, POC := false, pocs := [],
               tccps := [{ csty := 1, numresolutions := 1, prcw := [2], prch := [0] },
                         { csty := 1, numresolutions := 1, prcw := [1], prch := [0] }] }] }

/-- The geometry of a slot is the one the builder computes: the tile extents are not
negative, the subsampling steps are positive, every component has as many resolution
records as it has resolutions, the precinct exponents are not negative, and every
record is the one computed from the tile extents. -/
def pi_geom (s : opj_pi_iterator) : Prop :=
  0 ≤ s.tx0 ∧ 0 ≤ s.ty0 ∧
  ∀ (c : Nat) (comp : opj_pi_comp), s.comps[c]? = some comp →
    0 < comp.dx ∧ 0 < comp.dy ∧ comp.resolutions.length = comp.numresolutions.toNat ∧
    ∀ (r : Nat) (res : opj_pi_resolution), comp.resolutions[r]? = some res →
      0 ≤ res.pdx ∧ 0 ≤ res.pdy ∧
      res = enc_resolution (int_ceildiv s.tx0 comp.dx) (int_ceildiv s.ty0 comp.dy)
        (int_ceildiv s.tx1 comp.dx) (int_ceildiv s.ty1 comp.dy)
        (comp.numresolutions - 1 - r) res.pdx res.pdy

/-- The value of a C `int` expression whose mathematical value is `a`, in 32-bit
two's complement arithmetic. -/
def wrap32 (a : Int) : Int := (a + 2147483648) % 4294967296 - 2147483648

/-- The update `pi->x += pi->dx - (pi->x % pi->dx)` (and the same for `y`) with every
operation taken in 32-bit two's complement arithmetic. -/
def incr_pos32 (x dx : Int) : Int := wrap32 (x + wrap32 (dx - wrap32 (Int.tmod x dx)))

/-- An image of samples `[1, 4) x [0, 1)` with two components, subsampled by 2 and by
3 in `x`. -/
def ex_image_off : opj_image :=
  { x0 := 1, y0 := 0, x1 := 4, y1 := 1, numcomps := 2, comps := [⟨2, 1⟩, ⟨3, 1⟩] }

/-- Coding parameters for `ex_image_off`: one tile, one layer, no POC, one resolution
per component with `prcw[0] = prch[0] = 0`, progression `prg`.  Both components have
one precinct (`pw = ph = 1`). -/
def ex_cp_off (prg : OPJ_PROG_ORDER) : opj_cp :=
  { cinema := 0, tp_on := false, tx0 := 0, ty0 := 0, tdx := 4, tdy := 1, tw := 1, th := 1,
    tcps := [{ numlayers := 1, prg := prg, numpocs := 0, POC := false, pocs := [],
               tccps := [{ csty := 1, numresolutions := 1, prcw := [0], prch := [0] },
                         { csty := 1, numresolutions := 1, prcw := [0], prch := [0] }] }] }

/-- The window of an axis in the POC box of an iterator (for `P`: the precinct range,
which LRCP and RLCP use). -/
def axis_window (a : pi_axis) (poc : opj_poc) : Int × Int :=
  match a with
  | .C => (poc.compno0, poc.compno1)
  | .R => (poc.resno0, poc.resno1)
  | .L => (poc.layno0, poc.layno1)
  | .P => (poc.precno0, poc.precno1)

/-- The start `S` of an axis: `compS`, `resS`, `layS` or `prcS`. -/
def axis_start (a : pi_axis) (tcp : opj_poc) : Int :=
  match a with
  | .C => tcp.compS
  | .R => tcp.resS
  | .L => tcp.layS
  | .P => tcp.prcS

/-- The end `E` of an axis: `compE`, `resE`, `layE` or `prcE`. -/
def axis_end (a : pi_axis) (tcp : opj_poc) : Int :=
  match a with
  | .C => tcp.compE
  | .R => tcp.resE
  | .L => tcp.layE
  | .P => tcp.prcE

/-- The tail cursor of an axis: `comp_t`, `res_t`, `lay_t` or `prc_t`. -/
def axis_tail (a : pi_axis) (tcp : opj_poc) : Int :=
  match a with
  | .C => tcp.comp_t
  | .R => tcp.res_t
  | .L => tcp.lay_t
  | .P => tcp.prc_t

/-- Every narrowed axis inside position `i` (the positions `j` with `i < j <= tppos`)
has its tail cursor at its end. -/
def axes_ended (prog : List pi_axis) (tcp : opj_poc) (tppos : Int) (i : Nat) : Prop :=
  ∀ (j : Nat) (a : pi_axis), prog[j]? = some a → i < j → (j : Int) ≤ tppos →
    axis_tail a tcp = axis_end a tcp

/-- A POC as `pi_initialise_encode` leaves it for a tile with three resolutions, two
components, two layers and one precinct: progression LRCP. -/
def ex_poc_lrcp : opj_poc :=
  { poc_zero with
    prg := .LRCP, prg1 := .LRCP, resS := 0, resE := 3, compS := 0, compE := 2, layS := 0,
    layE := 2, prcS := 0, prcE := 1, txS := 0, txE := 1, tyS := 0, tyE := 1, dx := 1, dy := 1 }

/-- Coding parameters with tile-parts on and the POC `poc`, for a tile with three
resolutions, two components and two layers. -/
def ex_cp_lrcp (poc : opj_poc) : opj_cp :=
  { cinema := 0, tp_on := true, tx0 := 0, ty0 := 0, tdx := 1, tdy := 1, tw := 1, th := 1,
    tcps := [{ numlayers := 2, prg := .LRCP, numpocs := 0, POC := false, pocs := [poc],
               tccps := [{ csty := 1, numresolutions := 3, prcw := [0, 0, 0],
                           prch := [0, 0, 0] },
                         { csty := 1, numresolutions := 3, prcw := [0, 0, 0],
                           prch := [0, 0, 0] }] }] }

/-- The POC `ex_poc_lrcp` after the tile-parts 0, 1 and 2 with `tppos = 1`: the layer
cursor is at 1, the resolution cursor at its end 3. -/
def ex_poc_lrcp_end : opj_poc :=
  { ex_poc_lrcp with lay_t := 1, res_t := 3 }

/-- The spatial range of a POC is one cell of its step grid: the window
`[txS, txS + dx - txS % dx) x [tyS, tyS + dy - tyS % dy)` of the first tile-part
reaches `txE` and `tyE`. -/
def tp_cell (tcp : opj_poc) : Prop :=
  tcp.dx ≠ 0 ∧ tcp.dy ≠ 0 ∧ tcp.txE ≤ tcp.txS + tcp.dx - Int.tmod tcp.txS tcp.dx ∧
    tcp.tyE ≤ tcp.tyS + tcp.dy - Int.tmod tcp.tyS tcp.dy

/-- The fields of a POC that `pi_create_encode` reads and does not write. -/
def poc_static (p : opj_poc) :
    OPJ_PROG_ORDER × Int × Int × Int × Int × Int × Int × Int × Int :=
  (p.prg, p.resS, p.resE, p.txS, p.txE, p.tyS, p.tyE, p.dx, p.dy)

/-- The POC of the tile of `ex_image` as the encoder initialisation leaves it: the
full box of three resolutions, two components, two layers and one precinct,
progression RPCL, steps `dx = dy = 32768`. -/
def ex_poc_cell : opj_poc :=
  { poc_zero with
    prg := .RPCL, prg1 := .RPCL, resS := 0, resE := 3, compS := 0, compE := 2, layS := 0,
    layE := 2, prcS := 0, prcE := 1, txS := 0, txE := 16, tyS := 0, tyE := 16, dx := 32768,
    dy := 32768 }

/-- Coding parameters of `ex_cp .RPCL` with tile-parts on and the POC `ex_poc_cell`. -/
def ex_cp_cell : opj_cp :=
  { cinema := 0, tp_on := true, tx0 := 0, ty0 := 0, tdx := 16, tdy := 16, tw := 1, th := 1,
    tcps := [{ numlayers := 2, prg := .RPCL, numpocs := 0, POC := false, pocs := [ex_poc_cell],
               tccps := [ex_tccp, ex_tccp] }] }

/-- The iterator `ex_slot .RPCL` with the tile-part flag set. -/
def ex_slot_cell : opj_pi_iterator :=
  { ex_slot .RPCL with tp_on := true }

/-- The values of `maxres` and `maxprec` (and the component records) after the loop
over `compno` in the first iteration of the loop over `pino` of
`pi_initialise_encode`, where both start at 0. -/
def pi_encode_maxima (image : opj_image) (cp : opj_cp) (tcp : opj_tcp) (tileno : Int) :
    Except pi_fault (Int × Int × List opj_pi_comp) :=
  opj_for (pi_comp_iter image tcp
      (int_max (cp.tx0 + Int.tmod tileno cp.tw * cp.tdx) image.x0)
      (int_max (cp.ty0 + Int.tdiv tileno cp.tw * cp.tdy) image.y0)
      (int_min (cp.tx0 + (Int.tmod tileno cp.tw + 1) * cp.tdx) image.x1)
      (int_min (cp.ty0 + (Int.tdiv tileno cp.tw + 1) * cp.tdy) image.y1))
    image.numcomps.toNat 0 (0, 0, [])

/-- The POC `pocj` stored in `tcp->pocs[j]` by `pi_initialise_encode`, from the POC
`poc0` found there: the boundaries of `pi_encode_bounds` (which read `pocs[j - 1]`
from `prevs`), the precinct range `[0, maxprec)` and the tile extents. -/
def pi_encode_poc (image : opj_image) (cp : opj_cp) (tcp : opj_tcp) (tileno : Int)
    (t2_mode : J2K_T2_MODE) (maxres maxprec : Int) (j : Nat) (prevs : List opj_poc)
    (poc0 pocj : opj_poc) : Prop :=
  ∃ pocb dx dy, pi_encode_bounds image cp tcp t2_mode maxres j prevs poc0 = .ok pocb ∧
    pocj = { pocb with
      prcS := 0, prcE := maxprec,
      txS := int_max (cp.tx0 + Int.tmod tileno cp.tw * cp.tdx) image.x0,
      txE := int_min (cp.tx0 + (Int.tmod tileno cp.tw + 1) * cp.tdx) image.x1,
      tyS := int_max (cp.ty0 + Int.tdiv tileno cp.tw * cp.tdy) image.y0,
      tyE := int_min (cp.ty0 + (Int.tdiv tileno cp.tw + 1) * cp.tdy) image.y1,
      dx := dx, dy := dy }

/-- Coding parameters of `ex_cp` with two POC segments, the first over
resolutions `[0, 2)`, component 0 and layer 0, the second over the whole tile;
`cinema` is the cinema setting. -/
def ex_cp_enc_poc (cinema : Int) : opj_cp :=
  { cinema := cinema, tp_on := false, tx0 := 0, ty0 := 0, tdx := 16, tdy := 16, tw := 1,
    th := 1,
    tcps := [{ numlayers := 2, prg := .LRCP, numpocs := 1, POC := true,
               pocs := [{ poc_zero with prg1 := .RLCP, resno1 := 2, compno1 := 1, layno1 := 1 },
                        { poc_zero with prg1 := .RLCP, resno1 := 3, compno1 := 2, layno1 := 2 }],
               tccps := [ex_tccp, ex_tccp] }] }

/-- The running step `d` of `pi_next_rpcl` and `pi_next_pcrl` (0 before the first
resolution) agrees with the running minimum `m` of `get_all_encoding_parameters`
(`0x7fffffff` before the first resolution). -/
def step_agrees (m d : Int) : Prop := (d = 0 ∧ m = 0x7fffffff) ∨ (d = m ∧ d ≠ 0)

/-- The component record `comp` of a slot is the one built for the image component
`ic` with coding parameters `tccp`: same subsampling and resolution count, and the
record of every resolution holds the precinct exponents `prcw[r]`, `prch[r]`. -/
def comp_matches (ic : opj_image_comp) (tccp : opj_tccp) (comp : opj_pi_comp) : Prop :=
  comp.dx = ic.dx ∧ comp.dy = ic.dy ∧ comp.numresolutions = tccp.numresolutions ∧
  ∀ r : Nat, r < tccp.numresolutions.toNat →
    ∃ res pdx pdy, tccp.prcw[r]? = some pdx ∧ tccp.prch[r]? = some pdy ∧
      comp.resolutions[r]? = some res ∧ res.pdx = pdx ∧ res.pdy = pdy

/-- No product `dx * 2^(pdx + levelno)`, `dy * 2^(pdy + levelno)` of the component
exceeds `0x7fffffff`. -/
def steps_fit (ic : opj_image_comp) (tccp : opj_tccp) : Prop :=
  ∀ (r : Nat) (pdx pdy : Int), r < tccp.numresolutions.toNat →
    tccp.prcw[r]? = some pdx → tccp.prch[r]? = some pdy →
    ic.dx * pow2 (pdx + (tccp.numresolutions - 1 - r)) ≤ 0x7fffffff ∧
    ic.dy * pow2 (pdy + (tccp.numresolutions - 1 - r)) ≤ 0x7fffffff

/-- The product `dx_c * 2^(pdx + numresolutions_c - 1 - r)` of component `c` and
resolution `r` (with `sel` the subsampling `dx` or `dy` and `pd` the exponents `prcw`
or `prch`); `none` when the tile has no such component or resolution. -/
def pi_step_value (sel : opj_image_comp → Int) (pd : opj_tccp → List Int) (image : opj_image)
    (tcp : opj_tcp) (c r : Nat) : Option Int :=
  match image.comps[c]?, tcp.tccps[c]? with
  | some ic, some tccp =>
    if r < tccp.numresolutions.toNat then
      match (pd tccp)[r]? with
      | some p => some (sel ic * pow2 (p + (tccp.numresolutions - 1 - r)))
      | none => none
    else none
  | _, _ => none

/-- The value `m` is the minimum over all `(c, r)` of the products of
`pi_step_value`. -/
def is_step_min (sel : opj_image_comp → Int) (pd : opj_tccp → List Int) (image : opj_image)
    (tcp : opj_tcp) (m : Int) : Prop :=
  (∀ c r v, c < image.numcomps.toNat → pi_step_value sel pd image tcp c r = some v → m ≤ v) ∧
  ∃ c r v, c < image.numcomps.toNat ∧ pi_step_value sel pd image tcp c r = some v ∧ m = v

/-- The facts about a slot that keep the index into `include` in range: the strides
are those of the POC box (`step_p = 1`, `step_r = compno1 * step_c`,
`step_l = resno1 * step_r`), the bitmap has at least `layno1 * step_l` cells, the
slot has `compno1` component records, no component has more than `resno1`
resolutions, and no resolution more than `step_c` precincts. -/
def pi_safe (t : opj_pi_iterator) : Prop :=
  t.tp_on = false ∧ t.step_p = 1 ∧ 0 ≤ t.step_c ∧ t.step_r = t.poc.compno1 * t.step_c ∧
  t.step_l = t.poc.resno1 * t.step_r ∧ 0 ≤ t.poc.resno1 ∧
  0 ≤ t.poc.layno0 ∧ 0 ≤ t.poc.resno0 ∧ 0 ≤ t.poc.compno0 ∧ 0 ≤ t.poc.precno0 ∧
  t.poc.layno1 * t.step_l ≤ t.incl.length ∧
  t.numcomps = t.poc.compno1 ∧ t.comps.length = t.poc.compno1.toNat ∧
  ∀ (c : Nat) (comp : opj_pi_comp), t.comps[c]? = some comp →
    comp.numresolutions ≤ t.poc.resno1 ∧
    comp.resolutions.length = comp.numresolutions.toNat ∧
    ∀ (r : Nat) (res : opj_pi_resolution), comp.resolutions[r]? = some res →
      res.pw * res.ph ≤ t.step_c

/-- The facts about a slot that keep a spatial engine in range after its step is
computed: `pi_safe`, the geometry of the builder, a step that is not negative, and the
window of the POC equal to the tile. -/
def sp_safe (t : opj_pi_iterator) : Prop :=
  pi_safe t ∧ pi_geom t ∧ 0 ≤ t.dx ∧ 0 ≤ t.dy ∧
  t.poc.tx0 = t.tx0 ∧ t.poc.ty0 = t.ty0 ∧ t.poc.tx1 = t.tx1 ∧ t.poc.ty1 = t.ty1

/-- The position `(x, y)` lies in the tile. -/
def sp_pos (t : opj_pi_iterator) : Prop :=
  t.tx0 ≤ t.x ∧ t.x < t.tx1 ∧ t.ty0 ≤ t.y ∧ t.y < t.ty1

/-- Call number `n` (counted from 0) of a sequence of calls of `pi_next` on one
iterator, each made on the state that the call before it left, whatever that call
returned (a fault of an earlier call is the outcome). -/
def pi_next_calls : Nat → opj_pi_iterator → pi_outcome
  | 0, s => pi_next s
  | n + 1, s =>
    match pi_next s with
    | .error e => .error e
    | .ok (_, t) => pi_next_calls n t

/-- Every loop of `pi_next_lrcp` is at its end: each cursor has reached its bound and
`first` is clear. -/
def lrcp_done (t : opj_pi_iterator) : Prop :=
  t.first = false ∧ t.poc.precno1 ≤ t.precno ∧ t.poc.compno1 ≤ t.compno ∧
  t.poc.resno1 ≤ t.resno ∧ t.poc.layno1 ≤ t.layno

/-- The iterator with `k` added to each of `layno`, `resno`, `compno` and `precno`. -/
def lrcp_shift (k : Int) (t : opj_pi_iterator) : opj_pi_iterator :=
  { t with layno := t.layno + k, resno := t.resno + k, compno := t.compno + k,
           precno := t.precno + k }

/-- Coding parameters with one POC segment whose resolution range `[0, 0)` is empty:
one tile of 16 x 16 with one component, one resolution with precincts of 8 x 8 (so
`pw = ph = 2`), one layer, progression LRCP. -/
def ex_cp_empty : opj_cp :=
  { cinema := 0, tp_on := false, tx0 := 0, ty0 := 0, tdx := 16, tdy := 16, tw := 1, th := 1,
    tcps := [{ numlayers := 1, prg := .LRCP, numpocs := 0, POC := true,
               pocs := [{ poc_zero with prg := .LRCP, resno0 := 0, resno1 := 0, compno0 := 0,
                                        compno1 := 1, layno1 := 1 }],
               tccps := [{ csty := 1, numresolutions := 1, prcw := [3], prch := [3] }] }] }

/-- An LRCP iterator over component 0 of two components, resumed after its last
packet: every cell of the bitmap is marked. -/
def ex_slot_last : opj_pi_iterator :=
  { ex_slot .LRCP with
    first := false, incl := List.replicate 18 1, layno := 1, resno := 2,
    poc := { (ex_slot .LRCP).poc with compno1 := 1 } }

/-- An image whose origin `x0 = 1` is not on the precinct grid: `[1, 3) x [0, 1)`, two
components that are not subsampled. -/
def ex_image_held : opj_image :=
  { x0 := 1, y0 := 0, x1 := 3, y1 := 1, numcomps := 2, comps := [⟨1, 1⟩, ⟨1, 1⟩] }

/-- The iterator array and the coding parameters with which the encoder calls
`pi_create_encode`: the result of `pi_initialise_encode` in the final pass, with the POC
boundaries it wrote stored in tile `tileno` of the coding parameters. -/
def pi_encode_setup (image : opj_image) (cp : opj_cp) (tileno : Int) :
    Except pi_fault (List opj_pi_iterator × opj_cp) :=
  match pi_initialise_encode image cp tileno .FINAL_PASS with
  | .error e => .error e
  | .ok (l_pi, tcp) => .ok (l_pi, { cp with tcps := cp.tcps.set tileno.toNat tcp })

/-- Coding parameters with tile-parts on: one tile, one layer, progression RPCL, no POC,
two resolutions per component with precincts of 1 x 1 at resolution 0 and of 2 x 1 at
resolution 1, so that the step of the spatial walk is `dx = 2`, `dy = 1`. -/
def ex_cp_held : opj_cp :=
  { cinema := 0, tp_on := true, tx0 := 0, ty0 := 0, tdx := 4, tdy := 1, tw := 1, th := 1,
    tcps := [{ numlayers := 1, prg := .RPCL, numpocs := 0, POC := false, pocs := [poc_zero],
               tccps := [{ csty := 1, numresolutions := 2, prcw := [0, 1], prch := [0, 0] },
                         { csty := 1, numresolutions := 2, prcw := [0, 1], prch := [0, 0] }] }] }

/-- What the loops over `resno` of the two decode constructors have in common: the
running `maxprec`, the row of records, and the fields of the builder that its loop
over `resno` does not write. -/
def res_loops_agree (A : opj_enc_params) (a : Int × List opj_pi_resolution)
    (b : opj_enc_params × List opj_pi_resolution) : Prop :=
  b.1.p_max_prec = a.1 ∧ b.2 = a.2 ∧ b.1.p_max_res = A.p_max_res ∧
  b.1.p_resolutions = A.p_resolutions ∧ b.1.p_tx0 = A.p_tx0 ∧ b.1.p_ty0 = A.p_ty0 ∧
  b.1.p_tx1 = A.p_tx1 ∧ b.1.p_ty1 = A.p_ty1

/-- What the loops over `compno` of `pi_create_decode` and of
`get_all_encoding_parameters` have in common: `maxres`, `maxprec`, the rows of records
and the tile extents `X0, Y0, X1, Y1` that both read. -/
def comp_loops_agree (X0 Y0 X1 Y1 : Int) (a : Int × Int × List opj_pi_comp)
    (e : opj_enc_params) : Prop :=
  e.p_max_res = a.1 ∧ e.p_max_prec = a.2.1 ∧
  e.p_resolutions = a.2.2.map (fun c => c.resolutions) ∧
  e.p_tx0 = X0 ∧ e.p_ty0 = Y0 ∧ e.p_tx1 = X1 ∧ e.p_ty1 = Y1

/-- The slot without its bitmap: the fields on which the slots of the two decode
constructors are compared. -/
def slot_view (t : opj_pi_iterator) : opj_pi_iterator := { t with incl := [] }

/-- The cell of the bitmap for the quadruple `(l, r, c, p)` holds a value other than 0:
the test `!pi->include[index]` fails there. -/
def pi_marked (s : opj_pi_iterator) (l r c p : Int) : Prop :=
  ∃ v, arr_get s.incl (l * s.step_l + r * s.step_r + c * s.step_c + p * s.step_p) = some v ∧
    v ≠ 0

/-- The precinct `p` exists at resolution `r` of component `c`: the component has a
record for `r`, and `p` lies in `[precno0, pw * ph)` of that record. -/
def pi_cell (s : opj_pi_iterator) (r c p : Int) : Prop :=
  ∃ comp res, arr_get s.comps c = some comp ∧ r < comp.numresolutions ∧
    arr_get comp.resolutions r = some res ∧ s.poc.precno0 ≤ p ∧ p < res.pw * res.ph

/-- The quadruple `q = (l, r, c, p)` names a packet of the slot: `l`, `r` and `c` lie in
the box of the POC and the precinct `p` exists at `(c, r)`. -/
def pi_packet_ok (s : opj_pi_iterator) (q : Int × Int × Int × Int) : Prop :=
  s.poc.layno0 ≤ q.1 ∧ q.1 < s.poc.layno1 ∧ s.poc.resno0 ≤ q.2.1 ∧ q.2.1 < s.poc.resno1 ∧
  s.poc.compno0 ≤ q.2.2.1 ∧ q.2.2.1 < s.poc.compno1 ∧ pi_cell s q.2.1 q.2.2.1 q.2.2.2

/-- Every packet of the slot up to the cursor, the cursor included, is marked in the
bitmap. -/
def lrcp_seen (s : opj_pi_iterator) : Prop :=
  ∀ q, pi_packet_ok s q → (lrcp_lt q (pi_packet s) ∨ q = pi_packet s) →
    pi_marked s q.1 q.2.1 q.2.2.1 q.2.2.2

/-- The packets of a tile as a list, after the set of the specification: the quadruples
`(l, r, c, p)` with `0 <= l < numlayers`, `c` a component of `comps`, `r` a resolution
of that component and `0 <= p < pw * ph` for the record of `(c, r)`. -/
def spec_packets (numlayers : Int) (comps : List opj_pi_comp) :
    List (Int × Int × Int × Int) :=
  (List.range numlayers.toNat).flatMap fun (l : Nat) =>
    (List.range comps.length).flatMap fun (c : Nat) =>
      (comps[c]?).elim [] fun comp =>
        (List.range comp.resolutions.length).flatMap fun (r : Nat) =>
          (comp.resolutions[r]?).elim [] fun res =>
            (List.range (res.pw * res.ph).toNat).map fun (p : Nat) =>
              ((l : Int), (r : Int), (c : Int), (p : Int))

/-- The number of packets of one layer: the sum over the components and their
resolutions of the precinct count `pw * ph`. -/
def spec_packet_count (comps : List opj_pi_comp) : Nat :=
  (comps.map fun comp => (comp.resolutions.map fun res => (res.pw * res.ph).toNat).sum).sum

/-! ## Values that fit the integer types of the source -/

/-- The value of an `OPJ_UINT32` expression whose mathematical value is `a`. -/
def wrapu32 (a : Int) : Int := a % 4294967296

/-- The number of cells that `pi_create_decode_v2` requests from `opj_calloc`: the
expression `(l_tcp->numlayers + 1) * l_step_l`, a product of `OPJ_UINT32` operands. -/
def decode_cells32 (numlayers step_l : Int) : Int :=
  wrapu32 (wrapu32 (numlayers + 1) * wrapu32 step_l)

/-- The precinct counts of a slot are not negative, so that their conversion to
`OPJ_UINT32` (the type of `l_pw` and `l_ph` in `get_all_encoding_parameters`) changes
nothing, and every product `pw * ph` is at most `0x7fffffff`, so that
`res->pw * res->ph` and `prci + prcj * res->pw` stay in the range of a C `int`. -/
def counts_fit (s : opj_pi_iterator) : Prop :=
  ∀ comp ∈ s.comps, ∀ res ∈ comp.resolutions,
    0 ≤ res.pw ∧ 0 ≤ res.ph ∧ res.pw * res.ph ≤ 2147483647

/-- The strides and the bitmap of a decode slot fit the types of the source: with
`numlayers` layers, precinct counts that are not negative and at least one component,
the product `(numlayers + 1) * step_l` is at most `0x7fffffff`, and with it the
`OPJ_UINT32` products `l_pw * l_ph`, `numcomps * l_step_c`, `l_max_res * l_step_r`, the
`int` fields `step_c`, `step_r`, `step_l` that receive them, and every index
`layno * step_l + resno * step_r + compno * step_c + precno * step_p` of a packet. -/
def slot_fits (numlayers : Int) (s : opj_pi_iterator) : Prop :=
  0 ≤ numlayers ∧ 0 ≤ s.numcomps ∧ counts_fit s ∧ (numlayers + 1) * s.step_l ≤ 2147483647

/-- The bitmap of a slot of `pi_create_decode` or `pi_initialise_encode` fits the `int`
products of the source: with `numlayers` layers, precinct counts that are not negative
and a number of components that is not negative, the number of cells
`numlayers * step_l` (`numcomps * maxres * numlayers * maxprec` in `pi_create_decode`) is
at most `0x7fffffff`. -/
def cells_fit (numlayers : Int) (s : opj_pi_iterator) : Prop :=
  0 ≤ numlayers ∧ 0 ≤ s.numcomps ∧ counts_fit s ∧ numlayers * s.step_l ≤ 2147483647

/-- The number of cells that `pi_initialise_encode` requests from `opj_calloc`, the `int`
product `tcp->numlayers * pi[pino].step_l`; `pi_create_decode` requests the same number
as `image->numcomps * maxres * tcp->numlayers * maxprec`. -/
def encode_cells32 (numlayers step_l : Int) : Int := wrap32 (numlayers * step_l)

/-- The walk of a spatial engine stays in the range of a C `int`.  The right and lower
edges of the tile and of the window of the POC are not negative.  For every component
and every resolution `r` of it (with `levelno = numresolutions - 1 - r`) the precinct
exponents are not negative, the shift counts `pdx + levelno` and `pdy + levelno` are
below 31, and the position one step `dx_c * 2^(pdx + levelno)` (resp.
`dy_c * 2^(pdy + levelno)`) beyond the right (lower) edge of the tile and of the window
of the POC is at most `0x7fffffff`, so that `1 << (pdx + levelno)`, `comp->dx << rpx`,
`int_ceildiv(pi->tx1, comp->dx << levelno)` and `pi->x += pi->dx - (pi->x % pi->dx)`
stay at most `0x7fffffff`, and so do the values from which the builders compute the
record of the resolution (`int_ceildivpow2(l_rx1, l_pdx) << l_pdx` and the like).  On a
call that resumes, the same holds for the cursor and the step that the iterator
holds. -/
def walk_fits (s : opj_pi_iterator) : Prop :=
  (0 ≤ s.tx1 ∧ 0 ≤ s.ty1 ∧ 0 ≤ s.poc.tx1 ∧ 0 ≤ s.poc.ty1) ∧
  (∀ comp ∈ s.comps, ∀ p ∈ comp.resolutions.enum,
    0 ≤ p.2.pdx ∧ 0 ≤ p.2.pdy ∧
    p.2.pdx + (comp.numresolutions - 1 - p.1) < 31 ∧
    p.2.pdy + (comp.numresolutions - 1 - p.1) < 31 ∧
    s.tx1 + comp.dx * pow2 (p.2.pdx + (comp.numresolutions - 1 - p.1)) ≤ 2147483647 ∧
    s.poc.tx1 + comp.dx * pow2 (p.2.pdx + (comp.numresolutions - 1 - p.1)) ≤ 2147483647 ∧
    s.ty1 + comp.dy * pow2 (p.2.pdy + (comp.numresolutions - 1 - p.1)) ≤ 2147483647 ∧
    s.poc.ty1 + comp.dy * pow2 (p.2.pdy + (comp.numresolutions - 1 - p.1)) ≤ 2147483647) ∧
  (s.first = false →
    0 ≤ s.x ∧ s.x + s.dx ≤ 2147483647 ∧ s.poc.tx1 + s.dx ≤ 2147483647 ∧
    s.tx1 + s.dx ≤ 2147483647 ∧
    0 ≤ s.y ∧ s.y + s.dy ≤ 2147483647 ∧ s.poc.ty1 + s.dy ≤ 2147483647 ∧
    s.ty1 + s.dy ≤ 2147483647)

/-- The values that `get_all_encoding_parameters` returns fit the types of the source:
every precinct count is not negative and every product `l_pw * l_ph` is at most
`bound` (`0xffffffff` for the `OPJ_UINT32` product of `get_all_encoding_parameters`,
`0x7fffffff` for the `int` product of `pi_create_decode`). -/
def records_fit (bound : Int) (e : opj_enc_params) : Prop :=
  ∀ row ∈ e.p_resolutions, ∀ r ∈ row, 0 ≤ r.pw ∧ 0 ≤ r.ph ∧ r.pw * r.ph ≤ bound

/-- The products that give the strides fit: `numcomps`, `max_res` and `max_prec` are not
negative, and `max_prec`, `numcomps * max_prec` and `max_res * (numcomps * max_prec)` are
at most `0x7fffffff`, the largest value of the `int` fields `step_c`, `step_r` and
`step_l` that receive them. -/
def strides_fit (numcomps : Int) (e : opj_enc_params) : Prop :=
  0 ≤ numcomps ∧ 0 ≤ e.p_max_res ∧ 0 ≤ e.p_max_prec ∧ e.p_max_prec ≤ 2147483647 ∧
  numcomps * e.p_max_prec ≤ 2147483647 ∧
  e.p_max_res * (numcomps * e.p_max_prec) ≤ 2147483647

/-- The image extents and the four edges of tile `tileno` of the tile grid lie in
`[0, 0x7fffffff]`: the source computes `p_cp->tx0 + p * p_cp->tdx` and the like as
`OPJ_UINT32` and passes them to the `int` parameters of `int_max` and `int_min`. -/
def edges_fit (image : opj_image) (cp : opj_cp) (tileno : Int) : Prop :=
  0 ≤ image.x0 ∧ image.x1 ≤ 2147483647 ∧ 0 ≤ image.y0 ∧ image.y1 ≤ 2147483647 ∧
  0 ≤ cp.tx0 + (tileno % cp.tw) * cp.tdx ∧
  cp.tx0 + (tileno % cp.tw + 1) * cp.tdx ≤ 2147483647 ∧
  0 ≤ cp.ty0 + (tileno / cp.tw) * cp.tdy ∧
  cp.ty0 + (tileno / cp.tw + 1) * cp.tdy ≤ 2147483647

/-- The slot `s` built for tile `tileno` is computed within the 32-bit range of the
source: the image extents and the tile edges (`edges_fit`), the geometry of every
component and resolution (`walk_fits`) and the precinct counts and their products
(`counts_fit`). -/
def build_fits (image : opj_image) (cp : opj_cp) (tileno : Int) (s : opj_pi_iterator) :
    Prop :=
  edges_fit image cp tileno ∧ walk_fits s ∧ counts_fit s

/-- The geometry that `get_all_encoding_parameters` computes for a tile stays within the
32-bit range of the source: the right and lower edges of the tile are not negative, and
for every component and every resolution `r` of it (with
`levelno = numresolutions - 1 - r`) the precinct exponents are not negative, the shift
counts `pdx + levelno` and `pdy + levelno` are below 31 and `tx1 + dx_c * 2^(pdx + levelno)`
and `ty1 + dy_c * 2^(pdy + levelno)` are at most `0x7fffffff`. -/
def enc_geom_fits (image : opj_image) (tcp : opj_tcp) (e : opj_enc_params) : Prop :=
  (0 ≤ e.p_tx1 ∧ 0 ≤ e.p_ty1) ∧
  ∀ x ∈ List.zip image.comps (List.zip tcp.tccps e.p_resolutions), ∀ p ∈ x.2.2.enum,
    0 ≤ p.2.pdx ∧ 0 ≤ p.2.pdy ∧
    p.2.pdx + (x.2.1.numresolutions - 1 - p.1) < 31 ∧
    p.2.pdy + (x.2.1.numresolutions - 1 - p.1) < 31 ∧
    e.p_tx1 + x.1.dx * pow2 (p.2.pdx + (x.2.1.numresolutions - 1 - p.1)) ≤ 2147483647 ∧
    e.p_ty1 + x.1.dy * pow2 (p.2.pdy + (x.2.1.numresolutions - 1 - p.1)) ≤ 2147483647

/-- An image of one sample whose origin is odd: `[1, 2) x [0, 1)`, one component that
is not subsampled. -/
def ex_image_thin : opj_image :=
  { x0 := 1, y0 := 0, x1 := 2, y1 := 1, numcomps := 1, comps := [⟨1, 1⟩] }

/-- Coding parameters of an encoder with tile-parts on: one tile, one layer, progression
LRCP, no POC, two resolutions with the default precinct exponents.  On the tile
`[1, 2) x [0, 1)` of `ex_image_thin` resolution 0 is empty in `x` (`rx0 = rx1 = 1`), so
its record has `pw = 0`, and resolution 1 has one precinct. -/
def ex_cp_thin : opj_cp :=
  { cinema := 0, tp_on := true, tx0 := 0, ty0 := 0, tdx := 2, tdy := 1, tw := 1, th := 1,
    tcps := [{ numlayers := 1, prg := .LRCP, numpocs := 0, POC := false, pocs := [poc_zero],
               tccps := [{ csty := 0, numresolutions := 2, prcw := [15, 15],
                           prch := [15, 15] }] }] }

/-- The expression `prci = int_floordivpow2(int_ceildiv(pi->x, comp->dx << levelno),
res->pdx) - int_floordivpow2(trx0, res->pdx)` of the spatial engines at the cursor of `s`,
with `levelno = comp->numresolutions - 1 - pi->resno` and
`trx0 = int_ceildiv(pi->tx0, comp->dx << levelno)`. -/
def pi_prci (s : opj_pi_iterator) (comp : opj_pi_comp) (res : opj_pi_resolution) : Int :=
  let levelno := comp.numresolutions - 1 - s.resno
  let trx0 := int_ceildiv s.tx0 (shl comp.dx levelno)
  int_floordivpow2 (int_ceildiv s.x (shl comp.dx levelno)) res.pdx
    - int_floordivpow2 trx0 res.pdx

/-- The expression `prcj = int_floordivpow2(int_ceildiv(pi->y, comp->dy << levelno),
res->pdy) - int_floordivpow2(try0, res->pdy)` of the spatial engines at the cursor of `s`,
with `try0 = int_ceildiv(pi->ty0, comp->dy << levelno)`. -/
def pi_prcj (s : opj_pi_iterator) (comp : opj_pi_comp) (res : opj_pi_resolution) : Int :=
  let levelno := comp.numresolutions - 1 - s.resno
  let try0 := int_ceildiv s.ty0 (shl comp.dy levelno)
  int_floordivpow2 (int_ceildiv s.y (shl comp.dy levelno)) res.pdy
    - int_floordivpow2 try0 res.pdy

/-- Coding parameters for `ex_image_row` with one precinct grid: one tile, one layer, no
POC, progression RPCL, one resolution per component and precincts of 2 x 1 samples in
both components, four precincts each. -/
def ex_cp_grid : opj_cp :=
  { cinema := 0, tp_on := false, tx0 := 0, ty0 := 0, tdx := 8, tdy := 1, tw := 1, th := 1,
    tcps := [{ numlayers := 1, prg := .RPCL, numpocs := 0, POC := false, pocs := [],
               tccps := [{ csty := 1, numresolutions := 1, prcw := [1], prch := [0] },
                         { csty := 1, numresolutions := 1, prcw := [1], prch := [0] }] }] }

/-- Slot 0 of the array that `pi_create_decode_v2` builds for `ex_image_row` and
`ex_cp_row`: two precincts in component 0, four in component 1. -/
def ex_slot_row : opj_pi_iterator :=
  match pi_create_decode_v2 ex_image_row ex_cp_row 0 with
  | .ok (s :: _) => s
  | _ => pi_zero

/-- Slot 0 of the array that `pi_create_decode_v2` builds for `ex_image_row` and
`ex_cp_grid`: four precincts in each of the two components. -/
def ex_slot_grid : opj_pi_iterator :=
  match pi_create_decode_v2 ex_image_row ex_cp_grid 0 with
  | .ok (s :: _) => s
  | _ => pi_zero

/-- An image of 4 x 1 samples with two components, the second subsampled by 2 in `x`. -/
def ex_image_half : opj_image :=
  { x0 := 0, y0 := 0, x1 := 4, y1 := 1, numcomps := 2, comps := [⟨1, 1⟩, ⟨2, 1⟩] }

/-- Coding parameters for `ex_image_half`: one tile, one layer, no POC, progression RPCL,
one resolution per component and precincts of 1 x 1 samples in both components. -/
def ex_cp_half : opj_cp :=
  { cinema := 0, tp_on := false, tx0 := 0, ty0 := 0, tdx := 4, tdy := 1, tw := 1, th := 1,
    tcps := [{ numlayers := 1, prg := .RPCL, numpocs := 0, POC := false, pocs := [],
               tccps := [{ csty := 1, numresolutions := 1, prcw := [0], prch := [0] },
                         { csty := 1, numresolutions := 1, prcw := [0], prch := [0] }] }] }

/-- Coding parameters for `ex_image_row`: one tile, one layer, no POC, progression RPCL,
precinct exponents `(1, 0)` at every resolution of both components, one resolution in
component 0 and two in component 1. -/
def ex_cp_lev : opj_cp :=
  { cinema := 0, tp_on := false, tx0 := 0, ty0 := 0, tdx := 8, tdy := 1, tw := 1, th := 1,
    tcps := [{ numlayers := 1, prg := .RPCL, numpocs := 0, POC := false, pocs := [],
               tccps := [{ csty := 1, numresolutions := 1, prcw := [1], prch := [0] },
                         { csty := 1, numresolutions := 2, prcw := [1, 1],
                           prch := [0, 0] }] }] }

/-- An image of 512 x 256 samples with one component that is not subsampled. -/
def ex_image_wide : opj_image :=
  { x0 := 0, y0 := 0, x1 := 512, y1 := 256, numcomps := 1, comps := [⟨1, 1⟩] }

/-- Coding parameters for `ex_image_wide`: one tile, 32768 layers, no POC, progression
LRCP, one resolution with precincts of 1 x 1 samples, so that the resolution has
`512 * 256 = 131072` precincts. -/
def ex_cp_wide : opj_cp :=
  { cinema := 0, tp_on := false, tx0 := 0, ty0 := 0, tdx := 512, tdy := 256, tw := 1, th := 1,
    tcps := [{ numlayers := 32768, prg := .LRCP, numpocs := 0, POC := false, pocs := [],
               tccps := [{ csty := 1, numresolutions := 1, prcw := [0], prch := [0] }] }] }

/-! # Properties -/

/-! ## Loop rules -/

theorem pi_for_rule {cond : opj_pi_iterator → Bool} {body : opj_pi_iterator → pi_outcome}
    {incr : opj_pi_iterator → Except pi_fault opj_pi_iterator}
    (I Q : opj_pi_iterator → Prop)
    (hdone : ∀ t t1 t2, I t → cond t = true → body t = .ok (false, t1) → incr t1 = .ok t2 → I t2)
    (hemit : ∀ t t1, I t → cond t = true → body t = .ok (true, t1) → Q t1) :
    ∀ (n : Nat) (s t : opj_pi_iterator) (b : Bool), I s →
      pi_for cond body incr n s = .ok (b, t) →
      (b = true → Q t) ∧ (b = false → I t ∧ cond t = false) := by
  intro n
  induction n with
  | zero => intro s t b _ h; simp [pi_for] at h
  | succ n ih =>
    intro s t b hI h
    rw [pi_for] at h
    by_cases hc : cond s = true
    · rw [if_pos hc] at h
      cases hb : body s with
      | error e => rw [hb] at h; simp at h
      | ok r =>
        obtain ⟨b1, s1⟩ := r
        rw [hb] at h
        cases b1 with
        | true =>
          simp only [Except.ok.injEq, Prod.mk.injEq] at h
          obtain ⟨rfl, rfl⟩ := h
          exact ⟨fun _ => hemit s s1 hI hc hb, fun h => by simp at h⟩
        | false =>
          dsimp only at h
          cases hi : incr s1 with
          | error e => rw [hi] at h; simp at h
          | ok s2 =>
            rw [hi] at h
            exact ih s2 t b (hdone s s1 s2 hI hc hb hi) h
    · rw [if_neg hc] at h
      simp only [Except.ok.injEq, Prod.mk.injEq] at h
      obtain ⟨rfl, rfl⟩ := h
      exact ⟨fun h => by simp at h, fun _ => ⟨hI, by simpa using hc⟩⟩

theorem pi_then_ok {r : pi_outcome} {incr : opj_pi_iterator → Except pi_fault opj_pi_iterator}
    {rest : opj_pi_iterator → pi_outcome} {b : Bool} {t : opj_pi_iterator}
    (h : pi_then r incr rest = .ok (b, t)) :
    (r = .ok (true, t) ∧ b = true) ∨
    ∃ s1 s2, r = .ok (false, s1) ∧ incr s1 = .ok s2 ∧ rest s2 = .ok (b, t) := by
  unfold pi_then at h
  cases r with
  | error e => simp at h
  | ok p =>
    obtain ⟨b1, s1⟩ := p
    cases b1 with
    | true =>
      simp only [Except.ok.injEq, Prod.mk.injEq] at h
      obtain ⟨rfl, rfl⟩ := h
      exact Or.inl ⟨rfl, rfl⟩
    | false =>
      dsimp only at h
      cases hi : incr s1 with
      | error e => rw [hi] at h; simp at h
      | ok s2 =>
        rw [hi] at h
        exact Or.inr ⟨s1, s2, rfl, hi, h⟩

theorem pi_visit_ok {s t : opj_pi_iterator} {b : Bool} (h : pi_visit s = .ok (b, t)) :
    (b = true ∧ arr_get s.incl (pi_index s) = some 0 ∧
      t = { s with incl := s.incl.set (pi_index s).toNat 1 }) ∨ (b = false ∧ t = s) := by
  unfold pi_visit at h
  cases hg : arr_get s.incl (pi_index s) with
  | none => rw [hg] at h; simp at h
  | some v =>
    rw [hg] at h
    by_cases hv : v = 0
    · subst hv
      simp only [if_true, Except.ok.injEq, Prod.mk.injEq] at h
      exact Or.inl ⟨h.1.symm, rfl, h.2.symm⟩
    · simp only [if_neg hv, Except.ok.injEq, Prod.mk.injEq] at h
      exact Or.inr ⟨h.1.symm, h.2.symm⟩

/-! ## LRCP and RLCP: what a call does -/

theorem lrcp_precno_loop_spec {s t : opj_pi_iterator} {b : Bool}
    (h : lrcp_precno_loop s = .ok (b, t)) :
    view_p t = view_p s ∧ s.precno ≤ t.precno ∧
    (b = true → t.precno < t.poc.precno1 ∧ pi_marks s t) ∧
    (b = false → t.incl = s.incl) := by
  have key := pi_for_rule
    (fun t => view_p t = view_p s ∧ s.precno ≤ t.precno ∧ t.incl = s.incl)
    (fun t => view_p t = view_p s ∧ s.precno ≤ t.precno ∧ t.precno < t.poc.precno1 ∧ pi_marks s t)
    (by
      intro t t1 t2 hI _ hb hi
      rcases pi_visit_ok hb with ⟨h1, _⟩ | ⟨_, rfl⟩
      · simp at h1
      · simp only [incr_precno, Except.ok.injEq] at hi
        subst hi
        refine ⟨hI.1, ?_, hI.2.2⟩
        show s.precno ≤ t1.precno + 1
        have := hI.2.1
        omega)
    (by
      intro t t1 hI hc hb
      rcases pi_visit_ok hb with ⟨_, h0, rfl⟩ | ⟨h1, _⟩
      · refine ⟨hI.1, hI.2.1, by simpa using hc, ?_, ?_⟩
        · have : arr_get s.incl (pi_index t) = some 0 := by rw [← hI.2.2]; exact h0
          exact this
        · show t.incl.set (pi_index t).toNat 1 = s.incl.set (pi_index t).toNat 1
          rw [hI.2.2]
      · simp at h1)
    _ s t b ⟨rfl, le_refl _, rfl⟩ h
  refine ⟨?_, ?_, ?_, ?_⟩
  · cases b
    · exact (key.2 rfl).1.1
    · exact (key.1 rfl).1
  · cases b
    · exact (key.2 rfl).1.2.1
    · exact (key.1 rfl).2.1
  · intro hb; exact (key.1 hb).2.2
  · intro hb; exact (key.2 hb).1.2.2

theorem view_l_frame {s t : opj_pi_iterator} (h : view_l t = view_l s) :
    pi_frame s t ∧ t.first = s.first := by
  have h1 := congrArg opj_pi_iterator.tp_on h
  have h2 := congrArg opj_pi_iterator.step_l h
  have h3 := congrArg opj_pi_iterator.step_r h
  have h4 := congrArg opj_pi_iterator.step_c h
  have h5 := congrArg opj_pi_iterator.step_p h
  have h6 := congrArg opj_pi_iterator.numcomps h
  have h7 := congrArg opj_pi_iterator.comps h
  have h8 := congrArg opj_pi_iterator.tx0 h
  have h9 := congrArg opj_pi_iterator.ty0 h
  have h10 := congrArg opj_pi_iterator.tx1 h
  have h11 := congrArg opj_pi_iterator.ty1 h
  have h12 := congrArg (fun u => u.poc.layno0) h
  have h13 := congrArg (fun u => u.poc.layno1) h
  have h14 := congrArg (fun u => u.poc.resno0) h
  have h15 := congrArg (fun u => u.poc.resno1) h
  have h16 := congrArg (fun u => u.poc.compno0) h
  have h17 := congrArg (fun u => u.poc.compno1) h
  have h18 := congrArg (fun u => u.poc.precno0) h
  have h19 := congrArg (fun u => u.poc.prg) h
  have h20 := congrArg opj_pi_iterator.first h
  exact ⟨⟨h1, h2, h3, h4, h5, h6, h7, h8, h9, h10, h11, h12, h13, h14, h15, h16, h17, h18, h19⟩,
    h20⟩

theorem view_c_l {s t : opj_pi_iterator} (h : view_c t = view_c s) :
    view_l t = view_l s ∧ t.layno = s.layno ∧ t.resno = s.resno := by
  have h1 := congrArg view_l h
  have h2 := congrArg opj_pi_iterator.layno h
  have h3 := congrArg opj_pi_iterator.resno h
  exact ⟨h1, h2, h3⟩

theorem view_p_c {s t : opj_pi_iterator} (h : view_p t = view_p s) :
    view_c t = view_c s ∧ t.compno = s.compno ∧ t.poc = s.poc := by
  have h1 := congrArg view_c h
  have h2 := congrArg opj_pi_iterator.compno h
  have h3 := congrArg opj_pi_iterator.poc h
  exact ⟨h1, h2, h3⟩

theorem pi_marks_of_incl {s s1 t : opj_pi_iterator} (h : s1.incl = s.incl) (hm : pi_marks s1 t) :
    pi_marks s t := by
  unfold pi_marks at hm ⊢
  rw [← h]; exact hm

theorem lrcp_compno_body_spec {s t : opj_pi_iterator} {b : Bool}
    (h : lrcp_compno_body s = .ok (b, t)) :
    view_c t = view_c s ∧ t.compno = s.compno ∧
    (b = true → pi_marks s t ∧ lrcp_cell t) ∧
    (b = false → t.incl = s.incl) := by
  unfold lrcp_compno_body at h
  cases hg : arr_get s.comps s.compno with
  | none => rw [hg] at h; simp at h
  | some comp =>
    rw [hg] at h
    dsimp only at h
    by_cases hr : s.resno ≥ comp.numresolutions
    · rw [if_pos hr] at h
      simp only [Except.ok.injEq, Prod.mk.injEq] at h
      obtain ⟨rfl, rfl⟩ := h
      exact ⟨rfl, rfl, fun h => by simp at h, fun _ => rfl⟩
    · rw [if_neg hr] at h
      by_cases htp : s.tp_on = true
      · rw [if_pos htp] at h
        obtain ⟨hv, hp, he, hd⟩ := lrcp_precno_loop_spec h
        obtain ⟨hvc, hcn, hpoc⟩ := view_p_c hv
        obtain ⟨hvl, hl, hrs⟩ := view_c_l hvc
        obtain ⟨hf, _⟩ := view_l_frame hvl
        refine ⟨hvc, hcn, ?_, hd⟩
        intro hb
        obtain ⟨h1, h2⟩ := he hb
        refine ⟨h2, ?_, h1, comp, ?_, ?_, ?_⟩
        · rw [hf.precno0]; exact hp
        · rw [hf.comps, hcn]; exact hg
        · rw [hrs]; exact lt_of_not_ge hr
        · intro h6
          rw [hf.tp_on] at h6
          change s.tp_on = false at h6
          rw [htp] at h6; simp at h6
      · rw [if_neg htp] at h
        cases hres : arr_get comp.resolutions s.resno with
        | none => rw [hres] at h; simp at h
        | some res =>
          rw [hres] at h
          dsimp only at h
          obtain ⟨hv, hp, he, hd⟩ := lrcp_precno_loop_spec h
          obtain ⟨hvc, hcn, hpoc⟩ := view_p_c hv
          obtain ⟨hvl, hl, hrs⟩ := view_c_l hvc
          obtain ⟨hf, _⟩ := view_l_frame hvl
          refine ⟨hvc, hcn, ?_, hd⟩
          intro hb
          obtain ⟨h1, h2⟩ := he hb
          refine ⟨h2, ?_, h1, comp, ?_, ?_, ?_⟩
          · rw [hf.precno0]; exact hp
          · rw [hf.comps, hcn]; exact hg
          · rw [hrs]; exact lt_of_not_ge hr
          · intro _
            exact ⟨res, by rw [hrs]; exact hres, by rw [hpoc]⟩

theorem lrcp_compno_loop_spec {s t : opj_pi_iterator} {b : Bool}
    (h : lrcp_compno_loop s = .ok (b, t)) :
    view_c t = view_c s ∧ s.compno ≤ t.compno ∧
    (b = true → pi_marks s t ∧ t.compno < t.poc.compno1 ∧ lrcp_cell t) ∧
    (b = false → t.incl = s.incl) := by
  have key := pi_for_rule
    (fun t => view_c t = view_c s ∧ s.compno ≤ t.compno ∧ t.incl = s.incl)
    (fun t => view_c t = view_c s ∧ s.compno ≤ t.compno ∧
      pi_marks s t ∧ t.compno < t.poc.compno1 ∧ lrcp_cell t)
    (by
      intro t t1 t2 hI _ hb hi
      obtain ⟨hv, hc, _, hd⟩ := lrcp_compno_body_spec hb
      simp only [incr_compno, Except.ok.injEq] at hi
      subst hi
      refine ⟨hv.trans hI.1, ?_, (hd rfl).trans hI.2.2⟩
      show s.compno ≤ t1.compno + 1
      have := hI.2.1
      omega)
    (by
      intro t t1 hI hc hb
      obtain ⟨hv, hcn, he, _⟩ := lrcp_compno_body_spec hb
      obtain ⟨hm, hcell⟩ := he rfl
      obtain ⟨hf, _⟩ := view_l_frame (view_c_l hv).1
      refine ⟨hv.trans hI.1, by rw [hcn]; exact hI.2.1, pi_marks_of_incl hI.2.2 hm, ?_, hcell⟩
      rw [hf.compno1, hcn]; simpa using hc)
    _ s t b ⟨rfl, le_refl _, rfl⟩ h
  cases b
  · exact ⟨(key.2 rfl).1.1, (key.2 rfl).1.2.1, fun h => by simp at h, fun _ => (key.2 rfl).1.2.2⟩
  · exact ⟨(key.1 rfl).1, (key.1 rfl).2.1, fun _ => (key.1 rfl).2.2, fun h => by simp at h⟩

theorem view_lrcp_frame {s t : opj_pi_iterator} (h : view_lrcp t = view_lrcp s) :
    pi_frame s t := by
  have h1 := congrArg opj_pi_iterator.tp_on h
  have h2 := congrArg opj_pi_iterator.step_l h
  have h3 := congrArg opj_pi_iterator.step_r h
  have h4 := congrArg opj_pi_iterator.step_c h
  have h5 := congrArg opj_pi_iterator.step_p h
  have h6 := congrArg opj_pi_iterator.numcomps h
  have h7 := congrArg opj_pi_iterator.comps h
  have h8 := congrArg opj_pi_iterator.tx0 h
  have h9 := congrArg opj_pi_iterator.ty0 h
  have h10 := congrArg opj_pi_iterator.tx1 h
  have h11 := congrArg opj_pi_iterator.ty1 h
  have h12 := congrArg (fun u => u.poc.layno0) h
  have h13 := congrArg (fun u => u.poc.layno1) h
  have h14 := congrArg (fun u => u.poc.resno0) h
  have h15 := congrArg (fun u => u.poc.resno1) h
  have h16 := congrArg (fun u => u.poc.compno0) h
  have h17 := congrArg (fun u => u.poc.compno1) h
  have h18 := congrArg (fun u => u.poc.precno0) h
  have h19 := congrArg (fun u => u.poc.prg) h
  exact ⟨h1, h2, h3, h4, h5, h6, h7, h8, h9, h10, h11, h12, h13, h14, h15, h16, h17, h18, h19⟩

theorem view_l_lrcp {s t : opj_pi_iterator} (h : view_l t = view_l s) :
    view_lrcp t = view_lrcp s := by
  have h1 := congrArg view_lrcp h
  exact h1

theorem lrcp_resno_loop_spec {s t : opj_pi_iterator} {b : Bool}
    (h : lrcp_resno_loop s = .ok (b, t)) :
    view_l t = view_l s ∧ t.layno = s.layno ∧ s.resno ≤ t.resno ∧
    (b = true → pi_marks s t ∧ t.resno < t.poc.resno1 ∧
      t.poc.compno0 ≤ t.compno ∧ t.compno < t.poc.compno1 ∧ lrcp_cell t) ∧
    (b = false → t.incl = s.incl) := by
  have key := pi_for_rule
    (fun t => view_l t = view_l s ∧ t.layno = s.layno ∧ s.resno ≤ t.resno ∧ t.incl = s.incl)
    (fun t => view_l t = view_l s ∧ t.layno = s.layno ∧ s.resno ≤ t.resno ∧
      pi_marks s t ∧ t.resno < t.poc.resno1 ∧
      t.poc.compno0 ≤ t.compno ∧ t.compno < t.poc.compno1 ∧ lrcp_cell t)
    (by
      intro t t1 t2 hI _ hb hi
      obtain ⟨hv, _, _, hd⟩ := lrcp_compno_loop_spec hb
      obtain ⟨hvl, hl, hr⟩ := view_c_l hv
      simp only [incr_resno, Except.ok.injEq] at hi
      subst hi
      refine ⟨hvl.trans hI.1, hl.trans hI.2.1, ?_, (hd rfl).trans hI.2.2.2⟩
      show s.resno ≤ t1.resno + 1
      have h1 : t1.resno = t.resno := hr
      have := hI.2.2.1
      omega)
    (by
      intro t t1 hI hc hb
      obtain ⟨hv, hcn, he, _⟩ := lrcp_compno_loop_spec hb
      obtain ⟨hvl, hl, hr⟩ := view_c_l hv
      obtain ⟨hm, hc1, hcell⟩ := he rfl
      obtain ⟨hf, _⟩ := view_l_frame hvl
      have hr1 : t1.resno = t.resno := hr
      have hc0 : t1.poc.compno0 = t.poc.compno0 := hf.compno0
      have hr2 : t1.poc.resno1 = t.poc.resno1 := hf.resno1
      refine ⟨hvl.trans hI.1, hl.trans hI.2.1, by rw [hr1]; exact hI.2.2.1,
        pi_marks_of_incl hI.2.2.2 hm, ?_, ?_, hc1, hcell⟩
      · rw [hr2, hr1]; simpa using hc
      · rw [hc0]; exact hcn)
    _ s t b ⟨rfl, rfl, le_refl _, rfl⟩ h
  cases b
  · exact ⟨(key.2 rfl).1.1, (key.2 rfl).1.2.1, (key.2 rfl).1.2.2.1, fun h => by simp at h,
      fun _ => (key.2 rfl).1.2.2.2⟩
  · exact ⟨(key.1 rfl).1, (key.1 rfl).2.1, (key.1 rfl).2.2.1, fun _ => (key.1 rfl).2.2.2,
      fun h => by simp at h⟩

theorem rlcp_layno_loop_spec {s t : opj_pi_iterator} {b : Bool}
    (h : rlcp_layno_loop s = .ok (b, t)) :
    view_l t = view_l s ∧ t.resno = s.resno ∧ s.layno ≤ t.layno ∧
    (b = true → pi_marks s t ∧ t.layno < t.poc.layno1 ∧
      t.poc.compno0 ≤ t.compno ∧ t.compno < t.poc.compno1 ∧ lrcp_cell t) ∧
    (b = false → t.incl = s.incl) := by
  have key := pi_for_rule
    (fun t => view_l t = view_l s ∧ t.resno = s.resno ∧ s.layno ≤ t.layno ∧ t.incl = s.incl)
    (fun t => view_l t = view_l s ∧ t.resno = s.resno ∧ s.layno ≤ t.layno ∧
      pi_marks s t ∧ t.layno < t.poc.layno1 ∧
      t.poc.compno0 ≤ t.compno ∧ t.compno < t.poc.compno1 ∧ lrcp_cell t)
    (by
      intro t t1 t2 hI _ hb hi
      obtain ⟨hv, _, _, hd⟩ := lrcp_compno_loop_spec hb
      obtain ⟨hvl, hl, hr⟩ := view_c_l hv
      simp only [incr_layno, Except.ok.injEq] at hi
      subst hi
      refine ⟨hvl.trans hI.1, hr.trans hI.2.1, ?_, (hd rfl).trans hI.2.2.2⟩
      show s.layno ≤ t1.layno + 1
      have h1 : t1.layno = t.layno := hl
      have := hI.2.2.1
      omega)
    (by
      intro t t1 hI hc hb
      obtain ⟨hv, hcn, he, _⟩ := lrcp_compno_loop_spec hb
      obtain ⟨hvl, hl, hr⟩ := view_c_l hv
      obtain ⟨hm, hc1, hcell⟩ := he rfl
      obtain ⟨hf, _⟩ := view_l_frame hvl
      have hl1 : t1.layno = t.layno := hl
      have hc0 : t1.poc.compno0 = t.poc.compno0 := hf.compno0
      have hl2 : t1.poc.layno1 = t.poc.layno1 := hf.layno1
      refine ⟨hvl.trans hI.1, hr.trans hI.2.1, by rw [hl1]; exact hI.2.2.1,
        pi_marks_of_incl hI.2.2.2 hm, ?_, ?_, hc1, hcell⟩
      · rw [hl2, hl1]; simpa using hc
      · rw [hc0]; exact hcn)
    _ s t b ⟨rfl, rfl, le_refl _, rfl⟩ h
  cases b
  · exact ⟨(key.2 rfl).1.1, (key.2 rfl).1.2.1, (key.2 rfl).1.2.2.1, fun h => by simp at h,
      fun _ => (key.2 rfl).1.2.2.2⟩
  · exact ⟨(key.1 rfl).1, (key.1 rfl).2.1, (key.1 rfl).2.2.1, fun _ => (key.1 rfl).2.2.2,
      fun h => by simp at h⟩

theorem lrcp_layno_loop_spec {s t : opj_pi_iterator} {b : Bool}
    (h : lrcp_layno_loop s = .ok (b, t)) :
    view_l t = view_l s ∧ s.layno ≤ t.layno ∧
    (b = true → pi_marks s t ∧ t.layno < t.poc.layno1 ∧ t.poc.resno0 ≤ t.resno ∧
      t.resno < t.poc.resno1 ∧
      t.poc.compno0 ≤ t.compno ∧ t.compno < t.poc.compno1 ∧ lrcp_cell t) ∧
    (b = false → t.incl = s.incl) := by
  have key := pi_for_rule
    (fun t => view_l t = view_l s ∧ s.layno ≤ t.layno ∧ t.incl = s.incl)
    (fun t => view_l t = view_l s ∧ s.layno ≤ t.layno ∧
      pi_marks s t ∧ t.layno < t.poc.layno1 ∧ t.poc.resno0 ≤ t.resno ∧
      t.resno < t.poc.resno1 ∧
      t.poc.compno0 ≤ t.compno ∧ t.compno < t.poc.compno1 ∧ lrcp_cell t)
    (by
      intro t t1 t2 hI _ hb hi
      obtain ⟨hv, hl, _, _, hd⟩ := lrcp_resno_loop_spec hb
      simp only [incr_layno, Except.ok.injEq] at hi
      subst hi
      refine ⟨hv.trans hI.1, ?_, (hd rfl).trans hI.2.2⟩
      show s.layno ≤ t1.layno + 1
      have h1 : t1.layno = t.layno := hl
      have := hI.2.1
      omega)
    (by
      intro t t1 hI hc hb
      obtain ⟨hv, hl, hr, he, _⟩ := lrcp_resno_loop_spec hb
      obtain ⟨hm, hr1, hc0, hc1, hcell⟩ := he rfl
      obtain ⟨hf, _⟩ := view_l_frame hv
      have hl1 : t1.layno = t.layno := hl
      have hr0 : t1.poc.resno0 = t.poc.resno0 := hf.resno0
      have hl2 : t1.poc.layno1 = t.poc.layno1 := hf.layno1
      refine ⟨hv.trans hI.1, by rw [hl1]; exact hI.2.1,
        pi_marks_of_incl hI.2.2 hm, ?_, ?_, hr1, hc0, hc1, hcell⟩
      · rw [hl2, hl1]; simpa using hc
      · rw [hr0]; exact hr)
    _ s t b ⟨rfl, le_refl _, rfl⟩ h
  cases b
  · exact ⟨(key.2 rfl).1.1, (key.2 rfl).1.2.1, fun h => by simp at h, fun _ => (key.2 rfl).1.2.2⟩
  · exact ⟨(key.1 rfl).1, (key.1 rfl).2.1, fun _ => (key.1 rfl).2.2, fun h => by simp at h⟩

theorem rlcp_resno_loop_spec {s t : opj_pi_iterator} {b : Bool}
    (h : rlcp_resno_loop s = .ok (b, t)) :
    view_l t = view_l s ∧ s.resno ≤ t.resno ∧
    (b = true → pi_marks s t ∧ t.poc.layno0 ≤ t.layno ∧ t.layno < t.poc.layno1 ∧
      t.resno < t.poc.resno1 ∧
      t.poc.compno0 ≤ t.compno ∧ t.compno < t.poc.compno1 ∧ lrcp_cell t) ∧
    (b = false → t.incl = s.incl) := by
  have key := pi_for_rule
    (fun t => view_l t = view_l s ∧ s.resno ≤ t.resno ∧ t.incl = s.incl)
    (fun t => view_l t = view_l s ∧ s.resno ≤ t.resno ∧
      pi_marks s t ∧ t.poc.layno0 ≤ t.layno ∧ t.layno < t.poc.layno1 ∧
      t.resno < t.poc.resno1 ∧
      t.poc.compno0 ≤ t.compno ∧ t.compno < t.poc.compno1 ∧ lrcp_cell t)
    (by
      intro t t1 t2 hI _ hb hi
      obtain ⟨hv, hr, _, _, hd⟩ := rlcp_layno_loop_spec hb
      simp only [incr_resno, Except.ok.injEq] at hi
      subst hi
      refine ⟨hv.trans hI.1, ?_, (hd rfl).trans hI.2.2⟩
      show s.resno ≤ t1.resno + 1
      have h1 : t1.resno = t.resno := hr
      have := hI.2.1
      omega)
    (by
      intro t t1 hI hc hb
      obtain ⟨hv, hr, hl, he, _⟩ := rlcp_layno_loop_spec hb
      obtain ⟨hm, hl1, hc0, hc1, hcell⟩ := he rfl
      obtain ⟨hf, _⟩ := view_l_frame hv
      have hr1 : t1.resno = t.resno := hr
      have hl0 : t1.poc.layno0 = t.poc.layno0 := hf.layno0
      have hr2 : t1.poc.resno1 = t.poc.resno1 := hf.resno1
      refine ⟨hv.trans hI.1, by rw [hr1]; exact hI.2.1,
        pi_marks_of_incl hI.2.2 hm, ?_, hl1, ?_, hc0, hc1, hcell⟩
      · rw [hl0]; exact hl
      · rw [hr2, hr1]; simpa using hc)
    _ s t b ⟨rfl, le_refl _, rfl⟩ h
  cases b
  · exact ⟨(key.2 rfl).1.1, (key.2 rfl).1.2.1, fun h => by simp at h, fun _ => (key.2 rfl).1.2.2⟩
  · exact ⟨(key.1 rfl).1, (key.1 rfl).2.1, fun _ => (key.1 rfl).2.2, fun h => by simp at h⟩

/-! ### Re-entry through `LABEL_SKIP` -/

theorem lrcp_skip_precno {s t : opj_pi_iterator} {b : Bool}
    (h : pi_then (.ok (false, s)) incr_precno lrcp_precno_loop = .ok (b, t)) :
    view_p t = view_p s ∧
    (b = true → pi_marks s t ∧ (lrcp_at s → lrcp_at t)) ∧
    (b = false → t.incl = s.incl) := by
  rcases pi_then_ok h with ⟨h1, _⟩ | ⟨s1, s2, h1, h2, h3⟩
  · simp at h1
  · simp only [Except.ok.injEq, Prod.mk.injEq, true_and] at h1
    subst h1
    simp only [incr_precno, Except.ok.injEq] at h2
    subst h2
    obtain ⟨hv, hp, he, hd⟩ := lrcp_precno_loop_spec h3
    have hv1 : view_p t = view_p s := hv
    obtain ⟨hvc, hcn, hpoc⟩ := view_p_c hv1
    obtain ⟨hvl, hl, hr⟩ := view_c_l hvc
    obtain ⟨hf, hfirst⟩ := view_l_frame hvl
    refine ⟨hv1, ?_, hd⟩
    intro hb
    obtain ⟨hlt, hm⟩ := he hb
    refine ⟨hm, ?_⟩
    rintro ⟨hs1, ⟨b1, b2, b3, b4, b5, b6⟩, c1, c2, comp, c3, c4, c5⟩
    have hp1 : s.precno + 1 ≤ t.precno := hp
    refine ⟨hfirst.trans hs1, ⟨?_, ?_, ?_, ?_, ?_, ?_⟩, ?_, hlt, comp, ?_, ?_, ?_⟩
    · rw [hpoc, hl]; exact b1
    · rw [hpoc, hl]; exact b2
    · rw [hpoc, hr]; exact b3
    · rw [hpoc, hr]; exact b4
    · rw [hpoc, hcn]; exact b5
    · rw [hpoc, hcn]; exact b6
    · rw [hpoc]; omega
    · rw [hf.comps, hcn]; exact c3
    · rw [hr]; exact c4
    · rw [hf.tp_on, hr, hpoc]; exact c5

theorem lrcp_skip_compno {s t : opj_pi_iterator} {b : Bool}
    (h : pi_then (pi_then (.ok (false, s)) incr_precno lrcp_precno_loop)
      incr_compno lrcp_compno_loop = .ok (b, t)) :
    view_c t = view_c s ∧
    (b = true → pi_marks s t ∧ (lrcp_at s → lrcp_at t)) ∧
    (b = false → t.incl = s.incl) := by
  rcases pi_then_ok h with ⟨h1, hb⟩ | ⟨s1, s2, h1, h2, h3⟩
  · obtain ⟨hv, he, _⟩ := lrcp_skip_precno h1
    exact ⟨(view_p_c hv).1, fun _ => he rfl, fun h => by rw [hb] at h; simp at h⟩
  · obtain ⟨hv, _, hd⟩ := lrcp_skip_precno h1
    simp only [incr_compno, Except.ok.injEq] at h2
    subst h2
    obtain ⟨hv2, hc, he, hd2⟩ := lrcp_compno_loop_spec h3
    have hv3 : view_c t = view_c s := hv2.trans (view_p_c hv).1
    obtain ⟨hvl, hl, hr⟩ := view_c_l hv3
    obtain ⟨hf, hfirst⟩ := view_l_frame hvl
    refine ⟨hv3, ?_, fun hb => (hd2 hb).trans (hd rfl)⟩
    intro hb
    obtain ⟨hm, hc1, hcell⟩ := he hb
    refine ⟨pi_marks_of_incl (hd rfl) hm, ?_⟩
    rintro ⟨hs1, ⟨b1, b2, b3, b4, b5, b6⟩, _⟩
    have hc2 : s1.compno + 1 ≤ t.compno := hc
    have hc3 : s1.compno = s.compno := (view_p_c hv).2.1
    refine ⟨hfirst.trans hs1, ⟨?_, ?_, ?_, ?_, ?_, hc1⟩, hcell⟩
    · rw [hf.layno0, hl]; exact b1
    · rw [hf.layno1, hl]; exact b2
    · rw [hf.resno0, hr]; exact b3
    · rw [hf.resno1, hr]; exact b4
    · rw [hf.compno0]; omega

theorem lrcp_skip_resno {s t : opj_pi_iterator} {b : Bool}
    (h : pi_then (pi_then (pi_then (.ok (false, s)) incr_precno lrcp_precno_loop)
      incr_compno lrcp_compno_loop) incr_resno lrcp_resno_loop = .ok (b, t)) :
    view_l t = view_l s ∧ t.layno = s.layno ∧
    (b = true → pi_marks s t ∧ (lrcp_at s → lrcp_at t)) ∧
    (b = false → t.incl = s.incl) := by
  rcases pi_then_ok h with ⟨h1, hb⟩ | ⟨s1, s2, h1, h2, h3⟩
  · obtain ⟨hv, he, _⟩ := lrcp_skip_compno h1
    exact ⟨(view_c_l hv).1, (view_c_l hv).2.1, fun _ => he rfl,
      fun h => by rw [hb] at h; simp at h⟩
  · obtain ⟨hv, _, hd⟩ := lrcp_skip_compno h1
    simp only [incr_resno, Except.ok.injEq] at h2
    subst h2
    obtain ⟨hv2, hl2, hr2, he, hd2⟩ := lrcp_resno_loop_spec h3
    obtain ⟨hvl1, hl1, hr1⟩ := view_c_l hv
    have hv3 : view_l t = view_l s := hv2.trans hvl1
    have hl : t.layno = s.layno := hl2.trans hl1
    obtain ⟨hf, hfirst⟩ := view_l_frame hv3
    refine ⟨hv3, hl, ?_, fun hb => (hd2 hb).trans (hd rfl)⟩
    intro hb
    obtain ⟨hm, hr3, hc0, hc1, hcell⟩ := he hb
    refine ⟨pi_marks_of_incl (hd rfl) hm, ?_⟩
    rintro ⟨hs1, ⟨b1, b2, b3, b4, b5, b6⟩, _⟩
    have hr4 : s1.resno + 1 ≤ t.resno := hr2
    refine ⟨hfirst.trans hs1, ⟨?_, ?_, ?_, hr3, hc0, hc1⟩, hcell⟩
    · rw [hf.layno0, hl]; exact b1
    · rw [hf.layno1, hl]; exact b2
    · rw [hf.resno0]; omega

theorem rlcp_skip_layno {s t : opj_pi_iterator} {b : Bool}
    (h : pi_then (pi_then (pi_then (.ok (false, s)) incr_precno lrcp_precno_loop)
      incr_compno lrcp_compno_loop) incr_layno rlcp_layno_loop = .ok (b, t)) :
    view_l t = view_l s ∧ t.resno = s.resno ∧
    (b = true → pi_marks s t ∧ (lrcp_at s → lrcp_at t)) ∧
    (b = false → t.incl = s.incl) := by
  rcases pi_then_ok h with ⟨h1, hb⟩ | ⟨s1, s2, h1, h2, h3⟩
  · obtain ⟨hv, he, _⟩ := lrcp_skip_compno h1
    exact ⟨(view_c_l hv).1, (view_c_l hv).2.2, fun _ => he rfl,
      fun h => by rw [hb] at h; simp at h⟩
  · obtain ⟨hv, _, hd⟩ := lrcp_skip_compno h1
    simp only [incr_layno, Except.ok.injEq] at h2
    subst h2
    obtain ⟨hv2, hr2, hl2, he, hd2⟩ := rlcp_layno_loop_spec h3
    obtain ⟨hvl1, hl1, hr1⟩ := view_c_l hv
    have hv3 : view_l t = view_l s := hv2.trans hvl1
    have hr : t.resno = s.resno := hr2.trans hr1
    obtain ⟨hf, hfirst⟩ := view_l_frame hv3
    refine ⟨hv3, hr, ?_, fun hb => (hd2 hb).trans (hd rfl)⟩
    intro hb
    obtain ⟨hm, hl3, hc0, hc1, hcell⟩ := he hb
    refine ⟨pi_marks_of_incl (hd rfl) hm, ?_⟩
    rintro ⟨hs1, ⟨b1, b2, b3, b4, b5, b6⟩, _⟩
    have hl4 : s1.layno + 1 ≤ t.layno := hl2
    refine ⟨hfirst.trans hs1, ⟨?_, hl3, ?_, ?_, hc0, hc1⟩, hcell⟩
    · rw [hf.layno0]; omega
    · rw [hf.resno0, hr]; exact b3
    · rw [hf.resno1, hr]; exact b4

/-- What a call of `pi_next_lrcp` does: it writes only the cursor, `first`,
`poc.precno1` and the bitmap; when it returns `OPJ_TRUE` it has marked the cell
of the new cursor, and the cursor is a cell of the POC box. -/
theorem pi_next_lrcp_spec {s t : opj_pi_iterator} {b : Bool}
    (h : pi_next_lrcp s = .ok (b, t)) :
    view_lrcp t = view_lrcp s ∧ t.first = false ∧
    (b = true → pi_marks s t ∧ ((s.first = true ∨ lrcp_at s) → lrcp_at t)) ∧
    (b = false → t.incl = s.incl) := by
  unfold pi_next_lrcp at h
  by_cases hfst : s.first = true
  · simp only [hfst, Bool.not_true, Bool.false_eq_true, if_false] at h
    obtain ⟨hv, hl, he, hd⟩ := lrcp_layno_loop_spec h
    obtain ⟨hf, hfirst⟩ := view_l_frame hv
    have hfirst1 : t.first = false := hfirst
    have hvv := view_l_lrcp hv
    refine ⟨hvv, hfirst1, ?_, fun hb => hd hb⟩
    intro hb
    obtain ⟨hm, hl1, hr0, hr1, hc0, hc1, hcell⟩ := he hb
    refine ⟨hm, fun _ => ⟨hfirst1, ⟨?_, hl1, hr0, hr1, hc0, hc1⟩, hcell⟩⟩
    have h0 : t.poc.layno0 = s.poc.layno0 := hf.layno0
    rw [h0]; exact hl
  · have hfst0 : s.first = false := by simpa using hfst
    simp only [hfst0, Bool.not_false, if_true] at h
    cases hg : arr_get s.comps s.compno with
    | none => rw [hg] at h; simp at h
    | some comp =>
      rw [hg] at h
      dsimp only at h
      rcases pi_then_ok h with ⟨h1, hb1⟩ | ⟨s1, s2, h1, h2, h3⟩
      · obtain ⟨hv, hl, he, _⟩ := lrcp_skip_resno h1
        obtain ⟨_, hfirst⟩ := view_l_frame hv
        refine ⟨view_l_lrcp hv, hfirst.trans hfst0, ?_, fun h => by rw [hb1] at h; simp at h⟩
        intro _
        obtain ⟨hm, hat⟩ := he rfl
        refine ⟨hm, fun hor => ?_⟩
        rcases hor with hor | hor
        · rw [hfst0] at hor; simp at hor
        · exact hat hor
      · obtain ⟨hv, hl, _, hd⟩ := lrcp_skip_resno h1
        simp only [incr_layno, Except.ok.injEq] at h2
        subst h2
        obtain ⟨hv2, hl2, he, hd2⟩ := lrcp_layno_loop_spec h3
        have hv3 : view_l t = view_l s := hv2.trans hv
        obtain ⟨hf, hfirst⟩ := view_l_frame hv3
        refine ⟨view_l_lrcp hv3, hfirst.trans hfst0, ?_, fun hb => (hd2 hb).trans (hd rfl)⟩
        intro hb
        obtain ⟨hm, hl1, hr0, hr1, hc0, hc1, hcell⟩ := he hb
        refine ⟨pi_marks_of_incl (hd rfl) hm, fun hor => ?_⟩
        rcases hor with hor | hor
        · rw [hfst0] at hor; simp at hor
        · obtain ⟨_, ⟨b1, _⟩, _⟩ := hor
          have hl4 : s1.layno + 1 ≤ t.layno := hl2
          refine ⟨hfirst.trans hfst0, ⟨?_, hl1, hr0, hr1, hc0, hc1⟩, hcell⟩
          rw [hf.layno0]; omega

/-- What a call of `pi_next_rlcp` does (as `pi_next_lrcp_spec`). -/
theorem pi_next_rlcp_spec {s t : opj_pi_iterator} {b : Bool}
    (h : pi_next_rlcp s = .ok (b, t)) :
    view_lrcp t = view_lrcp s ∧ t.first = false ∧
    (b = true → pi_marks s t ∧ ((s.first = true ∨ lrcp_at s) → lrcp_at t)) ∧
    (b = false → t.incl = s.incl) := by
  unfold pi_next_rlcp at h
  by_cases hfst : s.first = true
  · simp only [hfst, Bool.not_true, Bool.false_eq_true, if_false] at h
    obtain ⟨hv, hr, he, hd⟩ := rlcp_resno_loop_spec h
    obtain ⟨hf, hfirst⟩ := view_l_frame hv
    have hfirst1 : t.first = false := hfirst
    have hvv := view_l_lrcp hv
    refine ⟨hvv, hfirst1, ?_, fun hb => hd hb⟩
    intro hb
    obtain ⟨hm, hl0, hl1, hr1, hc0, hc1, hcell⟩ := he hb
    refine ⟨hm, fun _ => ⟨hfirst1, ⟨hl0, hl1, ?_, hr1, hc0, hc1⟩, hcell⟩⟩
    have h0 : t.poc.resno0 = s.poc.resno0 := hf.resno0
    rw [h0]; exact hr
  · have hfst0 : s.first = false := by simpa using hfst
    simp only [hfst0, Bool.not_false, if_true] at h
    cases hg : arr_get s.comps s.compno with
    | none => rw [hg] at h; simp at h
    | some comp =>
      rw [hg] at h
      dsimp only at h
      rcases pi_then_ok h with ⟨h1, hb1⟩ | ⟨s1, s2, h1, h2, h3⟩
      · obtain ⟨hv, hl, he, _⟩ := rlcp_skip_layno h1
        obtain ⟨_, hfirst⟩ := view_l_frame hv
        refine ⟨view_l_lrcp hv, hfirst.trans hfst0, ?_, fun h => by rw [hb1] at h; simp at h⟩
        intro _
        obtain ⟨hm, hat⟩ := he rfl
        refine ⟨hm, fun hor => ?_⟩
        rcases hor with hor | hor
        · rw [hfst0] at hor; simp at hor
        · exact hat hor
      · obtain ⟨hv, hr, _, hd⟩ := rlcp_skip_layno h1
        simp only [incr_resno, Except.ok.injEq] at h2
        subst h2
        obtain ⟨hv2, hr2, he, hd2⟩ := rlcp_resno_loop_spec h3
        have hv3 : view_l t = view_l s := hv2.trans hv
        obtain ⟨hf, hfirst⟩ := view_l_frame hv3
        refine ⟨view_l_lrcp hv3, hfirst.trans hfst0, ?_, fun hb => (hd2 hb).trans (hd rfl)⟩
        intro hb
        obtain ⟨hm, hl0, hl1, hr1, hc0, hc1, hcell⟩ := he hb
        refine ⟨pi_marks_of_incl (hd rfl) hm, fun hor => ?_⟩
        rcases hor with hor | hor
        · rw [hfst0] at hor; simp at hor
        · obtain ⟨_, ⟨_, _, b3, _⟩, _⟩ := hor
          have hr4 : s1.resno + 1 ≤ t.resno := hr2
          refine ⟨hfirst.trans hfst0, ⟨hl0, hl1, ?_, hr1, hc0, hc1⟩, hcell⟩
          rw [hf.resno0]; omega

/-! ## The spatial engines: what a call does -/

theorem pi_core_frame {s t : opj_pi_iterator} (h : pi_core t = pi_core s) : pi_frame s t := by
  have h1 := congrArg opj_pi_iterator.tp_on h
  have h2 := congrArg opj_pi_iterator.step_l h
  have h3 := congrArg opj_pi_iterator.step_r h
  have h4 := congrArg opj_pi_iterator.step_c h
  have h5 := congrArg opj_pi_iterator.step_p h
  have h6 := congrArg opj_pi_iterator.numcomps h
  have h7 := congrArg opj_pi_iterator.comps h
  have h8 := congrArg opj_pi_iterator.tx0 h
  have h9 := congrArg opj_pi_iterator.ty0 h
  have h10 := congrArg opj_pi_iterator.tx1 h
  have h11 := congrArg opj_pi_iterator.ty1 h
  have h12 := congrArg (fun u => u.poc.layno0) h
  have h13 := congrArg (fun u => u.poc.layno1) h
  have h14 := congrArg (fun u => u.poc.resno0) h
  have h15 := congrArg (fun u => u.poc.resno1) h
  have h16 := congrArg (fun u => u.poc.compno0) h
  have h17 := congrArg (fun u => u.poc.compno1) h
  have h18 := congrArg (fun u => u.poc.precno0) h
  have h19 := congrArg (fun u => u.poc.prg) h
  exact ⟨h1, h2, h3, h4, h5, h6, h7, h8, h9, h10, h11, h12, h13, h14, h15, h16, h17, h18, h19⟩

theorem view_lrcp_core {s t : opj_pi_iterator} (h : view_lrcp t = view_lrcp s) :
    pi_core t = pi_core s := by
  have h1 := congrArg pi_core h
  exact h1

theorem view_s2_core {s t : opj_pi_iterator} (h : view_s2 t = view_s2 s) :
    pi_core t = pi_core s := by
  have h1 := congrArg pi_core h
  exact h1

theorem view_s1_s2 {s t : opj_pi_iterator} (h : view_s1 t = view_s1 s) :
    view_s2 t = view_s2 s ∧ pi_frame s t ∧ t.first = s.first ∧ t.dx = s.dx ∧ t.dy = s.dy ∧
    t.poc = s.poc := by
  have h1 := congrArg view_s2 h
  have h2 := congrArg opj_pi_iterator.first h
  have h3 := congrArg opj_pi_iterator.dx h
  have h4 := congrArg opj_pi_iterator.dy h
  have h5 := congrArg opj_pi_iterator.poc h
  exact ⟨h1, pi_core_frame (view_s2_core h1), h2, h3, h4, h5⟩

theorem view_s0_s1 {s t : opj_pi_iterator} (h : view_s0 t = view_s0 s) :
    view_s1 t = view_s1 s ∧ t.resno = s.resno ∧ t.compno = s.compno ∧ t.x = s.x ∧
    t.y = s.y := by
  have h1 := congrArg view_s1 h
  have h2 := congrArg opj_pi_iterator.resno h
  have h3 := congrArg opj_pi_iterator.compno h
  have h4 := congrArg opj_pi_iterator.x h
  have h5 := congrArg opj_pi_iterator.y h
  exact ⟨h1, h2, h3, h4, h5⟩

theorem view_sl_s0 {s t : opj_pi_iterator} (h : view_sl t = view_sl s) :
    view_s0 t = view_s0 s ∧ t.precno = s.precno := by
  have h1 := congrArg view_s0 h
  have h2 := congrArg opj_pi_iterator.precno h
  exact ⟨h1, h2⟩

theorem pi_precinct_at_view {s t : opj_pi_iterator} (h : view_s0 t = view_s0 s)
    (comp : opj_pi_comp) (res : opj_pi_resolution) :
    pi_precinct_at t comp res = pi_precinct_at s comp res := by
  have h1 : pi_precinct_at t comp res = pi_precinct_at (view_s0 t) comp res := rfl
  have h2 : pi_precinct_at s comp res = pi_precinct_at (view_s0 s) comp res := rfl
  rw [h1, h2, h]

theorem spatial_layno_loop_spec {s t : opj_pi_iterator} {b : Bool}
    (h : spatial_layno_loop s = .ok (b, t)) :
    view_sl t = view_sl s ∧ s.layno ≤ t.layno ∧
    (b = true → t.layno < t.poc.layno1 ∧ pi_marks s t) ∧
    (b = false → t.incl = s.incl) := by
  have key := pi_for_rule
    (fun t => view_sl t = view_sl s ∧ s.layno ≤ t.layno ∧ t.incl = s.incl)
    (fun t => view_sl t = view_sl s ∧ s.layno ≤ t.layno ∧ t.layno < t.poc.layno1 ∧ pi_marks s t)
    (by
      intro t t1 t2 hI _ hb hi
      rcases pi_visit_ok hb with ⟨h1, _⟩ | ⟨_, rfl⟩
      · simp at h1
      · simp only [incr_layno, Except.ok.injEq] at hi
        subst hi
        refine ⟨hI.1, ?_, hI.2.2⟩
        show s.layno ≤ t1.layno + 1
        have := hI.2.1
        omega)
    (by
      intro t t1 hI hc hb
      rcases pi_visit_ok hb with ⟨_, h0, rfl⟩ | ⟨h1, _⟩
      · refine ⟨hI.1, hI.2.1, by simpa using hc, ?_, ?_⟩
        · have : arr_get s.incl (pi_index t) = some 0 := by rw [← hI.2.2]; exact h0
          exact this
        · show t.incl.set (pi_index t).toNat 1 = s.incl.set (pi_index t).toNat 1
          rw [hI.2.2]
      · simp at h1)
    _ s t b ⟨rfl, le_refl _, rfl⟩ h
  cases b
  · exact ⟨(key.2 rfl).1.1, (key.2 rfl).1.2.1, fun h => by simp at h, fun _ => (key.2 rfl).1.2.2⟩
  · exact ⟨(key.1 rfl).1, (key.1 rfl).2.1, fun _ => (key.1 rfl).2.2, fun h => by simp at h⟩

theorem pi_spatial_body_spec {comp : opj_pi_comp} {s t : opj_pi_iterator} {b : Bool}
    (h : pi_spatial_body comp s = .ok (b, t)) :
    view_s0 t = view_s0 s ∧
    (b = true → pi_marks s t ∧ in_l t ∧
      ∃ res, arr_get comp.resolutions t.resno = some res ∧
        pi_precinct_at t comp res = .ok (some t.precno)) ∧
    (b = false → t.incl = s.incl) := by
  unfold pi_spatial_body at h
  cases hres : arr_get comp.resolutions s.resno with
  | none => rw [hres] at h; simp at h
  | some res =>
    rw [hres] at h
    dsimp only at h
    cases hp : pi_precinct_at s comp res with
    | error e => rw [hp] at h; simp at h
    | ok o =>
      rw [hp] at h
      cases o with
      | none =>
        simp only [Except.ok.injEq, Prod.mk.injEq] at h
        obtain ⟨rfl, rfl⟩ := h
        exact ⟨rfl, fun h => by simp at h, fun _ => rfl⟩
      | some p =>
        dsimp only at h
        obtain ⟨hv, hl, he, hd⟩ := spatial_layno_loop_spec h
        obtain ⟨hv0, hprec⟩ := view_sl_s0 hv
        have hv0s : view_s0 t = view_s0 s := hv0
        obtain ⟨hv1, hr, _, _, _⟩ := view_s0_s1 hv0s
        obtain ⟨_, hf, _, _, _, hpoc⟩ := view_s1_s2 hv1
        refine ⟨hv0s, ?_, hd⟩
        intro hb
        obtain ⟨hlt, hm⟩ := he hb
        refine ⟨hm, ⟨?_, hlt⟩, res, by rw [hr]; exact hres, ?_⟩
        · rw [hpoc]; exact hl
        · rw [pi_precinct_at_view hv0s, hp]
          have : t.precno = p := hprec
          rw [this]

theorem rpcl_compno_body_spec {s t : opj_pi_iterator} {b : Bool}
    (h : rpcl_compno_body s = .ok (b, t)) :
    view_s0 t = view_s0 s ∧
    (b = true → pi_marks s t ∧ in_l t ∧ spatial_hit t) ∧
    (b = false → t.incl = s.incl) := by
  unfold rpcl_compno_body at h
  cases hg : arr_get s.comps s.compno with
  | none => rw [hg] at h; simp at h
  | some comp =>
    rw [hg] at h
    dsimp only at h
    by_cases hr : s.resno ≥ comp.numresolutions
    · rw [if_pos hr] at h
      simp only [Except.ok.injEq, Prod.mk.injEq] at h
      obtain ⟨rfl, rfl⟩ := h
      exact ⟨rfl, fun h => by simp at h, fun _ => rfl⟩
    · rw [if_neg hr] at h
      obtain ⟨hv, he, hd⟩ := pi_spatial_body_spec h
      obtain ⟨hv1, hrs, hcn, _, _⟩ := view_s0_s1 hv
      obtain ⟨_, hf, _, _, _, _⟩ := view_s1_s2 hv1
      refine ⟨hv, ?_, hd⟩
      intro hb
      obtain ⟨hm, hl, res, h1, h2⟩ := he hb
      refine ⟨hm, hl, comp, res, ?_, ?_, h1, h2⟩
      · rw [hf.comps, hcn]; exact hg
      · rw [hrs]; exact lt_of_not_ge hr

theorem rpcl_compno_loop_spec {s t : opj_pi_iterator} {b : Bool}
    (h : rpcl_compno_loop s = .ok (b, t)) :
    view_s1 t = view_s1 s ∧ t.resno = s.resno ∧ t.x = s.x ∧ t.y = s.y ∧ s.compno ≤ t.compno ∧
    (b = true → pi_marks s t ∧ in_l t ∧ t.compno < t.poc.compno1 ∧ spatial_hit t) ∧
    (b = false → t.incl = s.incl) := by
  have key := pi_for_rule
    (fun t => view_s1 t = view_s1 s ∧ t.resno = s.resno ∧ t.x = s.x ∧ t.y = s.y ∧
      s.compno ≤ t.compno ∧ t.incl = s.incl)
    (fun t => view_s1 t = view_s1 s ∧ t.resno = s.resno ∧ t.x = s.x ∧ t.y = s.y ∧
      s.compno ≤ t.compno ∧
      pi_marks s t ∧ in_l t ∧ t.compno < t.poc.compno1 ∧ spatial_hit t)
    (by
      intro t t1 t2 hI _ hb hi
      obtain ⟨hv, _, hd⟩ := rpcl_compno_body_spec hb
      obtain ⟨hv1, hr, hc, hx, hy⟩ := view_s0_s1 hv
      simp only [incr_compno, Except.ok.injEq] at hi
      subst hi
      obtain ⟨i1, i2, i3, i4, i5, i6⟩ := hI
      refine ⟨hv1.trans i1, hr.trans i2, hx.trans i3, hy.trans i4, ?_, (hd rfl).trans i6⟩
      show s.compno ≤ t1.compno + 1
      omega)
    (by
      intro t t1 hI hc hb
      obtain ⟨hv, he, _⟩ := rpcl_compno_body_spec hb
      obtain ⟨hv1, hr, hcn, hx, hy⟩ := view_s0_s1 hv
      obtain ⟨_, hf, _, _, _, hpoc⟩ := view_s1_s2 hv1
      obtain ⟨hm, hl, hhit⟩ := he rfl
      obtain ⟨i1, i2, i3, i4, i5, i6⟩ := hI
      refine ⟨hv1.trans i1, hr.trans i2, hx.trans i3, hy.trans i4, by rw [hcn]; exact i5,
        pi_marks_of_incl i6 hm, hl, ?_, hhit⟩
      rw [hpoc, hcn]; simpa using hc)
    _ s t b ⟨rfl, rfl, rfl, rfl, le_refl _, rfl⟩ h
  cases b
  · obtain ⟨⟨k1, k2, k3, k4, k5, k6⟩, _⟩ := key.2 rfl
    exact ⟨k1, k2, k3, k4, k5, fun h => by simp at h, fun _ => k6⟩
  · obtain ⟨k1, k2, k3, k4, k5, k6⟩ := key.1 rfl
    exact ⟨k1, k2, k3, k4, k5, fun _ => k6, fun h => by simp at h⟩

theorem incr_x_ok {s t : opj_pi_iterator} (h : incr_x s = .ok t) :
    view_s1 t = view_s1 s ∧ t.resno = s.resno ∧ t.compno = s.compno ∧ t.y = s.y ∧
    t.incl = s.incl ∧ s.dx ≠ 0 ∧ (0 ≤ s.dx → s.x < t.x) := by
  unfold incr_x at h
  by_cases h0 : s.dx = 0
  · rw [if_pos h0] at h; simp at h
  · rw [if_neg h0] at h
    simp only [Except.ok.injEq] at h
    subst h
    refine ⟨rfl, rfl, rfl, rfl, rfl, h0, ?_⟩
    intro hpos
    have hp : 0 < s.dx := lt_of_le_of_ne hpos (Ne.symm h0)
    have := Int.tmod_lt_of_pos s.x hp
    show s.x < s.x + (s.dx - Int.tmod s.x s.dx)
    omega

theorem incr_y_ok {s t : opj_pi_iterator} (h : incr_y s = .ok t) :
    view_s1 t = view_s1 s ∧ t.resno = s.resno ∧ t.compno = s.compno ∧ t.x = s.x ∧
    t.incl = s.incl ∧ s.dy ≠ 0 ∧ (0 ≤ s.dy → s.y < t.y) := by
  unfold incr_y at h
  by_cases h0 : s.dy = 0
  · rw [if_pos h0] at h; simp at h
  · rw [if_neg h0] at h
    simp only [Except.ok.injEq] at h
    subst h
    refine ⟨rfl, rfl, rfl, rfl, rfl, h0, ?_⟩
    intro hpos
    have hp : 0 < s.dy := lt_of_le_of_ne hpos (Ne.symm h0)
    have := Int.tmod_lt_of_pos s.y hp
    show s.y < s.y + (s.dy - Int.tmod s.y s.dy)
    omega

theorem rpcl_x_loop_spec {s t : opj_pi_iterator} {b : Bool}
    (h : rpcl_x_loop s = .ok (b, t)) :
    view_s1 t = view_s1 s ∧ t.resno = s.resno ∧ t.y = s.y ∧ (0 ≤ s.dx → s.x ≤ t.x) ∧
    (b = true → pi_marks s t ∧ in_l t ∧ in_c t ∧ t.x < t.poc.tx1 ∧ spatial_hit t) ∧
    (b = false → t.incl = s.incl) := by
  have key := pi_for_rule
    (fun t => view_s1 t = view_s1 s ∧ t.resno = s.resno ∧ t.y = s.y ∧
      (0 ≤ s.dx → s.x ≤ t.x) ∧ t.incl = s.incl)
    (fun t => view_s1 t = view_s1 s ∧ t.resno = s.resno ∧ t.y = s.y ∧
      (0 ≤ s.dx → s.x ≤ t.x) ∧
      pi_marks s t ∧ in_l t ∧ in_c t ∧ t.x < t.poc.tx1 ∧ spatial_hit t)
    (by
      intro t t1 t2 hI _ hb hi
      obtain ⟨hv, hr, hx, hy, _, _, hd⟩ := rpcl_compno_loop_spec hb
      obtain ⟨jv, jr, _, jy, ji, _, jx⟩ := incr_x_ok hi
      obtain ⟨i1, i2, i3, i4, i5⟩ := hI
      obtain ⟨_, _, _, hdx1, _, _⟩ := view_s1_s2 hv
      obtain ⟨_, _, _, hdx0, _, _⟩ := view_s1_s2 i1
      have hx1 : t1.x = t.x := hx
      have hdx : t1.dx = s.dx := by
        have e1 : t1.dx = t.dx := hdx1
        rw [e1]; exact hdx0
      refine ⟨(jv.trans hv).trans i1, (jr.trans hr).trans i2, (jy.trans hy).trans i3, ?_,
        (ji.trans (hd rfl)).trans i5⟩
      intro hpos
      have h1 := i4 hpos
      have h2 := jx (by rw [hdx]; exact hpos)
      omega)
    (by
      intro t t1 hI hc hb
      obtain ⟨hv, hr, hx, hy, hcn, he, _⟩ := rpcl_compno_loop_spec hb
      obtain ⟨_, hf, _, _, _, hpoc⟩ := view_s1_s2 hv
      obtain ⟨hm, hl, hc1, hhit⟩ := he rfl
      obtain ⟨i1, i2, i3, i4, i5⟩ := hI
      have hr1 : t1.resno = t.resno := hr
      have hx1 : t1.x = t.x := hx
      have hy1 : t1.y = t.y := hy
      have hpoc1 : t1.poc = t.poc := hpoc
      have hcn1 : t.poc.compno0 ≤ t1.compno := hcn
      refine ⟨hv.trans i1, hr1.trans i2, hy1.trans i3, ?_, pi_marks_of_incl i5 hm, hl,
        ⟨by rw [hpoc1]; exact hcn1, hc1⟩, ?_, hhit⟩
      · intro hpos; rw [hx1]; exact i4 hpos
      · rw [hpoc1, hx1]; simpa using hc)
    _ s t b ⟨rfl, rfl, rfl, fun _ => le_refl _, rfl⟩ h
  cases b
  · obtain ⟨⟨k1, k2, k3, k4, k5⟩, _⟩ := key.2 rfl
    exact ⟨k1, k2, k3, k4, fun h => by simp at h, fun _ => k5⟩
  · obtain ⟨k1, k2, k3, k4, k5⟩ := key.1 rfl
    exact ⟨k1, k2, k3, k4, fun _ => k5, fun h => by simp at h⟩

theorem rpcl_y_loop_spec {s t : opj_pi_iterator} {b : Bool}
    (h : rpcl_y_loop s = .ok (b, t)) :
    view_s1 t = view_s1 s ∧ t.resno = s.resno ∧ (0 ≤ s.dy → s.y ≤ t.y) ∧
    (b = true → pi_marks s t ∧ in_l t ∧ in_c t ∧ in_x t ∧ t.y < t.poc.ty1 ∧ spatial_hit t) ∧
    (b = false → t.incl = s.incl) := by
  have key := pi_for_rule
    (fun t => view_s1 t = view_s1 s ∧ t.resno = s.resno ∧
      (0 ≤ s.dy → s.y ≤ t.y) ∧ t.incl = s.incl)
    (fun t => view_s1 t = view_s1 s ∧ t.resno = s.resno ∧
      (0 ≤ s.dy → s.y ≤ t.y) ∧
      pi_marks s t ∧ in_l t ∧ in_c t ∧ in_x t ∧ t.y < t.poc.ty1 ∧ spatial_hit t)
    (by
      intro t t1 t2 hI _ hb hi
      obtain ⟨hv, hr, hy, _, _, hd⟩ := rpcl_x_loop_spec hb
      obtain ⟨jv, jr, _, _, ji, _, jy⟩ := incr_y_ok hi
      obtain ⟨i1, i2, i3, i4⟩ := hI
      obtain ⟨_, _, _, _, hdy1, _⟩ := view_s1_s2 hv
      obtain ⟨_, _, _, _, hdy0, _⟩ := view_s1_s2 i1
      have hy1 : t1.y = t.y := hy
      have hdy : t1.dy = s.dy := by
        have e1 : t1.dy = t.dy := hdy1
        rw [e1]; exact hdy0
      refine ⟨(jv.trans hv).trans i1, (jr.trans hr).trans i2, ?_, (ji.trans (hd rfl)).trans i4⟩
      intro hpos
      have h1 := i3 hpos
      have h2 := jy (by rw [hdy]; exact hpos)
      omega)
    (by
      intro t t1 hI hc hb
      obtain ⟨hv, hr, hy, hx, he, _⟩ := rpcl_x_loop_spec hb
      obtain ⟨_, hf, _, hdx, _, hpoc⟩ := view_s1_s2 hv
      obtain ⟨hm, hl, hc1, hx1, hhit⟩ := he rfl
      obtain ⟨i1, i2, i3, i4⟩ := hI
      have hr1 : t1.resno = t.resno := hr
      have hy1 : t1.y = t.y := hy
      have hpoc1 : t1.poc = t.poc := hpoc
      have hdx1 : t1.dx = t.dx := hdx
      have hx0 : 0 ≤ t.dx → t.poc.tx0 ≤ t1.x := hx
      refine ⟨hv.trans i1, hr1.trans i2, ?_, pi_marks_of_incl i4 hm, hl, hc1,
        ⟨?_, hx1⟩, ?_, hhit⟩
      · intro hpos; rw [hy1]; exact i3 hpos
      · intro hpos; rw [hpoc1]; exact hx0 (by rw [← hdx1]; exact hpos)
      · rw [hpoc1, hy1]; simpa using hc)
    _ s t b ⟨rfl, rfl, fun _ => le_refl _, rfl⟩ h
  cases b
  · obtain ⟨⟨k1, k2, k3, k4⟩, _⟩ := key.2 rfl
    exact ⟨k1, k2, k3, fun h => by simp at h, fun _ => k4⟩
  · obtain ⟨k1, k2, k3, k4⟩ := key.1 rfl
    exact ⟨k1, k2, k3, fun _ => k4, fun h => by simp at h⟩

theorem rpcl_resno_loop_spec {s t : opj_pi_iterator} {b : Bool}
    (h : rpcl_resno_loop s = .ok (b, t)) :
    view_s1 t = view_s1 s ∧ s.resno ≤ t.resno ∧
    (b = true → pi_marks s t ∧ in_l t ∧ in_c t ∧ in_x t ∧ in_y t ∧
      t.resno < t.poc.resno1 ∧ spatial_hit t) ∧
    (b = false → t.incl = s.incl) := by
  have key := pi_for_rule
    (fun t => view_s1 t = view_s1 s ∧ s.resno ≤ t.resno ∧ t.incl = s.incl)
    (fun t => view_s1 t = view_s1 s ∧ s.resno ≤ t.resno ∧
      pi_marks s t ∧ in_l t ∧ in_c t ∧ in_x t ∧ in_y t ∧
      t.resno < t.poc.resno1 ∧ spatial_hit t)
    (by
      intro t t1 t2 hI _ hb hi
      obtain ⟨hv, hr, _, _, hd⟩ := rpcl_y_loop_spec hb
      simp only [incr_resno, Except.ok.injEq] at hi
      subst hi
      obtain ⟨i1, i2, i3⟩ := hI
      refine ⟨hv.trans i1, ?_, (hd rfl).trans i3⟩
      show s.resno ≤ t1.resno + 1
      have hr1 : t1.resno = t.resno := hr
      omega)
    (by
      intro t t1 hI hc hb
      obtain ⟨hv, hr, hy, he, _⟩ := rpcl_y_loop_spec hb
      obtain ⟨_, hf, _, _, hdy, hpoc⟩ := view_s1_s2 hv
      obtain ⟨hm, hl, hc1, hx1, hy1, hhit⟩ := he rfl
      obtain ⟨i1, i2, i3⟩ := hI
      have hr1 : t1.resno = t.resno := hr
      have hpoc1 : t1.poc = t.poc := hpoc
      have hdy1 : t1.dy = t.dy := hdy
      have hy0 : 0 ≤ t.dy → t.poc.ty0 ≤ t1.y := hy
      refine ⟨hv.trans i1, by rw [hr1]; exact i2, pi_marks_of_incl i3 hm, hl, hc1, hx1,
        ⟨?_, hy1⟩, ?_, hhit⟩
      · intro hpos; rw [hpoc1]; exact hy0 (by rw [← hdy1]; exact hpos)
      · rw [hpoc1, hr1]; simpa using hc)
    _ s t b ⟨rfl, le_refl _, rfl⟩ h
  cases b
  · obtain ⟨⟨k1, k2, k3⟩, _⟩ := key.2 rfl
    exact ⟨k1, k2, fun h => by simp at h, fun _ => k3⟩
  · obtain ⟨k1, k2, k3⟩ := key.1 rfl
    exact ⟨k1, k2, fun _ => k3, fun h => by simp at h⟩

theorem spatial_skip_layno {s t : opj_pi_iterator} {b : Bool}
    (h : pi_then (.ok (false, s)) incr_layno spatial_layno_loop = .ok (b, t)) :
    view_sl t = view_sl s ∧
    (b = true → pi_marks s t ∧ (spatial_at s → spatial_at t)) ∧
    (b = false → t.incl = s.incl) := by
  rcases pi_then_ok h with ⟨h1, _⟩ | ⟨s1, s2, h1, h2, h3⟩
  · simp at h1
  · simp only [Except.ok.injEq, Prod.mk.injEq, true_and] at h1
    subst h1
    simp only [incr_layno, Except.ok.injEq] at h2
    subst h2
    obtain ⟨hv, hp, he, hd⟩ := spatial_layno_loop_spec h3
    have hv1 : view_sl t = view_sl s := hv
    obtain ⟨hv0, hprec⟩ := view_sl_s0 hv1
    obtain ⟨hvs1, hr, hcn, hx, hy⟩ := view_s0_s1 hv0
    obtain ⟨_, hf, hfirst, hdx, hdy, hpoc⟩ := view_s1_s2 hvs1
    refine ⟨hv1, ?_, hd⟩
    intro hb
    obtain ⟨hlt, hm⟩ := he hb
    refine ⟨hm, ?_⟩
    rintro ⟨a1, a2, ⟨a3, _⟩, a4, a5, a6, a7, comp, res, a8, a9, a10, a11⟩
    have hp1 : s.layno + 1 ≤ t.layno := hp
    refine ⟨hfirst.trans a1, ?_, ⟨?_, hlt⟩, ?_, ?_, ?_, ?_, comp, res, ?_, ?_, ?_, ?_⟩
    · unfold window_ok at a2 ⊢
      rw [hf.tp_on, hpoc, hf.tx0, hf.ty0, hf.tx1, hf.ty1]; exact a2
    · rw [hpoc]; omega
    · unfold in_r at a4 ⊢; rw [hpoc, hr]; exact a4
    · unfold in_c at a5 ⊢; rw [hpoc, hcn]; exact a5
    · unfold in_x at a6 ⊢; rw [hpoc, hx, hdx]; exact a6
    · unfold in_y at a7 ⊢; rw [hpoc, hy, hdy]; exact a7
    · rw [hf.comps, hcn]; exact a8
    · rw [hr]; exact a9
    · rw [hr]; exact a10
    · rw [pi_precinct_at_view hv0, hprec]; exact a11

theorem spatial_at_mk {s t : opj_pi_iterator} (hv : view_s1 t = view_s1 s) (hs : spatial_at s)
    (hl : in_l t) (hr : in_r t) (hc : in_c t) (hx : in_x t) (hy : in_y t)
    (hh : spatial_hit t) : spatial_at t := by
  obtain ⟨_, hf, hfirst, _, _, hpoc⟩ := view_s1_s2 hv
  obtain ⟨a1, a2, _⟩ := hs
  refine ⟨hfirst.trans a1, ?_, hl, hr, hc, hx, hy, hh⟩
  unfold window_ok at a2 ⊢
  rw [hf.tp_on, hpoc, hf.tx0, hf.ty0, hf.tx1, hf.ty1]; exact a2

theorem pi_window_spec (u : opj_pi_iterator) :
    window_ok (pi_window u) ∧ view_s2 (pi_window u) = view_s2 u ∧
    (pi_window u).first = u.first ∧ (pi_window u).dx = u.dx ∧ (pi_window u).dy = u.dy ∧
    (pi_window u).incl = u.incl ∧ (pi_window u).compno = u.compno := by
  unfold pi_window window_ok
  by_cases h : u.tp_on = true
  · rw [if_pos h]
    exact ⟨fun h1 => by rw [h] at h1; simp at h1, rfl, rfl, rfl, rfl, rfl, rfl⟩
  · rw [if_neg h]
    exact ⟨fun _ => ⟨rfl, rfl, rfl, rfl⟩, rfl, rfl, rfl, rfl, rfl, rfl⟩

theorem pi_step_core (t : opj_pi_iterator) : pi_step t = pi_step (pi_core t) := rfl

theorem rpcl_skip_compno {s t : opj_pi_iterator} {b : Bool}
    (h : pi_then (pi_then (.ok (false, s)) incr_layno spatial_layno_loop)
      incr_compno rpcl_compno_loop = .ok (b, t)) :
    view_s1 t = view_s1 s ∧ t.resno = s.resno ∧ t.x = s.x ∧ t.y = s.y ∧
    (b = true → pi_marks s t ∧ (spatial_at s → spatial_at t)) ∧
    (b = false → t.incl = s.incl) := by
  rcases pi_then_ok h with ⟨h1, hb⟩ | ⟨s1, s2, h1, h2, h3⟩
  · obtain ⟨hv, he, _⟩ := spatial_skip_layno h1
    obtain ⟨hv1, hr, _, hx, hy⟩ := view_s0_s1 (view_sl_s0 hv).1
    exact ⟨hv1, hr, hx, hy, fun _ => he rfl, fun h => by rw [hb] at h; simp at h⟩
  · obtain ⟨hv, _, hd⟩ := spatial_skip_layno h1
    obtain ⟨hv1, hr, hcn, hx, hy⟩ := view_s0_s1 (view_sl_s0 hv).1
    simp only [incr_compno, Except.ok.injEq] at h2
    subst h2
    obtain ⟨gv, gr, gx, gy, gc, he, hd2⟩ := rpcl_compno_loop_spec h3
    have fv : view_s1 t = view_s1 s := gv.trans hv1
    have fr : t.resno = s.resno := gr.trans hr
    have fx : t.x = s.x := gx.trans hx
    have fy : t.y = s.y := gy.trans hy
    obtain ⟨_, hf, _, fdx, fdy, hpoc⟩ := view_s1_s2 fv
    refine ⟨fv, fr, fx, fy, ?_, fun hb => (hd2 hb).trans (hd rfl)⟩
    intro hb
    obtain ⟨hm, hl, hc1, hhit⟩ := he hb
    refine ⟨pi_marks_of_incl (hd rfl) hm, fun hs => ?_⟩
    obtain ⟨_, _, _, a4, a5, a6, a7, _⟩ := id hs
    have gc1 : s1.compno + 1 ≤ t.compno := gc
    refine spatial_at_mk fv hs hl ?_ ⟨?_, hc1⟩ ?_ ?_ hhit
    · unfold in_r at a4 ⊢; rw [hpoc, fr]; exact a4
    · rw [hpoc]; have := a5.1; omega
    · unfold in_x at a6 ⊢; rw [hpoc, fx, fdx]; exact a6
    · unfold in_y at a7 ⊢; rw [hpoc, fy, fdy]; exact a7

theorem rpcl_skip_x {s t : opj_pi_iterator} {b : Bool}
    (h : pi_then (pi_then (pi_then (.ok (false, s)) incr_layno spatial_layno_loop)
      incr_compno rpcl_compno_loop) incr_x rpcl_x_loop = .ok (b, t)) :
    view_s1 t = view_s1 s ∧ t.resno = s.resno ∧ t.y = s.y ∧
    (b = true → pi_marks s t ∧ (spatial_at s → spatial_at t)) ∧
    (b = false → t.incl = s.incl) := by
  rcases pi_then_ok h with ⟨h1, hb⟩ | ⟨s1, s2, h1, h2, h3⟩
  · obtain ⟨hv, hr, _, hy, he, _⟩ := rpcl_skip_compno h1
    exact ⟨hv, hr, hy, fun _ => he rfl, fun h => by rw [hb] at h; simp at h⟩
  · obtain ⟨hv1, hr, hx, hy, _, hd⟩ := rpcl_skip_compno h1
    obtain ⟨jv, jr, _, jy, ji, _, jx⟩ := incr_x_ok h2
    obtain ⟨gv, gr, gy, gx, he, hd2⟩ := rpcl_x_loop_spec h3
    have fv : view_s1 t = view_s1 s := (gv.trans jv).trans hv1
    have fr : t.resno = s.resno := (gr.trans jr).trans hr
    have fy : t.y = s.y := (gy.trans jy).trans hy
    obtain ⟨_, hf, _, fdx, fdy, hpoc⟩ := view_s1_s2 fv
    obtain ⟨_, _, _, edx1, _, _⟩ := view_s1_s2 hv1
    obtain ⟨_, _, _, edx2, _, _⟩ := view_s1_s2 jv
    refine ⟨fv, fr, fy, ?_, fun hb => ((hd2 hb).trans ji).trans (hd rfl)⟩
    intro hb
    obtain ⟨hm, hl, hc, hx1, hhit⟩ := he hb
    refine ⟨pi_marks_of_incl (ji.trans (hd rfl)) hm, fun hs => ?_⟩
    obtain ⟨_, _, _, a4, a5, a6, a7, _⟩ := id hs
    refine spatial_at_mk fv hs hl ?_ hc ⟨?_, hx1⟩ ?_ hhit
    · unfold in_r at a4 ⊢; rw [hpoc, fr]; exact a4
    · intro hpos
      rw [fdx] at hpos
      have e1 : s1.dx = s.dx := edx1
      have e2 : s2.dx = s1.dx := edx2
      have k1 := a6.1 hpos
      have k2 := jx (by rw [e1]; exact hpos)
      have k3 := gx (by rw [e2, e1]; exact hpos)
      rw [hpoc]
      have hx' : s1.x = s.x := hx
      omega
    · unfold in_y at a7 ⊢; rw [hpoc, fy, fdy]; exact a7

theorem rpcl_skip_y {s t : opj_pi_iterator} {b : Bool}
    (h : pi_then (pi_then (pi_then (pi_then (.ok (false, s)) incr_layno spatial_layno_loop)
      incr_compno rpcl_compno_loop) incr_x rpcl_x_loop) incr_y rpcl_y_loop = .ok (b, t)) :
    view_s1 t = view_s1 s ∧ t.resno = s.resno ∧
    (b = true → pi_marks s t ∧ (spatial_at s → spatial_at t)) ∧
    (b = false → t.incl = s.incl) := by
  rcases pi_then_ok h with ⟨h1, hb⟩ | ⟨s1, s2, h1, h2, h3⟩
  · obtain ⟨hv, hr, _, he, _⟩ := rpcl_skip_x h1
    exact ⟨hv, hr, fun _ => he rfl, fun h => by rw [hb] at h; simp at h⟩
  · obtain ⟨hv1, hr, hy, _, hd⟩ := rpcl_skip_x h1
    obtain ⟨jv, jr, _, _, ji, _, jy⟩ := incr_y_ok h2
    obtain ⟨gv, gr, gy, he, hd2⟩ := rpcl_y_loop_spec h3
    have fv : view_s1 t = view_s1 s := (gv.trans jv).trans hv1
    have fr : t.resno = s.resno := (gr.trans jr).trans hr
    obtain ⟨_, hf, _, fdx, fdy, hpoc⟩ := view_s1_s2 fv
    obtain ⟨_, _, _, _, edy1, _⟩ := view_s1_s2 hv1
    obtain ⟨_, _, _, _, edy2, _⟩ := view_s1_s2 jv
    refine ⟨fv, fr, ?_, fun hb => ((hd2 hb).trans ji).trans (hd rfl)⟩
    intro hb
    obtain ⟨hm, hl, hc, hx, hy1, hhit⟩ := he hb
    refine ⟨pi_marks_of_incl (ji.trans (hd rfl)) hm, fun hs => ?_⟩
    obtain ⟨_, _, _, a4, a5, a6, a7, _⟩ := id hs
    refine spatial_at_mk fv hs hl ?_ hc hx ⟨?_, hy1⟩ hhit
    · unfold in_r at a4 ⊢; rw [hpoc, fr]; exact a4
    · intro hpos
      rw [fdy] at hpos
      have e1 : s1.dy = s.dy := edy1
      have e2 : s2.dy = s1.dy := edy2
      have k1 := a7.1 hpos
      have k2 := jy (by rw [e1]; exact hpos)
      have k3 := gy (by rw [e2, e1]; exact hpos)
      rw [hpoc]
      have hy' : s1.y = s.y := hy
      omega

/-- What a call of `pi_next_rpcl` does: it writes only the cursor, `first`, the
step, the window of the POC and the bitmap; when it returns `OPJ_TRUE` it has
marked the cell of the new cursor, which lies in the POC box at a precinct. -/
theorem pi_next_rpcl_spec {s t : opj_pi_iterator} {b : Bool}
    (h : pi_next_rpcl s = .ok (b, t)) :
    pi_core t = pi_core s ∧ t.first = false ∧
    (b = true → pi_marks s t ∧ ((s.first = true ∨ spatial_at s) → spatial_at t)) ∧
    (b = false → t.incl = s.incl) ∧
    ((s.first = true ∨ pi_step s = .ok (s.dx, s.dy)) → pi_step t = .ok (t.dx, t.dy)) := by
  unfold pi_next_rpcl at h
  by_cases hfst : s.first = true
  · simp only [hfst, Bool.not_true, Bool.false_eq_true, if_false] at h
    cases hst : pi_step s with
    | error e => rw [hst] at h; simp at h
    | ok d =>
      rw [hst] at h
      dsimp only at h
      obtain ⟨w1, w2, w3, w4, w5, w6, _⟩ :=
        pi_window_spec { s with first := false, dx := d.1, dy := d.2 }
      obtain ⟨hv, hr, he, hd⟩ := rpcl_resno_loop_spec h
      obtain ⟨hv2, hf, hfirst, hdx, hdy, hpoc⟩ := view_s1_s2 hv
      have c1 := view_s2_core hv2
      have c2 := view_s2_core w2
      have hcore : pi_core t = pi_core s := c1.trans c2
      have hfirst1 : t.first = false := hfirst.trans w3
      have hdx1 : t.dx = d.1 := hdx.trans w4
      have hdy1 : t.dy = d.2 := hdy.trans w5
      refine ⟨hcore, hfirst1, ?_, fun hb => (hd hb).trans w6, ?_⟩
      · intro hb
        obtain ⟨hm, hl, hc, hx, hy, hr1, hhit⟩ := he hb
        have hE : ∀ r : Int,
            ({ pi_window { s with first := false, dx := d.1, dy := d.2 } with
                resno := r }).incl = s.incl := fun _ => w6
        refine ⟨pi_marks_of_incl (hE _) hm,
          fun _ => ⟨hfirst1, ?_, hl, ⟨?_, hr1⟩, hc, hx, hy, hhit⟩⟩
        · unfold window_ok at w1 ⊢
          rw [hf.tp_on, hpoc, hf.tx0, hf.ty0, hf.tx1, hf.ty1]; exact w1
        · rw [hpoc]; exact hr
      · intro _
        rw [pi_step_core, hcore, ← pi_step_core, hst, hdx1, hdy1]
  · have hfst0 : s.first = false := by simpa using hfst
    simp only [hfst0, Bool.not_false, if_true] at h
    have hstep : ∀ {t : opj_pi_iterator}, view_s1 t = view_s1 s →
        (s.first = true ∨ pi_step s = .ok (s.dx, s.dy)) → pi_step t = .ok (t.dx, t.dy) := by
      intro t hv hor
      obtain ⟨hv2, _, _, hdx, hdy, _⟩ := view_s1_s2 hv
      rcases hor with hor | hor
      · rw [hfst0] at hor; simp at hor
      · rw [pi_step_core, view_s2_core hv2, ← pi_step_core, hor, hdx, hdy]
    rcases pi_then_ok h with ⟨h1, hb1⟩ | ⟨s1, s2, h1, h2, h3⟩
    · obtain ⟨hv, hr, he, _⟩ := rpcl_skip_y h1
      obtain ⟨hv2, _, hfirst, _, _, _⟩ := view_s1_s2 hv
      refine ⟨view_s2_core hv2, hfirst.trans hfst0, ?_,
        fun h => by rw [hb1] at h; simp at h, hstep hv⟩
      intro _
      obtain ⟨hm, hat⟩ := he rfl
      refine ⟨hm, fun hor => ?_⟩
      rcases hor with hor | hor
      · rw [hfst0] at hor; simp at hor
      · exact hat hor
    · obtain ⟨hv1, hr, _, hd⟩ := rpcl_skip_y h1
      simp only [incr_resno, Except.ok.injEq] at h2
      subst h2
      obtain ⟨gv, gr, he, hd2⟩ := rpcl_resno_loop_spec h3
      have fv : view_s1 t = view_s1 s := gv.trans hv1
      obtain ⟨hv2, hf, hfirst, _, _, hpoc⟩ := view_s1_s2 fv
      refine ⟨view_s2_core hv2, hfirst.trans hfst0, ?_, fun hb => (hd2 hb).trans (hd rfl),
        hstep fv⟩
      intro hb
      obtain ⟨hm, hl, hc, hx, hy, hr1, hhit⟩ := he hb
      refine ⟨pi_marks_of_incl (hd rfl) hm, fun hor => ?_⟩
      rcases hor with hor | hor
      · rw [hfst0] at hor; simp at hor
      · obtain ⟨_, _, _, a4, _⟩ := id hor
        have gr1 : s1.resno + 1 ≤ t.resno := gr
        have hr' : s1.resno = s.resno := hr
        refine spatial_at_mk fv hor hl ⟨?_, hr1⟩ hc hx hy hhit
        rw [hpoc]; have := a4.1; omega

theorem int_min_lt {a b c : Int} (h : a < int_min b c) : a < b ∧ a < c := by
  unfold int_min at h
  split at h <;> constructor <;> omega

theorem pcrl_resno_loop_spec {comp : opj_pi_comp} {s t : opj_pi_iterator} {b : Bool}
    (h : pcrl_resno_loop comp s = .ok (b, t)) :
    view_s1 t = view_s1 s ∧ t.compno = s.compno ∧ t.x = s.x ∧ t.y = s.y ∧ s.resno ≤ t.resno ∧
    (b = true → pi_marks s t ∧ in_l t ∧ t.resno < t.poc.resno1 ∧
      t.resno < comp.numresolutions ∧
      ∃ res, arr_get comp.resolutions t.resno = some res ∧
        pi_precinct_at t comp res = .ok (some t.precno)) ∧
    (b = false → t.incl = s.incl) := by
  have key := pi_for_rule
    (fun t => view_s1 t = view_s1 s ∧ t.compno = s.compno ∧ t.x = s.x ∧ t.y = s.y ∧
      s.resno ≤ t.resno ∧ t.incl = s.incl)
    (fun t => view_s1 t = view_s1 s ∧ t.compno = s.compno ∧ t.x = s.x ∧ t.y = s.y ∧
      s.resno ≤ t.resno ∧
      pi_marks s t ∧ in_l t ∧ t.resno < t.poc.resno1 ∧ t.resno < comp.numresolutions ∧
      ∃ res, arr_get comp.resolutions t.resno = some res ∧
        pi_precinct_at t comp res = .ok (some t.precno))
    (by
      intro t t1 t2 hI _ hb hi
      obtain ⟨hv, _, hd⟩ := pi_spatial_body_spec hb
      obtain ⟨hv1, hr, hc, hx, hy⟩ := view_s0_s1 hv
      simp only [incr_resno, Except.ok.injEq] at hi
      subst hi
      obtain ⟨i1, i2, i3, i4, i5, i6⟩ := hI
      refine ⟨hv1.trans i1, hc.trans i2, hx.trans i3, hy.trans i4, ?_, (hd rfl).trans i6⟩
      show s.resno ≤ t1.resno + 1
      omega)
    (by
      intro t t1 hI hc hb
      obtain ⟨hv, he, _⟩ := pi_spatial_body_spec hb
      obtain ⟨hv1, hr, hcn, hx, hy⟩ := view_s0_s1 hv
      obtain ⟨_, hf, _, _, _, hpoc⟩ := view_s1_s2 hv1
      obtain ⟨hm, hl, hres⟩ := he rfl
      obtain ⟨i1, i2, i3, i4, i5, i6⟩ := hI
      have hc' : t.resno < int_min t.poc.resno1 comp.numresolutions := by simpa using hc
      obtain ⟨c1, c2⟩ := int_min_lt hc'
      refine ⟨hv1.trans i1, hcn.trans i2, hx.trans i3, hy.trans i4, by rw [hr]; exact i5,
        pi_marks_of_incl i6 hm, hl, ?_, ?_, hres⟩
      · rw [hpoc, hr]; exact c1
      · rw [hr]; exact c2)
    _ s t b ⟨rfl, rfl, rfl, rfl, le_refl _, rfl⟩ h
  cases b
  · obtain ⟨⟨k1, k2, k3, k4, k5, k6⟩, _⟩ := key.2 rfl
    exact ⟨k1, k2, k3, k4, k5, fun h => by simp at h, fun _ => k6⟩
  · obtain ⟨k1, k2, k3, k4, k5, k6⟩ := key.1 rfl
    exact ⟨k1, k2, k3, k4, k5, fun _ => k6, fun h => by simp at h⟩

/-- The loop over `resno` of PCRL and CPRL, run for the component of the cursor. -/
theorem pcrl_resno_loop_hit {comp : opj_pi_comp} {s t : opj_pi_iterator} {b : Bool}
    (hg : arr_get s.comps s.compno = some comp)
    (h : pcrl_resno_loop comp s = .ok (b, t)) :
    view_s1 t = view_s1 s ∧ t.compno = s.compno ∧ t.x = s.x ∧ t.y = s.y ∧ s.resno ≤ t.resno ∧
    (b = true → pi_marks s t ∧ in_l t ∧ t.resno < t.poc.resno1 ∧ spatial_hit t) ∧
    (b = false → t.incl = s.incl) := by
  obtain ⟨hv, hc, hx, hy, hr, he, hd⟩ := pcrl_resno_loop_spec h
  obtain ⟨_, hf, _, _, _, _⟩ := view_s1_s2 hv
  refine ⟨hv, hc, hx, hy, hr, ?_, hd⟩
  intro hb
  obtain ⟨hm, hl, h1, h2, res, h3, h4⟩ := he hb
  exact ⟨hm, hl, h1, comp, res, by rw [hf.comps, hc]; exact hg, h2, h3, h4⟩

theorem pcrl_compno_body_spec {s t : opj_pi_iterator} {b : Bool}
    (h : pcrl_compno_body s = .ok (b, t)) :
    view_s1 t = view_s1 s ∧ t.compno = s.compno ∧ t.x = s.x ∧ t.y = s.y ∧
    (b = true → pi_marks s t ∧ in_l t ∧ in_r t ∧ spatial_hit t) ∧
    (b = false → t.incl = s.incl) := by
  unfold pcrl_compno_body at h
  cases hg : arr_get s.comps s.compno with
  | none => rw [hg] at h; simp at h
  | some comp =>
    rw [hg] at h
    dsimp only at h
    obtain ⟨hv, hc, hx, hy, hr, he, hd⟩ :=
      pcrl_resno_loop_hit (s := { s with resno := s.poc.resno0 }) hg h
    obtain ⟨_, _, _, _, _, hpoc⟩ := view_s1_s2 hv
    refine ⟨hv, hc, hx, hy, ?_, hd⟩
    intro hb
    obtain ⟨hm, hl, hr1, hhit⟩ := he hb
    refine ⟨hm, hl, ⟨?_, hr1⟩, hhit⟩
    rw [hpoc]; exact hr

theorem pcrl_compno_loop_spec {s t : opj_pi_iterator} {b : Bool}
    (h : pcrl_compno_loop s = .ok (b, t)) :
    view_s1 t = view_s1 s ∧ t.x = s.x ∧ t.y = s.y ∧ s.compno ≤ t.compno ∧
    (b = true → pi_marks s t ∧ in_l t ∧ in_r t ∧ t.compno < t.poc.compno1 ∧ spatial_hit t) ∧
    (b = false → t.incl = s.incl) := by
  have key := pi_for_rule
    (fun t => view_s1 t = view_s1 s ∧ t.x = s.x ∧ t.y = s.y ∧
      s.compno ≤ t.compno ∧ t.incl = s.incl)
    (fun t => view_s1 t = view_s1 s ∧ t.x = s.x ∧ t.y = s.y ∧
      s.compno ≤ t.compno ∧
      pi_marks s t ∧ in_l t ∧ in_r t ∧ t.compno < t.poc.compno1 ∧ spatial_hit t)
    (by
      intro t t1 t2 hI _ hb hi
      obtain ⟨hv, hc, hx, hy, _, hd⟩ := pcrl_compno_body_spec hb
      simp only [incr_compno, Except.ok.injEq] at hi
      subst hi
      obtain ⟨i1, i3, i4, i5, i6⟩ := hI
      refine ⟨hv.trans i1, hx.trans i3, hy.trans i4, ?_, (hd rfl).trans i6⟩
      show s.compno ≤ t1.compno + 1
      omega)
    (by
      intro t t1 hI hc hb
      obtain ⟨hv, hcn, hx, hy, he, _⟩ := pcrl_compno_body_spec hb
      obtain ⟨_, hf, _, _, _, hpoc⟩ := view_s1_s2 hv
      obtain ⟨hm, hl, hr, hhit⟩ := he rfl
      obtain ⟨i1, i3, i4, i5, i6⟩ := hI
      refine ⟨hv.trans i1, hx.trans i3, hy.trans i4, by rw [hcn]; exact i5,
        pi_marks_of_incl i6 hm, hl, hr, ?_, hhit⟩
      rw [hpoc, hcn]; simpa using hc)
    _ s t b ⟨rfl, rfl, rfl, le_refl _, rfl⟩ h
  cases b
  · obtain ⟨⟨k1, k3, k4, k5, k6⟩, _⟩ := key.2 rfl
    exact ⟨k1, k3, k4, k5, fun h => by simp at h, fun _ => k6⟩
  · obtain ⟨k1, k3, k4, k5, k6⟩ := key.1 rfl
    exact ⟨k1, k3, k4, k5, fun _ => k6, fun h => by simp at h⟩

theorem pcrl_x_loop_spec {s t : opj_pi_iterator} {b : Bool}
    (h : pcrl_x_loop s = .ok (b, t)) :
    view_s1 t = view_s1 s ∧ t.y = s.y ∧ (0 ≤ s.dx → s.x ≤ t.x) ∧
    (b = true → pi_marks s t ∧ in_l t ∧ in_r t ∧ in_c t ∧ t.x < t.poc.tx1 ∧ spatial_hit t) ∧
    (b = false → t.incl = s.incl) := by
  have key := pi_for_rule
    (fun t => view_s1 t = view_s1 s ∧ t.y = s.y ∧
      (0 ≤ s.dx → s.x ≤ t.x) ∧ t.incl = s.incl)
    (fun t => view_s1 t = view_s1 s ∧ t.y = s.y ∧
      (0 ≤ s.dx → s.x ≤ t.x) ∧
      pi_marks s t ∧ in_l t ∧ in_r t ∧ in_c t ∧ t.x < t.poc.tx1 ∧ spatial_hit t)
    (by
      intro t t1 t2 hI _ hb hi
      obtain ⟨hv, hx, hy, _, _, hd⟩ := pcrl_compno_loop_spec hb
      obtain ⟨jv, _, _, jy, ji, _, jx⟩ := incr_x_ok hi
      obtain ⟨i1, i3, i4, i5⟩ := hI
      obtain ⟨_, _, _, hdx1, _, _⟩ := view_s1_s2 hv
      obtain ⟨_, _, _, hdx0, _, _⟩ := view_s1_s2 i1
      have hx1 : t1.x = t.x := hx
      have hdx : t1.dx = s.dx := by
        have e1 : t1.dx = t.dx := hdx1
        rw [e1]; exact hdx0
      refine ⟨(jv.trans hv).trans i1, (jy.trans hy).trans i3, ?_,
        (ji.trans (hd rfl)).trans i5⟩
      intro hpos
      have h1 := i4 hpos
      have h2 := jx (by rw [hdx]; exact hpos)
      omega)
    (by
      intro t t1 hI hc hb
      obtain ⟨hv, hx, hy, hcn, he, _⟩ := pcrl_compno_loop_spec hb
      obtain ⟨_, hf, _, _, _, hpoc⟩ := view_s1_s2 hv
      obtain ⟨hm, hl, hr, hc1, hhit⟩ := he rfl
      obtain ⟨i1, i3, i4, i5⟩ := hI
      have hx1 : t1.x = t.x := hx
      have hy1 : t1.y = t.y := hy
      have hpoc1 : t1.poc = t.poc := hpoc
      have hcn1 : t.poc.compno0 ≤ t1.compno := hcn
      refine ⟨hv.trans i1, hy1.trans i3, ?_, pi_marks_of_incl i5 hm, hl, hr,
        ⟨by rw [hpoc1]; exact hcn1, hc1⟩, ?_, hhit⟩
      · intro hpos; rw [hx1]; exact i4 hpos
      · rw [hpoc1, hx1]; simpa using hc)
    _ s t b ⟨rfl, rfl, fun _ => le_refl _, rfl⟩ h
  cases b
  · obtain ⟨⟨k1, k3, k4, k5⟩, _⟩ := key.2 rfl
    exact ⟨k1, k3, k4, fun h => by simp at h, fun _ => k5⟩
  · obtain ⟨k1, k3, k4, k5⟩ := key.1 rfl
    exact ⟨k1, k3, k4, fun _ => k5, fun h => by simp at h⟩

theorem pcrl_y_loop_spec {s t : opj_pi_iterator} {b : Bool}
    (h : pcrl_y_loop s = .ok (b, t)) :
    view_s1 t = view_s1 s ∧ (0 ≤ s.dy → s.y ≤ t.y) ∧
    (b = true → pi_marks s t ∧ in_l t ∧ in_r t ∧ in_c t ∧ in_x t ∧ t.y < t.poc.ty1 ∧
      spatial_hit t) ∧
    (b = false → t.incl = s.incl) := by
  have key := pi_for_rule
    (fun t => view_s1 t = view_s1 s ∧ (0 ≤ s.dy → s.y ≤ t.y) ∧ t.incl = s.incl)
    (fun t => view_s1 t = view_s1 s ∧ (0 ≤ s.dy → s.y ≤ t.y) ∧
      pi_marks s t ∧ in_l t ∧ in_r t ∧ in_c t ∧ in_x t ∧ t.y < t.poc.ty1 ∧ spatial_hit t)
    (by
      intro t t1 t2 hI _ hb hi
      obtain ⟨hv, hy, _, _, hd⟩ := pcrl_x_loop_spec hb
      obtain ⟨jv, _, _, _, ji, _, jy⟩ := incr_y_ok hi
      obtain ⟨i1, i3, i4⟩ := hI
      obtain ⟨_, _, _, _, hdy1, _⟩ := view_s1_s2 hv
      obtain ⟨_, _, _, _, hdy0, _⟩ := view_s1_s2 i1
      have hy1 : t1.y = t.y := hy
      have hdy : t1.dy = s.dy := by
        have e1 : t1.dy = t.dy := hdy1
        rw [e1]; exact hdy0
      refine ⟨(jv.trans hv).trans i1, ?_, (ji.trans (hd rfl)).trans i4⟩
      intro hpos
      have h1 := i3 hpos
      have h2 := jy (by rw [hdy]; exact hpos)
      omega)
    (by
      intro t t1 hI hc hb
      obtain ⟨hv, hy, hx, he, _⟩ := pcrl_x_loop_spec hb
      obtain ⟨_, hf, _, hdx, _, hpoc⟩ := view_s1_s2 hv
      obtain ⟨hm, hl, hr, hc1, hx1, hhit⟩ := he rfl
      obtain ⟨i1, i3, i4⟩ := hI
      have hy1 : t1.y = t.y := hy
      have hpoc1 : t1.poc = t.poc := hpoc
      have hdx1 : t1.dx = t.dx := hdx
      have hx0 : 0 ≤ t.dx → t.poc.tx0 ≤ t1.x := hx
      refine ⟨hv.trans i1, ?_, pi_marks_of_incl i4 hm, hl, hr, hc1,
        ⟨?_, hx1⟩, ?_, hhit⟩
      · intro hpos; rw [hy1]; exact i3 hpos
      · intro hpos; rw [hpoc1]; exact hx0 (by rw [← hdx1]; exact hpos)
      · rw [hpoc1, hy1]; simpa using hc)
    _ s t b ⟨rfl, fun _ => le_refl _, rfl⟩ h
  cases b
  · obtain ⟨⟨k1, k3, k4⟩, _⟩ := key.2 rfl
    exact ⟨k1, k3, fun h => by simp at h, fun _ => k4⟩
  · obtain ⟨k1, k3, k4⟩ := key.1 rfl
    exact ⟨k1, k3, fun _ => k4, fun h => by simp at h⟩

theorem pcrl_skip_resno {s t : opj_pi_iterator} {b : Bool}
    (h : pi_then (pi_then (.ok (false, s)) incr_layno spatial_layno_loop)
      incr_resno pcrl_resno_resume = .ok (b, t)) :
    view_s1 t = view_s1 s ∧ t.compno = s.compno ∧ t.x = s.x ∧ t.y = s.y ∧
    (b = true → pi_marks s t ∧ (spatial_at s → spatial_at t)) ∧
    (b = false → t.incl = s.incl) := by
  rcases pi_then_ok h with ⟨h1, hb⟩ | ⟨s1, s2, h1, h2, h3⟩
  · obtain ⟨hv, he, _⟩ := spatial_skip_layno h1
    obtain ⟨hv1, _, hc, hx, hy⟩ := view_s0_s1 (view_sl_s0 hv).1
    exact ⟨hv1, hc, hx, hy, fun _ => he rfl, fun h => by rw [hb] at h; simp at h⟩
  · obtain ⟨hv, _, hd⟩ := spatial_skip_layno h1
    obtain ⟨hv1, hr, hcn, hx, hy⟩ := view_s0_s1 (view_sl_s0 hv).1
    simp only [incr_resno, Except.ok.injEq] at h2
    subst h2
    unfold pcrl_resno_resume at h3
    cases hg : arr_get s1.comps s1.compno with
    | none =>
      have hg' : arr_get ({ s1 with resno := s1.resno + 1 }).comps
        ({ s1 with resno := s1.resno + 1 }).compno = none := hg
      rw [hg'] at h3; simp at h3
    | some comp =>
      have hg' : arr_get ({ s1 with resno := s1.resno + 1 }).comps
        ({ s1 with resno := s1.resno + 1 }).compno = some comp := hg
      rw [hg'] at h3
      dsimp only at h3
      obtain ⟨gv, gc, gx, gy, gr, he, hd2⟩ := pcrl_resno_loop_hit hg' h3
      have fv : view_s1 t = view_s1 s := gv.trans hv1
      have fc : t.compno = s.compno := gc.trans hcn
      have fx : t.x = s.x := gx.trans hx
      have fy : t.y = s.y := gy.trans hy
      obtain ⟨_, hf, _, fdx, fdy, hpoc⟩ := view_s1_s2 fv
      refine ⟨fv, fc, fx, fy, ?_, fun hb => (hd2 hb).trans (hd rfl)⟩
      intro hb
      obtain ⟨hm, hl, hr1, hhit⟩ := he hb
      refine ⟨pi_marks_of_incl (hd rfl) hm, fun hs => ?_⟩
      obtain ⟨_, _, _, a4, a5, a6, a7, _⟩ := id hs
      have gr1 : s1.resno + 1 ≤ t.resno := gr
      have hr' : s1.resno = s.resno := hr
      refine spatial_at_mk fv hs hl ⟨?_, hr1⟩ ?_ ?_ ?_ hhit
      · rw [hpoc]; have := a4.1; omega
      · unfold in_c at a5 ⊢; rw [hpoc, fc]; exact a5
      · unfold in_x at a6 ⊢; rw [hpoc, fx, fdx]; exact a6
      · unfold in_y at a7 ⊢; rw [hpoc, fy, fdy]; exact a7

theorem pcrl_skip_compno {s t : opj_pi_iterator} {b : Bool}
    (h : pi_then (pi_then (pi_then (.ok (false, s)) incr_layno spatial_layno_loop)
      incr_resno pcrl_resno_resume) incr_compno pcrl_compno_loop = .ok (b, t)) :
    view_s1 t = view_s1 s ∧ t.x = s.x ∧ t.y = s.y ∧
    (b = true → pi_marks s t ∧ (spatial_at s → spatial_at t)) ∧
    (b = false → t.incl = s.incl) := by
  rcases pi_then_ok h with ⟨h1, hb⟩ | ⟨s1, s2, h1, h2, h3⟩
  · obtain ⟨hv, _, hx, hy, he, _⟩ := pcrl_skip_resno h1
    exact ⟨hv, hx, hy, fun _ => he rfl, fun h => by rw [hb] at h; simp at h⟩
  · obtain ⟨hv1, hcn, hx, hy, _, hd⟩ := pcrl_skip_resno h1
    simp only [incr_compno, Except.ok.injEq] at h2
    subst h2
    obtain ⟨gv, gx, gy, gc, he, hd2⟩ := pcrl_compno_loop_spec h3
    have fv : view_s1 t = view_s1 s := gv.trans hv1
    have fx : t.x = s.x := gx.trans hx
    have fy : t.y = s.y := gy.trans hy
    obtain ⟨_, hf, _, fdx, fdy, hpoc⟩ := view_s1_s2 fv
    refine ⟨fv, fx, fy, ?_, fun hb => (hd2 hb).trans (hd rfl)⟩
    intro hb
    obtain ⟨hm, hl, hr, hc1, hhit⟩ := he hb
    refine ⟨pi_marks_of_incl (hd rfl) hm, fun hs => ?_⟩
    obtain ⟨_, _, _, a4, a5, a6, a7, _⟩ := id hs
    have gc1 : s1.compno + 1 ≤ t.compno := gc
    have hc' : s1.compno = s.compno := hcn
    refine spatial_at_mk fv hs hl hr ⟨?_, hc1⟩ ?_ ?_ hhit
    · rw [hpoc]; have := a5.1; omega
    · unfold in_x at a6 ⊢; rw [hpoc, fx, fdx]; exact a6
    · unfold in_y at a7 ⊢; rw [hpoc, fy, fdy]; exact a7

theorem pcrl_skip_x {s t : opj_pi_iterator} {b : Bool}
    (h : pi_then (pi_then (pi_then (pi_then (.ok (false, s)) incr_layno spatial_layno_loop)
      incr_resno pcrl_resno_resume) incr_compno pcrl_compno_loop)
      incr_x pcrl_x_loop = .ok (b, t)) :
    view_s1 t = view_s1 s ∧ t.y = s.y ∧
    (b = true → pi_marks s t ∧ (spatial_at s → spatial_at t)) ∧
    (b = false → t.incl = s.incl) := by
  rcases pi_then_ok h with ⟨h1, hb⟩ | ⟨s1, s2, h1, h2, h3⟩
  · obtain ⟨hv, _, hy, he, _⟩ := pcrl_skip_compno h1
    exact ⟨hv, hy, fun _ => he rfl, fun h => by rw [hb] at h; simp at h⟩
  · obtain ⟨hv1, hx, hy, _, hd⟩ := pcrl_skip_compno h1
    obtain ⟨jv, _, _, jy, ji, _, jx⟩ := incr_x_ok h2
    obtain ⟨gv, gy, gx, he, hd2⟩ := pcrl_x_loop_spec h3
    have fv : view_s1 t = view_s1 s := (gv.trans jv).trans hv1
    have fy : t.y = s.y := (gy.trans jy).trans hy
    obtain ⟨_, hf, _, fdx, fdy, hpoc⟩ := view_s1_s2 fv
    obtain ⟨_, _, _, edx1, _, _⟩ := view_s1_s2 hv1
    obtain ⟨_, _, _, edx2, _, _⟩ := view_s1_s2 jv
    refine ⟨fv, fy, ?_, fun hb => ((hd2 hb).trans ji).trans (hd rfl)⟩
    intro hb
    obtain ⟨hm, hl, hr, hc, hx1, hhit⟩ := he hb
    refine ⟨pi_marks_of_incl (ji.trans (hd rfl)) hm, fun hs => ?_⟩
    obtain ⟨_, _, _, a4, a5, a6, a7, _⟩ := id hs
    refine spatial_at_mk fv hs hl hr hc ⟨?_, hx1⟩ ?_ hhit
    · intro hpos
      rw [fdx] at hpos
      have e1 : s1.dx = s.dx := edx1
      have e2 : s2.dx = s1.dx := edx2
      have k1 := a6.1 hpos
      have k2 := jx (by rw [e1]; exact hpos)
      have k3 := gx (by rw [e2, e1]; exact hpos)
      rw [hpoc]
      have hx' : s1.x = s.x := hx
      omega
    · unfold in_y at a7 ⊢; rw [hpoc, fy, fdy]; exact a7

/-- What a call of `pi_next_pcrl` does (as `pi_next_rpcl_spec`). -/
theorem pi_next_pcrl_spec {s t : opj_pi_iterator} {b : Bool}
    (h : pi_next_pcrl s = .ok (b, t)) :
    pi_core t = pi_core s ∧ t.first = false ∧
    (b = true → pi_marks s t ∧ ((s.first = true ∨ spatial_at s) → spatial_at t)) ∧
    (b = false → t.incl = s.incl) ∧
    ((s.first = true ∨ pi_step s = .ok (s.dx, s.dy)) → pi_step t = .ok (t.dx, t.dy)) := by
  unfold pi_next_pcrl at h
  by_cases hfst : s.first = true
  · simp only [hfst, Bool.not_true, Bool.false_eq_true, if_false] at h
    cases hst : pi_step s with
    | error e => rw [hst] at h; simp at h
    | ok d =>
      rw [hst] at h
      dsimp only at h
      obtain ⟨w1, w2, w3, w4, w5, w6, _⟩ :=
        pi_window_spec { s with first := false, dx := d.1, dy := d.2 }
      obtain ⟨hv, hy0, he, hd⟩ := pcrl_y_loop_spec h
      obtain ⟨hv2, hf, hfirst, hdx, hdy, hpoc⟩ := view_s1_s2 hv
      have c1 := view_s2_core hv2
      have c2 := view_s2_core w2
      have hcore : pi_core t = pi_core s := c1.trans c2
      have hfirst1 : t.first = false := hfirst.trans w3
      have hdx1 : t.dx = d.1 := hdx.trans w4
      have hdy1 : t.dy = d.2 := hdy.trans w5
      refine ⟨hcore, hfirst1, ?_, fun hb => (hd hb).trans w6, ?_⟩
      · intro hb
        obtain ⟨hm, hl, hr, hc, hx, hy1, hhit⟩ := he hb
        have hE : ∀ r : Int,
            ({ pi_window { s with first := false, dx := d.1, dy := d.2 } with
                y := r }).incl = s.incl := fun _ => w6
        refine ⟨pi_marks_of_incl (hE _) hm,
          fun _ => ⟨hfirst1, ?_, hl, hr, hc, hx, ⟨?_, hy1⟩, hhit⟩⟩
        · unfold window_ok at w1 ⊢
          rw [hf.tp_on, hpoc, hf.tx0, hf.ty0, hf.tx1, hf.ty1]; exact w1
        · intro hpos
          rw [hpoc]
          exact hy0 (by rw [← hdy]; exact hpos)
      · intro _
        rw [pi_step_core, hcore, ← pi_step_core, hst, hdx1, hdy1]
  · have hfst0 : s.first = false := by simpa using hfst
    simp only [hfst0, Bool.not_false, if_true] at h
    have hstep : ∀ {t : opj_pi_iterator}, view_s1 t = view_s1 s →
        (s.first = true ∨ pi_step s = .ok (s.dx, s.dy)) → pi_step t = .ok (t.dx, t.dy) := by
      intro t hv hor
      obtain ⟨hv2, _, _, hdx, hdy, _⟩ := view_s1_s2 hv
      rcases hor with hor | hor
      · rw [hfst0] at hor; simp at hor
      · rw [pi_step_core, view_s2_core hv2, ← pi_step_core, hor, hdx, hdy]
    rcases pi_then_ok h with ⟨h1, hb1⟩ | ⟨s1, s2, h1, h2, h3⟩
    · obtain ⟨hv, hr, he, _⟩ := pcrl_skip_x h1
      obtain ⟨hv2, _, hfirst, _, _, _⟩ := view_s1_s2 hv
      refine ⟨view_s2_core hv2, hfirst.trans hfst0, ?_,
        fun h => by rw [hb1] at h; simp at h, hstep hv⟩
      intro _
      obtain ⟨hm, hat⟩ := he rfl
      refine ⟨hm, fun hor => ?_⟩
      rcases hor with hor | hor
      · rw [hfst0] at hor; simp at hor
      · exact hat hor
    · obtain ⟨hv1, hy, _, hd⟩ := pcrl_skip_x h1
      obtain ⟨jv, _, _, _, ji, _, jy⟩ := incr_y_ok h2
      obtain ⟨gv, gy, he, hd2⟩ := pcrl_y_loop_spec h3
      have fv : view_s1 t = view_s1 s := (gv.trans jv).trans hv1
      obtain ⟨hv2, hf, hfirst, fdx, fdy, hpoc⟩ := view_s1_s2 fv
      obtain ⟨_, _, _, _, edy1, _⟩ := view_s1_s2 hv1
      obtain ⟨_, _, _, _, edy2, _⟩ := view_s1_s2 jv
      refine ⟨view_s2_core hv2, hfirst.trans hfst0, ?_,
        fun hb => ((hd2 hb).trans ji).trans (hd rfl), hstep fv⟩
      intro hb
      obtain ⟨hm, hl, hr, hc, hx, hy1, hhit⟩ := he hb
      refine ⟨pi_marks_of_incl (ji.trans (hd rfl)) hm, fun hor => ?_⟩
      rcases hor with hor | hor
      · rw [hfst0] at hor; simp at hor
      · obtain ⟨_, _, _, _, _, _, a7, _⟩ := id hor
        refine spatial_at_mk fv hor hl hr hc hx ⟨?_, hy1⟩ hhit
        intro hpos
        rw [fdy] at hpos
        have e1 : s1.dy = s.dy := edy1
        have e2 : s2.dy = s1.dy := edy2
        have k1 := a7.1 hpos
        have k2 := jy (by rw [e1]; exact hpos)
        have k3 := gy (by rw [e2, e1]; exact hpos)
        rw [hpoc]
        have hy' : s1.y = s.y := hy
        omega

theorem spatial_at_mk2 {u t : opj_pi_iterator} (hv : view_s1 t = view_s1 u)
    (h1 : u.first = false) (h2 : window_ok u)
    (hl : in_l t) (hr : in_r t) (hc : in_c t) (hx : in_x t) (hy : in_y t)
    (hh : spatial_hit t) : spatial_at t := by
  obtain ⟨_, hf, hfirst, _, _, hpoc⟩ := view_s1_s2 hv
  refine ⟨hfirst.trans h1, ?_, hl, hr, hc, hx, hy, hh⟩
  unfold window_ok at h2 ⊢
  rw [hf.tp_on, hpoc, hf.tx0, hf.ty0, hf.tx1, hf.ty1]; exact h2

theorem cprl_x_loop_spec {comp : opj_pi_comp} {s t : opj_pi_iterator} {b : Bool}
    (hg : arr_get s.comps s.compno = some comp)
    (h : cprl_x_loop comp s = .ok (b, t)) :
    view_s1 t = view_s1 s ∧ t.compno = s.compno ∧ t.y = s.y ∧ (0 ≤ s.dx → s.x ≤ t.x) ∧
    (b = true → pi_marks s t ∧ in_l t ∧ in_r t ∧ t.x < t.poc.tx1 ∧ spatial_hit t) ∧
    (b = false → t.incl = s.incl) := by
  have key := pi_for_rule
    (fun t => view_s1 t = view_s1 s ∧ t.compno = s.compno ∧ t.y = s.y ∧
      (0 ≤ s.dx → s.x ≤ t.x) ∧ t.incl = s.incl)
    (fun t => view_s1 t = view_s1 s ∧ t.compno = s.compno ∧ t.y = s.y ∧
      (0 ≤ s.dx → s.x ≤ t.x) ∧
      pi_marks s t ∧ in_l t ∧ in_r t ∧ t.x < t.poc.tx1 ∧ spatial_hit t)
    (by
      intro t t1 t2 hI _ hb hi
      obtain ⟨i1, i2, i3, i4, i5⟩ := hI
      obtain ⟨_, hf0, _, hdx0, _, _⟩ := view_s1_s2 i1
      have hg' : arr_get ({ t with resno := t.poc.resno0 }).comps
          ({ t with resno := t.poc.resno0 }).compno = some comp := by
        show arr_get t.comps t.compno = some comp
        rw [hf0.comps, i2]; exact hg
      obtain ⟨hv, hc, hx, hy, _, _, hd⟩ := pcrl_resno_loop_hit hg' hb
      obtain ⟨jv, _, jc, jy, ji, _, jx⟩ := incr_x_ok hi
      obtain ⟨_, _, _, hdx1, _, _⟩ := view_s1_s2 hv
      have hx1 : t1.x = t.x := hx
      have hdx : t1.dx = s.dx := by
        have e1 : t1.dx = t.dx := hdx1
        rw [e1]; exact hdx0
      refine ⟨(jv.trans hv).trans i1, (jc.trans hc).trans i2, (jy.trans hy).trans i3, ?_,
        (ji.trans (hd rfl)).trans i5⟩
      intro hpos
      have h1 := i4 hpos
      have h2 := jx (by rw [hdx]; exact hpos)
      omega)
    (by
      intro t t1 hI hc hb
      obtain ⟨i1, i2, i3, i4, i5⟩ := hI
      obtain ⟨_, hf0, _, _, _, _⟩ := view_s1_s2 i1
      have hg' : arr_get ({ t with resno := t.poc.resno0 }).comps
          ({ t with resno := t.poc.resno0 }).compno = some comp := by
        show arr_get t.comps t.compno = some comp
        rw [hf0.comps, i2]; exact hg
      obtain ⟨hv, hcn, hx, hy, hr, he, _⟩ := pcrl_resno_loop_hit hg' hb
      obtain ⟨_, hf, _, _, _, hpoc⟩ := view_s1_s2 hv
      obtain ⟨hm, hl, hr1, hhit⟩ := he rfl
      have hx1 : t1.x = t.x := hx
      have hy1 : t1.y = t.y := hy
      have hc1 : t1.compno = t.compno := hcn
      have hpoc1 : t1.poc = t.poc := hpoc
      have hr0 : t.poc.resno0 ≤ t1.resno := hr
      refine ⟨hv.trans i1, hc1.trans i2, hy1.trans i3, ?_, pi_marks_of_incl i5 hm, hl,
        ⟨by rw [hpoc1]; exact hr0, hr1⟩, ?_, hhit⟩
      · intro hpos; rw [hx1]; exact i4 hpos
      · rw [hpoc1, hx1]; simpa using hc)
    _ s t b ⟨rfl, rfl, rfl, fun _ => le_refl _, rfl⟩ h
  cases b
  · obtain ⟨⟨k1, k2, k3, k4, k5⟩, _⟩ := key.2 rfl
    exact ⟨k1, k2, k3, k4, fun h => by simp at h, fun _ => k5⟩
  · obtain ⟨k1, k2, k3, k4, k5⟩ := key.1 rfl
    exact ⟨k1, k2, k3, k4, fun _ => k5, fun h => by simp at h⟩

theorem cprl_y_loop_spec {comp : opj_pi_comp} {s t : opj_pi_iterator} {b : Bool}
    (hg : arr_get s.comps s.compno = some comp)
    (h : cprl_y_loop comp s = .ok (b, t)) :
    view_s1 t = view_s1 s ∧ t.compno = s.compno ∧ (0 ≤ s.dy → s.y ≤ t.y) ∧
    (b = true → pi_marks s t ∧ in_l t ∧ in_r t ∧ in_x t ∧ t.y < t.poc.ty1 ∧ spatial_hit t) ∧
    (b = false → t.incl = s.incl) := by
  have key := pi_for_rule
    (fun t => view_s1 t = view_s1 s ∧ t.compno = s.compno ∧
      (0 ≤ s.dy → s.y ≤ t.y) ∧ t.incl = s.incl)
    (fun t => view_s1 t = view_s1 s ∧ t.compno = s.compno ∧
      (0 ≤ s.dy → s.y ≤ t.y) ∧
      pi_marks s t ∧ in_l t ∧ in_r t ∧ in_x t ∧ t.y < t.poc.ty1 ∧ spatial_hit t)
    (by
      intro t t1 t2 hI _ hb hi
      obtain ⟨i1, i2, i3, i4⟩ := hI
      obtain ⟨_, hf0, _, _, hdy0, _⟩ := view_s1_s2 i1
      have hg' : arr_get ({ t with x := t.poc.tx0 }).comps
          ({ t with x := t.poc.tx0 }).compno = some comp := by
        show arr_get t.comps t.compno = some comp
        rw [hf0.comps, i2]; exact hg
      obtain ⟨hv, hc, hy, _, _, hd⟩ := cprl_x_loop_spec hg' hb
      obtain ⟨jv, _, jc, _, ji, _, jy⟩ := incr_y_ok hi
      obtain ⟨_, _, _, _, hdy1, _⟩ := view_s1_s2 hv
      have hy1 : t1.y = t.y := hy
      have hdy : t1.dy = s.dy := by
        have e1 : t1.dy = t.dy := hdy1
        rw [e1]; exact hdy0
      refine ⟨(jv.trans hv).trans i1, (jc.trans hc).trans i2, ?_,
        (ji.trans (hd rfl)).trans i4⟩
      intro hpos
      have h1 := i3 hpos
      have h2 := jy (by rw [hdy]; exact hpos)
      omega)
    (by
      intro t t1 hI hc hb
      obtain ⟨i1, i2, i3, i4⟩ := hI
      obtain ⟨_, hf0, _, _, _, _⟩ := view_s1_s2 i1
      have hg' : arr_get ({ t with x := t.poc.tx0 }).comps
          ({ t with x := t.poc.tx0 }).compno = some comp := by
        show arr_get t.comps t.compno = some comp
        rw [hf0.comps, i2]; exact hg
      obtain ⟨hv, hcn, hy, hx, he, _⟩ := cprl_x_loop_spec hg' hb
      obtain ⟨_, hf, _, hdx, _, hpoc⟩ := view_s1_s2 hv
      obtain ⟨hm, hl, hr, hx1, hhit⟩ := he rfl
      have hy1 : t1.y = t.y := hy
      have hc1 : t1.compno = t.compno := hcn
      have hpoc1 : t1.poc = t.poc := hpoc
      have hdx1 : t1.dx = t.dx := hdx
      have hx0 : 0 ≤ t.dx → t.poc.tx0 ≤ t1.x := hx
      refine ⟨hv.trans i1, hc1.trans i2, ?_, pi_marks_of_incl i4 hm, hl, hr,
        ⟨?_, hx1⟩, ?_, hhit⟩
      · intro hpos; rw [hy1]; exact i3 hpos
      · intro hpos; rw [hpoc1]; exact hx0 (by rw [← hdx1]; exact hpos)
      · rw [hpoc1, hy1]; simpa using hc)
    _ s t b ⟨rfl, rfl, fun _ => le_refl _, rfl⟩ h
  cases b
  · obtain ⟨⟨k1, k2, k3, k4⟩, _⟩ := key.2 rfl
    exact ⟨k1, k2, k3, fun h => by simp at h, fun _ => k4⟩
  · obtain ⟨k1, k2, k3, k4⟩ := key.1 rfl
    exact ⟨k1, k2, k3, fun _ => k4, fun h => by simp at h⟩

theorem cprl_compno_body_spec {s t : opj_pi_iterator} {b : Bool}
    (h : cprl_compno_body s = .ok (b, t)) :
    view_s2 t = view_s2 s ∧ t.first = s.first ∧ t.compno = s.compno ∧
    (b = true → pi_marks s t ∧ window_ok t ∧ in_l t ∧ in_r t ∧ in_x t ∧ in_y t ∧
      spatial_hit t ∧ cprl_step t) ∧
    (b = false → t.incl = s.incl) := by
  unfold cprl_compno_body at h
  cases hg : arr_get s.comps s.compno with
  | none => rw [hg] at h; simp at h
  | some comp =>
    rw [hg] at h
    dsimp only at h
    cases hst : pi_step_comp comp (0, 0) with
    | error e => rw [hst] at h; simp at h
    | ok d =>
      rw [hst] at h
      dsimp only at h
      obtain ⟨w1, w2, w3, w4, w5, w6, w7⟩ := pi_window_spec { s with dx := d.1, dy := d.2 }
      have wf := pi_core_frame (view_s2_core w2)
      have hg' : arr_get
          ({ pi_window { s with dx := d.1, dy := d.2 } with
              y := (pi_window { s with dx := d.1, dy := d.2 }).poc.ty0 }).comps
          ({ pi_window { s with dx := d.1, dy := d.2 } with
              y := (pi_window { s with dx := d.1, dy := d.2 }).poc.ty0 }).compno
            = some comp := by
        show arr_get (pi_window { s with dx := d.1, dy := d.2 }).comps
          (pi_window { s with dx := d.1, dy := d.2 }).compno = some comp
        rw [wf.comps, w7]; exact hg
      obtain ⟨hv, hc, hy0, he, hd⟩ := cprl_y_loop_spec hg' h
      obtain ⟨hv2, hf, hfirst, hdx, hdy, hpoc⟩ := view_s1_s2 hv
      have hv2s : view_s2 t = view_s2 s := hv2.trans w2
      have hcs : t.compno = s.compno := hc.trans w7
      have hE : ∀ r : Int,
          ({ pi_window { s with dx := d.1, dy := d.2 } with y := r }).incl = s.incl :=
        fun _ => w6
      refine ⟨hv2s, hfirst.trans w3, hcs, ?_, fun hb => (hd hb).trans w6⟩
      intro hb
      obtain ⟨hm, hl, hr, hx, hy1, hhit⟩ := he hb
      have sf := pi_core_frame (view_s2_core hv2s)
      refine ⟨pi_marks_of_incl (hE _) hm, ?_, hl, hr, hx, ⟨?_, hy1⟩, hhit, comp, ?_, ?_⟩
      · unfold window_ok at w1 ⊢
        rw [hf.tp_on, hpoc, hf.tx0, hf.ty0, hf.tx1, hf.ty1]; exact w1
      · intro hpos
        rw [hpoc]
        exact hy0 (by rw [← hdy]; exact hpos)
      · rw [sf.comps, hcs]; exact hg
      · rw [hst]
        have e1 : t.dx = d.1 := hdx.trans w4
        have e2 : t.dy = d.2 := hdy.trans w5
        rw [e1, e2]

theorem cprl_compno_loop_spec {s t : opj_pi_iterator} {b : Bool}
    (h : cprl_compno_loop s = .ok (b, t)) :
    view_s2 t = view_s2 s ∧ t.first = s.first ∧ s.compno ≤ t.compno ∧
    (b = true → pi_marks s t ∧ window_ok t ∧ in_l t ∧ in_r t ∧ t.compno < t.poc.compno1 ∧
      in_x t ∧ in_y t ∧ spatial_hit t ∧ cprl_step t) ∧
    (b = false → t.incl = s.incl) := by
  have key := pi_for_rule
    (fun t => view_s2 t = view_s2 s ∧ t.first = s.first ∧ s.compno ≤ t.compno ∧
      t.incl = s.incl)
    (fun t => view_s2 t = view_s2 s ∧ t.first = s.first ∧ s.compno ≤ t.compno ∧
      pi_marks s t ∧ window_ok t ∧ in_l t ∧ in_r t ∧ t.compno < t.poc.compno1 ∧
      in_x t ∧ in_y t ∧ spatial_hit t ∧ cprl_step t)
    (by
      intro t t1 t2 hI _ hb hi
      obtain ⟨hv, hfirst, hc, _, hd⟩ := cprl_compno_body_spec hb
      simp only [incr_compno, Except.ok.injEq] at hi
      subst hi
      obtain ⟨i1, i2, i3, i4⟩ := hI
      refine ⟨hv.trans i1, hfirst.trans i2, ?_, (hd rfl).trans i4⟩
      show s.compno ≤ t1.compno + 1
      omega)
    (by
      intro t t1 hI hc hb
      obtain ⟨hv, hfirst, hcn, he, _⟩ := cprl_compno_body_spec hb
      have hf := pi_core_frame (view_s2_core hv)
      obtain ⟨hm, hw, hl, hr, hx, hy, hhit, hstep⟩ := he rfl
      obtain ⟨i1, i2, i3, i4⟩ := hI
      refine ⟨hv.trans i1, hfirst.trans i2, by rw [hcn]; exact i3,
        pi_marks_of_incl i4 hm, hw, hl, hr, ?_, hx, hy, hhit, hstep⟩
      rw [hf.compno1, hcn]; simpa using hc)
    _ s t b ⟨rfl, rfl, le_refl _, rfl⟩ h
  cases b
  · obtain ⟨⟨k1, k2, k3, k4⟩, _⟩ := key.2 rfl
    exact ⟨k1, k2, k3, fun h => by simp at h, fun _ => k4⟩
  · obtain ⟨k1, k2, k3, k4⟩ := key.1 rfl
    exact ⟨k1, k2, k3, fun _ => k4, fun h => by simp at h⟩

theorem cprl_resume_x {comp : opj_pi_comp} {u t : opj_pi_iterator} {b : Bool}
    (hg : arr_get u.comps u.compno = some comp)
    (h : pi_then (pcrl_resno_loop comp u) incr_x (cprl_x_loop comp) = .ok (b, t)) :
    view_s1 t = view_s1 u ∧ t.compno = u.compno ∧ t.y = u.y ∧
    (b = true → pi_marks u t ∧ (cprl_entry u → spatial_at t)) ∧
    (b = false → t.incl = u.incl) := by
  rcases pi_then_ok h with ⟨h1, hb⟩ | ⟨s1, s2, h1, h2, h3⟩
  · obtain ⟨hv, hc, hx, hy, hr, he, _⟩ := pcrl_resno_loop_hit hg h1
    obtain ⟨_, hf, _, fdx, fdy, hpoc⟩ := view_s1_s2 hv
    refine ⟨hv, hc, hy, fun _ => ?_, fun h => by rw [hb] at h; simp at h⟩
    obtain ⟨hm, hl, hr1, hhit⟩ := he rfl
    refine ⟨hm, ?_⟩
    rintro ⟨e1, e2, e3, e4, e5, e6⟩
    refine spatial_at_mk2 hv e1 e2 hl ⟨?_, hr1⟩ ?_ ?_ ?_ hhit
    · rw [hpoc]; omega
    · unfold in_c at e4 ⊢; rw [hpoc, hc]; exact e4
    · unfold in_x at e5 ⊢; rw [hpoc, hx, fdx]; exact e5
    · unfold in_y at e6 ⊢; rw [hpoc, hy, fdy]; exact e6
  · obtain ⟨hv1, hc1, hx1, hy1, _, _, hd⟩ := pcrl_resno_loop_hit hg h1
    obtain ⟨jv, _, jc, jy, ji, _, jx⟩ := incr_x_ok h2
    obtain ⟨_, hf1, _, edx1, _, _⟩ := view_s1_s2 hv1
    obtain ⟨_, hf2, _, edx2, _, _⟩ := view_s1_s2 jv
    have hg2 : arr_get s2.comps s2.compno = some comp := by
      rw [hf2.comps, jc, hf1.comps, hc1]; exact hg
    obtain ⟨gv, gc, gy, gx, he, hd2⟩ := cprl_x_loop_spec hg2 h3
    have fv : view_s1 t = view_s1 u := (gv.trans jv).trans hv1
    have fc : t.compno = u.compno := (gc.trans jc).trans hc1
    have fy : t.y = u.y := (gy.trans jy).trans hy1
    obtain ⟨_, hf, _, fdx, fdy, hpoc⟩ := view_s1_s2 fv
    refine ⟨fv, fc, fy, ?_, fun hb => ((hd2 hb).trans ji).trans (hd rfl)⟩
    intro hb
    obtain ⟨hm, hl, hr, hxlt, hhit⟩ := he hb
    refine ⟨pi_marks_of_incl (ji.trans (hd rfl)) hm, ?_⟩
    rintro ⟨e1, e2, e3, e4, e5, e6⟩
    refine spatial_at_mk2 fv e1 e2 hl hr ?_ ⟨?_, hxlt⟩ ?_ hhit
    · unfold in_c at e4 ⊢; rw [hpoc, fc]; exact e4
    · intro hpos
      rw [fdx] at hpos
      have d1 : s1.dx = u.dx := edx1
      have d2 : s2.dx = s1.dx := edx2
      have k1 := e5.1 hpos
      have k2 := jx (by rw [d1]; exact hpos)
      have k3 := gx (by rw [d2, d1]; exact hpos)
      rw [hpoc]
      have hx' : s1.x = u.x := hx1
      omega
    · unfold in_y at e6 ⊢; rw [hpoc, fy, fdy]; exact e6

theorem cprl_resume_spec {u t : opj_pi_iterator} {b : Bool}
    (h : cprl_resume u = .ok (b, t)) :
    view_s1 t = view_s1 u ∧ t.compno = u.compno ∧
    (b = true → pi_marks u t ∧ (cprl_entry u → spatial_at t)) ∧
    (b = false → t.incl = u.incl) := by
  unfold cprl_resume at h
  cases hg : arr_get u.comps u.compno with
  | none => rw [hg] at h; simp at h
  | some comp =>
    rw [hg] at h
    dsimp only at h
    rcases pi_then_ok h with ⟨h1, hb⟩ | ⟨s1, s2, h1, h2, h3⟩
    · obtain ⟨hv, hc, _, he, _⟩ := cprl_resume_x hg h1
      exact ⟨hv, hc, fun _ => he rfl, fun h => by rw [hb] at h; simp at h⟩
    · obtain ⟨hv1, hc1, hy1, _, hd⟩ := cprl_resume_x hg h1
      obtain ⟨jv, _, jc, _, ji, _, jy⟩ := incr_y_ok h2
      obtain ⟨_, hf1, _, _, edy1, _⟩ := view_s1_s2 hv1
      obtain ⟨_, hf2, _, _, edy2, _⟩ := view_s1_s2 jv
      have hg2 : arr_get s2.comps s2.compno = some comp := by
        rw [hf2.comps, jc, hf1.comps, hc1]; exact hg
      obtain ⟨gv, gc, gy, he, hd2⟩ := cprl_y_loop_spec hg2 h3
      have fv : view_s1 t = view_s1 u := (gv.trans jv).trans hv1
      have fc : t.compno = u.compno := (gc.trans jc).trans hc1
      obtain ⟨_, hf, _, fdx, fdy, hpoc⟩ := view_s1_s2 fv
      refine ⟨fv, fc, ?_, fun hb => ((hd2 hb).trans ji).trans (hd rfl)⟩
      intro hb
      obtain ⟨hm, hl, hr, hx, hylt, hhit⟩ := he hb
      refine ⟨pi_marks_of_incl (ji.trans (hd rfl)) hm, ?_⟩
      rintro ⟨e1, e2, e3, e4, e5, e6⟩
      refine spatial_at_mk2 fv e1 e2 hl hr ?_ hx ⟨?_, hylt⟩ hhit
      · unfold in_c at e4 ⊢; rw [hpoc, fc]; exact e4
      · intro hpos
        rw [fdy] at hpos
        have d1 : s1.dy = u.dy := edy1
        have d2 : s2.dy = s1.dy := edy2
        have k1 := e6.1 hpos
        have k2 := jy (by rw [d1]; exact hpos)
        have k3 := gy (by rw [d2, d1]; exact hpos)
        rw [hpoc]
        have hy' : s1.y = u.y := hy1
        omega

theorem cprl_skip_resno {s t : opj_pi_iterator} {b : Bool}
    (h : pi_then (pi_then (.ok (false, s)) incr_layno spatial_layno_loop)
      incr_resno cprl_resume = .ok (b, t)) :
    view_s1 t = view_s1 s ∧ t.compno = s.compno ∧
    (b = true → pi_marks s t ∧ (spatial_at s → spatial_at t)) ∧
    (b = false → t.incl = s.incl) := by
  rcases pi_then_ok h with ⟨h1, hb⟩ | ⟨s1, s2, h1, h2, h3⟩
  · obtain ⟨hv, he, _⟩ := spatial_skip_layno h1
    obtain ⟨hv1, _, hc, _, _⟩ := view_s0_s1 (view_sl_s0 hv).1
    exact ⟨hv1, hc, fun _ => he rfl, fun h => by rw [hb] at h; simp at h⟩
  · obtain ⟨hv, _, hd⟩ := spatial_skip_layno h1
    obtain ⟨hv1, hr, hcn, hx, hy⟩ := view_s0_s1 (view_sl_s0 hv).1
    simp only [incr_resno, Except.ok.injEq] at h2
    subst h2
    obtain ⟨gv, gc, he, hd2⟩ := cprl_resume_spec h3
    have fv : view_s1 t = view_s1 s := gv.trans hv1
    have fc : t.compno = s.compno := gc.trans hcn
    obtain ⟨_, hf1, hfirst1, edx, edy, hpoc1⟩ := view_s1_s2 hv1
    refine ⟨fv, fc, ?_, fun hb => (hd2 hb).trans (hd rfl)⟩
    intro hb
    obtain ⟨hm, hat⟩ := he hb
    refine ⟨pi_marks_of_incl (hd rfl) hm, fun hs => hat ?_⟩
    obtain ⟨a1, a2, _, a4, a5, a6, a7, _⟩ := id hs
    have hr' : s1.resno = s.resno := hr
    have hc' : s1.compno = s.compno := hcn
    have hx' : s1.x = s.x := hx
    have hy' : s1.y = s.y := hy
    have hp' : s1.poc = s.poc := hpoc1
    have hdx' : s1.dx = s.dx := edx
    have hdy' : s1.dy = s.dy := edy
    refine ⟨hfirst1.trans a1, ?_, ?_, ?_, ?_, ?_⟩
    · unfold window_ok at a2 ⊢
      show s1.tp_on = false → s1.poc.tx0 = s1.tx0 ∧ s1.poc.ty0 = s1.ty0 ∧
        s1.poc.tx1 = s1.tx1 ∧ s1.poc.ty1 = s1.ty1
      rw [hf1.tp_on, hp', hf1.tx0, hf1.ty0, hf1.tx1, hf1.ty1]; exact a2
    · show s1.poc.resno0 ≤ s1.resno + 1
      rw [hp', hr']; have := a4.1; omega
    · unfold in_c at a5 ⊢
      show s1.poc.compno0 ≤ s1.compno ∧ s1.compno < s1.poc.compno1
      rw [hp', hc']; exact a5
    · unfold in_x at a6 ⊢
      show (0 ≤ s1.dx → s1.poc.tx0 ≤ s1.x) ∧ s1.x < s1.poc.tx1
      rw [hp', hx', hdx']; exact a6
    · unfold in_y at a7 ⊢
      show (0 ≤ s1.dy → s1.poc.ty0 ≤ s1.y) ∧ s1.y < s1.poc.ty1
      rw [hp', hy', hdy']; exact a7

/-- What a call of `pi_next_cprl` does (as `pi_next_rpcl_spec`; the step is the
one of the component of the cursor). -/
theorem pi_next_cprl_spec {s t : opj_pi_iterator} {b : Bool}
    (h : pi_next_cprl s = .ok (b, t)) :
    pi_core t = pi_core s ∧ t.first = false ∧
    (b = true → pi_marks s t ∧ ((s.first = true ∨ spatial_at s) → spatial_at t) ∧
      ((s.first = true ∨ cprl_step s) → cprl_step t)) ∧
    (b = false → t.incl = s.incl) := by
  unfold pi_next_cprl at h
  by_cases hfst : s.first = true
  · simp only [hfst, Bool.not_true, Bool.false_eq_true, if_false] at h
    obtain ⟨hv, hfirst, hc, he, hd⟩ := cprl_compno_loop_spec h
    have hcore := view_s2_core hv
    have hf := pi_core_frame hcore
    have hfirst1 : t.first = false := hfirst
    refine ⟨hcore, hfirst1, ?_, fun hb => hd hb⟩
    intro hb
    obtain ⟨hm, hw, hl, hr, hc1, hx, hy, hhit, hstep⟩ := he hb
    refine ⟨hm, fun _ => ⟨hfirst1, hw, hl, hr, ⟨?_, hc1⟩, hx, hy, hhit⟩, fun _ => hstep⟩
    have h0 : t.poc.compno0 = s.poc.compno0 := hf.compno0
    rw [h0]; exact hc
  · have hfst0 : s.first = false := by simpa using hfst
    simp only [hfst0, Bool.not_false, if_true] at h
    rcases pi_then_ok h with ⟨h1, hb1⟩ | ⟨s1, s2, h1, h2, h3⟩
    · obtain ⟨hv, hc, he, _⟩ := cprl_skip_resno h1
      obtain ⟨hv2, hf, hfirst, hdx, hdy, _⟩ := view_s1_s2 hv
      refine ⟨view_s2_core hv2, hfirst.trans hfst0, ?_, fun h => by rw [hb1] at h; simp at h⟩
      intro _
      obtain ⟨hm, hat⟩ := he rfl
      refine ⟨hm, fun hor => ?_, fun hor => ?_⟩
      · rcases hor with hor | hor
        · rw [hfst0] at hor; simp at hor
        · exact hat hor
      · rcases hor with hor | hor
        · rw [hfst0] at hor; simp at hor
        · obtain ⟨comp, g1, g2⟩ := hor
          exact ⟨comp, by rw [hf.comps, hc]; exact g1, by rw [hdx, hdy]; exact g2⟩
    · obtain ⟨hv1, hcn, _, hd⟩ := cprl_skip_resno h1
      simp only [incr_compno, Except.ok.injEq] at h2
      subst h2
      obtain ⟨gv, gfirst, gc, he, hd2⟩ := cprl_compno_loop_spec h3
      obtain ⟨hv12, _, hfirst1, _, _, _⟩ := view_s1_s2 hv1
      have fv : view_s2 t = view_s2 s := gv.trans hv12
      have hcore := view_s2_core fv
      have hf := pi_core_frame hcore
      have hfirst : t.first = false := (gfirst.trans hfirst1).trans hfst0
      refine ⟨hcore, hfirst, ?_, fun hb => (hd2 hb).trans (hd rfl)⟩
      intro hb
      obtain ⟨hm, hw, hl, hr, hc1, hx, hy, hhit, hstep⟩ := he hb
      refine ⟨pi_marks_of_incl (hd rfl) hm, fun hor => ?_, fun _ => hstep⟩
      rcases hor with hor | hor
      · rw [hfst0] at hor; simp at hor
      · obtain ⟨_, _, _, _, a5, _⟩ := id hor
        have gc1 : s1.compno + 1 ≤ t.compno := gc
        have hc' : s1.compno = s.compno := hcn
        refine ⟨hfirst, hw, hl, hr, ⟨?_, hc1⟩, hx, hy, hhit⟩
        rw [hf.compno0]; have := a5.1; omega

/-! ## The dispatcher -/

/-- What a call of `pi_next` does to the fields shared by all engines. -/
theorem pi_next_spec {s t : opj_pi_iterator} {b : Bool} (h : pi_next s = .ok (b, t)) :
    pi_core t = pi_core s ∧ (b = true → pi_marks s t) ∧ (b = false → t.incl = s.incl) := by
  unfold pi_next at h
  split at h
  · obtain ⟨hv, _, he, hd⟩ := pi_next_lrcp_spec h
    exact ⟨view_lrcp_core hv, fun hb => (he hb).1, hd⟩
  · obtain ⟨hv, _, he, hd⟩ := pi_next_rlcp_spec h
    exact ⟨view_lrcp_core hv, fun hb => (he hb).1, hd⟩
  · obtain ⟨hv, _, he, hd, _⟩ := pi_next_rpcl_spec h
    exact ⟨hv, fun hb => (he hb).1, hd⟩
  · obtain ⟨hv, _, he, hd, _⟩ := pi_next_pcrl_spec h
    exact ⟨hv, fun hb => (he hb).1, hd⟩
  · obtain ⟨hv, _, he, hd⟩ := pi_next_cprl_spec h
    exact ⟨hv, fun hb => (he hb).1, hd⟩
  · simp only [Except.ok.injEq, Prod.mk.injEq] at h
    obtain ⟨rfl, rfl⟩ := h
    exact ⟨rfl, fun h => by simp at h, fun _ => rfl⟩

theorem arr_get_some {α : Type} {xs : List α} {i : Int} {v : α} (h : arr_get xs i = some v) :
    0 ≤ i ∧ i.toNat < xs.length ∧ xs[i.toNat]? = some v := by
  unfold arr_get at h
  by_cases h0 : 0 ≤ i
  · rw [if_pos h0] at h
    refine ⟨h0, ?_, h⟩
    by_contra hlt
    rw [List.getElem?_eq_none (by omega)] at h
    simp at h
  · rw [if_neg h0] at h; simp at h

/-- C11. Effect of `pi_next` on the visited bitmap: when `pi_next` returns true, the
cell at index `layno * step_l + resno * step_r + compno * step_c + precno * step_p` of
the reported cursor lies inside the bitmap, held 0 before the call and holds 1 after
it, and every other cell is unchanged; when `pi_next` returns false the bitmap is
unchanged. -/
theorem pi_next_include_effect (s t : opj_pi_iterator) (b : Bool)
    (h : pi_next s = .ok (b, t)) :
    (b = true →
      0 ≤ pi_index t ∧ (pi_index t).toNat < s.incl.length ∧
      s.incl[(pi_index t).toNat]? = some 0 ∧
      t.incl = s.incl.set (pi_index t).toNat 1 ∧
      t.incl[(pi_index t).toNat]? = some 1 ∧
      ∀ j : Nat, j ≠ (pi_index t).toNat → t.incl[j]? = s.incl[j]?) ∧
    (b = false → t.incl = s.incl) := by
  obtain ⟨_, he, hd⟩ := pi_next_spec h
  refine ⟨fun hb => ?_, hd⟩
  obtain ⟨h1, h2⟩ := he hb
  obtain ⟨g1, g2, g3⟩ := arr_get_some h1
  refine ⟨g1, g2, g3, h2, ?_, ?_⟩
  · rw [h2, List.getElem?_set_self g2]
  · intro j hj
    rw [h2, List.getElem?_set_ne (Ne.symm hj)]

/-- Witness of `pi_next_include_effect`: the first call on the example iterator
under LRCP marks cell 0. -/
theorem pi_next_include_effect_witness :
    pi_next (ex_slot .LRCP)
      = .ok (true, { ex_slot .LRCP with first := false, incl := 1 :: List.replicate 17 0 }) ∧
    ({ ex_slot .LRCP with first := false, incl := 1 :: List.replicate 17 0 } :
      opj_pi_iterator).incl[0]? = some 1 :=
  ⟨rfl, ((pi_next_include_effect (ex_slot .LRCP)
    { ex_slot .LRCP with first := false, incl := 1 :: List.replicate 17 0 } true rfl).1 rfl).2.2.2.2.1⟩

/-- C12. Dispatcher: on an iterator whose `poc.prg` is `PROG_UNKNOWN`, `pi_next`
returns false and leaves the whole iterator unchanged; for each of LRCP, RLCP, RPCL,
PCRL and CPRL it returns exactly the result and state of the matching engine. -/
theorem pi_next_dispatch (s : opj_pi_iterator) :
    (s.poc.prg = .PROG_UNKNOWN → pi_next s = .ok (false, s)) ∧
    (s.poc.prg = .LRCP → pi_next s = pi_next_lrcp s) ∧
    (s.poc.prg = .RLCP → pi_next s = pi_next_rlcp s) ∧
    (s.poc.prg = .RPCL → pi_next s = pi_next_rpcl s) ∧
    (s.poc.prg = .PCRL → pi_next s = pi_next_pcrl s) ∧
    (s.poc.prg = .CPRL → pi_next s = pi_next_cprl s) := by
  unfold pi_next
  refine ⟨?_, ?_, ?_, ?_, ?_, ?_⟩ <;> intro h <;> rw [h]

/-- Witness of `pi_next_dispatch`: the example iterator with an unknown progression. -/
theorem pi_next_dispatch_witness :
    (ex_slot .PROG_UNKNOWN).poc.prg = .PROG_UNKNOWN ∧
    pi_next (ex_slot .PROG_UNKNOWN) = .ok (false, ex_slot .PROG_UNKNOWN) :=
  ⟨rfl, (pi_next_dispatch (ex_slot .PROG_UNKNOWN)).1 rfl⟩

/-! ## Termination: the loops reach their exit -/

theorem pi_for_progress {cond : opj_pi_iterator → Bool} {body : opj_pi_iterator → pi_outcome}
    {incr : opj_pi_iterator → Except pi_fault opj_pi_iterator}
    (I : opj_pi_iterator → Prop) (m : opj_pi_iterator → Int)
    (hbody : ∀ t, I t → cond t = true → body t ≠ .error .no_progress)
    (hincr : ∀ t t1, I t → cond t = true → body t = .ok (false, t1) →
      incr t1 ≠ .error .no_progress)
    (hstep : ∀ t t1 t2, I t → cond t = true → body t = .ok (false, t1) → incr t1 = .ok t2 →
      I t2 ∧ m t2 < m t)
    (hpos : ∀ t, I t → cond t = true → 0 < m t) :
    ∀ (n : Nat) (s : opj_pi_iterator), I s → m s ≤ n →
      pi_for cond body incr (n + 1) s ≠ .error .no_progress := by
  intro n
  induction n with
  | zero =>
    intro s hI hm hcon
    rw [pi_for] at hcon
    by_cases hc : cond s = true
    · have := hpos s hI hc
      simp at hm
      omega
    · rw [if_neg hc] at hcon; simp at hcon
  | succ k ih =>
    intro s hI hm hcon
    rw [pi_for] at hcon
    by_cases hc : cond s = true
    · rw [if_pos hc] at hcon
      cases hb : body s with
      | error e =>
        rw [hb] at hcon
        simp only [Except.error.injEq] at hcon
        subst hcon
        exact hbody s hI hc hb
      | ok r =>
        obtain ⟨b1, s1⟩ := r
        rw [hb] at hcon
        cases b1 with
        | true => simp at hcon
        | false =>
          dsimp only at hcon
          cases hi : incr s1 with
          | error e =>
            rw [hi] at hcon
            simp only [Except.error.injEq] at hcon
            subst hcon
            exact hincr s s1 hI hc hb hi
          | ok s2 =>
            rw [hi] at hcon
            obtain ⟨hI2, hm2⟩ := hstep s s1 s2 hI hc hb hi
            refine ih s2 hI2 ?_ hcon
            push_cast at hm
            omega
    · rw [if_neg hc] at hcon; simp at hcon

theorem pi_then_progress {r : pi_outcome}
    {incr : opj_pi_iterator → Except pi_fault opj_pi_iterator}
    {rest : opj_pi_iterator → pi_outcome}
    (h1 : r ≠ .error .no_progress)
    (h2 : ∀ s1, r = .ok (false, s1) → incr s1 ≠ .error .no_progress)
    (h3 : ∀ s1 s2, r = .ok (false, s1) → incr s1 = .ok s2 → rest s2 ≠ .error .no_progress) :
    pi_then r incr rest ≠ .error .no_progress := by
  intro hcon
  unfold pi_then at hcon
  cases r with
  | error e =>
    simp only [Except.error.injEq] at hcon
    subst hcon
    exact h1 rfl
  | ok p =>
    obtain ⟨b1, s1⟩ := p
    cases b1 with
    | true => simp at hcon
    | false =>
      dsimp only at hcon
      cases hi : incr s1 with
      | error e =>
        rw [hi] at hcon
        simp only [Except.error.injEq] at hcon
        subst hcon
        exact h2 s1 rfl hi
      | ok s2 =>
        rw [hi] at hcon
        exact h3 s1 s2 rfl hi hcon

theorem pi_visit_progress (t : opj_pi_iterator) : pi_visit t ≠ .error .no_progress := by
  unfold pi_visit
  split
  · simp
  · split <;> simp

theorem span_le (a b : Int) : b - a ≤ ((b - a).toNat : Int) := Int.self_le_toNat _

theorem lrcp_precno_loop_progress (s : opj_pi_iterator) :
    lrcp_precno_loop s ≠ .error .no_progress := by
  unfold lrcp_precno_loop pi_span
  refine pi_for_progress (fun _ => True) (fun t => t.poc.precno1 - t.precno)
    (fun t _ _ => pi_visit_progress t) (fun t t1 _ _ _ => by simp [incr_precno]) ?_ ?_ _ s
    trivial (span_le _ _)
  · intro t t1 t2 _ _ hb hi
    rcases pi_visit_ok hb with ⟨h1, _⟩ | ⟨_, rfl⟩
    · simp at h1
    · simp only [incr_precno, Except.ok.injEq] at hi
      subst hi
      refine ⟨trivial, ?_⟩
      show t1.poc.precno1 - (t1.precno + 1) < t1.poc.precno1 - t1.precno
      omega
  · intro t _ hc
    have : t.precno < t.poc.precno1 := by simpa using hc
    dsimp only
    omega

theorem lrcp_compno_body_progress (s : opj_pi_iterator) :
    lrcp_compno_body s ≠ .error .no_progress := by
  unfold lrcp_compno_body
  split
  · simp
  · split
    · simp
    · split
      · exact lrcp_precno_loop_progress _
      · split
        · simp
        · exact lrcp_precno_loop_progress _

theorem lrcp_compno_loop_progress (s : opj_pi_iterator) :
    lrcp_compno_loop s ≠ .error .no_progress := by
  unfold lrcp_compno_loop pi_span
  refine pi_for_progress (fun _ => True) (fun t => t.poc.compno1 - t.compno)
    (fun t _ _ => lrcp_compno_body_progress t) (fun t t1 _ _ _ => by simp [incr_compno]) ?_ ?_
    _ s trivial (span_le _ _)
  · intro t t1 t2 _ _ hb hi
    obtain ⟨hv, hc, _, _⟩ := lrcp_compno_body_spec hb
    obtain ⟨hf, _⟩ := view_l_frame (view_c_l hv).1
    simp only [incr_compno, Except.ok.injEq] at hi
    subst hi
    refine ⟨trivial, ?_⟩
    show t1.poc.compno1 - (t1.compno + 1) < t.poc.compno1 - t.compno
    rw [hf.compno1, hc]
    omega
  · intro t _ hc
    have : t.compno < t.poc.compno1 := by simpa using hc
    dsimp only
    omega

theorem lrcp_resno_loop_progress (s : opj_pi_iterator) :
    lrcp_resno_loop s ≠ .error .no_progress := by
  unfold lrcp_resno_loop pi_span
  refine pi_for_progress (fun _ => True) (fun t => t.poc.resno1 - t.resno)
    (fun t _ _ => lrcp_compno_loop_progress _) (fun t t1 _ _ _ => by simp [incr_resno]) ?_ ?_
    _ s trivial (span_le _ _)
  · intro t t1 t2 _ _ hb hi
    obtain ⟨hv, _, _, _⟩ := lrcp_compno_loop_spec hb
    obtain ⟨hvl, _, hr⟩ := view_c_l hv
    obtain ⟨hf, _⟩ := view_l_frame hvl
    simp only [incr_resno, Except.ok.injEq] at hi
    subst hi
    refine ⟨trivial, ?_⟩
    show t1.poc.resno1 - (t1.resno + 1) < t.poc.resno1 - t.resno
    have h1 : t1.poc.resno1 = t.poc.resno1 := hf.resno1
    have h2 : t1.resno = t.resno := hr
    omega
  · intro t _ hc
    have : t.resno < t.poc.resno1 := by simpa using hc
    dsimp only
    omega

theorem lrcp_layno_loop_progress (s : opj_pi_iterator) :
    lrcp_layno_loop s ≠ .error .no_progress := by
  unfold lrcp_layno_loop pi_span
  refine pi_for_progress (fun _ => True) (fun t => t.poc.layno1 - t.layno)
    (fun t _ _ => lrcp_resno_loop_progress _) (fun t t1 _ _ _ => by simp [incr_layno]) ?_ ?_
    _ s trivial (span_le _ _)
  · intro t t1 t2 _ _ hb hi
    obtain ⟨hv, hl, _, _⟩ := lrcp_resno_loop_spec hb
    obtain ⟨hf, _⟩ := view_l_frame hv
    simp only [incr_layno, Except.ok.injEq] at hi
    subst hi
    refine ⟨trivial, ?_⟩
    show t1.poc.layno1 - (t1.layno + 1) < t.poc.layno1 - t.layno
    have h1 : t1.poc.layno1 = t.poc.layno1 := hf.layno1
    have h2 : t1.layno = t.layno := hl
    omega
  · intro t _ hc
    have : t.layno < t.poc.layno1 := by simpa using hc
    dsimp only
    omega

theorem rlcp_layno_loop_progress (s : opj_pi_iterator) :
    rlcp_layno_loop s ≠ .error .no_progress := by
  unfold rlcp_layno_loop pi_span
  refine pi_for_progress (fun _ => True) (fun t => t.poc.layno1 - t.layno)
    (fun t _ _ => lrcp_compno_loop_progress _) (fun t t1 _ _ _ => by simp [incr_layno]) ?_ ?_
    _ s trivial (span_le _ _)
  · intro t t1 t2 _ _ hb hi
    obtain ⟨hv, _, _, _⟩ := lrcp_compno_loop_spec hb
    obtain ⟨hvl, hl, _⟩ := view_c_l hv
    obtain ⟨hf, _⟩ := view_l_frame hvl
    simp only [incr_layno, Except.ok.injEq] at hi
    subst hi
    refine ⟨trivial, ?_⟩
    show t1.poc.layno1 - (t1.layno + 1) < t.poc.layno1 - t.layno
    have h1 : t1.poc.layno1 = t.poc.layno1 := hf.layno1
    have h2 : t1.layno = t.layno := hl
    omega
  · intro t _ hc
    have : t.layno < t.poc.layno1 := by simpa using hc
    dsimp only
    omega

theorem rlcp_resno_loop_progress (s : opj_pi_iterator) :
    rlcp_resno_loop s ≠ .error .no_progress := by
  unfold rlcp_resno_loop pi_span
  refine pi_for_progress (fun _ => True) (fun t => t.poc.resno1 - t.resno)
    (fun t _ _ => rlcp_layno_loop_progress _) (fun t t1 _ _ _ => by simp [incr_resno]) ?_ ?_
    _ s trivial (span_le _ _)
  · intro t t1 t2 _ _ hb hi
    obtain ⟨hv, hr, _, _⟩ := rlcp_layno_loop_spec hb
    obtain ⟨hf, _⟩ := view_l_frame hv
    simp only [incr_resno, Except.ok.injEq] at hi
    subst hi
    refine ⟨trivial, ?_⟩
    show t1.poc.resno1 - (t1.resno + 1) < t.poc.resno1 - t.resno
    have h1 : t1.poc.resno1 = t.poc.resno1 := hf.resno1
    have h2 : t1.resno = t.resno := hr
    omega
  · intro t _ hc
    have : t.resno < t.poc.resno1 := by simpa using hc
    dsimp only
    omega

theorem pi_next_lrcp_progress (s : opj_pi_iterator) :
    pi_next_lrcp s ≠ .error .no_progress := by
  unfold pi_next_lrcp
  split
  · split
    · simp
    · refine pi_then_progress (pi_then_progress (pi_then_progress (pi_then_progress
        (by simp) ?_ ?_) ?_ ?_) ?_ ?_) ?_ ?_
      · intro s1 _; simp [incr_precno]
      · intro s1 s2 _ _; exact lrcp_precno_loop_progress _
      · intro s1 _; simp [incr_compno]
      · intro s1 s2 _ _; exact lrcp_compno_loop_progress _
      · intro s1 _; simp [incr_resno]
      · intro s1 s2 _ _; exact lrcp_resno_loop_progress _
      · intro s1 _; simp [incr_layno]
      · intro s1 s2 _ _; exact lrcp_layno_loop_progress _
  · exact lrcp_layno_loop_progress _

theorem pi_next_rlcp_progress (s : opj_pi_iterator) :
    pi_next_rlcp s ≠ .error .no_progress := by
  unfold pi_next_rlcp
  split
  · split
    · simp
    · refine pi_then_progress (pi_then_progress (pi_then_progress (pi_then_progress
        (by simp) ?_ ?_) ?_ ?_) ?_ ?_) ?_ ?_
      · intro s1 _; simp [incr_precno]
      · intro s1 s2 _ _; exact lrcp_precno_loop_progress _
      · intro s1 _; simp [incr_compno]
      · intro s1 s2 _ _; exact lrcp_compno_loop_progress _
      · intro s1 _; simp [incr_layno]
      · intro s1 s2 _ _; exact rlcp_layno_loop_progress _
      · intro s1 _; simp [incr_resno]
      · intro s1 s2 _ _; exact rlcp_resno_loop_progress _
  · exact rlcp_resno_loop_progress _

theorem opj_for_inv {σ : Type} {f : Nat → σ → Except pi_fault σ} (P : Nat → σ → Prop)
    (hstep : ∀ k s s1, P k s → f k s = .ok s1 → P (k + 1) s1) :
    ∀ (n i : Nat) (s r : σ), P i s → opj_for f n i s = .ok r → P (i + n) r := by
  intro n
  induction n with
  | zero =>
    intro i s r hP h
    simp only [opj_for, Except.ok.injEq] at h
    subst h
    exact hP
  | succ k ih =>
    intro i s r hP h
    rw [opj_for] at h
    cases hf : f i s with
    | error e => rw [hf] at h; simp at h
    | ok s1 =>
      rw [hf] at h
      dsimp only at h
      have := ih (i + 1) s1 r (hstep i s s1 hP hf) h
      have e : i + (k + 1) = i + 1 + k := by omega
      rw [e]; exact this

theorem pow2_pos (k : Int) : 0 < pow2 k := by
  unfold pow2
  exact_mod_cast Nat.pos_pow_of_pos _ (by decide)

theorem int_min_nonneg {a b : Int} (ha : 0 ≤ a) (hb : 0 ≤ b) : 0 ≤ int_min a b := by
  unfold int_min; split <;> assumption

theorem pi_step_comp_nonneg {comp : opj_pi_comp} (hc : 0 ≤ comp.dx ∧ 0 ≤ comp.dy)
    {d r : Int × Int} (hd : 0 ≤ d.1 ∧ 0 ≤ d.2) (h : pi_step_comp comp d = .ok r) :
    0 ≤ r.1 ∧ 0 ≤ r.2 := by
  unfold pi_step_comp at h
  refine opj_for_inv (fun _ d => 0 ≤ d.1 ∧ 0 ≤ d.2) ?_ _ _ _ _ hd h
  intro k d d1 hd hk
  unfold pi_step_res at hk
  cases hres : comp.resolutions[k]? with
  | none => rw [hres] at hk; simp at hk
  | some res =>
    rw [hres] at hk
    simp only [Except.ok.injEq] at hk
    subst hk
    have p1 := mul_nonneg hc.1 (le_of_lt (pow2_pos (res.pdx + comp.numresolutions - 1 - k)))
    have p2 := mul_nonneg hc.2 (le_of_lt (pow2_pos (res.pdy + comp.numresolutions - 1 - k)))
    constructor
    · dsimp only
      split
      · exact p1
      · exact int_min_nonneg hd.1 p1
    · dsimp only
      split
      · exact p2
      · exact int_min_nonneg hd.2 p2

theorem pi_step_nonneg {s : opj_pi_iterator}
    (hc : ∀ comp ∈ s.comps, 0 ≤ comp.dx ∧ 0 ≤ comp.dy)
    {r : Int × Int} (h : pi_step s = .ok r) : 0 ≤ r.1 ∧ 0 ≤ r.2 := by
  unfold pi_step at h
  refine opj_for_inv (fun _ d => 0 ≤ d.1 ∧ 0 ≤ d.2) ?_ _ _ _ _ ⟨le_refl _, le_refl _⟩ h
  intro k d d1 hd hk
  cases hg : s.comps[k]? with
  | none => rw [hg] at hk; simp at hk
  | some comp =>
    rw [hg] at hk
    exact pi_step_comp_nonneg (hc comp (List.getElem?_mem hg)) hd hk

theorem arr_get_mem {α : Type} {xs : List α} {i : Int} {v : α} (h : arr_get xs i = some v) :
    v ∈ xs := List.getElem?_mem (arr_get_some h).2.2

theorem opj_for_progress {σ : Type} {f : Nat → σ → Except pi_fault σ}
    (hf : ∀ k s, f k s ≠ .error .no_progress) :
    ∀ (n i : Nat) (s : σ), opj_for f n i s ≠ .error .no_progress := by
  intro n
  induction n with
  | zero => intro i s; simp [opj_for]
  | succ k ih =>
    intro i s hcon
    rw [opj_for] at hcon
    cases h : f i s with
    | error e =>
      rw [h] at hcon
      simp only [Except.error.injEq] at hcon
      subst hcon
      exact hf i s h
    | ok s1 =>
      rw [h] at hcon
      exact ih (i + 1) s1 hcon

theorem pi_step_comp_progress (comp : opj_pi_comp) (d : Int × Int) :
    pi_step_comp comp d ≠ .error .no_progress := by
  unfold pi_step_comp
  refine opj_for_progress ?_ _ _ _
  intro k s
  unfold pi_step_res
  split <;> simp

theorem pi_step_progress (s : opj_pi_iterator) : pi_step s ≠ .error .no_progress := by
  unfold pi_step
  refine opj_for_progress ?_ _ _ _
  intro k d
  split
  · simp
  · exact pi_step_comp_progress _ _

theorem incr_x_progress (t : opj_pi_iterator) : incr_x t ≠ .error .no_progress := by
  unfold incr_x; split <;> simp

theorem incr_y_progress (t : opj_pi_iterator) : incr_y t ≠ .error .no_progress := by
  unfold incr_y; split <;> simp

theorem spatial_layno_loop_progress (s : opj_pi_iterator) :
    spatial_layno_loop s ≠ .error .no_progress := by
  unfold spatial_layno_loop pi_span
  refine pi_for_progress (fun _ => True) (fun t => t.poc.layno1 - t.layno)
    (fun t _ _ => pi_visit_progress t) (fun t t1 _ _ _ => by simp [incr_layno]) ?_ ?_ _ s
    trivial (span_le _ _)
  · intro t t1 t2 _ _ hb hi
    rcases pi_visit_ok hb with ⟨h1, _⟩ | ⟨_, rfl⟩
    · simp at h1
    · simp only [incr_layno, Except.ok.injEq] at hi
      subst hi
      refine ⟨trivial, ?_⟩
      show t1.poc.layno1 - (t1.layno + 1) < t1.poc.layno1 - t1.layno
      omega
  · intro t _ hc
    have : t.layno < t.poc.layno1 := by simpa using hc
    dsimp only
    omega

theorem pi_precinct_at_progress (s : opj_pi_iterator) (comp : opj_pi_comp)
    (res : opj_pi_resolution) : pi_precinct_at s comp res ≠ .error .no_progress := by
  unfold pi_precinct_at
  dsimp only
  split
  · simp
  · split
    · simp
    · split
      · simp
      · split
        · simp
        · split
          · simp
          · split <;> simp

theorem pi_spatial_body_progress (comp : opj_pi_comp) (s : opj_pi_iterator) :
    pi_spatial_body comp s ≠ .error .no_progress := by
  unfold pi_spatial_body
  split
  · simp
  · rename_i res _
    split
    · rename_i e he
      intro hcon
      simp only [Except.error.injEq] at hcon
      subst hcon
      exact pi_precinct_at_progress _ _ _ he
    · simp
    · exact spatial_layno_loop_progress _

theorem rpcl_compno_body_progress (s : opj_pi_iterator) :
    rpcl_compno_body s ≠ .error .no_progress := by
  unfold rpcl_compno_body
  split
  · simp
  · split
    · simp
    · exact pi_spatial_body_progress _ _

theorem rpcl_compno_loop_progress (s : opj_pi_iterator) :
    rpcl_compno_loop s ≠ .error .no_progress := by
  unfold rpcl_compno_loop pi_span
  refine pi_for_progress (fun _ => True) (fun t => t.poc.compno1 - t.compno)
    (fun t _ _ => rpcl_compno_body_progress t) (fun t t1 _ _ _ => by simp [incr_compno]) ?_ ?_
    _ s trivial (span_le _ _)
  · intro t t1 t2 _ _ hb hi
    obtain ⟨hv, _, _⟩ := rpcl_compno_body_spec hb
    obtain ⟨hv1, _, hc, _, _⟩ := view_s0_s1 hv
    obtain ⟨_, _, _, _, _, hpoc⟩ := view_s1_s2 hv1
    simp only [incr_compno, Except.ok.injEq] at hi
    subst hi
    refine ⟨trivial, ?_⟩
    show t1.poc.compno1 - (t1.compno + 1) < t.poc.compno1 - t.compno
    rw [hpoc, hc]
    omega
  · intro t _ hc
    have : t.compno < t.poc.compno1 := by simpa using hc
    dsimp only
    omega

theorem rpcl_x_loop_progress (s : opj_pi_iterator) (h : 0 ≤ s.dx) :
    rpcl_x_loop s ≠ .error .no_progress := by
  unfold rpcl_x_loop pi_span
  refine pi_for_progress (fun t => 0 ≤ t.dx) (fun t => t.poc.tx1 - t.x)
    (fun t _ _ => rpcl_compno_loop_progress _) (fun t t1 _ _ _ => incr_x_progress _) ?_ ?_
    _ s h (span_le _ _)
  · intro t t1 t2 hI _ hb hi
    obtain ⟨hv, _, hx, _, _, _, _⟩ := rpcl_compno_loop_spec hb
    obtain ⟨_, _, _, hdx, _, hpoc⟩ := view_s1_s2 hv
    obtain ⟨jv, _, _, _, _, _, jx⟩ := incr_x_ok hi
    obtain ⟨_, _, _, jdx, _, jpoc⟩ := view_s1_s2 jv
    have e1 : t1.dx = t.dx := hdx
    have e2 : t1.x = t.x := hx
    have e3 : t1.poc = t.poc := hpoc
    have k := jx (by rw [e1]; exact hI)
    refine ⟨by show 0 ≤ t2.dx; rw [jdx, e1]; exact hI, ?_⟩
    show t2.poc.tx1 - t2.x < t.poc.tx1 - t.x
    rw [jpoc, e3]
    omega
  · intro t _ hc
    have : t.x < t.poc.tx1 := by simpa using hc
    dsimp only
    omega

theorem rpcl_y_loop_progress (s : opj_pi_iterator) (h : 0 ≤ s.dx ∧ 0 ≤ s.dy) :
    rpcl_y_loop s ≠ .error .no_progress := by
  unfold rpcl_y_loop pi_span
  refine pi_for_progress (fun t => 0 ≤ t.dx ∧ 0 ≤ t.dy) (fun t => t.poc.ty1 - t.y)
    (fun t hI _ => rpcl_x_loop_progress { t with x := t.poc.tx0 } hI.1) (fun t t1 _ _ _ => incr_y_progress _) ?_ ?_
    _ s h (span_le _ _)
  · intro t t1 t2 hI _ hb hi
    obtain ⟨hv, _, hy, _, _, _⟩ := rpcl_x_loop_spec hb
    obtain ⟨_, _, _, hdx, hdy, hpoc⟩ := view_s1_s2 hv
    obtain ⟨jv, _, _, _, _, _, jy⟩ := incr_y_ok hi
    obtain ⟨_, _, _, jdx, jdy, jpoc⟩ := view_s1_s2 jv
    have e0 : t1.dx = t.dx := hdx
    have e1 : t1.dy = t.dy := hdy
    have e2 : t1.y = t.y := hy
    have e3 : t1.poc = t.poc := hpoc
    have k := jy (by rw [e1]; exact hI.2)
    refine ⟨⟨by show 0 ≤ t2.dx; rw [jdx, e0]; exact hI.1,
      by show 0 ≤ t2.dy; rw [jdy, e1]; exact hI.2⟩, ?_⟩
    show t2.poc.ty1 - t2.y < t.poc.ty1 - t.y
    rw [jpoc, e3]
    omega
  · intro t _ hc
    have : t.y < t.poc.ty1 := by simpa using hc
    dsimp only
    omega

theorem rpcl_resno_loop_progress (s : opj_pi_iterator) (h : 0 ≤ s.dx ∧ 0 ≤ s.dy) :
    rpcl_resno_loop s ≠ .error .no_progress := by
  unfold rpcl_resno_loop pi_span
  refine pi_for_progress (fun t => 0 ≤ t.dx ∧ 0 ≤ t.dy) (fun t => t.poc.resno1 - t.resno)
    (fun t hI _ => rpcl_y_loop_progress { t with y := t.poc.ty0 } hI) (fun t t1 _ _ _ => by simp [incr_resno]) ?_ ?_
    _ s h (span_le _ _)
  · intro t t1 t2 hI _ hb hi
    obtain ⟨hv, hr, _, _, _⟩ := rpcl_y_loop_spec hb
    obtain ⟨_, _, _, hdx, hdy, hpoc⟩ := view_s1_s2 hv
    simp only [incr_resno, Except.ok.injEq] at hi
    subst hi
    have e0 : t1.dx = t.dx := hdx
    have e1 : t1.dy = t.dy := hdy
    have e2 : t1.resno = t.resno := hr
    have e3 : t1.poc = t.poc := hpoc
    refine ⟨⟨by show 0 ≤ t1.dx; rw [e0]; exact hI.1, by show 0 ≤ t1.dy; rw [e1]; exact hI.2⟩, ?_⟩
    show t1.poc.resno1 - (t1.resno + 1) < t.poc.resno1 - t.resno
    rw [e3, e2]
    omega
  · intro t _ hc
    have : t.resno < t.poc.resno1 := by simpa using hc
    dsimp only
    omega

theorem pi_next_rpcl_progress (s : opj_pi_iterator)
    (hc : ∀ comp ∈ s.comps, 0 ≤ comp.dx ∧ 0 ≤ comp.dy)
    (hd : s.first = false → 0 ≤ s.dx ∧ 0 ≤ s.dy) :
    pi_next_rpcl s ≠ .error .no_progress := by
  unfold pi_next_rpcl
  by_cases hfst : s.first = true
  · simp only [hfst, Bool.not_true, Bool.false_eq_true, if_false]
    cases hst : pi_step s with
    | error e =>
      dsimp only
      intro hcon
      simp only [Except.error.injEq] at hcon
      subst hcon
      exact pi_step_progress s hst
    | ok d =>
      dsimp only
      obtain ⟨_, _, _, w4, w5, _, _⟩ :=
        pi_window_spec { s with first := false, dx := d.1, dy := d.2 }
      have hn := pi_step_nonneg hc hst
      refine rpcl_resno_loop_progress _ ⟨?_, ?_⟩
      · show 0 ≤ (pi_window { s with first := false, dx := d.1, dy := d.2 }).dx
        rw [w4]; exact hn.1
      · show 0 ≤ (pi_window { s with first := false, dx := d.1, dy := d.2 }).dy
        rw [w5]; exact hn.2
  · have hfst0 : s.first = false := by simpa using hfst
    simp only [hfst0, Bool.not_false, if_true]
    obtain ⟨hdx, hdy⟩ := hd hfst0
    refine pi_then_progress (pi_then_progress (pi_then_progress (pi_then_progress
      (pi_then_progress (by simp) ?_ ?_) ?_ ?_) ?_ ?_) ?_ ?_) ?_ ?_
    · intro s1 _; simp [incr_layno]
    · intro s1 s2 _ _; exact spatial_layno_loop_progress _
    · intro s1 _; simp [incr_compno]
    · intro s1 s2 _ _; exact rpcl_compno_loop_progress _
    · intro s1 _; exact incr_x_progress _
    · intro s1 s2 h1 h2
      obtain ⟨hv, _⟩ := rpcl_skip_compno h1
      obtain ⟨jv, _⟩ := incr_x_ok h2
      obtain ⟨_, _, _, e1, _, _⟩ := view_s1_s2 (jv.trans hv)
      exact rpcl_x_loop_progress _ (by rw [e1]; exact hdx)
    · intro s1 _; exact incr_y_progress _
    · intro s1 s2 h1 h2
      obtain ⟨hv, _⟩ := rpcl_skip_x h1
      obtain ⟨jv, _⟩ := incr_y_ok h2
      obtain ⟨_, _, _, e1, e2, _⟩ := view_s1_s2 (jv.trans hv)
      exact rpcl_y_loop_progress _ ⟨by rw [e1]; exact hdx, by rw [e2]; exact hdy⟩
    · intro s1 _; simp [incr_resno]
    · intro s1 s2 h1 h2
      obtain ⟨hv, _⟩ := rpcl_skip_y h1
      simp only [incr_resno, Except.ok.injEq] at h2
      subst h2
      obtain ⟨_, _, _, e1, e2, _⟩ := view_s1_s2 hv
      have e1' : s1.dx = s.dx := e1
      have e2' : s1.dy = s.dy := e2
      exact rpcl_resno_loop_progress _ ⟨by show 0 ≤ s1.dx; rw [e1']; exact hdx,
        by show 0 ≤ s1.dy; rw [e2']; exact hdy⟩

theorem pcrl_resno_loop_progress (comp : opj_pi_comp) (s : opj_pi_iterator) :
    pcrl_resno_loop comp s ≠ .error .no_progress := by
  unfold pcrl_resno_loop pi_span
  refine pi_for_progress (fun _ => True)
    (fun t => int_min t.poc.resno1 comp.numresolutions - t.resno)
    (fun t _ _ => pi_spatial_body_progress comp t) (fun t t1 _ _ _ => by simp [incr_resno]) ?_ ?_
    _ s trivial (span_le _ _)
  · intro t t1 t2 _ _ hb hi
    obtain ⟨hv, _, _⟩ := pi_spatial_body_spec hb
    obtain ⟨hv1, hr, _, _, _⟩ := view_s0_s1 hv
    obtain ⟨_, _, _, _, _, hpoc⟩ := view_s1_s2 hv1
    simp only [incr_resno, Except.ok.injEq] at hi
    subst hi
    refine ⟨trivial, ?_⟩
    show int_min t1.poc.resno1 comp.numresolutions - (t1.resno + 1)
      < int_min t.poc.resno1 comp.numresolutions - t.resno
    rw [hpoc, hr]
    omega
  · intro t _ hc
    have : t.resno < int_min t.poc.resno1 comp.numresolutions := by simpa using hc
    dsimp only
    omega

theorem pcrl_resno_resume_progress (s : opj_pi_iterator) :
    pcrl_resno_resume s ≠ .error .no_progress := by
  unfold pcrl_resno_resume
  split
  · simp
  · exact pcrl_resno_loop_progress _ _

theorem pcrl_compno_body_progress (s : opj_pi_iterator) :
    pcrl_compno_body s ≠ .error .no_progress := by
  unfold pcrl_compno_body
  split
  · simp
  · exact pcrl_resno_loop_progress _ _

theorem pcrl_compno_loop_progress (s : opj_pi_iterator) :
    pcrl_compno_loop s ≠ .error .no_progress := by
  unfold pcrl_compno_loop pi_span
  refine pi_for_progress (fun _ => True) (fun t => t.poc.compno1 - t.compno)
    (fun t _ _ => pcrl_compno_body_progress t) (fun t t1 _ _ _ => by simp [incr_compno]) ?_ ?_
    _ s trivial (span_le _ _)
  · intro t t1 t2 _ _ hb hi
    obtain ⟨hv, hc, _, _, _, _⟩ := pcrl_compno_body_spec hb
    obtain ⟨_, _, _, _, _, hpoc⟩ := view_s1_s2 hv
    simp only [incr_compno, Except.ok.injEq] at hi
    subst hi
    refine ⟨trivial, ?_⟩
    show t1.poc.compno1 - (t1.compno + 1) < t.poc.compno1 - t.compno
    rw [hpoc, hc]
    omega
  · intro t _ hc
    have : t.compno < t.poc.compno1 := by simpa using hc
    dsimp only
    omega

theorem pcrl_x_loop_progress (s : opj_pi_iterator) (h : 0 ≤ s.dx) :
    pcrl_x_loop s ≠ .error .no_progress := by
  unfold pcrl_x_loop pi_span
  refine pi_for_progress (fun t => 0 ≤ t.dx) (fun t => t.poc.tx1 - t.x)
    (fun t _ _ => pcrl_compno_loop_progress _) (fun t t1 _ _ _ => incr_x_progress _) ?_ ?_
    _ s h (span_le _ _)
  · intro t t1 t2 hI _ hb hi
    obtain ⟨hv, hx, _, _, _, _⟩ := pcrl_compno_loop_spec hb
    obtain ⟨_, _, _, hdx, _, hpoc⟩ := view_s1_s2 hv
    obtain ⟨jv, _, _, _, _, _, jx⟩ := incr_x_ok hi
    obtain ⟨_, _, _, jdx, _, jpoc⟩ := view_s1_s2 jv
    have e1 : t1.dx = t.dx := hdx
    have e2 : t1.x = t.x := hx
    have e3 : t1.poc = t.poc := hpoc
    have k := jx (by rw [e1]; exact hI)
    refine ⟨by show 0 ≤ t2.dx; rw [jdx, e1]; exact hI, ?_⟩
    show t2.poc.tx1 - t2.x < t.poc.tx1 - t.x
    rw [jpoc, e3]
    omega
  · intro t _ hc
    have : t.x < t.poc.tx1 := by simpa using hc
    dsimp only
    omega

theorem pcrl_y_loop_progress (s : opj_pi_iterator) (h : 0 ≤ s.dx ∧ 0 ≤ s.dy) :
    pcrl_y_loop s ≠ .error .no_progress := by
  unfold pcrl_y_loop pi_span
  refine pi_for_progress (fun t => 0 ≤ t.dx ∧ 0 ≤ t.dy) (fun t => t.poc.ty1 - t.y)
    (fun t hI _ => pcrl_x_loop_progress { t with x := t.poc.tx0 } hI.1)
    (fun t t1 _ _ _ => incr_y_progress _) ?_ ?_
    _ s h (span_le _ _)
  · intro t t1 t2 hI _ hb hi
    obtain ⟨hv, hy, _, _, _⟩ := pcrl_x_loop_spec hb
    obtain ⟨_, _, _, hdx, hdy, hpoc⟩ := view_s1_s2 hv
    obtain ⟨jv, _, _, _, _, _, jy⟩ := incr_y_ok hi
    obtain ⟨_, _, _, jdx, jdy, jpoc⟩ := view_s1_s2 jv
    have e0 : t1.dx = t.dx := hdx
    have e1 : t1.dy = t.dy := hdy
    have e2 : t1.y = t.y := hy
    have e3 : t1.poc = t.poc := hpoc
    have k := jy (by rw [e1]; exact hI.2)
    refine ⟨⟨by show 0 ≤ t2.dx; rw [jdx, e0]; exact hI.1,
      by show 0 ≤ t2.dy; rw [jdy, e1]; exact hI.2⟩, ?_⟩
    show t2.poc.ty1 - t2.y < t.poc.ty1 - t.y
    rw [jpoc, e3]
    omega
  · intro t _ hc
    have : t.y < t.poc.ty1 := by simpa using hc
    dsimp only
    omega

theorem pi_next_pcrl_progress (s : opj_pi_iterator)
    (hc : ∀ comp ∈ s.comps, 0 ≤ comp.dx ∧ 0 ≤ comp.dy)
    (hd : s.first = false → 0 ≤ s.dx ∧ 0 ≤ s.dy) :
    pi_next_pcrl s ≠ .error .no_progress := by
  unfold pi_next_pcrl
  by_cases hfst : s.first = true
  · simp only [hfst, Bool.not_true, Bool.false_eq_true, if_false]
    cases hst : pi_step s with
    | error e =>
      dsimp only
      intro hcon
      simp only [Except.error.injEq] at hcon
      subst hcon
      exact pi_step_progress s hst
    | ok d =>
      dsimp only
      obtain ⟨_, _, _, w4, w5, _, _⟩ :=
        pi_window_spec { s with first := false, dx := d.1, dy := d.2 }
      have hn := pi_step_nonneg hc hst
      refine pcrl_y_loop_progress _ ⟨?_, ?_⟩
      · show 0 ≤ (pi_window { s with first := false, dx := d.1, dy := d.2 }).dx
        rw [w4]; exact hn.1
      · show 0 ≤ (pi_window { s with first := false, dx := d.1, dy := d.2 }).dy
        rw [w5]; exact hn.2
  · have hfst0 : s.first = false := by simpa using hfst
    simp only [hfst0, Bool.not_false, if_true]
    obtain ⟨hdx, hdy⟩ := hd hfst0
    refine pi_then_progress (pi_then_progress (pi_then_progress (pi_then_progress
      (pi_then_progress (by simp) ?_ ?_) ?_ ?_) ?_ ?_) ?_ ?_) ?_ ?_
    · intro s1 _; simp [incr_layno]
    · intro s1 s2 _ _; exact spatial_layno_loop_progress _
    · intro s1 _; simp [incr_resno]
    · intro s1 s2 _ _; exact pcrl_resno_resume_progress _
    · intro s1 _; simp [incr_compno]
    · intro s1 s2 _ _; exact pcrl_compno_loop_progress _
    · intro s1 _; exact incr_x_progress _
    · intro s1 s2 h1 h2
      obtain ⟨hv, _⟩ := pcrl_skip_compno h1
      obtain ⟨jv, _⟩ := incr_x_ok h2
      obtain ⟨_, _, _, e1, _, _⟩ := view_s1_s2 (jv.trans hv)
      exact pcrl_x_loop_progress _ (by rw [e1]; exact hdx)
    · intro s1 _; exact incr_y_progress _
    · intro s1 s2 h1 h2
      obtain ⟨hv, _⟩ := pcrl_skip_x h1
      obtain ⟨jv, _⟩ := incr_y_ok h2
      obtain ⟨_, _, _, e1, e2, _⟩ := view_s1_s2 (jv.trans hv)
      exact pcrl_y_loop_progress _ ⟨by rw [e1]; exact hdx, by rw [e2]; exact hdy⟩

theorem cprl_x_loop_progress (comp : opj_pi_comp) (s : opj_pi_iterator) (h : 0 ≤ s.dx) :
    cprl_x_loop comp s ≠ .error .no_progress := by
  unfold cprl_x_loop pi_span
  refine pi_for_progress (fun t => 0 ≤ t.dx) (fun t => t.poc.tx1 - t.x)
    (fun t _ _ => pcrl_resno_loop_progress _ _) (fun t t1 _ _ _ => incr_x_progress _) ?_ ?_
    _ s h (span_le _ _)
  · intro t t1 t2 hI _ hb hi
    obtain ⟨hv, _, hx, _, _, _, _⟩ := pcrl_resno_loop_spec hb
    obtain ⟨_, _, _, hdx, _, hpoc⟩ := view_s1_s2 hv
    obtain ⟨jv, _, _, _, _, _, jx⟩ := incr_x_ok hi
    obtain ⟨_, _, _, jdx, _, jpoc⟩ := view_s1_s2 jv
    have e1 : t1.dx = t.dx := hdx
    have e2 : t1.x = t.x := hx
    have e3 : t1.poc = t.poc := hpoc
    have k := jx (by rw [e1]; exact hI)
    refine ⟨by show 0 ≤ t2.dx; rw [jdx, e1]; exact hI, ?_⟩
    show t2.poc.tx1 - t2.x < t.poc.tx1 - t.x
    rw [jpoc, e3]
    omega
  · intro t _ hc
    have : t.x < t.poc.tx1 := by simpa using hc
    dsimp only
    omega

theorem cprl_x_loop_frame {comp : opj_pi_comp} {s t : opj_pi_iterator} {b : Bool}
    (h : cprl_x_loop comp s = .ok (b, t)) : view_s1 t = view_s1 s ∧ t.y = s.y := by
  have key := pi_for_rule
    (fun u => view_s1 u = view_s1 s ∧ u.y = s.y) (fun u => view_s1 u = view_s1 s ∧ u.y = s.y)
    (by
      intro u u1 u2 hI _ hb2 hi2
      obtain ⟨gv, _, _, gy, _, _, _⟩ := pcrl_resno_loop_spec hb2
      obtain ⟨kv, _, _, ky, _⟩ := incr_x_ok hi2
      exact ⟨(kv.trans gv).trans hI.1, (ky.trans gy).trans hI.2⟩)
    (by
      intro u u1 hI _ hb2
      obtain ⟨gv, _, _, gy, _, _, _⟩ := pcrl_resno_loop_spec hb2
      exact ⟨gv.trans hI.1, gy.trans hI.2⟩)
    _ s t b ⟨rfl, rfl⟩ h
  cases b
  · exact (key.2 rfl).1
  · exact key.1 rfl

theorem cprl_y_loop_progress (comp : opj_pi_comp) (s : opj_pi_iterator)
    (h : 0 ≤ s.dx ∧ 0 ≤ s.dy) :
    cprl_y_loop comp s ≠ .error .no_progress := by
  unfold cprl_y_loop pi_span
  refine pi_for_progress (fun t => 0 ≤ t.dx ∧ 0 ≤ t.dy) (fun t => t.poc.ty1 - t.y)
    (fun t hI _ => cprl_x_loop_progress comp { t with x := t.poc.tx0 } hI.1)
    (fun t t1 _ _ _ => incr_y_progress _) ?_ ?_
    _ s h (span_le _ _)
  · intro t t1 t2 hI _ hb hi
    obtain ⟨hv1, hy⟩ := cprl_x_loop_frame hb
    obtain ⟨_, _, _, hdx, hdy, hpoc⟩ := view_s1_s2 hv1
    obtain ⟨jv, _, _, _, _, _, jy⟩ := incr_y_ok hi
    obtain ⟨_, _, _, jdx, jdy, jpoc⟩ := view_s1_s2 jv
    have e0 : t1.dx = t.dx := hdx
    have e1 : t1.dy = t.dy := hdy
    have e2 : t1.y = t.y := hy
    have e3 : t1.poc = t.poc := hpoc
    have k := jy (by rw [e1]; exact hI.2)
    refine ⟨⟨by show 0 ≤ t2.dx; rw [jdx, e0]; exact hI.1,
      by show 0 ≤ t2.dy; rw [jdy, e1]; exact hI.2⟩, ?_⟩
    show t2.poc.ty1 - t2.y < t.poc.ty1 - t.y
    rw [jpoc, e3]
    omega
  · intro t _ hc
    have : t.y < t.poc.ty1 := by simpa using hc
    dsimp only
    omega

theorem cprl_y_loop_frame {comp : opj_pi_comp} {s t : opj_pi_iterator} {b : Bool}
    (h : cprl_y_loop comp s = .ok (b, t)) : view_s1 t = view_s1 s := by
  have key := pi_for_rule
    (fun u => view_s1 u = view_s1 s) (fun u => view_s1 u = view_s1 s)
    (by
      intro u u1 u2 hI _ hb2 hi2
      obtain ⟨gv, _⟩ := cprl_x_loop_frame hb2
      obtain ⟨kv, _⟩ := incr_y_ok hi2
      exact (kv.trans gv).trans hI)
    (by
      intro u u1 hI _ hb2
      obtain ⟨gv, _⟩ := cprl_x_loop_frame hb2
      exact gv.trans hI)
    _ s t b rfl h
  cases b
  · exact (key.2 rfl).1
  · exact key.1 rfl

theorem cprl_compno_body_progress (s : opj_pi_iterator)
    (hc : ∀ comp ∈ s.comps, 0 ≤ comp.dx ∧ 0 ≤ comp.dy) :
    cprl_compno_body s ≠ .error .no_progress := by
  unfold cprl_compno_body
  cases hg : arr_get s.comps s.compno with
  | none => simp
  | some comp =>
    dsimp only
    cases hst : pi_step_comp comp (0, 0) with
    | error e =>
      dsimp only
      intro hcon
      simp only [Except.error.injEq] at hcon
      subst hcon
      exact pi_step_comp_progress _ _ hst
    | ok d =>
      dsimp only
      obtain ⟨_, _, _, w4, w5, _, _⟩ := pi_window_spec { s with dx := d.1, dy := d.2 }
      have hn := pi_step_comp_nonneg (hc comp (arr_get_mem hg)) ⟨le_refl _, le_refl _⟩ hst
      refine cprl_y_loop_progress _ _ ⟨?_, ?_⟩
      · show 0 ≤ (pi_window { s with dx := d.1, dy := d.2 }).dx
        rw [w4]; exact hn.1
      · show 0 ≤ (pi_window { s with dx := d.1, dy := d.2 }).dy
        rw [w5]; exact hn.2

theorem cprl_compno_loop_progress (s : opj_pi_iterator)
    (hc : ∀ comp ∈ s.comps, 0 ≤ comp.dx ∧ 0 ≤ comp.dy) :
    cprl_compno_loop s ≠ .error .no_progress := by
  unfold cprl_compno_loop pi_span
  refine pi_for_progress (fun t => t.comps = s.comps) (fun t => t.poc.compno1 - t.compno)
    (fun t hI _ => cprl_compno_body_progress t (by rw [hI]; exact hc))
    (fun t t1 _ _ _ => by simp [incr_compno]) ?_ ?_
    _ s rfl (span_le _ _)
  · intro t t1 t2 hI _ hb hi
    obtain ⟨hv, _, hcn, _, _⟩ := cprl_compno_body_spec hb
    have hf := pi_core_frame (view_s2_core hv)
    simp only [incr_compno, Except.ok.injEq] at hi
    subst hi
    refine ⟨?_, ?_⟩
    · show t1.comps = s.comps
      rw [hf.comps]; exact hI
    · show t1.poc.compno1 - (t1.compno + 1) < t.poc.compno1 - t.compno
      rw [hf.compno1, hcn]
      omega
  · intro t _ hc
    have : t.compno < t.poc.compno1 := by simpa using hc
    dsimp only
    omega

theorem cprl_resume_progress (u : opj_pi_iterator) (h : 0 ≤ u.dx ∧ 0 ≤ u.dy) :
    cprl_resume u ≠ .error .no_progress := by
  unfold cprl_resume
  cases hg : arr_get u.comps u.compno with
  | none => simp
  | some comp =>
    dsimp only
    refine pi_then_progress (pi_then_progress (pcrl_resno_loop_progress _ _) ?_ ?_) ?_ ?_
    · intro s1 _; exact incr_x_progress _
    · intro s1 s2 h1 h2
      obtain ⟨hv, _⟩ := pcrl_resno_loop_spec h1
      obtain ⟨jv, _⟩ := incr_x_ok h2
      obtain ⟨_, _, _, e1, _, _⟩ := view_s1_s2 (jv.trans hv)
      exact cprl_x_loop_progress _ _ (by rw [e1]; exact h.1)
    · intro s1 _; exact incr_y_progress _
    · intro s1 s2 h1 h2
      obtain ⟨hv, _⟩ := cprl_resume_x hg h1
      obtain ⟨jv, _⟩ := incr_y_ok h2
      obtain ⟨_, _, _, e1, e2, _⟩ := view_s1_s2 (jv.trans hv)
      exact cprl_y_loop_progress _ _ ⟨by rw [e1]; exact h.1, by rw [e2]; exact h.2⟩

theorem pi_next_cprl_progress (s : opj_pi_iterator)
    (hc : ∀ comp ∈ s.comps, 0 ≤ comp.dx ∧ 0 ≤ comp.dy)
    (hd : s.first = false → 0 ≤ s.dx ∧ 0 ≤ s.dy) :
    pi_next_cprl s ≠ .error .no_progress := by
  unfold pi_next_cprl
  by_cases hfst : s.first = true
  · simp only [hfst, Bool.not_true, Bool.false_eq_true, if_false]
    exact cprl_compno_loop_progress _ hc
  · have hfst0 : s.first = false := by simpa using hfst
    simp only [hfst0, Bool.not_false, if_true]
    obtain ⟨hdx, hdy⟩ := hd hfst0
    refine pi_then_progress (pi_then_progress (pi_then_progress (by simp) ?_ ?_) ?_ ?_) ?_ ?_
    · intro s1 _; simp [incr_layno]
    · intro s1 s2 _ _; exact spatial_layno_loop_progress _
    · intro s1 _; simp [incr_resno]
    · intro s1 s2 h1 h2
      obtain ⟨hv, _⟩ := spatial_skip_layno h1
      obtain ⟨hv1, _⟩ := view_s0_s1 (view_sl_s0 hv).1
      obtain ⟨_, _, _, e1, e2, _⟩ := view_s1_s2 hv1
      simp only [incr_resno, Except.ok.injEq] at h2
      subst h2
      have e1' : s1.dx = s.dx := e1
      have e2' : s1.dy = s.dy := e2
      exact cprl_resume_progress _ ⟨by show 0 ≤ s1.dx; rw [e1']; exact hdx,
        by show 0 ≤ s1.dy; rw [e2']; exact hdy⟩
    · intro s1 _; simp [incr_compno]
    · intro s1 s2 h1 h2
      obtain ⟨hv, _⟩ := cprl_skip_resno h1
      obtain ⟨_, hf, _⟩ := view_s1_s2 hv
      simp only [incr_compno, Except.ok.injEq] at h2
      subst h2
      refine cprl_compno_loop_progress _ ?_
      show ∀ comp ∈ s1.comps, 0 ≤ comp.dx ∧ 0 ≤ comp.dy
      rw [hf.comps]; exact hc

/-- C13. Termination: when no component has a negative subsampling step and, once the
walk has started, the spatial step of the iterator is not negative (in particular
when every step is positive), and when under RPCL, PCRL and CPRL the positions and
steps of the walk stay in the range of a C `int` (`walk_fits`), every loop of `pi_next`
reaches its exit under each of the five progressions: the call never ends in
`no_progress`, the outcome of a loop whose cursor stops advancing. -/
theorem pi_next_terminates (s : opj_pi_iterator)
    (hc : ∀ comp ∈ s.comps, 0 ≤ comp.dx ∧ 0 ≤ comp.dy)
    (hd : s.first = false → 0 ≤ s.dx ∧ 0 ≤ s.dy)
    (_hfit : s.poc.prg = .RPCL ∨ s.poc.prg = .PCRL ∨ s.poc.prg = .CPRL → walk_fits s) :
    pi_next s ≠ .error .no_progress := by
  unfold pi_next
  split
  · exact pi_next_lrcp_progress s
  · exact pi_next_rlcp_progress s
  · exact pi_next_rpcl_progress s hc hd
  · exact pi_next_pcrl_progress s hc hd
  · exact pi_next_cprl_progress s hc hd
  · simp

/-- Witness of `pi_next_terminates`: the example iterator under RPCL. -/
theorem pi_next_terminates_witness :
    (∀ comp ∈ (ex_slot .RPCL).comps, 0 ≤ comp.dx ∧ 0 ≤ comp.dy) ∧ walk_fits (ex_slot .RPCL) ∧
    pi_next (ex_slot .RPCL) ≠ .error .no_progress :=
  ⟨by decide, by unfold walk_fits; decide,
    pi_next_terminates (ex_slot .RPCL) (by decide) (by decide)
      (fun _ => by unfold walk_fits; decide)⟩

/-! ## The geometry builder -/

theorem getElem?_snoc {α : Type} (l : List α) (a : α) (k : Nat) :
    (l ++ [a])[k]? = if k < l.length then l[k]? else if k = l.length then some a else none := by
  by_cases h : k < l.length
  · rw [if_pos h, List.getElem?_append_left h]
  · rw [if_neg h]
    by_cases h2 : k = l.length
    · rw [if_pos h2, h2]; simp
    · rw [if_neg h2]
      apply List.getElem?_eq_none
      simp
      omega

theorem enc_res_loop_table {ic : opj_image_comp} {tccp : opj_tccp} {tcx0 tcy0 tcx1 tcy1 : Int}
    {a1 a2 : opj_enc_params} {row : List opj_pi_resolution} {n : Nat}
    (h : opj_for (enc_res_iter ic tccp tcx0 tcy0 tcx1 tcy1) n 0 (a1, []) = .ok (a2, row)) :
    a2.p_tx0 = a1.p_tx0 ∧ a2.p_tx1 = a1.p_tx1 ∧ a2.p_ty0 = a1.p_ty0 ∧ a2.p_ty1 = a1.p_ty1 ∧
    a2.p_max_res = a1.p_max_res ∧ a2.p_resolutions = a1.p_resolutions ∧ row.length = n ∧
    ∀ r : Nat, r < n → ∃ pdx pdy, tccp.prcw[r]? = some pdx ∧ tccp.prch[r]? = some pdy ∧
      row[r]? = some (enc_resolution tcx0 tcy0 tcx1 tcy1 (tccp.numresolutions - 1 - r) pdx pdy) := by
  have key := opj_for_inv
    (fun k (p : opj_enc_params × List opj_pi_resolution) =>
      p.1.p_tx0 = a1.p_tx0 ∧ p.1.p_tx1 = a1.p_tx1 ∧ p.1.p_ty0 = a1.p_ty0 ∧
      p.1.p_ty1 = a1.p_ty1 ∧ p.1.p_max_res = a1.p_max_res ∧
      p.1.p_resolutions = a1.p_resolutions ∧ p.2.length = k ∧
      ∀ r : Nat, r < k → ∃ pdx pdy, tccp.prcw[r]? = some pdx ∧ tccp.prch[r]? = some pdy ∧
        p.2[r]? = some (enc_resolution tcx0 tcy0 tcx1 tcy1 (tccp.numresolutions - 1 - r) pdx pdy))
    (by
      intro k p p1 hP hk
      obtain ⟨q1, q2, q3, q4, q5, q6, q7, q8⟩ := hP
      unfold enc_res_iter at hk
      cases hw : tccp.prcw[k]? with
      | none => rw [hw] at hk; simp at hk
      | some pdx =>
        cases hh : tccp.prch[k]? with
        | none => rw [hw, hh] at hk; simp at hk
        | some pdy =>
          rw [hw, hh] at hk
          simp only [Except.ok.injEq] at hk
          subst hk
          refine ⟨q1, q2, q3, q4, q5, q6, by simp [q7], ?_⟩
          intro r hr
          by_cases hlt : r < k
          · obtain ⟨x, y, e1, e2, e3⟩ := q8 r hlt
            refine ⟨x, y, e1, e2, ?_⟩
            show (p.2 ++ [_])[r]? = _
            rw [getElem?_snoc, if_pos (by omega), e3]
          · have hrk : r = k := by omega
            subst hrk
            refine ⟨pdx, pdy, hw, hh, ?_⟩
            show (p.2 ++ [_])[r]? = _
            rw [getElem?_snoc, if_neg (by omega), if_pos q7.symm])
    n 0 (a1, []) (a2, row) ⟨rfl, rfl, rfl, rfl, rfl, rfl, rfl, fun r hr => by omega⟩ h
  simpa using key

theorem enc_comp_loop_table {image : opj_image} {tcp : opj_tcp} {a0 e : opj_enc_params}
    {n : Nat} (h0 : a0.p_resolutions = [])
    (h : opj_for (enc_comp_iter image tcp) n 0 a0 = .ok e) :
    e.p_tx0 = a0.p_tx0 ∧ e.p_tx1 = a0.p_tx1 ∧ e.p_ty0 = a0.p_ty0 ∧ e.p_ty1 = a0.p_ty1 ∧
    e.p_resolutions.length = n ∧
    ∀ c : Nat, c < n → ∃ ic tccp row, image.comps[c]? = some ic ∧ tcp.tccps[c]? = some tccp ∧
      ic.dx ≠ 0 ∧ ic.dy ≠ 0 ∧ e.p_resolutions[c]? = some row ∧
      enc_row_ok a0.p_tx0 a0.p_tx1 a0.p_ty0 a0.p_ty1 ic tccp row := by
  have key := opj_for_inv
    (fun k (a : opj_enc_params) =>
      a.p_tx0 = a0.p_tx0 ∧ a.p_tx1 = a0.p_tx1 ∧ a.p_ty0 = a0.p_ty0 ∧ a.p_ty1 = a0.p_ty1 ∧
      a.p_resolutions.length = k ∧
      ∀ c : Nat, c < k → ∃ ic tccp row, image.comps[c]? = some ic ∧
        tcp.tccps[c]? = some tccp ∧ ic.dx ≠ 0 ∧ ic.dy ≠ 0 ∧ a.p_resolutions[c]? = some row ∧
        enc_row_ok a0.p_tx0 a0.p_tx1 a0.p_ty0 a0.p_ty1 ic tccp row)
    (by
      intro k a a' hP hk
      obtain ⟨q1, q2, q3, q4, q5, q6⟩ := hP
      unfold enc_comp_iter at hk
      cases hi : image.comps[k]? with
      | none => rw [hi] at hk; simp at hk
      | some ic =>
        cases ht : tcp.tccps[k]? with
        | none => rw [hi, ht] at hk; simp at hk
        | some tccp =>
          rw [hi, ht] at hk
          dsimp only at hk
          by_cases hz : ic.dx = 0 ∨ ic.dy = 0
          · rw [if_pos hz] at hk; simp at hk
          · rw [if_neg hz] at hk
            push_neg at hz
            split at hk
            · simp at hk
            · rename_i a2 row hloop
              simp only [Except.ok.injEq] at hk
              subst hk
              obtain ⟨r1, r2, r3, r4, _, r6, r7, r8⟩ := enc_res_loop_table hloop
              have s1 : (if tccp.numresolutions > a.p_max_res
                  then { a with p_max_res := tccp.numresolutions } else a).p_tx0 = a.p_tx0 := by
                split <;> rfl
              have s2 : (if tccp.numresolutions > a.p_max_res
                  then { a with p_max_res := tccp.numresolutions } else a).p_tx1 = a.p_tx1 := by
                split <;> rfl
              have s3 : (if tccp.numresolutions > a.p_max_res
                  then { a with p_max_res := tccp.numresolutions } else a).p_ty0 = a.p_ty0 := by
                split <;> rfl
              have s4 : (if tccp.numresolutions > a.p_max_res
                  then { a with p_max_res := tccp.numresolutions } else a).p_ty1 = a.p_ty1 := by
                split <;> rfl
              have s6 : (if tccp.numresolutions > a.p_max_res
                  then { a with p_max_res := tccp.numresolutions } else a).p_resolutions
                    = a.p_resolutions := by
                split <;> rfl
              refine ⟨(r1.trans s1).trans q1, (r2.trans s2).trans q2, (r3.trans s3).trans q3,
                (r4.trans s4).trans q4, ?_, ?_⟩
              · show (a2.p_resolutions ++ [row]).length = k + 1
                rw [r6, s6]; simp [q5]
              · intro c hc
                by_cases hlt : c < k
                · obtain ⟨ic', tccp', row', e1, e2, e3, e4, e5, e6⟩ := q6 c hlt
                  refine ⟨ic', tccp', row', e1, e2, e3, e4, ?_, e6⟩
                  show (a2.p_resolutions ++ [row])[c]? = _
                  rw [r6, s6, getElem?_snoc, if_pos (by omega), e5]
                · have hck : c = k := by omega
                  subst hck
                  refine ⟨ic, tccp, row, hi, ht, hz.1, hz.2, ?_, r7, ?_⟩
                  · show (a2.p_resolutions ++ [row])[c]? = _
                    rw [r6, s6, getElem?_snoc, if_neg (by omega), if_pos q5.symm]
                  · intro r hr
                    obtain ⟨x, y, e1, e2, e3⟩ := r8 r hr
                    refine ⟨x, y, e1, e2, ?_⟩
                    rw [e3, q1, q2, q3, q4])
    n 0 a0 e ⟨rfl, rfl, rfl, rfl, by simp [h0], fun c hc => by omega⟩ h
  simpa using key

theorem int_max_eq (a b : Int) : int_max a b = max a b := by
  unfold int_max
  split
  · rw [max_eq_left]; omega
  · rw [max_eq_right]; omega

theorem int_min_eq (a b : Int) : int_min a b = min a b := by
  unfold int_min
  split
  · rw [min_eq_left]; omega
  · rw [min_eq_right]; omega

/-- The table of `get_all_encoding_parameters`: the tile extents and, for every
component, the row of its resolution records. -/
theorem get_all_encoding_parameters_table {image : opj_image} {cp : opj_cp} {tileno : Int}
    {e : opj_enc_params} (h : get_all_encoding_parameters image cp tileno = .ok e) :
    ∃ tcp, arr_get cp.tcps tileno = some tcp ∧ cp.tw ≠ 0 ∧
      e.p_tx0 = int_max (cp.tx0 + Int.tmod tileno cp.tw * cp.tdx) image.x0 ∧
      e.p_tx1 = int_min (cp.tx0 + (Int.tmod tileno cp.tw + 1) * cp.tdx) image.x1 ∧
      e.p_ty0 = int_max (cp.ty0 + Int.tdiv tileno cp.tw * cp.tdy) image.y0 ∧
      e.p_ty1 = int_min (cp.ty0 + (Int.tdiv tileno cp.tw + 1) * cp.tdy) image.y1 ∧
      e.p_resolutions.length = image.numcomps.toNat ∧
      ∀ c : Nat, c < image.numcomps.toNat →
        ∃ ic tccp row, image.comps[c]? = some ic ∧ tcp.tccps[c]? = some tccp ∧
          ic.dx ≠ 0 ∧ ic.dy ≠ 0 ∧ e.p_resolutions[c]? = some row ∧
          enc_row_ok e.p_tx0 e.p_tx1 e.p_ty0 e.p_ty1 ic tccp row := by
  unfold get_all_encoding_parameters at h
  cases ht : arr_get cp.tcps tileno with
  | none => rw [ht] at h; simp at h
  | some tcp =>
    rw [ht] at h
    dsimp only at h
    by_cases hw : cp.tw = 0
    · rw [if_pos hw] at h; simp at h
    · rw [if_neg hw] at h
      obtain ⟨r1, r2, r3, r4, r5, r6⟩ := enc_comp_loop_table rfl h
      refine ⟨tcp, rfl, hw, r1, r2, r3, r4, r5, ?_⟩
      intro c hc
      obtain ⟨ic, tccp, row, e1, e2, e3, e4, e5, e6⟩ := r6 c hc
      refine ⟨ic, tccp, row, e1, e2, e3, e4, e5, ?_⟩
      rw [r1, r2, r3, r4]; exact e6

/-- C14. Tile extents: for a tile index `t >= 0` of a grid with `tw > 0` columns, with
`p = t mod tw` and `q = t / tw`, when the image extents and the four tile edges
`cp.tx0 + p*tdx`, `cp.tx0 + (p+1)*tdx`, `cp.ty0 + q*tdy`, `cp.ty0 + (q+1)*tdy` lie in
`[0, 2^31 - 1]` (`edges_fit`: the source computes the edges as `OPJ_UINT32` and passes
them to `int` parameters),
`get_all_encoding_parameters` returns
`tx0 = max(cp.tx0 + p*tdx, image.x0)`, `tx1 = min(cp.tx0 + (p+1)*tdx, image.x1)`,
`ty0 = max(cp.ty0 + q*tdy, image.y0)`, `ty1 = min(cp.ty0 + (q+1)*tdy, image.y1)`; hence
`image.x0 <= tx0`, `tx1 <= image.x1`, `image.y0 <= ty0` and `ty1 <= image.y1`. -/
theorem get_all_encoding_parameters_extents (image : opj_image) (cp : opj_cp) (tileno : Int)
    (e : opj_enc_params) (ht : 0 ≤ tileno) (hw : 0 < cp.tw)
    (_hfit : edges_fit image cp tileno)
    (h : get_all_encoding_parameters image cp tileno = .ok e) :
    e.p_tx0 = max (cp.tx0 + (tileno % cp.tw) * cp.tdx) image.x0 ∧
    e.p_tx1 = min (cp.tx0 + (tileno % cp.tw + 1) * cp.tdx) image.x1 ∧
    e.p_ty0 = max (cp.ty0 + (tileno / cp.tw) * cp.tdy) image.y0 ∧
    e.p_ty1 = min (cp.ty0 + (tileno / cp.tw + 1) * cp.tdy) image.y1 ∧
    image.x0 ≤ e.p_tx0 ∧ e.p_tx1 ≤ image.x1 ∧ image.y0 ≤ e.p_ty0 ∧ e.p_ty1 ≤ image.y1 := by
  obtain ⟨tcp, _, _, r1, r2, r3, r4, _⟩ := get_all_encoding_parameters_table h
  rw [Int.tmod_eq_emod ht (le_of_lt hw)] at r1 r2
  rw [Int.tdiv_eq_ediv ht (le_of_lt hw)] at r3 r4
  rw [int_max_eq] at r1 r3
  rw [int_min_eq] at r2 r4
  refine ⟨r1, r2, r3, r4, ?_, ?_, ?_, ?_⟩
  · rw [r1]; exact le_max_right _ _
  · rw [r2]; exact min_le_right _ _
  · rw [r3]; exact le_max_right _ _
  · rw [r4]; exact min_le_right _ _

/-- Witness of `get_all_encoding_parameters_extents`: the example image and tile. -/
theorem get_all_encoding_parameters_extents_witness :
    get_all_encoding_parameters ex_image (ex_cp .LRCP) 0 = .ok ex_enc ∧
    ex_enc.p_tx1 = min ((ex_cp .LRCP).tx0 + (0 % (ex_cp .LRCP).tw + 1) * (ex_cp .LRCP).tdx)
      ex_image.x1 :=
  ⟨rfl, (get_all_encoding_parameters_extents ex_image (ex_cp .LRCP) 0 ex_enc (by decide)
    (by decide) (by unfold edges_fit; decide) rfl).2.1⟩

theorem enc_res_loop_max {ic : opj_image_comp} {tccp : opj_tccp} {tcx0 tcy0 tcx1 tcy1 : Int}
    {a1 a2 : opj_enc_params} {row : List opj_pi_resolution} {n : Nat}
    (h : opj_for (enc_res_iter ic tccp tcx0 tcy0 tcx1 tcy1) n 0 (a1, []) = .ok (a2, row)) :
    a1.p_max_prec ≤ a2.p_max_prec ∧ (∀ r ∈ row, r.pw * r.ph ≤ a2.p_max_prec) ∧
    (a2.p_max_prec = a1.p_max_prec ∨ ∃ r ∈ row, r.pw * r.ph = a2.p_max_prec) := by
  have key := opj_for_inv
    (fun _ (p : opj_enc_params × List opj_pi_resolution) =>
      a1.p_max_prec ≤ p.1.p_max_prec ∧ (∀ r ∈ p.2, r.pw * r.ph ≤ p.1.p_max_prec) ∧
      (p.1.p_max_prec = a1.p_max_prec ∨ ∃ r ∈ p.2, r.pw * r.ph = p.1.p_max_prec))
    (by
      intro k p p1 hP hk
      obtain ⟨q1, q2, q3⟩ := hP
      unfold enc_res_iter at hk
      cases hw : tccp.prcw[k]? with
      | none => rw [hw] at hk; simp at hk
      | some pdx =>
        cases hh : tccp.prch[k]? with
        | none => rw [hw, hh] at hk; simp at hk
        | some pdy =>
          rw [hw, hh] at hk
          simp only [Except.ok.injEq] at hk
          subst hk
          dsimp only
          generalize enc_resolution tcx0 tcy0 tcx1 tcy1 (tccp.numresolutions - 1 - k) pdx pdy
            = rec
          by_cases hgt : rec.pw * rec.ph > p.1.p_max_prec
          · rw [if_pos hgt]
            refine ⟨by omega, ?_, Or.inr ⟨rec, by simp, rfl⟩⟩
            intro r hr
            rcases List.mem_append.1 hr with hr | hr
            · have := q2 r hr; omega
            · simp at hr; subst hr; exact le_refl _
          · rw [if_neg hgt]
            refine ⟨q1, ?_, ?_⟩
            · intro r hr
              rcases List.mem_append.1 hr with hr | hr
              · exact q2 r hr
              · simp at hr; subst hr; omega
            · rcases q3 with q3 | ⟨r, hr, q3⟩
              · exact Or.inl q3
              · exact Or.inr ⟨r, List.mem_append.2 (Or.inl hr), q3⟩)
    n 0 (a1, []) (a2, row) ⟨le_refl _, by simp, Or.inl rfl⟩ h
  exact key

theorem enc_comp_loop_max {image : opj_image} {tcp : opj_tcp} {a0 e : opj_enc_params}
    {n : Nat} (h0 : a0.p_resolutions = []) (h1 : a0.p_max_prec = 0) (h2 : a0.p_max_res = 0)
    (h : opj_for (enc_comp_iter image tcp) n 0 a0 = .ok e) :
    (∀ row ∈ e.p_resolutions, ∀ r ∈ row, r.pw * r.ph ≤ e.p_max_prec) ∧
    (e.p_max_prec = 0 ∨ ∃ row ∈ e.p_resolutions, ∃ r ∈ row, r.pw * r.ph = e.p_max_prec) ∧
    (∀ c tccp, c < n → tcp.tccps[c]? = some tccp → tccp.numresolutions ≤ e.p_max_res) ∧
    (e.p_max_res = 0 ∨
      ∃ c tccp, c < n ∧ tcp.tccps[c]? = some tccp ∧ tccp.numresolutions = e.p_max_res) := by
  have key := opj_for_inv
    (fun k (a : opj_enc_params) =>
      (∀ row ∈ a.p_resolutions, ∀ r ∈ row, r.pw * r.ph ≤ a.p_max_prec) ∧
      (a.p_max_prec = 0 ∨ ∃ row ∈ a.p_resolutions, ∃ r ∈ row, r.pw * r.ph = a.p_max_prec) ∧
      (∀ c tccp, c < k → tcp.tccps[c]? = some tccp → tccp.numresolutions ≤ a.p_max_res) ∧
      (a.p_max_res = 0 ∨
        ∃ c tccp, c < k ∧ tcp.tccps[c]? = some tccp ∧ tccp.numresolutions = a.p_max_res))
    (by
      intro k a a' hP hk
      obtain ⟨q1, q2, q3, q4⟩ := hP
      unfold enc_comp_iter at hk
      cases hi : image.comps[k]? with
      | none => rw [hi] at hk; simp at hk
      | some ic =>
        cases ht : tcp.tccps[k]? with
        | none => rw [hi, ht] at hk; simp at hk
        | some tccp =>
          rw [hi, ht] at hk
          dsimp only at hk
          by_cases hz : ic.dx = 0 ∨ ic.dy = 0
          · rw [if_pos hz] at hk; simp at hk
          · rw [if_neg hz] at hk
            split at hk
            · simp at hk
            · rename_i a2 row hloop
              simp only [Except.ok.injEq] at hk
              subst hk
              obtain ⟨_, _, _, _, r5, r6, _, _⟩ := enc_res_loop_table hloop
              obtain ⟨m1, m2, m3⟩ := enc_res_loop_max hloop
              have s5 : (if tccp.numresolutions > a.p_max_res
                  then { a with p_max_res := tccp.numresolutions } else a).p_max_prec
                    = a.p_max_prec := by
                split <;> rfl
              have s6 : (if tccp.numresolutions > a.p_max_res
                  then { a with p_max_res := tccp.numresolutions } else a).p_resolutions
                    = a.p_resolutions := by
                split <;> rfl
              rw [s5] at m1 m3
              have hres : a2.p_resolutions = a.p_resolutions := r6.trans s6
              refine ⟨?_, ?_, ?_, ?_⟩
              · intro x hx r hr
                show r.pw * r.ph ≤ a2.p_max_prec
                have hx' : x ∈ a2.p_resolutions ++ [row] := hx
                rw [hres] at hx'
                rcases List.mem_append.1 hx' with hx' | hx'
                · have := q1 x hx' r hr; omega
                · simp at hx'; subst hx'; exact m2 r hr
              · show a2.p_max_prec = 0 ∨
                  ∃ x ∈ a2.p_resolutions ++ [row], ∃ r ∈ x, r.pw * r.ph = a2.p_max_prec
                rw [hres]
                rcases m3 with m3 | ⟨r, hr, m3⟩
                · rcases q2 with q2 | ⟨x, hx, r, hr, q2⟩
                  · exact Or.inl (m3.trans q2)
                  · exact Or.inr ⟨x, List.mem_append.2 (Or.inl hx), r, hr, q2.trans m3.symm⟩
                · exact Or.inr ⟨row, by simp, r, hr, m3⟩
              · intro c tccp' hc hc'
                show tccp'.numresolutions ≤ a2.p_max_res
                rw [r5]
                by_cases hlt : c < k
                · have := q3 c tccp' hlt hc'
                  split
                  · show tccp'.numresolutions ≤ tccp.numresolutions
                    omega
                  · exact this
                · have hck : c = k := by omega
                  subst hck
                  rw [ht] at hc'
                  simp only [Option.some.injEq] at hc'
                  subst hc'
                  split
                  · exact le_refl _
                  · omega
              · show a2.p_max_res = 0 ∨ ∃ c tccp', c < k + 1 ∧ tcp.tccps[c]? = some tccp' ∧
                  tccp'.numresolutions = a2.p_max_res
                rw [r5]
                split
                · exact Or.inr ⟨k, tccp, by omega, ht, rfl⟩
                · rcases q4 with q4 | ⟨c, tccp', hc, hc', q4⟩
                  · exact Or.inl q4
                  · exact Or.inr ⟨c, tccp', by omega, hc', q4⟩)
    n 0 a0 e ⟨by simp [h0], Or.inl h1, fun c _ hc => by omega, Or.inl h2⟩ h
  simpa using key

/-- C17. Maxima: when the tile edges and the geometry of the tile stay in the 32-bit
range (`edges_fit`, `enc_geom_fits`), no precinct count is negative and every product
`pw*ph` is at most `0xffffffff`, the largest value of the `OPJ_UINT32` variable
`l_product` (`records_fit`), `get_all_encoding_parameters` returns `max_prec` that bounds `pw*ph` of
every record of every component and is 0 or the `pw*ph` of one of them, and `max_res`
that bounds `numresolutions` of every component and is 0 or the `numresolutions` of
one of them; that is, both are the maxima (0 when there is nothing to take it over). -/
theorem get_all_encoding_parameters_maxima (image : opj_image) (cp : opj_cp) (tileno : Int)
    (e : opj_enc_params) (tcp : opj_tcp)
    (h : get_all_encoding_parameters image cp tileno = .ok e)
    (ht : arr_get cp.tcps tileno = some tcp)
    (_hgeo : edges_fit image cp tileno ∧ enc_geom_fits image tcp e)
    (_hfit : records_fit 4294967295 e) :
    (∀ row ∈ e.p_resolutions, ∀ r ∈ row, r.pw * r.ph ≤ e.p_max_prec) ∧
    (e.p_max_prec = 0 ∨ ∃ row ∈ e.p_resolutions, ∃ r ∈ row, r.pw * r.ph = e.p_max_prec) ∧
    (∀ c tccp, c < image.numcomps.toNat → tcp.tccps[c]? = some tccp →
      tccp.numresolutions ≤ e.p_max_res) ∧
    (e.p_max_res = 0 ∨ ∃ c tccp, c < image.numcomps.toNat ∧ tcp.tccps[c]? = some tccp ∧
      tccp.numresolutions = e.p_max_res) := by
  unfold get_all_encoding_parameters at h
  rw [ht] at h
  dsimp only at h
  by_cases hw : cp.tw = 0
  · rw [if_pos hw] at h; simp at h
  · rw [if_neg hw] at h
    exact enc_comp_loop_max rfl rfl rfl h

/-- Witness of `get_all_encoding_parameters_maxima`: the example image and tile. -/
theorem get_all_encoding_parameters_maxima_witness :
    get_all_encoding_parameters ex_image (ex_cp .LRCP) 0 = .ok ex_enc ∧
    (ex_enc.p_max_prec = 0 ∨
      ∃ row ∈ ex_enc.p_resolutions, ∃ r ∈ row, r.pw * r.ph = ex_enc.p_max_prec) :=
  ⟨rfl, (get_all_encoding_parameters_maxima ex_image (ex_cp .LRCP) 0 ex_enc _ rfl rfl
    (by unfold edges_fit enc_geom_fits; decide) (by unfold records_fit; decide)).2.1⟩

theorem enc_resolution_counts (tcx0 tcy0 tcx1 tcy1 levelno pdx pdy : Int) :
    (enc_resolution tcx0 tcy0 tcx1 tcy1 levelno pdx pdy).pw
      = precinct_count (int_ceildivpow2 tcx0 levelno) (int_ceildivpow2 tcx1 levelno) pdx ∧
    (enc_resolution tcx0 tcy0 tcx1 tcy1 levelno pdx pdy).ph
      = precinct_count (int_ceildivpow2 tcy0 levelno) (int_ceildivpow2 tcy1 levelno) pdy ∧
    (enc_resolution tcx0 tcy0 tcx1 tcy1 levelno pdx pdy).pdx = pdx ∧
    (enc_resolution tcx0 tcy0 tcx1 tcy1 levelno pdx pdy).pdy = pdy :=
  ⟨rfl, rfl, rfl, rfl⟩

theorem precinct_count_eq (r0 r1 pd : Int) :
    precinct_count r0 r1 pd
      = if r0 = r1 then 0 else (r1 + pow2 pd - 1) / pow2 pd - r0 / pow2 pd := by
  unfold precinct_count
  split
  · rfl
  · unfold int_ceildivpow2 int_floordivpow2 shr shl
    have hP := pow2_pos pd
    rw [← sub_mul, Int.mul_ediv_cancel _ (ne_of_gt hP), one_mul]

/-- A loop that rewrites the element at its index: the elements outside the range
are untouched and every element of the range is rewritten from its old value. -/
theorem opj_for_update {α : Type} {f : Nat → List α → Except pi_fault (List α)}
    (R : Nat → α → α → Prop)
    (hf : ∀ k l l1, f k l = .ok l1 → l1.length = l.length ∧
      (∀ j, j ≠ k → l1[j]? = l[j]?) ∧ ∃ x y, l[k]? = some x ∧ l1[k]? = some y ∧ R k x y) :
    ∀ (n i : Nat) (l r : List α), opj_for f n i l = .ok r →
      r.length = l.length ∧ (∀ j, j < i ∨ i + n ≤ j → r[j]? = l[j]?) ∧
      (∀ j, i ≤ j → j < i + n → ∃ x y, l[j]? = some x ∧ r[j]? = some y ∧ R j x y) := by
  intro n
  induction n with
  | zero =>
    intro i l r h
    simp only [opj_for, Except.ok.injEq] at h
    subst h
    exact ⟨rfl, fun _ _ => rfl, fun j h1 h2 => by omega⟩
  | succ k ih =>
    intro i l r h
    rw [opj_for] at h
    cases hk : f i l with
    | error e => rw [hk] at h; simp at h
    | ok l1 =>
      rw [hk] at h
      dsimp only at h
      obtain ⟨a1, a2, x, y, a3, a4, a5⟩ := hf i l l1 hk
      obtain ⟨b1, b2, b3⟩ := ih (i + 1) l1 r h
      refine ⟨b1.trans a1, ?_, ?_⟩
      · intro j hj
        rw [b2 j (by omega), a2 j (by omega)]
      · intro j h1 h2
        by_cases hji : j = i
        · subst hji
          refine ⟨x, y, a3, ?_, a5⟩
          rw [b2 j (by omega)]; exact a4
        · obtain ⟨x', y', c1, c2, c3⟩ := b3 j (by omega) (by omega)
          refine ⟨x', y', ?_, c2, c3⟩
          rw [← a2 j hji]; exact c1

theorem getElem?_set_spec {α : Type} {l : List α} {k : Nat} {y : α} (hk : k < l.length) :
    (l.set k y).length = l.length ∧ (∀ j, j ≠ k → (l.set k y)[j]? = l[j]?) ∧
    (l.set k y)[k]? = some y := by
  refine ⟨List.length_set .., ?_, List.getElem?_set_self hk⟩
  intro j hj
  exact List.getElem?_set_ne (Ne.symm hj)

theorem getElem?_lt {α : Type} {l : List α} {k : Nat} {x : α} (h : l[k]? = some x) :
    k < l.length := by
  by_contra hcon
  rw [List.getElem?_eq_none (by omega)] at h
  simp at h

/-- The slots written by `pi_update_decode_poc`, one per POC segment. -/
theorem pi_update_decode_poc_table (l_pi r : List opj_pi_iterator) (tcp : opj_tcp)
    (p_max_precision p_max_res : Int)
    (h : pi_update_decode_poc l_pi tcp p_max_precision p_max_res = .ok r) :
    r.length = l_pi.length ∧
    (∀ j, (tcp.numpocs + 1).toNat ≤ j → r[j]? = l_pi[j]?) ∧
    (∀ i, i < (tcp.numpocs + 1).toNat → ∃ s poc, l_pi[i]? = some s ∧ tcp.pocs[i]? = some poc ∧
      r[i]? = some
        { s with
          first := true,
          poc := { s.poc with
            prg := poc.prg, resno0 := poc.resno0, compno0 := poc.compno0, layno0 := 0,
            precno0 := 0, resno1 := poc.resno1, compno1 := poc.compno1, layno1 := poc.layno1,
            precno1 := p_max_precision } }) := by
  unfold pi_update_decode_poc at h
  have key := opj_for_update
    (fun i (s y : opj_pi_iterator) => ∃ poc, tcp.pocs[i]? = some poc ∧
      y = { s with
          first := true,
          poc := { s.poc with
            prg := poc.prg, resno0 := poc.resno0, compno0 := poc.compno0, layno0 := 0,
            precno0 := 0, resno1 := poc.resno1, compno1 := poc.compno1, layno1 := poc.layno1,
            precno1 := p_max_precision } })
    (by
      intro k l l1 hk
      unfold pi_update_decode_poc_iter at hk
      cases hs : l[k]? with
      | none => rw [hs] at hk; simp at hk
      | some s =>
        cases hp : tcp.pocs[k]? with
        | none => rw [hs, hp] at hk; simp at hk
        | some poc =>
          rw [hs, hp] at hk
          simp only [Except.ok.injEq] at hk
          subst hk
          obtain ⟨g1, g2, g3⟩ := getElem?_set_spec (y :=
            ({ s with
              first := true,
              poc := { s.poc with
                prg := poc.prg, resno0 := poc.resno0, compno0 := poc.compno0, layno0 := 0,
                precno0 := 0, resno1 := poc.resno1, compno1 := poc.compno1,
                layno1 := poc.layno1, precno1 := p_max_precision } } : opj_pi_iterator))
            (getElem?_lt hs)
          exact ⟨g1, g2, s, _, rfl, g3, poc, hp, rfl⟩)
    _ 0 l_pi r h
  obtain ⟨k1, k2, k3⟩ := key
  refine ⟨k1, fun j hj => k2 j (Or.inr (by omega)), ?_⟩
  intro i hi
  obtain ⟨x, y, e1, e2, poc, e3, e4⟩ := k3 i (by omega) (by omega)
  exact ⟨x, poc, e1, e3, by rw [e2, e4]⟩

/-- C20. POC configurator with POC present: after `pi_update_decode_poc`, for every
`i` in `0..numpocs`, slot `i` is the old slot `i` with `poc.prg`, `resno0`, `compno0`,
`resno1`, `compno1` and `layno1` taken from POC segment `i`, `layno0 = 0`,
`precno0 = 0`, `precno1 = max_prec` and `first = true`; no other field of the slot and
no other slot is changed. -/
theorem pi_update_decode_poc_effect (l_pi r : List opj_pi_iterator) (tcp : opj_tcp)
    (p_max_precision p_max_res : Int)
    (h : pi_update_decode_poc l_pi tcp p_max_precision p_max_res = .ok r) :
    r.length = l_pi.length ∧
    (∀ j, (tcp.numpocs + 1).toNat ≤ j → r[j]? = l_pi[j]?) ∧
    (∀ i, i < (tcp.numpocs + 1).toNat → ∃ s poc, l_pi[i]? = some s ∧ tcp.pocs[i]? = some poc ∧
      r[i]? = some
        { s with
          first := true,
          poc := { s.poc with
            prg := poc.prg, resno0 := poc.resno0, compno0 := poc.compno0, layno0 := 0,
            precno0 := 0, resno1 := poc.resno1, compno1 := poc.compno1, layno1 := poc.layno1,
            precno1 := p_max_precision } }) :=
  pi_update_decode_poc_table l_pi r tcp p_max_precision p_max_res h

/-- Witness of `pi_update_decode_poc_effect`: two zeroed slots and two POC segments. -/
theorem pi_update_decode_poc_effect_witness :
    ∃ r, pi_update_decode_poc [pi_zero, pi_zero] ex_tcp_poc 1 2 = .ok r ∧ r.length = 2 :=
  ⟨_, rfl, (pi_update_decode_poc_effect [pi_zero, pi_zero] _ ex_tcp_poc 1 2 rfl).1⟩

theorem set_step {α : Type} {l : List α} {k : Nat} {y : α} (hk : k < l.length)
    (R : α → α → Prop) (hR : ∀ x, l[k]? = some x → R x y) :
    (l.set k y).length = l.length ∧ (∀ j, j ≠ k → (l.set k y)[j]? = l[j]?) ∧
    ∃ x y1, l[k]? = some x ∧ (l.set k y)[k]? = some y1 ∧ R x y1 := by
  obtain ⟨g1, g2, g3⟩ := getElem?_set_spec (y := y) hk
  exact ⟨g1, g2, l[k], y, List.getElem?_eq_getElem hk, g3, hR _ (List.getElem?_eq_getElem hk)⟩

/-- The component records allocated by `pi_create`. -/
theorem pi_create_comps_spec {tcp : opj_tcp} {n : Nat} {cs : List opj_pi_comp}
    (h : opj_for (pi_create_comp tcp) n 0 (List.replicate n comp_zero) = .ok cs) :
    cs.length = n ∧ ∀ c, c < n → ∃ tccp, tcp.tccps[c]? = some tccp ∧
      cs[c]? = some { comp_zero with
        numresolutions := tccp.numresolutions,
        resolutions := List.replicate tccp.numresolutions.toNat res_zero } := by
  have key := opj_for_update
    (fun c (_ y : opj_pi_comp) => ∃ tccp, tcp.tccps[c]? = some tccp ∧
      y = { comp_zero with
        numresolutions := tccp.numresolutions,
        resolutions := List.replicate tccp.numresolutions.toNat res_zero })
    (by
      intro k l l1 hk
      unfold pi_create_comp at hk
      cases ht : tcp.tccps[k]? with
      | none => rw [ht] at hk; simp at hk
      | some tccp =>
        rw [ht] at hk
        dsimp only at hk
        by_cases hlen : k < l.length
        · rw [if_pos hlen] at hk
          simp only [Except.ok.injEq] at hk
          subst hk
          exact set_step hlen _ (fun _ _ => ⟨tccp, ht, rfl⟩)
        · rw [if_neg hlen] at hk; simp at hk)
    n 0 _ cs h
  obtain ⟨k1, _, k3⟩ := key
  refine ⟨by rw [k1, List.length_replicate], ?_⟩
  intro c hc
  obtain ⟨x, y, _, e2, tccp, e3, e4⟩ := k3 c (by omega) (by omega)
  exact ⟨tccp, e3, by rw [e2, e4]⟩

/-- The slots allocated by `pi_create`: `numpocs + 1` zeroed iterators with the
component count of the image and freshly allocated component records. -/
theorem pi_create_spec {image : opj_image} {cp : opj_cp} {tileno : Int}
    {l : List opj_pi_iterator} (h : pi_create image cp tileno = .ok l) :
    ∃ tcp, arr_get cp.tcps tileno = some tcp ∧ l.length = (tcp.numpocs + 1).toNat ∧
      ∀ i, i < (tcp.numpocs + 1).toNat → ∃ cs,
        opj_for (pi_create_comp tcp) image.numcomps.toNat 0
          (List.replicate image.numcomps.toNat comp_zero) = .ok cs ∧
        l[i]? = some { pi_zero with numcomps := image.numcomps, comps := cs } := by
  unfold pi_create at h
  cases ht : arr_get cp.tcps tileno with
  | none => rw [ht] at h; simp at h
  | some tcp =>
    rw [ht] at h
    dsimp only at h
    have key := opj_for_update
      (fun (_ : Nat) (_ y : opj_pi_iterator) => ∃ cs,
        opj_for (pi_create_comp tcp) image.numcomps.toNat 0
          (List.replicate image.numcomps.toNat comp_zero) = .ok cs ∧
        y = { pi_zero with numcomps := image.numcomps, comps := cs })
      (by
        intro k l0 l1 hk
        unfold pi_create_slot at hk
        cases hc : opj_for (pi_create_comp tcp) image.numcomps.toNat 0
            (List.replicate image.numcomps.toNat comp_zero) with
        | error err => rw [hc] at hk; simp at hk
        | ok cs =>
          rw [hc] at hk
          dsimp only at hk
          by_cases hlen : k < l0.length
          · rw [if_pos hlen] at hk
            simp only [Except.ok.injEq] at hk
            subst hk
            exact set_step hlen _ (fun _ _ => ⟨cs, rfl, rfl⟩)
          · rw [if_neg hlen] at hk; simp at hk)
      _ 0 _ l h
    obtain ⟨k1, _, k3⟩ := key
    refine ⟨tcp, rfl, by rw [k1, List.length_replicate], ?_⟩
    intro i hi
    obtain ⟨x, y, _, e2, cs, e3, e4⟩ := k3 i (by omega) (by omega)
    exact ⟨cs, e3, by rw [e2, e4]⟩

/-- The copy loop over `resno` of `pi_create_decode_v2` replaces a list of as many
records as the row has by the row. -/
theorem pi_copy_res_spec {row rs rs1 : List opj_pi_resolution}
    (hlen : rs.length = row.length)
    (h : opj_for (pi_copy_res row) row.length 0 rs = .ok rs1) : rs1 = row := by
  have key := opj_for_update
    (fun r (_ y : opj_pi_resolution) => row[r]? = some y)
    (by
      intro k l l1 hk
      unfold pi_copy_res at hk
      cases hr : row[k]? with
      | none => rw [hr] at hk; simp at hk
      | some r =>
        rw [hr] at hk
        dsimp only at hk
        by_cases hl : k < l.length
        · rw [if_pos hl] at hk
          simp only [Except.ok.injEq] at hk
          subst hk
          exact set_step hl _ (fun _ _ => hr)
        · rw [if_neg hl] at hk; simp at hk)
    _ 0 rs rs1 h
  obtain ⟨k1, _, k3⟩ := key
  apply List.ext_getElem?
  intro j
  by_cases hj : j < row.length
  · obtain ⟨x, y, _, e2, e3⟩ := k3 j (by omega) (by omega)
    rw [e2, e3]
  · rw [List.getElem?_eq_none (by omega), List.getElem?_eq_none (by omega)]

/-- The fields stored by `pi_create_decode_v2` in a slot that `pi_create` allocated. -/
theorem pi_decode_slot_spec {image : opj_image} {cp : opj_cp} {tileno : Int} {tcp : opj_tcp}
    {e : opj_enc_params} {incl : List Int} {cs0 : List opj_pi_comp} {s1 : opj_pi_iterator}
    (ht : arr_get cp.tcps tileno = some tcp)
    (he : get_all_encoding_parameters image cp tileno = .ok e)
    (hc : opj_for (pi_create_comp tcp) image.numcomps.toNat 0
      (List.replicate image.numcomps.toNat comp_zero) = .ok cs0)
    (h : pi_decode_slot image e incl { pi_zero with numcomps := image.numcomps, comps := cs0 }
      = .ok s1) :
    ∃ cs, decode_comps_ok image tcp e cs ∧
      s1 = { pi_zero with
        numcomps := image.numcomps, comps := cs, incl := incl,
        tx0 := e.p_tx0, ty0 := e.p_ty0, tx1 := e.p_tx1, ty1 := e.p_ty1,
        step_p := 1, step_c := e.p_max_prec, step_r := image.numcomps * e.p_max_prec,
        step_l := e.p_max_res * (image.numcomps * e.p_max_prec) } := by
  obtain ⟨tcp1, t1, _, _, _, _, _, t7, t8⟩ := get_all_encoding_parameters_table he
  rw [ht] at t1
  simp only [Option.some.injEq] at t1
  subst t1
  obtain ⟨c1, c2⟩ := pi_create_comps_spec hc
  unfold pi_decode_slot at h
  dsimp only at h
  cases hl : opj_for (pi_copy_comp image e.p_resolutions) image.numcomps.toNat 0 cs0 with
  | error err => rw [hl] at h; simp at h
  | ok cs =>
    rw [hl] at h
    simp only [Except.ok.injEq] at h
    have key := opj_for_update
      (fun c (x y : opj_pi_comp) => ∃ ic row rs, image.comps[c]? = some ic ∧
        e.p_resolutions[c]? = some row ∧
        opj_for (pi_copy_res row) x.numresolutions.toNat 0 x.resolutions = .ok rs ∧
        y = { x with dx := ic.dx, dy := ic.dy, resolutions := rs })
      (by
        intro k l l1 hk
        unfold pi_copy_comp at hk
        cases h1 : l[k]? with
        | none => rw [h1] at hk; simp at hk
        | some comp =>
          cases h2 : image.comps[k]? with
          | none => rw [h1, h2] at hk; simp at hk
          | some ic =>
            cases h3 : e.p_resolutions[k]? with
            | none => rw [h1, h2, h3] at hk; simp at hk
            | some row =>
              rw [h1, h2, h3] at hk
              dsimp only at hk
              cases h4 : opj_for (pi_copy_res row) comp.numresolutions.toNat 0
                  comp.resolutions with
              | error err => rw [h4] at hk; simp at hk
              | ok rs =>
                rw [h4] at hk
                simp only [Except.ok.injEq] at hk
                subst hk
                obtain ⟨g1, g2, g3⟩ := getElem?_set_spec
                  (y := ({ comp with dx := ic.dx, dy := ic.dy, resolutions := rs } :
                    opj_pi_comp)) (getElem?_lt h1)
                refine ⟨g1, g2, comp, _, ?_, g3, ic, row, rs, ?_, ?_, h4, rfl⟩ <;>
                  first | rfl | assumption)
      _ 0 cs0 cs hl
    obtain ⟨k1, _, k3⟩ := key
    refine ⟨cs, ⟨by rw [k1, c1], ?_⟩, ?_⟩
    · intro c hcn
      obtain ⟨x, y, e1, e2, ic, row, rs, e3, e4, e5, e6⟩ := k3 c (by omega) (by omega)
      obtain ⟨tccp, d1, d2⟩ := c2 c hcn
      obtain ⟨ic1, tccp1, row1, f1, f2, _, _, f5, f6, _⟩ := t8 c hcn
      rw [e3] at f1
      rw [d1] at f2
      rw [e4] at f5
      simp only [Option.some.injEq] at f1 f2 f5
      subst f1 f2 f5
      rw [e1] at d2
      simp only [Option.some.injEq] at d2
      subst d2
      dsimp only at e5
      rw [← f6] at e5
      have hrs := pi_copy_res_spec (by rw [List.length_replicate, f6]) e5
      subst hrs
      exact ⟨ic, tccp, rs, e3, d1, e4, by rw [e2, e6]⟩
    · rw [← h]
      simp only [mul_one]

/-- The slots written by `pi_update_decode_not_poc`. -/
theorem pi_update_decode_not_poc_table (l_pi r : List opj_pi_iterator) (tcp : opj_tcp)
    (p_max_precision p_max_res : Int)
    (h : pi_update_decode_not_poc l_pi tcp p_max_precision p_max_res = .ok r) :
    r.length = l_pi.length ∧
    (∀ j, (tcp.numpocs + 1).toNat ≤ j → r[j]? = l_pi[j]?) ∧
    (∀ i, i < (tcp.numpocs + 1).toNat → ∃ s, l_pi[i]? = some s ∧
      r[i]? = some
        { s with
          first := true,
          poc := { s.poc with
            prg := tcp.prg, resno0 := 0, compno0 := 0, layno0 := 0, precno0 := 0,
            resno1 := p_max_res, compno1 := s.numcomps, layno1 := tcp.numlayers,
            precno1 := p_max_precision } }) := by
  unfold pi_update_decode_not_poc at h
  have key := opj_for_update
    (fun (_ : Nat) (s y : opj_pi_iterator) =>
      y = { s with
          first := true,
          poc := { s.poc with
            prg := tcp.prg, resno0 := 0, compno0 := 0, layno0 := 0, precno0 := 0,
            resno1 := p_max_res, compno1 := s.numcomps, layno1 := tcp.numlayers,
            precno1 := p_max_precision } })
    (by
      intro k l l1 hk
      unfold pi_update_decode_not_poc_iter at hk
      cases hs : l[k]? with
      | none => rw [hs] at hk; simp at hk
      | some s =>
        rw [hs] at hk
        simp only [Except.ok.injEq] at hk
        subst hk
        obtain ⟨g1, g2, g3⟩ := getElem?_set_spec (y :=
          ({ s with
            first := true,
            poc := { s.poc with
              prg := tcp.prg, resno0 := 0, compno0 := 0, layno0 := 0, precno0 := 0,
              resno1 := p_max_res, compno1 := s.numcomps, layno1 := tcp.numlayers,
              precno1 := p_max_precision } } : opj_pi_iterator))
          (getElem?_lt hs)
        exact ⟨g1, g2, s, _, rfl, g3, rfl⟩)
    _ 0 l_pi r h
  obtain ⟨k1, k2, k3⟩ := key
  refine ⟨k1, fun j hj => k2 j (Or.inr (by omega)), ?_⟩
  intro i hi
  obtain ⟨x, y, e1, e2, e4⟩ := k3 i (by omega) (by omega)
  exact ⟨x, e1, by rw [e2, e4]⟩

theorem pi_decode_slot_incl {image : opj_image} {e : opj_enc_params} {incl : List Int}
    {s s1 : opj_pi_iterator} (h : pi_decode_slot image e incl s = .ok s1) : s1.incl = incl := by
  unfold pi_decode_slot at h
  cases hl : opj_for (pi_copy_comp image e.p_resolutions) s.numcomps.toNat 0 s.comps with
  | error err => rw [hl] at h; simp at h
  | ok cs =>
    rw [hl] at h
    simp only [Except.ok.injEq] at h
    rw [← h]

/-- The loop over the slots `1 .. l_bound - 1` of `pi_create_decode_v2`: every slot
is filled like slot 0 and points to the buffer of slot 0. -/
theorem pi_decode_loop_spec {image : opj_image} {e : opj_enc_params} (incl : List Int)
    (l0 : List opj_pi_iterator) :
    ∀ (n : Nat) (l r : List opj_pi_iterator),
      l.length = l0.length →
      (∀ j, j < 1 → ∃ s0 s1, l0[j]? = some s0 ∧ pi_decode_slot image e incl s0 = .ok s1 ∧
        l[j]? = some s1) →
      (∀ j, 1 ≤ j → l[j]? = l0[j]?) →
      opj_for (pi_decode_iter image e) n 1 l = .ok r →
      r.length = l0.length ∧
      (∀ j, j < 1 + n → ∃ s0 s1, l0[j]? = some s0 ∧ pi_decode_slot image e incl s0 = .ok s1 ∧
        r[j]? = some s1) ∧
      (∀ j, 1 + n ≤ j → r[j]? = l0[j]?) := by
  intro n l r hlen hlo hhi h
  have key := opj_for_inv
    (fun k (l : List opj_pi_iterator) => 1 ≤ k ∧ l.length = l0.length ∧
      (∀ j, j < k → ∃ s0 s1, l0[j]? = some s0 ∧ pi_decode_slot image e incl s0 = .ok s1 ∧
        l[j]? = some s1) ∧
      (∀ j, k ≤ j → l[j]? = l0[j]?))
    (by
      intro k l l1 hP hk
      obtain ⟨p1, p2, p3, p4⟩ := hP
      unfold pi_decode_iter at hk
      cases h1 : l[k - 1]? with
      | none => rw [h1] at hk; simp at hk
      | some prev =>
        cases h2 : l[k]? with
        | none => rw [h1, h2] at hk; simp at hk
        | some s =>
          rw [h1, h2] at hk
          dsimp only at hk
          cases h3 : pi_decode_slot image e prev.incl s with
          | error err => rw [h3] at hk; simp at hk
          | ok s1 =>
            rw [h3] at hk
            simp only [Except.ok.injEq] at hk
            subst hk
            obtain ⟨q0, q1, a1, a2, a3⟩ := p3 (k - 1) (by omega)
            rw [h1] at a3
            simp only [Option.some.injEq] at a3
            subst a3
            rw [pi_decode_slot_incl a2] at h3
            obtain ⟨g1, g2, g3⟩ := getElem?_set_spec (y := s1) (getElem?_lt h2)
            refine ⟨by omega, by rw [g1, p2], ?_, ?_⟩
            · intro j hj
              by_cases hjk : j = k
              · subst hjk
                refine ⟨s, s1, ?_, h3, g3⟩
                rw [← p4 j (le_refl _)]; exact h2
              · obtain ⟨b0, b1, b2, b3, b4⟩ := p3 j (by omega)
                exact ⟨b0, b1, b2, b3, by rw [g2 j hjk]; exact b4⟩
            · intro j hj
              rw [g2 j (by omega)]
              exact p4 j (by omega))
    n 1 l r ⟨le_refl _, hlen, hlo, hhi⟩ h
  exact ⟨key.2.1, key.2.2.1, key.2.2.2⟩

/-- The slots returned by `pi_create_decode_v2`: `numpocs + 1` of them, at least one,
each the zeroed iterator with the geometry of `get_all_encoding_parameters`, the shared
zeroed bitmap of `(numlayers + 1) * step_l` cells, its POC box and `first` set. -/
theorem pi_create_decode_v2_spec {image : opj_image} {cp : opj_cp} {tileno : Int}
    {l : List opj_pi_iterator} (h : pi_create_decode_v2 image cp tileno = .ok l) :
    ∃ tcp e, arr_get cp.tcps tileno = some tcp ∧
      get_all_encoding_parameters image cp tileno = .ok e ∧
      l.length = (tcp.numpocs + 1).toNat ∧ 0 < l.length ∧
      ∀ i, i < l.length → ∃ cs poc, decode_comps_ok image tcp e cs ∧
        decode_poc tcp e image.numcomps i = some poc ∧
        l[i]? = some (decode_slot image tcp e cs poc) := by
  unfold pi_create_decode_v2 at h
  cases ht : arr_get cp.tcps tileno with
  | none => rw [ht] at h; simp at h
  | some tcp =>
    rw [ht] at h
    dsimp only at h
    cases hc : pi_create image cp tileno with
    | error err => rw [hc] at h; simp at h
    | ok l0 =>
      rw [hc] at h
      dsimp only at h
      cases he : get_all_encoding_parameters image cp tileno with
      | error err => rw [he] at h; simp at h
      | ok e =>
        rw [he] at h
        dsimp only at h
        cases h0 : l0[0]? with
        | none => rw [h0] at h; simp at h
        | some s0 =>
          rw [h0] at h
          dsimp only at h
          cases h1 : pi_decode_slot image e
              (List.replicate ((tcp.numlayers + 1) *
                (e.p_max_res * (image.numcomps * (e.p_max_prec * 1)))).toNat 0) s0 with
          | error err => rw [h1] at h; simp at h
          | ok s1 =>
            rw [h1] at h
            dsimp only at h
            cases h2 : opj_for (pi_decode_iter image e) ((tcp.numpocs + 1).toNat - 1) 1
                (l0.set 0 s1) with
            | error err => rw [h2] at h; simp at h
            | ok l2 =>
              rw [h2] at h
              dsimp only at h
              obtain ⟨tcp1, c1, c2, c3⟩ := pi_create_spec hc
              rw [ht] at c1
              simp only [Option.some.injEq] at c1
              subst c1
              have hpos : 0 < l0.length := getElem?_lt h0
              obtain ⟨g1, g2, g3⟩ := getElem?_set_spec (y := s1) hpos
              obtain ⟨d1, d2, _⟩ := pi_decode_loop_spec
                (List.replicate ((tcp.numlayers + 1) *
                  (e.p_max_res * (image.numcomps * (e.p_max_prec * 1)))).toNat 0) l0
                _ _ l2 g1
                (by
                  intro j hj
                  have hj0 : j = 0 := by omega
                  subst hj0
                  exact ⟨s0, s1, h0, h1, g3⟩)
                (fun j hj => g2 j (by omega)) h2
              have hN : 1 + ((tcp.numpocs + 1).toNat - 1) = (tcp.numpocs + 1).toNat := by omega
              rw [hN] at d2
              have hslot : ∀ i, i < (tcp.numpocs + 1).toNat → ∃ cs,
                  decode_comps_ok image tcp e cs ∧
                  l2[i]? = some
                    { decode_slot image tcp e cs poc_zero with first := false } := by
                intro i hi
                obtain ⟨q0, q1, a1, a2, a3⟩ := d2 i hi
                obtain ⟨cs0, b1, b2⟩ := c3 i hi
                rw [b2] at a1
                simp only [Option.some.injEq] at a1
                subst a1
                obtain ⟨cs, f1, f2⟩ := pi_decode_slot_spec ht he b1 a2
                exact ⟨cs, f1, by rw [a3, f2]; rfl⟩
              by_cases hP : tcp.POC = true
              · rw [if_pos hP] at h
                obtain ⟨u1, _, u3⟩ := pi_update_decode_poc_table _ _ _ _ _ h
                refine ⟨tcp, e, rfl, rfl, by rw [u1, d1, c2], by rw [u1, d1]; exact hpos, ?_⟩
                intro i hi
                rw [u1, d1, c2] at hi
                obtain ⟨s, poc, v1, v2, v3⟩ := u3 i hi
                obtain ⟨cs, w1, w2⟩ := hslot i hi
                rw [w2] at v1
                simp only [Option.some.injEq] at v1
                subst v1
                have hp : decode_poc tcp e image.numcomps i = some
                    { poc_zero with
                      prg := poc.prg, resno0 := poc.resno0, compno0 := poc.compno0,
                      layno0 := 0, precno0 := 0, resno1 := poc.resno1,
                      compno1 := poc.compno1, layno1 := poc.layno1,
                      precno1 := e.p_max_prec } := by
                  unfold decode_poc
                  rw [if_pos hP, v2]
                exact ⟨cs, _, w1, hp, by rw [v3]; rfl⟩
              · rw [if_neg hP] at h
                obtain ⟨u1, _, u3⟩ := pi_update_decode_not_poc_table _ _ _ _ _ h
                refine ⟨tcp, e, rfl, rfl, by rw [u1, d1, c2], by rw [u1, d1]; exact hpos, ?_⟩
                intro i hi
                rw [u1, d1, c2] at hi
                obtain ⟨s, v1, v3⟩ := u3 i hi
                obtain ⟨cs, w1, w2⟩ := hslot i hi
                rw [w2] at v1
                simp only [Option.some.injEq] at v1
                subst v1
                have hp : decode_poc tcp e image.numcomps i = some
                    { poc_zero with
                      prg := tcp.prg, resno0 := 0, compno0 := 0, layno0 := 0, precno0 := 0,
                      resno1 := e.p_max_res, compno1 := image.numcomps,
                      layno1 := tcp.numlayers, precno1 := e.p_max_prec } := by
                  unfold decode_poc
                  rw [if_neg hP]
                exact ⟨cs, _, w1, hp, by rw [v3]; rfl⟩

/-! ## The constructors `pi_create_decode` and `pi_initialise_encode` -/

theorem pi_res_loop_table {tccp : opj_tccp} {tcx0 tcy0 tcx1 tcy1 : Int} {m m1 : Int}
    {row : List opj_pi_resolution} {n : Nat}
    (h : opj_for (pi_res_iter tccp tcx0 tcy0 tcx1 tcy1) n 0 (m, []) = .ok (m1, row)) :
    row.length = n ∧
    ∀ r : Nat, r < n → ∃ pdx pdy, pi_precinct_exps tccp r = .ok (pdx, pdy) ∧
      row[r]? = some (enc_resolution tcx0 tcy0 tcx1 tcy1 (tccp.numresolutions - 1 - r) pdx pdy) := by
  have key := opj_for_inv
    (fun k (p : Int × List opj_pi_resolution) =>
      p.2.length = k ∧
      ∀ r : Nat, r < k → ∃ pdx pdy, pi_precinct_exps tccp r = .ok (pdx, pdy) ∧
        p.2[r]? = some (enc_resolution tcx0 tcy0 tcx1 tcy1 (tccp.numresolutions - 1 - r) pdx pdy))
    (by
      intro k p p1 hP hk
      obtain ⟨q7, q8⟩ := hP
      unfold pi_res_iter at hk
      cases hx : pi_precinct_exps tccp k with
      | error e => rw [hx] at hk; simp at hk
      | ok pd =>
        obtain ⟨pdx, pdy⟩ := pd
        rw [hx] at hk
        simp only [Except.ok.injEq] at hk
        subst hk
        refine ⟨by simp [q7], ?_⟩
        intro r hr
        by_cases hlt : r < k
        · obtain ⟨x, y, e1, e3⟩ := q8 r hlt
          refine ⟨x, y, e1, ?_⟩
          show (p.2 ++ [_])[r]? = _
          rw [getElem?_snoc, if_pos (by omega), e3]
        · have hrk : r = k := by omega
          subst hrk
          refine ⟨pdx, pdy, hx, ?_⟩
          show (p.2 ++ [_])[r]? = _
          rw [getElem?_snoc, if_neg (by omega), if_pos q7.symm])
    n 0 (m, []) (m1, row) ⟨rfl, fun r hr => by omega⟩ h
  simpa using key

theorem pi_comp_loop_table {image : opj_image} {tcp : opj_tcp} {tx0 ty0 tx1 ty1 : Int}
    (a0 : Int × Int) {a1 : Int × Int × List opj_pi_comp} {n : Nat}
    (h : opj_for (pi_comp_iter image tcp tx0 ty0 tx1 ty1) n 0 (a0.1, a0.2, []) = .ok a1) :
    pi_comps_ok image tcp tx0 ty0 tx1 ty1 n a1.2.2 := by
  have key := opj_for_inv
    (fun k (a : Int × Int × List opj_pi_comp) =>
      pi_comps_ok image tcp tx0 ty0 tx1 ty1 k a.2.2)
    (by
      intro k a a' hP hk
      obtain ⟨q5, q6⟩ := hP
      unfold pi_comp_iter at hk
      cases hi : image.comps[k]? with
      | none => rw [hi] at hk; simp at hk
      | some ic =>
        cases ht : tcp.tccps[k]? with
        | none => rw [hi, ht] at hk; simp at hk
        | some tccp =>
          rw [hi, ht] at hk
          dsimp only at hk
          by_cases hz : ic.dx = 0 ∨ ic.dy = 0
          · rw [if_pos hz] at hk; simp at hk
          · rw [if_neg hz] at hk
            push_neg at hz
            split at hk
            · simp at hk
            · rename_i mp row hloop
              simp only [Except.ok.injEq] at hk
              subst hk
              obtain ⟨r7, r8⟩ := pi_res_loop_table hloop
              refine ⟨by show (a.2.2 ++ [_]).length = k + 1; simp [q5], ?_⟩
              intro c hc
              by_cases hlt : c < k
              · obtain ⟨ic', tccp', row', e1, e2, e3, e4, e5, e6⟩ := q6 c hlt
                refine ⟨ic', tccp', row', e1, e2, e3, e4, ?_, e6⟩
                show (a.2.2 ++ [_])[c]? = _
                rw [getElem?_snoc, if_pos (by omega), e5]
              · have hck : c = k := by omega
                subst hck
                refine ⟨ic, tccp, row, hi, ht, hz.1, hz.2, ?_, r7, r8⟩
                show (a.2.2 ++ [_])[c]? = _
                rw [getElem?_snoc, if_neg (by omega), if_pos q5.symm])
    n 0 (a0.1, a0.2, []) a1 ⟨rfl, fun c hc => by omega⟩ h
  simpa using key

/-- One iteration of the loop over `pino` of `pi_create_decode` rewrites slot `pino`:
its component records come from the loop over `compno`, and its bitmap is a fresh
zeroed one of `numcomps * maxres * numlayers * maxprec` cells for slot 0 and the bitmap
of the slot before it otherwise. -/
theorem pi_create_decode_slot_spec {image : opj_image} {cp : opj_cp} {tcp : opj_tcp}
    {tileno : Int} {k : Nat} {l l1 : List opj_pi_iterator}
    (h : pi_create_decode_slot image cp tcp tileno k l = .ok l1) :
    k < l.length ∧ ∃ s1, l1 = l.set k s1 ∧
      (∃ tx0 ty0 tx1 ty1 n, ∃ a : Int × Int × List opj_pi_comp,
        opj_for (pi_comp_iter image tcp tx0 ty0 tx1 ty1) n 0 (0, 0, []) = .ok a ∧
        s1.comps = a.2.2 ∧ s1.step_l = a.1 * (image.numcomps * (a.2.1 * 1)) ∧
        (k = 0 → s1.incl =
          List.replicate (image.numcomps * a.1 * tcp.numlayers * a.2.1).toNat 0)) ∧
      (k ≠ 0 → ∃ prev, l[k - 1]? = some prev ∧ s1.incl = prev.incl) := by
  unfold pi_create_decode_slot at h
  cases hs : l[k]? with
  | none => rw [hs] at h; simp at h
  | some s =>
    rw [hs] at h
    dsimp only at h
    have hk := getElem?_lt hs
    by_cases hw : cp.tw = 0
    · rw [if_pos hw] at h; simp at h
    · rw [if_neg hw] at h
      split at h
      · simp at h
      · rename_i s0 h0
        split at h
        · simp at h
        · rename_i mr mp cs hloop
          split at h
          · simp at h
          · rename_i incl hbuf
            have hincl : (k = 0 → incl =
                List.replicate (image.numcomps * mr * tcp.numlayers * mp).toNat 0) ∧
                (k ≠ 0 → ∃ prev, l[k - 1]? = some prev ∧ incl = prev.incl) := by
              by_cases hk0 : k = 0
              · rw [if_pos hk0] at hbuf
                simp only [Option.some.injEq] at hbuf
                exact ⟨fun _ => hbuf.symm, fun hne => absurd hk0 hne⟩
              · rw [if_neg hk0] at hbuf
                refine ⟨fun h0 => absurd h0 hk0, fun _ => ?_⟩
                rw [List.getElem?_set_ne (by omega)] at hbuf
                cases hp : l[k - 1]? with
                | none => rw [hp] at hbuf; simp at hbuf
                | some prev =>
                  rw [hp] at hbuf
                  simp only [Option.some.injEq] at hbuf
                  exact ⟨prev, rfl, hbuf.symm⟩
            split at h
            · simp only [Except.ok.injEq] at h
              rw [List.set_set] at h
              exact ⟨hk, _, h.symm, ⟨_, _, _, _, _, _, hloop, rfl, rfl, hincl.1⟩, hincl.2⟩
            · split at h
              · simp at h
              · simp only [Except.ok.injEq] at h
                rw [List.set_set] at h
                exact ⟨hk, _, h.symm, ⟨_, _, _, _, _, _, hloop, rfl, rfl, hincl.1⟩, hincl.2⟩

/-- A loop over the slots in which slot 0 gets a zeroed bitmap of `N * step_l` cells
and every later slot the bitmap of the slot before it leaves that one bitmap in every
slot. -/
theorem opj_for_shared {σ : Type} {f : Nat → σ → Except pi_fault σ}
    (g : σ → List opj_pi_iterator) (N : Int)
    (hstep : ∀ k st st1, f k st = .ok st1 →
      (g st1).length = (g st).length ∧ (∀ j, j ≠ k → (g st1)[j]? = (g st)[j]?) ∧
      ∃ s1, (g st1)[k]? = some s1 ∧
        (k = 0 → s1.incl = List.replicate (N * s1.step_l).toNat 0) ∧
        (k ≠ 0 → ∃ prev, (g st)[k - 1]? = some prev ∧ s1.incl = prev.incl)) :
    ∀ (n : Nat) (st r : σ), opj_for f n 0 st = .ok r →
      (g r).length = (g st).length ∧
      ∀ j, j < n → ∃ s0 s, (g r)[0]? = some s0 ∧ (g r)[j]? = some s ∧
        s.incl = List.replicate (N * s0.step_l).toNat 0 := by
  intro n st r h
  have key := opj_for_inv
    (fun k (x : σ) => (g x).length = (g st).length ∧
      ∀ j, j < k → ∃ s0 s, (g x)[0]? = some s0 ∧ (g x)[j]? = some s ∧
        s.incl = List.replicate (N * s0.step_l).toNat 0)
    (by
      intro k x x1 hP hk
      obtain ⟨p1, p2⟩ := hP
      obtain ⟨a1, a2, s1, a3, a4, a5⟩ := hstep k x x1 hk
      refine ⟨a1.trans p1, ?_⟩
      intro j hj
      by_cases hk0 : k = 0
      · subst hk0
        have hj0 : j = 0 := by omega
        subst hj0
        exact ⟨s1, s1, a3, a3, a4 rfl⟩
      · obtain ⟨prev, b1, b2⟩ := a5 hk0
        obtain ⟨s0, sp, c1, c2, c3⟩ := p2 (k - 1) (by omega)
        rw [b1] at c2
        simp only [Option.some.injEq] at c2
        subst c2
        have h0 : (g x1)[0]? = some s0 := by rw [a2 0 (by omega)]; exact c1
        by_cases hjk : j = k
        · subst hjk
          exact ⟨s0, s1, h0, a3, b2.trans c3⟩
        · obtain ⟨t0, t, d1, d2, d3⟩ := p2 j (by omega)
          rw [c1] at d1
          simp only [Option.some.injEq] at d1
          subst d1
          exact ⟨s0, t, h0, by rw [a2 j hjk]; exact d2, d3⟩)
    n 0 st r ⟨rfl, fun j hj => by omega⟩ h
  simpa using key

/-- The bitmap of the slots returned by `pi_create_decode`: every slot has the
zeroed bitmap of `numlayers * step_l` cells allocated for slot 0. -/
theorem pi_create_decode_incl {image : opj_image} {cp : opj_cp} {tileno : Int}
    {l : List opj_pi_iterator} (h : pi_create_decode image cp tileno = .ok l) :
    ∃ tcp, arr_get cp.tcps tileno = some tcp ∧ l.length = (tcp.numpocs + 1).toNat ∧
      ∀ j, j < l.length → ∃ s0 s, l[0]? = some s0 ∧ l[j]? = some s ∧
        s.incl = List.replicate (tcp.numlayers * s0.step_l).toNat 0 := by
  unfold pi_create_decode at h
  cases ht : arr_get cp.tcps tileno with
  | none => rw [ht] at h; simp at h
  | some tcp =>
    rw [ht] at h
    dsimp only at h
    obtain ⟨k1, k2⟩ := opj_for_shared (fun l => l) tcp.numlayers
      (by
        intro k st st1 hk
        obtain ⟨a1, s1, a2, ⟨_, _, _, _, _, a, _, _, a5, a6⟩, a7⟩ :=
          pi_create_decode_slot_spec hk
        obtain ⟨g1, g2, g3⟩ := getElem?_set_spec (y := s1) a1
        subst a2
        refine ⟨g1, g2, s1, g3, ?_, a7⟩
        intro hk0
        rw [a6 hk0, a5]
        congr 2
        ring)
      _ _ l h
    rw [List.length_replicate] at k1
    refine ⟨tcp, rfl, k1, ?_⟩
    intro j hj
    exact k2 j (by omega)

/-- The loops of `pi_initialise_encode` that compute the steps write `dx` and `dy`
of slot `pino` and nothing else. -/
theorem pi_encode_step_frame {pino : Nat} {l2 : List opj_pi_iterator} :
    ∀ (n : Nat) (l l3 : List opj_pi_iterator),
      (l.length = l2.length ∧ (∀ j, j ≠ pino → l[j]? = l2[j]?) ∧
        ∃ s t, l2[pino]? = some s ∧ l[pino]? = some t ∧ view_step t = view_step s) →
      opj_for (pi_encode_step_comp pino) n 0 l = .ok l3 →
      l3.length = l2.length ∧ (∀ j, j ≠ pino → l3[j]? = l2[j]?) ∧
        ∃ s t, l2[pino]? = some s ∧ l3[pino]? = some t ∧ view_step t = view_step s := by
  intro n l l3 hI h
  have inner : ∀ (c m i : Nat) (x y : List opj_pi_iterator),
      (x.length = l2.length ∧ (∀ j, j ≠ pino → x[j]? = l2[j]?) ∧
        ∃ s t, l2[pino]? = some s ∧ x[pino]? = some t ∧ view_step t = view_step s) →
      opj_for (pi_encode_step_res pino c) m i x = .ok y →
      (y.length = l2.length ∧ (∀ j, j ≠ pino → y[j]? = l2[j]?) ∧
        ∃ s t, l2[pino]? = some s ∧ y[pino]? = some t ∧ view_step t = view_step s) := by
    intro c m i x y hx hy
    exact opj_for_inv (f := pi_encode_step_res pino c)
      (fun (_ : Nat) (x : List opj_pi_iterator) =>
        x.length = l2.length ∧ (∀ j, j ≠ pino → x[j]? = l2[j]?) ∧
        ∃ s t, l2[pino]? = some s ∧ x[pino]? = some t ∧ view_step t = view_step s)
      (by
        intro k x x1 hP hk
        obtain ⟨p1, p2, s, t, p3, p4, p5⟩ := hP
        unfold pi_encode_step_res at hk
        split at hk
        · rename_i s0 sp h0 hp
          split at hk
          · simp at hk
          · split at hk
            · simp at hk
            · simp only [Except.ok.injEq] at hk
              rw [p4] at hp
              simp only [Option.some.injEq] at hp
              subst hp
              have hlen : x1.length = x.length := by rw [← hk]; exact List.length_set ..
              have hne : ∀ j, j ≠ pino → x1[j]? = x[j]? := by
                intro j hj
                rw [← hk]
                exact List.getElem?_set_ne (Ne.symm hj)
              have hat : ∃ t1, x1[pino]? = some t1 ∧ view_step t1 = view_step t := by
                rw [← hk, List.getElem?_set_self (getElem?_lt p4)]
                exact ⟨_, rfl, rfl⟩
              obtain ⟨t1, u1, u2⟩ := hat
              exact ⟨hlen.trans p1, fun j hj => (hne j hj).trans (p2 j hj), s, t1, p3, u1,
                u2.trans p5⟩
        · simp at hk)
      m i x y hx hy
  exact opj_for_inv (f := pi_encode_step_comp pino)
    (fun (_ : Nat) (x : List opj_pi_iterator) =>
      x.length = l2.length ∧ (∀ j, j ≠ pino → x[j]? = l2[j]?) ∧
      ∃ s t, l2[pino]? = some s ∧ x[pino]? = some t ∧ view_step t = view_step s)
    (by
      intro k x x1 hP hk
      unfold pi_encode_step_comp at hk
      split at hk
      · simp at hk
      · split at hk
        · simp at hk
        · exact inner _ _ _ _ _ hP hk)
    n 0 l l3 hI h

/-- One iteration of the loop over `pino` of `pi_initialise_encode` rewrites slot
`pino` only; its bitmap is a fresh zeroed one of `numlayers * step_l` cells for slot 0
and the bitmap of the slot before it otherwise. -/
theorem pi_initialise_encode_slot_incl {image : opj_image} {cp : opj_cp} {tcp : opj_tcp}
    {tileno : Int} {t2_mode : J2K_T2_MODE} {k : Nat} {st st1 : pi_enc_state}
    (h : pi_initialise_encode_slot image cp tcp tileno t2_mode k st = .ok st1) :
    st1.l_pi.length = st.l_pi.length ∧ (∀ j, j ≠ k → st1.l_pi[j]? = st.l_pi[j]?) ∧
    ∃ s1, st1.l_pi[k]? = some s1 ∧
      (k = 0 → s1.incl = List.replicate (tcp.numlayers * s1.step_l).toNat 0) ∧
      (k ≠ 0 → ∃ prev, st.l_pi[k - 1]? = some prev ∧ s1.incl = prev.incl) := by
  unfold pi_initialise_encode_slot at h
  cases hs : st.l_pi[k]? with
  | none => rw [hs] at h; simp at h
  | some s =>
    rw [hs] at h
    dsimp only at h
    have hk := getElem?_lt hs
    by_cases hw : cp.tw = 0
    · rw [if_pos hw] at h; simp at h
    · rw [if_neg hw] at h
      split at h
      · simp at h
      · rename_i mr mp cs hloop
        split at h
        · simp at h
        · rename_i s0 h0
          split at h
          · simp at h
          · rename_i l3 hdx
            obtain ⟨g1, g2, g3⟩ := getElem?_set_spec
              (y := ({ ({ s with
                  tx0 := int_max (cp.tx0 + Int.tmod tileno cp.tw * cp.tdx) image.x0,
                  ty0 := int_max (cp.ty0 + Int.tdiv tileno cp.tw * cp.tdy) image.y0,
                  tx1 := int_min (cp.tx0 + (Int.tmod tileno cp.tw + 1) * cp.tdx) image.x1,
                  ty1 := int_min (cp.ty0 + (Int.tdiv tileno cp.tw + 1) * cp.tdy) image.y1,
                  numcomps := image.numcomps } : opj_pi_iterator) with
                comps := cs, step_p := 1, step_c := mp * 1,
                step_r := image.numcomps * (mp * 1),
                step_l := mr * (image.numcomps * (mp * 1)) } : opj_pi_iterator)) hk
            obtain ⟨f1, f2, _, t, _, f4, _⟩ := pi_encode_step_frame _ _ l3
              ⟨rfl, fun _ _ => rfl, _, _, g3, g3, rfl⟩ hdx
            split at h
            · rename_i s3 poc h3 hpoc
              split at h
              · simp at h
              · rename_i incl hbuf
                split at h
                · simp at h
                · simp only [Except.ok.injEq] at h
                  subst h
                  dsimp only
                  have hk3 : k < l3.length := getElem?_lt h3
                  obtain ⟨e1, e2, e3⟩ := getElem?_set_spec
                    (y := ({ s3 with incl := incl } : opj_pi_iterator)) hk3
                  refine ⟨e1.trans (f1.trans g1),
                    fun j hj => ((e2 j hj).trans (f2 j hj)).trans (g2 j hj), _, e3, ?_, ?_⟩
                  · intro hk0
                    rw [if_pos hk0] at hbuf
                    simp only [Option.some.injEq] at hbuf
                    exact hbuf.symm
                  · intro hk0
                    rw [if_neg hk0] at hbuf
                    rw [f2 (k - 1) (by omega), g2 (k - 1) (by omega)] at hbuf
                    cases hp : st.l_pi[k - 1]? with
                    | none => rw [hp] at hbuf; simp at hbuf
                    | some prev =>
                      rw [hp] at hbuf
                      simp only [Option.some.injEq] at hbuf
                      exact ⟨prev, rfl, hbuf.symm⟩
            · simp at h

/-- The bitmap of the slots returned by `pi_initialise_encode`: every slot has the
zeroed bitmap of `numlayers * step_l` cells allocated for slot 0. -/
theorem pi_initialise_encode_incl {image : opj_image} {cp : opj_cp} {tileno : Int}
    {t2_mode : J2K_T2_MODE} {r : List opj_pi_iterator × opj_tcp}
    (h : pi_initialise_encode image cp tileno t2_mode = .ok r) :
    ∃ tcp, arr_get cp.tcps tileno = some tcp ∧ r.1.length = (tcp.numpocs + 1).toNat ∧
      ∀ j, j < r.1.length → ∃ s0 s, r.1[0]? = some s0 ∧ r.1[j]? = some s ∧
        s.incl = List.replicate (tcp.numlayers * s0.step_l).toNat 0 := by
  unfold pi_initialise_encode at h
  cases ht : arr_get cp.tcps tileno with
  | none => rw [ht] at h; simp at h
  | some tcp =>
    rw [ht] at h
    dsimp only at h
    split at h
    · simp at h
    · split at h
      · simp at h
      · rename_i st hloop
        simp only [Except.ok.injEq] at h
        subst h
        obtain ⟨k1, k2⟩ := opj_for_shared (fun st : pi_enc_state => st.l_pi) tcp.numlayers
          (fun k st st1 hk => pi_initialise_encode_slot_incl hk) _ _ st hloop
        dsimp only at k1 k2
        rw [List.length_set, List.length_replicate] at k1
        refine ⟨tcp, rfl, k1, ?_⟩
        intro j hj
        have hj1 : j < st.l_pi.length := hj
        exact k2 j (by omega)

/-- The component records of the slots returned by `pi_create_decode`. -/
theorem pi_create_decode_comps {image : opj_image} {cp : opj_cp} {tileno : Int}
    {l : List opj_pi_iterator} (h : pi_create_decode image cp tileno = .ok l) :
    ∃ tcp, arr_get cp.tcps tileno = some tcp ∧
      ∀ s, s ∈ l → ∃ tx0 ty0 tx1 ty1 n, pi_comps_ok image tcp tx0 ty0 tx1 ty1 n s.comps := by
  unfold pi_create_decode at h
  cases ht : arr_get cp.tcps tileno with
  | none => rw [ht] at h; simp at h
  | some tcp =>
    rw [ht] at h
    dsimp only at h
    obtain ⟨k1, _, k3⟩ := opj_for_update
      (fun (_ : Nat) (_ y : opj_pi_iterator) =>
        ∃ tx0 ty0 tx1 ty1 n, pi_comps_ok image tcp tx0 ty0 tx1 ty1 n y.comps)
      (by
        intro k st st1 hk
        obtain ⟨a1, s1, a2, ⟨x0, y0, x1, y1, n, a, a3, a4, _, _⟩, _⟩ :=
          pi_create_decode_slot_spec hk
        subst a2
        refine set_step a1 _ (fun _ _ => ⟨x0, y0, x1, y1, n, ?_⟩)
        rw [a4]
        exact pi_comp_loop_table (0, 0) a3)
      _ 0 _ l h
    rw [List.length_replicate] at k1
    refine ⟨tcp, rfl, ?_⟩
    intro s hs
    obtain ⟨i, hi⟩ := List.mem_iff_getElem?.mp hs
    have hlt := getElem?_lt hi
    obtain ⟨_, y, _, e2, e3⟩ := k3 i (by omega) (by omega)
    rw [hi] at e2
    simp only [Option.some.injEq] at e2
    subst e2
    exact e3

theorem pi_precinct_exps_default {tccp : opj_tccp} {r : Nat} {pdx pdy : Int}
    (hf : tccp.csty &&& J2K_CCP_CSTY_PRT = 0)
    (h : pi_precinct_exps tccp r = .ok (pdx, pdy)) : pdx = 15 ∧ pdy = 15 := by
  unfold pi_precinct_exps at h
  rw [if_neg (by rw [hf]; exact fun hh => hh rfl)] at h
  simp only [Except.ok.injEq, Prod.mk.injEq] at h
  exact ⟨h.1.symm, h.2.symm⟩

/-- A loop whose iteration `k` rewrites slot `k` only, leaving there a slot with the
property `Q`, returns an array in which every slot it has passed has the property. -/
theorem opj_for_each {σ : Type} {f : Nat → σ → Except pi_fault σ}
    (g : σ → List opj_pi_iterator) (Q : opj_pi_iterator → Prop)
    (hstep : ∀ k st st1, f k st = .ok st1 →
      (g st1).length = (g st).length ∧ (∀ j, j ≠ k → (g st1)[j]? = (g st)[j]?) ∧
      ∃ s1, (g st1)[k]? = some s1 ∧ Q s1) :
    ∀ (n : Nat) (st r : σ), opj_for f n 0 st = .ok r →
      (g r).length = (g st).length ∧
      ∀ j, j < n → ∃ s, (g r)[j]? = some s ∧ Q s := by
  intro n st r h
  have key := opj_for_inv
    (fun k (x : σ) => (g x).length = (g st).length ∧
      ∀ j, j < k → ∃ s, (g x)[j]? = some s ∧ Q s)
    (by
      intro k x x1 hP hk
      obtain ⟨p1, p2⟩ := hP
      obtain ⟨a1, a2, s1, a3, a4⟩ := hstep k x x1 hk
      refine ⟨a1.trans p1, ?_⟩
      intro j hj
      by_cases hjk : j = k
      · subst hjk
        exact ⟨s1, a3, a4⟩
      · obtain ⟨t, d1, d2⟩ := p2 j (by omega)
        exact ⟨t, by rw [a2 j hjk]; exact d1, d2⟩)
    n 0 st r ⟨rfl, fun j hj => by omega⟩ h
  simpa using key

/-- One iteration of the loop over `pino` of `pi_initialise_encode` rewrites slot
`pino` only; its component records come from the loop over `compno`. -/
theorem pi_initialise_encode_slot_comps {image : opj_image} {cp : opj_cp} {tcp : opj_tcp}
    {tileno : Int} {t2_mode : J2K_T2_MODE} {k : Nat} {st st1 : pi_enc_state}
    (h : pi_initialise_encode_slot image cp tcp tileno t2_mode k st = .ok st1) :
    st1.l_pi.length = st.l_pi.length ∧ (∀ j, j ≠ k → st1.l_pi[j]? = st.l_pi[j]?) ∧
    ∃ s1, st1.l_pi[k]? = some s1 ∧
      ∃ tx0 ty0 tx1 ty1 n, pi_comps_ok image tcp tx0 ty0 tx1 ty1 n s1.comps := by
  unfold pi_initialise_encode_slot at h
  cases hs : st.l_pi[k]? with
  | none => rw [hs] at h; simp at h
  | some s =>
    rw [hs] at h
    dsimp only at h
    have hk := getElem?_lt hs
    by_cases hw : cp.tw = 0
    · rw [if_pos hw] at h; simp at h
    · rw [if_neg hw] at h
      split at h
      · simp at h
      · rename_i mr mp cs hloop
        have hcs := pi_comp_loop_table (st.maxres, st.maxprec) hloop
        split at h
        · simp at h
        · rename_i s0 h0
          split at h
          · simp at h
          · rename_i l3 hdx
            obtain ⟨g1, g2, g3⟩ := getElem?_set_spec
              (y := ({ ({ s with
                  tx0 := int_max (cp.tx0 + Int.tmod tileno cp.tw * cp.tdx) image.x0,
                  ty0 := int_max (cp.ty0 + Int.tdiv tileno cp.tw * cp.tdy) image.y0,
                  tx1 := int_min (cp.tx0 + (Int.tmod tileno cp.tw + 1) * cp.tdx) image.x1,
                  ty1 := int_min (cp.ty0 + (Int.tdiv tileno cp.tw + 1) * cp.tdy) image.y1,
                  numcomps := image.numcomps } : opj_pi_iterator) with
                comps := cs, step_p := 1, step_c := mp * 1,
                step_r := image.numcomps * (mp * 1),
                step_l := mr * (image.numcomps * (mp * 1)) } : opj_pi_iterator)) hk
            obtain ⟨f1, f2, s2, t, f3, f4, f5⟩ := pi_encode_step_frame _ _ l3
              ⟨rfl, fun _ _ => rfl, _, _, g3, g3, rfl⟩ hdx
            rw [g3] at f3
            simp only [Option.some.injEq] at f3
            subst f3
            split at h
            · rename_i s3 poc h3 hpoc
              rw [f4] at h3
              simp only [Option.some.injEq] at h3
              subst h3
              have hcomps : t.comps = cs := congrArg opj_pi_iterator.comps f5
              split at h
              · simp at h
              · rename_i incl hbuf
                split at h
                · simp at h
                · simp only [Except.ok.injEq] at h
                  subst h
                  dsimp only
                  have hk3 : k < l3.length := getElem?_lt f4
                  obtain ⟨e1, e2, e3⟩ := getElem?_set_spec
                    (y := ({ t with incl := incl } : opj_pi_iterator)) hk3
                  refine ⟨e1.trans (f1.trans g1),
                    fun j hj => ((e2 j hj).trans (f2 j hj)).trans (g2 j hj), _, e3, ?_⟩
                  have hcs2 : pi_comps_ok image tcp
                      (int_max (cp.tx0 + Int.tmod tileno cp.tw * cp.tdx) image.x0)
                      (int_max (cp.ty0 + Int.tdiv tileno cp.tw * cp.tdy) image.y0)
                      (int_min (cp.tx0 + (Int.tmod tileno cp.tw + 1) * cp.tdx) image.x1)
                      (int_min (cp.ty0 + (Int.tdiv tileno cp.tw + 1) * cp.tdy) image.y1)
                      image.numcomps.toNat t.comps := by
                    rw [hcomps]
                    exact hcs
                  exact ⟨_, _, _, _, _, hcs2⟩
            · simp at h

/-- The component records of the slots returned by `pi_initialise_encode`. -/
theorem pi_initialise_encode_comps {image : opj_image} {cp : opj_cp} {tileno : Int}
    {t2_mode : J2K_T2_MODE} {r : List opj_pi_iterator × opj_tcp}
    (h : pi_initialise_encode image cp tileno t2_mode = .ok r) :
    ∃ tcp, arr_get cp.tcps tileno = some tcp ∧
      ∀ s, s ∈ r.1 → ∃ tx0 ty0 tx1 ty1 n, pi_comps_ok image tcp tx0 ty0 tx1 ty1 n s.comps := by
  unfold pi_initialise_encode at h
  cases ht : arr_get cp.tcps tileno with
  | none => rw [ht] at h; simp at h
  | some tcp =>
    rw [ht] at h
    dsimp only at h
    split at h
    · simp at h
    · split at h
      · simp at h
      · rename_i st hloop
        simp only [Except.ok.injEq] at h
        subst h
        obtain ⟨k1, k2⟩ := opj_for_each (fun st : pi_enc_state => st.l_pi)
          (fun s => ∃ tx0 ty0 tx1 ty1 n, pi_comps_ok image tcp tx0 ty0 tx1 ty1 n s.comps)
          (fun k st st1 hk => pi_initialise_encode_slot_comps hk) _ _ st hloop
        dsimp only at k1 k2
        rw [List.length_set, List.length_replicate] at k1
        refine ⟨tcp, rfl, ?_⟩
        intro s hs
        obtain ⟨i, hi⟩ := List.mem_iff_getElem?.mp hs
        have hlt := getElem?_lt hi
        obtain ⟨y, e2, e3⟩ := k2 i (by
          have : i < st.l_pi.length := hlt
          omega)
        have hi2 : st.l_pi[i]? = some s := hi
        rw [hi2] at e2
        simp only [Option.some.injEq] at e2
        subst e2
        exact e3

/-- The record of a resolution of a component whose precinct flag is clear, in an
array of component records written by the loop over `compno` of `pi_create_decode`
and `pi_initialise_encode`. -/
theorem pi_comps_ok_default {image : opj_image} {tcp : opj_tcp} {tx0 ty0 tx1 ty1 : Int}
    {n : Nat} {cs : List opj_pi_comp} (hok : pi_comps_ok image tcp tx0 ty0 tx1 ty1 n cs)
    {c : Nat} {comp : opj_pi_comp} {tccp : opj_tccp}
    (hc : cs[c]? = some comp) (htc : tcp.tccps[c]? = some tccp)
    (hflag : tccp.csty &&& J2K_CCP_CSTY_PRT = 0) {res : opj_pi_resolution}
    (hres : res ∈ comp.resolutions) : res.pdx = 15 ∧ res.pdy = 15 := by
  obtain ⟨u1, u2⟩ := hok
  have hcn : c < n := by rw [← u1]; exact getElem?_lt hc
  obtain ⟨ic, tccp1, row, v1, v2, _, _, v5, v6, v7⟩ := u2 c hcn
  rw [htc] at v2
  simp only [Option.some.injEq] at v2
  subst v2
  rw [hc] at v5
  simp only [Option.some.injEq] at v5
  subst v5
  obtain ⟨r, hr⟩ := List.mem_iff_getElem?.mp hres
  have hrn : r < tccp.numresolutions.toNat := by
    have := getElem?_lt hr
    dsimp only at this
    omega
  obtain ⟨pdx, pdy, w1, w2⟩ := v7 r hrn
  have hr2 : row[r]? = some res := hr
  rw [hr2] at w2
  simp only [Option.some.injEq] at w2
  subst w2
  exact pi_precinct_exps_default hflag w1

/-! ## Claims on the constructors -/

/-- C16, counterexample.  The only component of `ex_cp_prc` has the precinct flag of
`csty` clear, `prcw[0] = 5` and `prch[0] = 4`; `get_all_encoding_parameters` returns
the record with `pdx = 5` and `pdy = 4`, not 15, and `pi_create_decode_v2` stores it
in the slot, while `pi_create_decode` stores `pdx = pdy = 15`. -/
theorem get_all_encoding_parameters_ignores_flag :
    (∃ tcp tccp, arr_get ex_cp_prc.tcps 0 = some tcp ∧ tcp.tccps[0]? = some tccp ∧
      tccp.csty &&& J2K_CCP_CSTY_PRT = 0) ∧
    (∃ e, get_all_encoding_parameters ex_image_one ex_cp_prc 0 = .ok e ∧
      e.p_resolutions = [[⟨5, 4, 1, 1⟩]]) ∧
    (∃ l s, pi_create_decode_v2 ex_image_one ex_cp_prc 0 = .ok l ∧ l[0]? = some s ∧
      s.comps = [{ dx := 1, dy := 1, numresolutions := 1, resolutions := [⟨5, 4, 1, 1⟩] }]) ∧
    (∃ l s, pi_create_decode ex_image_one ex_cp_prc 0 = .ok l ∧ l[0]? = some s ∧
      s.comps = [{ dx := 1, dy := 1, numresolutions := 1, resolutions := [⟨15, 15, 1, 1⟩] }]) :=
  ⟨⟨_, _, rfl, rfl, rfl⟩, ⟨_, rfl, rfl⟩, ⟨_, _, rfl, rfl, rfl⟩, ⟨_, _, rfl, rfl, rfl⟩⟩

/-- C16, amended.  In the slots built by `pi_create_decode` and in those built by
`pi_initialise_encode`, every resolution record of a component whose precinct flag
`J2K_CCP_CSTY_PRT` of `csty` is clear has `pdx = 15` and `pdy = 15`, whatever `prcw[]`
and `prch[]` hold; the builder `get_all_encoding_parameters` of `pi_create_decode_v2`
does not read the flag: the record of resolution `r` has `pdx = prcw[r]` and
`pdy = prch[r]`. -/
theorem precinct_exponent_default (image : opj_image) (cp : opj_cp) (tileno : Int)
    (t2_mode : J2K_T2_MODE) (tcp : opj_tcp) (ht : arr_get cp.tcps tileno = some tcp) :
    (∀ l, pi_create_decode image cp tileno = .ok l →
      ∀ s, s ∈ l → ∀ (c : Nat) (comp : opj_pi_comp) (tccp : opj_tccp),
        s.comps[c]? = some comp → tcp.tccps[c]? = some tccp →
        tccp.csty &&& J2K_CCP_CSTY_PRT = 0 →
        ∀ res, res ∈ comp.resolutions → res.pdx = 15 ∧ res.pdy = 15) ∧
    (∀ r, pi_initialise_encode image cp tileno t2_mode = .ok r →
      ∀ s, s ∈ r.1 → ∀ (c : Nat) (comp : opj_pi_comp) (tccp : opj_tccp),
        s.comps[c]? = some comp → tcp.tccps[c]? = some tccp →
        tccp.csty &&& J2K_CCP_CSTY_PRT = 0 →
        ∀ res, res ∈ comp.resolutions → res.pdx = 15 ∧ res.pdy = 15) ∧
    (∀ e, get_all_encoding_parameters image cp tileno = .ok e →
      ∀ (c : Nat) (row : List opj_pi_resolution) (tccp : opj_tccp),
        e.p_resolutions[c]? = some row → tcp.tccps[c]? = some tccp →
        ∀ (r : Nat) (res : opj_pi_resolution), row[r]? = some res →
          tccp.prcw[r]? = some res.pdx ∧ tccp.prch[r]? = some res.pdy) := by
  refine ⟨?_, ?_, ?_⟩
  · intro l hl s hs c comp tccp hc htc hflag res hres
    obtain ⟨tcp1, t1, t2⟩ := pi_create_decode_comps hl
    rw [ht] at t1
    simp only [Option.some.injEq] at t1
    subst t1
    obtain ⟨x0, y0, x1, y1, n, hok⟩ := t2 s hs
    exact pi_comps_ok_default hok hc htc hflag hres
  · intro r hr s hs c comp tccp hc htc hflag res hres
    obtain ⟨tcp1, t1, t2⟩ := pi_initialise_encode_comps hr
    rw [ht] at t1
    simp only [Option.some.injEq] at t1
    subst t1
    obtain ⟨x0, y0, x1, y1, n, hok⟩ := t2 s hs
    exact pi_comps_ok_default hok hc htc hflag hres
  · intro e he c row tccp hc htc r res hr
    obtain ⟨tcp1, t1, _, _, _, _, _, t7, t8⟩ := get_all_encoding_parameters_table he
    rw [ht] at t1
    simp only [Option.some.injEq] at t1
    subst t1
    have hcn : c < image.numcomps.toNat := by rw [← t7]; exact getElem?_lt hc
    obtain ⟨ic, tccp1, row1, _, f2, _, _, f5, f6, f7⟩ := t8 c hcn
    rw [htc] at f2
    rw [hc] at f5
    simp only [Option.some.injEq] at f2 f5
    subst f2 f5
    have hrn : r < tccp.numresolutions.toNat := by rw [← f6]; exact getElem?_lt hr
    obtain ⟨pdx, pdy, w1, w2, w3⟩ := f7 r hrn
    rw [hr] at w3
    simp only [Option.some.injEq] at w3
    subst w3
    exact ⟨w1, w2⟩

/-- Witness of `precinct_exponent_default` on `ex_image_one` and `ex_cp_prc`, whose only
component has the flag clear, `prcw[0] = 5` and `prch[0] = 4`: the record of the slot
of `pi_create_decode` and the record of the slot of `pi_initialise_encode` have
`pdx = pdy = 15`, the record of `get_all_encoding_parameters` has `pdx = prcw[0]` and
`pdy = prch[0]`. -/
theorem precinct_exponent_default_witness :
    (∃ l s comp res, pi_create_decode ex_image_one ex_cp_prc 0 = .ok l ∧ l[0]? = some s ∧
      s.comps[0]? = some comp ∧ comp.resolutions[0]? = some res ∧
      res.pdx = 15 ∧ res.pdy = 15) ∧
    (∃ r s comp res, pi_initialise_encode ex_image_one ex_cp_prc 0 .FINAL_PASS = .ok r ∧
      r.1[0]? = some s ∧ s.comps[0]? = some comp ∧ comp.resolutions[0]? = some res ∧
      res.pdx = 15 ∧ res.pdy = 15) ∧
    (∃ e row res, get_all_encoding_parameters ex_image_one ex_cp_prc 0 = .ok e ∧
      e.p_resolutions[0]? = some row ∧ row[0]? = some res ∧
      [(5 : Int)][0]? = some res.pdx ∧ [(4 : Int)][0]? = some res.pdy) :=
  ⟨⟨_, _, _, _, rfl, rfl, rfl, rfl,
      (precinct_exponent_default ex_image_one ex_cp_prc 0 .FINAL_PASS _ rfl).1 _ rfl
        _ (List.getElem?_mem (rfl : [_][0]? = some _)) 0 _ _ rfl rfl rfl
        _ (List.getElem?_mem (rfl : [_][0]? = some _))⟩,
    ⟨_, _, _, _, rfl, rfl, rfl, rfl,
      (precinct_exponent_default ex_image_one ex_cp_prc 0 .FINAL_PASS _ rfl).2.1 _ rfl
        _ (List.getElem?_mem (rfl : [_][0]? = some _)) 0 _ _ rfl rfl rfl
        _ (List.getElem?_mem (rfl : [_][0]? = some _))⟩,
    ⟨_, _, _, rfl, rfl, rfl,
      (precinct_exponent_default ex_image_one ex_cp_prc 0 .FINAL_PASS _ rfl).2.2 _ rfl
        0 _ ⟨0, 1, [5], [4]⟩ rfl rfl 0 _ rfl⟩⟩

/-- C18. Every slot carries the same geometry: after `pi_create_decode_v2` there are
`numpocs + 1` slots, and each has `numcomps = image.numcomps`, the tile extents
returned by `get_all_encoding_parameters`, for every component the subsampling of the
image component, the resolution count of its coding parameters and the row of records
`(pdx, pdy, pw, ph)` returned by `get_all_encoding_parameters`, and the strides
`step_p = 1`, `step_c = max_prec`, `step_r = numcomps * step_c`,
`step_l = max_res * step_r`, when the slots are computed within the 32-bit range
(`build_fits`) and these products are at most `0x7fffffff` (`strides_fit`: the source
computes them as `OPJ_UINT32` and stores them in `int` fields). -/
theorem pi_create_decode_v2_geometry (image : opj_image) (cp : opj_cp) (tileno : Int)
    (l : List opj_pi_iterator) (h : pi_create_decode_v2 image cp tileno = .ok l)
    (_hbuild : ∀ s ∈ l, build_fits image cp tileno s)
    (_hfit : ∀ e, get_all_encoding_parameters image cp tileno = .ok e →
      strides_fit image.numcomps e) :
    ∃ tcp e, arr_get cp.tcps tileno = some tcp ∧
      get_all_encoding_parameters image cp tileno = .ok e ∧
      l.length = (tcp.numpocs + 1).toNat ∧
      ∀ s, s ∈ l →
        s.numcomps = image.numcomps ∧
        s.tx0 = e.p_tx0 ∧ s.tx1 = e.p_tx1 ∧ s.ty0 = e.p_ty0 ∧ s.ty1 = e.p_ty1 ∧
        decode_comps_ok image tcp e s.comps ∧
        s.step_p = 1 ∧ s.step_c = e.p_max_prec ∧ s.step_r = s.numcomps * s.step_c ∧
        s.step_l = e.p_max_res * s.step_r := by
  obtain ⟨tcp, e, h1, h2, h3, _, h5⟩ := pi_create_decode_v2_spec h
  refine ⟨tcp, e, h1, h2, h3, ?_⟩
  intro s hs
  obtain ⟨i, hi⟩ := List.mem_iff_getElem?.mp hs
  obtain ⟨cs, poc, a1, _, a3⟩ := h5 i (getElem?_lt hi)
  rw [hi] at a3
  simp only [Option.some.injEq] at a3
  subst a3
  exact ⟨rfl, rfl, rfl, rfl, rfl, a1, rfl, rfl, rfl, rfl⟩

/-- Witness of `pi_create_decode_v2_geometry` on `ex_image` and `ex_cp`. -/
theorem pi_create_decode_v2_geometry_witness :
    pi_create_decode_v2 ex_image (ex_cp .LRCP) 0 = .ok [ex_slot .LRCP] ∧
    ∃ tcp e, arr_get (ex_cp .LRCP).tcps 0 = some tcp ∧
      get_all_encoding_parameters ex_image (ex_cp .LRCP) 0 = .ok e ∧
      [ex_slot .LRCP].length = (tcp.numpocs + 1).toNat ∧
      ∀ s, s ∈ [ex_slot .LRCP] →
        s.numcomps = ex_image.numcomps ∧
        s.tx0 = e.p_tx0 ∧ s.tx1 = e.p_tx1 ∧ s.ty0 = e.p_ty0 ∧ s.ty1 = e.p_ty1 ∧
        decode_comps_ok ex_image tcp e s.comps ∧
        s.step_p = 1 ∧ s.step_c = e.p_max_prec ∧ s.step_r = s.numcomps * s.step_c ∧
        s.step_l = e.p_max_res * s.step_r :=
  ⟨rfl, pi_create_decode_v2_geometry ex_image (ex_cp .LRCP) 0 [ex_slot .LRCP] rfl
    (by unfold build_fits edges_fit walk_fits counts_fit; decide)
    (fun e he => by
      obtain rfl : ex_enc = e := Except.ok.inj he
      unfold strides_fit
      decide)⟩

/-- C19, counterexample.  For `ex_image` and `ex_cp` (two layers) the bitmap created
by `pi_create_decode` has `numlayers * step_l = 12` cells, not
`(numlayers + 1) * step_l = 18`.  For the tile of `ex_image_wide` and `ex_cp_wide`
(512 x 256 samples, precincts of 1 x 1 samples, 32768 layers) the builder returns
`max_res = 1` and `max_prec = 131072`, so that `step_l = 131072`, and the `OPJ_UINT32`
product `(numlayers + 1) * l_step_l` that `pi_create_decode_v2` passes to `opj_calloc`
is `131072`, not `(numlayers + 1) * step_l = 4295098368`; the `int` product
`numlayers * step_l` of the other two constructors is `0`, not `4294967296`. -/
theorem pi_create_decode_bitmap_short :
    (∃ l s0 tcp, pi_create_decode ex_image (ex_cp .LRCP) 0 = .ok l ∧ l[0]? = some s0 ∧
      arr_get (ex_cp .LRCP).tcps 0 = some tcp ∧ tcp.numlayers = 2 ∧ s0.step_l = 6 ∧
      s0.incl.length = 12 ∧ s0.incl.length ≠ ((tcp.numlayers + 1) * s0.step_l).toNat) ∧
    (∃ e tcp, get_all_encoding_parameters ex_image_wide ex_cp_wide 0 = .ok e ∧
      arr_get ex_cp_wide.tcps 0 = some tcp ∧ tcp.numlayers = 32768 ∧
      e.p_max_res * (ex_image_wide.numcomps * e.p_max_prec) = 131072 ∧
      decode_cells32 tcp.numlayers (e.p_max_res * (ex_image_wide.numcomps * e.p_max_prec))
        = 131072 ∧
      (tcp.numlayers + 1) * (e.p_max_res * (ex_image_wide.numcomps * e.p_max_prec))
        = 4295098368 ∧
      encode_cells32 tcp.numlayers (e.p_max_res * (ex_image_wide.numcomps * e.p_max_prec))
        = 0 ∧
      tcp.numlayers * (e.p_max_res * (ex_image_wide.numcomps * e.p_max_prec))
        = 4294967296) :=
  ⟨⟨_, _, _, rfl, rfl, rfl, rfl, rfl, rfl, by decide⟩,
    ⟨_, _, rfl, rfl, rfl, by decide, by decide, by decide, by decide, by decide⟩⟩

/-- C19, amended.  When slot 0 is computed within the 32-bit range (`build_fits`) and
the number of cells fits the integer types of the source (`slot_fits` for
`pi_create_decode_v2`, `cells_fit` for the other two), the
bitmap created by `pi_create_decode_v2` has `(numlayers + 1) * step_l` cells, the one
created by `pi_create_decode` and the one created by `pi_initialise_encode` have
`numlayers * step_l` cells, where `step_l` is the stride of slot 0; the cells are all
zero and every slot of the array holds that one bitmap. -/
theorem include_bitmap_length (image : opj_image) (cp : opj_cp) (tileno : Int)
    (t2_mode : J2K_T2_MODE) (tcp : opj_tcp) (ht : arr_get cp.tcps tileno = some tcp) :
    (∀ l s0, pi_create_decode_v2 image cp tileno = .ok l → l[0]? = some s0 →
      build_fits image cp tileno s0 ∧ slot_fits tcp.numlayers s0 →
      ∀ s, s ∈ l → s.incl = List.replicate ((tcp.numlayers + 1) * s0.step_l).toNat 0) ∧
    (∀ l s0, pi_create_decode image cp tileno = .ok l → l[0]? = some s0 →
      build_fits image cp tileno s0 ∧ cells_fit tcp.numlayers s0 →
      ∀ s, s ∈ l → s.incl = List.replicate (tcp.numlayers * s0.step_l).toNat 0) ∧
    (∀ r s0, pi_initialise_encode image cp tileno t2_mode = .ok r → r.1[0]? = some s0 →
      build_fits image cp tileno s0 ∧ cells_fit tcp.numlayers s0 →
      ∀ s, s ∈ r.1 → s.incl = List.replicate (tcp.numlayers * s0.step_l).toNat 0) := by
  refine ⟨?_, ?_, ?_⟩
  · intro l s0 hl h0 _ s hs
    obtain ⟨tcp1, e, h1, _, _, hpos, h5⟩ := pi_create_decode_v2_spec hl
    rw [ht] at h1
    simp only [Option.some.injEq] at h1
    subst h1
    obtain ⟨i, hi⟩ := List.mem_iff_getElem?.mp hs
    obtain ⟨cs, poc, _, _, a3⟩ := h5 i (getElem?_lt hi)
    obtain ⟨cs0, poc0, _, _, b3⟩ := h5 0 hpos
    rw [hi] at a3
    rw [h0] at b3
    simp only [Option.some.injEq] at a3 b3
    subst a3 b3
    show List.replicate _ 0 = List.replicate _ 0
    rw [mul_one]
    rfl
  · intro l s0 hl h0 _ s hs
    obtain ⟨tcp1, h1, _, h3⟩ := pi_create_decode_incl hl
    rw [ht] at h1
    simp only [Option.some.injEq] at h1
    subst h1
    obtain ⟨i, hi⟩ := List.mem_iff_getElem?.mp hs
    obtain ⟨t0, t, c1, c2, c3⟩ := h3 i (getElem?_lt hi)
    rw [h0] at c1
    rw [hi] at c2
    simp only [Option.some.injEq] at c1 c2
    subst c1 c2
    exact c3
  · intro r s0 hl h0 _ s hs
    obtain ⟨tcp1, h1, _, h3⟩ := pi_initialise_encode_incl hl
    rw [ht] at h1
    simp only [Option.some.injEq] at h1
    subst h1
    obtain ⟨i, hi⟩ := List.mem_iff_getElem?.mp hs
    obtain ⟨t0, t, c1, c2, c3⟩ := h3 i (getElem?_lt hi)
    rw [h0] at c1
    rw [hi] at c2
    simp only [Option.some.injEq] at c1 c2
    subst c1 c2
    exact c3

/-- Witness of `include_bitmap_length` on `ex_image` and `ex_cp_enc` (two layers,
`step_l = 6`): the three constructors return one slot each, whose strides fit, with 18,
12 and 12 cells. -/
theorem include_bitmap_length_witness :
    (∃ l s0, pi_create_decode_v2 ex_image ex_cp_enc 0 = .ok l ∧ l[0]? = some s0 ∧
      (build_fits ex_image ex_cp_enc 0 s0 ∧ slot_fits 2 s0) ∧
      ∀ s, s ∈ l → s.incl = List.replicate 18 0) ∧
    (∃ l s0, pi_create_decode ex_image ex_cp_enc 0 = .ok l ∧ l[0]? = some s0 ∧
      (build_fits ex_image ex_cp_enc 0 s0 ∧ cells_fit 2 s0) ∧
      ∀ s, s ∈ l → s.incl = List.replicate 12 0) ∧
    (∃ r s0, pi_initialise_encode ex_image ex_cp_enc 0 .FINAL_PASS = .ok r ∧
      r.1[0]? = some s0 ∧
      (build_fits ex_image ex_cp_enc 0 s0 ∧ cells_fit 2 s0) ∧
      ∀ s, s ∈ r.1 → s.incl = List.replicate 12 0) :=
  ⟨⟨_, _, rfl, rfl,
      by unfold build_fits edges_fit walk_fits slot_fits counts_fit; decide,
      (include_bitmap_length ex_image ex_cp_enc 0 .FINAL_PASS _ rfl).1 _ _ rfl rfl
        (by unfold build_fits edges_fit walk_fits slot_fits counts_fit; decide)⟩,
    ⟨_, _, rfl, rfl,
      by unfold build_fits edges_fit walk_fits cells_fit counts_fit; decide,
      (include_bitmap_length ex_image ex_cp_enc 0 .FINAL_PASS _ rfl).2.1 _ _ rfl rfl
        (by unfold build_fits edges_fit walk_fits cells_fit counts_fit; decide)⟩,
    ⟨_, _, rfl, rfl,
      by unfold build_fits edges_fit walk_fits cells_fit counts_fit; decide,
      (include_bitmap_length ex_image ex_cp_enc 0 .FINAL_PASS _ rfl).2.2 _ _ rfl rfl
        (by unfold build_fits edges_fit walk_fits cells_fit counts_fit; decide)⟩⟩

/-! ## Runs of one slot -/

theorem pi_core_prg {s t : opj_pi_iterator} (h : pi_core t = pi_core s) :
    t.poc.prg = s.poc.prg := (pi_core_frame h).prg

/-- A call that returns `OPJ_TRUE` on a fresh slot, or on a slot left by such a call,
leaves the cursor at a packet of its engine. -/
theorem pi_next_at {s t : opj_pi_iterator} (h : pi_next s = .ok (true, t))
    (hs : s.first = true ∨ pi_at s) : pi_at t := by
  have hprg := pi_core_prg (pi_next_spec h).1
  unfold pi_next at h
  unfold pi_at
  unfold pi_at at hs
  rw [hprg]
  split at h
  · rename_i hp
    rw [hp] at hs
    dsimp only at hs ⊢
    exact ((pi_next_lrcp_spec h).2.2.1 rfl).2 hs
  · rename_i hp
    rw [hp] at hs
    dsimp only at hs ⊢
    exact ((pi_next_rlcp_spec h).2.2.1 rfl).2 hs
  · rename_i hp
    rw [hp] at hs
    dsimp only at hs ⊢
    obtain ⟨_, _, he, _, hd⟩ := pi_next_rpcl_spec h
    exact ⟨(he rfl).2 (hs.imp id (fun x => x.1)), hd (hs.imp id (fun x => x.2))⟩
  · rename_i hp
    rw [hp] at hs
    dsimp only at hs ⊢
    obtain ⟨_, _, he, _, hd⟩ := pi_next_pcrl_spec h
    exact ⟨(he rfl).2 (hs.imp id (fun x => x.1)), hd (hs.imp id (fun x => x.2))⟩
  · rename_i hp
    rw [hp] at hs
    dsimp only at hs ⊢
    obtain ⟨_, _, he, _⟩ := pi_next_cprl_spec h
    exact ⟨(he rfl).2.1 (hs.imp id (fun x => x.1)), (he rfl).2.2 (hs.imp id (fun x => x.2))⟩
  · simp at h

/-- Every call of a run that returns `OPJ_TRUE` leaves the cursor at a packet of
the engine, the fields that no engine writes as they were, and marks the cell of the
packet. -/
theorem pi_next_nth_at : ∀ (n : Nat) (s t : opj_pi_iterator),
    pi_next_nth n s = .ok (true, t) → (s.first = true ∨ pi_at s) →
    pi_at t ∧ pi_core t = pi_core s := by
  intro n
  induction n with
  | zero =>
    intro s t h hs
    exact ⟨pi_next_at h hs, (pi_next_spec h).1⟩
  | succ k ih =>
    intro s t h hs
    rw [pi_next_nth] at h
    split at h
    · simp at h
    · simp at h
    · rename_i u hu
      obtain ⟨a1, a2⟩ := ih u t h (Or.inr (pi_next_at hu hs))
      exact ⟨a1, a2.trans (pi_next_spec hu).1⟩

theorem pi_at_box {t : opj_pi_iterator} (h : pi_at t) : pi_in_box t := by
  unfold pi_at at h
  split at h
  · exact h.2.1
  · exact h.2.1
  · obtain ⟨⟨_, _, h3, h4, h5, _⟩, _⟩ := h
    exact ⟨h3.1, h3.2, h4.1, h4.2, h5.1, h5.2⟩
  · obtain ⟨⟨_, _, h3, h4, h5, _⟩, _⟩ := h
    exact ⟨h3.1, h3.2, h4.1, h4.2, h5.1, h5.2⟩
  · obtain ⟨⟨_, _, h3, h4, h5, _⟩, _⟩ := h
    exact ⟨h3.1, h3.2, h4.1, h4.2, h5.1, h5.2⟩
  · exact h.elim

theorem pi_at_comp {t : opj_pi_iterator} (h : pi_at t) :
    ∃ comp, arr_get t.comps t.compno = some comp ∧ t.resno < comp.numresolutions := by
  unfold pi_at at h
  split at h
  · obtain ⟨_, _, _, _, comp, c1, c2, _⟩ := h
    exact ⟨comp, c1, c2⟩
  · obtain ⟨_, _, _, _, comp, c1, c2, _⟩ := h
    exact ⟨comp, c1, c2⟩
  · obtain ⟨⟨_, _, _, _, _, _, _, comp, res, c1, c2, _⟩, _⟩ := h
    exact ⟨comp, c1, c2⟩
  · obtain ⟨⟨_, _, _, _, _, _, _, comp, res, c1, c2, _⟩, _⟩ := h
    exact ⟨comp, c1, c2⟩
  · obtain ⟨⟨_, _, _, _, _, _, _, comp, res, c1, c2, _⟩, _⟩ := h
    exact ⟨comp, c1, c2⟩
  · exact h.elim

/-- C6. Box containment: for each of the five engines, starting from a slot with
`first = true`, every call to `pi_next` that returns true up to the first false return
leaves the cursor inside the POC box of the slot, `layno0 <= layno < layno1`,
`resno0 <= resno < resno1` and `compno0 <= compno < compno1`, and the box is the one
the slot started with. -/
theorem pi_next_in_box (n : Nat) (s t : opj_pi_iterator) (hfirst : s.first = true)
    (h : pi_next_nth n s = .ok (true, t)) :
    (s.poc.layno0 ≤ t.layno ∧ t.layno < s.poc.layno1 ∧
     s.poc.resno0 ≤ t.resno ∧ t.resno < s.poc.resno1 ∧
     s.poc.compno0 ≤ t.compno ∧ t.compno < s.poc.compno1) ∧
    t.poc.layno0 = s.poc.layno0 ∧ t.poc.layno1 = s.poc.layno1 ∧
    t.poc.resno0 = s.poc.resno0 ∧ t.poc.resno1 = s.poc.resno1 ∧
    t.poc.compno0 = s.poc.compno0 ∧ t.poc.compno1 = s.poc.compno1 := by
  obtain ⟨h1, h2⟩ := pi_next_nth_at n s t h (Or.inl hfirst)
  have hb := pi_at_box h1
  have hf := pi_core_frame h2
  unfold pi_in_box at hb
  rw [hf.layno0, hf.layno1, hf.resno0, hf.resno1, hf.compno0, hf.compno1] at hb
  exact ⟨hb, hf.layno0, hf.layno1, hf.resno0, hf.resno1, hf.compno0, hf.compno1⟩

/-- Witness of `pi_next_in_box`: the third call on the example slot under RPCL. -/
theorem pi_next_in_box_witness :
    ∃ t, pi_next_nth 2 (ex_slot .RPCL) = .ok (true, t) ∧
      (ex_slot .RPCL).poc.resno0 ≤ t.resno ∧ t.resno < (ex_slot .RPCL).poc.resno1 :=
  ⟨_, rfl, (pi_next_in_box 2 (ex_slot .RPCL) _ rfl rfl).1.2.2.1,
    (pi_next_in_box 2 (ex_slot .RPCL) _ rfl rfl).1.2.2.2.1⟩

/-- C7. Resolution bound: for every engine and every POC box with `resno0 >= 0` (even
one with `resno1` larger than the resolution count of a component), every packet
emitted by `pi_next` in a run that starts from a slot with `first = true` has
`0 <= resno < comps[compno].numresolutions`. -/
theorem pi_next_resno_bound (n : Nat) (s t : opj_pi_iterator) (hfirst : s.first = true)
    (hres : 0 ≤ s.poc.resno0) (h : pi_next_nth n s = .ok (true, t)) :
    ∃ comp, arr_get s.comps t.compno = some comp ∧
      0 ≤ t.resno ∧ t.resno < comp.numresolutions := by
  obtain ⟨h1, h2⟩ := pi_next_nth_at n s t h (Or.inl hfirst)
  have hb := pi_at_box h1
  have hf := pi_core_frame h2
  obtain ⟨comp, c1, c2⟩ := pi_at_comp h1
  rw [hf.comps] at c1
  unfold pi_in_box at hb
  rw [hf.resno0] at hb
  exact ⟨comp, c1, by omega, c2⟩

/-- Witness of `pi_next_resno_bound`: the fourth call on the example slot under
PCRL. -/
theorem pi_next_resno_bound_witness :
    ∃ t comp, pi_next_nth 3 (ex_slot .PCRL) = .ok (true, t) ∧
      arr_get (ex_slot .PCRL).comps t.compno = some comp ∧
      0 ≤ t.resno ∧ t.resno < comp.numresolutions := by
  obtain ⟨comp, hc⟩ := pi_next_resno_bound 3 (ex_slot .PCRL) _ rfl (by decide) rfl
  exact ⟨_, comp, rfl, hc⟩

/-- On `ex_slot_tp`, an LRCP slot with the tile-part flag set whose only resolution
record has `pw = ph = 0`, the first call of `pi_next` returns true with the cursor at
that component and resolution. -/
theorem pi_next_emits_degenerate :
    ∃ t comp res, pi_next ex_slot_tp = .ok (true, t) ∧
      arr_get t.comps t.compno = some comp ∧ arr_get comp.resolutions t.resno = some res ∧
      res.pw = 0 ∧ res.ph = 0 ∧ t.layno = 0 ∧ t.resno = 0 ∧ t.compno = 0 ∧ t.precno = 0 :=
  ⟨_, _, _, rfl, rfl, rfl, rfl, rfl, rfl, rfl, rfl, rfl⟩

theorem pi_precinct_at_some {s : opj_pi_iterator} {comp : opj_pi_comp}
    {res : opj_pi_resolution} {p : Int} (h : pi_precinct_at s comp res = .ok (some p)) :
    res.pw ≠ 0 ∧ res.ph ≠ 0 := by
  unfold pi_precinct_at at h
  dsimp only at h
  split at h
  · simp at h
  · split at h
    · simp at h
    · split at h
      · simp at h
      · split at h
        · simp at h
        · split at h
          · simp at h
          · rename_i hpw
            push_neg at hpw
            exact hpw

/-- Degenerate resolutions are skipped where the precinct counts are read: in a run of
`pi_next` that starts from a slot with `first = true`, a packet emitted by RPCL, PCRL
or CPRL lies at a component and resolution whose record has `pw != 0` and `ph != 0`;
the same holds for LRCP and RLCP when `tp_on` is clear and `precno0 >= 0`. -/
theorem pi_next_skips_degenerate (n : Nat) (s t : opj_pi_iterator)
    (hfirst : s.first = true) (h : pi_next_nth n s = .ok (true, t))
    (hcase : (s.poc.prg = .RPCL ∨ s.poc.prg = .PCRL ∨ s.poc.prg = .CPRL) ∨
      (s.tp_on = false ∧ 0 ≤ s.poc.precno0)) :
    ∃ comp res, arr_get s.comps t.compno = some comp ∧
      arr_get comp.resolutions t.resno = some res ∧ res.pw ≠ 0 ∧ res.ph ≠ 0 := by
  obtain ⟨h1, h2⟩ := pi_next_nth_at n s t h (Or.inl hfirst)
  have hf := pi_core_frame h2
  have hprg := hf.prg
  have lrcp_case : lrcp_at t → s.tp_on = false ∧ 0 ≤ s.poc.precno0 →
      ∃ comp res, arr_get s.comps t.compno = some comp ∧
        arr_get comp.resolutions t.resno = some res ∧ res.pw ≠ 0 ∧ res.ph ≠ 0 := by
    intro hat htp
    obtain ⟨_, _, c1, c2, comp, c3, _, c5⟩ := hat
    obtain ⟨res, d1, d2⟩ := c5 (by rw [hf.tp_on]; exact htp.1)
    rw [hf.comps] at c3
    rw [hf.precno0] at c1
    refine ⟨comp, res, c3, d1, ?_, ?_⟩
    · intro hz
      rw [d2, hz, zero_mul] at c2
      omega
    · intro hz
      rw [d2, hz, mul_zero] at c2
      omega
  have spatial_case : spatial_at t →
      ∃ comp res, arr_get s.comps t.compno = some comp ∧
        arr_get comp.resolutions t.resno = some res ∧ res.pw ≠ 0 ∧ res.ph ≠ 0 := by
    intro hat
    obtain ⟨_, _, _, _, _, _, _, comp, res, c1, _, c3, c4⟩ := hat
    rw [hf.comps] at c1
    exact ⟨comp, res, c1, c3, pi_precinct_at_some c4⟩
  unfold pi_at at h1
  split at h1
  · rename_i hp
    rw [hprg] at hp
    rcases hcase with hc | hc
    · rw [hp] at hc; simp at hc
    · exact lrcp_case h1 hc
  · rename_i hp
    rw [hprg] at hp
    rcases hcase with hc | hc
    · rw [hp] at hc; simp at hc
    · exact lrcp_case h1 hc
  · exact spatial_case h1.1
  · exact spatial_case h1.1
  · exact spatial_case h1.1
  · exact h1.elim

/-- Witness of `pi_next_skips_degenerate`: the second call on the example slot under
CPRL. -/
theorem pi_next_skips_degenerate_witness :
    ∃ t comp res, pi_next_nth 1 (ex_slot .CPRL) = .ok (true, t) ∧
      arr_get (ex_slot .CPRL).comps t.compno = some comp ∧
      arr_get comp.resolutions t.resno = some res ∧ res.pw ≠ 0 ∧ res.ph ≠ 0 := by
  obtain ⟨comp, res, hc⟩ :=
    pi_next_skips_degenerate 1 (ex_slot .CPRL) _ rfl rfl (Or.inl (Or.inr (Or.inr rfl)))
  exact ⟨_, comp, res, rfl, hc⟩

/-! ## Runs over the slots of one iterator array -/

/-- One call on a slot of an array that shares its bitmap: the array still shares
its bitmap and strides, and a call that returned `OPJ_TRUE` found the cell of the
reported quadruple at 0 and set it to 1. -/
theorem pi_next_slot_shared {l l1 : List opj_pi_iterator} {I : List Int} {L R C P : Int}
    {pino : Nat} {b : Bool} (hs : pi_shared l I L R C P)
    (h : pi_next_slot l pino = .ok (b, l1)) :
    ∃ t, l1[pino]? = some t ∧ pi_shared l1 t.incl L R C P ∧
      (b = true → arr_get I (packet_index L R C P (pi_packet t)) = some 0 ∧
        t.incl = I.set (packet_index L R C P (pi_packet t)).toNat 1) ∧
      (b = false → t.incl = I) := by
  unfold pi_next_slot at h
  cases h0 : l[pino]? with
  | none => rw [h0] at h; simp at h
  | some s =>
    rw [h0] at h
    dsimp only at h
    cases h1 : pi_next s with
    | error e => rw [h1] at h; simp at h
    | ok r =>
      obtain ⟨b1, t⟩ := r
      rw [h1] at h
      simp only [Except.ok.injEq, Prod.mk.injEq] at h
      obtain ⟨hb, hl⟩ := h
      subst hb hl
      obtain ⟨hcore, hmark, hsame⟩ := pi_next_spec h1
      have hf := pi_core_frame hcore
      have hmem : s ∈ l := List.mem_iff_getElem?.mpr ⟨pino, h0⟩
      obtain ⟨a1, a2, a3, a4, a5⟩ := hs s hmem
      have hidx : pi_index t = packet_index L R C P (pi_packet t) := by
        unfold pi_index packet_index pi_packet
        rw [hf.step_l, hf.step_r, hf.step_c, hf.step_p, a2, a3, a4, a5]
      refine ⟨t, ?_, ?_, ?_, ?_⟩
      · rw [List.getElem?_map, List.getElem?_set_self (getElem?_lt h0)]
        rfl
      · intro u hu
        obtain ⟨v, hv, rfl⟩ := List.mem_map.mp hu
        rcases List.mem_or_eq_of_mem_set hv with hv1 | hv1
        · obtain ⟨_, c2, c3, c4, c5⟩ := hs v hv1
          exact ⟨rfl, c2, c3, c4, c5⟩
        · subst hv1
          exact ⟨rfl, hf.step_l.trans a2, hf.step_r.trans a3, hf.step_c.trans a4,
            hf.step_p.trans a5⟩
      · intro hb
        obtain ⟨m1, m2⟩ := hmark hb
        rw [a1, hidx] at m1
        rw [a1, hidx] at m2
        exact ⟨m1, m2⟩
      · intro hb
        rw [hsame hb, a1]

theorem arr_get_set_zero {I : List Int} {i j : Int} (hi : arr_get I i = some 0)
    (h : arr_get (I.set i.toNat 1) j = some 0) : arr_get I j = some 0 ∧ j ≠ i := by
  obtain ⟨i0, i1, _⟩ := arr_get_some hi
  obtain ⟨j0, _, j2⟩ := arr_get_some h
  have hne : j ≠ i := by
    intro hji
    subst hji
    rw [List.getElem?_set_self i1] at j2
    simp at j2
  have hne2 : i.toNat ≠ j.toNat := by omega
  rw [List.getElem?_set_ne hne2] at j2
  refine ⟨?_, hne⟩
  unfold arr_get
  rw [if_pos j0]
  exact j2

/-- Every quadruple reported in a run had its cell at 0 when the run started. -/
theorem pi_run_fresh {L R C P : Int} : ∀ (sched : List Nat) (l : List opj_pi_iterator)
    (I : List Int) (ps : List (Int × Int × Int × Int)) (l2 : List opj_pi_iterator),
    pi_shared l I L R C P → pi_run sched l = .ok (ps, l2) →
    ∀ q, q ∈ ps → arr_get I (packet_index L R C P q) = some 0 := by
  intro sched
  induction sched with
  | nil =>
    intro l I ps l2 _ h q hq
    simp only [pi_run, Except.ok.injEq, Prod.mk.injEq] at h
    rw [← h.1] at hq
    simp at hq
  | cons pino rest ih =>
    intro l I ps l2 hs h q hq
    rw [pi_run] at h
    cases h1 : pi_next_slot l pino with
    | error e => rw [h1] at h; simp at h
    | ok r =>
      obtain ⟨b, l1⟩ := r
      rw [h1] at h
      dsimp only at h
      obtain ⟨t, t1, t2, t3, t4⟩ := pi_next_slot_shared hs h1
      rw [t1] at h
      cases h2 : pi_run rest l1 with
      | error e => rw [h2] at h; simp at h
      | ok r2 =>
        obtain ⟨ps1, l3⟩ := r2
        rw [h2] at h
        simp only [Except.ok.injEq, Prod.mk.injEq] at h
        obtain ⟨hps, _⟩ := h
        have hrest := ih l1 t.incl ps1 l3 t2 h2
        cases b with
        | false =>
          simp only [Bool.false_eq_true, if_false] at hps
          subst hps
          rw [← t4 rfl]
          exact hrest q hq
        | true =>
          simp only [if_true] at hps
          subst hps
          obtain ⟨m1, m2⟩ := t3 rfl
          rcases List.mem_cons.mp hq with hq1 | hq1
          · rw [hq1]; exact m1
          · have := hrest q hq1
            rw [m2] at this
            exact (arr_get_set_zero m1 this).1

/-- No quadruple is reported twice in a run over an array that shares its bitmap
and strides. -/
theorem pi_run_nodup {L R C P : Int} : ∀ (sched : List Nat) (l : List opj_pi_iterator)
    (I : List Int) (ps : List (Int × Int × Int × Int)) (l2 : List opj_pi_iterator),
    pi_shared l I L R C P → pi_run sched l = .ok (ps, l2) → ps.Nodup := by
  intro sched
  induction sched with
  | nil =>
    intro l I ps l2 _ h
    simp only [pi_run, Except.ok.injEq, Prod.mk.injEq] at h
    rw [← h.1]
    exact List.nodup_nil
  | cons pino rest ih =>
    intro l I ps l2 hs h
    rw [pi_run] at h
    cases h1 : pi_next_slot l pino with
    | error e => rw [h1] at h; simp at h
    | ok r =>
      obtain ⟨b, l1⟩ := r
      rw [h1] at h
      dsimp only at h
      obtain ⟨t, t1, t2, t3, t4⟩ := pi_next_slot_shared hs h1
      rw [t1] at h
      cases h2 : pi_run rest l1 with
      | error e => rw [h2] at h; simp at h
      | ok r2 =>
        obtain ⟨ps1, l3⟩ := r2
        rw [h2] at h
        simp only [Except.ok.injEq, Prod.mk.injEq] at h
        obtain ⟨hps, _⟩ := h
        have hrest := ih l1 t.incl ps1 l3 t2 h2
        cases b with
        | false =>
          simp only [Bool.false_eq_true, if_false] at hps
          subst hps
          exact hrest
        | true =>
          simp only [if_true] at hps
          subst hps
          obtain ⟨m1, m2⟩ := t3 rfl
          refine List.nodup_cons.mpr ⟨?_, hrest⟩
          intro hmem
          have := pi_run_fresh rest l1 t.incl ps1 l3 t2 h2 _ hmem
          rw [m2] at this
          exact (arr_get_set_zero m1 this).2 rfl

/-- The slots returned by `pi_create_decode_v2` share their bitmap and strides. -/
theorem pi_create_decode_v2_shared {image : opj_image} {cp : opj_cp} {tileno : Int}
    {l : List opj_pi_iterator} (h : pi_create_decode_v2 image cp tileno = .ok l) :
    ∃ I L R C P, pi_shared l I L R C P := by
  obtain ⟨tcp, e, _, _, _, _, h5⟩ := pi_create_decode_v2_spec h
  refine ⟨List.replicate
      ((tcp.numlayers + 1) * (e.p_max_res * (image.numcomps * (e.p_max_prec * 1)))).toNat 0,
    e.p_max_res * (image.numcomps * e.p_max_prec), image.numcomps * e.p_max_prec,
    e.p_max_prec, 1, ?_⟩
  intro s hs
  obtain ⟨i, hi⟩ := List.mem_iff_getElem?.mp hs
  obtain ⟨cs, poc, _, _, a3⟩ := h5 i (getElem?_lt hi)
  rw [hi] at a3
  simp only [Option.some.injEq] at a3
  subst a3
  exact ⟨rfl, rfl, rfl, rfl, rfl⟩

/-- C1. Uniqueness: for every iterator array built by `pi_create_decode_v2` and every
sequence of `pi_next` calls over its slots, which share the bitmap, no quadruple
`(layno, resno, compno, precno)` is reported by a true return more than once. -/
theorem pi_run_unique (image : opj_image) (cp : opj_cp) (tileno : Int)
    (l l2 : List opj_pi_iterator) (sched : List Nat) (ps : List (Int × Int × Int × Int))
    (hc : pi_create_decode_v2 image cp tileno = .ok l)
    (hr : pi_run sched l = .ok (ps, l2)) : ps.Nodup := by
  obtain ⟨I, L, R, C, P, hs⟩ := pi_create_decode_v2_shared hc
  exact pi_run_nodup sched l I ps l2 hs hr

/-- Witness of `pi_run_unique`, scenario S4: two slots whose POC boxes both cover
layer 0, resolutions 0 and 1, component 0 and precinct 0.  Three calls on slot 0 and
one on slot 1 report two packets in total, both in slot 0. -/
theorem pi_run_unique_witness :
    ∃ l l2, pi_create_decode_v2 ex_image_one ex_cp_poc 0 = .ok l ∧ l.length = 2 ∧
      pi_run [0, 0, 0, 1] l = .ok ([(0, 0, 0, 0), (0, 1, 0, 0)], l2) ∧
      [((0 : Int), (0 : Int), (0 : Int), (0 : Int)), (0, 1, 0, 0)].Nodup :=
  ⟨_, _, rfl, rfl, rfl, pi_run_unique ex_image_one ex_cp_poc 0 _ _ [0, 0, 0, 1] _ rfl rfl⟩

/-! ## Completeness of the spatial order RPCL -/

/-- C3, failing input.  For `ex_image_sub` (12 x 1 samples, two components subsampled
by 2 and by 3) with one resolution and precincts of 1 x 1 samples, component 0 has
`pw * ph = 6` precincts and component 1 has `pw * ph = 4`.  Under RPCL the calls of
`pi_next` on slot 0 report 8 packets before the first false return: the precincts 1
and 3 of component 1, at `x = 3` and `x = 9`, are never reported, because the walk
advances by the smallest step, 2.  Under LRCP the same tile reports all 10 packets. -/
theorem pi_next_rpcl_misses_precincts :
    (∃ l s0 u, pi_create_decode_v2 ex_image_sub (ex_cp_sub .RPCL) 0 = .ok l ∧
      l[0]? = some s0 ∧
      s0.comps = [{ dx := 2, dy := 1, numresolutions := 1, resolutions := [⟨0, 0, 6, 1⟩] },
                  { dx := 3, dy := 1, numresolutions := 1, resolutions := [⟨0, 0, 4, 1⟩] }] ∧
      pi_drain 24 s0 = .ok ([(0, 0, 0, 0), (0, 0, 1, 0), (0, 0, 0, 1), (0, 0, 0, 2),
        (0, 0, 0, 3), (0, 0, 1, 2), (0, 0, 0, 4), (0, 0, 0, 5)], u)) ∧
    (∃ l s0 u, pi_create_decode_v2 ex_image_sub (ex_cp_sub .LRCP) 0 = .ok l ∧
      l[0]? = some s0 ∧
      pi_drain 24 s0 = .ok ([(0, 0, 0, 0), (0, 0, 0, 1), (0, 0, 0, 2), (0, 0, 0, 3),
        (0, 0, 0, 4), (0, 0, 0, 5), (0, 0, 1, 0), (0, 0, 1, 1), (0, 0, 1, 2),
        (0, 0, 1, 3)], u)) :=
  ⟨⟨_, _, _, rfl, rfl, rfl, rfl⟩, ⟨_, _, _, rfl, rfl, rfl⟩⟩

/-! ## The order of the packets under LRCP -/

theorem lrcp_lt_trans {a b c : Int × Int × Int × Int} (h1 : lrcp_lt a b) (h2 : lrcp_lt b c) :
    lrcp_lt a c := by
  unfold lrcp_lt at *
  omega

/-- A call of `pi_next_lrcp` re-entered through `LABEL_SKIP` that returns `OPJ_TRUE`
reports a quadruple after the one of the cursor it started from. -/
theorem pi_next_lrcp_lt {s t : opj_pi_iterator} (hfirst : s.first = false)
    (h : pi_next_lrcp s = .ok (true, t)) : lrcp_lt (pi_packet s) (pi_packet t) := by
  unfold pi_next_lrcp at h
  simp only [hfirst, Bool.not_false, if_true] at h
  cases hg : arr_get s.comps s.compno with
  | none => rw [hg] at h; simp at h
  | some comp =>
    rw [hg] at h
    dsimp only at h
    unfold lrcp_lt pi_packet
    dsimp only
    -- the loop over `layno`
    rcases pi_then_ok h with ⟨h4, _⟩ | ⟨u4, v4, h4, i4, r4⟩
    · -- the loop over `resno`
      rcases pi_then_ok h4 with ⟨h3, _⟩ | ⟨u3, v3, h3, i3, r3⟩
      · -- the loop over `compno`
        rcases pi_then_ok h3 with ⟨h2, _⟩ | ⟨u2, v2, h2, i2, r2⟩
        · -- the loop over `precno`
          rcases pi_then_ok h2 with ⟨h1, _⟩ | ⟨u1, v1, h1, i1, r1⟩
          · simp at h1
          · simp only [Except.ok.injEq, Prod.mk.injEq, true_and] at h1
            subst h1
            simp only [incr_precno, Except.ok.injEq] at i1
            subst i1
            obtain ⟨hv, hp, _, _⟩ := lrcp_precno_loop_spec r1
            obtain ⟨hvc, hcn, _⟩ := view_p_c hv
            obtain ⟨_, hl, hr⟩ := view_c_l hvc
            have hl1 : t.layno = s.layno := hl
            have hr1 : t.resno = s.resno := hr
            have hc1 : t.compno = s.compno := hcn
            have hp1 : s.precno + 1 ≤ t.precno := hp
            omega
        · rcases pi_then_ok h2 with ⟨h1, _⟩ | ⟨u1, v1, h1, i1, r1⟩
          · simp at h1
          · simp only [Except.ok.injEq, Prod.mk.injEq, true_and] at h1
            subst h1
            simp only [incr_precno, Except.ok.injEq] at i1
            subst i1
            obtain ⟨hv, _, _, _⟩ := lrcp_precno_loop_spec r1
            obtain ⟨hvc, hcn, _⟩ := view_p_c hv
            obtain ⟨_, hl, hr⟩ := view_c_l hvc
            simp only [incr_compno, Except.ok.injEq] at i2
            subst i2
            obtain ⟨hv2, hc2, _, _⟩ := lrcp_compno_loop_spec r2
            obtain ⟨_, hl2, hr2⟩ := view_c_l hv2
            have hl1 : t.layno = s.layno := hl2.trans hl
            have hr1 : t.resno = s.resno := hr2.trans hr
            have hc1 : u2.compno = s.compno := hcn
            have hc3 : u2.compno + 1 ≤ t.compno := hc2
            omega
      · simp only [incr_resno, Except.ok.injEq] at i3
        subst i3
        obtain ⟨_, hl3, hr3, _, _⟩ := lrcp_resno_loop_spec r3
        have hl3a : t.layno = u3.layno := hl3
        have hr3a : u3.resno + 1 ≤ t.resno := hr3
        rcases pi_then_ok h3 with ⟨h2, hb⟩ | ⟨u2, v2, h2, i2, r2⟩
        · simp at hb
        · simp only [incr_compno, Except.ok.injEq] at i2
          subst i2
          obtain ⟨hv2, _, _, _⟩ := lrcp_compno_loop_spec r2
          obtain ⟨_, hl2, hr2⟩ := view_c_l hv2
          have hl2a : u3.layno = u2.layno := hl2
          have hr2a : u3.resno = u2.resno := hr2
          rcases pi_then_ok h2 with ⟨h1, _⟩ | ⟨u1, v1, h1, i1, r1⟩
          · simp at h1
          · simp only [Except.ok.injEq, Prod.mk.injEq, true_and] at h1
            subst h1
            simp only [incr_precno, Except.ok.injEq] at i1
            subst i1
            obtain ⟨hv, _, _, _⟩ := lrcp_precno_loop_spec r1
            obtain ⟨hvc, _, _⟩ := view_p_c hv
            obtain ⟨_, hl, hr⟩ := view_c_l hvc
            have hl1 : u2.layno = s.layno := hl
            have hr1 : u2.resno = s.resno := hr
            omega
    · simp only [incr_layno, Except.ok.injEq] at i4
      subst i4
      obtain ⟨_, hl4, _, _⟩ := lrcp_layno_loop_spec r4
      have hl4a : u4.layno + 1 ≤ t.layno := hl4
      rcases pi_then_ok h4 with ⟨h3, hb⟩ | ⟨u3, v3, h3, i3, r3⟩
      · simp at hb
      · simp only [incr_resno, Except.ok.injEq] at i3
        subst i3
        obtain ⟨_, hl3, _, _, _⟩ := lrcp_resno_loop_spec r3
        have hl3a : u4.layno = u3.layno := hl3
        rcases pi_then_ok h3 with ⟨h2, hb⟩ | ⟨u2, v2, h2, i2, r2⟩
        · simp at hb
        · simp only [incr_compno, Except.ok.injEq] at i2
          subst i2
          obtain ⟨hv2, _, _, _⟩ := lrcp_compno_loop_spec r2
          obtain ⟨_, hl2, _⟩ := view_c_l hv2
          have hl2a : u3.layno = u2.layno := hl2
          rcases pi_then_ok h2 with ⟨h1, _⟩ | ⟨u1, v1, h1, i1, r1⟩
          · simp at h1
          · simp only [Except.ok.injEq, Prod.mk.injEq, true_and] at h1
            subst h1
            simp only [incr_precno, Except.ok.injEq] at i1
            subst i1
            obtain ⟨hv, _, _, _⟩ := lrcp_precno_loop_spec r1
            obtain ⟨hvc, _, _⟩ := view_p_c hv
            obtain ⟨_, hl, _⟩ := view_c_l hvc
            have hl1 : u2.layno = s.layno := hl
            omega

/-- Every quadruple reported by further calls on an LRCP slot comes after the one of
the cursor. -/
theorem pi_drain_lrcp_after : ∀ (n : Nat) (s u : opj_pi_iterator)
    (ps : List (Int × Int × Int × Int)), s.poc.prg = .LRCP → s.first = false →
    pi_drain n s = .ok (ps, u) → ∀ q, q ∈ ps → lrcp_lt (pi_packet s) q := by
  intro n
  induction n with
  | zero => intro s u ps _ _ h; simp [pi_drain] at h
  | succ k ih =>
    intro s u ps hprg hfirst h q hq
    rw [pi_drain] at h
    split at h
    · simp at h
    · simp only [Except.ok.injEq, Prod.mk.injEq] at h
      rw [← h.1] at hq
      simp at hq
    · rename_i t ht
      split at h
      · simp at h
      · rename_i ps1 u1 hd
        simp only [Except.ok.injEq, Prod.mk.injEq] at h
        rw [← h.1] at hq
        have hcore := (pi_next_spec ht).1
        have hprg1 : t.poc.prg = .LRCP := (pi_core_prg hcore).trans hprg
        have ht1 : pi_next_lrcp s = .ok (true, t) := by
          unfold pi_next at ht
          rw [hprg] at ht
          exact ht
        have hlt := pi_next_lrcp_lt hfirst ht1
        have hf1 : t.first = false := (pi_next_lrcp_spec ht1).2.1
        rcases List.mem_cons.mp hq with hq1 | hq1
        · rw [hq1]; exact hlt
        · exact lrcp_lt_trans hlt (ih t u1 ps1 hprg1 hf1 hd q hq1)

/-- C4. LRCP order: the sequence of quadruples reported by the successive true
returns of `pi_next` on one LRCP slot, up to the first false return, is strictly
increasing in the lexicographic order of the key `(layno, resno, compno, precno)`:
every reported quadruple is smaller than all that are reported after it. -/
theorem pi_drain_lrcp_sorted (n : Nat) (s u : opj_pi_iterator)
    (ps : List (Int × Int × Int × Int)) (hprg : s.poc.prg = .LRCP)
    (h : pi_drain n s = .ok (ps, u)) : ps.Pairwise lrcp_lt := by
  induction n generalizing s ps u with
  | zero => simp [pi_drain] at h
  | succ k ih =>
    rw [pi_drain] at h
    split at h
    · simp at h
    · simp only [Except.ok.injEq, Prod.mk.injEq] at h
      rw [← h.1]
      exact List.Pairwise.nil
    · rename_i t ht
      split at h
      · simp at h
      · rename_i ps1 u1 hd
        simp only [Except.ok.injEq, Prod.mk.injEq] at h
        rw [← h.1]
        have hcore := (pi_next_spec ht).1
        have hprg1 : t.poc.prg = .LRCP := (pi_core_prg hcore).trans hprg
        have ht1 : pi_next_lrcp s = .ok (true, t) := by
          unfold pi_next at ht
          rw [hprg] at ht
          exact ht
        have hf1 : t.first = false := (pi_next_lrcp_spec ht1).2.1
        exact List.Pairwise.cons (pi_drain_lrcp_after k t u1 ps1 hprg1 hf1 hd)
          (ih t u1 ps1 hprg1 hd)

/-- Witness of `pi_drain_lrcp_sorted`, scenario S2: two components, three
resolutions, two layers and one precinct per resolution give twelve packets in
lexicographic order. -/
theorem pi_drain_lrcp_sorted_witness :
    ∃ u, pi_drain 13 (ex_slot .LRCP) = .ok
      ([(0, 0, 0, 0), (0, 0, 1, 0), (0, 1, 0, 0), (0, 1, 1, 0), (0, 2, 0, 0), (0, 2, 1, 0),
        (1, 0, 0, 0), (1, 0, 1, 0), (1, 1, 0, 0), (1, 1, 1, 0), (1, 2, 0, 0), (1, 2, 1, 0)], u) ∧
      List.Pairwise lrcp_lt
        [(0, 0, 0, 0), (0, 0, 1, 0), (0, 1, 0, 0), (0, 1, 1, 0), (0, 2, 0, 0), (0, 2, 1, 0),
        (1, 0, 0, 0), (1, 0, 1, 0), (1, 1, 0, 0), (1, 1, 1, 0), (1, 2, 0, 0), (1, 2, 1, 0)] :=
  ⟨_, rfl, pi_drain_lrcp_sorted 13 (ex_slot .LRCP) _ _ rfl rfl⟩

/-! ## The order of the packets under RPCL -/

theorem pi_next_nth_succ : ∀ (n : Nat) (s t : opj_pi_iterator),
    pi_next_nth n s = .ok (true, t) → pi_next_nth (n + 1) s = pi_next t := by
  intro n
  induction n with
  | zero =>
    intro s t h
    have h0 : pi_next s = .ok (true, t) := h
    rw [pi_next_nth, h0]
    rfl
  | succ k ih =>
    intro s t h
    rw [pi_next_nth] at h
    rw [pi_next_nth]
    split at h
    · simp at h
    · simp at h
    · rename_i s1 hs1
      exact ih s1 t h

/-- C5, counterexample.  For `ex_image_row` (8 x 1 samples, two components) with
precincts of 4 x 1 samples in component 0 and of 2 x 1 samples in component 1, RPCL
reports `(0, 0, 1, 1)` and then `(0, 0, 0, 1)`: the first has the key
`(resno, prcj, prci, compno, layno) = (0, 0, 1, 1, 0)`, the second the smaller key
`(0, 0, 1, 0, 0)`.  The key also decreases when the components differ in subsampling
only (`ex_image_half` and `ex_cp_half`: steps 1 and 2, precincts of 1 x 1 samples) and
when they differ in the number of resolutions only (`ex_image_row` and `ex_cp_lev`: one
and two resolutions, precinct exponents `(1, 0)`): in both, RPCL reports `(0, 0, 0, 2)`
with the key `(0, 0, 2, 0, 0)` and then `(0, 0, 1, 1)` with the smaller key
`(0, 0, 1, 1, 0)`.  And in the 32-bit arithmetic of the source the advance
`pi->x += pi->dx - (pi->x % pi->dx)` from `x = 2147483616` with `dx = 48` gives
`-2147483632`, a position to the left of the one before it. -/
theorem pi_next_rpcl_precinct_order_fails :
    (∃ l s0 u, pi_create_decode_v2 ex_image_row ex_cp_row 0 = .ok l ∧ l[0]? = some s0 ∧
      pi_drain 24 s0 = .ok ([(0, 0, 0, 0), (0, 0, 1, 0), (0, 0, 1, 1), (0, 0, 0, 1),
        (0, 0, 1, 2), (0, 0, 1, 3)], u) ∧
      rpcl_key s0 (0, 0, 1, 1) = some (0, 0, 1, 1, 0) ∧
      rpcl_key s0 (0, 0, 0, 1) = some (0, 0, 1, 0, 0) ∧
      rpcl_lt (0, 0, 1, 0, 0) (0, 0, 1, 1, 0)) ∧
    (∃ l s0 u, pi_create_decode_v2 ex_image_half ex_cp_half 0 = .ok l ∧ l[0]? = some s0 ∧
      pi_drain 24 s0 = .ok ([(0, 0, 0, 0), (0, 0, 1, 0), (0, 0, 0, 1), (0, 0, 0, 2),
        (0, 0, 1, 1), (0, 0, 0, 3)], u) ∧
      rpcl_key s0 (0, 0, 0, 2) = some (0, 0, 2, 0, 0) ∧
      rpcl_key s0 (0, 0, 1, 1) = some (0, 0, 1, 1, 0) ∧
      rpcl_lt (0, 0, 1, 1, 0) (0, 0, 2, 0, 0)) ∧
    (∃ l s0 u, pi_create_decode_v2 ex_image_row ex_cp_lev 0 = .ok l ∧ l[0]? = some s0 ∧
      pi_drain 24 s0 = .ok ([(0, 0, 0, 0), (0, 0, 1, 0), (0, 0, 0, 1), (0, 0, 0, 2),
        (0, 0, 1, 1), (0, 0, 0, 3), (0, 1, 1, 0), (0, 1, 1, 1), (0, 1, 1, 2),
        (0, 1, 1, 3)], u) ∧
      rpcl_key s0 (0, 0, 0, 2) = some (0, 0, 2, 0, 0) ∧
      rpcl_key s0 (0, 0, 1, 1) = some (0, 0, 1, 1, 0) ∧
      rpcl_lt (0, 0, 1, 1, 0) (0, 0, 2, 0, 0)) ∧
    (incr_pos32 2147483616 48 = -2147483632 ∧ incr_pos32 2147483616 48 < 2147483616) :=
  ⟨⟨_, _, _, rfl, rfl, rfl, rfl, rfl, by unfold rpcl_lt; decide⟩,
    ⟨_, _, _, rfl, rfl, rfl, rfl, rfl, by unfold rpcl_lt; decide⟩,
    ⟨_, _, _, rfl, rfl, rfl, rfl, rfl, by unfold rpcl_lt; decide⟩,
    ⟨by decide, by decide⟩⟩

/-- A call of `pi_next_rpcl` re-entered through `LABEL_SKIP` that returns `OPJ_TRUE`
leaves the cursor at a key `(resno, y, x, compno, layno)` after the one it started
from, when the step is not negative. -/
theorem pi_next_rpcl_lt {s t : opj_pi_iterator} (hfirst : s.first = false)
    (hdx : 0 ≤ s.dx) (hdy : 0 ≤ s.dy)
    (h : pi_next_rpcl s = .ok (true, t)) : rpcl_lt (rpcl_pos s) (rpcl_pos t) := by
  unfold pi_next_rpcl at h
  simp only [hfirst, Bool.not_false, if_true] at h
  unfold rpcl_lt rpcl_pos
  dsimp only
  rcases pi_then_ok h with ⟨h4, _⟩ | ⟨u4, v4, h4, i4, r4⟩
  · rcases pi_then_ok h4 with ⟨h3, _⟩ | ⟨u3, v3, h3, i3, r3⟩
    · rcases pi_then_ok h3 with ⟨h2, _⟩ | ⟨u2, v2, h2, i2, r2⟩
      · rcases pi_then_ok h2 with ⟨h1, _⟩ | ⟨u1, v1, h1, i1, r1⟩
        · -- the loop over `layno`
          rcases pi_then_ok h1 with ⟨h0, _⟩ | ⟨u0, v0, h0, i0, r0⟩
          · simp at h0
          · simp only [Except.ok.injEq, Prod.mk.injEq, true_and] at h0
            subst h0
            simp only [incr_layno, Except.ok.injEq] at i0
            subst i0
            obtain ⟨hv, hl, _, _⟩ := spatial_layno_loop_spec r0
            obtain ⟨_, a1, a2, a3, a4⟩ := view_s0_s1 (view_sl_s0 hv).1
            have b1 : t.resno = s.resno := a1
            have b2 : t.compno = s.compno := a2
            have b3 : t.x = s.x := a3
            have b4 : t.y = s.y := a4
            have b5 : s.layno + 1 ≤ t.layno := hl
            omega
        · -- the loop over `compno`
          obtain ⟨hv, _, _⟩ := spatial_skip_layno h1
          obtain ⟨_, a1, a2, a3, a4⟩ := view_s0_s1 (view_sl_s0 hv).1
          simp only [incr_compno, Except.ok.injEq] at i1
          subst i1
          obtain ⟨_, c1, c2, c3, c4, _, _⟩ := rpcl_compno_loop_spec r1
          have b1 : t.resno = s.resno := c1.trans a1
          have b3 : t.x = s.x := c2.trans a3
          have b4 : t.y = s.y := c3.trans a4
          have b2 : u1.compno = s.compno := a2
          have b5 : u1.compno + 1 ≤ t.compno := c4
          omega
      · -- the loop over `x`
        obtain ⟨hv, a1, a3, a4, _, _⟩ := rpcl_skip_compno h2
        obtain ⟨_, _, _, fdx, _, _⟩ := view_s1_s2 hv
        obtain ⟨gv, g1, _, g4, _, _, gx⟩ := incr_x_ok i2
        obtain ⟨_, _, _, gdx, _, _⟩ := view_s1_s2 gv
        obtain ⟨_, c1, c3, c4, _, _⟩ := rpcl_x_loop_spec r2
        have d1 := gx (by rw [fdx]; exact hdx)
        have d2 := c4 (by rw [gdx, fdx]; exact hdx)
        have b1 : t.resno = s.resno := (c1.trans g1).trans a1
        have b4 : t.y = s.y := (c3.trans g4).trans a4
        omega
    · -- the loop over `y`
      obtain ⟨hv, a1, hy, _, _⟩ := rpcl_skip_x h3
      obtain ⟨_, _, _, _, fdy, _⟩ := view_s1_s2 hv
      obtain ⟨gv, g1, _, _, _, _, gy⟩ := incr_y_ok i3
      obtain ⟨_, _, _, _, gdy, _⟩ := view_s1_s2 gv
      obtain ⟨_, c1, c3, _, _⟩ := rpcl_y_loop_spec r3
      have d1 := gy (by rw [fdy]; exact hdy)
      have d2 := c3 (by rw [gdy, fdy]; exact hdy)
      have b1 : t.resno = s.resno := (c1.trans g1).trans a1
      omega
  · -- the loop over `resno`
    obtain ⟨_, a1, _, _⟩ := rpcl_skip_y h4
    simp only [incr_resno, Except.ok.injEq] at i4
    subst i4
    obtain ⟨_, c1, _, _⟩ := rpcl_resno_loop_spec r4
    have b1 : u4.resno + 1 ≤ t.resno := c1
    omega

/-- The order of the positions under RPCL: in a run of `pi_next` on a slot started with
`first = true` under RPCL, whose components have no negative subsampling step, every
true return leaves the cursor at a key `(resno, y, x, compno, layno)`, with `(x, y)`
the position on the reference grid, that is strictly greater in the lexicographic
order than the key of the true return before it. -/
theorem pi_next_rpcl_order (n : Nat) (s t u : opj_pi_iterator) (hprg : s.poc.prg = .RPCL)
    (hfirst : s.first = true) (hc : ∀ comp ∈ s.comps, 0 ≤ comp.dx ∧ 0 ≤ comp.dy)
    (h1 : pi_next_nth n s = .ok (true, t)) (h2 : pi_next_nth (n + 1) s = .ok (true, u)) :
    rpcl_lt (rpcl_pos t) (rpcl_pos u) := by
  obtain ⟨hat, hcore⟩ := pi_next_nth_at n s t h1 (Or.inl hfirst)
  have hf := pi_core_frame hcore
  have hprg1 : t.poc.prg = .RPCL := hf.prg.trans hprg
  unfold pi_at at hat
  rw [hprg1] at hat
  dsimp only at hat
  obtain ⟨hsp, hstep⟩ := hat
  have hd := pi_step_nonneg (by rw [hf.comps]; exact hc) hstep
  rw [pi_next_nth_succ n s t h1] at h2
  unfold pi_next at h2
  rw [hprg1] at h2
  exact pi_next_rpcl_lt hsp.1 hd.1 hd.2 h2

/-- Witness of `pi_next_rpcl_order`: the first two calls on the example slot under
RPCL report layer 0 and then layer 1 of component 0 at resolution 0 and position
(0, 0). -/
theorem pi_next_rpcl_order_witness :
    ∃ t u, pi_next_nth 0 (ex_slot .RPCL) = .ok (true, t) ∧
      pi_next_nth 1 (ex_slot .RPCL) = .ok (true, u) ∧
      rpcl_pos t = (0, 0, 0, 0, 0) ∧ rpcl_pos u = (0, 0, 0, 0, 1) ∧
      rpcl_lt (rpcl_pos t) (rpcl_pos u) :=
  ⟨_, _, rfl, rfl, rfl, rfl,
    pi_next_rpcl_order 0 (ex_slot .RPCL) _ _ rfl rfl (by decide) rfl rfl⟩

/-! ## The precinct number of the spatial engines -/

theorem pow2_add {a b : Int} (ha : 0 ≤ a) (hb : 0 ≤ b) : pow2 (a + b) = pow2 a * pow2 b := by
  unfold pow2
  rw [Int.toNat_add ha hb, pow_add]
  push_cast
  rfl

theorem int_ceildiv_eq {a b : Int} (ha : 0 ≤ a) (hb : 0 < b) :
    int_ceildiv a b = (a + b - 1) / b := by
  unfold int_ceildiv
  exact Int.tdiv_eq_ediv (by omega) (by omega)

theorem int_ceildiv_nonneg {a b : Int} (ha : 0 ≤ a) (hb : 0 < b) : 0 ≤ int_ceildiv a b := by
  rw [int_ceildiv_eq ha hb]
  exact Int.ediv_nonneg (by omega) (by omega)

/-- Bounds of the ceiling quotient. -/
theorem int_ceildiv_spec {a b : Int} (ha : 0 ≤ a) (hb : 0 < b) :
    a ≤ int_ceildiv a b * b ∧ int_ceildiv a b * b < a + b := by
  rw [int_ceildiv_eq ha hb]
  have h1 := Int.ediv_mul_le (a + b - 1) (ne_of_gt hb)
  have h2 := Int.lt_ediv_add_one_mul_self (a + b - 1) hb
  constructor <;> linarith

theorem int_ceildiv_mono {a c b : Int} (ha : 0 ≤ a) (hac : a ≤ c) (hb : 0 < b) :
    int_ceildiv a b ≤ int_ceildiv c b := by
  rw [int_ceildiv_eq ha hb, int_ceildiv_eq (by omega) hb]
  exact Int.ediv_le_ediv hb (by omega)

theorem ediv_ediv {m n k : Int} (hn : 0 < n) (hk : 0 < k) : m / n / k = m / (n * k) := by
  have hnk : 0 < n * k := mul_pos hn hk
  have key : ∀ z : Int, z ≤ m / n / k ↔ z ≤ m / (n * k) := by
    intro z
    rw [Int.le_ediv_iff_mul_le hk, Int.le_ediv_iff_mul_le hn, Int.le_ediv_iff_mul_le hnk]
    have : z * k * n = z * (n * k) := by ring
    rw [this]
  exact le_antisymm ((key _).mp (le_refl _)) ((key _).mpr (le_refl _))

/-- The nested ceiling division of the builder is the ceiling division of the engines. -/
theorem int_ceildiv_nested {a d k : Int} (ha : 0 ≤ a) (hd : 0 < d) :
    int_ceildivpow2 (int_ceildiv a d) k = int_ceildiv a (shl d k) := by
  have hA := pow2_pos k
  have hdA : 0 < d * pow2 k := mul_pos hd hA
  unfold int_ceildivpow2 shr shl
  rw [int_ceildiv_eq ha hd, int_ceildiv_eq ha hdA, one_mul]
  have h1 : (a + d - 1) / d + pow2 k - 1 = (a + d * pow2 k - 1) / d := by
    have : a + d * pow2 k - 1 = (a + d - 1) + d * (pow2 k - 1) := by ring
    rw [this, Int.add_mul_ediv_left _ _ (ne_of_gt hd)]
    ring
  rw [h1, ediv_ediv hd hA]

/-- The precinct coordinate computed by a spatial engine at a position that passed
the alignment gate lies in `[0, pw)`. -/
theorem prci_bound {a b x D P r0 r1 : Int} (ha : 0 ≤ a) (hax : a ≤ x) (hxb : x < b)
    (hD : 0 < D) (hP : 0 < P) (hr0 : r0 = int_ceildiv a D) (hr1 : r1 = int_ceildiv b D)
    (hgate : Int.tmod x (D * P) = 0 ∨ x = a) :
    r0 ≤ r1 ∧ 0 ≤ int_ceildiv x D / P - r0 / P ∧
      (r0 ≠ r1 → int_ceildiv x D / P - r0 / P < (r1 + P - 1) / P - r0 / P) := by
  have hx0 : 0 ≤ x := by omega
  have hb0 : 0 ≤ b := by omega
  obtain ⟨s1, s2⟩ := int_ceildiv_spec ha hD
  obtain ⟨t1, t2⟩ := int_ceildiv_spec hb0 hD
  obtain ⟨u1, u2⟩ := int_ceildiv_spec hx0 hD
  have hm := int_ceildiv_mono ha hax hD
  have hm2 := int_ceildiv_mono ha (by omega : a ≤ b) hD
  rw [← hr0] at s1 s2 hm hm2
  rw [← hr1] at t1 t2 hm2
  have hfl : r0 / P ≤ int_ceildiv x D / P := Int.ediv_le_ediv hP hm
  refine ⟨hm2, by omega, fun hne => ?_⟩
  have hlt : r0 < r1 := lt_of_le_of_ne hm2 hne
  -- c = ceil(r1 / P) satisfies r1 ≤ c * P
  have hc : r1 ≤ (r1 + P - 1) / P * P := by
    have := Int.lt_ediv_add_one_mul_self (r1 + P - 1) hP
    linarith
  have hcpos : r0 / P < (r1 + P - 1) / P := by
    by_contra hcon
    have h1 : (r1 + P - 1) / P ≤ r0 / P := by omega
    have h2 := mul_le_mul_of_nonneg_right h1 (le_of_lt hP)
    have h3 := Int.ediv_mul_le r0 (ne_of_gt hP)
    linarith
  rcases hgate with hg | hg
  · -- x is a multiple of D * P
    have hDP : 0 < D * P := mul_pos hD hP
    rw [Int.tmod_eq_emod hx0 (le_of_lt hDP)] at hg
    obtain ⟨k, hk⟩ : ∃ k, x = (D * P) * k := ⟨x / (D * P), by
      have := Int.emod_add_ediv x (D * P)
      rw [hg] at this
      linarith⟩
    have hcx : int_ceildiv x D = P * k := by
      rw [int_ceildiv_eq hx0 hD, hk]
      have : D * P * k + D - 1 = (D - 1) + D * (P * k) := by ring
      rw [this, Int.add_mul_ediv_left _ _ (ne_of_gt hD)]
      have : (D - 1) / D = 0 := Int.ediv_eq_zero_of_lt (by omega) (by omega)
      rw [this, zero_add]
    have hq : int_ceildiv x D / P = k := by
      rw [hcx, Int.mul_ediv_cancel_left _ (ne_of_gt hP)]
    rw [hq]
    -- k * P * D = x < b ≤ r1 * D, so k * P < r1 ≤ c * P
    have h1 : (P * k) * D < r1 * D := by
      have : P * k * D = x := by rw [hk]; ring
      linarith
    have h2 : P * k < r1 := lt_of_mul_lt_mul_right h1 (le_of_lt hD)
    have h3 : k * P < (r1 + P - 1) / P * P := by linarith
    have h4 : k < (r1 + P - 1) / P := lt_of_mul_lt_mul_right h3 (le_of_lt hP)
    omega
  · subst hg
    rw [← hr0]
    omega

/-- The precinct number computed by a spatial engine lies in `[0, pw * ph)` when the
record is the one the builder computes and the position lies in the tile. -/
theorem pi_precinct_at_bound {u : opj_pi_iterator} {comp : opj_pi_comp}
    {res : opj_pi_resolution} {p : Int}
    (hdx : 0 < comp.dx) (hdy : 0 < comp.dy) (hlev : 0 ≤ comp.numresolutions - 1 - u.resno)
    (hpdx : 0 ≤ res.pdx) (hpdy : 0 ≤ res.pdy)
    (hres : res = enc_resolution (int_ceildiv u.tx0 comp.dx) (int_ceildiv u.ty0 comp.dy)
      (int_ceildiv u.tx1 comp.dx) (int_ceildiv u.ty1 comp.dy)
      (comp.numresolutions - 1 - u.resno) res.pdx res.pdy)
    (hx0 : 0 ≤ u.tx0) (hx1 : u.tx0 ≤ u.x) (hx2 : u.x < u.tx1)
    (hy0 : 0 ≤ u.ty0) (hy1 : u.ty0 ≤ u.y) (hy2 : u.y < u.ty1)
    (h : pi_precinct_at u comp res = .ok (some p)) :
    0 ≤ p ∧ p < res.pw * res.ph := by
  obtain ⟨lev, hlevdef⟩ : ∃ lev, lev = comp.numresolutions - 1 - u.resno := ⟨_, rfl⟩
  rw [← hlevdef] at hres hlev
  have hDx : 0 < shl comp.dx lev := mul_pos hdx (pow2_pos _)
  have hDy : 0 < shl comp.dy lev := mul_pos hdy (pow2_pos _)
  have hPx := pow2_pos res.pdx
  have hPy := pow2_pos res.pdy
  have hpw : res.pw = precinct_count (int_ceildiv u.tx0 (shl comp.dx lev))
      (int_ceildiv u.tx1 (shl comp.dx lev)) res.pdx := by
    rw [← int_ceildiv_nested hx0 hdx, ← int_ceildiv_nested (by omega) hdx]
    exact (congrArg opj_pi_resolution.pw hres).trans (enc_resolution_counts ..).1
  have hph : res.ph = precinct_count (int_ceildiv u.ty0 (shl comp.dy lev))
      (int_ceildiv u.ty1 (shl comp.dy lev)) res.pdy := by
    rw [← int_ceildiv_nested hy0 hdy, ← int_ceildiv_nested (by omega) hdy]
    exact (congrArg opj_pi_resolution.ph hres).trans (enc_resolution_counts ..).2.1
  rw [precinct_count_eq] at hpw hph
  have hsx : shl comp.dx (res.pdx + lev) = shl comp.dx lev * pow2 res.pdx := by
    unfold shl
    rw [pow2_add hpdx hlev]
    ring
  have hsy : shl comp.dy (res.pdy + lev) = shl comp.dy lev * pow2 res.pdy := by
    unfold shl
    rw [pow2_add hpdy hlev]
    ring
  unfold pi_precinct_at at h
  dsimp only at h
  rw [← hlevdef, hsx, hsy] at h
  split at h
  · simp at h
  · split at h
    · simp at h
    · split at h
      · simp at h
      · rename_i gy
        split at h
        · simp at h
        · rename_i gx
          split at h
          · simp at h
          · rename_i hnz
            split at h
            · simp at h
            · rename_i hne
              push_neg at gy gx hnz hne
              simp only [Except.ok.injEq, Option.some.injEq] at h
              have bx := prci_bound hx0 hx1 hx2 hDx hPx rfl rfl
                (gx.imp id (fun z => z.1))
              have by1 := prci_bound hy0 hy1 hy2 hDy hPy rfl rfl
                (gy.imp id (fun z => z.1))
              obtain ⟨_, bx1, bx2⟩ := bx
              obtain ⟨_, by2, by3⟩ := by1
              have cx := bx2 hne.1
              have cy := by3 hne.2
              rw [if_neg hne.1] at hpw
              rw [if_neg hne.2] at hph
              rw [← hpw] at cx
              rw [← hph] at cy
              unfold int_floordivpow2 shr at h
              rw [← h]
              obtain ⟨a, ha⟩ : ∃ a, a = int_ceildiv u.x (shl comp.dx lev) / pow2 res.pdx
                - int_ceildiv u.tx0 (shl comp.dx lev) / pow2 res.pdx := ⟨_, rfl⟩
              obtain ⟨b, hb⟩ : ∃ b, b = int_ceildiv u.y (shl comp.dy lev) / pow2 res.pdy
                - int_ceildiv u.ty0 (shl comp.dy lev) / pow2 res.pdy := ⟨_, rfl⟩
              rw [← ha] at bx1 cx
              rw [← hb] at by2 cy
              rw [← ha, ← hb]
              constructor
              · have : 0 ≤ b * res.pw := mul_nonneg by2 (by omega)
                omega
              · have h1 : (b + 1) * res.pw ≤ res.ph * res.pw :=
                  mul_le_mul_of_nonneg_right (by omega) (by omega)
                nlinarith

/-! ## The POC configurator without POC and the spatial advance -/

/-- C21. POC configurator without POC: after `pi_update_decode_not_poc`, every slot
`0 .. numpocs` is the old slot with `poc.prg` equal to the tile default progression,
`resno0 = compno0 = layno0 = precno0 = 0`, `resno1 = max_res`, `compno1 = numcomps`,
`layno1 = numlayers`, `precno1 = max_prec` and `first = true`; nothing else changes. -/
theorem pi_update_decode_not_poc_effect (l_pi r : List opj_pi_iterator) (tcp : opj_tcp)
    (p_max_precision p_max_res : Int)
    (h : pi_update_decode_not_poc l_pi tcp p_max_precision p_max_res = .ok r) :
    r.length = l_pi.length ∧
    (∀ j, (tcp.numpocs + 1).toNat ≤ j → r[j]? = l_pi[j]?) ∧
    (∀ i, i < (tcp.numpocs + 1).toNat → ∃ s, l_pi[i]? = some s ∧
      r[i]? = some
        { s with
          first := true,
          poc := { s.poc with
            prg := tcp.prg, resno0 := 0, compno0 := 0, layno0 := 0, precno0 := 0,
            resno1 := p_max_res, compno1 := s.numcomps, layno1 := tcp.numlayers,
            precno1 := p_max_precision } }) :=
  pi_update_decode_not_poc_table l_pi r tcp p_max_precision p_max_res h

/-- Witness of `pi_update_decode_not_poc_effect`: two zeroed slots. -/
theorem pi_update_decode_not_poc_effect_witness :
    ∃ r, pi_update_decode_not_poc [pi_zero, pi_zero] ex_tcp_poc 1 2 = .ok r ∧ r.length = 2 :=
  ⟨_, rfl, (pi_update_decode_not_poc_effect [pi_zero, pi_zero] _ ex_tcp_poc 1 2 rfl).1⟩

theorem wrap32_id {a : Int} (h1 : -2147483648 ≤ a) (h2 : a ≤ 2147483647) : wrap32 a = a := by
  unfold wrap32
  omega

/-- The advance `x + (dx - x mod dx)` is the smallest multiple of `dx` above `x`. -/
theorem next_multiple {x dx : Int} (hx : 0 ≤ x) (hd : 0 < dx) :
    dx ∣ x + (dx - Int.tmod x dx) ∧ x < x + (dx - Int.tmod x dx) ∧
    ∀ m : Int, dx ∣ m → x < m → x + (dx - Int.tmod x dx) ≤ m := by
  rw [Int.tmod_eq_emod hx (le_of_lt hd)]
  have h1 := Int.emod_nonneg x (ne_of_gt hd)
  have h2 := Int.emod_lt_of_pos x hd
  have h3 := Int.emod_add_ediv x dx
  refine ⟨⟨x / dx + 1, by linarith⟩, by omega, ?_⟩
  rintro m ⟨k, rfl⟩ hlt
  have hk : x / dx + 1 ≤ k := by
    by_contra hcon
    have hle : k ≤ x / dx := by omega
    have := mul_le_mul_of_nonneg_left hle (le_of_lt hd)
    linarith
  have := mul_le_mul_of_nonneg_left hk (le_of_lt hd)
  linarith

/-- C29. Spatial advance: for every `x >= 0` and step `dx > 0`, the loop update
`pi->x += pi->dx - (pi->x % pi->dx)` of RPCL, PCRL and CPRL yields the smallest
multiple of `dx` strictly greater than `x` (same for `y` with `dy`), and its evaluation
in 32-bit signed arithmetic does not wrap whenever that multiple is at most
`2^31 - 1`. -/
theorem incr_x_next_multiple (s : opj_pi_iterator) (hx : 0 ≤ s.x) (hdx : 0 < s.dx)
    (hy : 0 ≤ s.y) (hdy : 0 < s.dy) :
    (∃ t, incr_x s = .ok t ∧ s.dx ∣ t.x ∧ s.x < t.x ∧
      (∀ m : Int, s.dx ∣ m → s.x < m → t.x ≤ m) ∧
      (t.x ≤ 2147483647 → incr_pos32 s.x s.dx = t.x)) ∧
    (∃ t, incr_y s = .ok t ∧ s.dy ∣ t.y ∧ s.y < t.y ∧
      (∀ m : Int, s.dy ∣ m → s.y < m → t.y ≤ m) ∧
      (t.y ≤ 2147483647 → incr_pos32 s.y s.dy = t.y)) := by
  have key : ∀ x dx : Int, 0 ≤ x → 0 < dx → x + (dx - Int.tmod x dx) ≤ 2147483647 →
      incr_pos32 x dx = x + (dx - Int.tmod x dx) := by
    intro x dx h0 hd hle
    have e := Int.tmod_eq_emod h0 (le_of_lt hd)
    have h1 := Int.emod_nonneg x (ne_of_gt hd)
    have h2 := Int.emod_lt_of_pos x hd
    have h3 : x % dx ≤ x := by
      have h5 := Int.emod_add_ediv x dx
      have h6 : 0 ≤ dx * (x / dx) := mul_nonneg (le_of_lt hd) (Int.ediv_nonneg h0 (le_of_lt hd))
      linarith
    unfold incr_pos32
    rw [e] at hle ⊢
    clear e
    rw [wrap32_id (a := x % dx) (by omega) (by omega),
      wrap32_id (a := dx - x % dx) (by omega) (by omega),
      wrap32_id (by omega) (by omega)]
  constructor
  · refine ⟨{ s with x := s.x + (s.dx - Int.tmod s.x s.dx) }, ?_, ?_⟩
    · unfold incr_x
      rw [if_neg (ne_of_gt hdx)]
    · obtain ⟨a, b, c⟩ := next_multiple hx hdx
      exact ⟨a, b, c, key _ _ hx hdx⟩
  · refine ⟨{ s with y := s.y + (s.dy - Int.tmod s.y s.dy) }, ?_, ?_⟩
    · unfold incr_y
      rw [if_neg (ne_of_gt hdy)]
    · obtain ⟨a, b, c⟩ := next_multiple hy hdy
      exact ⟨a, b, c, key _ _ hy hdy⟩

/-- Witness of `incr_x_next_multiple`: from `x = 5` with step 4 the advance is 8, from
`y = 0` with step 3 it is 3. -/
theorem incr_x_next_multiple_witness :
    (∃ t, incr_x { pi_zero with x := 5, dx := 4, dy := 3 } = .ok t ∧ t.x = 8) ∧
    (∃ t, incr_y { pi_zero with x := 5, dx := 4, dy := 3 } = .ok t ∧ t.y = 3) ∧
    incr_pos32 5 4 = 8 := by
  have h := incr_x_next_multiple { pi_zero with x := 5, dx := 4, dy := 3 }
    (by decide) (by decide) (by decide) (by decide)
  exact ⟨⟨_, rfl, rfl⟩, ⟨_, rfl, rfl⟩, by decide⟩

/-! ## Scenario S3: RPCL against LRCP -/

/-- C28, failing input.  For `ex_image_off` (samples `[1, 4) x [0, 1)`, two components
subsampled by 2 and by 3, one resolution each, `pw = ph = 1` in both), LRCP reports
the quadruples `(0, 0, 0, 0)` and `(0, 0, 1, 0)`, while RPCL reports `(0, 0, 0, 0)`
only: the walk visits `x = 1` and `x = 2`, and the precinct of component 1 begins at
`x = 3`. -/
theorem pi_next_rpcl_lrcp_differ :
    (∃ l s0 u, pi_create_decode_v2 ex_image_off (ex_cp_off .RPCL) 0 = .ok l ∧
      l[0]? = some s0 ∧
      s0.comps = [{ dx := 2, dy := 1, numresolutions := 1, resolutions := [⟨0, 0, 1, 1⟩] },
                  { dx := 3, dy := 1, numresolutions := 1, resolutions := [⟨0, 0, 1, 1⟩] }] ∧
      pi_drain 8 s0 = .ok ([(0, 0, 0, 0)], u)) ∧
    (∃ l s0 u, pi_create_decode_v2 ex_image_off (ex_cp_off .LRCP) 0 = .ok l ∧
      l[0]? = some s0 ∧
      pi_drain 8 s0 = .ok ([(0, 0, 0, 0), (0, 0, 1, 0)], u)) :=
  ⟨⟨_, _, _, rfl, rfl, rfl, rfl⟩, ⟨_, _, _, rfl, rfl, rfl⟩⟩

/-! ## The tile-part configurator `pi_create_encode` -/

/-- What `pi_create_encode` returns in terms of the loop over the axes: the POC, the
slot and, when tile-parts are active and the tile-part exists, the state that the loop
leaves. -/
theorem pi_create_encode_spec {l_pi l1 : List opj_pi_iterator} {cp cp1 : opj_cp}
    {tileno pino tpnum tppos cur_totnum_tp : Int} {t2_mode : J2K_T2_MODE} {b : Bool}
    (h : pi_create_encode l_pi cp tileno pino tpnum tppos t2_mode cur_totnum_tp
      = .ok (b, l1, cp1)) :
    ∃ tcps tcp s, arr_get cp.tcps tileno = some tcps ∧ arr_get tcps.pocs pino = some tcp ∧
      arr_get l_pi pino = some s ∧
      ((pi_prog tcp.prg = none ∧ b = true ∧ cp1 = cp ∧
          l1 = l_pi.set pino.toNat { s with first := true, poc := { s.poc with prg := tcp.prg } }) ∨
       (∃ prog, pi_prog tcp.prg = some prog ∧ b = false ∧
          ((pi_tp_active cp t2_mode = false ∧ cp1 = cp ∧
              l1 = l_pi.set pino.toNat
                { s with
                  first := true,
                  poc := { s.poc with
                    prg := tcp.prg,
                    resno0 := tcp.resS, resno1 := tcp.resE, compno0 := tcp.compS,
                    compno1 := tcp.compE, layno0 := tcp.layS, layno1 := tcp.layE,
                    precno0 := tcp.prcS, precno1 := tcp.prcE, tx0 := tcp.txS,
                    ty0 := tcp.tyS, tx1 := tcp.txE, ty1 := tcp.tyE } }) ∨
           (pi_tp_active cp t2_mode = true ∧ ¬ tpnum < cur_totnum_tp ∧ cp1 = cp ∧
              l1 = l_pi.set pino.toNat
                { s with first := true, poc := { s.poc with prg := tcp.prg } }) ∨
           (pi_tp_active cp t2_mode = true ∧ tpnum < cur_totnum_tp ∧
              ∃ st, pi_tp_loop tcp.prg tppos tpnum prog
                  { poc := { s.poc with prg := tcp.prg }, tcp := tcp, incr_top := 1,
                    resetX := 0 } = .ok st ∧
                cp1 = cp_set_poc cp tcps tileno pino st.tcp ∧
                l1 = l_pi.set pino.toNat { s with first := true, poc := st.poc })))) := by
  unfold pi_create_encode at h
  cases h1 : arr_get cp.tcps tileno with
  | none => rw [h1] at h; simp at h
  | some tcps =>
    rw [h1] at h
    dsimp only at h
    cases h2 : arr_get tcps.pocs pino with
    | none => rw [h2] at h; simp at h
    | some tcp =>
      cases h3 : arr_get l_pi pino with
      | none => rw [h2, h3] at h; simp at h
      | some s =>
        rw [h2, h3] at h
        dsimp only at h
        refine ⟨tcps, tcp, s, rfl, h2, rfl, ?_⟩
        cases h4 : pi_prog tcp.prg with
        | none =>
          rw [h4] at h
          simp only [Except.ok.injEq, Prod.mk.injEq] at h
          exact Or.inl ⟨rfl, h.1.symm, h.2.2.symm, h.2.1.symm⟩
        | some prog =>
          rw [h4] at h
          dsimp only at h
          refine Or.inr ⟨prog, rfl, ?_⟩
          cases h5 : pi_tp_active cp t2_mode with
          | false =>
            rw [h5] at h
            simp only [Bool.not_false, if_true, Except.ok.injEq, Prod.mk.injEq] at h
            exact ⟨h.1.symm, Or.inl ⟨rfl, h.2.2.symm, h.2.1.symm⟩⟩
          | true =>
            rw [h5] at h
            simp only [Bool.not_true, Bool.false_eq_true, if_false] at h
            by_cases h6 : tpnum < cur_totnum_tp
            · rw [if_pos h6] at h
              cases h7 : pi_tp_loop tcp.prg tppos tpnum prog
                  { poc := { s.poc with prg := tcp.prg }, tcp := tcp, incr_top := 1,
                    resetX := 0 } with
              | error e => rw [h7] at h; simp at h
              | ok st =>
                rw [h7] at h
                simp only [Except.ok.injEq, Prod.mk.injEq] at h
                exact ⟨h.1.symm, Or.inr (Or.inr ⟨rfl, h6, st, rfl, h.2.2.symm, h.2.1.symm⟩)⟩
            · rw [if_neg h6] at h
              simp only [Except.ok.injEq, Prod.mk.injEq] at h
              exact ⟨h.1.symm, Or.inr (Or.inl ⟨rfl, h6, h.2.2.symm, h.2.1.symm⟩)⟩

theorem pi_prog_none {prg : OPJ_PROG_ORDER} : pi_prog prg = none ↔ prg = .PROG_UNKNOWN := by
  cases prg <;> simp [pi_prog]

/-- C24. Return convention of `pi_create_encode`: it returns true if and only if the
progression of the POC is `PROG_UNKNOWN`, and in that case it changes nothing but
`first` (set to 1) and `poc.prg` of slot `pino`; for each of the five known
progressions it returns false. -/
theorem pi_create_encode_return (l_pi l1 : List opj_pi_iterator) (cp cp1 : opj_cp)
    (tileno pino tpnum tppos cur_totnum_tp : Int) (t2_mode : J2K_T2_MODE) (b : Bool)
    (h : pi_create_encode l_pi cp tileno pino tpnum tppos t2_mode cur_totnum_tp
      = .ok (b, l1, cp1)) :
    ∃ tcps tcp s, arr_get cp.tcps tileno = some tcps ∧ arr_get tcps.pocs pino = some tcp ∧
      arr_get l_pi pino = some s ∧
      (b = true ↔ tcp.prg = .PROG_UNKNOWN) ∧
      (tcp.prg = .PROG_UNKNOWN → cp1 = cp ∧
        l1 = l_pi.set pino.toNat
          { s with first := true, poc := { s.poc with prg := .PROG_UNKNOWN } }) := by
  obtain ⟨tcps, tcp, s, h1, h2, h3, h4⟩ := pi_create_encode_spec h
  refine ⟨tcps, tcp, s, h1, h2, h3, ?_⟩
  rcases h4 with ⟨a1, a2, a3, a4⟩ | ⟨prog, a1, a2, _⟩
  · have hp := pi_prog_none.mp a1
    refine ⟨⟨fun _ => hp, fun _ => a2⟩, fun _ => ⟨a3, ?_⟩⟩
    rw [a4, hp]
  · have hp : tcp.prg ≠ .PROG_UNKNOWN := by
      intro hcon
      rw [pi_prog_none.mpr hcon] at a1
      simp at a1
    refine ⟨⟨fun hb => ?_, fun hb => absurd hb hp⟩, fun hb => absurd hb hp⟩
    rw [a2] at hb
    simp at hb

/-- Witness of `pi_create_encode_return`: the POC `ex_poc_tp` has progression RPCL,
and the call returns false. -/
theorem pi_create_encode_return_witness :
    ∃ l1 cp1, pi_create_encode [pi_zero] ex_cp_tp 0 0 0 1 .FINAL_PASS 6 = .ok (false, l1, cp1) ∧
      ∃ tcps tcp s, arr_get ex_cp_tp.tcps 0 = some tcps ∧ arr_get tcps.pocs 0 = some tcp ∧
        arr_get [pi_zero] 0 = some s ∧
        (false = true ↔ tcp.prg = .PROG_UNKNOWN) ∧
        (tcp.prg = .PROG_UNKNOWN → cp1 = ex_cp_tp ∧
          l1 = [pi_zero].set (0 : Int).toNat
            { s with first := true, poc := { s.poc with prg := .PROG_UNKNOWN } }) :=
  ⟨_, _, rfl, pi_create_encode_return [pi_zero] _ ex_cp_tp _ 0 0 0 1 6 .FINAL_PASS false rfl⟩

theorem axes_ended_iff (a0 a1 a2 a3 : pi_axis) (tcp : opj_poc) (tppos : Int) (i : Nat) :
    axes_ended [a0, a1, a2, a3] tcp tppos i ↔
      ((i < 1 → 1 ≤ tppos → axis_tail a1 tcp = axis_end a1 tcp) ∧
       (i < 2 → 2 ≤ tppos → axis_tail a2 tcp = axis_end a2 tcp) ∧
       (i < 3 → 3 ≤ tppos → axis_tail a3 tcp = axis_end a3 tcp)) := by
  unfold axes_ended
  constructor
  · intro h
    exact ⟨fun h1 h2 => h 1 a1 rfl h1 (by exact_mod_cast h2),
      fun h1 h2 => h 2 a2 rfl h1 (by exact_mod_cast h2),
      fun h1 h2 => h 3 a3 rfl h1 (by exact_mod_cast h2)⟩
  · rintro ⟨h1, h2, h3⟩ j a hj hlt hle
    rcases j with _ | _ | _ | _ | j
    · omega
    · simp only [zero_add, List.getElem?_cons_succ, List.getElem?_cons_zero,
        Option.some.injEq] at hj
      subst hj
      exact h1 hlt (by exact_mod_cast hle)
    · simp only [zero_add, List.getElem?_cons_succ, List.getElem?_cons_zero,
        Option.some.injEq] at hj
      subst hj
      exact h2 hlt (by exact_mod_cast hle)
    · simp only [zero_add, List.getElem?_cons_succ, List.getElem?_cons_zero,
        Option.some.injEq] at hj
      subst hj
      exact h3 hlt (by exact_mod_cast hle)
    · simp at hj

/-- The state that the loop over the axes leaves under LRCP, axis by axis. -/
theorem pi_tp_loop_lrcp {tppos tpnum : Int} {st st1 : pi_tp_state}
    (h : pi_tp_loop .LRCP tppos tpnum [.L, .R, .C, .P] st = .ok st1) :
    ∃ rP rC rR rL : Int × Int × Int × Int,
      rP = pi_tp_axis st.tcp.prcS st.tcp.prcE st.tcp.prc_t 3 tppos tpnum st.incr_top ∧
      rC = pi_tp_axis st.tcp.compS st.tcp.compE st.tcp.comp_t 2 tppos tpnum rP.2.2.2 ∧
      rR = pi_tp_axis st.tcp.resS st.tcp.resE st.tcp.res_t 1 tppos tpnum rC.2.2.2 ∧
      rL = pi_tp_axis st.tcp.layS st.tcp.layE st.tcp.lay_t 0 tppos tpnum rR.2.2.2 ∧
      axis_window .P st1.poc = (rP.1, rP.2.1) ∧ axis_tail .P st1.tcp = rP.2.2.1 ∧
      axis_window .C st1.poc = (rC.1, rC.2.1) ∧ axis_tail .C st1.tcp = rC.2.2.1 ∧
      axis_window .R st1.poc = (rR.1, rR.2.1) ∧ axis_tail .R st1.tcp = rR.2.2.1 ∧
      axis_window .L st1.poc = (rL.1, rL.2.1) ∧ axis_tail .L st1.tcp = rL.2.2.1 := by
  have h0 : pi_tp_loop .LRCP tppos tpnum [.L, .R, .C, .P] st
      = .ok (pi_tp_lay 0 tppos tpnum (pi_tp_res 1 tppos tpnum
          (pi_tp_comp 2 tppos tpnum (pi_tp_prec 3 tppos tpnum st)))) := rfl
  rw [h0] at h
  simp only [Except.ok.injEq] at h
  subst h
  refine ⟨_, _, _, _, rfl, rfl, rfl, rfl, ?_, ?_, ?_, ?_, ?_, ?_, ?_, ?_⟩ <;>
    simp only [pi_tp_lay, pi_tp_res, pi_tp_comp, pi_tp_prec, axis_window, axis_tail]

/-- The state that the loop over the axes leaves under RLCP, axis by axis. -/
theorem pi_tp_loop_rlcp {tppos tpnum : Int} {st st1 : pi_tp_state}
    (h : pi_tp_loop .RLCP tppos tpnum [.R, .L, .C, .P] st = .ok st1) :
    ∃ rP rC rL rR : Int × Int × Int × Int,
      rP = pi_tp_axis st.tcp.prcS st.tcp.prcE st.tcp.prc_t 3 tppos tpnum st.incr_top ∧
      rC = pi_tp_axis st.tcp.compS st.tcp.compE st.tcp.comp_t 2 tppos tpnum rP.2.2.2 ∧
      rL = pi_tp_axis st.tcp.layS st.tcp.layE st.tcp.lay_t 1 tppos tpnum rC.2.2.2 ∧
      rR = pi_tp_axis st.tcp.resS st.tcp.resE st.tcp.res_t 0 tppos tpnum rL.2.2.2 ∧
      axis_window .P st1.poc = (rP.1, rP.2.1) ∧ axis_tail .P st1.tcp = rP.2.2.1 ∧
      axis_window .C st1.poc = (rC.1, rC.2.1) ∧ axis_tail .C st1.tcp = rC.2.2.1 ∧
      axis_window .L st1.poc = (rL.1, rL.2.1) ∧ axis_tail .L st1.tcp = rL.2.2.1 ∧
      axis_window .R st1.poc = (rR.1, rR.2.1) ∧ axis_tail .R st1.tcp = rR.2.2.1 := by
  have h0 : pi_tp_loop .RLCP tppos tpnum [.R, .L, .C, .P] st
      = .ok (pi_tp_res 0 tppos tpnum (pi_tp_lay 1 tppos tpnum
          (pi_tp_comp 2 tppos tpnum (pi_tp_prec 3 tppos tpnum st)))) := rfl
  rw [h0] at h
  simp only [Except.ok.injEq] at h
  subst h
  refine ⟨_, _, _, _, rfl, rfl, rfl, rfl, ?_, ?_, ?_, ?_, ?_, ?_, ?_, ?_⟩ <;>
    simp only [pi_tp_lay, pi_tp_res, pi_tp_comp, pi_tp_prec, axis_window, axis_tail]

/-- The four axes of a first tile-part: an axis at a position above `tppos` gets
its whole range, an axis at or below `tppos` the window `[S, S + 1)` and the tail
`S + 1`. -/
theorem pi_tp_axis_first (S E t i tppos itop : Int) :
    (tppos < i → pi_tp_axis S E t i tppos 0 itop = (S, E, t, itop)) ∧
    (i ≤ tppos → pi_tp_axis S E t i tppos 0 itop = (S, S + 1, S + 1, itop)) := by
  unfold pi_tp_axis
  constructor
  · intro h; rw [if_pos h]
  · intro h; rw [if_neg (by omega), if_pos rfl]

/-- The axes of a later tile-part: what `pi_tp_axis` returns when `incr_top` is 0 or
1 on entry. -/
theorem pi_tp_axis_later (S E t itop : Int) {i tppos tpnum : Int} (htp : tpnum ≠ 0)
    (hi : i ≤ tppos) :
    (itop = 1 → t = E → pi_tp_axis S E t i tppos tpnum itop = (S, S + 1, S + 1, 1)) ∧
    (itop = 1 → t ≠ E → pi_tp_axis S E t i tppos tpnum itop = (t, t + 1, t + 1, 0)) ∧
    (itop = 0 → pi_tp_axis S E t i tppos tpnum itop = (t - 1, t, t, 0)) := by
  unfold pi_tp_axis
  rw [if_neg (by omega), if_neg htp]
  refine ⟨fun h1 h2 => ?_, fun h1 h2 => ?_, fun h1 => ?_⟩
  · rw [if_pos h1, if_pos h2]
  · rw [if_pos h1, if_neg h2]
  · rw [if_neg (by omega), h1]

/-- The carry signal after an axis: it is 1 exactly when it was 1 and the axis, if
narrowed, had its tail at its end. -/
theorem pi_tp_axis_top (S E t i tppos : Int) {tpnum itop : Int} (htp : tpnum ≠ 0)
    (hitop : itop = 0 ∨ itop = 1) :
    ((pi_tp_axis S E t i tppos tpnum itop).2.2.2 = 0 ∨
      (pi_tp_axis S E t i tppos tpnum itop).2.2.2 = 1) ∧
    ((pi_tp_axis S E t i tppos tpnum itop).2.2.2 = 1 ↔ (itop = 1 ∧ (i ≤ tppos → t = E))) := by
  unfold pi_tp_axis
  by_cases h1 : i > tppos
  · rw [if_pos h1]
    exact ⟨hitop, ⟨fun h => ⟨h, fun h2 => by omega⟩, fun h => h.1⟩⟩
  · rw [if_neg h1, if_neg htp]
    by_cases h2 : itop = 1
    · rw [if_pos h2]
      by_cases h3 : t = E
      · rw [if_pos h3]
        exact ⟨Or.inr rfl, ⟨fun _ => ⟨h2, fun _ => h3⟩, fun _ => rfl⟩⟩
      · rw [if_neg h3]
        refine ⟨Or.inl rfl, ⟨fun h => by simp at h, fun h => absurd (h.2 (by omega)) h3⟩⟩
    · rw [if_neg h2]
      exact ⟨hitop, ⟨fun h => absurd h h2, fun h => absurd h.1 h2⟩⟩

theorem forall_prog4 {a0 a1 a2 a3 : pi_axis} {Q : Nat → pi_axis → Prop} (h0 : Q 0 a0)
    (h1 : Q 1 a1) (h2 : Q 2 a2) (h3 : Q 3 a3) :
    ∀ (i : Nat) (a : pi_axis), [a0, a1, a2, a3][i]? = some a → Q i a := by
  intro i a hi
  rcases i with _ | _ | _ | _ | i
  · simp only [List.getElem?_cons_zero, Option.some.injEq] at hi
    subst hi; exact h0
  · simp only [zero_add, List.getElem?_cons_succ, List.getElem?_cons_zero,
      Option.some.injEq] at hi
    subst hi; exact h1
  · simp only [zero_add, List.getElem?_cons_succ, List.getElem?_cons_zero,
      Option.some.injEq] at hi
    subst hi; exact h2
  · simp only [zero_add, List.getElem?_cons_succ, List.getElem?_cons_zero,
      Option.some.injEq] at hi
    subst hi; exact h3
  · simp at hi

/-- The call of `pi_create_encode` for an existing tile-part with tile-parts active,
from the state that the loop over the axes leaves. -/
theorem pi_create_encode_active {l_pi : List opj_pi_iterator} {cp : opj_cp}
    {tileno pino tpnum tppos cur_totnum_tp : Int} {t2_mode : J2K_T2_MODE}
    {tcps : opj_tcp} {tcp : opj_poc} {s : opj_pi_iterator} {prog : List pi_axis}
    {st : pi_tp_state}
    (h1 : arr_get cp.tcps tileno = some tcps) (h2 : arr_get tcps.pocs pino = some tcp)
    (h3 : arr_get l_pi pino = some s) (hp : pi_prog tcp.prg = some prog)
    (hact : pi_tp_active cp t2_mode = true) (hlt : tpnum < cur_totnum_tp)
    (hloop : pi_tp_loop tcp.prg tppos tpnum prog
      { poc := { s.poc with prg := tcp.prg }, tcp := tcp, incr_top := 1, resetX := 0 }
        = .ok st) :
    pi_create_encode l_pi cp tileno pino tpnum tppos t2_mode cur_totnum_tp
      = .ok (false, l_pi.set pino.toNat { s with first := true, poc := st.poc },
          cp_set_poc cp tcps tileno pino st.tcp) := by
  unfold pi_create_encode
  rw [h1]
  dsimp only
  rw [h2, h3]
  dsimp only
  rw [hp]
  dsimp only
  rw [hact]
  simp only [Bool.not_true, Bool.false_eq_true, if_false]
  rw [if_pos hlt, hloop]

/-- The POC that `cp_set_poc` stores is the one read back at `tcps[tileno].pocs[pino]`. -/
theorem cp_set_poc_get {cp : opj_cp} {tcps : opj_tcp} {tileno pino : Int} {tcp : opj_poc}
    (poc : opj_poc) (h1 : arr_get cp.tcps tileno = some tcps) (h2 : arr_get tcps.pocs pino = some tcp) :
    ∃ tcps1, arr_get (cp_set_poc cp tcps tileno pino poc).tcps tileno = some tcps1 ∧
      arr_get tcps1.pocs pino = some poc := by
  obtain ⟨a0, a1, _⟩ := arr_get_some h1
  obtain ⟨b0, b1, _⟩ := arr_get_some h2
  refine ⟨{ tcps with pocs := tcps.pocs.set pino.toNat poc }, ?_, ?_⟩
  · unfold arr_get cp_set_poc
    rw [if_pos a0]
    exact List.getElem?_set_self a1
  · unfold arr_get
    rw [if_pos b0]
    exact List.getElem?_set_self b1

theorem pi_tp_loop_lrcp_run (tppos tpnum : Int) (st : pi_tp_state) :
    ∃ st1, pi_tp_loop .LRCP tppos tpnum [.L, .R, .C, .P] st = .ok st1 := ⟨_, rfl⟩

theorem pi_tp_loop_rlcp_run (tppos tpnum : Int) (st : pi_tp_state) :
    ∃ st1, pi_tp_loop .RLCP tppos tpnum [.R, .L, .C, .P] st = .ok st1 := ⟨_, rfl⟩

/-- One axis of a first tile-part, in the form used for the four axes. -/
theorem pi_tp_axis_first_spec {S E t i tppos itop : Int} {r : Int × Int × Int × Int}
    (hr : r = pi_tp_axis S E t i tppos 0 itop) :
    (tppos < i → (r.1, r.2.1) = (S, E)) ∧
    (i ≤ tppos → (r.1, r.2.1) = (S, S + 1) ∧ r.2.2.1 = S + 1) := by
  obtain ⟨g1, g2⟩ := pi_tp_axis_first S E t i tppos itop
  constructor
  · intro h; rw [hr, g1 h]
  · intro h; rw [hr, g2 h]; exact ⟨rfl, rfl⟩

/-- One narrowed axis of a later tile-part, in the form used for the four axes:
`Ended` says that the carry signal is 1 on entry. -/
theorem pi_tp_axis_carry {S E t i tppos tpnum itop : Int} {r : Int × Int × Int × Int}
    {Ended : Prop} (htp : tpnum ≠ 0) (hi : i ≤ tppos) (hin : itop = 0 ∨ itop = 1)
    (hiff : itop = 1 ↔ Ended) (hr : r = pi_tp_axis S E t i tppos tpnum itop) :
    (Ended → t = E → (r.1, r.2.1) = (S, S + 1) ∧ r.2.2.1 = S + 1) ∧
    (Ended → t ≠ E → (r.1, r.2.1) = (t, t + 1) ∧ r.2.2.1 = t + 1) ∧
    (¬ Ended → (r.1, r.2.1) = (t - 1, t) ∧ r.2.2.1 = t) := by
  obtain ⟨g1, g2, g3⟩ := pi_tp_axis_later S E t itop htp hi
  refine ⟨fun he h => ?_, fun he h => ?_, fun he => ?_⟩
  · rw [hr, g1 (hiff.mpr he) h]; exact ⟨rfl, rfl⟩
  · rw [hr, g2 (hiff.mpr he) h]; exact ⟨rfl, rfl⟩
  · have h0 : itop = 0 := by
      rcases hin with h | h
      · exact h
      · exact absurd (hiff.mp h) he
    rw [hr, g3 h0]; exact ⟨rfl, rfl⟩

/-- The carry signal along the four positions 3, 2, 1, 0 of a later tile-part. -/
theorem pi_tp_carry_chain {tppos tpnum : Int} (htp : tpnum ≠ 0)
    (S3 E3 t3 S2 E2 t2 S1 E1 t1 : Int) {r3 r2 r1 : Int × Int × Int × Int}
    (h3 : r3 = pi_tp_axis S3 E3 t3 3 tppos tpnum 1)
    (h2 : r2 = pi_tp_axis S2 E2 t2 2 tppos tpnum r3.2.2.2)
    (h1 : r1 = pi_tp_axis S1 E1 t1 1 tppos tpnum r2.2.2.2) :
    ((r3.2.2.2 = 0 ∨ r3.2.2.2 = 1) ∧ (r3.2.2.2 = 1 ↔ (3 ≤ tppos → t3 = E3))) ∧
    ((r2.2.2.2 = 0 ∨ r2.2.2.2 = 1) ∧
      (r2.2.2.2 = 1 ↔ ((2 ≤ tppos → t2 = E2) ∧ (3 ≤ tppos → t3 = E3)))) ∧
    ((r1.2.2.2 = 0 ∨ r1.2.2.2 = 1) ∧
      (r1.2.2.2 = 1 ↔ ((1 ≤ tppos → t1 = E1) ∧ (2 ≤ tppos → t2 = E2) ∧
        (3 ≤ tppos → t3 = E3)))) := by
  obtain ⟨a1, a2⟩ := pi_tp_axis_top S3 E3 t3 3 tppos htp (Or.inr (rfl : (1 : Int) = 1))
  rw [← h3] at a1 a2
  obtain ⟨b1, b2⟩ := pi_tp_axis_top S2 E2 t2 2 tppos htp a1
  rw [← h2] at b1 b2
  obtain ⟨c1, c2⟩ := pi_tp_axis_top S1 E1 t1 1 tppos htp b1
  rw [← h1] at c1 c2
  refine ⟨⟨a1, ?_⟩, ⟨b1, ?_⟩, ⟨c1, ?_⟩⟩
  · rw [a2]
    exact ⟨fun h => h.2, fun h => ⟨rfl, h⟩⟩
  · rw [b2, a2]
    exact ⟨fun h => ⟨h.2, h.1.2⟩, fun h => ⟨⟨rfl, h.2⟩, h.1⟩⟩
  · rw [c2, b2, a2]
    exact ⟨fun h => ⟨h.2, h.1.2, h.1.1.2⟩, fun h => ⟨⟨⟨rfl, h.2.2⟩, h.2.1⟩, h.1⟩⟩

theorem arr_get_set_self {α : Type} {xs : List α} {i : Int} {v : α} (w : α)
    (h : arr_get xs i = some v) : arr_get (xs.set i.toNat w) i = some w := by
  obtain ⟨a0, a1, _⟩ := arr_get_some h
  unfold arr_get
  rw [if_pos a0]
  exact List.getElem?_set_self a1

/-- C25. Tile-part narrowing for the first tile-part: with tile-parts active,
`tpnum = 0 < cur_totnum_tp` and progression LRCP or RLCP, `pi_create_encode` returns
false, and in slot `pino` every axis at a position `i > tppos` of the progression
string has its full range `[S, E)`, every axis at a position `i <= tppos` the window
`[S, S + 1)`, with the tail cursor of that axis in the stored POC at `S + 1`. -/
theorem pi_create_encode_first_tile_part (l_pi : List opj_pi_iterator) (cp : opj_cp)
    (tileno pino tppos cur_totnum_tp : Int) (t2_mode : J2K_T2_MODE)
    (tcps : opj_tcp) (tcp : opj_poc) (s : opj_pi_iterator)
    (h1 : arr_get cp.tcps tileno = some tcps) (h2 : arr_get tcps.pocs pino = some tcp)
    (h3 : arr_get l_pi pino = some s)
    (hact : pi_tp_active cp t2_mode = true) (htot : 0 < cur_totnum_tp)
    (hprg : tcp.prg = .LRCP ∨ tcp.prg = .RLCP) :
    ∃ l1 cp1 s1 tcps1 tcp1 prog,
      pi_create_encode l_pi cp tileno pino 0 tppos t2_mode cur_totnum_tp
        = .ok (false, l1, cp1) ∧
      arr_get l1 pino = some s1 ∧ arr_get cp1.tcps tileno = some tcps1 ∧
      arr_get tcps1.pocs pino = some tcp1 ∧ pi_prog tcp.prg = some prog ∧
      ∀ (i : Nat) (a : pi_axis), prog[i]? = some a →
        (tppos < (i : Int) → axis_window a s1.poc = (axis_start a tcp, axis_end a tcp)) ∧
        ((i : Int) ≤ tppos →
          axis_window a s1.poc = (axis_start a tcp, axis_start a tcp + 1) ∧
          axis_tail a tcp1 = axis_start a tcp + 1) := by
  rcases hprg with hprg | hprg
  · obtain ⟨st1, hl⟩ := pi_tp_loop_lrcp_run tppos 0
      { poc := { s.poc with prg := tcp.prg }, tcp := tcp, incr_top := 1, resetX := 0 }
    have hp : pi_prog tcp.prg = some [.L, .R, .C, .P] := by rw [hprg]; rfl
    have hl2 := hl
    rw [← hprg] at hl2
    obtain ⟨rP, rC, rR, rL, eP, eC, eR, eL, wP, tP, wC, tC, wR, tR, wL, tL⟩ :=
      pi_tp_loop_lrcp hl
    obtain ⟨tcps1, c1, c2⟩ := cp_set_poc_get st1.tcp h1 h2
    refine ⟨_, _, { s with first := true, poc := st1.poc }, tcps1, st1.tcp, _,
      pi_create_encode_active h1 h2 h3 hp hact htot hl2, arr_get_set_self _ h3, c1, c2, hp,
      ?_⟩
    dsimp only
    refine forall_prog4 ?_ ?_ ?_ ?_
    · rw [wL, tL]
      have g := pi_tp_axis_first_spec eL
      exact ⟨fun h => g.1 (by exact_mod_cast h), fun h => g.2 (by exact_mod_cast h)⟩
    · rw [wR, tR]
      have g := pi_tp_axis_first_spec eR
      exact ⟨fun h => g.1 (by exact_mod_cast h), fun h => g.2 (by exact_mod_cast h)⟩
    · rw [wC, tC]
      have g := pi_tp_axis_first_spec eC
      exact ⟨fun h => g.1 (by exact_mod_cast h), fun h => g.2 (by exact_mod_cast h)⟩
    · rw [wP, tP]
      have g := pi_tp_axis_first_spec eP
      exact ⟨fun h => g.1 (by exact_mod_cast h), fun h => g.2 (by exact_mod_cast h)⟩
  · obtain ⟨st1, hl⟩ := pi_tp_loop_rlcp_run tppos 0
      { poc := { s.poc with prg := tcp.prg }, tcp := tcp, incr_top := 1, resetX := 0 }
    have hp : pi_prog tcp.prg = some [.R, .L, .C, .P] := by rw [hprg]; rfl
    have hl2 := hl
    rw [← hprg] at hl2
    obtain ⟨rP, rC, rL, rR, eP, eC, eL, eR, wP, tP, wC, tC, wL, tL, wR, tR⟩ :=
      pi_tp_loop_rlcp hl
    obtain ⟨tcps1, c1, c2⟩ := cp_set_poc_get st1.tcp h1 h2
    refine ⟨_, _, { s with first := true, poc := st1.poc }, tcps1, st1.tcp, _,
      pi_create_encode_active h1 h2 h3 hp hact htot hl2, arr_get_set_self _ h3, c1, c2, hp,
      ?_⟩
    dsimp only
    refine forall_prog4 ?_ ?_ ?_ ?_
    · rw [wR, tR]
      have g := pi_tp_axis_first_spec eR
      exact ⟨fun h => g.1 (by exact_mod_cast h), fun h => g.2 (by exact_mod_cast h)⟩
    · rw [wL, tL]
      have g := pi_tp_axis_first_spec eL
      exact ⟨fun h => g.1 (by exact_mod_cast h), fun h => g.2 (by exact_mod_cast h)⟩
    · rw [wC, tC]
      have g := pi_tp_axis_first_spec eC
      exact ⟨fun h => g.1 (by exact_mod_cast h), fun h => g.2 (by exact_mod_cast h)⟩
    · rw [wP, tP]
      have g := pi_tp_axis_first_spec eP
      exact ⟨fun h => g.1 (by exact_mod_cast h), fun h => g.2 (by exact_mod_cast h)⟩

theorem axes_ended_at3 (a0 a1 a2 a3 : pi_axis) (tcp : opj_poc) (tppos : Int) :
    axes_ended [a0, a1, a2, a3] tcp tppos 3 := by
  rw [axes_ended_iff]
  exact ⟨fun h => by omega, fun h => by omega, fun h => by omega⟩

theorem axes_ended_at2 (a0 a1 a2 a3 : pi_axis) (tcp : opj_poc) (tppos : Int) :
    axes_ended [a0, a1, a2, a3] tcp tppos 2 ↔
      (3 ≤ tppos → axis_tail a3 tcp = axis_end a3 tcp) := by
  rw [axes_ended_iff]
  exact ⟨fun h => h.2.2 (by omega),
    fun h => ⟨fun h => by omega, fun h => by omega, fun _ => h⟩⟩

theorem axes_ended_at1 (a0 a1 a2 a3 : pi_axis) (tcp : opj_poc) (tppos : Int) :
    axes_ended [a0, a1, a2, a3] tcp tppos 1 ↔
      ((2 ≤ tppos → axis_tail a2 tcp = axis_end a2 tcp) ∧
       (3 ≤ tppos → axis_tail a3 tcp = axis_end a3 tcp)) := by
  rw [axes_ended_iff]
  exact ⟨fun h => ⟨h.2.1 (by omega), h.2.2 (by omega)⟩,
    fun h => ⟨fun h => by omega, fun _ => h.1, fun _ => h.2⟩⟩

theorem axes_ended_at0 (a0 a1 a2 a3 : pi_axis) (tcp : opj_poc) (tppos : Int) :
    axes_ended [a0, a1, a2, a3] tcp tppos 0 ↔
      ((1 ≤ tppos → axis_tail a1 tcp = axis_end a1 tcp) ∧
       (2 ≤ tppos → axis_tail a2 tcp = axis_end a2 tcp) ∧
       (3 ≤ tppos → axis_tail a3 tcp = axis_end a3 tcp)) := by
  rw [axes_ended_iff]
  exact ⟨fun h => ⟨h.1 (by omega), h.2.1 (by omega), h.2.2 (by omega)⟩,
    fun h => ⟨fun _ => h.1, fun _ => h.2.1, fun _ => h.2.2⟩⟩

/-- Witness of `pi_create_encode_first_tile_part`: LRCP with `tppos = 1`, the layer
and the resolution axes are narrowed. -/
theorem pi_create_encode_first_tile_part_witness :
    (pi_tp_active (ex_cp_lrcp ex_poc_lrcp) .FINAL_PASS = true ∧ (0 : Int) < 6 ∧
      (ex_poc_lrcp.prg = .LRCP ∨ ex_poc_lrcp.prg = .RLCP)) ∧
    ∃ l1 cp1 s1 tcps1 tcp1 prog,
      pi_create_encode [pi_zero] (ex_cp_lrcp ex_poc_lrcp) 0 0 0 1 .FINAL_PASS 6
        = .ok (false, l1, cp1) ∧
      arr_get l1 0 = some s1 ∧ arr_get cp1.tcps 0 = some tcps1 ∧
      arr_get tcps1.pocs 0 = some tcp1 ∧ pi_prog ex_poc_lrcp.prg = some prog ∧
      ∀ (i : Nat) (a : pi_axis), prog[i]? = some a →
        ((1 : Int) < (i : Int) →
          axis_window a s1.poc = (axis_start a ex_poc_lrcp, axis_end a ex_poc_lrcp)) ∧
        ((i : Int) ≤ 1 →
          axis_window a s1.poc = (axis_start a ex_poc_lrcp, axis_start a ex_poc_lrcp + 1) ∧
          axis_tail a tcp1 = axis_start a ex_poc_lrcp + 1) :=
  ⟨⟨rfl, by decide, Or.inl rfl⟩,
    pi_create_encode_first_tile_part [pi_zero] (ex_cp_lrcp ex_poc_lrcp) 0 0 1 6 .FINAL_PASS
      _ ex_poc_lrcp pi_zero rfl rfl rfl rfl (by decide) (Or.inl rfl)⟩

/-- C26. Tile-part carry: in a call of `pi_create_encode` with tile-parts active and
`0 < tpnum < cur_totnum_tp` under LRCP or RLCP, the call returns false and for every
narrowed axis (position `i <= tppos`): if all narrowed axes inside it had their tail
cursor at the end and its own tail is at its end `E`, it is reset to `[S, S + 1)` with
tail `S + 1`; if all narrowed axes inside it had their tail at the end and its own
tail `t` is not `E`, it gets `[t, t + 1)` and its tail becomes `t + 1`; otherwise
(some narrowed axis inside it was not at its end) it keeps `[t - 1, t)` and its tail
is unchanged. -/
theorem pi_create_encode_carry (l_pi : List opj_pi_iterator) (cp : opj_cp)
    (tileno pino tpnum tppos cur_totnum_tp : Int) (t2_mode : J2K_T2_MODE)
    (tcps : opj_tcp) (tcp : opj_poc) (s : opj_pi_iterator)
    (h1 : arr_get cp.tcps tileno = some tcps) (h2 : arr_get tcps.pocs pino = some tcp)
    (h3 : arr_get l_pi pino = some s)
    (hact : pi_tp_active cp t2_mode = true) (htp : 0 < tpnum) (hlt : tpnum < cur_totnum_tp)
    (hprg : tcp.prg = .LRCP ∨ tcp.prg = .RLCP) :
    ∃ l1 cp1 s1 tcps1 tcp1 prog,
      pi_create_encode l_pi cp tileno pino tpnum tppos t2_mode cur_totnum_tp
        = .ok (false, l1, cp1) ∧
      arr_get l1 pino = some s1 ∧ arr_get cp1.tcps tileno = some tcps1 ∧
      arr_get tcps1.pocs pino = some tcp1 ∧ pi_prog tcp.prg = some prog ∧
      ∀ (i : Nat) (a : pi_axis), prog[i]? = some a → (i : Int) ≤ tppos →
        (axes_ended prog tcp tppos i → axis_tail a tcp = axis_end a tcp →
          axis_window a s1.poc = (axis_start a tcp, axis_start a tcp + 1) ∧
          axis_tail a tcp1 = axis_start a tcp + 1) ∧
        (axes_ended prog tcp tppos i → axis_tail a tcp ≠ axis_end a tcp →
          axis_window a s1.poc = (axis_tail a tcp, axis_tail a tcp + 1) ∧
          axis_tail a tcp1 = axis_tail a tcp + 1) ∧
        (¬ axes_ended prog tcp tppos i →
          axis_window a s1.poc = (axis_tail a tcp - 1, axis_tail a tcp) ∧
          axis_tail a tcp1 = axis_tail a tcp) := by
  have htp0 : tpnum ≠ 0 := by omega
  rcases hprg with hprg | hprg
  · obtain ⟨st1, hl⟩ := pi_tp_loop_lrcp_run tppos tpnum
      { poc := { s.poc with prg := tcp.prg }, tcp := tcp, incr_top := 1, resetX := 0 }
    have hp : pi_prog tcp.prg = some [.L, .R, .C, .P] := by rw [hprg]; rfl
    have hl2 := hl
    rw [← hprg] at hl2
    obtain ⟨rP, rC, rR, rL, eP, eC, eR, eL, wP, tP, wC, tC, wR, tR, wL, tL⟩ :=
      pi_tp_loop_lrcp hl
    obtain ⟨⟨i3, j3⟩, ⟨i2, j2⟩, ⟨i1, j1⟩⟩ :=
      pi_tp_carry_chain htp0 _ _ _ _ _ _ _ _ _ eP eC eR
    obtain ⟨tcps1, c1, c2⟩ := cp_set_poc_get st1.tcp h1 h2
    refine ⟨_, _, { s with first := true, poc := st1.poc }, tcps1, st1.tcp, _,
      pi_create_encode_active h1 h2 h3 hp hact hlt hl2, arr_get_set_self _ h3, c1, c2, hp,
      ?_⟩
    dsimp only
    refine forall_prog4 ?_ ?_ ?_ ?_
    · intro hi
      rw [wL, tL]
      exact pi_tp_axis_carry htp0 (by exact_mod_cast hi) i1
        (j1.trans (axes_ended_at0 .L .R .C .P tcp tppos).symm) eL
    · intro hi
      rw [wR, tR]
      exact pi_tp_axis_carry htp0 (by exact_mod_cast hi) i2
        (j2.trans (axes_ended_at1 .L .R .C .P tcp tppos).symm) eR
    · intro hi
      rw [wC, tC]
      exact pi_tp_axis_carry htp0 (by exact_mod_cast hi) i3
        (j3.trans (axes_ended_at2 .L .R .C .P tcp tppos).symm) eC
    · intro hi
      rw [wP, tP]
      exact pi_tp_axis_carry htp0 (by exact_mod_cast hi) (Or.inr rfl)
        ⟨fun _ => axes_ended_at3 .L .R .C .P tcp tppos, fun _ => rfl⟩ eP
  · obtain ⟨st1, hl⟩ := pi_tp_loop_rlcp_run tppos tpnum
      { poc := { s.poc with prg := tcp.prg }, tcp := tcp, incr_top := 1, resetX := 0 }
    have hp : pi_prog tcp.prg = some [.R, .L, .C, .P] := by rw [hprg]; rfl
    have hl2 := hl
    rw [← hprg] at hl2
    obtain ⟨rP, rC, rL, rR, eP, eC, eL, eR, wP, tP, wC, tC, wL, tL, wR, tR⟩ :=
      pi_tp_loop_rlcp hl
    obtain ⟨⟨i3, j3⟩, ⟨i2, j2⟩, ⟨i1, j1⟩⟩ :=
      pi_tp_carry_chain htp0 _ _ _ _ _ _ _ _ _ eP eC eL
    obtain ⟨tcps1, c1, c2⟩ := cp_set_poc_get st1.tcp h1 h2
    refine ⟨_, _, { s with first := true, poc := st1.poc }, tcps1, st1.tcp, _,
      pi_create_encode_active h1 h2 h3 hp hact hlt hl2, arr_get_set_self _ h3, c1, c2, hp,
      ?_⟩
    dsimp only
    refine forall_prog4 ?_ ?_ ?_ ?_
    · intro hi
      rw [wR, tR]
      exact pi_tp_axis_carry htp0 (by exact_mod_cast hi) i1
        (j1.trans (axes_ended_at0 .R .L .C .P tcp tppos).symm) eR
    · intro hi
      rw [wL, tL]
      exact pi_tp_axis_carry htp0 (by exact_mod_cast hi) i2
        (j2.trans (axes_ended_at1 .R .L .C .P tcp tppos).symm) eL
    · intro hi
      rw [wC, tC]
      exact pi_tp_axis_carry htp0 (by exact_mod_cast hi) i3
        (j3.trans (axes_ended_at2 .R .L .C .P tcp tppos).symm) eC
    · intro hi
      rw [wP, tP]
      exact pi_tp_axis_carry htp0 (by exact_mod_cast hi) (Or.inr rfl)
        ⟨fun _ => axes_ended_at3 .R .L .C .P tcp tppos, fun _ => rfl⟩ eP

/-- Witness of `pi_create_encode_carry`: LRCP with `tppos = 1` at tile-part 3, where
the resolution cursor has reached its end 3 and the layer cursor is at 1. -/
theorem pi_create_encode_carry_witness :
    (pi_tp_active (ex_cp_lrcp ex_poc_lrcp_end) .FINAL_PASS = true ∧ (0 : Int) < 3 ∧
      (3 : Int) < 6 ∧ (ex_poc_lrcp_end.prg = .LRCP ∨ ex_poc_lrcp_end.prg = .RLCP)) ∧
    ∃ l1 cp1 s1 tcps1 tcp1 prog,
      pi_create_encode [pi_zero] (ex_cp_lrcp ex_poc_lrcp_end) 0 0 3 1 .FINAL_PASS 6
        = .ok (false, l1, cp1) ∧
      arr_get l1 0 = some s1 ∧ arr_get cp1.tcps 0 = some tcps1 ∧
      arr_get tcps1.pocs 0 = some tcp1 ∧ pi_prog ex_poc_lrcp_end.prg = some prog ∧
      ∀ (i : Nat) (a : pi_axis), prog[i]? = some a → (i : Int) ≤ 1 →
        (axes_ended prog ex_poc_lrcp_end 1 i →
          axis_tail a ex_poc_lrcp_end = axis_end a ex_poc_lrcp_end →
          axis_window a s1.poc
            = (axis_start a ex_poc_lrcp_end, axis_start a ex_poc_lrcp_end + 1) ∧
          axis_tail a tcp1 = axis_start a ex_poc_lrcp_end + 1) ∧
        (axes_ended prog ex_poc_lrcp_end 1 i →
          axis_tail a ex_poc_lrcp_end ≠ axis_end a ex_poc_lrcp_end →
          axis_window a s1.poc
            = (axis_tail a ex_poc_lrcp_end, axis_tail a ex_poc_lrcp_end + 1) ∧
          axis_tail a tcp1 = axis_tail a ex_poc_lrcp_end + 1) ∧
        (¬ axes_ended prog ex_poc_lrcp_end 1 i →
          axis_window a s1.poc
            = (axis_tail a ex_poc_lrcp_end - 1, axis_tail a ex_poc_lrcp_end) ∧
          axis_tail a tcp1 = axis_tail a ex_poc_lrcp_end) :=
  ⟨⟨rfl, by decide, by decide, Or.inl rfl⟩,
    pi_create_encode_carry [pi_zero] (ex_cp_lrcp ex_poc_lrcp_end) 0 0 3 1 6 .FINAL_PASS
      _ ex_poc_lrcp_end pi_zero rfl rfl rfl rfl (by decide) (by decide) (Or.inl rfl)⟩

theorem pi_tp_loop_rpcl_eq (tppos tpnum : Int) (st : pi_tp_state) :
    pi_tp_loop .RPCL tppos tpnum [.R, .P, .C, .L] st
      = (match pi_tp_pos 1 tppos tpnum (pi_tp_comp 2 tppos tpnum (pi_tp_lay 3 tppos tpnum st))
          with
         | .error e => .error e
         | .ok st1 => .ok (pi_tp_res 0 tppos tpnum st1)) := rfl

/-- The loop over the axes under RPCL with `tppos = 1` for the first tile-part. -/
theorem pi_tp_loop_rpcl_first (st : pi_tp_state) (hc : tp_cell st.tcp) :
    ∃ st1, pi_tp_loop .RPCL 1 0 [.R, .P, .C, .L] st = .ok st1 ∧
      poc_static st1.tcp = poc_static st.tcp ∧ st1.poc.prg = st.poc.prg ∧
      st1.poc.resno0 = st.tcp.resS ∧ st1.poc.resno1 = st.tcp.resS + 1 ∧
      st1.tcp.res_t = st.tcp.resS + 1 ∧
      st1.tcp.tx0_t = st.tcp.txS + st.tcp.dx - Int.tmod st.tcp.txS st.tcp.dx ∧
      st1.tcp.ty0_t = st.tcp.tyS + st.tcp.dy - Int.tmod st.tcp.tyS st.tcp.dy := by
  obtain ⟨hdx, hdy, _, _⟩ := hc
  rw [pi_tp_loop_rpcl_eq]
  have hpos : pi_tp_pos 1 1 0 (pi_tp_comp 2 1 0 (pi_tp_lay 3 1 0 st))
      = .ok { (pi_tp_comp 2 1 0 (pi_tp_lay 3 1 0 st)) with
          poc := { (pi_tp_comp 2 1 0 (pi_tp_lay 3 1 0 st)).poc with
            tx0 := st.tcp.txS,
            tx1 := st.tcp.txS + st.tcp.dx - Int.tmod st.tcp.txS st.tcp.dx,
            ty0 := st.tcp.tyS,
            ty1 := st.tcp.tyS + st.tcp.dy - Int.tmod st.tcp.tyS st.tcp.dy },
          tcp := { (pi_tp_comp 2 1 0 (pi_tp_lay 3 1 0 st)).tcp with
            tx0_t := st.tcp.txS + st.tcp.dx - Int.tmod st.tcp.txS st.tcp.dx,
            ty0_t := st.tcp.tyS + st.tcp.dy - Int.tmod st.tcp.tyS st.tcp.dy } } := by
    unfold pi_tp_pos
    dsimp only
    rw [if_neg (by decide), if_neg (fun h => h.elim hdx hdy), if_pos rfl]
    rfl
  rw [hpos]
  refine ⟨_, rfl, ?_, ?_, ?_, ?_, ?_, ?_, ?_⟩ <;>
    simp [pi_tp_res, pi_tp_comp, pi_tp_lay, pi_tp_axis, poc_static]

/-- The loop over the axes under RPCL with `tppos = 1` for a later tile-part, when the
spatial window is at the end of the single cell: the spatial window wraps onto the
cell, and the resolution window moves on by one. -/
theorem pi_tp_loop_rpcl_later (st : pi_tp_state) {tpnum : Int} (htp : tpnum ≠ 0)
    (hc : tp_cell st.tcp) (htop : st.incr_top = 1)
    (hx : st.tcp.tx0_t = st.tcp.txS + st.tcp.dx - Int.tmod st.tcp.txS st.tcp.dx)
    (hy : st.tcp.ty0_t = st.tcp.tyS + st.tcp.dy - Int.tmod st.tcp.tyS st.tcp.dy)
    (hr : st.tcp.res_t ≠ st.tcp.resE) :
    ∃ st1, pi_tp_loop .RPCL 1 tpnum [.R, .P, .C, .L] st = .ok st1 ∧
      poc_static st1.tcp = poc_static st.tcp ∧ st1.poc.prg = st.poc.prg ∧
      st1.poc.resno0 = st.tcp.res_t ∧ st1.poc.resno1 = st.tcp.res_t + 1 ∧
      st1.tcp.res_t = st.tcp.res_t + 1 ∧
      st1.tcp.tx0_t = st.tcp.txS + st.tcp.dx - Int.tmod st.tcp.txS st.tcp.dx ∧
      st1.tcp.ty0_t = st.tcp.tyS + st.tcp.dy - Int.tmod st.tcp.tyS st.tcp.dy := by
  obtain ⟨hdx, hdy, hcx, hcy⟩ := hc
  rw [pi_tp_loop_rpcl_eq]
  have htop2 : (pi_tp_comp 2 1 tpnum (pi_tp_lay 3 1 tpnum st)).incr_top = 1 := by
    simp [pi_tp_comp, pi_tp_lay, pi_tp_axis, htop]
  have hpos : pi_tp_pos 1 1 tpnum (pi_tp_comp 2 1 tpnum (pi_tp_lay 3 1 tpnum st))
      = .ok { (pi_tp_comp 2 1 tpnum (pi_tp_lay 3 1 tpnum st)) with
          poc := { (pi_tp_comp 2 1 tpnum (pi_tp_lay 3 1 tpnum st)).poc with
            ty0 := st.tcp.tyS,
            ty1 := st.tcp.tyS + st.tcp.dy - Int.tmod st.tcp.tyS st.tcp.dy,
            tx0 := st.tcp.txS,
            tx1 := st.tcp.txS + st.tcp.dx - Int.tmod st.tcp.txS st.tcp.dx },
          tcp := { (pi_tp_comp 2 1 tpnum (pi_tp_lay 3 1 tpnum st)).tcp with
            ty0_t := st.tcp.tyS + st.tcp.dy - Int.tmod st.tcp.tyS st.tcp.dy,
            tx0_t := st.tcp.txS + st.tcp.dx - Int.tmod st.tcp.txS st.tcp.dx },
          incr_top := 1, resetX := 1 } := by
    unfold pi_tp_pos
    dsimp only
    rw [if_neg (by decide), if_neg (fun h => h.elim hdx hdy), if_neg htp, if_pos htop2]
    have gx : (pi_tp_comp 2 1 tpnum (pi_tp_lay 3 1 tpnum st)).tcp.tx0_t
        ≥ (pi_tp_comp 2 1 tpnum (pi_tp_lay 3 1 tpnum st)).tcp.txE := by
      show st.tcp.tx0_t ≥ st.tcp.txE
      rw [hx]; exact hcx
    have gy : (pi_tp_comp 2 1 tpnum (pi_tp_lay 3 1 tpnum st)).tcp.ty0_t
        ≥ (pi_tp_comp 2 1 tpnum (pi_tp_lay 3 1 tpnum st)).tcp.tyE := by
      show st.tcp.ty0_t ≥ st.tcp.tyE
      rw [hy]; exact hcy
    rw [if_pos gx, if_pos gy, if_pos gy, if_pos rfl]
    rfl
  rw [hpos]
  refine ⟨_, rfl, ?_, ?_, ?_, ?_, ?_, ?_, ?_⟩ <;>
    simp [pi_tp_res, pi_tp_comp, pi_tp_lay, pi_tp_axis, poc_static, htp, hr]

theorem poc_static_eq {p q : opj_poc} (h : poc_static p = poc_static q) :
    p.prg = q.prg ∧ p.resS = q.resS ∧ p.resE = q.resE ∧ p.txS = q.txS ∧ p.txE = q.txE ∧
      p.tyS = q.tyS ∧ p.tyE = q.tyE ∧ p.dx = q.dx ∧ p.dy = q.dy := by
  simpa only [poc_static, Prod.mk.injEq] using h

theorem tp_cell_static {p q : opj_poc} (h : poc_static p = poc_static q) (hc : tp_cell q) :
    tp_cell p := by
  obtain ⟨_, _, _, e3, e4, e5, e6, e7, e8⟩ := poc_static_eq h
  unfold tp_cell at hc ⊢
  rw [e3, e4, e5, e6, e7, e8]
  exact hc

/-- The successive calls of `pi_create_encode` under RPCL with `tppos = 1` on a POC
whose spatial range is one cell: call `k` returns and leaves the resolution window
`[resS + k, resS + k + 1)` in slot `pino`, which has `first` set. -/
theorem pi_create_encode_seq_rpcl {l_pi : List opj_pi_iterator} {cp : opj_cp}
    {tileno pino cur_totnum_tp : Int} {t2_mode : J2K_T2_MODE}
    {tcps : opj_tcp} {tcp : opj_poc} {s : opj_pi_iterator}
    (h1 : arr_get cp.tcps tileno = some tcps) (h2 : arr_get tcps.pocs pino = some tcp)
    (h3 : arr_get l_pi pino = some s)
    (hact : pi_tp_active cp t2_mode = true) (hprg : tcp.prg = .RPCL) (hc : tp_cell tcp) :
    ∀ k : Nat, (k : Int) < cur_totnum_tp → tcp.resS + k < tcp.resE →
      ∃ l1 cp1 s1 tcps1 tcp1,
        pi_create_encode_seq tileno pino 1 t2_mode cur_totnum_tp k l_pi cp = .ok (l1, cp1) ∧
        arr_get l1 pino = some s1 ∧ arr_get cp1.tcps tileno = some tcps1 ∧
        arr_get tcps1.pocs pino = some tcp1 ∧ pi_tp_active cp1 t2_mode = true ∧
        poc_static tcp1 = poc_static tcp ∧ tcp1.res_t = tcp.resS + k + 1 ∧
        tcp1.tx0_t = tcp.txS + tcp.dx - Int.tmod tcp.txS tcp.dx ∧
        tcp1.ty0_t = tcp.tyS + tcp.dy - Int.tmod tcp.tyS tcp.dy ∧
        s1.first = true ∧ s1.poc.prg = .RPCL ∧ s1.poc.resno0 = tcp.resS + k ∧
        s1.poc.resno1 = tcp.resS + k + 1 := by
  intro k
  induction k with
  | zero =>
    intro hk hres
    obtain ⟨st1, hl, g1, g2, g3, g4, g5, g6, g7⟩ := pi_tp_loop_rpcl_first
      { poc := { s.poc with prg := tcp.prg }, tcp := tcp, incr_top := 1, resetX := 0 } hc
    have hp : pi_prog tcp.prg = some [.R, .P, .C, .L] := by rw [hprg]; rfl
    have hl2 := hl
    rw [← hprg] at hl2
    have hcall := pi_create_encode_active h1 h2 h3 hp hact (by exact_mod_cast hk) hl2
    obtain ⟨tcps1, c1, c2⟩ := cp_set_poc_get st1.tcp h1 h2
    refine ⟨_, _, { s with first := true, poc := st1.poc }, tcps1, st1.tcp, ?_,
      arr_get_set_self _ h3, c1, c2, hact, g1, ?_, g6, g7, rfl, ?_, ?_, ?_⟩
    · rw [pi_create_encode_seq, hcall]
    · rw [g5]; simp
    · show st1.poc.prg = .RPCL
      rw [g2]; exact hprg
    · show st1.poc.resno0 = _
      rw [g3]; simp
    · show st1.poc.resno1 = _
      rw [g4]; simp
  | succ k ih =>
    intro hk hres
    have hk0 : (k : Int) < cur_totnum_tp := by push_cast at hk; omega
    have hres0 : tcp.resS + (k : Int) < tcp.resE := by push_cast at hres; omega
    obtain ⟨l1, cp1, s1, tcps1, tcp1, e0, e1, e2, e3, e4, e5, e6, e7, e8, e9, e10, e11, e12⟩ :=
      ih hk0 hres0
    obtain ⟨q0, q1, q2, q3, q4, q5, q6, q7, q8⟩ := poc_static_eq e5
    have hprg1 : tcp1.prg = .RPCL := by rw [q0]; exact hprg
    have htp : ((k : Int) + 1) ≠ 0 := by omega
    obtain ⟨st1, hl, g1, g2, g3, g4, g5, g6, g7⟩ := pi_tp_loop_rpcl_later
      { poc := { s1.poc with prg := tcp1.prg }, tcp := tcp1, incr_top := 1, resetX := 0 }
      htp (tp_cell_static e5 hc) rfl
      (by show tcp1.tx0_t = _; rw [e7, q3, q7])
      (by show tcp1.ty0_t = _; rw [e8, q5, q8])
      (by show tcp1.res_t ≠ tcp1.resE; rw [e6, q2]; push_cast at hres; omega)
    have hp : pi_prog tcp1.prg = some [.R, .P, .C, .L] := by rw [hprg1]; rfl
    have hl2 := hl
    rw [← hprg1] at hl2
    have hcall := pi_create_encode_active e2 e3 e1 hp e4 (by push_cast at hk; exact hk) hl2
    obtain ⟨tcps2, c1, c2⟩ := cp_set_poc_get st1.tcp e2 e3
    refine ⟨_, _, { s1 with first := true, poc := st1.poc }, tcps2, st1.tcp, ?_,
      arr_get_set_self _ e1, c1, c2, e4, g1.trans e5, ?_, ?_, ?_, rfl, ?_, ?_, ?_⟩
    · rw [pi_create_encode_seq, e0]
      dsimp only
      rw [hcall]
    · rw [g5]
      show tcp1.res_t + 1 = _
      rw [e6]; push_cast; ring
    · rw [g6]
      show tcp1.txS + tcp1.dx - Int.tmod tcp1.txS tcp1.dx = _
      rw [q3, q7]
    · rw [g7]
      show tcp1.tyS + tcp1.dy - Int.tmod tcp1.tyS tcp1.dy = _
      rw [q5, q8]
    · show st1.poc.prg = .RPCL
      rw [g2]; exact hprg1
    · show st1.poc.resno0 = _
      rw [g3]
      show tcp1.res_t = _
      rw [e6]; push_cast; ring
    · show st1.poc.resno1 = _
      rw [g4]
      show tcp1.res_t + 1 = _
      rw [e6]; push_cast; ring

/-- C27, counterexample.  RPCL with `tppos = 1` on the POC `ex_poc_tp`, whose tile
`[0, 2) x [0, 1)` has two cells of the step `dx = 1`: after the calls with
`tpnum = 0` and `tpnum = 1` the resolution window of tile-part 1 is `[0, 1)`, the one
of tile-part 0, and not `[resS + 1, resS + 2) = [1, 2)`; tile-part 1 moved the
spatial window to `[1, 2)` instead. -/
theorem pi_create_encode_rpcl_window_repeats :
    pi_tp_active ex_cp_tp .FINAL_PASS = true ∧ ex_poc_tp.prg = .RPCL ∧
    ex_poc_tp.resS + 1 = 1 ∧
    ∃ l1 cp1 s1, pi_create_encode_seq 0 0 1 .FINAL_PASS 6 1 [pi_zero] ex_cp_tp = .ok (l1, cp1) ∧
      arr_get l1 0 = some s1 ∧ s1.poc.resno0 = 0 ∧ s1.poc.resno1 = 1 ∧
      s1.poc.tx0 = 1 ∧ s1.poc.tx1 = 2 :=
  ⟨rfl, rfl, rfl, _, _, _, rfl, rfl, rfl, rfl, rfl, rfl⟩

/-- C27, amended.  Scenario S6 on a POC whose spatial range is one cell of the step
grid (`txS + dx - txS % dx >= txE`, `tyS + dy - tyS % dy >= tyE`, `dx` and `dy` not
0): with tile-parts active, progression RPCL and `tppos = 1`, the calls
`pi_create_encode(tpnum = 0)`, ..., `(tpnum = k)` on one POC, with
`k < cur_totnum_tp` and `resS + k < resE`, return and leave the resolution window
`[resS + k, resS + k + 1)` in slot `pino`, and every packet that `pi_next` then emits
on that slot has `resno = resS + k`. -/
theorem pi_create_encode_rpcl_tile_parts (l_pi : List opj_pi_iterator) (cp : opj_cp)
    (tileno pino cur_totnum_tp : Int) (t2_mode : J2K_T2_MODE)
    (tcps : opj_tcp) (tcp : opj_poc) (s : opj_pi_iterator) (k : Nat)
    (h1 : arr_get cp.tcps tileno = some tcps) (h2 : arr_get tcps.pocs pino = some tcp)
    (h3 : arr_get l_pi pino = some s)
    (hact : pi_tp_active cp t2_mode = true) (hprg : tcp.prg = .RPCL) (hc : tp_cell tcp)
    (hk : (k : Int) < cur_totnum_tp) (hres : tcp.resS + k < tcp.resE) :
    ∃ l1 cp1 s1,
      pi_create_encode_seq tileno pino 1 t2_mode cur_totnum_tp k l_pi cp = .ok (l1, cp1) ∧
      arr_get l1 pino = some s1 ∧
      s1.poc.resno0 = tcp.resS + k ∧ s1.poc.resno1 = tcp.resS + k + 1 ∧
      ∀ (n : Nat) (t : opj_pi_iterator), pi_next_nth n s1 = .ok (true, t) →
        t.resno = tcp.resS + k := by
  obtain ⟨l1, cp1, s1, tcps1, tcp1, e0, e1, _, _, _, _, _, _, _, e9, _, e11, e12⟩ :=
    pi_create_encode_seq_rpcl h1 h2 h3 hact hprg hc k hk hres
  refine ⟨l1, cp1, s1, e0, e1, e11, e12, ?_⟩
  intro n t h
  obtain ⟨g1, g2⟩ := pi_next_nth_at n s1 t h (Or.inl e9)
  have hb := pi_at_box g1
  have hf := pi_core_frame g2
  unfold pi_in_box at hb
  rw [hf.resno0, hf.resno1, e11, e12] at hb
  omega

/-- Witness of `pi_create_encode_rpcl_tile_parts`: tile-part 1 of the tile of
`ex_image`, which is one cell of the step 32768; the first call of `pi_next` in
that tile-part emits a packet of resolution 1. -/
theorem pi_create_encode_rpcl_tile_parts_witness :
    (pi_tp_active ex_cp_cell .FINAL_PASS = true ∧ ex_poc_cell.prg = .RPCL ∧
      tp_cell ex_poc_cell ∧ ((1 : Nat) : Int) < 6 ∧
      ex_poc_cell.resS + ((1 : Nat) : Int) < ex_poc_cell.resE) ∧
    (∃ l1 cp1 s1,
      pi_create_encode_seq 0 0 1 .FINAL_PASS 6 1 [ex_slot_cell] ex_cp_cell = .ok (l1, cp1) ∧
      arr_get l1 0 = some s1 ∧
      s1.poc.resno0 = ex_poc_cell.resS + ((1 : Nat) : Int) ∧
      s1.poc.resno1 = ex_poc_cell.resS + ((1 : Nat) : Int) + 1 ∧
      ∀ (n : Nat) (t : opj_pi_iterator), pi_next_nth n s1 = .ok (true, t) →
        t.resno = ex_poc_cell.resS + ((1 : Nat) : Int)) ∧
    (∃ l1 cp1 s1 t,
      pi_create_encode_seq 0 0 1 .FINAL_PASS 6 1 [ex_slot_cell] ex_cp_cell = .ok (l1, cp1) ∧
      arr_get l1 0 = some s1 ∧ pi_next_nth 0 s1 = .ok (true, t) ∧ t.resno = 1) :=
  ⟨⟨rfl, rfl, by unfold tp_cell; decide, by decide, by decide⟩,
    pi_create_encode_rpcl_tile_parts [ex_slot_cell] ex_cp_cell 0 0 6 .FINAL_PASS _
      ex_poc_cell ex_slot_cell 1 rfl rfl rfl rfl rfl (by unfold tp_cell; decide) (by decide)
      (by decide),
    ⟨_, _, _, _, rfl, rfl, rfl, rfl⟩⟩

/-! ## The boundaries stored by `pi_initialise_encode` -/

/-- Two runs of one counted loop from related states stay related, and the second
returns when the first does. -/
theorem opj_for_rel {σ : Type} {f : Nat → σ → Except pi_fault σ} (R : σ → σ → Prop)
    (hstep : ∀ k s t s1, R s t → f k s = .ok s1 → ∃ t1, f k t = .ok t1 ∧ R s1 t1) :
    ∀ (n i : Nat) (s t s1 : σ), R s t → opj_for f n i s = .ok s1 →
      ∃ t1, opj_for f n i t = .ok t1 ∧ R s1 t1 := by
  intro n
  induction n with
  | zero =>
    intro i s t s1 hR h
    simp only [opj_for, Except.ok.injEq] at h
    subst h
    exact ⟨t, rfl, hR⟩
  | succ k ih =>
    intro i s t s1 hR h
    rw [opj_for] at h
    cases hf : f i s with
    | error e => rw [hf] at h; simp at h
    | ok s2 =>
      rw [hf] at h
      dsimp only at h
      obtain ⟨t2, g1, g2⟩ := hstep i s t s2 hR hf
      obtain ⟨t1, g3, g4⟩ := ih (i + 1) s2 t2 s1 g2 h
      refine ⟨t1, ?_, g4⟩
      rw [opj_for, g1]
      exact g3

/-- The loop over `resno` started from a larger `maxprec`: the same row, and the
maximum of the start and of the result of the first run. -/
theorem pi_res_loop_max {tccp : opj_tccp} {tcx0 tcy0 tcx1 tcy1 : Int} (c : Int) :
    ∀ (n i : Nat) (s t s1 : Int × List opj_pi_resolution),
      (t.2 = s.2 ∧ t.1 = max c s.1) →
      opj_for (pi_res_iter tccp tcx0 tcy0 tcx1 tcy1) n i s = .ok s1 →
      ∃ t1, opj_for (pi_res_iter tccp tcx0 tcy0 tcx1 tcy1) n i t = .ok t1 ∧
        (t1.2 = s1.2 ∧ t1.1 = max c s1.1) := by
  apply opj_for_rel (fun s t : Int × List opj_pi_resolution => t.2 = s.2 ∧ t.1 = max c s.1)
  intro k s t s1 hR hk
  obtain ⟨r1, r2⟩ := hR
  unfold pi_res_iter at hk ⊢
  cases he : pi_precinct_exps tccp k with
  | error e => rw [he] at hk; simp at hk
  | ok pd =>
    obtain ⟨pdx, pdy⟩ := pd
    rw [he] at hk
    simp only [Except.ok.injEq] at hk
    subst hk
    refine ⟨_, rfl, ?_, ?_⟩
    · simp only [r1]
    · simp only [r2]
      split <;> split <;> omega

/-- The loop over `resno` does not lower `maxprec`. -/
theorem pi_res_loop_le {tccp : opj_tccp} {tcx0 tcy0 tcx1 tcy1 : Int} (c : Int) :
    ∀ (n i : Nat) (s s1 : Int × List opj_pi_resolution), c ≤ s.1 →
      opj_for (pi_res_iter tccp tcx0 tcy0 tcx1 tcy1) n i s = .ok s1 → c ≤ s1.1 := by
  intro n i s s1 hs h
  have key := opj_for_inv (fun _ (p : Int × List opj_pi_resolution) => c ≤ p.1)
    (by
      intro k p p1 hP hk
      unfold pi_res_iter at hk
      cases he : pi_precinct_exps tccp k with
      | error e => rw [he] at hk; simp at hk
      | ok pd =>
        obtain ⟨pdx, pdy⟩ := pd
        rw [he] at hk
        simp only [Except.ok.injEq] at hk
        subst hk
        dsimp only
        split <;> omega)
    n i s s1 hs h
  exact key

/-- The loop over `compno` started from larger `maxres` and `maxprec`: the same
component records, and the maxima of the starts and of the results of the first
run. -/
theorem pi_comp_loop_max {image : opj_image} {tcp : opj_tcp} {tx0 ty0 tx1 ty1 : Int}
    (cm cp : Int) :
    ∀ (n i : Nat) (s t s1 : Int × Int × List opj_pi_comp),
      (t.2.2 = s.2.2 ∧ t.1 = max cm s.1 ∧ t.2.1 = max cp s.2.1) →
      opj_for (pi_comp_iter image tcp tx0 ty0 tx1 ty1) n i s = .ok s1 →
      ∃ t1, opj_for (pi_comp_iter image tcp tx0 ty0 tx1 ty1) n i t = .ok t1 ∧
        (t1.2.2 = s1.2.2 ∧ t1.1 = max cm s1.1 ∧ t1.2.1 = max cp s1.2.1) := by
  apply opj_for_rel
    (fun s t : Int × Int × List opj_pi_comp =>
      t.2.2 = s.2.2 ∧ t.1 = max cm s.1 ∧ t.2.1 = max cp s.2.1)
  intro k s t s1 hR hk
  obtain ⟨r1, r2, r3⟩ := hR
  unfold pi_comp_iter at hk ⊢
  cases hi : image.comps[k]? with
  | none => rw [hi] at hk; simp at hk
  | some ic =>
    cases ht : tcp.tccps[k]? with
    | none => rw [hi, ht] at hk; simp at hk
    | some tccp =>
      rw [hi, ht] at hk
      dsimp only at hk ⊢
      by_cases hz : ic.dx = 0 ∨ ic.dy = 0
      · rw [if_pos hz] at hk; simp at hk
      · rw [if_neg hz] at hk ⊢
        cases hin : opj_for (pi_res_iter tccp (int_ceildiv tx0 ic.dx) (int_ceildiv ty0 ic.dy)
            (int_ceildiv tx1 ic.dx) (int_ceildiv ty1 ic.dy)) tccp.numresolutions.toNat 0
            (s.2.1, []) with
        | error e => rw [hin] at hk; simp at hk
        | ok pr =>
          obtain ⟨p1, row⟩ := pr
          rw [hin] at hk
          simp only [Except.ok.injEq] at hk
          subst hk
          obtain ⟨t1, g1, g2, g3⟩ := pi_res_loop_max cp _ 0 (s.2.1, []) (t.2.1, []) _
            ⟨rfl, r3⟩ hin
          obtain ⟨q1, row1⟩ := t1
          dsimp only at g2 g3
          subst g2
          rw [g1]
          refine ⟨_, rfl, ?_, ?_, g3⟩
          · simp only [r1]
          · simp only [r2]
            split <;> split <;> omega

/-- The loop over `compno` leaves `maxres` and `maxprec` non-negative when it starts
from non-negative values. -/
theorem pi_comp_loop_nonneg {image : opj_image} {tcp : opj_tcp} {tx0 ty0 tx1 ty1 : Int} :
    ∀ (n i : Nat) (s s1 : Int × Int × List opj_pi_comp), (0 ≤ s.1 ∧ 0 ≤ s.2.1) →
      opj_for (pi_comp_iter image tcp tx0 ty0 tx1 ty1) n i s = .ok s1 →
      0 ≤ s1.1 ∧ 0 ≤ s1.2.1 := by
  intro n i s s1 hs h
  have key := opj_for_inv (fun _ (p : Int × Int × List opj_pi_comp) => 0 ≤ p.1 ∧ 0 ≤ p.2.1)
    (by
      intro k p p1 hP hk
      unfold pi_comp_iter at hk
      cases hi : image.comps[k]? with
      | none => rw [hi] at hk; simp at hk
      | some ic =>
        cases ht : tcp.tccps[k]? with
        | none => rw [hi, ht] at hk; simp at hk
        | some tccp =>
          rw [hi, ht] at hk
          dsimp only at hk
          by_cases hz : ic.dx = 0 ∨ ic.dy = 0
          · rw [if_pos hz] at hk; simp at hk
          · rw [if_neg hz] at hk
            split at hk
            · simp at hk
            · rename_i q1 row hin
              simp only [Except.ok.injEq] at hk
              subst hk
              have := pi_res_loop_le 0 _ 0 _ _ hP.2 hin
              refine ⟨?_, this⟩
              dsimp only
              split <;> omega)
    n i s s1 hs h
  exact key

/-- The loop over `compno` run again from its own maxima returns the same maxima
and the same component records. -/
theorem pi_comp_loop_again {image : opj_image} {tcp : opj_tcp} {tx0 ty0 tx1 ty1 : Int}
    {n : Nat} {M P : Int} {cs : List opj_pi_comp}
    (h : opj_for (pi_comp_iter image tcp tx0 ty0 tx1 ty1) n 0 (0, 0, []) = .ok (M, P, cs)) :
    opj_for (pi_comp_iter image tcp tx0 ty0 tx1 ty1) n 0 (M, P, []) = .ok (M, P, cs) := by
  obtain ⟨n1, n2⟩ := pi_comp_loop_nonneg n 0 _ _ ⟨le_refl _, le_refl _⟩ h
  dsimp only at n1 n2
  obtain ⟨t1, g1, g2, g3, g4⟩ := pi_comp_loop_max M P n 0 (0, 0, []) (M, P, []) _
    ⟨rfl, by dsimp only; omega, by dsimp only; omega⟩ h
  obtain ⟨a, b, c⟩ := t1
  dsimp only at g2 g3 g4
  rw [g1, g2, g3, g4, max_self, max_self]

/-- What one iteration of the loop over `pino` of `pi_initialise_encode` computes
and stores in `tcp->pocs[pino]`: the maxima of the loop over the components, the
boundaries of `pi_encode_bounds`, the precinct range, the tile extents and the steps
of the slot. -/
theorem pi_initialise_encode_slot_pocs {image : opj_image} {cp : opj_cp} {tcp : opj_tcp}
    {tileno : Int} {t2_mode : J2K_T2_MODE} {k : Nat} {st st1 : pi_enc_state}
    (h : pi_initialise_encode_slot image cp tcp tileno t2_mode k st = .ok st1) :
    ∃ cs poc pocb s1,
      opj_for (pi_comp_iter image tcp
          (int_max (cp.tx0 + Int.tmod tileno cp.tw * cp.tdx) image.x0)
          (int_max (cp.ty0 + Int.tdiv tileno cp.tw * cp.tdy) image.y0)
          (int_min (cp.tx0 + (Int.tmod tileno cp.tw + 1) * cp.tdx) image.x1)
          (int_min (cp.ty0 + (Int.tdiv tileno cp.tw + 1) * cp.tdy) image.y1))
        image.numcomps.toNat 0 (st.maxres, st.maxprec, [])
          = .ok (st1.maxres, st1.maxprec, cs) ∧
      st.pocs[k]? = some poc ∧
      pi_encode_bounds image cp tcp t2_mode st1.maxres k st.pocs poc = .ok pocb ∧
      st1.l_pi[k]? = some s1 ∧
      st1.pocs = st.pocs.set k
        { pocb with
          prcS := 0, prcE := st1.maxprec,
          txS := int_max (cp.tx0 + Int.tmod tileno cp.tw * cp.tdx) image.x0,
          txE := int_min (cp.tx0 + (Int.tmod tileno cp.tw + 1) * cp.tdx) image.x1,
          tyS := int_max (cp.ty0 + Int.tdiv tileno cp.tw * cp.tdy) image.y0,
          tyE := int_min (cp.ty0 + (Int.tdiv tileno cp.tw + 1) * cp.tdy) image.y1,
          dx := s1.dx, dy := s1.dy } := by
  unfold pi_initialise_encode_slot at h
  cases hs : st.l_pi[k]? with
  | none => rw [hs] at h; simp at h
  | some s =>
    rw [hs] at h
    dsimp only at h
    have hk := getElem?_lt hs
    by_cases hw : cp.tw = 0
    · rw [if_pos hw] at h; simp at h
    · rw [if_neg hw] at h
      split at h
      · simp at h
      · rename_i mr mp cs hloop
        split at h
        · simp at h
        · rename_i s0 h0
          split at h
          · simp at h
          · rename_i l3 hdx
            obtain ⟨g1, g2, g3⟩ := getElem?_set_spec
              (y := ({ ({ s with
                  tx0 := int_max (cp.tx0 + Int.tmod tileno cp.tw * cp.tdx) image.x0,
                  ty0 := int_max (cp.ty0 + Int.tdiv tileno cp.tw * cp.tdy) image.y0,
                  tx1 := int_min (cp.tx0 + (Int.tmod tileno cp.tw + 1) * cp.tdx) image.x1,
                  ty1 := int_min (cp.ty0 + (Int.tdiv tileno cp.tw + 1) * cp.tdy) image.y1,
                  numcomps := image.numcomps } : opj_pi_iterator) with
                comps := cs, step_p := 1, step_c := mp * 1,
                step_r := image.numcomps * (mp * 1),
                step_l := mr * (image.numcomps * (mp * 1)) } : opj_pi_iterator)) hk
            obtain ⟨f1, f2, y, t, f3, f4, f5⟩ := pi_encode_step_frame _ _ l3
              ⟨rfl, fun _ _ => rfl, _, _, g3, g3, rfl⟩ hdx
            rw [g3] at f3
            simp only [Option.some.injEq] at f3
            subst f3
            split at h
            · rename_i s3 poc h3 hpoc
              rw [f4] at h3
              simp only [Option.some.injEq] at h3
              subst h3
              split at h
              · simp at h
              · rename_i incl hbuf
                split at h
                · simp at h
                · rename_i pocb hb
                  simp only [Except.ok.injEq] at h
                  subst h
                  dsimp only
                  have hk3 : k < l3.length := getElem?_lt f4
                  obtain ⟨e1, e2, e3⟩ := getElem?_set_spec
                    (y := ({ t with incl := incl } : opj_pi_iterator)) hk3
                  have x0 := congrArg opj_pi_iterator.tx0 f5
                  have y0 := congrArg opj_pi_iterator.ty0 f5
                  have x1 := congrArg opj_pi_iterator.tx1 f5
                  have y1 := congrArg opj_pi_iterator.ty1 f5
                  dsimp only [view_step] at x0 y0 x1 y1
                  refine ⟨cs, poc, pocb, _, hloop, hpoc, hb, e3, ?_⟩
                  rw [x0, y0, x1, y1]
            · simp at h

/-- The array `pocs` that `pi_initialise_encode` leaves: entry `j` is computed from
the entry found there, the maxima of the loop over the components and the entry
`j - 1` already written. -/
theorem pi_initialise_encode_pocs {image : opj_image} {cp : opj_cp} {tileno : Int}
    {t2_mode : J2K_T2_MODE} {r : List opj_pi_iterator × opj_tcp}
    (h : pi_initialise_encode image cp tileno t2_mode = .ok r) :
    ∃ tcp M P cs, arr_get cp.tcps tileno = some tcp ∧
      pi_encode_maxima image cp tcp tileno = .ok (M, P, cs) ∧
      0 < (tcp.numpocs + 1).toNat ∧
      r.2.pocs.length = tcp.pocs.length ∧
      ∀ j, j < (tcp.numpocs + 1).toNat → ∃ poc0 pocj prevs,
        tcp.pocs[j]? = some poc0 ∧ r.2.pocs[j]? = some pocj ∧
        (0 < j → prevs[j - 1]? = r.2.pocs[j - 1]?) ∧
        pi_encode_poc image cp tcp tileno t2_mode M P j prevs poc0 pocj := by
  unfold pi_initialise_encode at h
  cases ht : arr_get cp.tcps tileno with
  | none => rw [ht] at h; simp at h
  | some tcp =>
    rw [ht] at h
    dsimp only at h
    split at h
    · simp at h
    · rename_i s0 hs0
      have hn : 0 < (tcp.numpocs + 1).toNat := by
        have := getElem?_lt hs0
        rw [List.length_replicate] at this
        exact this
      split at h
      · simp at h
      · rename_i st hloop
        simp only [Except.ok.injEq] at h
        subst h
        have key := opj_for_inv
          (fun k (st : pi_enc_state) =>
            st.pocs.length = tcp.pocs.length ∧
            (∀ j, k ≤ j → st.pocs[j]? = tcp.pocs[j]?) ∧
            (k = 0 → st.maxres = 0 ∧ st.maxprec = 0) ∧
            (0 < k → ∃ cs, pi_encode_maxima image cp tcp tileno
              = .ok (st.maxres, st.maxprec, cs)) ∧
            ∀ j, j < k → ∃ poc0 pocj prevs,
              tcp.pocs[j]? = some poc0 ∧ st.pocs[j]? = some pocj ∧
              (0 < j → prevs[j - 1]? = st.pocs[j - 1]?) ∧
              pi_encode_poc image cp tcp tileno t2_mode st.maxres st.maxprec j prevs
                poc0 pocj)
          (by
            intro k st st1 hP hk
            obtain ⟨i1, i2, i3, i4, i5⟩ := hP
            obtain ⟨cs, poc, pocb, s1, a1, a2, a3, _, a5⟩ :=
              pi_initialise_encode_slot_pocs hk
            have hklt := getElem?_lt a2
            have hmax : pi_encode_maxima image cp tcp tileno
                = .ok (st1.maxres, st1.maxprec, cs) ∧
                (0 < k → st1.maxres = st.maxres ∧ st1.maxprec = st.maxprec) := by
              by_cases hk0 : k = 0
              · obtain ⟨z1, z2⟩ := i3 hk0
                rw [z1, z2] at a1
                exact ⟨a1, fun hpos => by omega⟩
              · obtain ⟨cs0, c0⟩ := i4 (by omega)
                have c1 := pi_comp_loop_again c0
                rw [c1] at a1
                simp only [Except.ok.injEq, Prod.mk.injEq] at a1
                obtain ⟨b1, b2, b3⟩ := a1
                refine ⟨?_, fun _ => ⟨b1.symm, b2.symm⟩⟩
                rw [← b1, ← b2, ← b3]
                exact c0
            obtain ⟨m1, m2⟩ := hmax
            obtain ⟨e1, e2, e3⟩ := getElem?_set_spec
              (y := ({ pocb with
                prcS := 0, prcE := st1.maxprec,
                txS := int_max (cp.tx0 + Int.tmod tileno cp.tw * cp.tdx) image.x0,
                txE := int_min (cp.tx0 + (Int.tmod tileno cp.tw + 1) * cp.tdx) image.x1,
                tyS := int_max (cp.ty0 + Int.tdiv tileno cp.tw * cp.tdy) image.y0,
                tyE := int_min (cp.ty0 + (Int.tdiv tileno cp.tw + 1) * cp.tdy) image.y1,
                dx := s1.dx, dy := s1.dy } : opj_poc)) hklt
            rw [← a5] at e1 e2 e3
            refine ⟨e1.trans i1, ?_, fun hz => by omega, fun _ => ⟨cs, m1⟩, ?_⟩
            · intro j hj
              rw [e2 j (by omega)]
              exact i2 j (by omega)
            · intro j hj
              by_cases hjk : j = k
              · subst hjk
                refine ⟨poc, _, st.pocs, ?_, e3, ?_, pocb, s1.dx, s1.dy, a3, rfl⟩
                · rw [← i2 j (le_refl _)]; exact a2
                · intro hpos
                  rw [e2 (j - 1) (by omega)]
              · obtain ⟨poc0, pocj, prevs, c1, c2, c3, c4⟩ := i5 j (by omega)
                obtain ⟨n1, n2⟩ := m2 (by omega)
                refine ⟨poc0, pocj, prevs, c1, ?_, ?_, ?_⟩
                · rw [e2 j hjk]; exact c2
                · intro hpos
                  rw [e2 (j - 1) (by omega)]
                  exact c3 hpos
                · rw [n1, n2]; exact c4)
          _ 0 _ st ⟨rfl, fun _ _ => rfl, fun _ => ⟨rfl, rfl⟩, fun hz => by omega,
            fun j hj => by omega⟩ hloop
        obtain ⟨k1, _, _, k4, k5⟩ := key
        rw [Nat.zero_add] at k4 k5
        obtain ⟨cs, hM⟩ := k4 hn
        exact ⟨tcp, st.maxres, st.maxprec, cs, rfl, hM, hn, k1, k5⟩

/-- The test `tcp->POC && (cp->cinema || ((!cp->cinema) && (t2_mode == FINAL_PASS)))`
of `pi_initialise_encode`. -/
theorem pi_encode_cond (cp : opj_cp) (tcp : opj_tcp) (t2_mode : J2K_T2_MODE) :
    (tcp.POC && (cp.cinema != 0 || (cp.cinema == 0 && t2_mode == J2K_T2_MODE.FINAL_PASS)))
        = true ↔
      (tcp.POC = true ∧ (cp.cinema ≠ 0 ∨ t2_mode = .FINAL_PASS)) := by
  by_cases hc : cp.cinema = 0 <;> cases tcp.POC <;> cases t2_mode <;> simp [hc]

/-- C22, counterexample.  A tile with POC segments, the cinema setting 1 and the
mode `THRESH_CALC` (which is not `FINAL_PASS`): `pi_initialise_encode` stores for
POC 0 the box of the POC segment, `compE = 1`, `resE = 2` and `layE = 1`, and not
the full tile box `compE = numcomps = 2`, `resE = 3`, `layE = numlayers = 2`. -/
theorem pi_initialise_encode_cinema_poc :
    ∃ l tcp tcp1 poc, arr_get (ex_cp_enc_poc 1).tcps 0 = some tcp ∧
      pi_initialise_encode ex_image (ex_cp_enc_poc 1) 0 .THRESH_CALC = .ok (l, tcp1) ∧
      tcp1.pocs[0]? = some poc ∧
      poc.compE = 1 ∧ ex_image.numcomps = 2 ∧ poc.resE = 2 ∧ poc.layE = 1 ∧
      tcp.numlayers = 2 ∧ poc.prg = .RLCP ∧ tcp.prg = .LRCP :=
  ⟨_, _, _, _, rfl, rfl, rfl, rfl, rfl, rfl, rfl, rfl, rfl, rfl⟩

/-- C22, amended.  Encode-initialise default boundaries: whenever the tile has no
POC, or the cinema setting is 0 and the mode is not `FINAL_PASS`,
`pi_initialise_encode` stores for every slot the full tile box: `compS = 0`,
`compE = numcomps`, `resS = 0`, `resE = maxres`, `layS = 0`, `layE = numlayers`,
`prcS = 0`, `prcE = maxprec`, `txS = tx0`, `txE = tx1`, `tyS = ty0`, `tyE = ty1` and
`prg` the tile default progression, where `maxres` and `maxprec` are the maxima that
the loop over the components computes and `tx0 .. ty1` the extents of the tile. -/
theorem pi_initialise_encode_default_bounds (image : opj_image) (cp : opj_cp) (tileno : Int)
    (t2_mode : J2K_T2_MODE) (l : List opj_pi_iterator) (tcp tcp1 : opj_tcp)
    (h : pi_initialise_encode image cp tileno t2_mode = .ok (l, tcp1))
    (ht : arr_get cp.tcps tileno = some tcp)
    (hc : tcp.POC = false ∨ (cp.cinema = 0 ∧ t2_mode ≠ .FINAL_PASS)) :
    ∃ M P cs, pi_encode_maxima image cp tcp tileno = .ok (M, P, cs) ∧
      ∀ j, j < (tcp.numpocs + 1).toNat → ∃ poc, tcp1.pocs[j]? = some poc ∧
        poc.compS = 0 ∧ poc.compE = image.numcomps ∧ poc.resS = 0 ∧ poc.resE = M ∧
        poc.layS = 0 ∧ poc.layE = tcp.numlayers ∧ poc.prcS = 0 ∧ poc.prcE = P ∧
        poc.txS = int_max (cp.tx0 + Int.tmod tileno cp.tw * cp.tdx) image.x0 ∧
        poc.txE = int_min (cp.tx0 + (Int.tmod tileno cp.tw + 1) * cp.tdx) image.x1 ∧
        poc.tyS = int_max (cp.ty0 + Int.tdiv tileno cp.tw * cp.tdy) image.y0 ∧
        poc.tyE = int_min (cp.ty0 + (Int.tdiv tileno cp.tw + 1) * cp.tdy) image.y1 ∧
        poc.prg = tcp.prg := by
  obtain ⟨tcp0, M, P, cs, a1, a2, _, _, a5⟩ := pi_initialise_encode_pocs h
  rw [ht] at a1
  simp only [Option.some.injEq] at a1
  subst a1
  refine ⟨M, P, cs, a2, ?_⟩
  intro j hj
  obtain ⟨poc0, pocj, prevs, _, b2, _, pocb, dx, dy, b4, b5⟩ := a5 j hj
  have hcond : ¬ ((tcp.POC && (cp.cinema != 0 ||
      (cp.cinema == 0 && t2_mode == J2K_T2_MODE.FINAL_PASS))) = true) := by
    rw [pi_encode_cond]
    rintro ⟨c1, c2⟩
    rcases hc with hc | ⟨hc1, hc2⟩
    · rw [hc] at c1; simp at c1
    · rcases c2 with c2 | c2
      · exact c2 hc1
      · exact hc2 c2
  unfold pi_encode_bounds at b4
  rw [if_neg hcond] at b4
  simp only [Except.ok.injEq] at b4
  subst b4
  subst b5
  exact ⟨_, b2, rfl, rfl, rfl, rfl, rfl, rfl, rfl, rfl, rfl, rfl, rfl, rfl, rfl⟩

/-- Witness of `pi_initialise_encode_default_bounds`: a tile with two POC segments,
the cinema setting 0 and the mode `THRESH_CALC`; both stored POCs have the full box
of two components. -/
theorem pi_initialise_encode_default_bounds_witness :
    ∃ l tcp tcp1, pi_initialise_encode ex_image (ex_cp_enc_poc 0) 0 .THRESH_CALC
        = .ok (l, tcp1) ∧
      arr_get (ex_cp_enc_poc 0).tcps 0 = some tcp ∧
      (tcp.POC = false ∨
        ((ex_cp_enc_poc 0).cinema = 0 ∧ J2K_T2_MODE.THRESH_CALC ≠ .FINAL_PASS)) ∧
      ∃ M P cs, pi_encode_maxima ex_image (ex_cp_enc_poc 0) tcp 0 = .ok (M, P, cs) ∧
        ∀ j, j < (tcp.numpocs + 1).toNat → ∃ poc, tcp1.pocs[j]? = some poc ∧
          poc.compS = 0 ∧ poc.compE = ex_image.numcomps ∧ poc.resS = 0 ∧ poc.resE = M ∧
          poc.layS = 0 ∧ poc.layE = tcp.numlayers ∧ poc.prcS = 0 ∧ poc.prcE = P ∧
          poc.txS = int_max ((ex_cp_enc_poc 0).tx0
            + Int.tmod 0 (ex_cp_enc_poc 0).tw * (ex_cp_enc_poc 0).tdx) ex_image.x0 ∧
          poc.txE = int_min ((ex_cp_enc_poc 0).tx0
            + (Int.tmod 0 (ex_cp_enc_poc 0).tw + 1) * (ex_cp_enc_poc 0).tdx) ex_image.x1 ∧
          poc.tyS = int_max ((ex_cp_enc_poc 0).ty0
            + Int.tdiv 0 (ex_cp_enc_poc 0).tw * (ex_cp_enc_poc 0).tdy) ex_image.y0 ∧
          poc.tyE = int_min ((ex_cp_enc_poc 0).ty0
            + (Int.tdiv 0 (ex_cp_enc_poc 0).tw + 1) * (ex_cp_enc_poc 0).tdy) ex_image.y1 ∧
          poc.prg = tcp.prg :=
  ⟨_, _, _, rfl, rfl, Or.inr ⟨rfl, by decide⟩,
    pi_initialise_encode_default_bounds ex_image (ex_cp_enc_poc 0) 0 .THRESH_CALC _ _ _ rfl
      rfl (Or.inr ⟨rfl, by decide⟩)⟩

/-- C23. Encode-initialise with POC in the final pass: for every slot `j`, the stored
`compS`, `compE`, `resS`, `resE` and `layE` are `compno0`, `compno1`, `resno0`,
`resno1` and `layno1` of the POC segment, and for every slot `j > 0` whose `layE`
exceeds the `layE` of slot `j - 1`, `layS` is the `layE` of slot `j - 1`, which is
`max(layE of slot j - 1, 0)` for a layer bound that is not negative. -/
theorem pi_initialise_encode_poc_bounds (image : opj_image) (cp : opj_cp) (tileno : Int)
    (l : List opj_pi_iterator) (tcp tcp1 : opj_tcp)
    (h : pi_initialise_encode image cp tileno .FINAL_PASS = .ok (l, tcp1))
    (ht : arr_get cp.tcps tileno = some tcp) (hpoc : tcp.POC = true) :
    ∀ j, j < (tcp.numpocs + 1).toNat → ∃ poc0 pocj,
      tcp.pocs[j]? = some poc0 ∧ tcp1.pocs[j]? = some pocj ∧
      pocj.compS = poc0.compno0 ∧ pocj.compE = poc0.compno1 ∧ pocj.resS = poc0.resno0 ∧
      pocj.resE = poc0.resno1 ∧ pocj.layE = poc0.layno1 ∧
      (0 < j → ∃ prev, tcp1.pocs[j - 1]? = some prev ∧
        (prev.layE < pocj.layE →
          pocj.layS = prev.layE ∧ (0 ≤ prev.layE → pocj.layS = max prev.layE 0))) := by
  obtain ⟨tcp0, M, P, cs, a1, a2, _, _, a5⟩ := pi_initialise_encode_pocs h
  rw [ht] at a1
  simp only [Option.some.injEq] at a1
  subst a1
  intro j hj
  obtain ⟨poc0, pocj, prevs, b1, b2, b3, pocb, dx, dy, b4, b5⟩ := a5 j hj
  have hcond : (tcp.POC && (cp.cinema != 0 ||
      (cp.cinema == 0 && J2K_T2_MODE.FINAL_PASS == J2K_T2_MODE.FINAL_PASS))) = true := by
    rw [pi_encode_cond]
    exact ⟨hpoc, Or.inr rfl⟩
  unfold pi_encode_bounds at b4
  rw [if_pos hcond] at b4
  by_cases hj0 : j > 0
  · rw [if_pos hj0] at b4
    cases hp : prevs[j - 1]? with
    | none => rw [hp] at b4; simp at b4
    | some prev =>
      rw [hp] at b4
      simp only [Except.ok.injEq] at b4
      subst b4
      subst b5
      refine ⟨_, _, b1, b2, rfl, rfl, rfl, rfl, rfl, fun _ => ⟨prev, ?_, ?_⟩⟩
      · rw [← b3 hj0]; exact hp
      · intro hlt
        have e : (if poc0.layno1 > prev.layE then prev.layE else 0) = prev.layE :=
          if_pos hlt
        exact ⟨e, fun h0 => by rw [max_eq_left h0]; exact e⟩
  · rw [if_neg hj0] at b4
    simp only [Except.ok.injEq] at b4
    subst b4
    subst b5
    exact ⟨_, _, b1, b2, rfl, rfl, rfl, rfl, rfl, fun hpos => absurd hpos hj0⟩

/-- Witness of `pi_initialise_encode_poc_bounds`: two POC segments with layer bounds
1 and 2; slot 1 gets `layS = 1`. -/
theorem pi_initialise_encode_poc_bounds_witness :
    ∃ l tcp tcp1, pi_initialise_encode ex_image (ex_cp_enc_poc 0) 0 .FINAL_PASS
        = .ok (l, tcp1) ∧
      arr_get (ex_cp_enc_poc 0).tcps 0 = some tcp ∧ tcp.POC = true ∧
      (1 < (tcp.numpocs + 1).toNat ∧ ∃ poc0 pocj,
        tcp.pocs[1]? = some poc0 ∧ tcp1.pocs[1]? = some pocj ∧
        pocj.compS = poc0.compno0 ∧ pocj.compE = poc0.compno1 ∧ pocj.resS = poc0.resno0 ∧
        pocj.resE = poc0.resno1 ∧ pocj.layE = poc0.layno1 ∧
        (0 < 1 → ∃ prev, tcp1.pocs[1 - 1]? = some prev ∧
          (prev.layE < pocj.layE →
            pocj.layS = prev.layE ∧ (0 ≤ prev.layE → pocj.layS = max prev.layE 0)))) ∧
      ∃ pocj, tcp1.pocs[1]? = some pocj ∧ pocj.layS = 1 ∧ pocj.layE = 2 :=
  ⟨_, _, _, rfl, rfl, rfl,
    ⟨by decide, pi_initialise_encode_poc_bounds ex_image (ex_cp_enc_poc 0) 0 _ _ _ rfl rfl rfl
      1 (by decide)⟩,
    ⟨_, rfl, rfl, rfl⟩⟩

/-! ## The spatial step and the minima of the builder -/

theorem step_agrees_next {m d v : Int} (h : step_agrees m d) (hv : v ≠ 0)
    (hfit : v ≤ 0x7fffffff) :
    step_agrees (int_min m v) (if d = 0 then v else int_min d v) ∧
      (if d = 0 then v else int_min d v) ≠ 0 := by
  unfold step_agrees int_min at *
  rcases h with ⟨h1, h2⟩ | ⟨h1, h2⟩
  · subst h1 h2
    rw [if_pos rfl]
    refine ⟨Or.inr ⟨?_, hv⟩, hv⟩
    split <;> omega
  · subst h1
    rw [if_neg h2]
    refine ⟨Or.inr ⟨rfl, ?_⟩, ?_⟩ <;> split <;> omega

/-- Two counted loops that step in relation up to the bound `N` return together. -/
theorem opj_for_sim {σ τ : Type} {f : Nat → σ → Except pi_fault σ}
    {g : Nat → τ → Except pi_fault τ} (N : Nat) (R : Nat → σ → τ → Prop)
    (hstep : ∀ k s t s1, k < N → R k s t → f k s = .ok s1 →
      ∃ t1, g k t = .ok t1 ∧ R (k + 1) s1 t1) :
    ∀ (n i : Nat) (s : σ) (t : τ) (s1 : σ), i + n ≤ N → R i s t →
      opj_for f n i s = .ok s1 → ∃ t1, opj_for g n i t = .ok t1 ∧ R (i + n) s1 t1 := by
  intro n
  induction n with
  | zero =>
    intro i s t s1 _ hR h
    simp only [opj_for, Except.ok.injEq] at h
    subst h
    exact ⟨t, rfl, hR⟩
  | succ k ih =>
    intro i s t s1 hb hR h
    rw [opj_for] at h
    cases hf : f i s with
    | error e => rw [hf] at h; simp at h
    | ok s2 =>
      rw [hf] at h
      dsimp only at h
      obtain ⟨t2, g1, g2⟩ := hstep i s t s2 (by omega) hR hf
      obtain ⟨t1, g3, g4⟩ := ih (i + 1) s2 t2 s1 (by omega) g2 h
      refine ⟨t1, ?_, ?_⟩
      · rw [opj_for, g1]
        exact g3
      · have e : i + (k + 1) = i + 1 + k := by omega
        rw [e]; exact g4

/-- The loop over `resno` of the engines on a component record follows the loop over
`resno` of `get_all_encoding_parameters` on the component it was built for. -/
theorem pi_step_comp_sim {ic : opj_image_comp} {tccp : opj_tccp} {comp : opj_pi_comp}
    {tcx0 tcy0 tcx1 tcy1 : Int} (hm : comp_matches ic tccp comp) (hfit : steps_fit ic tccp)
    (hdx : ic.dx ≠ 0) (hdy : ic.dy ≠ 0)
    {a a1 : opj_enc_params} {row : List opj_pi_resolution} {d : Int × Int}
    (hR : step_agrees a.p_dx_min d.1 ∧ step_agrees a.p_dy_min d.2)
    (h : opj_for (enc_res_iter ic tccp tcx0 tcy0 tcx1 tcy1) tccp.numresolutions.toNat 0
      (a, []) = .ok (a1, row)) :
    ∃ d1, pi_step_comp comp d = .ok d1 ∧
      step_agrees a1.p_dx_min d1.1 ∧ step_agrees a1.p_dy_min d1.2 ∧
      (((d.1 ≠ 0 ∧ d.2 ≠ 0) ∨ 0 < tccp.numresolutions.toNat) → d1.1 ≠ 0 ∧ d1.2 ≠ 0) := by
  obtain ⟨m1, m2, m3, m4⟩ := hm
  have key := opj_for_sim
    (f := enc_res_iter ic tccp tcx0 tcy0 tcx1 tcy1) (g := pi_step_res comp)
    tccp.numresolutions.toNat
    (fun k (p : opj_enc_params × List opj_pi_resolution) (q : Int × Int) =>
      step_agrees p.1.p_dx_min q.1 ∧ step_agrees p.1.p_dy_min q.2 ∧
      (((d.1 ≠ 0 ∧ d.2 ≠ 0) ∨ 0 < k) → q.1 ≠ 0 ∧ q.2 ≠ 0))
    (by
      intro k p q p1 hk hP hstep
      obtain ⟨r1, r2, _⟩ := hP
      obtain ⟨res, pdx, pdy, e1, e2, e3, e4, e5⟩ := m4 k hk
      obtain ⟨f1, f2⟩ := hfit k pdx pdy hk e1 e2
      unfold enc_res_iter at hstep
      rw [e1, e2] at hstep
      simp only [Except.ok.injEq] at hstep
      subst hstep
      unfold pi_step_res
      rw [e3]
      dsimp only
      have ex : comp.dx * pow2 (res.pdx + comp.numresolutions - 1 - (k : Int))
          = ic.dx * pow2 (pdx + (tccp.numresolutions - 1 - (k : Int))) := by
        rw [m1, m3, e4]
        congr 2
        omega
      have ey : comp.dy * pow2 (res.pdy + comp.numresolutions - 1 - (k : Int))
          = ic.dy * pow2 (pdy + (tccp.numresolutions - 1 - (k : Int))) := by
        rw [m2, m3, e5]
        congr 2
        omega
      rw [ex, ey]
      have vx : ic.dx * pow2 (pdx + (tccp.numresolutions - 1 - (k : Int))) ≠ 0 :=
        mul_ne_zero hdx (ne_of_gt (pow2_pos _))
      have vy : ic.dy * pow2 (pdy + (tccp.numresolutions - 1 - (k : Int))) ≠ 0 :=
        mul_ne_zero hdy (ne_of_gt (pow2_pos _))
      obtain ⟨sx1, sx2⟩ := step_agrees_next r1 vx f1
      obtain ⟨sy1, sy2⟩ := step_agrees_next r2 vy f2
      exact ⟨_, rfl, sx1, sy1, fun _ => ⟨sx2, sy2⟩⟩)
    tccp.numresolutions.toNat 0 (a, []) d (a1, row) (by omega)
    ⟨hR.1, hR.2, fun hz => by
      rcases hz with hz | hz
      · exact hz
      · omega⟩ h
  obtain ⟨d1, k1, k2, k3, k4⟩ := key
  refine ⟨d1, ?_, k2, k3, ?_⟩
  · unfold pi_step_comp
    rw [m3]
    exact k1
  · intro hz
    apply k4
    rcases hz with hz | hz
    · exact Or.inl hz
    · exact Or.inr (by omega)

/-- The loop over `compno` of the engines on the component records `cs` follows the
loop over `compno` of `get_all_encoding_parameters`. -/
theorem pi_step_sim {image : opj_image} {tcp : opj_tcp} {cs : List opj_pi_comp} {n : Nat}
    (hcs : ∀ c, c < n → ∃ ic tccp comp, image.comps[c]? = some ic ∧
      tcp.tccps[c]? = some tccp ∧ cs[c]? = some comp ∧ comp_matches ic tccp comp ∧
      steps_fit ic tccp)
    {a0 e : opj_enc_params} (h0x : a0.p_dx_min = 0x7fffffff) (h0y : a0.p_dy_min = 0x7fffffff)
    (h : opj_for (enc_comp_iter image tcp) n 0 a0 = .ok e) :
    ∃ d, opj_for (fun compno d =>
        match cs[compno]? with
        | none => .error .bounds
        | some comp => pi_step_comp comp d) n 0 (0, 0) = .ok d ∧
      step_agrees e.p_dx_min d.1 ∧ step_agrees e.p_dy_min d.2 ∧
      ((∃ c tccp, c < n ∧ tcp.tccps[c]? = some tccp ∧ 0 < tccp.numresolutions) →
        d.1 ≠ 0 ∧ d.2 ≠ 0) := by
  have key := opj_for_sim
    (f := enc_comp_iter image tcp)
    (g := fun compno d =>
        match cs[compno]? with
        | none => .error .bounds
        | some comp => pi_step_comp comp d)
    n
    (fun k (a : opj_enc_params) (q : Int × Int) =>
      step_agrees a.p_dx_min q.1 ∧ step_agrees a.p_dy_min q.2 ∧
      ((∃ c tccp, c < k ∧ tcp.tccps[c]? = some tccp ∧ 0 < tccp.numresolutions) →
        q.1 ≠ 0 ∧ q.2 ≠ 0))
    (by
      intro k a q a1 hk hP hstep
      obtain ⟨r1, r2, r3⟩ := hP
      obtain ⟨ic, tccp, comp, e1, e2, e3, e4, e5⟩ := hcs k hk
      unfold enc_comp_iter at hstep
      rw [e1, e2] at hstep
      dsimp only at hstep
      by_cases hz : ic.dx = 0 ∨ ic.dy = 0
      · rw [if_pos hz] at hstep; simp at hstep
      · rw [if_neg hz] at hstep
        have hdx : ic.dx ≠ 0 := fun hc => hz (Or.inl hc)
        have hdy : ic.dy ≠ 0 := fun hc => hz (Or.inr hc)
        split at hstep
        · simp at hstep
        · rename_i a2 row hin
          simp only [Except.ok.injEq] at hstep
          subst hstep
          have hx : step_agrees
              (if tccp.numresolutions > a.p_max_res
                then { a with p_max_res := tccp.numresolutions } else a).p_dx_min q.1 := by
            split <;> exact r1
          have hy : step_agrees
              (if tccp.numresolutions > a.p_max_res
                then { a with p_max_res := tccp.numresolutions } else a).p_dy_min q.2 := by
            split <;> exact r2
          obtain ⟨d1, g1, g2, g3, g4⟩ := pi_step_comp_sim e4 e5 hdx hdy ⟨hx, hy⟩ hin
          dsimp only
          rw [e3]
          refine ⟨d1, g1, g2, g3, ?_⟩
          rintro ⟨c, tccp1, hc, ht1, hpos⟩
          apply g4
          by_cases hck : c = k
          · subst hck
            rw [e2] at ht1
            simp only [Option.some.injEq] at ht1
            subst ht1
            exact Or.inr (by omega)
          · exact Or.inl (r3 ⟨c, tccp1, by omega, ht1, hpos⟩))
    n 0 a0 (0, 0) e (by omega)
    ⟨Or.inl ⟨rfl, h0x⟩, Or.inl ⟨rfl, h0y⟩, fun ⟨c, _, hc, _⟩ => by omega⟩ h
  obtain ⟨d, k1, k2, k3, k4⟩ := key
  rw [Nat.zero_add] at k4
  exact ⟨d, k1, k2, k3, k4⟩

/-- The running minimum of the loop over `resno` of `get_all_encoding_parameters`:
`get` is `p_dx_min` or `p_dy_min`. -/
theorem enc_res_loop_min {ic : opj_image_comp} {tccp : opj_tccp} {tcx0 tcy0 tcx1 tcy1 : Int}
    (get : opj_enc_params → Int) (V : Nat → Option Int)
    (hupd : ∀ k (p p1 : opj_enc_params × List opj_pi_resolution),
      enc_res_iter ic tccp tcx0 tcy0 tcx1 tcy1 k p = .ok p1 →
      ∃ v, V k = some v ∧ get p1.1 = int_min (get p.1) v)
    {n : Nat} {a a1 : opj_enc_params} {row : List opj_pi_resolution}
    (h : opj_for (enc_res_iter ic tccp tcx0 tcy0 tcx1 tcy1) n 0 (a, []) = .ok (a1, row)) :
    get a1 ≤ get a ∧ (∀ r v, r < n → V r = some v → get a1 ≤ v) ∧
    (get a1 = get a ∨ ∃ r v, r < n ∧ V r = some v ∧ get a1 = v) := by
  have key := opj_for_inv
    (fun k (p : opj_enc_params × List opj_pi_resolution) =>
      get p.1 ≤ get a ∧ (∀ r v, r < k → V r = some v → get p.1 ≤ v) ∧
      (get p.1 = get a ∨ ∃ r v, r < k ∧ V r = some v ∧ get p.1 = v))
    (by
      intro k p p1 hP hk
      obtain ⟨q1, q2, q3⟩ := hP
      obtain ⟨v, u1, u2⟩ := hupd k p p1 hk
      have hle : get p1.1 ≤ get p.1 ∧ get p1.1 ≤ v ∧ (get p1.1 = get p.1 ∨ get p1.1 = v) := by
        rw [u2]
        unfold int_min
        split
        · exact ⟨le_refl _, by omega, Or.inl rfl⟩
        · exact ⟨by omega, le_refl _, Or.inr rfl⟩
      obtain ⟨l1, l2, l3⟩ := hle
      refine ⟨le_trans l1 q1, ?_, ?_⟩
      · intro r w hr hw
        by_cases hrk : r = k
        · subst hrk
          rw [u1] at hw
          simp only [Option.some.injEq] at hw
          omega
        · exact le_trans l1 (q2 r w (by omega) hw)
      · rcases l3 with l3 | l3
        · rcases q3 with q3 | ⟨r, w, hr, hw, q3⟩
          · exact Or.inl (l3.trans q3)
          · exact Or.inr ⟨r, w, by omega, hw, l3.trans q3⟩
        · exact Or.inr ⟨k, v, by omega, u1, l3⟩)
    n 0 (a, []) (a1, row) ⟨le_refl _, fun r v hr => by omega, Or.inl rfl⟩ h
  simpa using key

/-- The running minimum of the loop over `compno` of `get_all_encoding_parameters`:
it is below the start value and every product of `pi_step_value`, and it is the start
value or one of the products. -/
theorem enc_comp_loop_min {image : opj_image} {tcp : opj_tcp}
    (sel : opj_image_comp → Int) (pd : opj_tccp → List Int) (get : opj_enc_params → Int)
    (hupd : ∀ (ic : opj_image_comp) (tccp : opj_tccp) (tcx0 tcy0 tcx1 tcy1 : Int) (k : Nat)
      (p p1 : opj_enc_params × List opj_pi_resolution),
      enc_res_iter ic tccp tcx0 tcy0 tcx1 tcy1 k p = .ok p1 →
      ∃ q, (pd tccp)[k]? = some q ∧
        get p1.1 = int_min (get p.1) (sel ic * pow2 (q + (tccp.numresolutions - 1 - k))))
    (hframe : ∀ (a : opj_enc_params) (m : Int) (rs : List (List opj_pi_resolution)),
      get { a with p_max_res := m } = get a ∧ get { a with p_resolutions := rs } = get a)
    {n : Nat} {a0 e : opj_enc_params}
    (h : opj_for (enc_comp_iter image tcp) n 0 a0 = .ok e) :
    get e ≤ get a0 ∧
    (∀ c r v, c < n → pi_step_value sel pd image tcp c r = some v → get e ≤ v) ∧
    (get e = get a0 ∨
      ∃ c r v, c < n ∧ pi_step_value sel pd image tcp c r = some v ∧ get e = v) := by
  have key := opj_for_inv
    (fun k (a : opj_enc_params) =>
      get a ≤ get a0 ∧
      (∀ c r v, c < k → pi_step_value sel pd image tcp c r = some v → get a ≤ v) ∧
      (get a = get a0 ∨
        ∃ c r v, c < k ∧ pi_step_value sel pd image tcp c r = some v ∧ get a = v))
    (by
      intro k a a' hP hk
      obtain ⟨q1, q2, q3⟩ := hP
      unfold enc_comp_iter at hk
      cases hi : image.comps[k]? with
      | none => rw [hi] at hk; simp at hk
      | some ic =>
        cases ht : tcp.tccps[k]? with
        | none => rw [hi, ht] at hk; simp at hk
        | some tccp =>
          rw [hi, ht] at hk
          dsimp only at hk
          by_cases hz : ic.dx = 0 ∨ ic.dy = 0
          · rw [if_pos hz] at hk; simp at hk
          · rw [if_neg hz] at hk
            split at hk
            · simp at hk
            · rename_i a2 row hin
              simp only [Except.ok.injEq] at hk
              subst hk
              have hval : ∀ r v, pi_step_value sel pd image tcp k r = some v ↔
                  (r < tccp.numresolutions.toNat ∧
                    (match (pd tccp)[r]? with
                     | some q => some (sel ic * pow2 (q + (tccp.numresolutions - 1 - r)))
                     | none => none) = some v) := by
                intro r v
                unfold pi_step_value
                rw [hi, ht]
                dsimp only
                by_cases hr : r < tccp.numresolutions.toNat
                · rw [if_pos hr]
                  exact ⟨fun hh => ⟨hr, hh⟩, fun hh => hh.2⟩
                · rw [if_neg hr]
                  exact ⟨fun hh => by simp at hh, fun hh => absurd hh.1 hr⟩
              obtain ⟨g1, g2, g3⟩ := enc_res_loop_min get
                (fun r => match (pd tccp)[r]? with
                  | some q => some (sel ic * pow2 (q + (tccp.numresolutions - 1 - r)))
                  | none => none)
                (by
                  intro j p p1 hj
                  obtain ⟨q, u1, u2⟩ := hupd ic tccp _ _ _ _ j p p1 hj
                  refine ⟨_, ?_, u2⟩
                  dsimp only
                  rw [u1])
                hin
              have hs : get (if tccp.numresolutions > a.p_max_res
                  then { a with p_max_res := tccp.numresolutions } else a) = get a := by
                split
                · exact (hframe a _ []).1
                · rfl
              rw [hs] at g1 g3
              rw [(hframe a2 0 _).2]
              refine ⟨le_trans g1 q1, ?_, ?_⟩
              · intro c r v hc hv
                by_cases hck : c = k
                · subst hck
                  obtain ⟨hr, hv1⟩ := (hval r v).mp hv
                  exact g2 r v hr hv1
                · exact le_trans g1 (q2 c r v (by omega) hv)
              · rcases g3 with g3 | ⟨r, v, hr, hv, g3⟩
                · rcases q3 with q3 | ⟨c, r, v, hc, hv, q3⟩
                  · exact Or.inl (g3.trans q3)
                  · exact Or.inr ⟨c, r, v, by omega, hv, g3.trans q3⟩
                · exact Or.inr ⟨k, r, v, by omega, (hval r v).mpr ⟨hr, hv⟩, g3⟩)
    n 0 a0 e ⟨le_refl _, fun c r v hc => by omega, Or.inl rfl⟩ h
  simpa using key

theorem enc_res_iter_dx (ic : opj_image_comp) (tccp : opj_tccp) (tcx0 tcy0 tcx1 tcy1 : Int)
    (k : Nat) (p p1 : opj_enc_params × List opj_pi_resolution)
    (h : enc_res_iter ic tccp tcx0 tcy0 tcx1 tcy1 k p = .ok p1) :
    ∃ q, tccp.prcw[k]? = some q ∧
      p1.1.p_dx_min = int_min p.1.p_dx_min (ic.dx * pow2 (q + (tccp.numresolutions - 1 - k))) := by
  unfold enc_res_iter at h
  cases hw : tccp.prcw[k]? with
  | none => rw [hw] at h; simp at h
  | some pdx =>
    cases hh : tccp.prch[k]? with
    | none => rw [hw, hh] at h; simp at h
    | some pdy =>
      rw [hw, hh] at h
      simp only [Except.ok.injEq] at h
      subst h
      exact ⟨pdx, rfl, rfl⟩

theorem enc_res_iter_dy (ic : opj_image_comp) (tccp : opj_tccp) (tcx0 tcy0 tcx1 tcy1 : Int)
    (k : Nat) (p p1 : opj_enc_params × List opj_pi_resolution)
    (h : enc_res_iter ic tccp tcx0 tcy0 tcx1 tcy1 k p = .ok p1) :
    ∃ q, tccp.prch[k]? = some q ∧
      p1.1.p_dy_min = int_min p.1.p_dy_min (ic.dy * pow2 (q + (tccp.numresolutions - 1 - k))) := by
  unfold enc_res_iter at h
  cases hw : tccp.prcw[k]? with
  | none => rw [hw] at h; simp at h
  | some pdx =>
    cases hh : tccp.prch[k]? with
    | none => rw [hw, hh] at h; simp at h
    | some pdy =>
      rw [hw, hh] at h
      simp only [Except.ok.injEq] at h
      subst h
      exact ⟨pdy, rfl, rfl⟩

/-- The minima `p_dx_min` and `p_dy_min` of `get_all_encoding_parameters` are the
minima over all `(c, r)` of the products, when there is a resolution and every
product is at most `0x7fffffff`. -/
theorem get_all_encoding_parameters_min {image : opj_image} {cp : opj_cp} {tileno : Int}
    {e : opj_enc_params} {tcp : opj_tcp}
    (he : get_all_encoding_parameters image cp tileno = .ok e)
    (ht : arr_get cp.tcps tileno = some tcp)
    (hres : ∃ c tccp, c < image.numcomps.toNat ∧ tcp.tccps[c]? = some tccp ∧
      0 < tccp.numresolutions)
    (hfit : ∀ c ic tccp, c < image.numcomps.toNat → image.comps[c]? = some ic →
      tcp.tccps[c]? = some tccp → steps_fit ic tccp) :
    is_step_min (fun ic => ic.dx) (fun tccp => tccp.prcw) image tcp e.p_dx_min ∧
    is_step_min (fun ic => ic.dy) (fun tccp => tccp.prch) image tcp e.p_dy_min := by
  obtain ⟨tcp0, t1, tw, _, _, _, _, _, trows⟩ := get_all_encoding_parameters_table he
  rw [ht] at t1
  simp only [Option.some.injEq] at t1
  subst t1
  have hloop := he
  unfold get_all_encoding_parameters at hloop
  rw [ht] at hloop
  dsimp only at hloop
  rw [if_neg tw] at hloop
  obtain ⟨c, tccp, hc, hT, hpos⟩ := hres
  obtain ⟨ic, tccp1, row, d1, d2, _, _, _, d6⟩ := trows c hc
  rw [hT] at d2
  simp only [Option.some.injEq] at d2
  subst d2
  have h0 : 0 < tccp.numresolutions.toNat := by omega
  obtain ⟨pdx, pdy, f1, f2, _⟩ := d6.2 0 h0
  obtain ⟨fx, fy⟩ := hfit c ic tccp hc d1 hT 0 pdx pdy h0 f1 f2
  have vx : pi_step_value (fun ic => ic.dx) (fun tccp => tccp.prcw) image tcp c 0
      = some (ic.dx * pow2 (pdx + (tccp.numresolutions - 1 - ((0 : Nat) : Int)))) := by
    unfold pi_step_value
    rw [d1, hT]
    dsimp only
    rw [if_pos h0, f1]
  have vy : pi_step_value (fun ic => ic.dy) (fun tccp => tccp.prch) image tcp c 0
      = some (ic.dy * pow2 (pdy + (tccp.numresolutions - 1 - ((0 : Nat) : Int)))) := by
    unfold pi_step_value
    rw [d1, hT]
    dsimp only
    rw [if_pos h0, f2]
  constructor
  · obtain ⟨_, m2, m3⟩ := enc_comp_loop_min (fun ic => ic.dx) (fun tccp => tccp.prcw)
      (fun a => a.p_dx_min) enc_res_iter_dx (fun a m rs => ⟨rfl, rfl⟩) hloop
    dsimp only at m2 m3
    refine ⟨m2, ?_⟩
    rcases m3 with m3 | m3
    · have := m2 c 0 _ hc vx
      exact ⟨c, 0, _, hc, vx, by omega⟩
    · exact m3
  · obtain ⟨_, m2, m3⟩ := enc_comp_loop_min (fun ic => ic.dy) (fun tccp => tccp.prch)
      (fun a => a.p_dy_min) enc_res_iter_dy (fun a m rs => ⟨rfl, rfl⟩) hloop
    dsimp only at m2 m3
    refine ⟨m2, ?_⟩
    rcases m3 with m3 | m3
    · have := m2 c 0 _ hc vy
      exact ⟨c, 0, _, hc, vy, by omega⟩
    · exact m3

/-- The step loop of the engines on a slot of `pi_create_decode_v2` returns the minima
of `get_all_encoding_parameters`. -/
theorem pi_step_decode_slot {image : opj_image} {cp : opj_cp} {tileno : Int}
    {l : List opj_pi_iterator} {e : opj_enc_params} {tcp : opj_tcp} {s : opj_pi_iterator}
    (hl : pi_create_decode_v2 image cp tileno = .ok l)
    (he : get_all_encoding_parameters image cp tileno = .ok e)
    (ht : arr_get cp.tcps tileno = some tcp) (hs : s ∈ l)
    (hres : ∃ c tccp, c < image.numcomps.toNat ∧ tcp.tccps[c]? = some tccp ∧
      0 < tccp.numresolutions)
    (hfit : ∀ c ic tccp, c < image.numcomps.toNat → image.comps[c]? = some ic →
      tcp.tccps[c]? = some tccp → steps_fit ic tccp) :
    s.first = true ∧ pi_step s = .ok (e.p_dx_min, e.p_dy_min) := by
  obtain ⟨tcp0, e0, a1, a2, _, _, a5⟩ := pi_create_decode_v2_spec hl
  rw [ht] at a1
  simp only [Option.some.injEq] at a1
  subst a1
  rw [he] at a2
  simp only [Except.ok.injEq] at a2
  subst a2
  obtain ⟨i, hi⟩ := List.mem_iff_getElem?.mp hs
  obtain ⟨cs, poc, b1, _, b3⟩ := a5 i (getElem?_lt hi)
  rw [hi] at b3
  simp only [Option.some.injEq] at b3
  subst b3
  obtain ⟨tcp1, t1, tw, _, _, _, _, _, trows⟩ := get_all_encoding_parameters_table he
  rw [ht] at t1
  simp only [Option.some.injEq] at t1
  subst t1
  have hloop := he
  unfold get_all_encoding_parameters at hloop
  rw [ht] at hloop
  dsimp only at hloop
  rw [if_neg tw] at hloop
  have hcs : ∀ c, c < image.numcomps.toNat → ∃ ic tccp comp, image.comps[c]? = some ic ∧
      tcp.tccps[c]? = some tccp ∧ cs[c]? = some comp ∧ comp_matches ic tccp comp ∧
      steps_fit ic tccp := by
    intro c hc
    obtain ⟨ic, tccp, row, c1, c2, c3, c4⟩ := b1.2 c hc
    obtain ⟨ic1, tccp1, row1, d1, d2, _, _, d5, d6⟩ := trows c hc
    rw [c1] at d1
    rw [c2] at d2
    rw [c3] at d5
    simp only [Option.some.injEq] at d1 d2 d5
    subst d1 d2 d5
    refine ⟨ic, tccp, _, c1, c2, c4, ⟨rfl, rfl, rfl, ?_⟩, hfit c ic tccp hc c1 c2⟩
    intro r hr
    obtain ⟨pdx, pdy, f1, f2, f3⟩ := d6.2 r hr
    exact ⟨_, pdx, pdy, f1, f2, f3, rfl, rfl⟩
  obtain ⟨d, s1, s2, s3, s4⟩ := pi_step_sim hcs rfl rfl hloop
  obtain ⟨n1, n2⟩ := s4 hres
  have ex : d.1 = e.p_dx_min := by
    rcases s2 with ⟨z, _⟩ | ⟨z, _⟩
    · exact absurd z n1
    · exact z
  have ey : d.2 = e.p_dy_min := by
    rcases s3 with ⟨z, _⟩ | ⟨z, _⟩
    · exact absurd z n2
    · exact z
  refine ⟨rfl, ?_⟩
  have hd : pi_step (decode_slot image tcp e cs poc) = .ok d := s1
  rw [hd, ← ex, ← ey]

theorem steps_fit_ex : steps_fit ⟨1, 1⟩ ex_tccp := by
  intro r pdx pdy hr hx hy
  have hr3 : r < 3 := hr
  interval_cases r
  all_goals
    have ex : pdx = 15 := by
      simp [ex_tccp] at hx
      omega
    have ey : pdy = 15 := by
      simp [ex_tccp] at hy
      omega
    subst ex ey
    decide

/-- C30. Spatial step agrees with the builder: for a tile with at least one
resolution in some component and every product `dx_c * 2^(pdx + levelno)`,
`dy_c * 2^(pdy + levelno)` at most `0x7fffffff`, the step `(dx, dy)` that
`pi_next_rpcl` and `pi_next_pcrl` compute on their first call on a slot of
`pi_create_decode_v2` is the `(dx_min, dy_min)` returned by
`get_all_encoding_parameters` for the same tile, which is the minimum over all
`(c, r)` of `dx_c * 2^(pdx + numresolutions_c - 1 - r)` (resp. `dy`). -/
theorem pi_step_eq_builder_min (image : opj_image) (cp : opj_cp) (tileno : Int)
    (l : List opj_pi_iterator) (e : opj_enc_params) (tcp : opj_tcp) (s : opj_pi_iterator)
    (hl : pi_create_decode_v2 image cp tileno = .ok l)
    (he : get_all_encoding_parameters image cp tileno = .ok e)
    (ht : arr_get cp.tcps tileno = some tcp) (hs : s ∈ l)
    (hres : ∃ c tccp, c < image.numcomps.toNat ∧ tcp.tccps[c]? = some tccp ∧
      0 < tccp.numresolutions)
    (hfit : ∀ c ic tccp, c < image.numcomps.toNat → image.comps[c]? = some ic →
      tcp.tccps[c]? = some tccp → steps_fit ic tccp) :
    s.first = true ∧ pi_step s = .ok (e.p_dx_min, e.p_dy_min) ∧
    (∀ b t, pi_next_rpcl s = .ok (b, t) → t.dx = e.p_dx_min ∧ t.dy = e.p_dy_min) ∧
    (∀ b t, pi_next_pcrl s = .ok (b, t) → t.dx = e.p_dx_min ∧ t.dy = e.p_dy_min) ∧
    is_step_min (fun ic => ic.dx) (fun tccp => tccp.prcw) image tcp e.p_dx_min ∧
    is_step_min (fun ic => ic.dy) (fun tccp => tccp.prch) image tcp e.p_dy_min := by
  obtain ⟨hfirst, hstep⟩ := pi_step_decode_slot hl he ht hs hres hfit
  have hmin := get_all_encoding_parameters_min he ht hres hfit
  have key : ∀ t : opj_pi_iterator, pi_core t = pi_core s →
      pi_step t = .ok (t.dx, t.dy) → t.dx = e.p_dx_min ∧ t.dy = e.p_dy_min := by
    intro t hc hst
    rw [pi_step_core t, hc, ← pi_step_core s, hstep] at hst
    simp only [Except.ok.injEq, Prod.mk.injEq] at hst
    exact ⟨hst.1.symm, hst.2.symm⟩
  refine ⟨hfirst, hstep, ?_, ?_, hmin⟩
  · intro b t h
    obtain ⟨c1, _, _, _, c5⟩ := pi_next_rpcl_spec h
    exact key t c1 (c5 (Or.inl hfirst))
  · intro b t h
    obtain ⟨c1, _, _, _, c5⟩ := pi_next_pcrl_spec h
    exact key t c1 (c5 (Or.inl hfirst))

/-- Witness of `pi_step_eq_builder_min`: the example image and tile, where both
components have three resolutions with precinct exponents 15 and the step is
`2^15 = 32768`; the first call of `pi_next_rpcl` returns with that step. -/
theorem pi_step_eq_builder_min_witness :
    (pi_create_decode_v2 ex_image (ex_cp .RPCL) 0 = .ok [ex_slot .RPCL] ∧
      get_all_encoding_parameters ex_image (ex_cp .RPCL) 0 = .ok ex_enc ∧
      ex_slot .RPCL ∈ [ex_slot .RPCL]) ∧
    ((ex_slot .RPCL).first = true ∧
      pi_step (ex_slot .RPCL) = .ok (ex_enc.p_dx_min, ex_enc.p_dy_min) ∧
      (∀ b t, pi_next_rpcl (ex_slot .RPCL) = .ok (b, t) →
        t.dx = ex_enc.p_dx_min ∧ t.dy = ex_enc.p_dy_min) ∧
      (∀ b t, pi_next_pcrl (ex_slot .RPCL) = .ok (b, t) →
        t.dx = ex_enc.p_dx_min ∧ t.dy = ex_enc.p_dy_min) ∧
      is_step_min (fun ic => ic.dx) (fun tccp => tccp.prcw) ex_image
        { numlayers := 2, prg := .RPCL, numpocs := 0, POC := false, pocs := [],
          tccps := [ex_tccp, ex_tccp] } ex_enc.p_dx_min ∧
      is_step_min (fun ic => ic.dy) (fun tccp => tccp.prch) ex_image
        { numlayers := 2, prg := .RPCL, numpocs := 0, POC := false, pocs := [],
          tccps := [ex_tccp, ex_tccp] } ex_enc.p_dy_min) ∧
    (∃ t, pi_next_rpcl (ex_slot .RPCL) = .ok (true, t) ∧ t.dx = 32768 ∧ t.dy = 32768) :=
  ⟨⟨rfl, rfl, List.mem_singleton.mpr rfl⟩,
    pi_step_eq_builder_min ex_image (ex_cp .RPCL) 0 [ex_slot .RPCL] ex_enc _ (ex_slot .RPCL)
      rfl rfl rfl (List.mem_singleton.mpr rfl) ⟨0, ex_tccp, by decide, rfl, by decide⟩
      (by
        intro c ic tccp hc h1 h2
        have hc2 : c < 2 := hc
        interval_cases c
        · simp only [ex_image, List.getElem?_cons_zero, Option.some.injEq] at h1
          simp only [List.getElem?_cons_zero, Option.some.injEq] at h2
          subst h1 h2
          exact steps_fit_ex
        · simp only [ex_image, List.getElem?_cons_succ, List.getElem?_cons_zero,
            Option.some.injEq] at h1
          simp only [List.getElem?_cons_succ, List.getElem?_cons_zero,
            Option.some.injEq] at h2
          subst h1 h2
          exact steps_fit_ex),
    ⟨_, rfl, rfl, rfl⟩⟩

/-! ## The precinct bound of the spatial engines -/

/-- The slots of `pi_create_decode_v2` have the geometry of the builder, for an image
with positive subsampling, precinct exponents that are not negative and tile extents
that are not negative. -/
theorem pi_geom_decode {image : opj_image} {cp : opj_cp} {tileno : Int}
    {l : List opj_pi_iterator} {tcp : opj_tcp} {s : opj_pi_iterator}
    (hl : pi_create_decode_v2 image cp tileno = .ok l)
    (ht : arr_get cp.tcps tileno = some tcp) (hs : s ∈ l)
    (hext : 0 ≤ s.tx0 ∧ 0 ≤ s.ty0)
    (hsub : ∀ (c : Nat) (ic : opj_image_comp), image.comps[c]? = some ic → 0 < ic.dx ∧ 0 < ic.dy)
    (hpd : ∀ (c r : Nat) (tccp : opj_tccp) (q : Int), tcp.tccps[c]? = some tccp →
      (tccp.prcw[r]? = some q → 0 ≤ q) ∧ (tccp.prch[r]? = some q → 0 ≤ q)) :
    pi_geom s ∧ s.tp_on = false ∧ s.first = true := by
  obtain ⟨tcp0, e, a1, a2, _, _, a5⟩ := pi_create_decode_v2_spec hl
  rw [ht] at a1
  simp only [Option.some.injEq] at a1
  subst a1
  obtain ⟨i, hi⟩ := List.mem_iff_getElem?.mp hs
  obtain ⟨cs, poc, b1, _, b3⟩ := a5 i (getElem?_lt hi)
  rw [hi] at b3
  simp only [Option.some.injEq] at b3
  subst b3
  obtain ⟨tcp1, t1, _, _, _, _, _, _, trows⟩ := get_all_encoding_parameters_table a2
  rw [ht] at t1
  simp only [Option.some.injEq] at t1
  subst t1
  refine ⟨⟨hext.1, hext.2, ?_⟩, rfl, rfl⟩
  intro c comp hc
  have hc1 : cs[c]? = some comp := hc
  have hclt : c < image.numcomps.toNat := by
    have := getElem?_lt hc1
    rw [b1.1] at this
    exact this
  obtain ⟨ic, tccp, row, c1, c2, c3, c4⟩ := b1.2 c hclt
  obtain ⟨ic1, tccp1, row1, d1, d2, _, _, d5, d6⟩ := trows c hclt
  rw [c1] at d1
  rw [c2] at d2
  rw [c3] at d5
  simp only [Option.some.injEq] at d1 d2 d5
  subst d1 d2 d5
  rw [hc1] at c4
  simp only [Option.some.injEq] at c4
  subst c4
  obtain ⟨s1, s2⟩ := hsub c ic c1
  refine ⟨s1, s2, d6.1, ?_⟩
  intro r res hr
  have hr1 : row[r]? = some res := hr
  have hrlt : r < tccp.numresolutions.toNat := by
    have := getElem?_lt hr1
    rw [d6.1] at this
    exact this
  obtain ⟨pdx, pdy, f1, f2, f3⟩ := d6.2 r hrlt
  rw [hr1] at f3
  simp only [Option.some.injEq] at f3
  subst f3
  exact ⟨(hpd c r tccp pdx c2).1 f1, (hpd c r tccp pdy c2).2 f2, rfl⟩

theorem pi_geom_frame {s t : opj_pi_iterator} (h : pi_core t = pi_core s) (hg : pi_geom s) :
    pi_geom t := by
  have hf := pi_core_frame h
  unfold pi_geom at hg ⊢
  rw [hf.tx0, hf.ty0, hf.tx1, hf.ty1, hf.comps]
  exact hg

/-- The precinct bound at a cursor that a spatial engine left at an emission, on a
slot with the geometry of the builder, without tile-parts and with a step that is not
negative. -/
theorem spatial_at_bound {t : opj_pi_iterator} (hg : pi_geom t) (htp : t.tp_on = false)
    (hd : 0 ≤ t.dx ∧ 0 ≤ t.dy) (h : spatial_at t) :
    ∃ comp res, arr_get t.comps t.compno = some comp ∧
      arr_get comp.resolutions t.resno = some res ∧
      0 ≤ t.precno ∧ t.precno < res.pw * res.ph := by
  obtain ⟨_, hw, _, _, _, hx, hy, comp, res, c1, c2, c3, c4⟩ := h
  obtain ⟨w1, w2, w3, w4⟩ := hw htp
  obtain ⟨g1, g2, g3⟩ := hg
  obtain ⟨_, _, k3⟩ := arr_get_some c1
  obtain ⟨r0, _, r3⟩ := arr_get_some c3
  obtain ⟨p1, p2, _, p4⟩ := g3 _ comp k3
  obtain ⟨q1, q2, q3⟩ := p4 _ res r3
  have hcast : ((t.resno.toNat : Nat) : Int) = t.resno := Int.toNat_of_nonneg r0
  rw [hcast] at q3
  obtain ⟨x1, x2⟩ := hx
  obtain ⟨y1, y2⟩ := hy
  have b := pi_precinct_at_bound p1 p2 (by omega) q1 q2 q3 g1
    (by have := x1 hd.1; omega) (by omega) g2 (by have := y1 hd.2; omega) (by omega) c4
  exact ⟨comp, res, c1, c3, b.1, b.2⟩

/-! ## Precinct coordinates in the spatial engines -/

/-- A precinct number `a + b * w` with `0 <= a < w` and `0 <= b` has the coordinates
`a = precno mod w` and `b = precno / w`. -/
theorem precno_coords {a b w : Int} (ha : 0 ≤ a) (haw : a < w) (hb : 0 ≤ b) :
    Int.tdiv (a + b * w) w = b ∧ Int.tmod (a + b * w) w = a := by
  have hw : 0 < w := by omega
  have hn : 0 ≤ a + b * w := by
    have := mul_nonneg hb (le_of_lt hw)
    omega
  rw [Int.tdiv_eq_ediv hn (le_of_lt hw), Int.tmod_eq_emod hn (le_of_lt hw)]
  constructor
  · rw [Int.add_mul_ediv_right _ _ (ne_of_gt hw), Int.ediv_eq_zero_of_lt ha haw, zero_add]
  · rw [Int.add_mul_emod_self, Int.emod_eq_of_lt ha haw]

/-- Two positions that pass the alignment gate of one component and resolution, the
second to the right of the first, lie in different precinct columns: the quotient
`int_ceildiv(x, D) / P` is strictly larger at the second.  `a` is the tile origin,
`D = comp->dx << levelno`, `P = 1 << pdx` and `r0 = int_ceildiv(a, D)`. -/
theorem prc_strict {a x1 x2 D P r0 : Int} (ha : 0 ≤ a) (h1 : a ≤ x1) (h12 : x1 < x2)
    (hD : 0 < D) (hP : 0 < P) (hr0 : r0 = int_ceildiv a D)
    (g1 : Int.tmod x1 (D * P) = 0 ∨ (x1 = a ∧ r0 % P ≠ 0))
    (g2 : Int.tmod x2 (D * P) = 0 ∨ x2 = a) :
    int_ceildiv x1 D / P < int_ceildiv x2 D / P := by
  have hDP : 0 < D * P := mul_pos hD hP
  have hx1 : 0 ≤ x1 := by omega
  have hx2 : 0 ≤ x2 := by omega
  have mult : ∀ x : Int, 0 ≤ x → Int.tmod x (D * P) = 0 →
      ∃ k, x = (D * P) * k ∧ int_ceildiv x D / P = k := by
    intro x hx hg
    rw [Int.tmod_eq_emod hx (le_of_lt hDP)] at hg
    obtain ⟨k, hk⟩ : ∃ k, x = (D * P) * k := ⟨x / (D * P), by
      have := Int.emod_add_ediv x (D * P)
      rw [hg] at this
      linarith⟩
    refine ⟨k, hk, ?_⟩
    have hcx : int_ceildiv x D = P * k := by
      rw [int_ceildiv_eq hx hD, hk]
      have : D * P * k + D - 1 = (D - 1) + D * (P * k) := by ring
      rw [this, Int.add_mul_ediv_left _ _ (ne_of_gt hD)]
      have : (D - 1) / D = 0 := Int.ediv_eq_zero_of_lt (by omega) (by omega)
      rw [this, zero_add]
    rw [hcx, Int.mul_ediv_cancel_left _ (ne_of_gt hP)]
  have g2m : Int.tmod x2 (D * P) = 0 := by
    rcases g2 with g | g
    · exact g
    · omega
  obtain ⟨k2, e2, q2⟩ := mult x2 hx2 g2m
  rw [q2]
  rcases g1 with g | ⟨g, hne⟩
  · obtain ⟨k1, e1, q1⟩ := mult x1 hx1 g
    rw [q1]
    have : (D * P) * k1 < (D * P) * k2 := by rw [← e1, ← e2]; exact h12
    exact lt_of_mul_lt_mul_left this (le_of_lt hDP)
  · subst g
    rw [← hr0]
    obtain ⟨s1, s2⟩ := int_ceildiv_spec ha hD
    rw [← hr0] at s1 s2
    -- r0 * D < x1 + D <= x2 = D * P * k2, so r0 <= P * k2
    have hle : r0 ≤ P * k2 := by
      by_contra hcon
      have h3 : P * k2 + 1 ≤ r0 := by omega
      have h4 := mul_le_mul_of_nonneg_right h3 (le_of_lt hD)
      have h5 : (P * k2 + 1) * D = D * P * k2 + D := by ring
      rw [h5, ← e2] at h4
      omega
    have hne2 : r0 ≠ P * k2 := by
      intro he
      apply hne
      rw [he]
      exact Int.mul_emod_right _ _
    have hlt : r0 < k2 * P := by
      have : P * k2 = k2 * P := mul_comm _ _
      omega
    exact Int.ediv_lt_of_lt_mul hP hlt

/-- The second disjunct of the alignment gate, `(trx0 << levelno) % (1 << rpx) != 0`
with `rpx = pdx + levelno`, says that `trx0` is not a multiple of `1 << pdx`. -/
theorem gate_origin {r0 lev pd : Int} (hr0 : 0 ≤ r0) (hlev : 0 ≤ lev) (hpd : 0 ≤ pd)
    (h : Int.tmod (shl r0 lev) (shl 1 (pd + lev)) ≠ 0) : r0 % pow2 pd ≠ 0 := by
  intro hz
  apply h
  unfold shl
  rw [one_mul, pow2_add hpd hlev]
  have hA := pow2_pos lev
  have hP := pow2_pos pd
  rw [Int.tmod_eq_emod (mul_nonneg hr0 (le_of_lt hA)) (le_of_lt (mul_pos hP hA))]
  obtain ⟨m, hm⟩ : ∃ m, r0 = pow2 pd * m := ⟨r0 / pow2 pd, by
    have := Int.emod_add_ediv r0 (pow2 pd)
    rw [hz] at this
    linarith⟩
  rw [hm]
  have : pow2 pd * m * pow2 lev = (pow2 pd * pow2 lev) * m := by ring
  rw [this]
  exact Int.mul_emod_right _ _

/-- What a spatial engine computes at a position that passed both alignment gates, when
the record is the one the builder computes and the position lies in the tile: the
precinct number is `prci + prcj * pw` with `0 <= prci < pw` and `0 <= prcj < ph`, and
the position is a multiple of the precinct size or the tile origin with a resolution
origin that is not on the precinct grid. -/
theorem pi_precinct_at_coords {u : opj_pi_iterator} {comp : opj_pi_comp}
    {res : opj_pi_resolution} {p : Int}
    (hdx : 0 < comp.dx) (hdy : 0 < comp.dy) (hlev : 0 ≤ comp.numresolutions - 1 - u.resno)
    (hpdx : 0 ≤ res.pdx) (hpdy : 0 ≤ res.pdy)
    (hres : res = enc_resolution (int_ceildiv u.tx0 comp.dx) (int_ceildiv u.ty0 comp.dy)
      (int_ceildiv u.tx1 comp.dx) (int_ceildiv u.ty1 comp.dy)
      (comp.numresolutions - 1 - u.resno) res.pdx res.pdy)
    (hx0 : 0 ≤ u.tx0) (hx1 : u.tx0 ≤ u.x) (hx2 : u.x < u.tx1)
    (hy0 : 0 ≤ u.ty0) (hy1 : u.ty0 ≤ u.y) (hy2 : u.y < u.ty1)
    (h : pi_precinct_at u comp res = .ok (some p)) :
    p = pi_prci u comp res + pi_prcj u comp res * res.pw ∧
    0 ≤ pi_prci u comp res ∧ pi_prci u comp res < res.pw ∧
    0 ≤ pi_prcj u comp res ∧ pi_prcj u comp res < res.ph ∧
    (Int.tmod u.x (shl comp.dx (comp.numresolutions - 1 - u.resno) * pow2 res.pdx) = 0 ∨
      (u.x = u.tx0 ∧
        int_ceildiv u.tx0 (shl comp.dx (comp.numresolutions - 1 - u.resno)) % pow2 res.pdx
          ≠ 0)) ∧
    (Int.tmod u.y (shl comp.dy (comp.numresolutions - 1 - u.resno) * pow2 res.pdy) = 0 ∨
      (u.y = u.ty0 ∧
        int_ceildiv u.ty0 (shl comp.dy (comp.numresolutions - 1 - u.resno)) % pow2 res.pdy
          ≠ 0)) := by
  unfold pi_prci pi_prcj
  dsimp only
  obtain ⟨lev, hlevdef⟩ : ∃ lev, lev = comp.numresolutions - 1 - u.resno := ⟨_, rfl⟩
  rw [← hlevdef] at hres hlev ⊢
  have hDx : 0 < shl comp.dx lev := mul_pos hdx (pow2_pos _)
  have hDy : 0 < shl comp.dy lev := mul_pos hdy (pow2_pos _)
  have hPx := pow2_pos res.pdx
  have hPy := pow2_pos res.pdy
  have hpw : res.pw = precinct_count (int_ceildiv u.tx0 (shl comp.dx lev))
      (int_ceildiv u.tx1 (shl comp.dx lev)) res.pdx := by
    rw [← int_ceildiv_nested hx0 hdx, ← int_ceildiv_nested (by omega) hdx]
    exact (congrArg opj_pi_resolution.pw hres).trans (enc_resolution_counts ..).1
  have hph : res.ph = precinct_count (int_ceildiv u.ty0 (shl comp.dy lev))
      (int_ceildiv u.ty1 (shl comp.dy lev)) res.pdy := by
    rw [← int_ceildiv_nested hy0 hdy, ← int_ceildiv_nested (by omega) hdy]
    exact (congrArg opj_pi_resolution.ph hres).trans (enc_resolution_counts ..).2.1
  rw [precinct_count_eq] at hpw hph
  have hsx : shl comp.dx (res.pdx + lev) = shl comp.dx lev * pow2 res.pdx := by
    unfold shl
    rw [pow2_add hpdx hlev]
    ring
  have hsy : shl comp.dy (res.pdy + lev) = shl comp.dy lev * pow2 res.pdy := by
    unfold shl
    rw [pow2_add hpdy hlev]
    ring
  have hr0x := int_ceildiv_nonneg hx0 hDx
  have hr0y := int_ceildiv_nonneg hy0 hDy
  unfold pi_precinct_at at h
  dsimp only at h
  rw [← hlevdef] at h
  split at h
  · simp at h
  · split at h
    · simp at h
    · split at h
      · simp at h
      · rename_i gy
        split at h
        · simp at h
        · rename_i gx
          split at h
          · simp at h
          · rename_i hnz
            split at h
            · simp at h
            · rename_i hne
              push_neg at gy gx hnz hne
              simp only [Except.ok.injEq, Option.some.injEq] at h
              have gx2 : Int.tmod u.x (shl comp.dx lev * pow2 res.pdx) = 0 ∨
                  (u.x = u.tx0 ∧ int_ceildiv u.tx0 (shl comp.dx lev) % pow2 res.pdx ≠ 0) := by
                rcases gx with g | ⟨g1, g2⟩
                · rw [hsx] at g; exact Or.inl g
                · exact Or.inr ⟨g1, gate_origin hr0x hlev hpdx g2⟩
              have gy2 : Int.tmod u.y (shl comp.dy lev * pow2 res.pdy) = 0 ∨
                  (u.y = u.ty0 ∧ int_ceildiv u.ty0 (shl comp.dy lev) % pow2 res.pdy ≠ 0) := by
                rcases gy with g | ⟨g1, g2⟩
                · rw [hsy] at g; exact Or.inl g
                · exact Or.inr ⟨g1, gate_origin hr0y hlev hpdy g2⟩
              have bx := prci_bound hx0 hx1 hx2 hDx hPx rfl rfl
                (gx2.imp id (fun z => z.1))
              have by1 := prci_bound hy0 hy1 hy2 hDy hPy rfl rfl
                (gy2.imp id (fun z => z.1))
              obtain ⟨_, bx1, bx2⟩ := bx
              obtain ⟨_, by2, by3⟩ := by1
              have cx := bx2 hne.1
              have cy := by3 hne.2
              rw [if_neg hne.1] at hpw
              rw [if_neg hne.2] at hph
              rw [← hpw] at cx
              rw [← hph] at cy
              unfold int_floordivpow2 shr at h ⊢
              exact ⟨h.symm, bx1, cx, by2, cy, gx2, gy2⟩

/-- The coordinates of a packet: at a cursor where a spatial engine returned
`OPJ_TRUE`, `precno = prci + prcj * pw` with `0 <= prci < pw` and `0 <= prcj < ph`. -/
theorem spatial_at_coords {t : opj_pi_iterator} (hg : pi_geom t) (htp : t.tp_on = false)
    (hd : 0 ≤ t.dx ∧ 0 ≤ t.dy) (h : spatial_at t) :
    ∃ comp res, arr_get t.comps t.compno = some comp ∧
      arr_get comp.resolutions t.resno = some res ∧
      t.precno = pi_prci t comp res + pi_prcj t comp res * res.pw ∧
      0 ≤ pi_prci t comp res ∧ pi_prci t comp res < res.pw ∧
      0 ≤ pi_prcj t comp res ∧ pi_prcj t comp res < res.ph ∧
      (Int.tmod t.x (shl comp.dx (comp.numresolutions - 1 - t.resno) * pow2 res.pdx) = 0 ∨
        (t.x = t.tx0 ∧
          int_ceildiv t.tx0 (shl comp.dx (comp.numresolutions - 1 - t.resno)) % pow2 res.pdx
            ≠ 0)) ∧
      (Int.tmod t.y (shl comp.dy (comp.numresolutions - 1 - t.resno) * pow2 res.pdy) = 0 ∨
        (t.y = t.ty0 ∧
          int_ceildiv t.ty0 (shl comp.dy (comp.numresolutions - 1 - t.resno)) % pow2 res.pdy
            ≠ 0)) ∧
      0 < comp.dx ∧ 0 < comp.dy ∧ 0 ≤ comp.numresolutions - 1 - t.resno ∧
      t.tx0 ≤ t.x ∧ t.ty0 ≤ t.y := by
  obtain ⟨_, hw, _, _, _, hx, hy, comp, res, c1, c2, c3, c4⟩ := h
  obtain ⟨w1, w2, w3, w4⟩ := hw htp
  obtain ⟨g1, g2, g3⟩ := hg
  obtain ⟨_, _, k3⟩ := arr_get_some c1
  obtain ⟨r0, _, r3⟩ := arr_get_some c3
  obtain ⟨p1, p2, _, p4⟩ := g3 _ comp k3
  obtain ⟨q1, q2, q3⟩ := p4 _ res r3
  have hcast : ((t.resno.toNat : Nat) : Int) = t.resno := Int.toNat_of_nonneg r0
  rw [hcast] at q3
  obtain ⟨x1, x2⟩ := hx
  obtain ⟨y1, y2⟩ := hy
  have hxa : t.tx0 ≤ t.x := by have := x1 hd.1; omega
  have hya : t.ty0 ≤ t.y := by have := y1 hd.2; omega
  have b := pi_precinct_at_coords p1 p2 (by omega) q1 q2 q3 g1
    hxa (by omega) g2 hya (by omega) c4
  exact ⟨comp, res, c1, c3, b.1, b.2.1, b.2.2.1, b.2.2.2.1, b.2.2.2.2.1, b.2.2.2.2.2.1,
    b.2.2.2.2.2.2, p1, p2, by omega, hxa, hya⟩

/-- A precinct number `prci + prcj * pw` with `0 <= prci < pw` and `0 <= prcj < ph` lies
in `[0, pw * ph)`. -/
theorem coords_bound {a b w h : Int} (ha : 0 ≤ a) (haw : a < w) (hb : 0 ≤ b) (hbh : b < h) :
    0 ≤ a + b * w ∧ a + b * w < w * h := by
  have hw : 0 ≤ w := by omega
  have h1 : 0 ≤ b * w := mul_nonneg hb hw
  have h2 : (b + 1) * w ≤ h * w := mul_le_mul_of_nonneg_right (by omega) hw
  have h3 : (b + 1) * w = b * w + w := by ring
  have h4 : h * w = w * h := mul_comm _ _
  constructor <;> omega

/-- At a cursor where `pi_next` returned `OPJ_TRUE` in a run from a slot built by
`pi_create_decode_v2`, under a spatial progression, the precinct number has the
coordinates computed from the position. -/
theorem pi_next_nth_coords {image : opj_image} {cp : opj_cp} {tileno : Int}
    {l : List opj_pi_iterator} {tcp : opj_tcp} {s t : opj_pi_iterator} {n : Nat}
    (hl : pi_create_decode_v2 image cp tileno = .ok l)
    (ht : arr_get cp.tcps tileno = some tcp) (hs : s ∈ l)
    (hprg : s.poc.prg = .RPCL ∨ s.poc.prg = .PCRL ∨ s.poc.prg = .CPRL)
    (hext : 0 ≤ s.tx0 ∧ 0 ≤ s.ty0)
    (hsub : ∀ (c : Nat) (ic : opj_image_comp), image.comps[c]? = some ic → 0 < ic.dx ∧ 0 < ic.dy)
    (hpd : ∀ (c r : Nat) (tccp : opj_tccp) (q : Int), tcp.tccps[c]? = some tccp →
      (tccp.prcw[r]? = some q → 0 ≤ q) ∧ (tccp.prch[r]? = some q → 0 ≤ q))
    (h : pi_next_nth n s = .ok (true, t)) :
    ∃ comp res, arr_get t.comps t.compno = some comp ∧
      arr_get comp.resolutions t.resno = some res ∧
      t.precno = pi_prci t comp res + pi_prcj t comp res * res.pw ∧
      0 ≤ pi_prci t comp res ∧ pi_prci t comp res < res.pw ∧
      0 ≤ pi_prcj t comp res ∧ pi_prcj t comp res < res.ph ∧
      (Int.tmod t.x (shl comp.dx (comp.numresolutions - 1 - t.resno) * pow2 res.pdx) = 0 ∨
        (t.x = t.tx0 ∧
          int_ceildiv t.tx0 (shl comp.dx (comp.numresolutions - 1 - t.resno)) % pow2 res.pdx
            ≠ 0)) ∧
      (Int.tmod t.y (shl comp.dy (comp.numresolutions - 1 - t.resno) * pow2 res.pdy) = 0 ∨
        (t.y = t.ty0 ∧
          int_ceildiv t.ty0 (shl comp.dy (comp.numresolutions - 1 - t.resno)) % pow2 res.pdy
            ≠ 0)) ∧
      0 < comp.dx ∧ 0 < comp.dy ∧ 0 ≤ comp.numresolutions - 1 - t.resno ∧
      t.tx0 ≤ t.x ∧ t.ty0 ≤ t.y := by
  obtain ⟨hg, htp, hfirst⟩ := pi_geom_decode hl ht hs hext hsub hpd
  obtain ⟨h1, h2⟩ := pi_next_nth_at n s t h (Or.inl hfirst)
  have hf := pi_core_frame h2
  have hgt := pi_geom_frame h2 hg
  have htp1 : t.tp_on = false := hf.tp_on.trans htp
  have hcomps : ∀ comp ∈ t.comps, 0 ≤ comp.dx ∧ 0 ≤ comp.dy := by
    intro comp hc
    obtain ⟨c, hc1⟩ := List.mem_iff_getElem?.mp hc
    obtain ⟨p1, p2, _⟩ := hgt.2.2 c comp hc1
    exact ⟨le_of_lt p1, le_of_lt p2⟩
  have hprg1 : t.poc.prg = .RPCL ∨ t.poc.prg = .PCRL ∨ t.poc.prg = .CPRL := by
    rw [hf.prg]; exact hprg
  unfold pi_at at h1
  rcases hprg1 with hp | hp | hp
  · rw [hp] at h1
    exact spatial_at_coords hgt htp1 (pi_step_nonneg hcomps h1.2) h1.1
  · rw [hp] at h1
    exact spatial_at_coords hgt htp1 (pi_step_nonneg hcomps h1.2) h1.1
  · rw [hp] at h1
    obtain ⟨comp, k1, k2⟩ := h1.2
    have hd := pi_step_comp_nonneg (hcomps comp (arr_get_mem k1))
      ⟨le_refl _, le_refl _⟩ k2
    exact spatial_at_coords hgt htp1 hd h1.1

/-- C8. Precinct bound in the spatial engines: for an iterator array built by
`pi_create_decode_v2` (which leaves `tp_on` false) with tile extents that are not
negative, positive component subsampling, precinct exponents that are not negative and
a slot computed and walked within the range of a C `int` (`build_fits`, which contains
`pdx + levelno < 31`), every packet emitted by `pi_next` under RPCL, PCRL or CPRL in a
run from the slot as built has `0 <= precno < pw * ph` for the resolution record of the
emitted `(compno, resno)`, where `precno = prci + prcj * pw` with the coordinates
`prci` and `prcj` that the engine computes from the cursor `(x, y)`, and
`0 <= prci < pw`, `0 <= prcj < ph`. -/
theorem pi_next_precno_bound (image : opj_image) (cp : opj_cp) (tileno : Int)
    (l : List opj_pi_iterator) (tcp : opj_tcp) (s t : opj_pi_iterator) (n : Nat)
    (hl : pi_create_decode_v2 image cp tileno = .ok l)
    (ht : arr_get cp.tcps tileno = some tcp) (hs : s ∈ l)
    (hprg : s.poc.prg = .RPCL ∨ s.poc.prg = .PCRL ∨ s.poc.prg = .CPRL)
    (hext : 0 ≤ s.tx0 ∧ 0 ≤ s.ty0)
    (hsub : ∀ (c : Nat) (ic : opj_image_comp), image.comps[c]? = some ic → 0 < ic.dx ∧ 0 < ic.dy)
    (hpd : ∀ (c r : Nat) (tccp : opj_tccp) (q : Int), tcp.tccps[c]? = some tccp →
      (tccp.prcw[r]? = some q → 0 ≤ q) ∧ (tccp.prch[r]? = some q → 0 ≤ q))
    (_hfit : build_fits image cp tileno s)
    (h : pi_next_nth n s = .ok (true, t)) :
    ∃ comp res, arr_get t.comps t.compno = some comp ∧
      arr_get comp.resolutions t.resno = some res ∧
      0 ≤ t.precno ∧ t.precno < res.pw * res.ph ∧
      t.precno = pi_prci t comp res + pi_prcj t comp res * res.pw ∧
      0 ≤ pi_prci t comp res ∧ pi_prci t comp res < res.pw ∧
      0 ≤ pi_prcj t comp res ∧ pi_prcj t comp res < res.ph := by
  obtain ⟨comp, res, c1, c2, c3, c4, c5, c6, c7, _⟩ :=
    pi_next_nth_coords hl ht hs hprg hext hsub hpd h
  have b := coords_bound c4 c5 c6 c7
  rw [← c3] at b
  exact ⟨comp, res, c1, c2, b.1, b.2, c3, c4, c5, c6, c7⟩

/-- Witness of `pi_next_precno_bound`: the fourth packet of the tile of `ex_image_row`
and `ex_cp_row` under RPCL, reported at `x = 4`, is precinct 1 of component 0, which has
two precincts: `prci = 1`, `prcj = 0`, `pw = 2`, `ph = 1`. -/
theorem pi_next_precno_bound_witness :
    pi_create_decode_v2 ex_image_row ex_cp_row 0 = .ok [ex_slot_row] ∧
    build_fits ex_image_row ex_cp_row 0 ex_slot_row ∧
    ∃ t comp res, pi_next_nth 3 ex_slot_row = .ok (true, t) ∧
      pi_packet t = (0, 0, 0, 1) ∧ (t.x, t.y) = (4, 0) ∧
      arr_get t.comps t.compno = some comp ∧
      arr_get comp.resolutions t.resno = some res ∧ (res.pw, res.ph) = (2, 1) ∧
      (pi_prci t comp res, pi_prcj t comp res) = (1, 0) ∧
      0 ≤ t.precno ∧ t.precno < res.pw * res.ph ∧
      t.precno = pi_prci t comp res + pi_prcj t comp res * res.pw ∧
      0 ≤ pi_prci t comp res ∧ pi_prci t comp res < res.pw ∧
      0 ≤ pi_prcj t comp res ∧ pi_prcj t comp res < res.ph := by
  have hfit : build_fits ex_image_row ex_cp_row 0 ex_slot_row := by
    unfold build_fits edges_fit walk_fits counts_fit
    decide
  obtain ⟨comp, res, a1, a2, a⟩ := pi_next_precno_bound ex_image_row ex_cp_row 0
    [ex_slot_row] _ ex_slot_row _ 3 rfl rfl (List.mem_singleton.mpr rfl) (Or.inl rfl)
    ⟨by decide, by decide⟩
    (by
      intro c ic hc
      have hm := List.getElem?_mem hc
      simp [ex_image_row] at hm
      subst hm
      exact ⟨by decide, by decide⟩)
    (by
      intro c r tccp q hc
      have hm := List.getElem?_mem hc
      simp [ex_cp_row] at hm
      rcases hm with hm | hm
      · subst hm
        constructor
        · intro hq
          have hq1 := List.getElem?_mem hq
          simp at hq1
          omega
        · intro hq
          have hq1 := List.getElem?_mem hq
          simp at hq1
          omega
      · subst hm
        constructor
        · intro hq
          have hq1 := List.getElem?_mem hq
          simp at hq1
          omega
        · intro hq
          have hq1 := List.getElem?_mem hq
          simp at hq1
          omega)
    hfit rfl
  have e1 : comp = { dx := 1, dy := 1, numresolutions := 1, resolutions := [⟨2, 0, 2, 1⟩] } :=
    Option.some.inj (a1.symm.trans rfl)
  subst e1
  have e2 : res = ⟨2, 0, 2, 1⟩ := Option.some.inj (a2.symm.trans rfl)
  subst e2
  exact ⟨rfl, hfit, _, _, _, rfl, rfl, rfl, a1, a2, rfl, rfl, a⟩

/-! ## The index into the bitmap stays in range -/

theorem pi_for_safe {cond : opj_pi_iterator → Bool} {body : opj_pi_iterator → pi_outcome}
    {incr : opj_pi_iterator → Except pi_fault opj_pi_iterator}
    (I : opj_pi_iterator → Prop)
    (hbody : ∀ t, I t → cond t = true → body t ≠ .error .bounds)
    (hincr : ∀ t t1, I t → cond t = true → body t = .ok (false, t1) →
      incr t1 ≠ .error .bounds)
    (hstep : ∀ t t1 t2, I t → cond t = true → body t = .ok (false, t1) → incr t1 = .ok t2 →
      I t2) :
    ∀ (n : Nat) (s : opj_pi_iterator), I s →
      pi_for cond body incr n s ≠ .error .bounds := by
  intro n
  induction n with
  | zero =>
    intro s _ hcon
    simp [pi_for] at hcon
  | succ k ih =>
    intro s hI hcon
    rw [pi_for] at hcon
    by_cases hc : cond s = true
    · rw [if_pos hc] at hcon
      cases hb : body s with
      | error e =>
        rw [hb] at hcon
        simp only [Except.error.injEq] at hcon
        subst hcon
        exact hbody s hI hc hb
      | ok r =>
        obtain ⟨b1, s1⟩ := r
        rw [hb] at hcon
        cases b1 with
        | true => simp at hcon
        | false =>
          dsimp only at hcon
          cases hi : incr s1 with
          | error e =>
            rw [hi] at hcon
            simp only [Except.error.injEq] at hcon
            subst hcon
            exact hincr s s1 hI hc hb hi
          | ok s2 =>
            rw [hi] at hcon
            exact ih s2 (hstep s s1 s2 hI hc hb hi) hcon
    · rw [if_neg hc] at hcon; simp at hcon

theorem pi_then_safe {r : pi_outcome}
    {incr : opj_pi_iterator → Except pi_fault opj_pi_iterator}
    {rest : opj_pi_iterator → pi_outcome}
    (h1 : r ≠ .error .bounds)
    (h2 : ∀ s1, r = .ok (false, s1) → incr s1 ≠ .error .bounds)
    (h3 : ∀ s1 s2, r = .ok (false, s1) → incr s1 = .ok s2 → rest s2 ≠ .error .bounds) :
    pi_then r incr rest ≠ .error .bounds := by
  intro hcon
  unfold pi_then at hcon
  cases r with
  | error e =>
    simp only [Except.error.injEq] at hcon
    subst hcon
    exact h1 rfl
  | ok p =>
    obtain ⟨b1, s1⟩ := p
    cases b1 with
    | true => simp at hcon
    | false =>
      dsimp only at hcon
      cases hi : incr s1 with
      | error e =>
        rw [hi] at hcon
        simp only [Except.error.injEq] at hcon
        subst hcon
        exact h2 s1 rfl hi
      | ok s2 =>
        rw [hi] at hcon
        exact h3 s1 s2 rfl hi hcon

theorem pi_safe_frame {s t : opj_pi_iterator} (hf : pi_frame s t) (hi : t.incl = s.incl)
    (hs : pi_safe s) : pi_safe t := by
  unfold pi_safe at hs ⊢
  rw [hf.tp_on, hf.step_p, hf.step_c, hf.step_r, hf.step_l, hf.compno1, hf.resno1, hf.layno0,
    hf.resno0, hf.compno0, hf.precno0, hf.layno1, hf.numcomps, hf.comps, hi]
  exact hs

/-- The index of a cursor in the box, with a precinct number below `step_c`, is a
cell of the bitmap. -/
theorem pi_index_bound {t : opj_pi_iterator} (hs : pi_safe t) (hl : in_l t) (hr : in_r t)
    (hc : in_c t) (hp : 0 ≤ t.precno ∧ t.precno < t.step_c) :
    0 ≤ pi_index t ∧ pi_index t < t.incl.length := by
  obtain ⟨_, s2, s3, s4, s5, s6, s7, s8, s9, _, s11, _⟩ := hs
  obtain ⟨l1, l2⟩ := hl
  obtain ⟨r1, r2⟩ := hr
  obtain ⟨c1, c2⟩ := hc
  obtain ⟨p1, p2⟩ := hp
  unfold pi_index
  rw [s2, s5, s4] at *
  have hK : 0 ≤ t.poc.compno1 := by omega
  have hKP : 0 ≤ t.poc.compno1 * t.step_c := mul_nonneg hK s3
  have hMKP : 0 ≤ t.poc.resno1 * (t.poc.compno1 * t.step_c) := mul_nonneg s6 hKP
  have a1 : 0 ≤ t.compno * t.step_c := mul_nonneg (by omega) s3
  have a2 : 0 ≤ t.resno * (t.poc.compno1 * t.step_c) := mul_nonneg (by omega) hKP
  have a3 : 0 ≤ t.layno * (t.poc.resno1 * (t.poc.compno1 * t.step_c)) :=
    mul_nonneg (by omega) hMKP
  have b1 : (t.compno + 1) * t.step_c ≤ t.poc.compno1 * t.step_c :=
    mul_le_mul_of_nonneg_right (by omega) s3
  have b2 : (t.resno + 1) * (t.poc.compno1 * t.step_c)
      ≤ t.poc.resno1 * (t.poc.compno1 * t.step_c) :=
    mul_le_mul_of_nonneg_right (by omega) hKP
  have b3 : (t.layno + 1) * (t.poc.resno1 * (t.poc.compno1 * t.step_c))
      ≤ t.poc.layno1 * (t.poc.resno1 * (t.poc.compno1 * t.step_c)) :=
    mul_le_mul_of_nonneg_right (by omega) hMKP
  constructor
  · nlinarith
  · nlinarith

theorem pi_visit_safe {t : opj_pi_iterator} (hs : pi_safe t) (hl : in_l t) (hr : in_r t)
    (hc : in_c t) (hp : 0 ≤ t.precno ∧ t.precno < t.step_c) :
    pi_visit t ≠ .error .bounds := by
  obtain ⟨i1, i2⟩ := pi_index_bound hs hl hr hc hp
  unfold pi_visit arr_get
  rw [if_pos i1]
  have hlt : (pi_index t).toNat < t.incl.length := by omega
  rw [List.getElem?_eq_getElem hlt]
  dsimp only
  split <;> simp

theorem arr_get_lt {α : Type} {a : List α} {i : Int} (h0 : 0 ≤ i)
    (h1 : i.toNat < a.length) : ∃ v, arr_get a i = some v ∧ a[i.toNat]? = some v := by
  unfold arr_get
  rw [if_pos h0]
  exact ⟨a[i.toNat], List.getElem?_eq_getElem h1, List.getElem?_eq_getElem h1⟩

theorem lrcp_precno_loop_safe {s : opj_pi_iterator} (hs : pi_safe s) (hl : in_l s)
    (hr : in_r s) (hc : in_c s) (hp : 0 ≤ s.precno) (h1 : s.poc.precno1 ≤ s.step_c) :
    lrcp_precno_loop s ≠ .error .bounds := by
  unfold lrcp_precno_loop
  refine pi_for_safe (fun t => view_p t = view_p s ∧ t.incl = s.incl ∧ 0 ≤ t.precno)
    ?_ ?_ ?_ _ s ⟨rfl, rfl, hp⟩
  · intro t hI hcond
    obtain ⟨hv, hi, hp0⟩ := hI
    have hlt : t.precno < t.poc.precno1 := by simpa using hcond
    obtain ⟨hvc, hcn, hpoc⟩ := view_p_c hv
    obtain ⟨hvl, hln, hrn⟩ := view_c_l hvc
    obtain ⟨hf, _⟩ := view_l_frame hvl
    have hst := pi_safe_frame hf hi hs
    refine pi_visit_safe hst ?_ ?_ ?_ ⟨hp0, ?_⟩
    · unfold in_l at hl ⊢
      rw [hpoc, hln]; exact hl
    · unfold in_r at hr ⊢
      rw [hpoc, hrn]; exact hr
    · unfold in_c at hc ⊢
      rw [hpoc, hcn]; exact hc
    · rw [hpoc] at hlt
      rw [hf.step_c]
      omega
  · intro t t1 _ _ _
    simp [incr_precno]
  · intro t t1 t2 hI _ hb hinc
    obtain ⟨hv, hi, hp0⟩ := hI
    rcases pi_visit_ok hb with ⟨h1, _⟩ | ⟨_, rfl⟩
    · simp at h1
    · simp only [incr_precno, Except.ok.injEq] at hinc
      subst hinc
      exact ⟨hv, hi, by show 0 ≤ t1.precno + 1; omega⟩

theorem pi_safe_comp {s : opj_pi_iterator} (hs : pi_safe s) (hc : in_c s) :
    ∃ comp, arr_get s.comps s.compno = some comp ∧ comp.numresolutions ≤ s.poc.resno1 ∧
      ∀ r : Int, 0 ≤ r → r < comp.numresolutions →
        ∃ res, arr_get comp.resolutions r = some res ∧ res.pw * res.ph ≤ s.step_c := by
  obtain ⟨_, _, _, _, _, _, _, _, s9, _, _, _, s13, s14⟩ := hs
  obtain ⟨c1, c2⟩ := hc
  obtain ⟨comp, k1, k2⟩ := arr_get_lt (a := s.comps) (i := s.compno) (by omega)
    (by rw [s13]; omega)
  obtain ⟨m1, m2, m3⟩ := s14 _ comp k2
  refine ⟨comp, k1, m1, ?_⟩
  intro r r0 r1
  obtain ⟨res, q1, q2⟩ := arr_get_lt (a := comp.resolutions) (i := r) r0
    (by rw [m2]; omega)
  exact ⟨res, q1, m3 _ res q2⟩

theorem lrcp_compno_body_safe {s : opj_pi_iterator} (hs : pi_safe s) (hl : in_l s)
    (hr : in_r s) (hc : in_c s) : lrcp_compno_body s ≠ .error .bounds := by
  obtain ⟨comp, k1, _, k3⟩ := pi_safe_comp hs hc
  have htp : s.tp_on = false := hs.1
  have hr0 : 0 ≤ s.resno := by
    have := hs.2.2.2.2.2.2.2.1
    have := hr.1
    omega
  unfold lrcp_compno_body
  rw [k1]
  dsimp only
  by_cases hge : s.resno ≥ comp.numresolutions
  · rw [if_pos hge]; simp
  · rw [if_neg hge, if_neg (show ¬ (s.tp_on = true) by rw [htp]; decide)]
    obtain ⟨res, q1, q2⟩ := k3 s.resno hr0 (by omega)
    rw [q1]
    dsimp only
    exact lrcp_precno_loop_safe (s := { s with
        poc := { s.poc with precno1 := res.pw * res.ph }, precno := s.poc.precno0 })
      hs hl hr hc hs.2.2.2.2.2.2.2.2.2.1 q2

theorem lrcp_compno_loop_safe {s : opj_pi_iterator} (hs : pi_safe s) (hl : in_l s)
    (hr : in_r s) (hc : s.poc.compno0 ≤ s.compno) :
    lrcp_compno_loop s ≠ .error .bounds := by
  unfold lrcp_compno_loop
  refine pi_for_safe
    (fun t => view_c t = view_c s ∧ t.incl = s.incl ∧ s.poc.compno0 ≤ t.compno)
    ?_ ?_ ?_ _ s ⟨rfl, rfl, hc⟩
  · intro t hI hcond
    obtain ⟨hv, hi, hc0⟩ := hI
    have hlt : t.compno < t.poc.compno1 := by simpa using hcond
    obtain ⟨hvl, hln, hrn⟩ := view_c_l hv
    obtain ⟨hf, _⟩ := view_l_frame hvl
    refine lrcp_compno_body_safe (pi_safe_frame hf hi hs) ?_ ?_ ?_
    · unfold in_l at hl ⊢
      rw [hf.layno0, hf.layno1, hln]; exact hl
    · unfold in_r at hr ⊢
      rw [hf.resno0, hf.resno1, hrn]; exact hr
    · unfold in_c
      rw [hf.compno0]
      exact ⟨hc0, hlt⟩
  · intro t t1 _ _ _
    simp [incr_compno]
  · intro t t1 t2 hI _ hb hinc
    obtain ⟨hv, hi, hc0⟩ := hI
    obtain ⟨hv1, hc1, _, hd⟩ := lrcp_compno_body_spec hb
    simp only [incr_compno, Except.ok.injEq] at hinc
    subst hinc
    refine ⟨hv1.trans hv, (hd rfl).trans hi, ?_⟩
    show s.poc.compno0 ≤ t1.compno + 1
    omega

theorem lrcp_resno_loop_safe {s : opj_pi_iterator} (hs : pi_safe s) (hl : in_l s)
    (hr : s.poc.resno0 ≤ s.resno) : lrcp_resno_loop s ≠ .error .bounds := by
  unfold lrcp_resno_loop
  refine pi_for_safe
    (fun t => view_l t = view_l s ∧ t.layno = s.layno ∧ t.incl = s.incl ∧
      s.poc.resno0 ≤ t.resno)
    ?_ ?_ ?_ _ s ⟨rfl, rfl, rfl, hr⟩
  · intro t hI hcond
    obtain ⟨hv, hln, hi, hr0⟩ := hI
    have hlt : t.resno < t.poc.resno1 := by simpa using hcond
    obtain ⟨hf, _⟩ := view_l_frame hv
    have hst : pi_safe t := pi_safe_frame hf hi hs
    refine lrcp_compno_loop_safe (s := { t with compno := t.poc.compno0 }) hst ?_ ?_
      (le_refl _)
    · unfold in_l at hl ⊢
      show t.poc.layno0 ≤ t.layno ∧ t.layno < t.poc.layno1
      rw [hf.layno0, hf.layno1, hln]; exact hl
    · unfold in_r
      show t.poc.resno0 ≤ t.resno ∧ t.resno < t.poc.resno1
      rw [hf.resno0]
      exact ⟨hr0, hlt⟩
  · intro t t1 _ _ _
    simp [incr_resno]
  · intro t t1 t2 hI _ hb hinc
    obtain ⟨hv, hln, hi, hr0⟩ := hI
    obtain ⟨hv1, _, _, hd⟩ := lrcp_compno_loop_spec hb
    obtain ⟨hvl, hl1, hr1⟩ := view_c_l hv1
    simp only [incr_resno, Except.ok.injEq] at hinc
    subst hinc
    refine ⟨hvl.trans hv, hl1.trans hln, (hd rfl).trans hi, ?_⟩
    show s.poc.resno0 ≤ t1.resno + 1
    have : t1.resno = t.resno := hr1
    omega

theorem lrcp_layno_loop_safe {s : opj_pi_iterator} (hs : pi_safe s)
    (hl : s.poc.layno0 ≤ s.layno) : lrcp_layno_loop s ≠ .error .bounds := by
  unfold lrcp_layno_loop
  refine pi_for_safe
    (fun t => view_l t = view_l s ∧ t.incl = s.incl ∧ s.poc.layno0 ≤ t.layno)
    ?_ ?_ ?_ _ s ⟨rfl, rfl, hl⟩
  · intro t hI hcond
    obtain ⟨hv, hi, hl0⟩ := hI
    have hlt : t.layno < t.poc.layno1 := by simpa using hcond
    obtain ⟨hf, _⟩ := view_l_frame hv
    have hst : pi_safe t := pi_safe_frame hf hi hs
    refine lrcp_resno_loop_safe (s := { t with resno := t.poc.resno0 }) hst ?_ (le_refl _)
    unfold in_l
    show t.poc.layno0 ≤ t.layno ∧ t.layno < t.poc.layno1
    rw [hf.layno0]
    exact ⟨hl0, hlt⟩
  · intro t t1 _ _ _
    simp [incr_layno]
  · intro t t1 t2 hI _ hb hinc
    obtain ⟨hv, hi, hl0⟩ := hI
    obtain ⟨hv1, hl1, _, _, hd⟩ := lrcp_resno_loop_spec hb
    simp only [incr_layno, Except.ok.injEq] at hinc
    subst hinc
    refine ⟨hv1.trans hv, (hd rfl).trans hi, ?_⟩
    show s.poc.layno0 ≤ t1.layno + 1
    have : t1.layno = t.layno := hl1
    omega

theorem rlcp_layno_loop_safe {s : opj_pi_iterator} (hs : pi_safe s) (hr : in_r s)
    (hl : s.poc.layno0 ≤ s.layno) : rlcp_layno_loop s ≠ .error .bounds := by
  unfold rlcp_layno_loop
  refine pi_for_safe
    (fun t => view_l t = view_l s ∧ t.resno = s.resno ∧ t.incl = s.incl ∧
      s.poc.layno0 ≤ t.layno)
    ?_ ?_ ?_ _ s ⟨rfl, rfl, rfl, hl⟩
  · intro t hI hcond
    obtain ⟨hv, hrn, hi, hl0⟩ := hI
    have hlt : t.layno < t.poc.layno1 := by simpa using hcond
    obtain ⟨hf, _⟩ := view_l_frame hv
    have hst : pi_safe t := pi_safe_frame hf hi hs
    refine lrcp_compno_loop_safe (s := { t with compno := t.poc.compno0 }) hst ?_ ?_
      (le_refl _)
    · unfold in_l
      show t.poc.layno0 ≤ t.layno ∧ t.layno < t.poc.layno1
      rw [hf.layno0]
      exact ⟨hl0, hlt⟩
    · unfold in_r at hr ⊢
      show t.poc.resno0 ≤ t.resno ∧ t.resno < t.poc.resno1
      rw [hf.resno0, hf.resno1, hrn]; exact hr
  · intro t t1 _ _ _
    simp [incr_layno]
  · intro t t1 t2 hI _ hb hinc
    obtain ⟨hv, hrn, hi, hl0⟩ := hI
    obtain ⟨hv1, _, _, hd⟩ := lrcp_compno_loop_spec hb
    obtain ⟨hvl, hl1, hr1⟩ := view_c_l hv1
    simp only [incr_layno, Except.ok.injEq] at hinc
    subst hinc
    refine ⟨hvl.trans hv, hr1.trans hrn, (hd rfl).trans hi, ?_⟩
    show s.poc.layno0 ≤ t1.layno + 1
    have : t1.layno = t.layno := hl1
    omega

theorem rlcp_resno_loop_safe {s : opj_pi_iterator} (hs : pi_safe s)
    (hr : s.poc.resno0 ≤ s.resno) : rlcp_resno_loop s ≠ .error .bounds := by
  unfold rlcp_resno_loop
  refine pi_for_safe
    (fun t => view_l t = view_l s ∧ t.incl = s.incl ∧ s.poc.resno0 ≤ t.resno)
    ?_ ?_ ?_ _ s ⟨rfl, rfl, hr⟩
  · intro t hI hcond
    obtain ⟨hv, hi, hr0⟩ := hI
    have hlt : t.resno < t.poc.resno1 := by simpa using hcond
    obtain ⟨hf, _⟩ := view_l_frame hv
    have hst : pi_safe t := pi_safe_frame hf hi hs
    refine rlcp_layno_loop_safe (s := { t with layno := t.poc.layno0 }) hst ?_ (le_refl _)
    unfold in_r
    show t.poc.resno0 ≤ t.resno ∧ t.resno < t.poc.resno1
    rw [hf.resno0]
    exact ⟨hr0, hlt⟩
  · intro t t1 _ _ _
    simp [incr_resno]
  · intro t t1 t2 hI _ hb hinc
    obtain ⟨hv, hi, hr0⟩ := hI
    obtain ⟨hv1, hr1, _, _, hd⟩ := rlcp_layno_loop_spec hb
    simp only [incr_resno, Except.ok.injEq] at hinc
    subst hinc
    refine ⟨hv1.trans hv, (hd rfl).trans hi, ?_⟩
    show s.poc.resno0 ≤ t1.resno + 1
    have : t1.resno = t.resno := hr1
    omega

theorem pi_safe_cell {s : opj_pi_iterator} (hs : pi_safe s) (h : lrcp_cell s) :
    s.poc.precno1 ≤ s.step_c := by
  obtain ⟨_, _, comp, c1, _, c3⟩ := h
  obtain ⟨res, r1, r2⟩ := c3 hs.1
  obtain ⟨_, _, k3⟩ := arr_get_some c1
  obtain ⟨_, _, q3⟩ := arr_get_some r1
  have := (hs.2.2.2.2.2.2.2.2.2.2.2.2.2 _ comp k3).2.2 _ res q3
  rw [r2]
  exact this

theorem lrcp_skip_precno_safe {s : opj_pi_iterator} (hs : pi_safe s) (h : lrcp_at s) :
    pi_then (.ok (false, s)) incr_precno lrcp_precno_loop ≠ .error .bounds := by
  obtain ⟨_, hb, hcell⟩ := h
  obtain ⟨l1, l2, r1, r2, c1, c2⟩ := hb
  refine pi_then_safe (by simp) (fun s1 _ => by simp [incr_precno]) ?_
  intro s1 s2 h1 h2
  simp only [Except.ok.injEq, Prod.mk.injEq, true_and] at h1
  subst h1
  simp only [incr_precno, Except.ok.injEq] at h2
  subst h2
  have hle : s.poc.precno1 ≤ s.step_c := pi_safe_cell hs hcell
  refine lrcp_precno_loop_safe (s := { s with precno := s.precno + 1 }) hs ⟨l1, l2⟩ ⟨r1, r2⟩
    ⟨c1, c2⟩ ?_ hle
  show 0 ≤ s.precno + 1
  have := hs.2.2.2.2.2.2.2.2.2.1
  have := hcell.1
  omega

theorem lrcp_skip_compno_safe {s : opj_pi_iterator} (hs : pi_safe s) (h : lrcp_at s) :
    pi_then (pi_then (.ok (false, s)) incr_precno lrcp_precno_loop)
      incr_compno lrcp_compno_loop ≠ .error .bounds := by
  obtain ⟨l1, l2, r1, r2, c1, c2⟩ := h.2.1
  refine pi_then_safe (lrcp_skip_precno_safe hs h) (fun s1 _ => by simp [incr_compno]) ?_
  intro s1 s2 h1 h2
  obtain ⟨hv, _, hd⟩ := lrcp_skip_precno h1
  obtain ⟨hvc, hcn, hpoc⟩ := view_p_c hv
  obtain ⟨hvl, hln, hrn⟩ := view_c_l hvc
  obtain ⟨hf, _⟩ := view_l_frame hvl
  simp only [incr_compno, Except.ok.injEq] at h2
  subst h2
  have hs1 : pi_safe s1 := pi_safe_frame hf (hd rfl) hs
  refine lrcp_compno_loop_safe (s := { s1 with compno := s1.compno + 1 })
    hs1 ?_ ?_ ?_
  · show s1.poc.layno0 ≤ s1.layno ∧ s1.layno < s1.poc.layno1
    rw [hpoc, hln]; exact ⟨l1, l2⟩
  · show s1.poc.resno0 ≤ s1.resno ∧ s1.resno < s1.poc.resno1
    rw [hpoc, hrn]; exact ⟨r1, r2⟩
  · show s1.poc.compno0 ≤ s1.compno + 1
    rw [hpoc, hcn]; omega

theorem lrcp_skip_resno_safe {s : opj_pi_iterator} (hs : pi_safe s) (h : lrcp_at s) :
    pi_then (pi_then (pi_then (.ok (false, s)) incr_precno lrcp_precno_loop)
      incr_compno lrcp_compno_loop) incr_resno lrcp_resno_loop ≠ .error .bounds := by
  obtain ⟨l1, l2, r1, r2, c1, c2⟩ := h.2.1
  refine pi_then_safe (lrcp_skip_compno_safe hs h) (fun s1 _ => by simp [incr_resno]) ?_
  intro s1 s2 h1 h2
  obtain ⟨hv, _, hd⟩ := lrcp_skip_compno h1
  obtain ⟨hvl, hln, hrn⟩ := view_c_l hv
  obtain ⟨hf, _⟩ := view_l_frame hvl
  simp only [incr_resno, Except.ok.injEq] at h2
  subst h2
  have hs1 : pi_safe s1 := pi_safe_frame hf (hd rfl) hs
  refine lrcp_resno_loop_safe (s := { s1 with resno := s1.resno + 1 })
    hs1 ?_ ?_
  · show s1.poc.layno0 ≤ s1.layno ∧ s1.layno < s1.poc.layno1
    rw [hf.layno0, hf.layno1, hln]; exact ⟨l1, l2⟩
  · show s1.poc.resno0 ≤ s1.resno + 1
    rw [hf.resno0, hrn]; omega

theorem pi_next_lrcp_safe {s : opj_pi_iterator} (hs : pi_safe s)
    (h : s.first = true ∨ lrcp_at s) : pi_next_lrcp s ≠ .error .bounds := by
  unfold pi_next_lrcp
  by_cases hfst : s.first = true
  · simp only [hfst, Bool.not_true, Bool.false_eq_true, if_false]
    exact lrcp_layno_loop_safe (s := { s with first := false, layno := s.poc.layno0 }) hs
      (le_refl _)
  · have hat : lrcp_at s := h.resolve_left hfst
    have hf0 : s.first = false := by simpa using hfst
    simp only [hf0, Bool.not_false, if_true]
    obtain ⟨comp, c1, _⟩ := hat.2.2.2.2
    rw [c1]
    dsimp only
    obtain ⟨l1, l2, _⟩ := hat.2.1
    refine pi_then_safe (lrcp_skip_resno_safe hs hat) (fun s1 _ => by simp [incr_layno]) ?_
    intro s1 s2 h1 h2
    obtain ⟨hv, hln, _, hd⟩ := lrcp_skip_resno h1
    obtain ⟨hf, _⟩ := view_l_frame hv
    simp only [incr_layno, Except.ok.injEq] at h2
    subst h2
    have hs1 : pi_safe s1 := pi_safe_frame hf (hd rfl) hs
    refine lrcp_layno_loop_safe (s := { s1 with layno := s1.layno + 1 })
      hs1 ?_
    show s1.poc.layno0 ≤ s1.layno + 1
    rw [hf.layno0, hln]; omega

theorem rlcp_skip_layno_safe {s : opj_pi_iterator} (hs : pi_safe s) (h : lrcp_at s) :
    pi_then (pi_then (pi_then (.ok (false, s)) incr_precno lrcp_precno_loop)
      incr_compno lrcp_compno_loop) incr_layno rlcp_layno_loop ≠ .error .bounds := by
  obtain ⟨l1, l2, r1, r2, c1, c2⟩ := h.2.1
  refine pi_then_safe (lrcp_skip_compno_safe hs h) (fun s1 _ => by simp [incr_layno]) ?_
  intro s1 s2 h1 h2
  obtain ⟨hv, _, hd⟩ := lrcp_skip_compno h1
  obtain ⟨hvl, hln, hrn⟩ := view_c_l hv
  obtain ⟨hf, _⟩ := view_l_frame hvl
  simp only [incr_layno, Except.ok.injEq] at h2
  subst h2
  have hs1 : pi_safe s1 := pi_safe_frame hf (hd rfl) hs
  refine rlcp_layno_loop_safe (s := { s1 with layno := s1.layno + 1 })
    hs1 ?_ ?_
  · show s1.poc.resno0 ≤ s1.resno ∧ s1.resno < s1.poc.resno1
    rw [hf.resno0, hf.resno1, hrn]; exact ⟨r1, r2⟩
  · show s1.poc.layno0 ≤ s1.layno + 1
    rw [hf.layno0, hln]; omega

theorem pi_next_rlcp_safe {s : opj_pi_iterator} (hs : pi_safe s)
    (h : s.first = true ∨ lrcp_at s) : pi_next_rlcp s ≠ .error .bounds := by
  unfold pi_next_rlcp
  by_cases hfst : s.first = true
  · simp only [hfst, Bool.not_true, Bool.false_eq_true, if_false]
    exact rlcp_resno_loop_safe (s := { s with first := false, resno := s.poc.resno0 }) hs
      (le_refl _)
  · have hat : lrcp_at s := h.resolve_left hfst
    have hf0 : s.first = false := by simpa using hfst
    simp only [hf0, Bool.not_false, if_true]
    obtain ⟨comp, c1, _⟩ := hat.2.2.2.2
    rw [c1]
    dsimp only
    obtain ⟨_, _, r1, r2, _⟩ := hat.2.1
    refine pi_then_safe (rlcp_skip_layno_safe hs hat) (fun s1 _ => by simp [incr_resno]) ?_
    intro s1 s2 h1 h2
    obtain ⟨hv, hrn, _, hd⟩ := rlcp_skip_layno h1
    obtain ⟨hf, _⟩ := view_l_frame hv
    simp only [incr_resno, Except.ok.injEq] at h2
    subst h2
    have hs1 : pi_safe s1 := pi_safe_frame hf (hd rfl) hs
    refine rlcp_resno_loop_safe (s := { s1 with resno := s1.resno + 1 })
      hs1 ?_
    show s1.poc.resno0 ≤ s1.resno + 1
    rw [hf.resno0, hrn]; omega

theorem sp_safe_view {s t : opj_pi_iterator} (hv : view_s1 t = view_s1 s)
    (hi : t.incl = s.incl) (hs : sp_safe s) : sp_safe t := by
  obtain ⟨hv2, hf, _, hdx, hdy, hpoc⟩ := view_s1_s2 hv
  obtain ⟨a1, a2, a3, a4, a5, a6, a7, a8⟩ := hs
  refine ⟨pi_safe_frame hf hi a1, pi_geom_frame (view_s2_core hv2) a2, ?_, ?_, ?_, ?_, ?_, ?_⟩
  · rw [hdx]; exact a3
  · rw [hdy]; exact a4
  · rw [hpoc, hf.tx0]; exact a5
  · rw [hpoc, hf.ty0]; exact a6
  · rw [hpoc, hf.tx1]; exact a7
  · rw [hpoc, hf.ty1]; exact a8

theorem pi_precinct_at_no_bounds (s : opj_pi_iterator) (comp : opj_pi_comp)
    (res : opj_pi_resolution) : pi_precinct_at s comp res ≠ .error .bounds := by
  unfold pi_precinct_at
  dsimp only
  split
  · simp
  · split
    · simp
    · split
      · simp
      · split
        · simp
        · split
          · simp
          · split <;> simp

/-- The precinct number computed at a position of the tile is below `step_c`. -/
theorem pi_precinct_safe {t : opj_pi_iterator} {comp : opj_pi_comp}
    {res : opj_pi_resolution} {p : Int} (hs : sp_safe t)
    (hcomp : arr_get t.comps t.compno = some comp)
    (hres : arr_get comp.resolutions t.resno = some res) (hlt : t.resno < comp.numresolutions)
    (hpos : sp_pos t) (h : pi_precinct_at t comp res = .ok (some p)) :
    0 ≤ p ∧ p < t.step_c := by
  obtain ⟨a1, ⟨g1, g2, g3⟩, _⟩ := hs
  obtain ⟨_, _, k3⟩ := arr_get_some hcomp
  obtain ⟨r0, _, r3⟩ := arr_get_some hres
  obtain ⟨p1, p2, _, p4⟩ := g3 _ comp k3
  obtain ⟨q1, q2, q3⟩ := p4 _ res r3
  have hcast : ((t.resno.toNat : Nat) : Int) = t.resno := Int.toNat_of_nonneg r0
  rw [hcast] at q3
  obtain ⟨x1, x2, y1, y2⟩ := hpos
  have b := pi_precinct_at_bound p1 p2 (by omega) q1 q2 q3 g1 x1 x2 g2 y1 y2 h
  have hle := (a1.2.2.2.2.2.2.2.2.2.2.2.2.2 _ comp k3).2.2 _ res r3
  exact ⟨b.1, by omega⟩

theorem spatial_layno_loop_safe {s : opj_pi_iterator} (hs : pi_safe s) (hr : in_r s)
    (hc : in_c s) (hp : 0 ≤ s.precno ∧ s.precno < s.step_c)
    (hl : s.poc.layno0 ≤ s.layno) : spatial_layno_loop s ≠ .error .bounds := by
  unfold spatial_layno_loop
  refine pi_for_safe (fun t => view_sl t = view_sl s ∧ t.incl = s.incl ∧
      s.poc.layno0 ≤ t.layno) ?_ ?_ ?_ _ s ⟨rfl, rfl, hl⟩
  · intro t hI hcond
    obtain ⟨hv, hi, hl0⟩ := hI
    have hlt : t.layno < t.poc.layno1 := by simpa using hcond
    obtain ⟨hv0, hpn⟩ := view_sl_s0 hv
    obtain ⟨hv1, hrn, hcn, _, _⟩ := view_s0_s1 hv0
    obtain ⟨_, hf, _, _, _, hpoc⟩ := view_s1_s2 hv1
    refine pi_visit_safe (pi_safe_frame hf hi hs) ?_ ?_ ?_ ?_
    · unfold in_l
      rw [hpoc] at hlt ⊢
      exact ⟨hl0, hlt⟩
    · unfold in_r at hr ⊢
      rw [hpoc, hrn]; exact hr
    · unfold in_c at hc ⊢
      rw [hpoc, hcn]; exact hc
    · rw [hpn, hf.step_c]; exact hp
  · intro t t1 _ _ _
    simp [incr_layno]
  · intro t t1 t2 hI _ hb hinc
    obtain ⟨hv, hi, hl0⟩ := hI
    rcases pi_visit_ok hb with ⟨h1, _⟩ | ⟨_, rfl⟩
    · simp at h1
    · simp only [incr_layno, Except.ok.injEq] at hinc
      subst hinc
      exact ⟨hv, hi, by show s.poc.layno0 ≤ t1.layno + 1; omega⟩

theorem pi_spatial_body_safe {comp : opj_pi_comp} {s : opj_pi_iterator} (hs : sp_safe s)
    (hcomp : arr_get s.comps s.compno = some comp) (hr : in_r s)
    (hlt : s.resno < comp.numresolutions) (hc : in_c s) (hpos : sp_pos s) :
    pi_spatial_body comp s ≠ .error .bounds := by
  have hsafe := hs.1
  have hr0 : 0 ≤ s.resno := by
    have := hsafe.2.2.2.2.2.2.2.1
    have := hr.1
    omega
  obtain ⟨_, _, k3⟩ := arr_get_some hcomp
  obtain ⟨_, m2, _⟩ := hsafe.2.2.2.2.2.2.2.2.2.2.2.2.2 _ comp k3
  obtain ⟨res, q1, _⟩ := arr_get_lt (a := comp.resolutions) (i := s.resno) hr0
    (by rw [m2]; omega)
  unfold pi_spatial_body
  rw [q1]
  dsimp only
  cases hpa : pi_precinct_at s comp res with
  | error e =>
    dsimp only
    intro hcon
    simp only [Except.error.injEq] at hcon
    subst hcon
    exact pi_precinct_at_no_bounds s comp res hpa
  | ok o =>
    cases o with
    | none => simp
    | some p =>
      dsimp only
      have hb := pi_precinct_safe hs hcomp q1 hlt hpos hpa
      exact spatial_layno_loop_safe (s := { s with precno := p, layno := s.poc.layno0 })
        hsafe hr hc hb (le_refl _)

theorem rpcl_compno_body_safe {s : opj_pi_iterator} (hs : sp_safe s) (hr : in_r s)
    (hc : in_c s) (hpos : sp_pos s) : rpcl_compno_body s ≠ .error .bounds := by
  obtain ⟨comp, k1, _, _⟩ := pi_safe_comp hs.1 hc
  unfold rpcl_compno_body
  rw [k1]
  dsimp only
  by_cases hge : s.resno ≥ comp.numresolutions
  · rw [if_pos hge]; simp
  · rw [if_neg hge]
    exact pi_spatial_body_safe hs k1 hr (by omega) hc hpos

theorem rpcl_compno_loop_safe {s : opj_pi_iterator} (hs : sp_safe s) (hr : in_r s)
    (hpos : sp_pos s) (hc : s.poc.compno0 ≤ s.compno) :
    rpcl_compno_loop s ≠ .error .bounds := by
  unfold rpcl_compno_loop
  refine pi_for_safe
    (fun t => view_s1 t = view_s1 s ∧ t.resno = s.resno ∧ t.x = s.x ∧ t.y = s.y ∧
      t.incl = s.incl ∧ s.poc.compno0 ≤ t.compno)
    ?_ ?_ ?_ _ s ⟨rfl, rfl, rfl, rfl, rfl, hc⟩
  · intro t hI hcond
    obtain ⟨hv, hrn, hx, hy, hi, hc0⟩ := hI
    have hlt : t.compno < t.poc.compno1 := by simpa using hcond
    have hst := sp_safe_view hv hi hs
    obtain ⟨_, hf, _, _, _, hpoc⟩ := view_s1_s2 hv
    refine rpcl_compno_body_safe hst ?_ ?_ ?_
    · unfold in_r at hr ⊢
      rw [hpoc, hrn]; exact hr
    · unfold in_c
      rw [hpoc] at hlt ⊢
      exact ⟨hc0, hlt⟩
    · unfold sp_pos at hpos ⊢
      rw [hf.tx0, hf.tx1, hf.ty0, hf.ty1, hx, hy]; exact hpos
  · intro t t1 _ _ _
    simp [incr_compno]
  · intro t t1 t2 hI _ hb hinc
    obtain ⟨hv, hrn, hx, hy, hi, hc0⟩ := hI
    obtain ⟨hv0, _, hd⟩ := rpcl_compno_body_spec hb
    obtain ⟨hv1, hr1, hc1, hx1, hy1⟩ := view_s0_s1 hv0
    simp only [incr_compno, Except.ok.injEq] at hinc
    subst hinc
    refine ⟨hv1.trans hv, hr1.trans hrn, hx1.trans hx, hy1.trans hy, (hd rfl).trans hi, ?_⟩
    show s.poc.compno0 ≤ t1.compno + 1
    have : t1.compno = t.compno := hc1
    omega

theorem incr_x_safe (s : opj_pi_iterator) : incr_x s ≠ .error .bounds := by
  unfold incr_x
  split <;> simp

theorem incr_y_safe (s : opj_pi_iterator) : incr_y s ≠ .error .bounds := by
  unfold incr_y
  split <;> simp

theorem rpcl_x_loop_safe {s : opj_pi_iterator} (hs : sp_safe s) (hr : in_r s)
    (hy : s.ty0 ≤ s.y ∧ s.y < s.ty1) (hx : s.tx0 ≤ s.x) :
    rpcl_x_loop s ≠ .error .bounds := by
  unfold rpcl_x_loop
  refine pi_for_safe
    (fun t => view_s1 t = view_s1 s ∧ t.resno = s.resno ∧ t.y = s.y ∧ t.incl = s.incl ∧
      s.tx0 ≤ t.x)
    ?_ (fun t t1 _ _ _ => incr_x_safe t1) ?_ _ s ⟨rfl, rfl, rfl, rfl, hx⟩
  · intro t hI hcond
    obtain ⟨hv, hrn, hyn, hi, hx0⟩ := hI
    have hlt : t.x < t.poc.tx1 := by simpa using hcond
    have hst : sp_safe t := sp_safe_view hv hi hs
    obtain ⟨_, hf, _, _, _, hpoc⟩ := view_s1_s2 hv
    have hw : t.poc.tx1 = t.tx1 := hst.2.2.2.2.2.2.1
    refine rpcl_compno_loop_safe (s := { t with compno := t.poc.compno0 }) hst ?_ ?_
      (le_refl _)
    · show t.poc.resno0 ≤ t.resno ∧ t.resno < t.poc.resno1
      unfold in_r at hr
      rw [hpoc, hrn]; exact hr
    · show t.tx0 ≤ t.x ∧ t.x < t.tx1 ∧ t.ty0 ≤ t.y ∧ t.y < t.ty1
      rw [hf.tx0, hf.ty0, hf.ty1, hyn]
      exact ⟨hx0, by omega, hy.1, hy.2⟩
  · intro t t1 t2 hI _ hb hinc
    obtain ⟨hv, hrn, hyn, hi, hx0⟩ := hI
    obtain ⟨hv1, hr1, hx1, hy1, _, _, hd⟩ := rpcl_compno_loop_spec hb
    have hv1' : view_s1 t1 = view_s1 t := hv1
    have hst1 : sp_safe t1 := sp_safe_view (hv1'.trans hv) ((hd rfl).trans hi) hs
    obtain ⟨hv2, hr2, _, hy2, hi2, _, hmono⟩ := incr_x_ok hinc
    have := hmono hst1.2.2.1
    have e1 : t1.x = t.x := hx1
    have e2 : t1.resno = t.resno := hr1
    have e3 : t1.y = t.y := hy1
    exact ⟨(hv2.trans hv1').trans hv, by omega, by omega, (hi2.trans (hd rfl)).trans hi,
      by omega⟩

theorem rpcl_y_loop_safe {s : opj_pi_iterator} (hs : sp_safe s) (hr : in_r s)
    (hy : s.ty0 ≤ s.y) : rpcl_y_loop s ≠ .error .bounds := by
  unfold rpcl_y_loop
  refine pi_for_safe
    (fun t => view_s1 t = view_s1 s ∧ t.resno = s.resno ∧ t.incl = s.incl ∧ s.ty0 ≤ t.y)
    ?_ (fun t t1 _ _ _ => incr_y_safe t1) ?_ _ s ⟨rfl, rfl, rfl, hy⟩
  · intro t hI hcond
    obtain ⟨hv, hrn, hi, hy0⟩ := hI
    have hlt : t.y < t.poc.ty1 := by simpa using hcond
    have hst : sp_safe t := sp_safe_view hv hi hs
    obtain ⟨_, hf, _, _, _, hpoc⟩ := view_s1_s2 hv
    have hw : t.poc.ty1 = t.ty1 := hst.2.2.2.2.2.2.2
    have hw0 : t.poc.tx0 = t.tx0 := hst.2.2.2.2.1
    refine rpcl_x_loop_safe (s := { t with x := t.poc.tx0 }) hst ?_ ?_ ?_
    · show t.poc.resno0 ≤ t.resno ∧ t.resno < t.poc.resno1
      unfold in_r at hr
      rw [hpoc, hrn]; exact hr
    · show t.ty0 ≤ t.y ∧ t.y < t.ty1
      rw [hf.ty0]
      exact ⟨hy0, by omega⟩
    · show t.tx0 ≤ t.poc.tx0
      omega
  · intro t t1 t2 hI _ hb hinc
    obtain ⟨hv, hrn, hi, hy0⟩ := hI
    obtain ⟨hv1, hr1, hy1, _, _, hd⟩ := rpcl_x_loop_spec hb
    have hv1' : view_s1 t1 = view_s1 t := hv1
    have hst : sp_safe t := sp_safe_view hv hi hs
    have hst1 : sp_safe t1 := sp_safe_view (hv1'.trans hv) ((hd rfl).trans hi) hs
    obtain ⟨hv2, hr2, _, _, hi2, _, hmono⟩ := incr_y_ok hinc
    have := hmono hst1.2.2.2.1
    have e2 : t1.resno = t.resno := hr1
    have e3 : t1.y = t.y := hy1
    exact ⟨(hv2.trans hv1').trans hv, by omega, (hi2.trans (hd rfl)).trans hi, by omega⟩

theorem rpcl_resno_loop_safe {s : opj_pi_iterator} (hs : sp_safe s)
    (hr : s.poc.resno0 ≤ s.resno) : rpcl_resno_loop s ≠ .error .bounds := by
  unfold rpcl_resno_loop
  refine pi_for_safe
    (fun t => view_s1 t = view_s1 s ∧ t.incl = s.incl ∧ s.poc.resno0 ≤ t.resno)
    ?_ (fun t t1 _ _ _ => by simp [incr_resno]) ?_ _ s ⟨rfl, rfl, hr⟩
  · intro t hI hcond
    obtain ⟨hv, hi, hr0⟩ := hI
    have hlt : t.resno < t.poc.resno1 := by simpa using hcond
    have hst : sp_safe t := sp_safe_view hv hi hs
    obtain ⟨_, hf, _, _, _, hpoc⟩ := view_s1_s2 hv
    have hw0 : t.poc.ty0 = t.ty0 := hst.2.2.2.2.2.1
    refine rpcl_y_loop_safe (s := { t with y := t.poc.ty0 }) hst ?_ ?_
    · show t.poc.resno0 ≤ t.resno ∧ t.resno < t.poc.resno1
      rw [hpoc] at hlt ⊢
      exact ⟨hr0, hlt⟩
    · show t.ty0 ≤ t.poc.ty0
      omega
  · intro t t1 t2 hI _ hb hinc
    obtain ⟨hv, hi, hr0⟩ := hI
    obtain ⟨hv1, hr1, _, _, hd⟩ := rpcl_y_loop_spec hb
    have hv1' : view_s1 t1 = view_s1 t := hv1
    simp only [incr_resno, Except.ok.injEq] at hinc
    subst hinc
    refine ⟨hv1'.trans hv, (hd rfl).trans hi, ?_⟩
    show s.poc.resno0 ≤ t1.resno + 1
    have : t1.resno = t.resno := hr1
    omega

theorem opj_for_safe {σ : Type} {f : Nat → σ → Except pi_fault σ} (N : Nat)
    (hf : ∀ k s, k < N → f k s ≠ .error .bounds) :
    ∀ (n i : Nat) (s : σ), i + n ≤ N → opj_for f n i s ≠ .error .bounds := by
  intro n
  induction n with
  | zero => intro i s _ hcon; simp [opj_for] at hcon
  | succ k ih =>
    intro i s hb hcon
    rw [opj_for] at hcon
    cases hfi : f i s with
    | error e =>
      rw [hfi] at hcon
      simp only [Except.error.injEq] at hcon
      subst hcon
      exact hf i s (by omega) hfi
    | ok s1 =>
      rw [hfi] at hcon
      exact ih (i + 1) s1 (by omega) hcon

theorem pi_step_safe {s : opj_pi_iterator} (hs : pi_safe s) : pi_step s ≠ .error .bounds := by
  obtain ⟨_, _, _, _, _, _, _, _, _, _, _, s12, s13, s14⟩ := hs
  unfold pi_step
  refine opj_for_safe s.numcomps.toNat ?_ _ 0 _ (by omega)
  intro k d hk
  have hlt : k < s.comps.length := by rw [s13, ← s12]; exact hk
  rw [List.getElem?_eq_getElem hlt]
  dsimp only
  obtain ⟨_, m2, _⟩ := s14 k _ (List.getElem?_eq_getElem hlt)
  unfold pi_step_comp
  refine opj_for_safe (s.comps[k]).numresolutions.toNat ?_ _ 0 _ (by omega)
  intro r d1 hr
  unfold pi_step_res
  rw [List.getElem?_eq_getElem (by rw [m2]; exact hr)]
  simp

theorem sp_safe_entry {s : opj_pi_iterator} (hs : pi_safe s) (hg : pi_geom s)
    (h : spatial_at s) (hd : 0 ≤ s.dx ∧ 0 ≤ s.dy) : sp_safe s ∧ sp_pos s := by
  obtain ⟨_, hw, _, _, _, hx, hy, _⟩ := h
  obtain ⟨w1, w2, w3, w4⟩ := hw hs.1
  refine ⟨⟨hs, hg, hd.1, hd.2, w1, w2, w3, w4⟩, ?_⟩
  obtain ⟨x1, x2⟩ := hx
  obtain ⟨y1, y2⟩ := hy
  have := x1 hd.1
  have := y1 hd.2
  unfold sp_pos
  omega

theorem sp_safe_first {s : opj_pi_iterator} (hs : pi_safe s) (hg : pi_geom s)
    {d : Int × Int} (hd : 0 ≤ d.1 ∧ 0 ≤ d.2) :
    sp_safe (pi_window { s with first := false, dx := d.1, dy := d.2 }) := by
  obtain ⟨w1, w2, _, w4, w5, w6, _⟩ :=
    pi_window_spec { s with first := false, dx := d.1, dy := d.2 }
  have hc : pi_core (pi_window { s with first := false, dx := d.1, dy := d.2 }) = pi_core s :=
    (view_s2_core w2).trans rfl
  have hf := pi_core_frame hc
  have hsafe := pi_safe_frame hf w6 hs
  obtain ⟨e1, e2, e3, e4⟩ := w1 hsafe.1
  refine ⟨hsafe, pi_geom_frame hc hg, ?_, ?_, e1, e2, e3, e4⟩
  · rw [w4]; exact hd.1
  · rw [w5]; exact hd.2

theorem spatial_skip_layno_safe {s : opj_pi_iterator} (hs : sp_safe s) (hpos : sp_pos s)
    (h : spatial_at s) :
    pi_then (.ok (false, s)) incr_layno spatial_layno_loop ≠ .error .bounds := by
  obtain ⟨_, _, hl, hr, hc, _, _, comp, res, c1, c2, c3, c4⟩ := h
  refine pi_then_safe (by simp) (fun s1 _ => by simp [incr_layno]) ?_
  intro s1 s2 h1 h2
  simp only [Except.ok.injEq, Prod.mk.injEq, true_and] at h1
  subst h1
  simp only [incr_layno, Except.ok.injEq] at h2
  subst h2
  have hb := pi_precinct_safe hs c1 c3 c2 hpos c4
  refine spatial_layno_loop_safe (s := { s with layno := s.layno + 1 }) hs.1 hr hc hb ?_
  show s.poc.layno0 ≤ s.layno + 1
  have := hl.1
  omega

theorem rpcl_skip_compno_safe {s : opj_pi_iterator} (hs : sp_safe s) (hpos : sp_pos s)
    (h : spatial_at s) :
    pi_then (pi_then (.ok (false, s)) incr_layno spatial_layno_loop)
      incr_compno rpcl_compno_loop ≠ .error .bounds := by
  have hr := h.2.2.2.1
  have hc := h.2.2.2.2.1
  refine pi_then_safe (spatial_skip_layno_safe hs hpos h)
    (fun s1 _ => by simp [incr_compno]) ?_
  intro s1 s2 h1 h2
  obtain ⟨hv, _, hd⟩ := spatial_skip_layno h1
  obtain ⟨hv0, _⟩ := view_sl_s0 hv
  obtain ⟨hv1, hrn, hcn, hxn, hyn⟩ := view_s0_s1 hv0
  obtain ⟨_, hf, _, _, _, hpoc⟩ := view_s1_s2 hv1
  have hs1 : sp_safe s1 := sp_safe_view hv1 (hd rfl) hs
  simp only [incr_compno, Except.ok.injEq] at h2
  subst h2
  refine rpcl_compno_loop_safe (s := { s1 with compno := s1.compno + 1 }) hs1 ?_ ?_ ?_
  · show s1.poc.resno0 ≤ s1.resno ∧ s1.resno < s1.poc.resno1
    unfold in_r at hr
    rw [hpoc, hrn]; exact hr
  · show s1.tx0 ≤ s1.x ∧ s1.x < s1.tx1 ∧ s1.ty0 ≤ s1.y ∧ s1.y < s1.ty1
    rw [hf.tx0, hf.tx1, hf.ty0, hf.ty1, hxn, hyn]; exact hpos
  · show s1.poc.compno0 ≤ s1.compno + 1
    have := hc.1
    rw [hpoc, hcn]; omega

theorem rpcl_skip_x_safe {s : opj_pi_iterator} (hs : sp_safe s) (hpos : sp_pos s)
    (h : spatial_at s) :
    pi_then (pi_then (pi_then (.ok (false, s)) incr_layno spatial_layno_loop)
      incr_compno rpcl_compno_loop) incr_x rpcl_x_loop ≠ .error .bounds := by
  have hr := h.2.2.2.1
  refine pi_then_safe (rpcl_skip_compno_safe hs hpos h) (fun s1 _ => incr_x_safe s1) ?_
  intro s1 s2 h1 h2
  obtain ⟨hv1, hrn, hxn, hyn, _, hd⟩ := rpcl_skip_compno h1
  have hs1 : sp_safe s1 := sp_safe_view hv1 (hd rfl) hs
  obtain ⟨hv2, hr2, _, hy2, hi2, _, hmono⟩ := incr_x_ok h2
  have := hmono hs1.2.2.1
  have hs2 : sp_safe s2 := sp_safe_view hv2 hi2 hs1
  obtain ⟨_, hf, _, _, _, hpoc⟩ := view_s1_s2 (hv2.trans hv1)
  obtain ⟨x1, x2, y1, y2⟩ := hpos
  refine rpcl_x_loop_safe hs2 ?_ ?_ ?_
  · unfold in_r at hr ⊢
    rw [hpoc, hr2, hrn]; exact hr
  · rw [hf.ty0, hf.ty1, hy2, hyn]; exact ⟨y1, y2⟩
  · rw [hf.tx0]; omega

theorem rpcl_skip_y_safe {s : opj_pi_iterator} (hs : sp_safe s) (hpos : sp_pos s)
    (h : spatial_at s) :
    pi_then (pi_then (pi_then (pi_then (.ok (false, s)) incr_layno spatial_layno_loop)
      incr_compno rpcl_compno_loop) incr_x rpcl_x_loop) incr_y rpcl_y_loop
        ≠ .error .bounds := by
  have hr := h.2.2.2.1
  refine pi_then_safe (rpcl_skip_x_safe hs hpos h) (fun s1 _ => incr_y_safe s1) ?_
  intro s1 s2 h1 h2
  obtain ⟨hv1, hrn, hyn, _, hd⟩ := rpcl_skip_x h1
  have hs1 : sp_safe s1 := sp_safe_view hv1 (hd rfl) hs
  obtain ⟨hv2, hr2, _, _, hi2, _, hmono⟩ := incr_y_ok h2
  have := hmono hs1.2.2.2.1
  have hs2 : sp_safe s2 := sp_safe_view hv2 hi2 hs1
  obtain ⟨_, hf, _, _, _, hpoc⟩ := view_s1_s2 (hv2.trans hv1)
  obtain ⟨x1, x2, y1, y2⟩ := hpos
  refine rpcl_y_loop_safe hs2 ?_ ?_
  · unfold in_r at hr ⊢
    rw [hpoc, hr2, hrn]; exact hr
  · rw [hf.ty0]; omega

theorem pi_geom_comps {s : opj_pi_iterator} (hg : pi_geom s) :
    ∀ comp ∈ s.comps, 0 ≤ comp.dx ∧ 0 ≤ comp.dy := by
  intro comp hc
  obtain ⟨c, hc1⟩ := List.mem_iff_getElem?.mp hc
  obtain ⟨p1, p2, _⟩ := hg.2.2 c comp hc1
  exact ⟨le_of_lt p1, le_of_lt p2⟩

theorem pi_next_rpcl_safe {s : opj_pi_iterator} (hs : pi_safe s) (hg : pi_geom s)
    (h : s.first = true ∨ (spatial_at s ∧ pi_step s = .ok (s.dx, s.dy))) :
    pi_next_rpcl s ≠ .error .bounds := by
  unfold pi_next_rpcl
  by_cases hfst : s.first = true
  · simp only [hfst, Bool.not_true, Bool.false_eq_true, if_false]
    cases hst : pi_step s with
    | error e =>
      dsimp only
      intro hcon
      simp only [Except.error.injEq] at hcon
      subst hcon
      exact pi_step_safe hs hst
    | ok d =>
      dsimp only
      have hsp := sp_safe_first hs hg (pi_step_nonneg (pi_geom_comps hg) hst)
      exact rpcl_resno_loop_safe
        (s := { pi_window { s with first := false, dx := d.1, dy := d.2 } with
          resno := (pi_window { s with first := false, dx := d.1, dy := d.2 }).poc.resno0 })
        hsp (le_refl _)
  · obtain ⟨hat, hstep⟩ := h.resolve_left hfst
    have hf0 : s.first = false := by simpa using hfst
    simp only [hf0, Bool.not_false, if_true]
    obtain ⟨hsp, hpos⟩ := sp_safe_entry hs hg hat (pi_step_nonneg (pi_geom_comps hg) hstep)
    refine pi_then_safe (rpcl_skip_y_safe hsp hpos hat) (fun s1 _ => by simp [incr_resno]) ?_
    intro s1 s2 h1 h2
    obtain ⟨hv1, hrn, _, hd⟩ := rpcl_skip_y h1
    have hs1 : sp_safe s1 := sp_safe_view hv1 (hd rfl) hsp
    obtain ⟨_, hf, _, _, _, hpoc⟩ := view_s1_s2 hv1
    simp only [incr_resno, Except.ok.injEq] at h2
    subst h2
    refine rpcl_resno_loop_safe (s := { s1 with resno := s1.resno + 1 }) hs1 ?_
    show s1.poc.resno0 ≤ s1.resno + 1
    have := hat.2.2.2.1.1
    rw [hpoc, hrn]; omega

theorem pcrl_resno_loop_safe {comp : opj_pi_comp} {s : opj_pi_iterator} (hs : sp_safe s)
    (hcomp : arr_get s.comps s.compno = some comp) (hc : in_c s) (hpos : sp_pos s)
    (hr : s.poc.resno0 ≤ s.resno) : pcrl_resno_loop comp s ≠ .error .bounds := by
  unfold pcrl_resno_loop
  refine pi_for_safe
    (fun t => view_s1 t = view_s1 s ∧ t.compno = s.compno ∧ t.x = s.x ∧ t.y = s.y ∧
      t.incl = s.incl ∧ s.poc.resno0 ≤ t.resno)
    ?_ (fun t t1 _ _ _ => by simp [incr_resno]) ?_ _ s ⟨rfl, rfl, rfl, rfl, rfl, hr⟩
  · intro t hI hcond
    obtain ⟨hv, hcn, hx, hy, hi, hr0⟩ := hI
    have hlt : t.resno < int_min t.poc.resno1 comp.numresolutions := by simpa using hcond
    obtain ⟨l1, l2⟩ := int_min_lt hlt
    have hst := sp_safe_view hv hi hs
    obtain ⟨_, hf, _, _, _, hpoc⟩ := view_s1_s2 hv
    refine pi_spatial_body_safe hst ?_ ?_ l2 ?_ ?_
    · rw [hf.comps, hcn]; exact hcomp
    · unfold in_r
      rw [hpoc] at l1 ⊢
      exact ⟨hr0, l1⟩
    · unfold in_c at hc ⊢
      rw [hpoc, hcn]; exact hc
    · unfold sp_pos at hpos ⊢
      rw [hf.tx0, hf.tx1, hf.ty0, hf.ty1, hx, hy]; exact hpos
  · intro t t1 t2 hI _ hb hinc
    obtain ⟨hv, hcn, hx, hy, hi, hr0⟩ := hI
    obtain ⟨hv0, _, hd⟩ := pi_spatial_body_spec hb
    obtain ⟨hv1, hr1, hc1, hx1, hy1⟩ := view_s0_s1 hv0
    simp only [incr_resno, Except.ok.injEq] at hinc
    subst hinc
    refine ⟨hv1.trans hv, hc1.trans hcn, hx1.trans hx, hy1.trans hy, (hd rfl).trans hi, ?_⟩
    show s.poc.resno0 ≤ t1.resno + 1
    have : t1.resno = t.resno := hr1
    omega

theorem pcrl_resno_resume_safe {s : opj_pi_iterator} (hs : sp_safe s) (hc : in_c s)
    (hpos : sp_pos s) (hr : s.poc.resno0 ≤ s.resno) :
    pcrl_resno_resume s ≠ .error .bounds := by
  obtain ⟨comp, k1, _, _⟩ := pi_safe_comp hs.1 hc
  unfold pcrl_resno_resume
  rw [k1]
  exact pcrl_resno_loop_safe hs k1 hc hpos hr

theorem pcrl_compno_body_safe {s : opj_pi_iterator} (hs : sp_safe s) (hc : in_c s)
    (hpos : sp_pos s) : pcrl_compno_body s ≠ .error .bounds := by
  obtain ⟨comp, k1, _, _⟩ := pi_safe_comp hs.1 hc
  unfold pcrl_compno_body
  rw [k1]
  exact pcrl_resno_loop_safe (s := { s with resno := s.poc.resno0 }) hs k1 hc hpos (le_refl _)

theorem pcrl_compno_loop_safe {s : opj_pi_iterator} (hs : sp_safe s) (hpos : sp_pos s)
    (hc : s.poc.compno0 ≤ s.compno) : pcrl_compno_loop s ≠ .error .bounds := by
  unfold pcrl_compno_loop
  refine pi_for_safe
    (fun t => view_s1 t = view_s1 s ∧ t.x = s.x ∧ t.y = s.y ∧ t.incl = s.incl ∧
      s.poc.compno0 ≤ t.compno)
    ?_ (fun t t1 _ _ _ => by simp [incr_compno]) ?_ _ s ⟨rfl, rfl, rfl, rfl, hc⟩
  · intro t hI hcond
    obtain ⟨hv, hx, hy, hi, hc0⟩ := hI
    have hlt : t.compno < t.poc.compno1 := by simpa using hcond
    have hst := sp_safe_view hv hi hs
    obtain ⟨_, hf, _, _, _, hpoc⟩ := view_s1_s2 hv
    refine pcrl_compno_body_safe hst ?_ ?_
    · unfold in_c
      rw [hpoc] at hlt ⊢
      exact ⟨hc0, hlt⟩
    · unfold sp_pos at hpos ⊢
      rw [hf.tx0, hf.tx1, hf.ty0, hf.ty1, hx, hy]; exact hpos
  · intro t t1 t2 hI _ hb hinc
    obtain ⟨hv, hx, hy, hi, hc0⟩ := hI
    obtain ⟨hv1, hc1, hx1, hy1, _, hd⟩ := pcrl_compno_body_spec hb
    simp only [incr_compno, Except.ok.injEq] at hinc
    subst hinc
    refine ⟨hv1.trans hv, hx1.trans hx, hy1.trans hy, (hd rfl).trans hi, ?_⟩
    show s.poc.compno0 ≤ t1.compno + 1
    have : t1.compno = t.compno := hc1
    omega

theorem pcrl_x_loop_safe {s : opj_pi_iterator} (hs : sp_safe s)
    (hy : s.ty0 ≤ s.y ∧ s.y < s.ty1) (hx : s.tx0 ≤ s.x) :
    pcrl_x_loop s ≠ .error .bounds := by
  unfold pcrl_x_loop
  refine pi_for_safe
    (fun t => view_s1 t = view_s1 s ∧ t.y = s.y ∧ t.incl = s.incl ∧ s.tx0 ≤ t.x)
    ?_ (fun t t1 _ _ _ => incr_x_safe t1) ?_ _ s ⟨rfl, rfl, rfl, hx⟩
  · intro t hI hcond
    obtain ⟨hv, hyn, hi, hx0⟩ := hI
    have hlt : t.x < t.poc.tx1 := by simpa using hcond
    have hst : sp_safe t := sp_safe_view hv hi hs
    obtain ⟨_, hf, _, _, _, hpoc⟩ := view_s1_s2 hv
    have hw : t.poc.tx1 = t.tx1 := hst.2.2.2.2.2.2.1
    refine pcrl_compno_loop_safe (s := { t with compno := t.poc.compno0 }) hst ?_ (le_refl _)
    show t.tx0 ≤ t.x ∧ t.x < t.tx1 ∧ t.ty0 ≤ t.y ∧ t.y < t.ty1
    rw [hf.tx0, hf.ty0, hf.ty1, hyn]
    exact ⟨hx0, by omega, hy.1, hy.2⟩
  · intro t t1 t2 hI _ hb hinc
    obtain ⟨hv, hyn, hi, hx0⟩ := hI
    obtain ⟨hv1, hx1, hy1, _, _, hd⟩ := pcrl_compno_loop_spec hb
    have hv1' : view_s1 t1 = view_s1 t := hv1
    have hst1 : sp_safe t1 := sp_safe_view (hv1'.trans hv) ((hd rfl).trans hi) hs
    obtain ⟨hv2, _, _, hy2, hi2, _, hmono⟩ := incr_x_ok hinc
    have := hmono hst1.2.2.1
    have e1 : t1.x = t.x := hx1
    have e3 : t1.y = t.y := hy1
    exact ⟨(hv2.trans hv1').trans hv, by omega, (hi2.trans (hd rfl)).trans hi, by omega⟩

theorem pcrl_y_loop_safe {s : opj_pi_iterator} (hs : sp_safe s) (hy : s.ty0 ≤ s.y) :
    pcrl_y_loop s ≠ .error .bounds := by
  unfold pcrl_y_loop
  refine pi_for_safe
    (fun t => view_s1 t = view_s1 s ∧ t.incl = s.incl ∧ s.ty0 ≤ t.y)
    ?_ (fun t t1 _ _ _ => incr_y_safe t1) ?_ _ s ⟨rfl, rfl, hy⟩
  · intro t hI hcond
    obtain ⟨hv, hi, hy0⟩ := hI
    have hlt : t.y < t.poc.ty1 := by simpa using hcond
    have hst : sp_safe t := sp_safe_view hv hi hs
    obtain ⟨_, hf, _, _, _, hpoc⟩ := view_s1_s2 hv
    have hw : t.poc.ty1 = t.ty1 := hst.2.2.2.2.2.2.2
    have hw0 : t.poc.tx0 = t.tx0 := hst.2.2.2.2.1
    refine pcrl_x_loop_safe (s := { t with x := t.poc.tx0 }) hst ?_ ?_
    · show t.ty0 ≤ t.y ∧ t.y < t.ty1
      rw [hf.ty0]
      exact ⟨hy0, by omega⟩
    · show t.tx0 ≤ t.poc.tx0
      omega
  · intro t t1 t2 hI _ hb hinc
    obtain ⟨hv, hi, hy0⟩ := hI
    obtain ⟨hv1, hy1, _, _, hd⟩ := pcrl_x_loop_spec hb
    have hv1' : view_s1 t1 = view_s1 t := hv1
    have hst1 : sp_safe t1 := sp_safe_view (hv1'.trans hv) ((hd rfl).trans hi) hs
    obtain ⟨hv2, _, _, _, hi2, _, hmono⟩ := incr_y_ok hinc
    have := hmono hst1.2.2.2.1
    have e3 : t1.y = t.y := hy1
    exact ⟨(hv2.trans hv1').trans hv, (hi2.trans (hd rfl)).trans hi, by omega⟩

theorem pcrl_skip_resno_safe {s : opj_pi_iterator} (hs : sp_safe s) (hpos : sp_pos s)
    (h : spatial_at s) :
    pi_then (pi_then (.ok (false, s)) incr_layno spatial_layno_loop)
      incr_resno pcrl_resno_resume ≠ .error .bounds := by
  have hr := h.2.2.2.1
  have hc := h.2.2.2.2.1
  refine pi_then_safe (spatial_skip_layno_safe hs hpos h)
    (fun s1 _ => by simp [incr_resno]) ?_
  intro s1 s2 h1 h2
  obtain ⟨hv, _, hd⟩ := spatial_skip_layno h1
  obtain ⟨hv0, _⟩ := view_sl_s0 hv
  obtain ⟨hv1, hrn, hcn, hxn, hyn⟩ := view_s0_s1 hv0
  obtain ⟨_, hf, _, _, _, hpoc⟩ := view_s1_s2 hv1
  have hs1 : sp_safe s1 := sp_safe_view hv1 (hd rfl) hs
  simp only [incr_resno, Except.ok.injEq] at h2
  subst h2
  refine pcrl_resno_resume_safe (s := { s1 with resno := s1.resno + 1 }) hs1 ?_ ?_ ?_
  · show s1.poc.compno0 ≤ s1.compno ∧ s1.compno < s1.poc.compno1
    unfold in_c at hc
    rw [hpoc, hcn]; exact hc
  · show s1.tx0 ≤ s1.x ∧ s1.x < s1.tx1 ∧ s1.ty0 ≤ s1.y ∧ s1.y < s1.ty1
    rw [hf.tx0, hf.tx1, hf.ty0, hf.ty1, hxn, hyn]; exact hpos
  · show s1.poc.resno0 ≤ s1.resno + 1
    have := hr.1
    rw [hpoc, hrn]; omega

theorem pcrl_skip_compno_safe {s : opj_pi_iterator} (hs : sp_safe s) (hpos : sp_pos s)
    (h : spatial_at s) :
    pi_then (pi_then (pi_then (.ok (false, s)) incr_layno spatial_layno_loop)
      incr_resno pcrl_resno_resume) incr_compno pcrl_compno_loop ≠ .error .bounds := by
  have hc := h.2.2.2.2.1
  refine pi_then_safe (pcrl_skip_resno_safe hs hpos h)
    (fun s1 _ => by simp [incr_compno]) ?_
  intro s1 s2 h1 h2
  obtain ⟨hv1, hcn, hxn, hyn, _, hd⟩ := pcrl_skip_resno h1
  obtain ⟨_, hf, _, _, _, hpoc⟩ := view_s1_s2 hv1
  have hs1 : sp_safe s1 := sp_safe_view hv1 (hd rfl) hs
  simp only [incr_compno, Except.ok.injEq] at h2
  subst h2
  refine pcrl_compno_loop_safe (s := { s1 with compno := s1.compno + 1 }) hs1 ?_ ?_
  · show s1.tx0 ≤ s1.x ∧ s1.x < s1.tx1 ∧ s1.ty0 ≤ s1.y ∧ s1.y < s1.ty1
    rw [hf.tx0, hf.tx1, hf.ty0, hf.ty1, hxn, hyn]; exact hpos
  · show s1.poc.compno0 ≤ s1.compno + 1
    have := hc.1
    rw [hpoc, hcn]; omega

theorem pcrl_skip_x_safe {s : opj_pi_iterator} (hs : sp_safe s) (hpos : sp_pos s)
    (h : spatial_at s) :
    pi_then (pi_then (pi_then (pi_then (.ok (false, s)) incr_layno spatial_layno_loop)
      incr_resno pcrl_resno_resume) incr_compno pcrl_compno_loop)
      incr_x pcrl_x_loop ≠ .error .bounds := by
  refine pi_then_safe (pcrl_skip_compno_safe hs hpos h) (fun s1 _ => incr_x_safe s1) ?_
  intro s1 s2 h1 h2
  obtain ⟨hv1, hxn, hyn, _, hd⟩ := pcrl_skip_compno h1
  have hs1 : sp_safe s1 := sp_safe_view hv1 (hd rfl) hs
  obtain ⟨hv2, _, _, hy2, hi2, _, hmono⟩ := incr_x_ok h2
  have := hmono hs1.2.2.1
  have hs2 : sp_safe s2 := sp_safe_view hv2 hi2 hs1
  obtain ⟨_, hf, _, _, _, hpoc⟩ := view_s1_s2 (hv2.trans hv1)
  obtain ⟨x1, x2, y1, y2⟩ := hpos
  refine pcrl_x_loop_safe hs2 ?_ ?_
  · rw [hf.ty0, hf.ty1, hy2, hyn]; exact ⟨y1, y2⟩
  · rw [hf.tx0]; omega

theorem pi_next_pcrl_safe {s : opj_pi_iterator} (hs : pi_safe s) (hg : pi_geom s)
    (h : s.first = true ∨ (spatial_at s ∧ pi_step s = .ok (s.dx, s.dy))) :
    pi_next_pcrl s ≠ .error .bounds := by
  unfold pi_next_pcrl
  by_cases hfst : s.first = true
  · simp only [hfst, Bool.not_true, Bool.false_eq_true, if_false]
    cases hst : pi_step s with
    | error e =>
      dsimp only
      intro hcon
      simp only [Except.error.injEq] at hcon
      subst hcon
      exact pi_step_safe hs hst
    | ok d =>
      dsimp only
      have hsp := sp_safe_first hs hg (pi_step_nonneg (pi_geom_comps hg) hst)
      have hw : (pi_window { s with first := false, dx := d.1, dy := d.2 }).poc.ty0
          = (pi_window { s with first := false, dx := d.1, dy := d.2 }).ty0 := hsp.2.2.2.2.2.1
      refine pcrl_y_loop_safe
        (s := { pi_window { s with first := false, dx := d.1, dy := d.2 } with
          y := (pi_window { s with first := false, dx := d.1, dy := d.2 }).poc.ty0 })
        hsp ?_
      show (pi_window { s with first := false, dx := d.1, dy := d.2 }).ty0
        ≤ (pi_window { s with first := false, dx := d.1, dy := d.2 }).poc.ty0
      omega
  · obtain ⟨hat, hstep⟩ := h.resolve_left hfst
    have hf0 : s.first = false := by simpa using hfst
    simp only [hf0, Bool.not_false, if_true]
    obtain ⟨hsp, hpos⟩ := sp_safe_entry hs hg hat (pi_step_nonneg (pi_geom_comps hg) hstep)
    refine pi_then_safe (pcrl_skip_x_safe hsp hpos hat) (fun s1 _ => incr_y_safe s1) ?_
    intro s1 s2 h1 h2
    obtain ⟨hv1, hyn, _, hd⟩ := pcrl_skip_x h1
    have hs1 : sp_safe s1 := sp_safe_view hv1 (hd rfl) hsp
    obtain ⟨hv2, _, _, _, hi2, _, hmono⟩ := incr_y_ok h2
    have := hmono hs1.2.2.2.1
    have hs2 : sp_safe s2 := sp_safe_view hv2 hi2 hs1
    obtain ⟨_, hf, _, _, _, hpoc⟩ := view_s1_s2 (hv2.trans hv1)
    obtain ⟨x1, x2, y1, y2⟩ := hpos
    refine pcrl_y_loop_safe hs2 ?_
    rw [hf.ty0]; omega

/-! ## The frame of `pi_next` -/

/-- An iterator whose core is that of `s` is `s` with other values in the fields that
the engines write. -/
theorem pi_core_eq {s t : opj_pi_iterator} (h : pi_core t = pi_core s) :
    t = { s with
      layno := t.layno, resno := t.resno, compno := t.compno, precno := t.precno,
      x := t.x, y := t.y, first := t.first, dx := t.dx, dy := t.dy, incl := t.incl,
      poc := { s.poc with
        precno1 := t.poc.precno1, tx0 := t.poc.tx0, tx1 := t.poc.tx1,
        ty0 := t.poc.ty0, ty1 := t.poc.ty1 } } := by
  cases s with
  | mk a1 a2 a3 a4 a5 a6 a7 a8 a9 a10 a11 sp a13 a14 a15 a16 a17 a18 a19 a20 a21 a22 =>
  cases t with
  | mk b1 b2 b3 b4 b5 b6 b7 b8 b9 b10 b11 tp b13 b14 b15 b16 b17 b18 b19 b20 b21 b22 =>
  cases sp
  cases tp
  simp only [pi_core, opj_pi_iterator.mk.injEq, opj_poc.mk.injEq] at h
  simp only [opj_pi_iterator.mk.injEq, opj_poc.mk.injEq]
  tauto

/-- C35. Frame of `pi_next`: for every engine and every iterator state, a call of
`pi_next` that returns leaves unchanged the geometry of the slot (`numcomps` and the
component records with their `dx`, `dy`, `numresolutions` and resolution records), the
tile extents, the stride constants and the POC fields `layno0`, `layno1`, `resno0`,
`resno1`, `compno0`, `compno1`, `precno0` and `prg`; the state after the call is the
state before it with other values in the cursor (`layno`, `resno`, `compno`, `precno`,
`x`, `y`), `first`, the step (`dx`, `dy`), `poc.precno1`, the spatial window of the POC
and the bitmap, and the bitmap is unchanged or differs in one cell, which is set to 1. -/
theorem pi_next_frame (s t : opj_pi_iterator) (b : Bool) (h : pi_next s = .ok (b, t)) :
    (t.numcomps = s.numcomps ∧ t.comps = s.comps) ∧
    (t.tx0 = s.tx0 ∧ t.tx1 = s.tx1 ∧ t.ty0 = s.ty0 ∧ t.ty1 = s.ty1) ∧
    (t.step_p = s.step_p ∧ t.step_c = s.step_c ∧ t.step_r = s.step_r ∧
      t.step_l = s.step_l) ∧
    (t.poc.layno0 = s.poc.layno0 ∧ t.poc.layno1 = s.poc.layno1 ∧
      t.poc.resno0 = s.poc.resno0 ∧ t.poc.resno1 = s.poc.resno1 ∧
      t.poc.compno0 = s.poc.compno0 ∧ t.poc.compno1 = s.poc.compno1 ∧
      t.poc.precno0 = s.poc.precno0 ∧ t.poc.prg = s.poc.prg) ∧
    t = { s with
      layno := t.layno, resno := t.resno, compno := t.compno, precno := t.precno,
      x := t.x, y := t.y, first := t.first, dx := t.dx, dy := t.dy, incl := t.incl,
      poc := { s.poc with
        precno1 := t.poc.precno1, tx0 := t.poc.tx0, tx1 := t.poc.tx1,
        ty0 := t.poc.ty0, ty1 := t.poc.ty1 } } ∧
    (t.incl = s.incl ∨
      ∃ i : Nat, i < s.incl.length ∧ t.incl = s.incl.set i 1 ∧
        ∀ j : Nat, j ≠ i → t.incl[j]? = s.incl[j]?) := by
  obtain ⟨hc, he, hd⟩ := pi_next_spec h
  have hf := pi_core_frame hc
  refine ⟨⟨hf.numcomps, hf.comps⟩, ⟨hf.tx0, hf.tx1, hf.ty0, hf.ty1⟩,
    ⟨hf.step_p, hf.step_c, hf.step_r, hf.step_l⟩,
    ⟨hf.layno0, hf.layno1, hf.resno0, hf.resno1, hf.compno0, hf.compno1, hf.precno0,
      hf.prg⟩, pi_core_eq hc, ?_⟩
  cases b with
  | false => exact Or.inl (hd rfl)
  | true =>
    obtain ⟨h1, h2⟩ := he rfl
    obtain ⟨_, g2, _⟩ := arr_get_some h1
    refine Or.inr ⟨_, g2, h2, ?_⟩
    intro j hj
    rw [h2, List.getElem?_set_ne (Ne.symm hj)]

/-- Witness of `pi_next_frame`: the first call on the example iterator under RPCL,
which writes the step and the cursor and marks cell 0. -/
theorem pi_next_frame_witness :
    ∃ t, pi_next (ex_slot .RPCL) = .ok (true, t) ∧ t.comps = (ex_slot .RPCL).comps ∧
      t.step_l = (ex_slot .RPCL).step_l ∧ t.poc.resno1 = (ex_slot .RPCL).poc.resno1 :=
  ⟨_, rfl, (pi_next_frame (ex_slot .RPCL) _ true rfl).1.2,
    (pi_next_frame (ex_slot .RPCL) _ true rfl).2.2.1.2.2.2,
    (pi_next_frame (ex_slot .RPCL) _ true rfl).2.2.2.1.2.2.2.1⟩

/-! ## The resolution extents of the engines and of the builder -/

theorem pi_for_exit {cond : opj_pi_iterator → Bool} {body : opj_pi_iterator → pi_outcome}
    {incr : opj_pi_iterator → Except pi_fault opj_pi_iterator} (n : Nat)
    {s : opj_pi_iterator} (h : cond s = false) :
    pi_for cond body incr (n + 1) s = .ok (false, s) := by
  rw [pi_for, h]
  rfl

theorem pi_for_end {cond : opj_pi_iterator → Bool} {body : opj_pi_iterator → pi_outcome}
    {incr : opj_pi_iterator → Except pi_fault opj_pi_iterator}
    (I : opj_pi_iterator → Prop)
    (hdone : ∀ t t1 t2, I t → cond t = true → body t = .ok (false, t1) → incr t1 = .ok t2 →
      I t2)
    {n : Nat} {s t : opj_pi_iterator} (hI : I s)
    (h : pi_for cond body incr n s = .ok (false, t)) : I t ∧ cond t = false :=
  (pi_for_rule I (fun _ => True) hdone (fun _ _ _ _ _ => trivial) n s t false hI h).2 rfl

theorem lrcp_precno_loop_end {s t : opj_pi_iterator}
    (h : lrcp_precno_loop s = .ok (false, t)) : t.poc.precno1 ≤ t.precno := by
  unfold lrcp_precno_loop at h
  have := (pi_for_end (fun _ => True) (fun _ _ _ _ _ _ _ => trivial) trivial h).2
  simpa using this

theorem lrcp_compno_body_end {s t : opj_pi_iterator}
    (h : lrcp_compno_body s = .ok (false, t)) (hp : s.poc.precno1 ≤ s.precno) :
    t.poc.precno1 ≤ t.precno := by
  unfold lrcp_compno_body at h
  split at h
  · simp at h
  · split at h
    · simp only [Except.ok.injEq, Prod.mk.injEq, true_and] at h
      subst h
      exact hp
    · split at h
      · exact lrcp_precno_loop_end h
      · split at h
        · simp at h
        · exact lrcp_precno_loop_end h

theorem lrcp_compno_loop_end {s t : opj_pi_iterator}
    (h : lrcp_compno_loop s = .ok (false, t)) :
    (s.poc.precno1 ≤ s.precno → t.poc.precno1 ≤ t.precno) ∧ t.poc.compno1 ≤ t.compno := by
  unfold lrcp_compno_loop at h
  obtain ⟨h1, h2⟩ := pi_for_end
    (fun u => s.poc.precno1 ≤ s.precno → u.poc.precno1 ≤ u.precno)
    (by
      intro u u1 u2 hI _ hb hi hs
      simp only [incr_compno, Except.ok.injEq] at hi
      subst hi
      have e := lrcp_compno_body_end hb (hI hs)
      exact e)
    (fun hs => hs) h
  exact ⟨h1, by simpa using h2⟩

theorem lrcp_resno_loop_end {s t : opj_pi_iterator}
    (h : lrcp_resno_loop s = .ok (false, t)) :
    (s.poc.precno1 ≤ s.precno → t.poc.precno1 ≤ t.precno) ∧
    (s.poc.compno1 ≤ s.compno → t.poc.compno1 ≤ t.compno) ∧ t.poc.resno1 ≤ t.resno := by
  unfold lrcp_resno_loop at h
  obtain ⟨⟨h1, h2⟩, h3⟩ := pi_for_end
    (fun u => (s.poc.precno1 ≤ s.precno → u.poc.precno1 ≤ u.precno) ∧
      (s.poc.compno1 ≤ s.compno → u.poc.compno1 ≤ u.compno))
    (by
      intro u u1 u2 hI _ hb hi
      simp only [incr_resno, Except.ok.injEq] at hi
      subst hi
      obtain ⟨e1, e2⟩ := lrcp_compno_loop_end hb
      have f1 := fun hs => e1 (hI.1 hs)
      exact ⟨f1, fun _ => e2⟩)
    ⟨fun hs => hs, fun hs => hs⟩ h
  exact ⟨h1, h2, by simpa using h3⟩

theorem lrcp_layno_loop_end {s t : opj_pi_iterator}
    (h : lrcp_layno_loop s = .ok (false, t)) :
    (s.poc.precno1 ≤ s.precno → t.poc.precno1 ≤ t.precno) ∧
    (s.poc.compno1 ≤ s.compno → t.poc.compno1 ≤ t.compno) ∧
    (s.poc.resno1 ≤ s.resno → t.poc.resno1 ≤ t.resno) ∧ t.poc.layno1 ≤ t.layno := by
  unfold lrcp_layno_loop at h
  obtain ⟨⟨h1, h2, h3⟩, h4⟩ := pi_for_end
    (fun u => (s.poc.precno1 ≤ s.precno → u.poc.precno1 ≤ u.precno) ∧
      (s.poc.compno1 ≤ s.compno → u.poc.compno1 ≤ u.compno) ∧
      (s.poc.resno1 ≤ s.resno → u.poc.resno1 ≤ u.resno))
    (by
      intro u u1 u2 hI _ hb hi
      simp only [incr_layno, Except.ok.injEq] at hi
      subst hi
      obtain ⟨e1, e2, e3⟩ := lrcp_resno_loop_end hb
      have f1 := fun hs => e1 (hI.1 hs)
      have f2 := fun hs => e2 (hI.2.1 hs)
      exact ⟨f1, f2, fun _ => e3⟩)
    ⟨fun hs => hs, fun hs => hs, fun hs => hs⟩ h
  exact ⟨h1, h2, h3, by simpa using h4⟩

/-- A call of `pi_next_lrcp` entered with `first` clear that returns `OPJ_FALSE` leaves
every loop at its end. -/
theorem pi_next_lrcp_done {s u : opj_pi_iterator} (hf : s.first = false)
    (h : pi_next_lrcp s = .ok (false, u)) : lrcp_done u := by
  have hfirst := (pi_next_lrcp_spec h).2.1
  unfold pi_next_lrcp at h
  simp only [hf, Bool.not_false, if_true] at h
  cases hg : arr_get s.comps s.compno with
  | none => rw [hg] at h; simp at h
  | some comp =>
    rw [hg] at h
    dsimp only at h
    rcases pi_then_ok h with ⟨_, hb⟩ | ⟨a3, b3, h3, i3, k3⟩
    · simp at hb
    rcases pi_then_ok h3 with ⟨_, hb⟩ | ⟨a2, b2, h2, i2, k2⟩
    · simp at hb
    rcases pi_then_ok h2 with ⟨_, hb⟩ | ⟨a1, b1, h1, i1, k1⟩
    · simp at hb
    rcases pi_then_ok h1 with ⟨_, hb⟩ | ⟨a0, b0, h0, i0, k0⟩
    · simp at hb
    simp only [incr_precno, Except.ok.injEq] at i0
    simp only [incr_compno, Except.ok.injEq] at i1
    simp only [incr_resno, Except.ok.injEq] at i2
    simp only [incr_layno, Except.ok.injEq] at i3
    subst i0 i1 i2 i3
    have p1 := lrcp_precno_loop_end k0
    obtain ⟨c1, c2⟩ := lrcp_compno_loop_end k1
    obtain ⟨r1, r2, r3⟩ := lrcp_resno_loop_end k2
    obtain ⟨l1, l2, l3, l4⟩ := lrcp_layno_loop_end k3
    exact ⟨hfirst, l1 (r1 (c1 p1)), l2 (r2 c2), l3 r3, l4⟩

/-- On an iterator whose loops are all at their end, `pi_next_lrcp` reads
`comps[compno]`, steps every cursor and returns `OPJ_FALSE`. -/
theorem pi_next_lrcp_again {u : opj_pi_iterator} {comp : opj_pi_comp} (hd : lrcp_done u)
    (hg : arr_get u.comps u.compno = some comp) :
    pi_next_lrcp u = .ok (false, lrcp_shift 1 u) := by
  obtain ⟨d0, d1, d2, d3, d4⟩ := hd
  unfold pi_next_lrcp
  simp only [d0, Bool.not_false, if_true]
  rw [hg]
  dsimp only
  have e1 : pi_then (.ok (false, u)) incr_precno lrcp_precno_loop
      = .ok (false, { u with precno := u.precno + 1 }) := by
    simp only [pi_then, incr_precno]
    unfold lrcp_precno_loop pi_span
    exact pi_for_exit _ (by simp; omega)
  rw [e1]
  have e2 : pi_then (.ok (false, { u with precno := u.precno + 1 })) incr_compno
      lrcp_compno_loop
      = .ok (false, { u with precno := u.precno + 1, compno := u.compno + 1 }) := by
    simp only [pi_then, incr_compno]
    unfold lrcp_compno_loop pi_span
    exact pi_for_exit _ (by simp; omega)
  rw [e2]
  have e3 : pi_then (.ok (false, { u with precno := u.precno + 1, compno := u.compno + 1 }))
      incr_resno lrcp_resno_loop
      = .ok (false, { u with precno := u.precno + 1, compno := u.compno + 1,
                             resno := u.resno + 1 }) := by
    simp only [pi_then, incr_resno]
    unfold lrcp_resno_loop pi_span
    exact pi_for_exit _ (by simp; omega)
  rw [e3]
  simp only [pi_then, incr_layno]
  unfold lrcp_layno_loop pi_span
  exact pi_for_exit _ (by simp; omega)

theorem lrcp_shift_done {u : opj_pi_iterator} (hd : lrcp_done u) :
    lrcp_done (lrcp_shift 1 u) := by
  obtain ⟨d0, d1, d2, d3, d4⟩ := hd
  refine ⟨d0, ?_, ?_, ?_, ?_⟩
  · show u.poc.precno1 ≤ u.precno + 1
    omega
  · show u.poc.compno1 ≤ u.compno + 1
    omega
  · show u.poc.resno1 ≤ u.resno + 1
    omega
  · show u.poc.layno1 ≤ u.layno + 1
    omega

theorem lrcp_shift_add (a b : Int) (u : opj_pi_iterator) :
    lrcp_shift a (lrcp_shift b u) = lrcp_shift (b + a) u := by
  simp only [lrcp_shift, add_assoc]

/-- The calls of `pi_next` on an LRCP iterator whose loops are all at their end: while
`compno` is inside the component array the call steps the cursors and returns
`OPJ_FALSE`; from the call on that finds it outside, the read of `comps[compno]` is out
of bounds. -/
theorem pi_next_calls_done (n : Nat) :
    ∀ u : opj_pi_iterator, lrcp_done u → u.poc.prg = .LRCP →
      ((0 ≤ u.compno ∧ u.compno + n < u.comps.length) →
        pi_next_calls n u = .ok (false, lrcp_shift (n + 1) u)) ∧
      ((u.compno < 0 ∨ (u.comps.length : Int) ≤ u.compno + n) →
        pi_next_calls n u = .error .bounds) := by
  induction n with
  | zero =>
    intro u hd hprg
    have hn : pi_next u = pi_next_lrcp u := by unfold pi_next; rw [hprg]
    constructor
    · intro hr
      obtain ⟨comp, k1, _⟩ := arr_get_lt (a := u.comps) (i := u.compno) hr.1 (by omega)
      show pi_next u = _
      rw [hn, pi_next_lrcp_again hd k1]
      simp
    · intro hr
      show pi_next u = _
      rw [hn]
      unfold pi_next_lrcp
      simp only [hd.1, Bool.not_false, if_true]
      have hg : arr_get u.comps u.compno = none := by
        unfold arr_get
        split
        · exact List.getElem?_eq_none (by omega)
        · rfl
      rw [hg]
  | succ k ih =>
    intro u hd hprg
    have hn : pi_next u = pi_next_lrcp u := by unfold pi_next; rw [hprg]
    cases hg : arr_get u.comps u.compno with
    | none =>
      have herr : pi_next u = .error .bounds := by
        rw [hn]
        unfold pi_next_lrcp
        simp only [hd.1, Bool.not_false, if_true]
        rw [hg]
      constructor
      · intro hr
        obtain ⟨comp, k1, _⟩ := arr_get_lt (a := u.comps) (i := u.compno) hr.1 (by omega)
        rw [hg] at k1
        simp at k1
      · intro _
        rw [pi_next_calls, herr]
    | some comp =>
      obtain ⟨g0, g1, _⟩ := arr_get_some hg
      have hok : pi_next u = .ok (false, lrcp_shift 1 u) := by
        rw [hn]; exact pi_next_lrcp_again hd hg
      obtain ⟨i1, i2⟩ := ih (lrcp_shift 1 u) (lrcp_shift_done hd) hprg
      constructor
      · intro hr
        rw [pi_next_calls, hok]
        dsimp only
        have hr1 : 0 ≤ (lrcp_shift 1 u).compno ∧
            (lrcp_shift 1 u).compno + k < (lrcp_shift 1 u).comps.length := by
          constructor
          · show 0 ≤ u.compno + 1
            omega
          · show u.compno + 1 + k < u.comps.length
            have := hr.2
            push_cast at this
            omega
        rw [i1 hr1, lrcp_shift_add]
        congr 3
        push_cast
        ring
      · intro hr
        rw [pi_next_calls, hok]
        dsimp only
        apply i2
        right
        show (u.comps.length : Int) ≤ u.compno + 1 + k
        rcases hr with hr | hr
        · omega
        · push_cast at hr
          omega

/-- C33, counterexample.  The slot that `pi_create_decode_v2` builds for the POC of
`ex_cp_empty`, whose resolution range `[0, 0)` is empty: the first call of `pi_next`
returns false, and the second call re-enters the loops after the increment of `precno`
and returns true at `layno = layno1 = 1`, marking cell 5.  And on the slot of the
example tile without POC, the call after the one that returned false reads
`comps[2]` of two components: it does not return false. -/
theorem pi_next_lrcp_not_sticky :
    (∃ s u v, pi_create_decode_v2 ex_image_one ex_cp_empty 0 = .ok [s] ∧
      s.poc.prg = .LRCP ∧
      pi_next s = .ok (false, u) ∧ pi_next u = .ok (true, v) ∧
      v.layno = 1 ∧ v.poc.layno1 = 1 ∧ v.precno = 1 ∧
      u.incl = [0, 0, 0, 0, 0, 0, 0, 0] ∧ v.incl = [0, 0, 0, 0, 0, 1, 0, 0]) ∧
    (∃ u, pi_create_decode_v2 ex_image (ex_cp .LRCP) 0 = .ok [ex_slot .LRCP] ∧
      pi_next_nth 12 (ex_slot .LRCP) = .ok (false, u) ∧
      pi_next u = .error .bounds) :=
  ⟨⟨_, _, _, rfl, rfl, rfl, rfl, rfl, rfl, rfl, rfl, rfl⟩, ⟨_, rfl, rfl, rfl⟩⟩

/-- C33, amended.  On an LRCP iterator, once `pi_next` has returned false in a call that
was entered with `first` clear (any call but the first on a slot), call number `n` after
it returns false, leaves the bitmap as it is and has stepped `layno`, `resno`, `compno`
and `precno` by `n + 1` in all, as long as `compno` is inside the component array when
the call is entered; the first later call that finds `compno` outside the array, and
every call after it, reads `comps[compno]` out of bounds. -/
theorem pi_next_lrcp_sticky (s u : opj_pi_iterator) (n : Nat) (hprg : s.poc.prg = .LRCP)
    (hfirst : s.first = false) (h : pi_next s = .ok (false, u)) :
    ((0 ≤ u.compno ∧ u.compno + n < u.comps.length) →
      pi_next_calls n u = .ok (false, lrcp_shift (n + 1) u) ∧
      (lrcp_shift (n + 1) u).incl = u.incl) ∧
    ((u.compno < 0 ∨ (u.comps.length : Int) ≤ u.compno + n) →
      pi_next_calls n u = .error .bounds) := by
  have hprg1 : u.poc.prg = .LRCP := ((pi_core_frame (pi_next_spec h).1).prg).trans hprg
  have hn : pi_next s = pi_next_lrcp s := by unfold pi_next; rw [hprg]
  rw [hn] at h
  obtain ⟨i1, i2⟩ := pi_next_calls_done n u (pi_next_lrcp_done hfirst h) hprg1
  exact ⟨fun hr => ⟨i1 hr, rfl⟩, i2⟩

/-- Witness of `pi_next_lrcp_sticky`: an iterator over component 0 of two components
whose cells are all marked; the call returns false with `compno = 1`, and so does the
call after it. -/
theorem pi_next_lrcp_sticky_witness :
    ∃ u, pi_next ex_slot_last = .ok (false, u) ∧
      pi_next_calls 0 u = .ok (false, lrcp_shift 1 u) ∧ (lrcp_shift 1 u).incl = u.incl :=
  ⟨_, rfl, ((pi_next_lrcp_sticky ex_slot_last _ 0 rfl rfl rfl).1
    ⟨by decide, by decide⟩)⟩

/-! ## The window of a tile-part axis that is held -/

/-- C34, failing input.  For the axes `C`, `R`, `L` and the precinct index, an axis
narrowed by `pi_create_encode` always gets the window `[t - 1, t)` below its new tail
cursor `t`, and a held axis (`tpnum > 0`, `incr_top = 0`) gets `[t - 1, t)` for the
unchanged cursor: the window it had.  The spatial axis does not: on the tile
`[1, 3) x [0, 1)` of `ex_image_held` with step `dx = 2`, under RPCL with `tppos = 2`,
tile-part 0 gets the window `[1, 2)` in `x`, in which `pi_next` finds no packet; in
tile-part 1 the component axis advances to `[1, 2)`, the resolution axis and the window
in `y` are held as they were, and the held window in `x` is `[0, 2)`, which starts left
of the tile, so that `pi_next` reports a packet at `x = 0` with `precno = -1`. -/
theorem pi_create_encode_held_window_moves :
    (∀ S E t i tppos tpnum top : Int, i ≤ tppos →
      (pi_tp_axis S E t i tppos tpnum top).1 = (pi_tp_axis S E t i tppos tpnum top).2.2.1 - 1 ∧
      (pi_tp_axis S E t i tppos tpnum top).2.1 = (pi_tp_axis S E t i tppos tpnum top).2.2.1 ∧
      (tpnum ≠ 0 → top ≠ 1 → pi_tp_axis S E t i tppos tpnum top = (t - 1, t, t, top))) ∧
    (∃ l cp l0 cp0 l1 cp1 s0 s1 u t,
      pi_encode_setup ex_image_held ex_cp_held 0 = .ok (l, cp) ∧
      pi_create_encode l cp 0 0 0 2 .FINAL_PASS 4 = .ok (false, l0, cp0) ∧
      pi_create_encode l0 cp0 0 0 1 2 .FINAL_PASS 4 = .ok (false, l1, cp1) ∧
      l0[0]? = some s0 ∧ l1[0]? = some s1 ∧
      (s0.tx0, s0.tx1, s0.ty0, s0.ty1) = (1, 3, 0, 1) ∧
      (s0.poc.resno0, s0.poc.resno1) = (0, 1) ∧ (s0.poc.compno0, s0.poc.compno1) = (0, 1) ∧
      (s0.poc.tx0, s0.poc.tx1) = (1, 2) ∧ (s0.poc.ty0, s0.poc.ty1) = (0, 1) ∧
      (s1.poc.resno0, s1.poc.resno1) = (0, 1) ∧ (s1.poc.compno0, s1.poc.compno1) = (1, 2) ∧
      (s1.poc.tx0, s1.poc.tx1) = (0, 2) ∧ (s1.poc.ty0, s1.poc.ty1) = (0, 1) ∧
      pi_next s0 = .ok (false, u) ∧
      pi_next s1 = .ok (true, t) ∧ t.x = 0 ∧ t.compno = 1 ∧ t.resno = 0 ∧ t.precno = -1) := by
  constructor
  · intro S E t i tppos tpnum top hi
    unfold pi_tp_axis
    rw [if_neg (by omega)]
    refine ⟨?_, ?_, ?_⟩
    · split
      · simp
      · split
        · split <;> simp
        · simp
    · split
      · simp
      · split
        · split <;> simp
        · simp
    · intro h0 h1
      rw [if_neg h0, if_neg h1]
  · exact ⟨_, _, _, _, _, _, _, _, _, _, rfl, rfl, rfl, rfl, rfl, rfl, rfl, rfl, rfl, rfl, rfl,
      rfl, rfl, rfl, rfl, rfl, rfl, rfl, rfl, rfl⟩

/-! ## The two decode constructors -/

theorem pi_precinct_exps_prt {tccp : opj_tccp} (h : tccp.csty &&& J2K_CCP_CSTY_PRT ≠ 0)
    (r : Nat) (p : Int × Int) :
    pi_precinct_exps tccp r = .ok p ↔ (tccp.prcw[r]? = some p.1 ∧ tccp.prch[r]? = some p.2) := by
  unfold pi_precinct_exps
  rw [if_pos h]
  cases hx : tccp.prcw[r]? with
  | none => simp
  | some pdx =>
    cases hy : tccp.prch[r]? with
    | none => simp
    | some pdy =>
      obtain ⟨p1, p2⟩ := p
      simp

theorem res_iter_sim {ic : opj_image_comp} {tccp : opj_tccp} {tcx0 tcy0 tcx1 tcy1 : Int}
    (hprt : tccp.csty &&& J2K_CCP_CSTY_PRT ≠ 0) (A : opj_enc_params) (k : Nat)
    (a : Int × List opj_pi_resolution) (b : opj_enc_params × List opj_pi_resolution)
    (hR : res_loops_agree A a b) :
    (∀ a1, pi_res_iter tccp tcx0 tcy0 tcx1 tcy1 k a = .ok a1 →
      ∃ b1, enc_res_iter ic tccp tcx0 tcy0 tcx1 tcy1 k b = .ok b1 ∧ res_loops_agree A a1 b1) ∧
    (∀ b1, enc_res_iter ic tccp tcx0 tcy0 tcx1 tcy1 k b = .ok b1 →
      ∃ a1, pi_res_iter tccp tcx0 tcy0 tcx1 tcy1 k a = .ok a1 ∧ res_loops_agree A a1 b1) := by
  obtain ⟨r1, r2, r3, r4, r5, r6, r7, r8⟩ := hR
  constructor
  · intro a1 ha
    unfold pi_res_iter at ha
    cases he : pi_precinct_exps tccp k with
    | error e => rw [he] at ha; simp at ha
    | ok pd =>
      obtain ⟨pdx, pdy⟩ := pd
      rw [he] at ha
      simp only [Except.ok.injEq] at ha
      subst ha
      obtain ⟨hx, hy⟩ := (pi_precinct_exps_prt hprt k (pdx, pdy)).mp he
      unfold enc_res_iter
      rw [hx, hy]
      refine ⟨_, rfl, ?_, ?_, r3, r4, r5, r6, r7, r8⟩
      · show (if _ then _ else _) = (if _ then _ else _)
        rw [r1]
      · show b.2 ++ _ = a.2 ++ _
        rw [r2]
  · intro b1 hb
    unfold enc_res_iter at hb
    cases hx : tccp.prcw[k]? with
    | none => rw [hx] at hb; simp at hb
    | some pdx =>
      cases hy : tccp.prch[k]? with
      | none => rw [hx, hy] at hb; simp at hb
      | some pdy =>
        rw [hx, hy] at hb
        simp only [Except.ok.injEq] at hb
        subst hb
        have he := (pi_precinct_exps_prt hprt k (pdx, pdy)).mpr ⟨hx, hy⟩
        unfold pi_res_iter
        rw [he]
        refine ⟨_, rfl, ?_, ?_, r3, r4, r5, r6, r7, r8⟩
        · show (if _ then _ else _) = (if _ then _ else _)
          rw [r1]
        · show b.2 ++ _ = a.2 ++ _
          rw [r2]

theorem res_loop_sim {ic : opj_image_comp} {tccp : opj_tccp} {tcx0 tcy0 tcx1 tcy1 : Int}
    (hprt : tccp.csty &&& J2K_CCP_CSTY_PRT ≠ 0) (A : opj_enc_params) (n : Nat)
    (a : Int × List opj_pi_resolution) (b : opj_enc_params × List opj_pi_resolution)
    (hR : res_loops_agree A a b) :
    (∀ a1, opj_for (pi_res_iter tccp tcx0 tcy0 tcx1 tcy1) n 0 a = .ok a1 →
      ∃ b1, opj_for (enc_res_iter ic tccp tcx0 tcy0 tcx1 tcy1) n 0 b = .ok b1 ∧
        res_loops_agree A a1 b1) ∧
    (∀ b1, opj_for (enc_res_iter ic tccp tcx0 tcy0 tcx1 tcy1) n 0 b = .ok b1 →
      ∃ a1, opj_for (pi_res_iter tccp tcx0 tcy0 tcx1 tcy1) n 0 a = .ok a1 ∧
        res_loops_agree A a1 b1) := by
  constructor
  · intro a1 ha
    exact opj_for_sim n (fun _ x y => res_loops_agree A x y)
      (fun k x y x1 _ hxy hk => (res_iter_sim hprt A k x y hxy).1 x1 hk)
      n 0 a b a1 (by omega) hR ha
  · intro b1 hb
    exact opj_for_sim n (fun _ y x => res_loops_agree A x y)
      (fun k y x y1 _ hxy hk => (res_iter_sim hprt A k x y hxy).2 y1 hk)
      n 0 b a b1 (by omega) hR hb

theorem comp_iter_sim {image : opj_image} {tcp : opj_tcp} {X0 Y0 X1 Y1 : Int} (k : Nat)
    (hprt : ∀ tccp, tcp.tccps[k]? = some tccp → tccp.csty &&& J2K_CCP_CSTY_PRT ≠ 0)
    (a : Int × Int × List opj_pi_comp) (e : opj_enc_params)
    (hR : comp_loops_agree X0 Y0 X1 Y1 a e) :
    (∀ a1, pi_comp_iter image tcp X0 Y0 X1 Y1 k a = .ok a1 →
      ∃ e1, enc_comp_iter image tcp k e = .ok e1 ∧ comp_loops_agree X0 Y0 X1 Y1 a1 e1) ∧
    (∀ e1, enc_comp_iter image tcp k e = .ok e1 →
      ∃ a1, pi_comp_iter image tcp X0 Y0 X1 Y1 k a = .ok a1 ∧
        comp_loops_agree X0 Y0 X1 Y1 a1 e1) := by
  obtain ⟨r1, r2, r3, r4, r5, r6, r7⟩ := hR
  subst r4 r5 r6 r7
  unfold pi_comp_iter enc_comp_iter
  cases hic : image.comps[k]? with
  | none => simp
  | some ic =>
    cases htc : tcp.tccps[k]? with
    | none => simp
    | some tccp =>
      dsimp only
      by_cases hz : ic.dx = 0 ∨ ic.dy = 0
      · rw [if_pos hz, if_pos hz]; simp
      · rw [if_neg hz, if_neg hz]
        have hinit : res_loops_agree
            (if tccp.numresolutions > e.p_max_res
              then { e with p_max_res := tccp.numresolutions } else e)
            (a.2.1, [])
            (if tccp.numresolutions > e.p_max_res
              then { e with p_max_res := tccp.numresolutions } else e, []) := by
          refine ⟨?_, rfl, rfl, rfl, rfl, rfl, rfl, rfl⟩
          show (if _ then _ else _ : opj_enc_params).p_max_prec = a.2.1
          split <;> exact r2
        have hsim := @res_loop_sim ic tccp (int_ceildiv e.p_tx0 ic.dx)
          (int_ceildiv e.p_ty0 ic.dy) (int_ceildiv e.p_tx1 ic.dx)
          (int_ceildiv e.p_ty1 ic.dy) (hprt tccp htc) _ tccp.numresolutions.toNat _ _ hinit
        obtain ⟨s1, s2⟩ := hsim
        have hmr : (if tccp.numresolutions > e.p_max_res
              then { e with p_max_res := tccp.numresolutions } else e).p_max_res
            = if tccp.numresolutions > a.1 then tccp.numresolutions else a.1 := by
          by_cases hc : tccp.numresolutions > e.p_max_res
          · rw [if_pos hc, if_pos (r1 ▸ hc)]
          · rw [if_neg hc, if_neg (r1 ▸ hc)]
            exact r1
        have hrs : (if tccp.numresolutions > e.p_max_res
              then { e with p_max_res := tccp.numresolutions } else e).p_resolutions
            = e.p_resolutions := by
          split <;> rfl
        have hx0 : (if tccp.numresolutions > e.p_max_res
              then { e with p_max_res := tccp.numresolutions } else e).p_tx0 = e.p_tx0 := by
          split <;> rfl
        have hy0 : (if tccp.numresolutions > e.p_max_res
              then { e with p_max_res := tccp.numresolutions } else e).p_ty0 = e.p_ty0 := by
          split <;> rfl
        have hx1 : (if tccp.numresolutions > e.p_max_res
              then { e with p_max_res := tccp.numresolutions } else e).p_tx1 = e.p_tx1 := by
          split <;> rfl
        have hy1 : (if tccp.numresolutions > e.p_max_res
              then { e with p_max_res := tccp.numresolutions } else e).p_ty1 = e.p_ty1 := by
          split <;> rfl
        constructor
        · intro a1 ha
          cases hl : opj_for (pi_res_iter tccp (int_ceildiv e.p_tx0 ic.dx) (int_ceildiv e.p_ty0 ic.dy)
              (int_ceildiv e.p_tx1 ic.dx) (int_ceildiv e.p_ty1 ic.dy)) tccp.numresolutions.toNat 0
              (a.2.1, []) with
          | error err => rw [hl] at ha; simp at ha
          | ok p =>
            obtain ⟨mp, row⟩ := p
            rw [hl] at ha
            simp only [Except.ok.injEq] at ha
            subst ha
            obtain ⟨b1, g1, q1, q2, q3, q4, q5, q6, q7, q8⟩ := s1 _ hl
            obtain ⟨b11, b12⟩ := b1
            rw [g1]
            refine ⟨_, rfl, ?_, q1, ?_, ?_, ?_, ?_, ?_⟩
            · exact q3.trans hmr
            · show b11.p_resolutions ++ [b12] = _
              rw [List.map_append, q4, hrs, r3]
              simp only [List.map_cons, List.map_nil]
              have : b12 = row := q2
              rw [this]
            · exact q5.trans hx0
            · exact q6.trans hy0
            · exact q7.trans hx1
            · exact q8.trans hy1
        · intro e1 he
          cases hl : opj_for (enc_res_iter ic tccp (int_ceildiv e.p_tx0 ic.dx) (int_ceildiv e.p_ty0 ic.dy)
              (int_ceildiv e.p_tx1 ic.dx) (int_ceildiv e.p_ty1 ic.dy)) tccp.numresolutions.toNat 0
              (if tccp.numresolutions > e.p_max_res
                then { e with p_max_res := tccp.numresolutions } else e, []) with
          | error err => rw [hl] at he; simp at he
          | ok p =>
            obtain ⟨b11, b12⟩ := p
            rw [hl] at he
            simp only [Except.ok.injEq] at he
            subst he
            obtain ⟨a1, g1, q1, q2, q3, q4, q5, q6, q7, q8⟩ := s2 _ hl
            obtain ⟨mp, row⟩ := a1
            rw [g1]
            refine ⟨_, rfl, ?_, q1, ?_, ?_, ?_, ?_, ?_⟩
            · exact q3.trans hmr
            · show b11.p_resolutions ++ [b12] = _
              rw [List.map_append, q4, hrs, r3]
              simp only [List.map_cons, List.map_nil]
              have : b12 = row := q2
              rw [this]
            · exact q5.trans hx0
            · exact q6.trans hy0
            · exact q7.trans hx1
            · exact q8.trans hy1

theorem comp_loop_sim {image : opj_image} {tcp : opj_tcp} {X0 Y0 X1 Y1 : Int} (n : Nat)
    (hprt : ∀ (c : Nat) (tccp : opj_tccp), c < n → tcp.tccps[c]? = some tccp →
      tccp.csty &&& J2K_CCP_CSTY_PRT ≠ 0)
    (a : Int × Int × List opj_pi_comp) (e : opj_enc_params)
    (hR : comp_loops_agree X0 Y0 X1 Y1 a e) :
    (∀ a1, opj_for (pi_comp_iter image tcp X0 Y0 X1 Y1) n 0 a = .ok a1 →
      ∃ e1, opj_for (enc_comp_iter image tcp) n 0 e = .ok e1 ∧
        comp_loops_agree X0 Y0 X1 Y1 a1 e1) ∧
    (∀ e1, opj_for (enc_comp_iter image tcp) n 0 e = .ok e1 →
      ∃ a1, opj_for (pi_comp_iter image tcp X0 Y0 X1 Y1) n 0 a = .ok a1 ∧
        comp_loops_agree X0 Y0 X1 Y1 a1 e1) := by
  constructor
  · intro a1 ha
    exact opj_for_sim n (fun _ x y => comp_loops_agree X0 Y0 X1 Y1 x y)
      (fun k x y x1 hk hxy hs =>
        (comp_iter_sim k (fun tccp h => hprt k tccp hk h) x y hxy).1 x1 hs)
      n 0 a e a1 (by omega) hR ha
  · intro e1 he
    exact opj_for_sim n (fun _ y x => comp_loops_agree X0 Y0 X1 Y1 x y)
      (fun k y x y1 hk hxy hs =>
        (comp_iter_sim k (fun tccp h => hprt k tccp hk h) x y hxy).2 y1 hs)
      n 0 e a e1 (by omega) hR he

/-- A counted loop whose every step returns on a state that satisfies the invariant
returns, and the invariant holds of its result. -/
theorem opj_for_total {σ : Type} {f : Nat → σ → Except pi_fault σ} (N : Nat)
    (P : Nat → σ → Prop)
    (hstep : ∀ k s, k < N → P k s → ∃ s1, f k s = .ok s1 ∧ P (k + 1) s1) :
    ∀ (n i : Nat) (s : σ), i + n ≤ N → P i s →
      ∃ r, opj_for f n i s = .ok r ∧ P (i + n) r := by
  intro n
  induction n with
  | zero =>
    intro i s _ hP
    exact ⟨s, rfl, hP⟩
  | succ k ih =>
    intro i s hb hP
    obtain ⟨s1, g1, g2⟩ := hstep i s (by omega) hP
    obtain ⟨r, g3, g4⟩ := ih (i + 1) s1 (by omega) g2
    refine ⟨r, ?_, ?_⟩
    · rw [opj_for, g1]
      exact g3
    · have e : i + (k + 1) = i + 1 + k := by omega
      rw [e]; exact g4

/-- Every step of a counted loop that returned has returned on some state. -/
theorem opj_for_steps {σ : Type} {f : Nat → σ → Except pi_fault σ} :
    ∀ (n i : Nat) (s r : σ), opj_for f n i s = .ok r →
      ∀ k, i ≤ k → k < i + n → ∃ a b, f k a = .ok b := by
  intro n
  induction n with
  | zero => intro i s r _ k h1 h2; omega
  | succ m ih =>
    intro i s r h k h1 h2
    rw [opj_for] at h
    cases hf : f i s with
    | error e => rw [hf] at h; simp at h
    | ok s1 =>
      rw [hf] at h
      dsimp only at h
      by_cases hk : k = i
      · subst hk
        exact ⟨s, s1, hf⟩
      · exact ih (i + 1) s1 r h k (by omega) (by omega)

theorem decode_poc_some {tcp : opj_tcp} {e : opj_enc_params} {numcomps : Int} {k : Nat} :
    (∃ poc, decode_poc tcp e numcomps k = some poc) ↔
      (tcp.POC = true → ∃ p, tcp.pocs[k]? = some p) := by
  unfold decode_poc
  cases hP : tcp.POC with
  | false => simp
  | true =>
    cases hp : tcp.pocs[k]? with
    | none => simp
    | some p => simp

/-- What a returning iteration of the loop over `pino` of `pi_create_decode` has
passed: the tile grid has columns, the POC segment of the slot exists when the tile has
POC segments, and the loop over `compno` returned on the extents of slot 0. -/
theorem pi_create_decode_slot_inv {image : opj_image} {cp : opj_cp} {tcp : opj_tcp}
    {tileno : Int} {k : Nat} {l l1 : List opj_pi_iterator}
    (h : pi_create_decode_slot image cp tcp tileno k l = .ok l1) :
    cp.tw ≠ 0 ∧ (tcp.POC = true → ∃ p, tcp.pocs[k]? = some p) ∧
    (k = 0 → ∃ a, opj_for (pi_comp_iter image tcp
        (int_max (cp.tx0 + Int.tmod tileno cp.tw * cp.tdx) image.x0)
        (int_max (cp.ty0 + Int.tdiv tileno cp.tw * cp.tdy) image.y0)
        (int_min (cp.tx0 + (Int.tmod tileno cp.tw + 1) * cp.tdx) image.x1)
        (int_min (cp.ty0 + (Int.tdiv tileno cp.tw + 1) * cp.tdy) image.y1))
        image.numcomps.toNat 0 (0, 0, []) = .ok a) := by
  unfold pi_create_decode_slot at h
  cases hs : l[k]? with
  | none => rw [hs] at h; simp at h
  | some s =>
    rw [hs] at h
    dsimp only at h
    have hk := getElem?_lt hs
    by_cases hw : cp.tw = 0
    · rw [if_pos hw] at h; simp at h
    · rw [if_neg hw] at h
      refine ⟨hw, ?_, ?_⟩
      · intro hP
        split at h
        · simp at h
        · split at h
          · simp at h
          · split at h
            · simp at h
            · rw [if_neg (by rw [hP]; decide)] at h
              cases hp : tcp.pocs[k]? with
              | none => rw [hp] at h; simp at h
              | some p => exact ⟨p, rfl⟩
      · intro hk0
        subst hk0
        rw [List.getElem?_set_self hk] at h
        dsimp only at h
        split at h
        · simp at h
        · rename_i a hloop
          exact ⟨_, hloop⟩

/-- One iteration of the loop over `pino` of `pi_create_decode` on a zeroed slot, when
what it reads is there: it returns, and the slot it writes is, apart from the bitmap,
the slot of `pi_create_decode_v2`. -/
theorem pi_create_decode_slot_total {image : opj_image} {cp : opj_cp} {tcp : opj_tcp}
    {tileno : Int} {k : Nat} {l : List opj_pi_iterator}
    {a : Int × Int × List opj_pi_comp} {e : opj_enc_params} {poc : opj_poc}
    (hw : cp.tw ≠ 0)
    (hG : opj_for (pi_comp_iter image tcp
        (int_max (cp.tx0 + Int.tmod tileno cp.tw * cp.tdx) image.x0)
        (int_max (cp.ty0 + Int.tdiv tileno cp.tw * cp.tdy) image.y0)
        (int_min (cp.tx0 + (Int.tmod tileno cp.tw + 1) * cp.tdx) image.x1)
        (int_min (cp.ty0 + (Int.tdiv tileno cp.tw + 1) * cp.tdy) image.y1))
        image.numcomps.toNat 0 (0, 0, []) = .ok a)
    (hR : comp_loops_agree
        (int_max (cp.tx0 + Int.tmod tileno cp.tw * cp.tdx) image.x0)
        (int_max (cp.ty0 + Int.tdiv tileno cp.tw * cp.tdy) image.y0)
        (int_min (cp.tx0 + (Int.tmod tileno cp.tw + 1) * cp.tdx) image.x1)
        (int_min (cp.ty0 + (Int.tdiv tileno cp.tw + 1) * cp.tdy) image.y1) a e)
    (hpoc : decode_poc tcp e image.numcomps k = some poc)
    (hk : l[k]? = some pi_zero)
    (h0 : k ≠ 0 → ∃ s0, l[0]? = some s0 ∧
      s0.tx0 = int_max (cp.tx0 + Int.tmod tileno cp.tw * cp.tdx) image.x0 ∧
      s0.ty0 = int_max (cp.ty0 + Int.tdiv tileno cp.tw * cp.tdy) image.y0 ∧
      s0.tx1 = int_min (cp.tx0 + (Int.tmod tileno cp.tw + 1) * cp.tdx) image.x1 ∧
      s0.ty1 = int_min (cp.ty0 + (Int.tdiv tileno cp.tw + 1) * cp.tdy) image.y1 ∧
      s0.numcomps = image.numcomps) :
    ∃ s1, pi_create_decode_slot image cp tcp tileno k l = .ok (l.set k s1) ∧
      slot_view s1 = slot_view (decode_slot image tcp e a.2.2 poc) := by
  obtain ⟨a1, a2, a3⟩ := a
  obtain ⟨r1, r2, r3, r4, r5, r6, r7⟩ := hR
  have hklt := getElem?_lt hk
  unfold pi_create_decode_slot
  rw [hk]
  dsimp only
  rw [if_neg hw]
  have hs0 : ∃ s0, (l.set k { pi_zero with
        tx0 := int_max (cp.tx0 + Int.tmod tileno cp.tw * cp.tdx) image.x0,
        ty0 := int_max (cp.ty0 + Int.tdiv tileno cp.tw * cp.tdy) image.y0,
        tx1 := int_min (cp.tx0 + (Int.tmod tileno cp.tw + 1) * cp.tdx) image.x1,
        ty1 := int_min (cp.ty0 + (Int.tdiv tileno cp.tw + 1) * cp.tdy) image.y1,
        numcomps := image.numcomps })[0]? = some s0 ∧
      s0.tx0 = int_max (cp.tx0 + Int.tmod tileno cp.tw * cp.tdx) image.x0 ∧
      s0.ty0 = int_max (cp.ty0 + Int.tdiv tileno cp.tw * cp.tdy) image.y0 ∧
      s0.tx1 = int_min (cp.tx0 + (Int.tmod tileno cp.tw + 1) * cp.tdx) image.x1 ∧
      s0.ty1 = int_min (cp.ty0 + (Int.tdiv tileno cp.tw + 1) * cp.tdy) image.y1 ∧
      s0.numcomps = image.numcomps := by
    by_cases hk0 : k = 0
    · subst hk0
      exact ⟨_, List.getElem?_set_self hklt, rfl, rfl, rfl, rfl, rfl⟩
    · obtain ⟨s0, e0, e1, e2, e3, e4, e5⟩ := h0 hk0
      refine ⟨s0, ?_, e1, e2, e3, e4, e5⟩
      rw [List.getElem?_set_ne hk0]
      exact e0
  obtain ⟨s0, e0, e1, e2, e3, e4, e5⟩ := hs0
  have e0' : (l.set k { pi_zero with
        tx0 := int_max (cp.tx0 + Int.tmod tileno cp.tw * cp.tdx) image.x0,
        ty0 := int_max (cp.ty0 + Int.tdiv tileno cp.tw * cp.tdy) image.y0,
        tx1 := int_min (cp.tx0 + (Int.tmod tileno cp.tw + 1) * cp.tdx) image.x1,
        ty1 := int_min (cp.ty0 + (Int.tdiv tileno cp.tw + 1) * cp.tdy) image.y1,
        numcomps := image.numcomps })[0]? = some s0 := e0
  rw [e0']
  dsimp only
  rw [e1, e2, e3, e4, e5, hG]
  dsimp only
  by_cases hk0 : k = 0
  · rw [if_pos hk0]
    dsimp only
    unfold decode_poc at hpoc
    cases hP : tcp.POC with
    | false =>
      rw [hP] at hpoc
      simp only [Bool.false_eq_true, if_false, Option.some.injEq] at hpoc
      subst hpoc
      simp only [if_true]
      refine ⟨_, by rw [List.set_set], ?_⟩
      simp only [slot_view, decode_slot, pi_zero, poc_zero, r1, r2, r4, r5, r6, r7, mul_one]
    | true =>
      rw [hP] at hpoc
      simp only [if_true] at hpoc
      cases hp : tcp.pocs[k]? with
      | none => rw [hp] at hpoc; simp at hpoc
      | some p =>
        rw [hp] at hpoc
        simp only [Option.some.injEq] at hpoc
        subst hpoc
        simp only [Bool.true_eq_false, if_false]
        refine ⟨_, by rw [List.set_set], ?_⟩
        simp only [slot_view, decode_slot, pi_zero, poc_zero, r1, r2, r4, r5, r6, r7, mul_one]
  · rw [if_neg hk0, List.getElem?_set_ne (by omega : k ≠ k - 1),
      List.getElem?_eq_getElem (show k - 1 < l.length by omega)]
    dsimp only
    unfold decode_poc at hpoc
    cases hP : tcp.POC with
    | false =>
      rw [hP] at hpoc
      simp only [Bool.false_eq_true, if_false, Option.some.injEq] at hpoc
      subst hpoc
      simp only [if_true]
      refine ⟨_, by rw [List.set_set], ?_⟩
      simp only [slot_view, decode_slot, pi_zero, poc_zero, r1, r2, r4, r5, r6, r7, mul_one]
    | true =>
      rw [hP] at hpoc
      simp only [if_true] at hpoc
      cases hp : tcp.pocs[k]? with
      | none => rw [hp] at hpoc; simp at hpoc
      | some p =>
        rw [hp] at hpoc
        simp only [Option.some.injEq] at hpoc
        subst hpoc
        simp only [Bool.true_eq_false, if_false]
        refine ⟨_, by rw [List.set_set], ?_⟩
        simp only [slot_view, decode_slot, pi_zero, poc_zero, r1, r2, r4, r5, r6, r7, mul_one]

theorem getElem?_replicate_lt {α : Type} {n j : Nat} (x : α) (h : j < n) :
    (List.replicate n x)[j]? = some x := by
  rw [List.getElem?_eq_getElem (by rw [List.length_replicate]; exact h)]
  simp

/-- When what `pi_create_decode` reads is there (the tile grid has columns, the loop
over `compno` returns on the tile extents, every slot has its POC segment), it returns
an array of `numpocs + 1` slots, each of which is, apart from the bitmap, the slot of
`pi_create_decode_v2` for the values `e` of the builder that agree with the loop. -/
theorem pi_create_decode_total {image : opj_image} {cp : opj_cp} {tcp : opj_tcp}
    {tileno : Int} {a : Int × Int × List opj_pi_comp} {e : opj_enc_params}
    (ht : arr_get cp.tcps tileno = some tcp) (hw : cp.tw ≠ 0)
    (hG : opj_for (pi_comp_iter image tcp
        (int_max (cp.tx0 + Int.tmod tileno cp.tw * cp.tdx) image.x0)
        (int_max (cp.ty0 + Int.tdiv tileno cp.tw * cp.tdy) image.y0)
        (int_min (cp.tx0 + (Int.tmod tileno cp.tw + 1) * cp.tdx) image.x1)
        (int_min (cp.ty0 + (Int.tdiv tileno cp.tw + 1) * cp.tdy) image.y1))
        image.numcomps.toNat 0 (0, 0, []) = .ok a)
    (hR : comp_loops_agree
        (int_max (cp.tx0 + Int.tmod tileno cp.tw * cp.tdx) image.x0)
        (int_max (cp.ty0 + Int.tdiv tileno cp.tw * cp.tdy) image.y0)
        (int_min (cp.tx0 + (Int.tmod tileno cp.tw + 1) * cp.tdx) image.x1)
        (int_min (cp.ty0 + (Int.tdiv tileno cp.tw + 1) * cp.tdy) image.y1) a e)
    (hpocs : ∀ k, k < (tcp.numpocs + 1).toNat →
      ∃ poc, decode_poc tcp e image.numcomps k = some poc) :
    ∃ l1, pi_create_decode image cp tileno = .ok l1 ∧ l1.length = (tcp.numpocs + 1).toNat ∧
      ∀ j, j < (tcp.numpocs + 1).toNat → ∃ poc s,
        decode_poc tcp e image.numcomps j = some poc ∧ l1[j]? = some s ∧
        slot_view s = slot_view (decode_slot image tcp e a.2.2 poc) := by
  unfold pi_create_decode
  rw [ht]
  dsimp only
  obtain ⟨r, g1, g2, g3, _⟩ := opj_for_total (tcp.numpocs + 1).toNat
    (fun k (l : List opj_pi_iterator) =>
      l.length = (tcp.numpocs + 1).toNat ∧
      (∀ j, j < k → ∃ poc s, decode_poc tcp e image.numcomps j = some poc ∧
        l[j]? = some s ∧ slot_view s = slot_view (decode_slot image tcp e a.2.2 poc)) ∧
      (∀ j, k ≤ j → j < (tcp.numpocs + 1).toNat → l[j]? = some pi_zero))
    (by
      intro k l hk hP
      obtain ⟨p1, p2, p3⟩ := hP
      obtain ⟨poc, hpoc⟩ := hpocs k hk
      obtain ⟨s1, q1, q2⟩ := pi_create_decode_slot_total (l := l) hw hG hR hpoc
        (p3 k (le_refl _) hk)
        (by
          intro hk0
          obtain ⟨poc0, s0, _, c2, c3⟩ := p2 0 (by omega)
          obtain ⟨_, _, _, r4, r5, r6, r7⟩ := hR
          refine ⟨s0, c2, ?_, ?_, ?_, ?_, ?_⟩
          · exact (congrArg opj_pi_iterator.tx0 c3).trans r4
          · exact (congrArg opj_pi_iterator.ty0 c3).trans r5
          · exact (congrArg opj_pi_iterator.tx1 c3).trans r6
          · exact (congrArg opj_pi_iterator.ty1 c3).trans r7
          · exact congrArg opj_pi_iterator.numcomps c3)
      refine ⟨_, q1, ?_, ?_, ?_⟩
      · rw [List.length_set]; exact p1
      · intro j hj
        by_cases hjk : j = k
        · subst hjk
          exact ⟨poc, s1, hpoc, List.getElem?_set_self (by omega), q2⟩
        · obtain ⟨pj, sj, d1, d2, d3⟩ := p2 j (by omega)
          refine ⟨pj, sj, d1, ?_, d3⟩
          rw [List.getElem?_set_ne (Ne.symm hjk)]
          exact d2
      · intro j hj1 hj2
        rw [List.getElem?_set_ne (by omega)]
        exact p3 j (by omega) hj2)
    (tcp.numpocs + 1).toNat 0 (List.replicate (tcp.numpocs + 1).toNat pi_zero) (by omega)
    ⟨List.length_replicate .., fun j hj => by omega,
      fun j _ hj => getElem?_replicate_lt pi_zero hj⟩
  refine ⟨r, g1, g2, ?_⟩
  intro j hj
  exact g3 j (by omega)

/-- What a returning `pi_create_decode` on at least one slot has passed. -/
theorem pi_create_decode_inv {image : opj_image} {cp : opj_cp} {tcp : opj_tcp}
    {tileno : Int} {l1 : List opj_pi_iterator}
    (ht : arr_get cp.tcps tileno = some tcp) (hn : 0 ≤ tcp.numpocs)
    (h : pi_create_decode image cp tileno = .ok l1) :
    cp.tw ≠ 0 ∧
    (tcp.POC = true → ∀ k, k < (tcp.numpocs + 1).toNat → ∃ p, tcp.pocs[k]? = some p) ∧
    ∃ a, opj_for (pi_comp_iter image tcp
        (int_max (cp.tx0 + Int.tmod tileno cp.tw * cp.tdx) image.x0)
        (int_max (cp.ty0 + Int.tdiv tileno cp.tw * cp.tdy) image.y0)
        (int_min (cp.tx0 + (Int.tmod tileno cp.tw + 1) * cp.tdx) image.x1)
        (int_min (cp.ty0 + (Int.tdiv tileno cp.tw + 1) * cp.tdy) image.y1))
        image.numcomps.toNat 0 (0, 0, []) = .ok a := by
  unfold pi_create_decode at h
  rw [ht] at h
  dsimp only at h
  have hsteps := opj_for_steps _ _ _ _ h
  obtain ⟨x0, y0, hx0⟩ := hsteps 0 (le_refl _) (by omega)
  obtain ⟨w1, _, w3⟩ := pi_create_decode_slot_inv hx0
  refine ⟨w1, ?_, w3 rfl⟩
  intro hP k hk
  obtain ⟨x, y, hx⟩ := hsteps k (by omega) (by omega)
  exact (pi_create_decode_slot_inv hx).2.1 hP

theorem pi_create_comps_total {tcp : opj_tcp} {n : Nat}
    (h : ∀ c, c < n → ∃ tccp, tcp.tccps[c]? = some tccp) :
    ∃ cs, opj_for (pi_create_comp tcp) n 0 (List.replicate n comp_zero) = .ok cs := by
  obtain ⟨r, g1, _⟩ := opj_for_total (f := pi_create_comp tcp) n
    (fun _ (l : List opj_pi_comp) => l.length = n)
    (by
      intro k l hk hP
      obtain ⟨tccp, htc⟩ := h k hk
      unfold pi_create_comp
      rw [htc]
      dsimp only
      rw [if_pos (by omega)]
      exact ⟨_, rfl, by rw [List.length_set]; exact hP⟩)
    n 0 (List.replicate n comp_zero) (by omega) (List.length_replicate ..)
  exact ⟨r, g1⟩

theorem pi_create_total {image : opj_image} {cp : opj_cp} {tcp : opj_tcp} {tileno : Int}
    (ht : arr_get cp.tcps tileno = some tcp)
    (h : ∀ c, c < image.numcomps.toNat → ∃ tccp, tcp.tccps[c]? = some tccp) :
    ∃ l, pi_create image cp tileno = .ok l := by
  obtain ⟨cs, hcs⟩ := pi_create_comps_total h
  unfold pi_create
  rw [ht]
  dsimp only
  obtain ⟨r, g1, _⟩ := opj_for_total (f := pi_create_slot image tcp) (tcp.numpocs + 1).toNat
    (fun _ (l : List opj_pi_iterator) => l.length = (tcp.numpocs + 1).toNat)
    (by
      intro k l hk hP
      unfold pi_create_slot
      rw [hcs]
      dsimp only
      rw [if_pos (by omega)]
      exact ⟨_, rfl, by rw [List.length_set]; exact hP⟩)
    (tcp.numpocs + 1).toNat 0 (List.replicate (tcp.numpocs + 1).toNat pi_zero) (by omega)
    (List.length_replicate ..)
  exact ⟨r, g1⟩

theorem pi_copy_res_total {row : List opj_pi_resolution} :
    ∀ (n i : Nat) (rs : List opj_pi_resolution), i + n ≤ row.length → row.length ≤ rs.length →
      ∃ rs1, opj_for (pi_copy_res row) n i rs = .ok rs1 := by
  intro n i rs h1 h2
  obtain ⟨r, g1, _⟩ := opj_for_total (f := pi_copy_res row) row.length
    (fun _ (l : List opj_pi_resolution) => row.length ≤ l.length)
    (by
      intro k l hk hP
      unfold pi_copy_res
      rw [List.getElem?_eq_getElem hk]
      dsimp only
      rw [if_pos (by omega)]
      exact ⟨_, rfl, by rw [List.length_set]; exact hP⟩)
    n i rs h1 h2
  exact ⟨r, g1⟩

/-- The copy of the records of `get_all_encoding_parameters` into a slot allocated by
`pi_create` returns. -/
theorem pi_decode_slot_total {image : opj_image} {cp : opj_cp} {tileno : Int} {tcp : opj_tcp}
    {e : opj_enc_params} (incl : List Int) {cs0 : List opj_pi_comp}
    (ht : arr_get cp.tcps tileno = some tcp)
    (he : get_all_encoding_parameters image cp tileno = .ok e)
    (hc : opj_for (pi_create_comp tcp) image.numcomps.toNat 0
      (List.replicate image.numcomps.toNat comp_zero) = .ok cs0) :
    ∃ s1, pi_decode_slot image e incl
      { pi_zero with numcomps := image.numcomps, comps := cs0 } = .ok s1 := by
  obtain ⟨tcp1, t1, _, _, _, _, _, t7, t8⟩ := get_all_encoding_parameters_table he
  rw [ht] at t1
  simp only [Option.some.injEq] at t1
  subst t1
  obtain ⟨c1, c2⟩ := pi_create_comps_spec hc
  unfold pi_decode_slot
  dsimp only
  obtain ⟨r, g1, _⟩ := opj_for_total (f := pi_copy_comp image e.p_resolutions)
    image.numcomps.toNat
    (fun k (l : List opj_pi_comp) => l.length = image.numcomps.toNat ∧
      ∀ j, k ≤ j → l[j]? = cs0[j]?)
    (by
      intro k l hk hP
      obtain ⟨p1, p2⟩ := hP
      obtain ⟨tccp, d1, d2⟩ := c2 k hk
      obtain ⟨ic, tccp1, row, u1, u2, _, _, u5, u6⟩ := t8 k hk
      rw [d1] at u2
      simp only [Option.some.injEq] at u2
      subst u2
      unfold pi_copy_comp
      rw [p2 k (le_refl _), d2, u1, u5]
      dsimp only
      obtain ⟨rs1, hrs⟩ := @pi_copy_res_total row tccp.numresolutions.toNat 0
        (List.replicate tccp.numresolutions.toNat res_zero)
        (by rw [u6.1]; omega) (by rw [u6.1, List.length_replicate])
      rw [hrs]
      dsimp only
      refine ⟨_, rfl, by rw [List.length_set]; exact p1, ?_⟩
      intro j hj
      rw [List.getElem?_set_ne (by omega)]
      exact p2 j (by omega))
    image.numcomps.toNat 0 cs0 (by omega) ⟨c1, fun _ _ => rfl⟩
  rw [g1]
  exact ⟨_, rfl⟩

theorem pi_update_decode_poc_total {tcp : opj_tcp} {l : List opj_pi_iterator} (m r : Int)
    (hl : l.length = (tcp.numpocs + 1).toNat)
    (hp : ∀ k, k < (tcp.numpocs + 1).toNat → ∃ p, tcp.pocs[k]? = some p) :
    ∃ l1, pi_update_decode_poc l tcp m r = .ok l1 := by
  unfold pi_update_decode_poc
  obtain ⟨l1, g1, _⟩ := opj_for_total (f := pi_update_decode_poc_iter tcp m)
    (tcp.numpocs + 1).toNat
    (fun _ (x : List opj_pi_iterator) => x.length = (tcp.numpocs + 1).toNat)
    (by
      intro k x hk hP
      obtain ⟨p, hpk⟩ := hp k hk
      unfold pi_update_decode_poc_iter
      rw [List.getElem?_eq_getElem (show k < x.length by omega), hpk]
      exact ⟨_, rfl, by dsimp only; rw [List.length_set]; exact hP⟩)
    (tcp.numpocs + 1).toNat 0 l (by omega) hl
  exact ⟨l1, g1⟩

theorem pi_update_decode_not_poc_total {tcp : opj_tcp} {l : List opj_pi_iterator} (m r : Int)
    (hl : l.length = (tcp.numpocs + 1).toNat) :
    ∃ l1, pi_update_decode_not_poc l tcp m r = .ok l1 := by
  unfold pi_update_decode_not_poc
  obtain ⟨l1, g1, _⟩ := opj_for_total (f := pi_update_decode_not_poc_iter tcp m r)
    (tcp.numpocs + 1).toNat
    (fun _ (x : List opj_pi_iterator) => x.length = (tcp.numpocs + 1).toNat)
    (by
      intro k x hk hP
      unfold pi_update_decode_not_poc_iter
      rw [List.getElem?_eq_getElem (show k < x.length by omega)]
      exact ⟨_, rfl, by dsimp only; rw [List.length_set]; exact hP⟩)
    (tcp.numpocs + 1).toNat 0 l (by omega) hl
  exact ⟨l1, g1⟩

/-- When `get_all_encoding_parameters` returns, the tile has at least one slot and every
slot has its POC segment, `pi_create_decode_v2` returns. -/
theorem pi_create_decode_v2_total {image : opj_image} {cp : opj_cp} {tcp : opj_tcp}
    {tileno : Int} {e : opj_enc_params}
    (ht : arr_get cp.tcps tileno = some tcp) (hn : 0 ≤ tcp.numpocs)
    (he : get_all_encoding_parameters image cp tileno = .ok e)
    (hp : tcp.POC = true → ∀ k, k < (tcp.numpocs + 1).toNat → ∃ p, tcp.pocs[k]? = some p) :
    ∃ l2, pi_create_decode_v2 image cp tileno = .ok l2 := by
  obtain ⟨tcp1, t1, _, _, _, _, _, _, t8⟩ := get_all_encoding_parameters_table he
  rw [ht] at t1
  simp only [Option.some.injEq] at t1
  subst t1
  obtain ⟨l0, hl0⟩ := @pi_create_total image cp tcp tileno ht
    (fun c hc => by
      obtain ⟨_, tccp, _, _, u2, _⟩ := t8 c hc
      exact ⟨tccp, u2⟩)
  obtain ⟨tcp2, s1, s2, s3⟩ := pi_create_spec hl0
  rw [ht] at s1
  simp only [Option.some.injEq] at s1
  subst s1
  obtain ⟨cs0, hcs0, hslot0⟩ := s3 0 (by omega)
  have hall : ∀ i, i < (tcp.numpocs + 1).toNat →
      l0[i]? = some { pi_zero with numcomps := image.numcomps, comps := cs0 } := by
    intro i hi
    obtain ⟨cs, c1, c2⟩ := s3 i hi
    rw [hcs0] at c1
    simp only [Except.ok.injEq] at c1
    subst c1
    exact c2
  unfold pi_create_decode_v2
  rw [ht]
  dsimp only
  rw [hl0]
  dsimp only
  rw [he]
  dsimp only
  rw [hslot0]
  dsimp only
  obtain ⟨q1, hq1⟩ := pi_decode_slot_total
    (List.replicate ((tcp.numlayers + 1) *
      (e.p_max_res * (image.numcomps * (e.p_max_prec * 1)))).toNat 0) ht he hcs0
  rw [hq1]
  dsimp only
  obtain ⟨l2, hl2, hlen2, _⟩ := opj_for_total (f := pi_decode_iter image e)
    (tcp.numpocs + 1).toNat
    (fun k (x : List opj_pi_iterator) => x.length = (tcp.numpocs + 1).toNat ∧ 1 ≤ k ∧
      ∀ j, k ≤ j → j < (tcp.numpocs + 1).toNat →
        x[j]? = some { pi_zero with numcomps := image.numcomps, comps := cs0 })
    (by
      intro k x hk hP
      obtain ⟨p1, p2, p3⟩ := hP
      unfold pi_decode_iter
      rw [List.getElem?_eq_getElem (show k - 1 < x.length by omega), p3 k (le_refl _) hk]
      dsimp only
      obtain ⟨q, hq⟩ := pi_decode_slot_total (x[k - 1]).incl ht he hcs0
      rw [hq]
      dsimp only
      refine ⟨_, rfl, by rw [List.length_set]; exact p1, by omega, ?_⟩
      intro j hj1 hj2
      rw [List.getElem?_set_ne (by omega)]
      exact p3 j (by omega) hj2)
    ((tcp.numpocs + 1).toNat - 1) 1 (l0.set 0 q1) (by omega)
    ⟨by rw [List.length_set]; exact s2, le_refl _, fun j hj1 hj2 => by
      rw [List.getElem?_set_ne (by omega)]
      exact hall j hj2⟩
  rw [hl2]
  dsimp only
  cases hP : tcp.POC with
  | true =>
    simp only [if_true]
    exact pi_update_decode_poc_total _ _ hlen2 (hp hP)
  | false =>
    simp only [Bool.false_eq_true, if_false]
    exact pi_update_decode_not_poc_total _ _ hlen2

/-- The loop over `compno` of `pi_create_decode` on the tile extents and
`get_all_encoding_parameters` return together, with the same maxima and rows, when
every component has explicit precinct sizes. -/
theorem decode_builder_sim {image : opj_image} {cp : opj_cp} {tcp : opj_tcp} {tileno : Int}
    (ht : arr_get cp.tcps tileno = some tcp) (hw : cp.tw ≠ 0)
    (hprt : ∀ (c : Nat) (tccp : opj_tccp), c < image.numcomps.toNat →
      tcp.tccps[c]? = some tccp → tccp.csty &&& J2K_CCP_CSTY_PRT ≠ 0) :
    (∀ a, opj_for (pi_comp_iter image tcp
        (int_max (cp.tx0 + Int.tmod tileno cp.tw * cp.tdx) image.x0)
        (int_max (cp.ty0 + Int.tdiv tileno cp.tw * cp.tdy) image.y0)
        (int_min (cp.tx0 + (Int.tmod tileno cp.tw + 1) * cp.tdx) image.x1)
        (int_min (cp.ty0 + (Int.tdiv tileno cp.tw + 1) * cp.tdy) image.y1))
        image.numcomps.toNat 0 (0, 0, []) = .ok a →
      ∃ e, get_all_encoding_parameters image cp tileno = .ok e ∧
        comp_loops_agree
          (int_max (cp.tx0 + Int.tmod tileno cp.tw * cp.tdx) image.x0)
          (int_max (cp.ty0 + Int.tdiv tileno cp.tw * cp.tdy) image.y0)
          (int_min (cp.tx0 + (Int.tmod tileno cp.tw + 1) * cp.tdx) image.x1)
          (int_min (cp.ty0 + (Int.tdiv tileno cp.tw + 1) * cp.tdy) image.y1) a e) ∧
    (∀ e, get_all_encoding_parameters image cp tileno = .ok e →
      ∃ a, opj_for (pi_comp_iter image tcp
        (int_max (cp.tx0 + Int.tmod tileno cp.tw * cp.tdx) image.x0)
        (int_max (cp.ty0 + Int.tdiv tileno cp.tw * cp.tdy) image.y0)
        (int_min (cp.tx0 + (Int.tmod tileno cp.tw + 1) * cp.tdx) image.x1)
        (int_min (cp.ty0 + (Int.tdiv tileno cp.tw + 1) * cp.tdy) image.y1))
        image.numcomps.toNat 0 (0, 0, []) = .ok a ∧
        comp_loops_agree
          (int_max (cp.tx0 + Int.tmod tileno cp.tw * cp.tdx) image.x0)
          (int_max (cp.ty0 + Int.tdiv tileno cp.tw * cp.tdy) image.y0)
          (int_min (cp.tx0 + (Int.tmod tileno cp.tw + 1) * cp.tdx) image.x1)
          (int_min (cp.ty0 + (Int.tdiv tileno cp.tw + 1) * cp.tdy) image.y1) a e) := by
  have hsim := @comp_loop_sim image tcp
    (int_max (cp.tx0 + Int.tmod tileno cp.tw * cp.tdx) image.x0)
    (int_max (cp.ty0 + Int.tdiv tileno cp.tw * cp.tdy) image.y0)
    (int_min (cp.tx0 + (Int.tmod tileno cp.tw + 1) * cp.tdx) image.x1)
    (int_min (cp.ty0 + (Int.tdiv tileno cp.tw + 1) * cp.tdy) image.y1)
    image.numcomps.toNat hprt (0, 0, [])
    { p_tx0 := int_max (cp.tx0 + Int.tmod tileno cp.tw * cp.tdx) image.x0,
      p_tx1 := int_min (cp.tx0 + (Int.tmod tileno cp.tw + 1) * cp.tdx) image.x1,
      p_ty0 := int_max (cp.ty0 + Int.tdiv tileno cp.tw * cp.tdy) image.y0,
      p_ty1 := int_min (cp.ty0 + (Int.tdiv tileno cp.tw + 1) * cp.tdy) image.y1,
      p_dx_min := 0x7fffffff, p_dy_min := 0x7fffffff,
      p_max_prec := 0, p_max_res := 0, p_resolutions := [] }
    ⟨rfl, rfl, rfl, rfl, rfl, rfl, rfl⟩
  unfold get_all_encoding_parameters
  rw [ht]
  dsimp only
  rw [if_neg hw]
  exact hsim

/-- The component records of a slot of `pi_create_decode_v2` are those that the loop
over `compno` of `pi_create_decode` builds, when the loop and the builder agree. -/
theorem decode_comps_eq {image : opj_image} {tcp : opj_tcp} {e : opj_enc_params}
    {X0 Y0 X1 Y1 : Int} {a : Int × Int × List opj_pi_comp} {cs : List opj_pi_comp}
    (hG : opj_for (pi_comp_iter image tcp X0 Y0 X1 Y1) image.numcomps.toNat 0 (0, 0, [])
      = .ok a)
    (hR : comp_loops_agree X0 Y0 X1 Y1 a e)
    (hcs : decode_comps_ok image tcp e cs) : cs = a.2.2 := by
  obtain ⟨k1, k2⟩ := pi_comp_loop_table (0, 0) hG
  obtain ⟨c1, c2⟩ := hcs
  obtain ⟨_, _, r3, _⟩ := hR
  apply List.ext_getElem?
  intro c
  by_cases hc : c < image.numcomps.toNat
  · obtain ⟨ic, tccp, row, u1, u2, u3, u4⟩ := c2 c hc
    obtain ⟨ic1, tccp1, row1, v1, v2, _, _, v5, _⟩ := k2 c hc
    rw [u1] at v1
    rw [u2] at v2
    simp only [Option.some.injEq] at v1 v2
    subst v1 v2
    have hrow : e.p_resolutions[c]? = some row1 := by
      rw [r3, List.getElem?_map, v5]
      rfl
    rw [u3] at hrow
    simp only [Option.some.injEq] at hrow
    subst hrow
    rw [u4, v5]
  · rw [List.getElem?_eq_none (by omega), List.getElem?_eq_none (by omega)]

/-- Two arrays of slots with the shapes that `pi_create_decode` and
`pi_create_decode_v2` return are equal slot by slot apart from the bitmap. -/
theorem decode_views_eq {image : opj_image} {tcp : opj_tcp} {e : opj_enc_params}
    {X0 Y0 X1 Y1 : Int} {a : Int × Int × List opj_pi_comp} {l1 l2 : List opj_pi_iterator}
    {n : Nat}
    (hG : opj_for (pi_comp_iter image tcp X0 Y0 X1 Y1) image.numcomps.toNat 0 (0, 0, [])
      = .ok a)
    (hR : comp_loops_agree X0 Y0 X1 Y1 a e)
    (h1 : l1.length = n ∧ ∀ j, j < n → ∃ poc s,
      decode_poc tcp e image.numcomps j = some poc ∧ l1[j]? = some s ∧
      slot_view s = slot_view (decode_slot image tcp e a.2.2 poc))
    (h2 : l2.length = n ∧ ∀ i, i < n → ∃ cs poc, decode_comps_ok image tcp e cs ∧
      decode_poc tcp e image.numcomps i = some poc ∧
      l2[i]? = some (decode_slot image tcp e cs poc)) :
    l2.map slot_view = l1.map slot_view := by
  apply List.ext_getElem?
  intro i
  rw [List.getElem?_map, List.getElem?_map]
  by_cases hi : i < n
  · obtain ⟨poc, s, a1, a2, a3⟩ := h1.2 i hi
    obtain ⟨cs, poc2, b1, b2, b3⟩ := h2.2 i hi
    rw [a1] at b2
    simp only [Option.some.injEq] at b2
    subst b2
    rw [a2, b3, decode_comps_eq hG hR b1]
    simp only [Option.map_some', a3]
  · rw [List.getElem?_eq_none (by omega), List.getElem?_eq_none (by omega)]

/-- C31. The two decode construction paths agree: for every image, coding parameters
and tile index in which every component has explicit precinct sizes (and `numpocs`,
unsigned in the v2 parameters, is not negative), `pi_create_decode` returns exactly when
`pi_create_decode_v2` returns, and the two arrays are equal slot by slot in every field
but the bitmap: the same tile extents, `numcomps`, component records with their
records `(pdx, pdy, pw, ph)`, stride constants, POC box (`layno0/1`, `resno0/1`,
`compno0/1`, `precno0/1`, `prg`) and `first`, with and without POC.  The slots are
computed within the 32-bit range (`build_fits`) and the products `pw * ph`
(`records_fit`) and the strides (`strides_fit`) are at most `0x7fffffff`, the range on
which the `int` arithmetic of `pi_create_decode` and the `OPJ_UINT32` arithmetic of
`pi_create_decode_v2` give the same values. -/
theorem pi_create_decode_agree (image : opj_image) (cp : opj_cp) (tileno : Int)
    (hwf : ∀ tcp, arr_get cp.tcps tileno = some tcp →
      0 ≤ tcp.numpocs ∧
      ∀ (c : Nat) (tccp : opj_tccp), c < image.numcomps.toNat →
        tcp.tccps[c]? = some tccp → tccp.csty &&& J2K_CCP_CSTY_PRT ≠ 0)
    (_hbuild : ∀ l2, pi_create_decode_v2 image cp tileno = .ok l2 →
      ∀ s ∈ l2, build_fits image cp tileno s)
    (_hfit : ∀ e, get_all_encoding_parameters image cp tileno = .ok e →
      records_fit 2147483647 e ∧ strides_fit image.numcomps e) :
    (∀ l1, pi_create_decode image cp tileno = .ok l1 →
      ∃ l2, pi_create_decode_v2 image cp tileno = .ok l2 ∧
        l2.map slot_view = l1.map slot_view) ∧
    (∀ l2, pi_create_decode_v2 image cp tileno = .ok l2 →
      ∃ l1, pi_create_decode image cp tileno = .ok l1 ∧
        l1.map slot_view = l2.map slot_view) := by
  constructor
  · intro l1 h1
    cases ht : arr_get cp.tcps tileno with
    | none =>
      unfold pi_create_decode at h1
      rw [ht] at h1
      simp at h1
    | some tcp =>
      obtain ⟨hn, hprt⟩ := hwf tcp ht
      obtain ⟨hw, hp, a, hG⟩ := pi_create_decode_inv ht hn h1
      obtain ⟨e, he, hR⟩ := (decode_builder_sim ht hw hprt).1 a hG
      obtain ⟨l2, hl2⟩ := pi_create_decode_v2_total ht hn he hp
      have hpocs : ∀ k, k < (tcp.numpocs + 1).toNat →
          ∃ poc, decode_poc tcp e image.numcomps k = some poc :=
        fun k hk => decode_poc_some.mpr (fun hP => hp hP k hk)
      obtain ⟨l1', g1, g2, g3⟩ := pi_create_decode_total ht hw hG hR hpocs
      rw [h1] at g1
      simp only [Except.ok.injEq] at g1
      subst g1
      obtain ⟨tcp', e', b1, b2, b3, _, b5⟩ := pi_create_decode_v2_spec hl2
      rw [ht] at b1
      rw [he] at b2
      simp only [Option.some.injEq, Except.ok.injEq] at b1 b2
      subst b1 b2
      exact ⟨l2, hl2, decode_views_eq hG hR ⟨g2, g3⟩ ⟨b3, fun i hi => b5 i (by omega)⟩⟩
  · intro l2 h2
    obtain ⟨tcp, e, b1, b2, b3, _, b5⟩ := pi_create_decode_v2_spec h2
    obtain ⟨hn, hprt⟩ := hwf tcp b1
    have hw : cp.tw ≠ 0 := by
      obtain ⟨_, _, w, _⟩ := get_all_encoding_parameters_table b2
      exact w
    obtain ⟨a, hG, hR⟩ := (decode_builder_sim b1 hw hprt).2 e b2
    have hpocs : ∀ k, k < (tcp.numpocs + 1).toNat →
        ∃ poc, decode_poc tcp e image.numcomps k = some poc := by
      intro k hk
      obtain ⟨_, poc, _, c2, _⟩ := b5 k (by omega)
      exact ⟨poc, c2⟩
    obtain ⟨l1, g1, g2, g3⟩ := pi_create_decode_total b1 hw hG hR hpocs
    exact ⟨l1, g1,
      (decode_views_eq hG hR ⟨g2, g3⟩ ⟨b3, fun i hi => b5 i (by omega)⟩).symm⟩

/-- Witness of `pi_create_decode_agree`: the tile of `ex_cp_empty`, whose component has
explicit precinct sizes and which has one POC segment. -/
theorem pi_create_decode_agree_witness :
    ∃ l1 l2, pi_create_decode ex_image_one ex_cp_empty 0 = .ok l1 ∧
      pi_create_decode_v2 ex_image_one ex_cp_empty 0 = .ok l2 ∧
      l2.map slot_view = l1.map slot_view := by
  have hwf : ∀ tcp, arr_get ex_cp_empty.tcps 0 = some tcp →
      0 ≤ tcp.numpocs ∧
      ∀ (c : Nat) (tccp : opj_tccp), c < ex_image_one.numcomps.toNat →
        tcp.tccps[c]? = some tccp → tccp.csty &&& J2K_CCP_CSTY_PRT ≠ 0 := by
    intro tcp h
    have hm := arr_get_mem h
    simp only [ex_cp_empty, List.mem_singleton] at hm
    subst hm
    refine ⟨by decide, ?_⟩
    intro c tccp _ htc
    have hm := List.getElem?_mem htc
    simp only [List.mem_singleton] at hm
    subst hm
    decide
  have hfit : ∀ e, get_all_encoding_parameters ex_image_one ex_cp_empty 0 = .ok e →
      records_fit 2147483647 e ∧ strides_fit ex_image_one.numcomps e := by
    intro e he
    obtain rfl := Except.ok.inj he
    unfold records_fit strides_fit
    decide
  have hbuild : ∀ l2, pi_create_decode_v2 ex_image_one ex_cp_empty 0 = .ok l2 →
      ∀ s ∈ l2, build_fits ex_image_one ex_cp_empty 0 s := by
    intro l2 h2
    obtain rfl := Except.ok.inj h2
    unfold build_fits edges_fit walk_fits counts_fit
    decide
  obtain ⟨l2, g1, g2⟩ := (pi_create_decode_agree ex_image_one ex_cp_empty 0 hwf
    hbuild hfit).1 _ rfl
  exact ⟨_, l2, rfl, g1, g2⟩

/-! ## No array access of a run goes out of bounds -/

theorem cprl_x_loop_safe {comp : opj_pi_comp} {s : opj_pi_iterator} (hs : sp_safe s)
    (hcomp : arr_get s.comps s.compno = some comp) (hc : in_c s)
    (hy : s.ty0 ≤ s.y ∧ s.y < s.ty1) (hx : s.tx0 ≤ s.x) :
    cprl_x_loop comp s ≠ .error .bounds := by
  unfold cprl_x_loop
  refine pi_for_safe
    (fun t => view_s1 t = view_s1 s ∧ t.compno = s.compno ∧ t.y = s.y ∧ t.incl = s.incl ∧
      s.tx0 ≤ t.x)
    ?_ (fun t t1 _ _ _ => incr_x_safe t1) ?_ _ s ⟨rfl, rfl, rfl, rfl, hx⟩
  · intro t hI hcond
    obtain ⟨hv, hcn, hyn, hi, hx0⟩ := hI
    have hlt : t.x < t.poc.tx1 := by simpa using hcond
    have hst : sp_safe t := sp_safe_view hv hi hs
    obtain ⟨_, hf, _, _, _, hpoc⟩ := view_s1_s2 hv
    have hw : t.poc.tx1 = t.tx1 := hst.2.2.2.2.2.2.1
    refine pcrl_resno_loop_safe (s := { t with resno := t.poc.resno0 }) hst ?_ ?_ ?_ (le_refl _)
    · show arr_get t.comps t.compno = some comp
      rw [hf.comps, hcn]; exact hcomp
    · show t.poc.compno0 ≤ t.compno ∧ t.compno < t.poc.compno1
      unfold in_c at hc
      rw [hpoc, hcn]; exact hc
    · show t.tx0 ≤ t.x ∧ t.x < t.tx1 ∧ t.ty0 ≤ t.y ∧ t.y < t.ty1
      rw [hf.tx0, hf.ty0, hf.ty1, hyn]
      exact ⟨hx0, by omega, hy.1, hy.2⟩
  · intro t t1 t2 hI _ hb hinc
    obtain ⟨hv, hcn, hyn, hi, hx0⟩ := hI
    obtain ⟨hv1, hc1, hx1, hy1, _, _, hd⟩ := pcrl_resno_loop_spec hb
    have hv1' : view_s1 t1 = view_s1 t := hv1
    have hst1 : sp_safe t1 := sp_safe_view (hv1'.trans hv) ((hd rfl).trans hi) hs
    obtain ⟨hv2, _, hc2, hy2, hi2, _, hmono⟩ := incr_x_ok hinc
    have := hmono hst1.2.2.1
    have e1 : t1.x = t.x := hx1
    have e2 : t1.compno = t.compno := hc1
    have e3 : t1.y = t.y := hy1
    exact ⟨(hv2.trans hv1').trans hv, by omega, by omega, (hi2.trans (hd rfl)).trans hi,
      by omega⟩

theorem cprl_y_loop_safe {comp : opj_pi_comp} {s : opj_pi_iterator} (hs : sp_safe s)
    (hcomp : arr_get s.comps s.compno = some comp) (hc : in_c s) (hy : s.ty0 ≤ s.y) :
    cprl_y_loop comp s ≠ .error .bounds := by
  unfold cprl_y_loop
  refine pi_for_safe
    (fun t => view_s1 t = view_s1 s ∧ t.compno = s.compno ∧ t.incl = s.incl ∧ s.ty0 ≤ t.y)
    ?_ (fun t t1 _ _ _ => incr_y_safe t1) ?_ _ s ⟨rfl, rfl, rfl, hy⟩
  · intro t hI hcond
    obtain ⟨hv, hcn, hi, hy0⟩ := hI
    have hlt : t.y < t.poc.ty1 := by simpa using hcond
    have hst : sp_safe t := sp_safe_view hv hi hs
    obtain ⟨_, hf, _, _, _, hpoc⟩ := view_s1_s2 hv
    have hw : t.poc.ty1 = t.ty1 := hst.2.2.2.2.2.2.2
    have hw0 : t.poc.tx0 = t.tx0 := hst.2.2.2.2.1
    refine cprl_x_loop_safe (s := { t with x := t.poc.tx0 }) hst ?_ ?_ ?_ ?_
    · show arr_get t.comps t.compno = some comp
      rw [hf.comps, hcn]; exact hcomp
    · show t.poc.compno0 ≤ t.compno ∧ t.compno < t.poc.compno1
      unfold in_c at hc
      rw [hpoc, hcn]; exact hc
    · show t.ty0 ≤ t.y ∧ t.y < t.ty1
      rw [hf.ty0]
      exact ⟨hy0, by omega⟩
    · show t.tx0 ≤ t.poc.tx0
      omega
  · intro t t1 t2 hI _ hb hinc
    obtain ⟨hv, hcn, hi, hy0⟩ := hI
    obtain ⟨hf0, _⟩ := view_s1_s2 hv
    have hcomp1 : arr_get ({ t with x := t.poc.tx0 } : opj_pi_iterator).comps
        ({ t with x := t.poc.tx0 } : opj_pi_iterator).compno = some comp := by
      show arr_get t.comps t.compno = some comp
      rw [(view_s1_s2 hv).2.1.comps, hcn]; exact hcomp
    obtain ⟨hv1, hc1, hy1, _, _, hd⟩ := cprl_x_loop_spec hcomp1 hb
    have hv1' : view_s1 t1 = view_s1 t := hv1
    have hst1 : sp_safe t1 := sp_safe_view (hv1'.trans hv) ((hd rfl).trans hi) hs
    obtain ⟨hv2, _, hc2, _, hi2, _, hmono⟩ := incr_y_ok hinc
    have := hmono hst1.2.2.2.1
    have e2 : t1.compno = t.compno := hc1
    have e3 : t1.y = t.y := hy1
    exact ⟨(hv2.trans hv1').trans hv, by omega, (hi2.trans (hd rfl)).trans hi, by omega⟩

theorem pi_step_comp_safe {s : opj_pi_iterator} {comp : opj_pi_comp} (hs : pi_safe s)
    (hc : comp ∈ s.comps) (d : Int × Int) : pi_step_comp comp d ≠ .error .bounds := by
  obtain ⟨_, _, _, _, _, _, _, _, _, _, _, _, _, s14⟩ := hs
  obtain ⟨k, hk⟩ := List.mem_iff_getElem?.mp hc
  obtain ⟨_, m2, _⟩ := s14 k comp hk
  unfold pi_step_comp
  refine opj_for_safe comp.numresolutions.toNat ?_ _ 0 _ (by omega)
  intro r d1 hr
  unfold pi_step_res
  rw [List.getElem?_eq_getElem (by rw [m2]; exact hr)]
  simp

theorem sp_safe_window {s : opj_pi_iterator} (hs : pi_safe s) (hg : pi_geom s)
    {d : Int × Int} (hd : 0 ≤ d.1 ∧ 0 ≤ d.2) :
    sp_safe (pi_window { s with dx := d.1, dy := d.2 }) := by
  obtain ⟨w1, w2, _, w4, w5, w6, _⟩ := pi_window_spec { s with dx := d.1, dy := d.2 }
  have hc : pi_core (pi_window { s with dx := d.1, dy := d.2 }) = pi_core s :=
    (view_s2_core w2).trans rfl
  have hf := pi_core_frame hc
  have hsafe := pi_safe_frame hf w6 hs
  obtain ⟨e1, e2, e3, e4⟩ := w1 hsafe.1
  refine ⟨hsafe, pi_geom_frame hc hg, ?_, ?_, e1, e2, e3, e4⟩
  · rw [w4]; exact hd.1
  · rw [w5]; exact hd.2

theorem cprl_compno_body_safe {s : opj_pi_iterator} (hs : pi_safe s) (hg : pi_geom s)
    (hc : in_c s) : cprl_compno_body s ≠ .error .bounds := by
  obtain ⟨comp, k1, _, _⟩ := pi_safe_comp hs hc
  unfold cprl_compno_body
  rw [k1]
  dsimp only
  cases hst : pi_step_comp comp (0, 0) with
  | error e =>
    dsimp only
    intro hcon
    simp only [Except.error.injEq] at hcon
    subst hcon
    exact pi_step_comp_safe hs (arr_get_mem k1) _ hst
  | ok d =>
    dsimp only
    have hd := pi_step_comp_nonneg (pi_geom_comps hg comp (arr_get_mem k1))
      ⟨le_refl _, le_refl _⟩ hst
    have hsp := sp_safe_window hs hg hd
    obtain ⟨_, w2, _, _, _, _, w7⟩ := pi_window_spec { s with dx := d.1, dy := d.2 }
    have hf := pi_core_frame (view_s2_core w2)
    have hcore : (pi_window { s with dx := d.1, dy := d.2 }).poc.compno0 = s.poc.compno0 :=
      hf.compno0
    have hcore1 : (pi_window { s with dx := d.1, dy := d.2 }).poc.compno1 = s.poc.compno1 :=
      hf.compno1
    have hcomps : (pi_window { s with dx := d.1, dy := d.2 }).comps = s.comps := hf.comps
    have hw : (pi_window { s with dx := d.1, dy := d.2 }).poc.ty0
        = (pi_window { s with dx := d.1, dy := d.2 }).ty0 := hsp.2.2.2.2.2.1
    refine cprl_y_loop_safe
      (s := { pi_window { s with dx := d.1, dy := d.2 } with
        y := (pi_window { s with dx := d.1, dy := d.2 }).poc.ty0 }) hsp ?_ ?_ ?_
    · show arr_get (pi_window { s with dx := d.1, dy := d.2 }).comps
        (pi_window { s with dx := d.1, dy := d.2 }).compno = some comp
      rw [hcomps, w7]; exact k1
    · show (pi_window { s with dx := d.1, dy := d.2 }).poc.compno0
          ≤ (pi_window { s with dx := d.1, dy := d.2 }).compno ∧
        (pi_window { s with dx := d.1, dy := d.2 }).compno
          < (pi_window { s with dx := d.1, dy := d.2 }).poc.compno1
      rw [hcore, hcore1, w7]; exact hc
    · show (pi_window { s with dx := d.1, dy := d.2 }).ty0
        ≤ (pi_window { s with dx := d.1, dy := d.2 }).poc.ty0
      omega

theorem cprl_compno_loop_safe {s : opj_pi_iterator} (hs : pi_safe s) (hg : pi_geom s)
    (hc : s.poc.compno0 ≤ s.compno) : cprl_compno_loop s ≠ .error .bounds := by
  unfold cprl_compno_loop
  refine pi_for_safe
    (fun t => view_s2 t = view_s2 s ∧ t.incl = s.incl ∧ s.poc.compno0 ≤ t.compno)
    ?_ (fun t t1 _ _ _ => by simp [incr_compno]) ?_ _ s ⟨rfl, rfl, hc⟩
  · intro t hI hcond
    obtain ⟨hv, hi, hc0⟩ := hI
    have hlt : t.compno < t.poc.compno1 := by simpa using hcond
    have hcore := view_s2_core hv
    have hf := pi_core_frame hcore
    refine cprl_compno_body_safe (pi_safe_frame hf hi hs) (pi_geom_frame hcore hg) ?_
    unfold in_c
    rw [hf.compno0]
    exact ⟨hc0, hlt⟩
  · intro t t1 t2 hI _ hb hinc
    obtain ⟨hv, hi, hc0⟩ := hI
    obtain ⟨hv1, _, hc1, _, hd⟩ := cprl_compno_body_spec hb
    simp only [incr_compno, Except.ok.injEq] at hinc
    subst hinc
    refine ⟨hv1.trans hv, (hd rfl).trans hi, ?_⟩
    show s.poc.compno0 ≤ t1.compno + 1
    omega

theorem cprl_resume_safe {s : opj_pi_iterator} (hs : sp_safe s) (hc : in_c s)
    (hpos : sp_pos s) (hr : s.poc.resno0 ≤ s.resno) :
    cprl_resume s ≠ .error .bounds := by
  obtain ⟨comp, k1, _, _⟩ := pi_safe_comp hs.1 hc
  unfold cprl_resume
  rw [k1]
  dsimp only
  refine pi_then_safe (pi_then_safe (pcrl_resno_loop_safe hs k1 hc hpos hr)
    (fun s1 _ => incr_x_safe s1) ?_) (fun s1 _ => incr_y_safe s1) ?_
  · intro s1 s2 h1 h2
    obtain ⟨hv1, hcn, hxn, hyn, _, _, hd⟩ := pcrl_resno_loop_spec h1
    have hs1 : sp_safe s1 := sp_safe_view hv1 (hd rfl) hs
    obtain ⟨hv2, _, hc2, hy2, hi2, _, hmono⟩ := incr_x_ok h2
    have := hmono hs1.2.2.1
    have hs2 : sp_safe s2 := sp_safe_view hv2 hi2 hs1
    obtain ⟨_, hf, _, _, _, hpoc⟩ := view_s1_s2 (hv2.trans hv1)
    obtain ⟨x1, x2, y1, y2⟩ := hpos
    refine cprl_x_loop_safe hs2 ?_ ?_ ?_ ?_
    · rw [hf.comps, hc2, hcn]; exact k1
    · unfold in_c at hc ⊢
      rw [hpoc, hc2, hcn]; exact hc
    · rw [hf.ty0, hf.ty1, hy2, hyn]; exact ⟨y1, y2⟩
    · rw [hf.tx0]; omega
  · intro s1 s2 h1 h2
    obtain ⟨hv1, hcn, hyn, _, hd⟩ := cprl_resume_x k1 h1
    have hs1 : sp_safe s1 := sp_safe_view hv1 (hd rfl) hs
    obtain ⟨hv2, _, hc2, _, hi2, _, hmono⟩ := incr_y_ok h2
    have := hmono hs1.2.2.2.1
    have hs2 : sp_safe s2 := sp_safe_view hv2 hi2 hs1
    obtain ⟨_, hf, _, _, _, hpoc⟩ := view_s1_s2 (hv2.trans hv1)
    obtain ⟨x1, x2, y1, y2⟩ := hpos
    refine cprl_y_loop_safe hs2 ?_ ?_ ?_
    · rw [hf.comps, hc2, hcn]; exact k1
    · unfold in_c at hc ⊢
      rw [hpoc, hc2, hcn]; exact hc
    · rw [hf.ty0]; omega

theorem cprl_skip_resno_safe {s : opj_pi_iterator} (hs : sp_safe s) (hpos : sp_pos s)
    (h : spatial_at s) :
    pi_then (pi_then (.ok (false, s)) incr_layno spatial_layno_loop)
      incr_resno cprl_resume ≠ .error .bounds := by
  have hr := h.2.2.2.1
  have hc := h.2.2.2.2.1
  refine pi_then_safe (spatial_skip_layno_safe hs hpos h)
    (fun s1 _ => by simp [incr_resno]) ?_
  intro s1 s2 h1 h2
  obtain ⟨hv, _, hd⟩ := spatial_skip_layno h1
  obtain ⟨hv0, _⟩ := view_sl_s0 hv
  obtain ⟨hv1, hrn, hcn, hxn, hyn⟩ := view_s0_s1 hv0
  obtain ⟨_, hf, _, _, _, hpoc⟩ := view_s1_s2 hv1
  have hs1 : sp_safe s1 := sp_safe_view hv1 (hd rfl) hs
  simp only [incr_resno, Except.ok.injEq] at h2
  subst h2
  refine cprl_resume_safe (s := { s1 with resno := s1.resno + 1 }) hs1 ?_ ?_ ?_
  · show s1.poc.compno0 ≤ s1.compno ∧ s1.compno < s1.poc.compno1
    unfold in_c at hc
    rw [hpoc, hcn]; exact hc
  · show s1.tx0 ≤ s1.x ∧ s1.x < s1.tx1 ∧ s1.ty0 ≤ s1.y ∧ s1.y < s1.ty1
    rw [hf.tx0, hf.tx1, hf.ty0, hf.ty1, hxn, hyn]; exact hpos
  · show s1.poc.resno0 ≤ s1.resno + 1
    have := hr.1
    rw [hpoc, hrn]; omega

theorem pi_next_cprl_safe {s : opj_pi_iterator} (hs : pi_safe s) (hg : pi_geom s)
    (h : s.first = true ∨ (spatial_at s ∧ cprl_step s)) :
    pi_next_cprl s ≠ .error .bounds := by
  unfold pi_next_cprl
  by_cases hfst : s.first = true
  · simp only [hfst, Bool.not_true, Bool.false_eq_true, if_false]
    exact cprl_compno_loop_safe (s := { s with first := false, compno := s.poc.compno0 })
      hs hg (le_refl _)
  · obtain ⟨hat, comp, k1, k2⟩ := h.resolve_left hfst
    have hf0 : s.first = false := by simpa using hfst
    simp only [hf0, Bool.not_false, if_true]
    have hd := pi_step_comp_nonneg (pi_geom_comps hg comp (arr_get_mem k1))
      ⟨le_refl _, le_refl _⟩ k2
    obtain ⟨hsp, hpos⟩ := sp_safe_entry hs hg hat hd
    have hc := hat.2.2.2.2.1
    refine pi_then_safe (cprl_skip_resno_safe hsp hpos hat)
      (fun s1 _ => by simp [incr_compno]) ?_
    intro s1 s2 h1 h2
    obtain ⟨hv1, hcn, _, hd1⟩ := cprl_skip_resno h1
    obtain ⟨hv2, hf, _, _, _, hpoc⟩ := view_s1_s2 hv1
    simp only [incr_compno, Except.ok.injEq] at h2
    subst h2
    have hs1 : pi_safe s1 := pi_safe_frame hf (hd1 rfl) hs
    have hg1 : pi_geom s1 := pi_geom_frame (view_s2_core hv2) hg
    refine cprl_compno_loop_safe (s := { s1 with compno := s1.compno + 1 }) hs1 hg1 ?_
    show s1.poc.compno0 ≤ s1.compno + 1
    have := hc.1
    rw [hpoc, hcn]; omega

/-- No array access of a call of `pi_next` is out of bounds on a slot with the strides
and bitmap of `pi_safe` (and, for the spatial progressions, the geometry of the builder),
entered for the first time or at a cursor that a call left at an emission. -/
theorem pi_next_safe {s : opj_pi_iterator} (hs : pi_safe s)
    (hg : s.poc.prg = .RPCL ∨ s.poc.prg = .PCRL ∨ s.poc.prg = .CPRL → pi_geom s)
    (h : s.first = true ∨ pi_at s) : pi_next s ≠ .error .bounds := by
  unfold pi_next
  unfold pi_at at h
  split
  · rename_i hp
    rw [hp] at h
    exact pi_next_lrcp_safe hs h
  · rename_i hp
    rw [hp] at h
    exact pi_next_rlcp_safe hs h
  · rename_i hp
    rw [hp] at h
    exact pi_next_rpcl_safe hs (hg (Or.inl hp)) h
  · rename_i hp
    rw [hp] at h
    exact pi_next_pcrl_safe hs (hg (Or.inr (Or.inl hp))) h
  · rename_i hp
    rw [hp] at h
    exact pi_next_cprl_safe hs (hg (Or.inr (Or.inr hp))) h
  · simp

theorem pi_safe_length {s t : opj_pi_iterator} (hf : pi_frame s t)
    (hi : t.incl.length = s.incl.length) (hs : pi_safe s) : pi_safe t := by
  unfold pi_safe at hs ⊢
  rw [hf.tp_on, hf.step_p, hf.step_c, hf.step_r, hf.step_l, hf.compno1, hf.resno1, hf.layno0,
    hf.resno0, hf.compno0, hf.precno0, hf.layno1, hf.numcomps, hf.comps, hi]
  exact hs

/-- In a run of `pi_next` from a slot with the strides and bitmap of `pi_safe`, no call
makes an array access out of bounds, and the index of every packet reported is a cell of
the bitmap, whose length the calls do not change. -/
theorem pi_next_nth_safe : ∀ (n : Nat) (s : opj_pi_iterator), pi_safe s →
    (s.poc.prg = .RPCL ∨ s.poc.prg = .PCRL ∨ s.poc.prg = .CPRL → pi_geom s) →
    (s.first = true ∨ pi_at s) →
    pi_next_nth n s ≠ .error .bounds ∧
    ∀ t, pi_next_nth n s = .ok (true, t) →
      0 ≤ pi_index t ∧ (pi_index t).toNat < s.incl.length ∧
      t.incl.length = s.incl.length := by
  intro n
  induction n with
  | zero =>
    intro s hs hg h
    refine ⟨pi_next_safe hs hg h, ?_⟩
    intro t ht
    have ht' : pi_next s = .ok (true, t) := ht
    obtain ⟨_, he, _⟩ := pi_next_spec ht'
    obtain ⟨m1, m2⟩ := he rfl
    obtain ⟨g1, g2, _⟩ := arr_get_some m1
    exact ⟨g1, g2, by rw [m2, List.length_set]⟩
  | succ k ih =>
    intro s hs hg h
    rw [pi_next_nth]
    cases hn : pi_next s with
    | error e =>
      dsimp only
      refine ⟨?_, fun t ht => by simp at ht⟩
      intro hcon
      simp only [Except.error.injEq] at hcon
      subst hcon
      exact pi_next_safe hs hg h hn
    | ok p =>
      obtain ⟨b, u⟩ := p
      cases b with
      | false =>
        dsimp only
        exact ⟨by simp, fun t ht => by simp at ht⟩
      | true =>
        dsimp only
        obtain ⟨hc, he, _⟩ := pi_next_spec hn
        obtain ⟨m1, m2⟩ := he rfl
        have hlen : u.incl.length = s.incl.length := by rw [m2, List.length_set]
        have hf := pi_core_frame hc
        have hsu : pi_safe u := pi_safe_length hf hlen hs
        have hgu : u.poc.prg = .RPCL ∨ u.poc.prg = .PCRL ∨ u.poc.prg = .CPRL → pi_geom u := by
          intro hp
          rw [hf.prg] at hp
          exact pi_geom_frame hc (hg hp)
        obtain ⟨i1, i2⟩ := ih u hsu hgu (Or.inr (pi_next_at hn h))
        refine ⟨i1, ?_⟩
        intro t ht
        obtain ⟨j1, j2, j3⟩ := i2 t ht
        exact ⟨j1, by omega, by omega⟩

theorem enc_comp_loop_nonneg {image : opj_image} {tcp : opj_tcp} {a0 e : opj_enc_params}
    {n : Nat} (h1 : 0 ≤ a0.p_max_prec) (h2 : 0 ≤ a0.p_max_res)
    (h : opj_for (enc_comp_iter image tcp) n 0 a0 = .ok e) :
    0 ≤ e.p_max_prec ∧ 0 ≤ e.p_max_res := by
  refine opj_for_inv (fun _ (a : opj_enc_params) => 0 ≤ a.p_max_prec ∧ 0 ≤ a.p_max_res)
    ?_ n 0 a0 e ⟨h1, h2⟩ h
  intro k a a1 hP hk
  obtain ⟨q1, q2⟩ := hP
  unfold enc_comp_iter at hk
  cases hic : image.comps[k]? with
  | none => rw [hic] at hk; simp at hk
  | some ic =>
    cases htc : tcp.tccps[k]? with
    | none => rw [hic, htc] at hk; simp at hk
    | some tccp =>
      rw [hic, htc] at hk
      dsimp only at hk
      split at hk
      · simp at hk
      · split at hk
        · simp at hk
        · rename_i a2 row hloop
          simp only [Except.ok.injEq] at hk
          subst hk
          have key := opj_for_inv
            (fun _ (p : opj_enc_params × List opj_pi_resolution) =>
              0 ≤ p.1.p_max_prec ∧ 0 ≤ p.1.p_max_res)
            (by
              intro r p p1 hQ hr
              unfold enc_res_iter at hr
              split at hr
              · simp only [Except.ok.injEq] at hr
                subst hr
                refine ⟨?_, hQ.2⟩
                dsimp only
                split
                · omega
                · exact hQ.1
              · simp at hr)
            _ 0 _ _
            (by
              constructor
              · show 0 ≤ (if _ then _ else _ : opj_enc_params).p_max_prec
                split <;> exact q1
              · show 0 ≤ (if _ then _ else _ : opj_enc_params).p_max_res
                split
                · show 0 ≤ tccp.numresolutions
                  omega
                · exact q2)
            hloop
          exact key

/-- A slot that `pi_create_decode_v2` builds for a tile without POC has the strides and
the bitmap that keep every index of the box inside the bitmap. -/
theorem pi_safe_decode {image : opj_image} {cp : opj_cp} {tileno : Int}
    {l : List opj_pi_iterator} {tcp : opj_tcp} {s : opj_pi_iterator}
    (hl : pi_create_decode_v2 image cp tileno = .ok l)
    (ht : arr_get cp.tcps tileno = some tcp) (hpoc : tcp.POC = false) (hs : s ∈ l) :
    pi_safe s ∧ s.first = true ∧
    (s.incl.length : Int) = max 0 ((tcp.numlayers + 1) * s.step_l) := by
  obtain ⟨tcp0, e, a1, a2, _, _, a5⟩ := pi_create_decode_v2_spec hl
  rw [ht] at a1
  simp only [Option.some.injEq] at a1
  subst a1
  obtain ⟨i, hi⟩ := List.mem_iff_getElem?.mp hs
  obtain ⟨cs, poc, b1, b2, b3⟩ := a5 i (getElem?_lt hi)
  rw [hi] at b3
  simp only [Option.some.injEq] at b3
  subst b3
  unfold decode_poc at b2
  rw [hpoc] at b2
  simp only [Bool.false_eq_true, if_false, Option.some.injEq] at b2
  subst b2
  obtain ⟨tcp1, q0, _, _, _, _, _, t7, t8⟩ := get_all_encoding_parameters_table a2
  rw [ht] at q0
  simp only [Option.some.injEq] at q0
  subst q0
  have hloop := a2
  unfold get_all_encoding_parameters at hloop
  rw [ht] at hloop
  dsimp only at hloop
  split at hloop
  · simp at hloop
  obtain ⟨m1, m2, m3, _⟩ := enc_comp_loop_max rfl rfl rfl hloop
  obtain ⟨n1, n2⟩ := enc_comp_loop_nonneg (le_refl _) (le_refl _) hloop
  obtain ⟨c1, c2⟩ := b1
  have hprod : 0 ≤ image.numcomps * e.p_max_prec := by
    by_cases hn : 0 ≤ image.numcomps
    · exact mul_nonneg hn n1
    · have hz : e.p_resolutions = [] := by
        apply List.eq_nil_of_length_eq_zero
        rw [t7]
        exact Int.toNat_eq_zero.mpr (le_of_lt (not_le.mp hn))
      rcases m2 with m2 | ⟨row, hrow, _⟩
      · rw [m2]; simp
      · rw [hz] at hrow; simp at hrow
  have hL : 0 ≤ e.p_max_res * (image.numcomps * e.p_max_prec) := mul_nonneg n2 hprod
  refine ⟨?_, rfl, ?_⟩
  · unfold pi_safe
    refine ⟨rfl, rfl, n1, rfl, rfl, n2, le_refl _, le_refl _, le_refl _, le_refl _, ?_, rfl,
      c1, ?_⟩
    · show tcp.numlayers * (e.p_max_res * (image.numcomps * e.p_max_prec))
        ≤ ((List.replicate ((tcp.numlayers + 1) *
            (e.p_max_res * (image.numcomps * (e.p_max_prec * 1)))).toNat (0 : Int)).length : Int)
      rw [List.length_replicate, mul_one]
      by_cases hpos : 0 ≤ (tcp.numlayers + 1) * (e.p_max_res * (image.numcomps * e.p_max_prec))
      · rw [Int.toNat_of_nonneg hpos]
        nlinarith
      · have h0 := Int.toNat_eq_zero.mpr (le_of_lt (not_le.mp hpos))
        rw [h0]
        push_neg at hpos
        nlinarith
    · intro c comp hc
      have hclt : c < image.numcomps.toNat := by
        rw [← c1]; exact getElem?_lt hc
      obtain ⟨ic, tccp, row, u1, u2, u3, u4⟩ := c2 c hclt
      obtain ⟨ic1, tccp1, row1, v1, v2, _, _, v5, v6⟩ := t8 c hclt
      have hc' : cs[c]? = some comp := hc
      rw [hc'] at u4
      simp only [Option.some.injEq] at u4
      subst u4
      rw [u2] at v2
      rw [u3] at v5
      simp only [Option.some.injEq] at v2 v5
      subst v2 v5
      refine ⟨m3 c tccp hclt u2, v6.1, ?_⟩
      intro r res hr
      exact m1 row (List.getElem?_mem u3) res (List.getElem?_mem hr)
  · show ((List.replicate ((tcp.numlayers + 1) *
        (e.p_max_res * (image.numcomps * (e.p_max_prec * 1)))).toNat (0 : Int)).length : Int)
      = max 0 ((tcp.numlayers + 1) * (e.p_max_res * (image.numcomps * e.p_max_prec)))
    rw [List.length_replicate, mul_one]
    rw [Int.toNat_eq_max]
    exact max_comm _ _

/-- C10. Bitmap index in bounds: for an iterator array built by `pi_create_decode_v2`
for a tile without POC, under any of the five progressions, no call of `pi_next` in a
run from a slot as built takes the error branch of a checked array access, the bitmap
has length `(numlayers + 1) * step_l` and keeps it, and the index
`layno*step_l + resno*step_r + compno*step_c + precno*step_p` of every packet reported
is at least 0 and strictly less than `(numlayers + 1) * step_l`.  The slot is computed
and walked within the range of a C `int` (`build_fits`) and the strides and the number
of cells fit the integer types of the source (`slot_fits`).  For RPCL, PCRL and CPRL
the tile extents are not negative, component subsampling is positive and precinct
exponents are not negative. -/
theorem pi_next_index_in_bounds (image : opj_image) (cp : opj_cp) (tileno : Int)
    (l : List opj_pi_iterator) (tcp : opj_tcp) (s : opj_pi_iterator) (n : Nat)
    (hl : pi_create_decode_v2 image cp tileno = .ok l)
    (ht : arr_get cp.tcps tileno = some tcp) (hpoc : tcp.POC = false) (hs : s ∈ l)
    (_hbuild : build_fits image cp tileno s) (_hfit : slot_fits tcp.numlayers s)
    (hgeo : s.poc.prg = .RPCL ∨ s.poc.prg = .PCRL ∨ s.poc.prg = .CPRL →
      (0 ≤ s.tx0 ∧ 0 ≤ s.ty0) ∧
      (∀ (c : Nat) (ic : opj_image_comp), image.comps[c]? = some ic → 0 < ic.dx ∧ 0 < ic.dy) ∧
      (∀ (c r : Nat) (tccp : opj_tccp) (q : Int), tcp.tccps[c]? = some tccp →
        (tccp.prcw[r]? = some q → 0 ≤ q) ∧ (tccp.prch[r]? = some q → 0 ≤ q))) :
    pi_next_nth n s ≠ .error .bounds ∧
    (s.incl.length : Int) = max 0 ((tcp.numlayers + 1) * s.step_l) ∧
    ∀ t, pi_next_nth n s = .ok (true, t) →
      0 ≤ pi_index t ∧ pi_index t < (tcp.numlayers + 1) * t.step_l ∧
      (pi_index t).toNat < t.incl.length ∧ t.incl.length = s.incl.length := by
  obtain ⟨hsafe, hfirst, hlen⟩ := pi_safe_decode hl ht hpoc hs
  have hg : s.poc.prg = .RPCL ∨ s.poc.prg = .PCRL ∨ s.poc.prg = .CPRL → pi_geom s := by
    intro hp
    obtain ⟨g1, g2, g3⟩ := hgeo hp
    exact (pi_geom_decode hl ht hs g1 g2 g3).1
  obtain ⟨k1, k2⟩ := pi_next_nth_safe n s hsafe hg (Or.inl hfirst)
  refine ⟨k1, hlen, ?_⟩
  intro t h
  obtain ⟨i1, i2, i3⟩ := k2 t h
  obtain ⟨_, hc⟩ := pi_next_nth_at n s t h (Or.inl hfirst)
  have hf := pi_core_frame hc
  refine ⟨i1, ?_, ?_, i3⟩
  · rw [hf.step_l]
    have i4 : pi_index t < (s.incl.length : Int) := by
      have := Int.toNat_of_nonneg i1
      omega
    rw [hlen] at i4
    rcases lt_max_iff.mp i4 with i5 | i5
    · omega
    · exact i5
  · rw [i3]; exact i2

/-- Witness of `pi_next_index_in_bounds`: the fourth packet of the example tile under
RPCL. -/
theorem pi_next_index_in_bounds_witness :
    pi_next_nth 3 (ex_slot .RPCL) ≠ .error .bounds ∧
    ∃ t, pi_next_nth 3 (ex_slot .RPCL) = .ok (true, t) ∧
      0 ≤ pi_index t ∧ pi_index t < (2 + 1) * t.step_l := by
  obtain ⟨a, _, b⟩ := pi_next_index_in_bounds ex_image (ex_cp .RPCL) 0 [ex_slot .RPCL]
    _ (ex_slot .RPCL) 3 rfl rfl rfl (List.mem_singleton.mpr rfl)
    (by unfold build_fits edges_fit walk_fits counts_fit; decide)
    (by unfold slot_fits counts_fit; decide)
    (fun _ => ⟨⟨by decide, by decide⟩,
      (by
        intro c ic hc
        have hm := List.getElem?_mem hc
        simp [ex_image] at hm
        subst hm
        exact ⟨by decide, by decide⟩),
      (by
        intro c r tccp q hc
        have hm := List.getElem?_mem hc
        simp [ex_cp] at hm
        subst hm
        constructor
        · intro hq
          have hq1 := List.getElem?_mem hq
          simp [ex_tccp] at hq1
          omega
        · intro hq
          have hq1 := List.getElem?_mem hq
          simp [ex_tccp] at hq1
          omega)⟩)
  obtain ⟨b1, b2, _, _⟩ := b _ rfl
  exact ⟨a, _, rfl, b1, b2⟩

/-! ## Completeness of a run under LRCP -/

theorem pi_visit_skip {s t : opj_pi_iterator} (h : pi_visit s = .ok (false, t)) :
    t = s ∧ pi_marked s s.layno s.resno s.compno s.precno := by
  unfold pi_visit at h
  cases hg : arr_get s.incl (pi_index s) with
  | none => rw [hg] at h; simp at h
  | some v =>
    rw [hg] at h
    by_cases hv : v = 0
    · subst hv
      simp at h
    · simp only [if_neg hv, Except.ok.injEq, Prod.mk.injEq, true_and] at h
      exact ⟨h.symm, v, hg, hv⟩

theorem pi_marked_frame {s t : opj_pi_iterator} (hf : pi_frame s t) (hi : t.incl = s.incl)
    (l r c p : Int) : pi_marked t l r c p ↔ pi_marked s l r c p := by
  unfold pi_marked
  rw [hf.step_l, hf.step_r, hf.step_c, hf.step_p, hi]

theorem pi_cell_frame {s t : opj_pi_iterator} (hf : pi_frame s t) (r c p : Int) :
    pi_cell t r c p ↔ pi_cell s r c p := by
  unfold pi_cell
  rw [hf.comps, hf.precno0]

/-- The loop over `precno` passes only over marked cells: when it returns `OPJ_TRUE` at
`t`, every precinct from its entry up to `t.precno` is marked, and when it runs to its
end, every precinct from its entry up to `precno1`. -/
theorem lrcp_precno_loop_scan {s t : opj_pi_iterator} {b : Bool}
    (h : lrcp_precno_loop s = .ok (b, t)) (p : Int) (h1 : s.precno ≤ p)
    (h2 : p < s.poc.precno1) (h3 : b = true → p < t.precno) :
    pi_marked s s.layno s.resno s.compno p := by
  have key := pi_for_rule
    (fun t => view_p t = view_p s ∧ t.incl = s.incl ∧
      ∀ p, s.precno ≤ p → p < t.precno → pi_marked s s.layno s.resno s.compno p)
    (fun t => ∀ p, s.precno ≤ p → p < t.precno → pi_marked s s.layno s.resno s.compno p)
    (by
      intro t t1 t2 hI _ hb hi
      obtain ⟨rfl, hm⟩ := pi_visit_skip hb
      simp only [incr_precno, Except.ok.injEq] at hi
      subst hi
      obtain ⟨hv, hincl, hI3⟩ := hI
      refine ⟨hv, hincl, ?_⟩
      intro p q1 q2
      have q2a : p < t1.precno + 1 := q2
      by_cases hp : p < t1.precno
      · exact hI3 p q1 hp
      · have hpe : p = t1.precno := by omega
        obtain ⟨hvc, hc, _⟩ := view_p_c hv
        obtain ⟨hvl, hl, hr⟩ := view_c_l hvc
        obtain ⟨hf, _⟩ := view_l_frame hvl
        have := (pi_marked_frame hf hincl t1.layno t1.resno t1.compno t1.precno).mp hm
        rw [hl, hr, hc, ← hpe] at this
        exact this)
    (by
      intro t t1 hI _ hb
      rcases pi_visit_ok hb with ⟨_, _, rfl⟩ | ⟨hb1, _⟩
      · exact hI.2.2
      · simp at hb1)
    _ s t b ⟨rfl, rfl, fun p q1 q2 => by omega⟩ h
  cases b with
  | true => exact key.1 rfl p h1 (h3 rfl)
  | false =>
    obtain ⟨⟨hv, _, hI3⟩, hc⟩ := key.2 rfl
    have hpoc := (view_p_c hv).2.2
    have hc1 : ¬ t.precno < t.poc.precno1 := by simpa using hc
    rw [hpoc] at hc1
    exact hI3 p h1 (by omega)

/-- The body of the loop over `compno` passes only over marked cells. -/
theorem lrcp_compno_body_scan {s t : opj_pi_iterator} {b : Bool} (htp : s.tp_on = false)
    (h : lrcp_compno_body s = .ok (b, t)) (p : Int) (h1 : pi_cell s s.resno s.compno p)
    (h3 : b = true → p < t.precno) : pi_marked s s.layno s.resno s.compno p := by
  obtain ⟨comp, res, c1, c2, c3, c4, c5⟩ := h1
  unfold lrcp_compno_body at h
  rw [c1] at h
  dsimp only at h
  rw [if_neg (by omega), htp] at h
  simp only [Bool.false_eq_true, if_false] at h
  rw [c3] at h
  dsimp only at h
  exact lrcp_precno_loop_scan h p c4 c5 h3

/-- The loop over `compno` passes only over marked cells. -/
theorem lrcp_compno_loop_scan {s t : opj_pi_iterator} {b : Bool} (htp : s.tp_on = false)
    (h : lrcp_compno_loop s = .ok (b, t)) (c p : Int) (h1 : s.compno ≤ c)
    (h2 : c < s.poc.compno1) (hcell : pi_cell s s.resno c p)
    (h3 : b = true → c < t.compno ∨ (c = t.compno ∧ p < t.precno)) :
    pi_marked s s.layno s.resno c p := by
  have key := pi_for_rule
    (fun t => view_c t = view_c s ∧ t.incl = s.incl ∧
      ∀ c p, s.compno ≤ c → c < t.compno → pi_cell s s.resno c p →
        pi_marked s s.layno s.resno c p)
    (fun t => ∀ c p, s.compno ≤ c → (c < t.compno ∨ (c = t.compno ∧ p < t.precno)) →
      pi_cell s s.resno c p → pi_marked s s.layno s.resno c p)
    (by
      intro t t1 t2 hI _ hb hi
      obtain ⟨hv, hincl, hI3⟩ := hI
      obtain ⟨hv1, hc1, _, hd1⟩ := lrcp_compno_body_spec hb
      simp only [incr_compno, Except.ok.injEq] at hi
      subst hi
      obtain ⟨hvl, hl, hr⟩ := view_c_l hv
      obtain ⟨hf, _⟩ := view_l_frame hvl
      refine ⟨hv1.trans hv, (hd1 rfl).trans hincl, ?_⟩
      intro c p q1 q2 q3
      have q2a : c < t1.compno + 1 := q2
      by_cases hc : c < t.compno
      · exact hI3 c p q1 hc q3
      · have hce : c = t.compno := by omega
        subst hce
        rw [← hr] at q3
        have hm := lrcp_compno_body_scan (hf.tp_on.trans htp) hb p
          ((pi_cell_frame hf _ _ _).mpr q3) (by simp)
        have := (pi_marked_frame hf hincl _ _ _ _).mp hm
        rw [hl, hr] at this
        exact this)
    (by
      intro t t1 hI _ hb c p q1 q2 q3
      obtain ⟨hv, hincl, hI3⟩ := hI
      obtain ⟨hv1, hc1, _, _⟩ := lrcp_compno_body_spec hb
      obtain ⟨hvl, hl, hr⟩ := view_c_l hv
      obtain ⟨hf, _⟩ := view_l_frame hvl
      rw [hc1] at q2
      by_cases hc : c < t.compno
      · exact hI3 c p q1 hc q3
      · have hce : c = t.compno := by omega
        have hp : p < t1.precno := by omega
        subst hce
        rw [← hr] at q3
        have hm := lrcp_compno_body_scan (hf.tp_on.trans htp) hb p
          ((pi_cell_frame hf _ _ _).mpr q3) (fun _ => hp)
        have := (pi_marked_frame hf hincl _ _ _ _).mp hm
        rw [hl, hr] at this
        exact this)
    _ s t b ⟨rfl, rfl, fun c p q1 q2 => by omega⟩ h
  cases b with
  | true => exact key.1 rfl c p h1 (h3 rfl) hcell
  | false =>
    obtain ⟨⟨hv, _, hI3⟩, hc⟩ := key.2 rfl
    obtain ⟨hvl, _, _⟩ := view_c_l hv
    obtain ⟨hf, _⟩ := view_l_frame hvl
    have hc1 : ¬ t.compno < t.poc.compno1 := by simpa using hc
    rw [hf.compno1] at hc1
    exact hI3 c p h1 (by omega) hcell

/-- The loop over `resno` passes only over marked cells. -/
theorem lrcp_resno_loop_scan {s t : opj_pi_iterator} {b : Bool} (htp : s.tp_on = false)
    (h : lrcp_resno_loop s = .ok (b, t)) (r c p : Int) (h1 : s.resno ≤ r)
    (h2 : r < s.poc.resno1) (hc0 : s.poc.compno0 ≤ c) (hc1 : c < s.poc.compno1)
    (hcell : pi_cell s r c p)
    (h3 : b = true → r < t.resno ∨ (r = t.resno ∧ (c < t.compno ∨ (c = t.compno ∧ p < t.precno)))) :
    pi_marked s s.layno r c p := by
  have key := pi_for_rule
    (fun t => view_l t = view_l s ∧ t.layno = s.layno ∧ t.incl = s.incl ∧
      ∀ r c p, s.resno ≤ r → r < t.resno → s.poc.compno0 ≤ c → c < s.poc.compno1 →
        pi_cell s r c p → pi_marked s s.layno r c p)
    (fun t => ∀ r c p, s.resno ≤ r →
      (r < t.resno ∨ (r = t.resno ∧ (c < t.compno ∨ (c = t.compno ∧ p < t.precno)))) →
      s.poc.compno0 ≤ c → c < s.poc.compno1 →
      pi_cell s r c p → pi_marked s s.layno r c p)
    (by
      intro t t1 t2 hI _ hb hi
      obtain ⟨hv, hlay, hincl, hI3⟩ := hI
      obtain ⟨hv1, _, _, hd1⟩ := lrcp_compno_loop_spec hb
      obtain ⟨hvl1, hl1, hr1⟩ := view_c_l hv1
      have hl1a : t1.layno = t.layno := hl1
      have hr1a : t1.resno = t.resno := hr1
      simp only [incr_resno, Except.ok.injEq] at hi
      subst hi
      obtain ⟨hf, _⟩ := view_l_frame hv
      refine ⟨hvl1.trans hv, hl1a.trans hlay, (hd1 rfl).trans hincl, ?_⟩
      intro r c p q1 q2 q3 q4 q5
      have q2a : r < t1.resno + 1 := q2
      by_cases hr : r < t.resno
      · exact hI3 r c p q1 hr q3 q4 q5
      · have hre : r = t.resno := by omega
        subst hre
        have hm := lrcp_compno_loop_scan (s := { t with compno := t.poc.compno0 })
          (hf.tp_on.trans htp) hb c p (by rw [hf.compno0]; exact q3)
          (by rw [hf.compno1]; exact q4)
          ((pi_cell_frame (view_l_frame (s := s) (t := { t with compno := t.poc.compno0 }) hv).1 _ _ _).mpr q5)
          (by simp)
        have := (pi_marked_frame (view_l_frame (s := s) (t := { t with compno := t.poc.compno0 }) hv).1
          hincl _ _ _ _).mp hm
        rw [← hlay]
        exact this)
    (by
      intro t t1 hI _ hb r c p q1 q2 q3 q4 q5
      obtain ⟨hv, hlay, hincl, hI3⟩ := hI
      obtain ⟨hv1, _, _, _⟩ := lrcp_compno_loop_spec hb
      obtain ⟨hvl1, hl1, hr1⟩ := view_c_l hv1
      have hr1a : t1.resno = t.resno := hr1
      obtain ⟨hf, _⟩ := view_l_frame hv
      rw [hr1a] at q2
      by_cases hr : r < t.resno
      · exact hI3 r c p q1 hr q3 q4 q5
      · have hre : r = t.resno := by omega
        have hcp : c < t1.compno ∨ (c = t1.compno ∧ p < t1.precno) := by omega
        subst hre
        have hm := lrcp_compno_loop_scan (s := { t with compno := t.poc.compno0 })
          (hf.tp_on.trans htp) hb c p (by rw [hf.compno0]; exact q3)
          (by rw [hf.compno1]; exact q4)
          ((pi_cell_frame (view_l_frame (s := s) (t := { t with compno := t.poc.compno0 }) hv).1 _ _ _).mpr q5)
          (fun _ => hcp)
        have := (pi_marked_frame (view_l_frame (s := s) (t := { t with compno := t.poc.compno0 }) hv).1
          hincl _ _ _ _).mp hm
        rw [← hlay]
        exact this)
    _ s t b ⟨rfl, rfl, rfl, fun r c p q1 q2 => by omega⟩ h
  cases b with
  | true => exact key.1 rfl r c p h1 (h3 rfl) hc0 hc1 hcell
  | false =>
    obtain ⟨⟨hv, _, _, hI3⟩, hc⟩ := key.2 rfl
    obtain ⟨hf, _⟩ := view_l_frame hv
    have hcn : ¬ t.resno < t.poc.resno1 := by simpa using hc
    rw [hf.resno1] at hcn
    exact hI3 r c p h1 (by omega) hc0 hc1 hcell

/-- The loop over `layno` passes only over marked cells. -/
theorem lrcp_layno_loop_scan {s t : opj_pi_iterator} {b : Bool} (htp : s.tp_on = false)
    (h : lrcp_layno_loop s = .ok (b, t)) (l r c p : Int) (h1 : s.layno ≤ l)
    (h2 : l < s.poc.layno1) (hr0 : s.poc.resno0 ≤ r) (hr1 : r < s.poc.resno1)
    (hc0 : s.poc.compno0 ≤ c) (hc1 : c < s.poc.compno1) (hcell : pi_cell s r c p)
    (h3 : b = true → lrcp_lt (l, r, c, p) (pi_packet t)) :
    pi_marked s l r c p := by
  have key := pi_for_rule
    (fun t => view_l t = view_l s ∧ t.incl = s.incl ∧
      ∀ l r c p, s.layno ≤ l → l < t.layno → s.poc.resno0 ≤ r → r < s.poc.resno1 →
        s.poc.compno0 ≤ c → c < s.poc.compno1 →
        pi_cell s r c p → pi_marked s l r c p)
    (fun t => ∀ l r c p, s.layno ≤ l → lrcp_lt (l, r, c, p) (pi_packet t) →
      s.poc.resno0 ≤ r → r < s.poc.resno1 → s.poc.compno0 ≤ c → c < s.poc.compno1 →
      pi_cell s r c p → pi_marked s l r c p)
    (by
      intro t t1 t2 hI _ hb hi
      obtain ⟨hv, hincl, hI3⟩ := hI
      obtain ⟨hv1, hl1, _, _, hd1⟩ := lrcp_resno_loop_spec hb
      have hl1a : t1.layno = t.layno := hl1
      simp only [incr_layno, Except.ok.injEq] at hi
      subst hi
      obtain ⟨hf, _⟩ := view_l_frame hv
      refine ⟨hv1.trans hv, (hd1 rfl).trans hincl, ?_⟩
      intro l r c p q1 q2 q3 q4 q5 q6 q7
      have q2a : l < t1.layno + 1 := q2
      by_cases hl : l < t.layno
      · exact hI3 l r c p q1 hl q3 q4 q5 q6 q7
      · have hle : l = t.layno := by omega
        subst hle
        have hm := lrcp_resno_loop_scan (s := { t with resno := t.poc.resno0 })
          (hf.tp_on.trans htp) hb r c p (by rw [hf.resno0]; exact q3)
          (by rw [hf.resno1]; exact q4) (by rw [hf.compno0]; exact q5)
          (by rw [hf.compno1]; exact q6)
          ((pi_cell_frame (view_l_frame (s := s) (t := { t with resno := t.poc.resno0 }) hv).1 _ _ _).mpr q7)
          (by simp)
        exact (pi_marked_frame (view_l_frame (s := s) (t := { t with resno := t.poc.resno0 }) hv).1
          hincl _ _ _ _).mp hm)
    (by
      intro t t1 hI _ hb l r c p q1 q2 q3 q4 q5 q6 q7
      obtain ⟨hv, hincl, hI3⟩ := hI
      obtain ⟨hv1, hl1, _, _, _⟩ := lrcp_resno_loop_spec hb
      have hl1a : t1.layno = t.layno := hl1
      obtain ⟨hf, _⟩ := view_l_frame hv
      unfold lrcp_lt pi_packet at q2
      dsimp only at q2
      rw [hl1a] at q2
      by_cases hl : l < t.layno
      · exact hI3 l r c p q1 hl q3 q4 q5 q6 q7
      · have hle : l = t.layno := by omega
        have hrest : r < t1.resno ∨ (r = t1.resno ∧
            (c < t1.compno ∨ (c = t1.compno ∧ p < t1.precno))) := by omega
        subst hle
        have hm := lrcp_resno_loop_scan (s := { t with resno := t.poc.resno0 })
          (hf.tp_on.trans htp) hb r c p (by rw [hf.resno0]; exact q3)
          (by rw [hf.resno1]; exact q4) (by rw [hf.compno0]; exact q5)
          (by rw [hf.compno1]; exact q6)
          ((pi_cell_frame (view_l_frame (s := s) (t := { t with resno := t.poc.resno0 }) hv).1 _ _ _).mpr q7)
          (fun _ => hrest)
        exact (pi_marked_frame (view_l_frame (s := s) (t := { t with resno := t.poc.resno0 }) hv).1
          hincl _ _ _ _).mp hm)
    _ s t b ⟨rfl, rfl, fun l r c p q1 q2 => by omega⟩ h
  cases b with
  | true => exact key.1 rfl l r c p h1 (h3 rfl) hr0 hr1 hc0 hc1 hcell
  | false =>
    obtain ⟨⟨hv, _, hI3⟩, hc⟩ := key.2 rfl
    obtain ⟨hf, _⟩ := view_l_frame hv
    have hcn : ¬ t.layno < t.poc.layno1 := by simpa using hc
    rw [hf.layno1] at hcn
    exact hI3 l r c p h1 (by omega) hr0 hr1 hc0 hc1 hcell

theorem lrcp_skip_precno_scan {s t : opj_pi_iterator} {b : Bool}
    (h : pi_then (.ok (false, s)) incr_precno lrcp_precno_loop = .ok (b, t)) (p : Int)
    (h1 : s.precno < p) (h2 : p < s.poc.precno1) (h3 : b = true → p < t.precno) :
    pi_marked s s.layno s.resno s.compno p := by
  rcases pi_then_ok h with ⟨k1, _⟩ | ⟨s1, s2, k1, k2, k3⟩
  · simp at k1
  · simp only [Except.ok.injEq, Prod.mk.injEq, true_and] at k1
    subst k1
    simp only [incr_precno, Except.ok.injEq] at k2
    subst k2
    exact lrcp_precno_loop_scan k3 p (by show s.precno + 1 ≤ p; omega) h2 h3

/-- A precinct that exists at the cell of the cursor lies below the bound `precno1` that
the engine stored there. -/
theorem lrcp_at_cell {s : opj_pi_iterator} (htp : s.tp_on = false) (hat : lrcp_at s)
    {p : Int} (hcell : pi_cell s s.resno s.compno p) : p < s.poc.precno1 := by
  obtain ⟨_, _, _, _, comp, c1, _, c3⟩ := hat
  obtain ⟨res, r1, r2⟩ := c3 htp
  obtain ⟨comp1, res1, d1, _, d3, _, d5⟩ := hcell
  rw [c1] at d1
  simp only [Option.some.injEq] at d1
  subst d1
  rw [r1] at d3
  simp only [Option.some.injEq] at d3
  subst d3
  rw [r2]
  exact d5

theorem lrcp_skip_compno_scan {s t : opj_pi_iterator} {b : Bool} (htp : s.tp_on = false)
    (hat : lrcp_at s)
    (h : pi_then (pi_then (.ok (false, s)) incr_precno lrcp_precno_loop)
      incr_compno lrcp_compno_loop = .ok (b, t)) (c p : Int)
    (h2 : c < s.poc.compno1) (hcell : pi_cell s s.resno c p)
    (hgt : s.compno < c ∨ (c = s.compno ∧ s.precno < p))
    (h3 : b = true → c < t.compno ∨ (c = t.compno ∧ p < t.precno)) :
    pi_marked s s.layno s.resno c p := by
  rcases pi_then_ok h with ⟨k1, hb⟩ | ⟨s1, s2, k1, k2, k3⟩
  · obtain ⟨hv, _, _⟩ := lrcp_skip_precno k1
    have hc : t.compno = s.compno := (view_p_c hv).2.1
    have h3a := h3 hb
    rw [hc] at h3a
    have hce : c = s.compno := by omega
    subst hce
    exact lrcp_skip_precno_scan k1 p (by omega) (lrcp_at_cell htp hat hcell)
      (fun _ => by omega)
  · obtain ⟨hv, _, hd⟩ := lrcp_skip_precno k1
    have hincl := hd rfl
    obtain ⟨hvc, hc, _⟩ := view_p_c hv
    obtain ⟨hvl, hl, hr⟩ := view_c_l hvc
    simp only [incr_compno, Except.ok.injEq] at k2
    subst k2
    by_cases hce : c = s.compno
    · subst hce
      exact lrcp_skip_precno_scan k1 p (by omega) (lrcp_at_cell htp hat hcell)
        (fun hb => by simp at hb)
    · have hf := (view_l_frame (s := s) (t := { s1 with compno := s1.compno + 1 }) hvl).1
      have hm := lrcp_compno_loop_scan (s := { s1 with compno := s1.compno + 1 })
        (hf.tp_on.trans htp) k3 c p (by show s1.compno + 1 ≤ c; omega)
        (by rw [hf.compno1]; exact h2)
        ((pi_cell_frame hf _ _ _).mpr (by
          show pi_cell s s1.resno c p
          rw [hr]; exact hcell)) h3
      have := (pi_marked_frame hf hincl _ _ _ _).mp hm
      have e : pi_marked s s1.layno s1.resno c p := this
      rw [hl, hr] at e
      exact e

theorem lrcp_skip_resno_scan {s t : opj_pi_iterator} {b : Bool} (htp : s.tp_on = false)
    (hat : lrcp_at s)
    (h : pi_then (pi_then (pi_then (.ok (false, s)) incr_precno lrcp_precno_loop)
      incr_compno lrcp_compno_loop) incr_resno lrcp_resno_loop = .ok (b, t)) (r c p : Int)
    (h2 : r < s.poc.resno1) (hc0 : s.poc.compno0 ≤ c) (hc1 : c < s.poc.compno1)
    (hcell : pi_cell s r c p)
    (hgt : s.resno < r ∨ (r = s.resno ∧ (s.compno < c ∨ (c = s.compno ∧ s.precno < p))))
    (h3 : b = true →
      r < t.resno ∨ (r = t.resno ∧ (c < t.compno ∨ (c = t.compno ∧ p < t.precno)))) :
    pi_marked s s.layno r c p := by
  rcases pi_then_ok h with ⟨k1, hb⟩ | ⟨s1, s2, k1, k2, k3⟩
  · obtain ⟨hv, _, _⟩ := lrcp_skip_compno k1
    have hr : t.resno = s.resno := (view_c_l hv).2.2
    have h3a := h3 hb
    rw [hr] at h3a
    have hre : r = s.resno := by omega
    subst hre
    exact lrcp_skip_compno_scan htp hat k1 c p hc1 hcell (by omega) (fun _ => by omega)
  · obtain ⟨hv, _, hd⟩ := lrcp_skip_compno k1
    have hincl := hd rfl
    obtain ⟨hvl, hl, hr⟩ := view_c_l hv
    simp only [incr_resno, Except.ok.injEq] at k2
    subst k2
    by_cases hre : r = s.resno
    · subst hre
      exact lrcp_skip_compno_scan htp hat k1 c p hc1 hcell (by omega)
        (fun hb => by simp at hb)
    · have hf := (view_l_frame (s := s) (t := { s1 with resno := s1.resno + 1 }) hvl).1
      have hm := lrcp_resno_loop_scan (s := { s1 with resno := s1.resno + 1 })
        (hf.tp_on.trans htp) k3 r c p (by show s1.resno + 1 ≤ r; omega)
        (by rw [hf.resno1]; exact h2) (by rw [hf.compno0]; exact hc0)
        (by rw [hf.compno1]; exact hc1)
        ((pi_cell_frame hf _ _ _).mpr hcell) h3
      have := (pi_marked_frame hf hincl _ _ _ _).mp hm
      have e : pi_marked s s1.layno r c p := this
      rw [hl] at e
      exact e

/-- A call of `pi_next_lrcp` passes only over marked cells: every packet of the slot
that comes after the cursor of entry (any packet, on the first call) and before the
packet reported (any packet, when the call returns `OPJ_FALSE`) is marked in the bitmap
of entry. -/
theorem pi_next_lrcp_scan {s t : opj_pi_iterator} {b : Bool} (htp : s.tp_on = false)
    (hs : s.first = true ∨ lrcp_at s) (h : pi_next_lrcp s = .ok (b, t))
    (q : Int × Int × Int × Int) (hq : pi_packet_ok s q)
    (hgt : s.first = false → lrcp_lt (pi_packet s) q)
    (h3 : b = true → lrcp_lt q (pi_packet t)) :
    pi_marked s q.1 q.2.1 q.2.2.1 q.2.2.2 := by
  obtain ⟨q1, q2, q3, q4, q5, q6, q7⟩ := hq
  unfold pi_next_lrcp at h
  by_cases hfst : s.first = true
  · simp only [hfst, Bool.not_true, Bool.false_eq_true, if_false] at h
    exact lrcp_layno_loop_scan (s := { s with first := false, layno := s.poc.layno0 })
      htp h q.1 q.2.1 q.2.2.1 q.2.2.2 q1 q2 q3 q4 q5 q6 q7 h3
  · have hat : lrcp_at s := hs.resolve_left hfst
    have hf0 : s.first = false := by simpa using hfst
    have hgt1 := hgt hf0
    unfold lrcp_lt pi_packet at hgt1
    dsimp only at hgt1
    simp only [hf0, Bool.not_false, if_true] at h
    obtain ⟨comp, c1, _⟩ := hat.2.2.2.2
    rw [c1] at h
    dsimp only at h
    rcases pi_then_ok h with ⟨k1, hb⟩ | ⟨s1, s2, k1, k2, k3⟩
    · obtain ⟨hv, hl, _, _⟩ := lrcp_skip_resno k1
      have h3a := h3 hb
      unfold lrcp_lt pi_packet at h3a
      dsimp only at h3a
      rw [hl] at h3a
      have hle : q.1 = s.layno := by omega
      have := lrcp_skip_resno_scan htp hat k1 q.2.1 q.2.2.1 q.2.2.2 q4 q5 q6 q7
        (by omega) (fun _ => by omega)
      rw [hle]
      exact this
    · obtain ⟨hv, hl, _, hd⟩ := lrcp_skip_resno k1
      have hincl := hd rfl
      simp only [incr_layno, Except.ok.injEq] at k2
      subst k2
      by_cases hle : q.1 = s.layno
      · have := lrcp_skip_resno_scan htp hat k1 q.2.1 q.2.2.1 q.2.2.2 q4 q5 q6 q7
          (by omega) (fun hb => by simp at hb)
        rw [hle]
        exact this
      · have hf := (view_l_frame (s := s) (t := { s1 with layno := s1.layno + 1 }) hv).1
        have hm := lrcp_layno_loop_scan (s := { s1 with layno := s1.layno + 1 })
          (hf.tp_on.trans htp) k3 q.1 q.2.1 q.2.2.1 q.2.2.2
          (by show s1.layno + 1 ≤ q.1; omega)
          (by rw [hf.layno1]; exact q2) (by rw [hf.resno0]; exact q3)
          (by rw [hf.resno1]; exact q4) (by rw [hf.compno0]; exact q5)
          (by rw [hf.compno1]; exact q6)
          ((pi_cell_frame hf _ _ _).mpr q7) h3
        exact (pi_marked_frame hf hincl _ _ _ _).mp hm

theorem arr_get_set_ne {α : Type} {xs : List α} {i j : Int} (w : α) (hj : 0 ≤ j)
    (h : i ≠ j) : arr_get (xs.set j.toNat w) i = arr_get xs i := by
  unfold arr_get
  by_cases hi : 0 ≤ i
  · rw [if_pos hi, if_pos hi, List.getElem?_set_ne (by omega)]
  · rw [if_neg hi, if_neg hi]

/-- The cells marked after a call that returned `OPJ_TRUE` are the cells marked before
it and the cell of the packet reported. -/
theorem pi_marked_set {s t : opj_pi_iterator} (hf : pi_frame s t) (hm : pi_marks s t)
    (l r c p : Int) :
    pi_marked t l r c p ↔
      (pi_marked s l r c p ∨
        l * s.step_l + r * s.step_r + c * s.step_c + p * s.step_p = pi_index t) := by
  obtain ⟨m1, m2⟩ := hm
  obtain ⟨i0, _, _⟩ := arr_get_some m1
  unfold pi_marked
  rw [hf.step_l, hf.step_r, hf.step_c, hf.step_p, m2]
  by_cases hi : l * s.step_l + r * s.step_r + c * s.step_c + p * s.step_p = pi_index t
  · rw [hi, arr_get_set_self 1 m1]
    constructor
    · intro _; exact Or.inr rfl
    · intro _; exact ⟨1, rfl, by decide⟩
  · rw [arr_get_set_ne 1 i0 hi]
    constructor
    · intro h; exact Or.inl h
    · intro h
      rcases h with h | h
      · exact h
      · exact absurd h hi

theorem pi_packet_ok_frame {s t : opj_pi_iterator} (hf : pi_frame s t)
    (q : Int × Int × Int × Int) : pi_packet_ok t q ↔ pi_packet_ok s q := by
  unfold pi_packet_ok
  rw [hf.layno0, hf.layno1, hf.resno0, hf.resno1, hf.compno0, hf.compno1,
    pi_cell_frame hf]

/-- The cursor that an LRCP call reports names a packet of the slot. -/
theorem lrcp_at_packet_ok {t : opj_pi_iterator} (htp : t.tp_on = false) (hat : lrcp_at t) :
    pi_packet_ok t (pi_packet t) := by
  obtain ⟨_, ⟨b1, b2, b3, b4, b5, b6⟩, c1, c2, comp, c3, c4, c5⟩ := hat
  obtain ⟨res, r1, r2⟩ := c5 htp
  refine ⟨b1, b2, b3, b4, b5, b6, comp, res, c3, c4, r1, c1, ?_⟩
  show t.precno < res.pw * res.ph
  rw [← r2]
  exact c2

theorem lrcp_lt_total (a b : Int × Int × Int × Int) : lrcp_lt a b ∨ a = b ∨ lrcp_lt b a := by
  obtain ⟨a1, a2, a3, a4⟩ := a
  obtain ⟨b1, b2, b3, b4⟩ := b
  unfold lrcp_lt
  simp only [Prod.mk.injEq]
  omega

/-- After a call of `pi_next_lrcp` that returned `OPJ_TRUE`, every packet of the slot up
to the one reported is marked. -/
theorem pi_next_lrcp_seen {s t : opj_pi_iterator} (htp : s.tp_on = false)
    (hs : s.first = true ∨ (lrcp_at s ∧ lrcp_seen s))
    (h : pi_next_lrcp s = .ok (true, t)) : lrcp_seen t := by
  obtain ⟨hv, _, he, _⟩ := pi_next_lrcp_spec h
  obtain ⟨hm, _⟩ := he rfl
  have hf := pi_core_frame (view_lrcp_core hv)
  intro q hq hle
  have hq1 := (pi_packet_ok_frame hf q).mp hq
  rw [pi_marked_set hf hm]
  rcases hle with hlt | heq
  · left
    by_cases hfst : s.first = true
    · exact pi_next_lrcp_scan htp (Or.inl hfst) h q hq1
        (fun h0 => by rw [hfst] at h0; simp at h0) (fun _ => hlt)
    · obtain ⟨hat, hseen⟩ := hs.resolve_left hfst
      rcases lrcp_lt_total q (pi_packet s) with k | k | k
      · exact hseen q hq1 (Or.inl k)
      · exact hseen q hq1 (Or.inr k)
      · exact pi_next_lrcp_scan htp (Or.inr hat) h q hq1 (fun _ => k) (fun _ => hlt)
  · right
    subst heq
    unfold pi_index pi_packet
    rw [hf.step_l, hf.step_r, hf.step_c, hf.step_p]

/-- When a call of `pi_next_lrcp` returns `OPJ_FALSE`, every packet of the slot is
marked. -/
theorem pi_next_lrcp_all {s u : opj_pi_iterator} (htp : s.tp_on = false)
    (hs : s.first = true ∨ (lrcp_at s ∧ lrcp_seen s))
    (h : pi_next_lrcp s = .ok (false, u)) (q : Int × Int × Int × Int)
    (hq : pi_packet_ok s q) : pi_marked s q.1 q.2.1 q.2.2.1 q.2.2.2 := by
  by_cases hfst : s.first = true
  · exact pi_next_lrcp_scan htp (Or.inl hfst) h q hq
      (fun h0 => by rw [hfst] at h0; simp at h0) (fun hb => by simp at hb)
  · obtain ⟨hat, hseen⟩ := hs.resolve_left hfst
    rcases lrcp_lt_total q (pi_packet s) with k | k | k
    · exact hseen q hq (Or.inl k)
    · exact hseen q hq (Or.inr k)
    · exact pi_next_lrcp_scan htp (Or.inr hat) h q hq (fun _ => k) (fun hb => by simp at hb)

/-- When the calls on an LRCP slot end with `OPJ_FALSE`, every packet of the slot is
marked in the bitmap, and every packet reported is one of the slot. -/
theorem pi_drain_lrcp_all : ∀ (n : Nat) (s u : opj_pi_iterator)
    (ps : List (Int × Int × Int × Int)), s.poc.prg = .LRCP → s.tp_on = false →
    (s.first = true ∨ (lrcp_at s ∧ lrcp_seen s)) → pi_drain n s = .ok (ps, u) →
    pi_frame s u ∧ (∀ q, pi_packet_ok s q → pi_marked u q.1 q.2.1 q.2.2.1 q.2.2.2) ∧
    ∀ q, q ∈ ps → pi_packet_ok s q := by
  intro n
  induction n with
  | zero => intro s u ps _ _ _ h; simp [pi_drain] at h
  | succ k ih =>
    intro s u ps hprg htp hs h
    rw [pi_drain] at h
    split at h
    · simp at h
    · rename_i t ht
      simp only [Except.ok.injEq, Prod.mk.injEq] at h
      obtain ⟨rfl, rfl⟩ := h
      obtain ⟨hc, _, hd⟩ := pi_next_spec ht
      have hf := pi_core_frame hc
      have ht1 : pi_next_lrcp s = .ok (false, t) := by
        unfold pi_next at ht
        rw [hprg] at ht
        exact ht
      refine ⟨hf, ?_, fun q hq => by simp at hq⟩
      intro q hq
      exact (pi_marked_frame hf (hd rfl) _ _ _ _).mpr (pi_next_lrcp_all htp hs ht1 q hq)
    · rename_i t ht
      split at h
      · simp at h
      · rename_i ps1 u1 hdr
        simp only [Except.ok.injEq, Prod.mk.injEq] at h
        obtain ⟨rfl, rfl⟩ := h
        obtain ⟨hc, _, _⟩ := pi_next_spec ht
        have hf := pi_core_frame hc
        have ht1 : pi_next_lrcp s = .ok (true, t) := by
          unfold pi_next at ht
          rw [hprg] at ht
          exact ht
        have hat : lrcp_at t :=
          ((pi_next_lrcp_spec ht1).2.2.1 rfl).2 (hs.imp id (fun x => x.1))
        have htp1 : t.tp_on = false := hf.tp_on.trans htp
        obtain ⟨g1, g2, g3⟩ := ih t u1 ps1 (hf.prg.trans hprg) htp1
          (Or.inr ⟨hat, pi_next_lrcp_seen htp hs ht1⟩) hdr
        have hfu : pi_frame s u1 := by
          constructor
          · exact g1.tp_on.trans hf.tp_on
          · exact g1.step_l.trans hf.step_l
          · exact g1.step_r.trans hf.step_r
          · exact g1.step_c.trans hf.step_c
          · exact g1.step_p.trans hf.step_p
          · exact g1.numcomps.trans hf.numcomps
          · exact g1.comps.trans hf.comps
          · exact g1.tx0.trans hf.tx0
          · exact g1.ty0.trans hf.ty0
          · exact g1.tx1.trans hf.tx1
          · exact g1.ty1.trans hf.ty1
          · exact g1.layno0.trans hf.layno0
          · exact g1.layno1.trans hf.layno1
          · exact g1.resno0.trans hf.resno0
          · exact g1.resno1.trans hf.resno1
          · exact g1.compno0.trans hf.compno0
          · exact g1.compno1.trans hf.compno1
          · exact g1.precno0.trans hf.precno0
          · exact g1.prg.trans hf.prg
        refine ⟨hfu, ?_, ?_⟩
        · intro q hq
          exact g2 q ((pi_packet_ok_frame hf q).mpr hq)
        · intro q hq
          rcases List.mem_cons.mp hq with hq1 | hq1
          · rw [hq1]
            exact (pi_packet_ok_frame hf _).mp (lrcp_at_packet_ok htp1 hat)
          · exact (pi_packet_ok_frame hf q).mp (g3 q hq1)

/-- Every cell marked after the calls on a slot was marked before them or is the cell
of a packet reported. -/
theorem pi_drain_marks : ∀ (n : Nat) (s u : opj_pi_iterator)
    (ps : List (Int × Int × Int × Int)), pi_drain n s = .ok (ps, u) →
    ∀ l r c p, pi_marked u l r c p → pi_marked s l r c p ∨
      ∃ q, q ∈ ps ∧ packet_index s.step_l s.step_r s.step_c s.step_p q =
        l * s.step_l + r * s.step_r + c * s.step_c + p * s.step_p := by
  intro n
  induction n with
  | zero => intro s u ps h; simp [pi_drain] at h
  | succ k ih =>
    intro s u ps h l r c p hm
    rw [pi_drain] at h
    split at h
    · simp at h
    · rename_i t ht
      simp only [Except.ok.injEq, Prod.mk.injEq] at h
      obtain ⟨rfl, rfl⟩ := h
      obtain ⟨hc, _, hd⟩ := pi_next_spec ht
      exact Or.inl ((pi_marked_frame (pi_core_frame hc) (hd rfl) _ _ _ _).mp hm)
    · rename_i t ht
      split at h
      · simp at h
      · rename_i ps1 u1 hdr
        simp only [Except.ok.injEq, Prod.mk.injEq] at h
        obtain ⟨rfl, rfl⟩ := h
        obtain ⟨hc, he, _⟩ := pi_next_spec ht
        have hf := pi_core_frame hc
        rcases ih t u1 ps1 hdr l r c p hm with g | ⟨q, g1, g2⟩
        · rcases (pi_marked_set hf (he rfl) l r c p).mp g with g3 | g3
          · exact Or.inl g3
          · refine Or.inr ⟨pi_packet t, List.mem_cons_self _ _, ?_⟩
            rw [g3]
            unfold packet_index pi_index pi_packet
            rw [hf.step_l, hf.step_r, hf.step_c, hf.step_p]
        · refine Or.inr ⟨q, List.mem_cons_of_mem _ g1, ?_⟩
          rw [hf.step_l, hf.step_r, hf.step_c, hf.step_p] at g2
          exact g2

theorem radix_unique {B a a' x x' : Int} (hx : 0 ≤ x) (hx' : 0 ≤ x') (h1 : x < B)
    (h2 : x' < B) (h : a * B + x = a' * B + x') : a = a' ∧ x = x' := by
  have hB : 0 < B := by omega
  have ha : a = a' := by
    by_contra hne
    rcases lt_or_gt_of_ne hne with k | k
    · have := mul_le_mul_of_nonneg_right (show a + 1 ≤ a' by omega) (le_of_lt hB)
      have e : (a + 1) * B = a * B + B := by ring
      rw [e] at this
      omega
    · have := mul_le_mul_of_nonneg_right (show a' + 1 ≤ a by omega) (le_of_lt hB)
      have e : (a' + 1) * B = a' * B + B := by ring
      rw [e] at this
      omega
  subst ha
  exact ⟨rfl, by omega⟩

theorem radix_bound {a K C y : Int} (hC : 0 ≤ C) (ha0 : 0 ≤ a) (ha : a < K) (hy0 : 0 ≤ y)
    (hy : y < C) : 0 ≤ a * C + y ∧ a * C + y < K * C := by
  have h1 := mul_nonneg ha0 hC
  have h2 := mul_le_mul_of_nonneg_right (show a + 1 ≤ K by omega) hC
  have e : (a + 1) * C = a * C + C := by ring
  rw [e] at h2
  exact ⟨by omega, by omega⟩

/-- Two packets of a slot with the strides of `pi_safe` that share a cell of the bitmap
are the same packet. -/
theorem packet_index_inj {s : opj_pi_iterator} {q q' : Int × Int × Int × Int}
    (hs : pi_safe s) (h1 : pi_packet_ok s q) (h2 : pi_packet_ok s q')
    (h : packet_index s.step_l s.step_r s.step_c s.step_p q =
      packet_index s.step_l s.step_r s.step_c s.step_p q') : q = q' := by
  obtain ⟨_, s2, s3, s4, s5, s6, s7, s8, s9, s10, _, _, _, s14⟩ := hs
  have hp : ∀ q : Int × Int × Int × Int, pi_packet_ok s q →
      0 ≤ q.2.1 ∧ q.2.1 < s.poc.resno1 ∧ 0 ≤ q.2.2.1 ∧ q.2.2.1 < s.poc.compno1 ∧
      0 ≤ q.2.2.2 ∧ q.2.2.2 < s.step_c := by
    intro q hq
    obtain ⟨_, _, a3, a4, a5, a6, comp, res, c1, _, c3, c4, c5⟩ := hq
    obtain ⟨_, _, k3⟩ := arr_get_some c1
    obtain ⟨_, _, k6⟩ := arr_get_some c3
    have := (s14 _ comp k3).2.2 _ res k6
    exact ⟨by omega, a4, by omega, a6, by omega, by omega⟩
  obtain ⟨a1, a2, a3, a4, a5, a6⟩ := hp q h1
  obtain ⟨b1, b2, b3, b4, b5, b6⟩ := hp q' h2
  obtain ⟨l, r, c, p⟩ := q
  obtain ⟨l', r', c', p'⟩ := q'
  unfold packet_index at h
  dsimp only at h a1 a2 a3 a4 a5 a6 b1 b2 b3 b4 b5 b6
  rw [s2, s5, s4] at h
  obtain ⟨y0, y1⟩ := radix_bound s3 a3 a4 a5 a6
  obtain ⟨y0', y1'⟩ := radix_bound s3 b3 b4 b5 b6
  have hK : 0 ≤ s.poc.compno1 * s.step_c := by omega
  obtain ⟨x0, x1⟩ := radix_bound hK a1 a2 y0 y1
  obtain ⟨x0', x1'⟩ := radix_bound hK b1 b2 y0' y1'
  have hh : l * (s.poc.resno1 * (s.poc.compno1 * s.step_c)) +
      (r * (s.poc.compno1 * s.step_c) + (c * s.step_c + p)) =
      l' * (s.poc.resno1 * (s.poc.compno1 * s.step_c)) +
      (r' * (s.poc.compno1 * s.step_c) + (c' * s.step_c + p')) := by
    rw [mul_one, mul_one] at h
    omega
  obtain ⟨e1, e2⟩ := radix_unique x0 x0' x1 x1' hh
  obtain ⟨e3, e4⟩ := radix_unique y0 y0' y1 y1' e2
  obtain ⟨e5, e6⟩ := radix_unique a5 b5 a6 b6 e4
  rw [e1, e3, e5, e6]

theorem pi_for_no_div {cond : opj_pi_iterator → Bool} {body : opj_pi_iterator → pi_outcome}
    {incr : opj_pi_iterator → Except pi_fault opj_pi_iterator}
    (hbody : ∀ t, body t ≠ .error .div_by_zero)
    (hincr : ∀ t, incr t ≠ .error .div_by_zero) :
    ∀ (n : Nat) (s : opj_pi_iterator), pi_for cond body incr n s ≠ .error .div_by_zero := by
  intro n
  induction n with
  | zero => intro s hcon; simp [pi_for] at hcon
  | succ k ih =>
    intro s hcon
    rw [pi_for] at hcon
    by_cases hc : cond s = true
    · rw [if_pos hc] at hcon
      cases hb : body s with
      | error e =>
        rw [hb] at hcon
        simp only [Except.error.injEq] at hcon
        subst hcon
        exact hbody s hb
      | ok r =>
        obtain ⟨b1, s1⟩ := r
        rw [hb] at hcon
        cases b1 with
        | true => simp at hcon
        | false =>
          dsimp only at hcon
          cases hi : incr s1 with
          | error e =>
            rw [hi] at hcon
            simp only [Except.error.injEq] at hcon
            subst hcon
            exact hincr s1 hi
          | ok s2 =>
            rw [hi] at hcon
            exact ih s2 hcon
    · rw [if_neg hc] at hcon
      simp at hcon

theorem pi_then_no_div {r : pi_outcome}
    {incr : opj_pi_iterator → Except pi_fault opj_pi_iterator}
    {rest : opj_pi_iterator → pi_outcome} (hr : r ≠ .error .div_by_zero)
    (hincr : ∀ t, incr t ≠ .error .div_by_zero)
    (hrest : ∀ t, rest t ≠ .error .div_by_zero) :
    pi_then r incr rest ≠ .error .div_by_zero := by
  unfold pi_then
  cases r with
  | error e =>
    intro hcon
    simp only [Except.error.injEq] at hcon
    subst hcon
    exact hr rfl
  | ok p =>
    obtain ⟨b, s1⟩ := p
    cases b with
    | true => simp
    | false =>
      dsimp only
      cases hi : incr s1 with
      | error e =>
        intro hcon
        simp only [Except.error.injEq] at hcon
        subst hcon
        exact hincr s1 hi
      | ok s2 => exact hrest s2

theorem pi_visit_no_div (s : opj_pi_iterator) : pi_visit s ≠ .error .div_by_zero := by
  unfold pi_visit
  split
  · simp
  · split <;> simp

theorem lrcp_precno_loop_no_div (s : opj_pi_iterator) :
    lrcp_precno_loop s ≠ .error .div_by_zero :=
  pi_for_no_div pi_visit_no_div (fun t => by simp [incr_precno]) _ s

theorem lrcp_compno_body_no_div (s : opj_pi_iterator) :
    lrcp_compno_body s ≠ .error .div_by_zero := by
  unfold lrcp_compno_body
  split
  · simp
  · split
    · simp
    · split
      · exact lrcp_precno_loop_no_div _
      · split
        · simp
        · exact lrcp_precno_loop_no_div _

theorem lrcp_compno_loop_no_div (s : opj_pi_iterator) :
    lrcp_compno_loop s ≠ .error .div_by_zero :=
  pi_for_no_div lrcp_compno_body_no_div (fun t => by simp [incr_compno]) _ s

theorem lrcp_resno_loop_no_div (s : opj_pi_iterator) :
    lrcp_resno_loop s ≠ .error .div_by_zero :=
  pi_for_no_div (fun t => lrcp_compno_loop_no_div _) (fun t => by simp [incr_resno]) _ s

theorem lrcp_layno_loop_no_div (s : opj_pi_iterator) :
    lrcp_layno_loop s ≠ .error .div_by_zero :=
  pi_for_no_div (fun t => lrcp_resno_loop_no_div _) (fun t => by simp [incr_layno]) _ s

theorem pi_next_lrcp_no_div (s : opj_pi_iterator) :
    pi_next_lrcp s ≠ .error .div_by_zero := by
  unfold pi_next_lrcp
  split
  · split
    · simp
    · exact pi_then_no_div (pi_then_no_div (pi_then_no_div (pi_then_no_div (by simp)
        (fun t => by simp [incr_precno]) lrcp_precno_loop_no_div)
        (fun t => by simp [incr_compno]) lrcp_compno_loop_no_div)
        (fun t => by simp [incr_resno]) lrcp_resno_loop_no_div)
        (fun t => by simp [incr_layno]) lrcp_layno_loop_no_div
  · exact lrcp_layno_loop_no_div _

/-- A call of `pi_next` on an LRCP slot with the strides and bitmap of `pi_safe`
returns. -/
theorem pi_next_lrcp_returns {s : opj_pi_iterator} (hprg : s.poc.prg = .LRCP)
    (hs : pi_safe s) (h : s.first = true ∨ lrcp_at s) : ∃ b t, pi_next s = .ok (b, t) := by
  have e : pi_next s = pi_next_lrcp s := by
    unfold pi_next
    rw [hprg]
  rw [e]
  cases hn : pi_next_lrcp s with
  | ok p => exact ⟨p.1, p.2, rfl⟩
  | error f =>
    cases f with
    | bounds => exact absurd hn (pi_next_lrcp_safe hs h)
    | div_by_zero => exact absurd hn (pi_next_lrcp_no_div s)
    | no_progress => exact absurd hn (pi_next_lrcp_progress s)

theorem count_set_zero : ∀ (xs : List Int) (i : Nat), xs[i]? = some 0 →
    (xs.set i 1).count 0 + 1 = xs.count 0
  | [], i, h => by simp at h
  | x :: xs, 0, h => by
    simp only [List.getElem?_cons_zero, Option.some.injEq] at h
    subst h
    simp [List.count_cons]
  | x :: xs, i + 1, h => by
    simp only [List.getElem?_cons_succ] at h
    have := count_set_zero xs i h
    simp only [List.set_cons_succ, List.count_cons]
    omega

/-- The calls on an LRCP slot come to an end: as many calls as the bitmap has cells at
0, and one more, reach a call that returns `OPJ_FALSE`. -/
theorem pi_drain_lrcp_total : ∀ (k : Nat) (s : opj_pi_iterator), s.poc.prg = .LRCP →
    pi_safe s → (s.first = true ∨ lrcp_at s) → s.incl.count 0 ≤ k →
    ∃ ps u, pi_drain (k + 1) s = .ok (ps, u) := by
  intro k
  induction k with
  | zero =>
    intro s hprg hs h hk
    obtain ⟨b, t, hn⟩ := pi_next_lrcp_returns hprg hs h
    rw [pi_drain, hn]
    cases b with
    | false => exact ⟨[], t, rfl⟩
    | true =>
      obtain ⟨_, he, _⟩ := pi_next_spec hn
      obtain ⟨m1, _⟩ := he rfl
      obtain ⟨_, _, m3⟩ := arr_get_some m1
      have := count_set_zero s.incl _ m3
      omega
  | succ k ih =>
    intro s hprg hs h hk
    obtain ⟨b, t, hn⟩ := pi_next_lrcp_returns hprg hs h
    rw [pi_drain, hn]
    cases b with
    | false => exact ⟨[], t, rfl⟩
    | true =>
      obtain ⟨hc, he, _⟩ := pi_next_spec hn
      obtain ⟨m1, m2⟩ := he rfl
      obtain ⟨_, _, m3⟩ := arr_get_some m1
      have hcount := count_set_zero s.incl _ m3
      have hf := pi_core_frame hc
      have hlen : t.incl.length = s.incl.length := by rw [m2, List.length_set]
      have hn1 : pi_next_lrcp s = .ok (true, t) := by
        unfold pi_next at hn
        rw [hprg] at hn
        exact hn
      have hat : lrcp_at t := ((pi_next_lrcp_spec hn1).2.2.1 rfl).2 h
      obtain ⟨ps, u, hd⟩ := ih t (hf.prg.trans hprg) (pi_safe_length hf hlen hs)
        (Or.inr hat) (by rw [m2]; omega)
      dsimp only
      rw [hd]
      exact ⟨_, _, rfl⟩

theorem arr_get_cast {α : Type} (xs : List α) (i : Nat) : arr_get xs (i : Int) = xs[i]? := by
  unfold arr_get
  rw [if_pos (Int.ofNat_nonneg i), Int.toNat_ofNat]

theorem mem_elim_nil {α β : Type} {o : Option α} {f : α → List β} {x : β} :
    x ∈ o.elim [] f ↔ ∃ a, o = some a ∧ x ∈ f a := by
  cases o with
  | none => simp
  | some a => simp

theorem mem_spec_packets {L : Int} {comps : List opj_pi_comp} {q : Int × Int × Int × Int} :
    q ∈ spec_packets L comps ↔
      0 ≤ q.1 ∧ q.1 < L ∧ ∃ comp res, arr_get comps q.2.2.1 = some comp ∧
        arr_get comp.resolutions q.2.1 = some res ∧ 0 ≤ q.2.2.2 ∧ q.2.2.2 < res.pw * res.ph := by
  unfold spec_packets
  simp only [List.mem_flatMap, List.mem_range, mem_elim_nil, List.mem_map]
  constructor
  · rintro ⟨l, hl, c, hc, comp, hcomp, r, hr, res, hres, p, hp, rfl⟩
    refine ⟨Int.ofNat_nonneg l, by show (l : Int) < L; omega, comp, res, ?_, ?_,
      Int.ofNat_nonneg p, by show (p : Int) < res.pw * res.ph; omega⟩
    · show arr_get comps (c : Int) = some comp
      rw [arr_get_cast]; exact hcomp
    · show arr_get comp.resolutions (r : Int) = some res
      rw [arr_get_cast]; exact hres
  · rintro ⟨l0, l1, comp, res, hc, hr, p0, p1⟩
    obtain ⟨c0, c1, c2⟩ := arr_get_some hc
    obtain ⟨r0, r1, r2⟩ := arr_get_some hr
    refine ⟨q.1.toNat, by omega, q.2.2.1.toNat, c1, comp, c2, q.2.1.toNat, r1, res, r2,
      q.2.2.2.toNat, by omega, ?_⟩
    rw [Int.toNat_of_nonneg l0, Int.toNat_of_nonneg c0, Int.toNat_of_nonneg r0,
      Int.toNat_of_nonneg p0]

theorem nodup_flatMap_range {β : Type} (n : Nat) (f : Nat → List β) (key : β → Int)
    (h1 : ∀ i, (f i).Nodup) (h2 : ∀ i, ∀ x ∈ f i, key x = (i : Int)) :
    ((List.range n).flatMap f).Nodup := by
  rw [List.nodup_flatMap]
  refine ⟨fun i _ => h1 i, ?_⟩
  refine (List.nodup_range n).imp ?_
  intro a b hne x hxa hxb
  have e1 := h2 a x hxa
  have e2 := h2 b x hxb
  rw [e1] at e2
  exact hne (by exact_mod_cast e2)

theorem nodup_elim_nil {α β : Type} {o : Option α} {f : α → List β}
    (h : ∀ a, (f a).Nodup) : (o.elim [] f).Nodup := by
  cases o with
  | none => exact List.nodup_nil
  | some a => exact h a

theorem spec_packets_nodup (L : Int) (comps : List opj_pi_comp) :
    (spec_packets L comps).Nodup := by
  unfold spec_packets
  refine nodup_flatMap_range _ _ (fun q => q.1) ?_ ?_
  · intro l
    refine nodup_flatMap_range _ _ (fun q => q.2.2.1) ?_ ?_
    · intro c
      refine nodup_elim_nil ?_
      intro comp
      refine nodup_flatMap_range _ _ (fun q => q.2.1) ?_ ?_
      · intro r
        refine nodup_elim_nil ?_
        intro res
        refine List.Nodup.map ?_ (List.nodup_range _)
        intro a b hab
        simp only [Prod.mk.injEq, Nat.cast_inj, true_and] at hab
        exact hab
      · intro r x hx
        simp only [mem_elim_nil, List.mem_map] at hx
        obtain ⟨res, _, p, _, rfl⟩ := hx
        rfl
    · intro c x hx
      simp only [mem_elim_nil, List.mem_flatMap, List.mem_map] at hx
      obtain ⟨comp, _, r, _, res, _, p, _, rfl⟩ := hx
      rfl
  · intro l x hx
    simp only [mem_elim_nil, List.mem_flatMap, List.mem_map] at hx
    obtain ⟨c, _, comp, _, r, _, res, _, p, _, rfl⟩ := hx
    rfl

theorem length_flatMap_const {β : Type} (n N : Nat) (f : Nat → List β)
    (h : ∀ i, (f i).length = N) : ((List.range n).flatMap f).length = n * N := by
  induction n with
  | zero => simp
  | succ k ih =>
    rw [List.range_succ, List.flatMap_append, List.length_append, ih]
    simp only [List.flatMap_cons, List.flatMap_nil, List.append_nil]
    rw [h k]
    ring

theorem length_flatMap_lookup {α β : Type} (g : α → Nat) :
    ∀ (xs : List α) (f : Nat → α → List β), (∀ i x, (f i x).length = g x) →
    ((List.range xs.length).flatMap fun i => (xs[i]?).elim [] (f i)).length =
      (xs.map g).sum := by
  intro xs
  induction xs using List.reverseRecOn with
  | nil => intro f _; simp
  | append_singleton ys y ih =>
    intro f hf
    rw [List.length_append, List.length_singleton, List.range_succ, List.flatMap_append,
      List.length_append, List.map_append, List.sum_append]
    have e1 : ((List.range ys.length).flatMap fun i => ((ys ++ [y])[i]?).elim [] (f i)) =
        ((List.range ys.length).flatMap fun i => (ys[i]?).elim [] (f i)) := by
      apply List.flatMap_congr
      intro i hi
      rw [List.getElem?_append_left (List.mem_range.mp hi)]
    rw [e1, ih f hf]
    simp only [List.flatMap_cons, List.flatMap_nil, List.append_nil, List.map_cons,
      List.map_nil, List.sum_cons, List.sum_nil, add_zero]
    rw [List.getElem?_append_right (le_refl _)]
    simp only [Nat.sub_self, List.getElem?_cons_zero, Option.elim]
    rw [hf]

theorem spec_packets_length (L : Int) (comps : List opj_pi_comp) :
    (spec_packets L comps).length = L.toNat * spec_packet_count comps := by
  unfold spec_packets spec_packet_count
  apply length_flatMap_const
  intro l
  refine length_flatMap_lookup
    (fun comp => (comp.resolutions.map fun res => (res.pw * res.ph).toNat).sum) comps
    (fun (c : Nat) comp => (List.range comp.resolutions.length).flatMap fun (r : Nat) =>
      (comp.resolutions[r]?).elim [] fun res =>
        (List.range (res.pw * res.ph).toNat).map fun (p : Nat) =>
          ((l : Int), (r : Int), (c : Int), (p : Int))) ?_
  intro c comp
  refine length_flatMap_lookup (fun res => (res.pw * res.ph).toNat) comp.resolutions
    (fun (r : Nat) res => (List.range (res.pw * res.ph).toNat).map fun (p : Nat) =>
      ((l : Int), (r : Int), (c : Int), (p : Int))) ?_
  intro r res
  rw [List.length_map, List.length_range]

/-- A slot that `pi_create_decode_v2` builds for a tile without POC has a bitmap of
zeros and the box `[0, numlayers) x [0, max_res) x [0, numcomps)` with `precno0 = 0`
and the progression of the tile. -/
theorem pi_fresh_decode {image : opj_image} {cp : opj_cp} {tileno : Int}
    {l : List opj_pi_iterator} {tcp : opj_tcp} {s : opj_pi_iterator}
    (hl : pi_create_decode_v2 image cp tileno = .ok l)
    (ht : arr_get cp.tcps tileno = some tcp) (hpoc : tcp.POC = false) (hs : s ∈ l) :
    (∀ i v, arr_get s.incl i = some v → v = 0) ∧ s.poc.prg = tcp.prg ∧
    s.poc.layno0 = 0 ∧ s.poc.layno1 = tcp.numlayers ∧ s.poc.resno0 = 0 ∧
    s.poc.compno0 = 0 ∧ s.poc.compno1 = image.numcomps ∧ s.poc.precno0 = 0 := by
  obtain ⟨tcp0, e, a1, a2, _, _, a5⟩ := pi_create_decode_v2_spec hl
  rw [ht] at a1
  simp only [Option.some.injEq] at a1
  subst a1
  obtain ⟨i, hi⟩ := List.mem_iff_getElem?.mp hs
  obtain ⟨cs, poc, b1, b2, b3⟩ := a5 i (getElem?_lt hi)
  rw [hi] at b3
  simp only [Option.some.injEq] at b3
  subst b3
  unfold decode_poc at b2
  rw [hpoc] at b2
  simp only [Bool.false_eq_true, if_false, Option.some.injEq] at b2
  subst b2
  refine ⟨?_, rfl, rfl, rfl, rfl, rfl, rfl, rfl⟩
  intro i v hv
  obtain ⟨_, _, k⟩ := arr_get_some hv
  exact List.eq_of_mem_replicate (List.getElem?_mem k)

/-- No quadruple is reported twice by the calls on an LRCP slot. -/
theorem pi_drain_lrcp_nodup : ∀ (n : Nat) (s u : opj_pi_iterator)
    (ps : List (Int × Int × Int × Int)), s.poc.prg = .LRCP →
    pi_drain n s = .ok (ps, u) → ps.Nodup := by
  intro n
  induction n with
  | zero => intro s u ps _ h; simp [pi_drain] at h
  | succ k ih =>
    intro s u ps hprg h
    rw [pi_drain] at h
    split at h
    · simp at h
    · simp only [Except.ok.injEq, Prod.mk.injEq] at h
      rw [← h.1]
      exact List.nodup_nil
    · rename_i t ht
      split at h
      · simp at h
      · rename_i ps1 u1 hd
        simp only [Except.ok.injEq, Prod.mk.injEq] at h
        rw [← h.1]
        have hcore := (pi_next_spec ht).1
        have hprg1 : t.poc.prg = .LRCP := (pi_core_prg hcore).trans hprg
        have ht1 : pi_next_lrcp s = .ok (true, t) := by
          unfold pi_next at ht
          rw [hprg] at ht
          exact ht
        have hf1 : t.first = false := (pi_next_lrcp_spec ht1).2.1
        refine List.nodup_cons.mpr ⟨?_, ih t u1 ps1 hprg1 hd⟩
        intro hin
        have hlt := pi_drain_lrcp_after k t u1 ps1 hprg1 hf1 hd _ hin
        unfold lrcp_lt at hlt
        omega

/-- C2. Completeness for LRCP: for an iterator array built by `pi_create_decode_v2` for
a tile without POC and with progression LRCP, whose slot 0 is computed within the
32-bit range (`build_fits`) and whose strides and number of cells
`(numlayers + 1) * step_l` fit the integer types of the source (`slot_fits`), the calls
of `pi_next` on slot 0 reach a
call that returns false; the quadruples reported before it are exactly those
`(l, r, c, p)` with `0 <= l < numlayers`, `0 <= c < numcomps`,
`0 <= r < numresolutions` of component `c` and `0 <= p < pw * ph` of the record of
`(c, r)`, each reported once; and the number of true returns is `numlayers` times the
sum over `(c, r)` of `pw * ph`. -/
theorem pi_drain_lrcp_complete (image : opj_image) (cp : opj_cp) (tileno : Int)
    (l : List opj_pi_iterator) (tcp : opj_tcp) (s : opj_pi_iterator)
    (hl : pi_create_decode_v2 image cp tileno = .ok l)
    (ht : arr_get cp.tcps tileno = some tcp) (hpoc : tcp.POC = false)
    (hprg : tcp.prg = .LRCP) (hs : l[0]? = some s)
    (_hbuild : build_fits image cp tileno s) (_hfit : slot_fits tcp.numlayers s) :
    ∃ ps u, pi_drain (s.incl.length + 1) s = .ok (ps, u) ∧ ps.Nodup ∧
      (∀ q : Int × Int × Int × Int, q ∈ ps ↔
        0 ≤ q.1 ∧ q.1 < tcp.numlayers ∧ 0 ≤ q.2.2.1 ∧ q.2.2.1 < image.numcomps ∧
        ∃ comp res, arr_get s.comps q.2.2.1 = some comp ∧
          0 ≤ q.2.1 ∧ q.2.1 < comp.numresolutions ∧
          arr_get comp.resolutions q.2.1 = some res ∧
          0 ≤ q.2.2.2 ∧ q.2.2.2 < res.pw * res.ph) ∧
      ps.length = tcp.numlayers.toNat * spec_packet_count s.comps := by
  have hmem := List.getElem?_mem hs
  obtain ⟨hsafe, hfirst, _⟩ := pi_safe_decode hl ht hpoc hmem
  obtain ⟨hfresh, f1, f2, f3, f4, f5, f6, f7⟩ := pi_fresh_decode hl ht hpoc hmem
  have hprgs : s.poc.prg = .LRCP := f1.trans hprg
  obtain ⟨ps, u, hd⟩ := pi_drain_lrcp_total s.incl.length s hprgs hsafe (Or.inl hfirst)
    (List.count_le_length _ _)
  have hnodup := pi_drain_lrcp_nodup _ s u ps hprgs hd
  obtain ⟨_, hall, hok⟩ := pi_drain_lrcp_all _ s u ps hprgs hsafe.1 (Or.inl hfirst) hd
  have hmarks := pi_drain_marks _ s u ps hd
  have hiff : ∀ q, q ∈ ps ↔ pi_packet_ok s q := by
    intro q
    constructor
    · exact hok q
    · intro hq
      rcases hmarks _ _ _ _ (hall q hq) with ⟨v, g1, g2⟩ | ⟨q1, g1, g2⟩
      · exact absurd (hfresh _ v g1) g2
      · have e : q1 = q := packet_index_inj hsafe (hok q1 g1) hq g2
        rw [← e]
        exact g1
  have hbox : ∀ q : Int × Int × Int × Int, pi_packet_ok s q ↔
      (0 ≤ q.1 ∧ q.1 < tcp.numlayers ∧ 0 ≤ q.2.2.1 ∧ q.2.2.1 < image.numcomps ∧
        ∃ comp res, arr_get s.comps q.2.2.1 = some comp ∧
          0 ≤ q.2.1 ∧ q.2.1 < comp.numresolutions ∧
          arr_get comp.resolutions q.2.1 = some res ∧
          0 ≤ q.2.2.2 ∧ q.2.2.2 < res.pw * res.ph) := by
    intro q
    unfold pi_packet_ok pi_cell
    rw [f2, f3, f4, f5, f6, f7]
    constructor
    · rintro ⟨k1, k2, k3, _, k5, k6, comp, res, c1, c2, c3, c4, c5⟩
      exact ⟨k1, k2, k5, k6, comp, res, c1, k3, c2, c3, c4, c5⟩
    · rintro ⟨k1, k2, k5, k6, comp, res, c1, k3, c2, c3, c4, c5⟩
      obtain ⟨_, _, g3⟩ := arr_get_some c1
      have := (hsafe.2.2.2.2.2.2.2.2.2.2.2.2.2 _ comp g3).1
      exact ⟨k1, k2, k3, by omega, k5, k6, comp, res, c1, c2, c3, c4, c5⟩
  have hspec : ∀ q, q ∈ ps ↔ q ∈ spec_packets tcp.numlayers s.comps := by
    intro q
    rw [hiff, hbox, mem_spec_packets]
    constructor
    · rintro ⟨k1, k2, _, _, comp, res, c1, _, _, c3, c4, c5⟩
      exact ⟨k1, k2, comp, res, c1, c3, c4, c5⟩
    · rintro ⟨k1, k2, comp, res, c1, c3, c4, c5⟩
      obtain ⟨g1, g2, g3⟩ := arr_get_some c1
      obtain ⟨r1, r2, _⟩ := arr_get_some c3
      have hlen := hsafe.2.2.2.2.2.2.2.2.2.2.2.2.1
      have hres := (hsafe.2.2.2.2.2.2.2.2.2.2.2.2.2 _ comp g3).2.1
      rw [hlen, f6] at g2
      rw [hres] at r2
      exact ⟨k1, k2, g1, by omega, comp, res, c1, r1, by omega, c3, c4, c5⟩
  refine ⟨ps, u, hd, hnodup, fun q => (hiff q).trans (hbox q), ?_⟩
  rw [← spec_packets_length]
  exact ((List.perm_ext_iff_of_nodup hnodup (spec_packets_nodup _ _)).mpr hspec).length_eq

/-- Witness of `pi_drain_lrcp_complete`, scenario S2: two components, three
resolutions, two layers and one precinct per resolution give twelve true returns. -/
theorem pi_drain_lrcp_complete_witness :
    ∃ ps u, pi_drain 19 (ex_slot .LRCP) = .ok (ps, u) ∧ ps.length = 12 := by
  obtain ⟨ps, u, h1, _, _, h4⟩ := pi_drain_lrcp_complete ex_image (ex_cp .LRCP) 0
    [ex_slot .LRCP] _ (ex_slot .LRCP) rfl rfl rfl rfl rfl
    (by unfold build_fits edges_fit walk_fits counts_fit; decide)
    (by unfold slot_fits counts_fit; decide)
  exact ⟨ps, u, h1, h4.trans (by decide)⟩

/-! ## Degenerate resolutions on the encoder path -/

/-- C9, failing input.  Every engine that reads the precinct counts skips a degenerate
resolution: in a run from a slot with `first = true`, a packet of RPCL, PCRL or CPRL
(with or without `tp_on`), and a packet of LRCP or RLCP when `tp_on` is clear and
`precno0 >= 0`, lies at a record with `pw != 0` and `ph != 0`.  LRCP with `tp_on` set
does not: for the one-sample image `[1, 2) x [0, 1)` of `ex_image_thin` and the coding
parameters `ex_cp_thin` (tile-parts on, two resolutions, default precincts),
`pi_initialise_encode` builds the records `(pdx, pdy, pw, ph) = (15, 15, 0, 1)` for
resolution 0 and `(15, 15, 1, 1)` for resolution 1 and stores `prcE = maxprec = 1`;
`pi_create_encode` for tile-part 0 (`tppos = 1`, one tile-part per resolution) gives the
slot the box `layno in [0, 1)`, `resno in [0, 1)`, `compno in [0, 1)`,
`precno in [0, 1)`; and the first call of `pi_next` returns true at
`(layno, resno, compno, precno) = (0, 0, 0, 0)`, a resolution whose record has
`pw = 0`. -/
theorem pi_next_encode_emits_degenerate :
    (∀ (n : Nat) (s t : opj_pi_iterator), s.first = true →
      pi_next_nth n s = .ok (true, t) →
      ((s.poc.prg = .RPCL ∨ s.poc.prg = .PCRL ∨ s.poc.prg = .CPRL) ∨
        (s.tp_on = false ∧ 0 ≤ s.poc.precno0)) →
      ∃ comp res, arr_get s.comps t.compno = some comp ∧
        arr_get comp.resolutions t.resno = some res ∧ res.pw ≠ 0 ∧ res.ph ≠ 0) ∧
    (∃ l cp l0 cp0 s0 t comp res,
      pi_encode_setup ex_image_thin ex_cp_thin 0 = .ok (l, cp) ∧
      pi_create_encode l cp 0 0 0 1 .FINAL_PASS 2 = .ok (false, l0, cp0) ∧
      l0[0]? = some s0 ∧ s0.tp_on = true ∧ s0.poc.prg = .LRCP ∧
      s0.comps = [{ dx := 1, dy := 1, numresolutions := 2,
                    resolutions := [⟨15, 15, 0, 1⟩, ⟨15, 15, 1, 1⟩] }] ∧
      (s0.poc.layno0, s0.poc.layno1, s0.poc.resno0, s0.poc.resno1) = (0, 1, 0, 1) ∧
      (s0.poc.compno0, s0.poc.compno1, s0.poc.precno0, s0.poc.precno1) = (0, 1, 0, 1) ∧
      pi_next s0 = .ok (true, t) ∧
      (t.layno, t.resno, t.compno, t.precno) = (0, 0, 0, 0) ∧
      arr_get t.comps t.compno = some comp ∧ arr_get comp.resolutions t.resno = some res ∧
      res.pw = 0 ∧ res.ph = 1) :=
  ⟨fun n s t hfirst h hcase => pi_next_skips_degenerate n s t hfirst h hcase,
    ⟨_, _, _, _, _, _, _, _, rfl, rfl, rfl, rfl, rfl, rfl, rfl, rfl, rfl, rfl, rfl, rfl, rfl,
      rfl⟩⟩

/-! ## The order of the packets under RPCL in precinct coordinates -/

/-- The key of a quadruple whose precinct number is `a + b * pw` with `0 <= a < pw` and
`0 <= b` is `(resno, b, a, compno, layno)`. -/
theorem rpcl_key_coords {s : opj_pi_iterator} {comp : opj_pi_comp} {res : opj_pi_resolution}
    {l r c p a b : Int} (hc : arr_get s.comps c = some comp)
    (hr : arr_get comp.resolutions r = some res) (hp : p = a + b * res.pw)
    (ha : 0 ≤ a) (haw : a < res.pw) (hb : 0 ≤ b) :
    rpcl_key s (l, r, c, p) = some (r, b, a, c, l) := by
  unfold rpcl_key
  dsimp only
  rw [hc]
  dsimp only
  rw [hr]
  dsimp only
  rw [if_neg (by omega), hp]
  obtain ⟨e1, e2⟩ := precno_coords ha haw hb
  rw [e1, e2]

theorem pi_prci_congr {t u : opj_pi_iterator} (comp : opj_pi_comp) (res : opj_pi_resolution)
    (hr : t.resno = u.resno) (h0 : t.tx0 = u.tx0) (hx : t.x = u.x) :
    pi_prci t comp res = pi_prci u comp res := by
  unfold pi_prci
  rw [hr, h0, hx]

theorem pi_prcj_congr {t u : opj_pi_iterator} (comp : opj_pi_comp) (res : opj_pi_resolution)
    (hr : t.resno = u.resno) (h0 : t.ty0 = u.ty0) (hy : t.y = u.y) :
    pi_prcj t comp res = pi_prcj u comp res := by
  unfold pi_prcj
  rw [hr, h0, hy]

/-- Two cursors of one resolution that passed the gate in `x` for one component, the
second to the right of the first, lie in different precinct columns. -/
theorem pi_prci_lt {t u : opj_pi_iterator} {comp : opj_pi_comp} {res : opj_pi_resolution}
    (hr : t.resno = u.resno) (h0 : t.tx0 = u.tx0) (ha : 0 ≤ t.tx0) (h1 : t.tx0 ≤ t.x)
    (hx : t.x < u.x) (hdx : 0 < comp.dx)
    (g1 : Int.tmod t.x (shl comp.dx (comp.numresolutions - 1 - t.resno) * pow2 res.pdx) = 0 ∨
      (t.x = t.tx0 ∧
        int_ceildiv t.tx0 (shl comp.dx (comp.numresolutions - 1 - t.resno)) % pow2 res.pdx
          ≠ 0))
    (g2 : Int.tmod u.x (shl comp.dx (comp.numresolutions - 1 - u.resno) * pow2 res.pdx) = 0 ∨
      (u.x = u.tx0 ∧
        int_ceildiv u.tx0 (shl comp.dx (comp.numresolutions - 1 - u.resno)) % pow2 res.pdx
          ≠ 0)) :
    pi_prci t comp res < pi_prci u comp res := by
  unfold pi_prci
  dsimp only
  unfold int_floordivpow2 shr
  rw [← hr, ← h0] at g2 ⊢
  have hD : 0 < shl comp.dx (comp.numresolutions - 1 - t.resno) := mul_pos hdx (pow2_pos _)
  have := prc_strict ha h1 hx hD (pow2_pos res.pdx) rfl g1 (g2.imp id (fun z => z.1))
  omega

/-- Two cursors of one resolution that passed the gate in `y` for one component, the
second below the first, lie in different precinct rows. -/
theorem pi_prcj_lt {t u : opj_pi_iterator} {comp : opj_pi_comp} {res : opj_pi_resolution}
    (hr : t.resno = u.resno) (h0 : t.ty0 = u.ty0) (ha : 0 ≤ t.ty0) (h1 : t.ty0 ≤ t.y)
    (hy : t.y < u.y) (hdy : 0 < comp.dy)
    (g1 : Int.tmod t.y (shl comp.dy (comp.numresolutions - 1 - t.resno) * pow2 res.pdy) = 0 ∨
      (t.y = t.ty0 ∧
        int_ceildiv t.ty0 (shl comp.dy (comp.numresolutions - 1 - t.resno)) % pow2 res.pdy
          ≠ 0))
    (g2 : Int.tmod u.y (shl comp.dy (comp.numresolutions - 1 - u.resno) * pow2 res.pdy) = 0 ∨
      (u.y = u.ty0 ∧
        int_ceildiv u.ty0 (shl comp.dy (comp.numresolutions - 1 - u.resno)) % pow2 res.pdy
          ≠ 0)) :
    pi_prcj t comp res < pi_prcj u comp res := by
  unfold pi_prcj
  dsimp only
  unfold int_floordivpow2 shr
  rw [← hr, ← h0] at g2 ⊢
  have hD : 0 < shl comp.dy (comp.numresolutions - 1 - t.resno) := mul_pos hdy (pow2_pos _)
  have := prc_strict ha h1 hy hD (pow2_pos res.pdy) rfl g1 (g2.imp id (fun z => z.1))
  omega

/-- C5, amended.  RPCL order in precinct coordinates: for a slot built by
`pi_create_decode_v2` under RPCL (tile extents not negative, positive subsampling,
precinct exponents not negative, computed and walked within the range of a C `int`,
`build_fits`) whose
components all have the same record, that is the same subsampling, the same number of
resolutions and the same precinct sizes, every true return of `pi_next` reports a packet
whose key `(resno, prcj, prci, compno, layno)`, with `prci = precno mod pw` and
`prcj = precno / pw`, is strictly greater in the lexicographic order than the key of the
packet of the true return before it. -/
theorem pi_next_rpcl_precinct_order (image : opj_image) (cp : opj_cp) (tileno : Int)
    (l : List opj_pi_iterator) (tcp : opj_tcp) (s t u : opj_pi_iterator) (n : Nat)
    (hl : pi_create_decode_v2 image cp tileno = .ok l)
    (ht : arr_get cp.tcps tileno = some tcp) (hs : s ∈ l)
    (hprg : s.poc.prg = .RPCL)
    (hext : 0 ≤ s.tx0 ∧ 0 ≤ s.ty0)
    (hsub : ∀ (c : Nat) (ic : opj_image_comp), image.comps[c]? = some ic → 0 < ic.dx ∧ 0 < ic.dy)
    (hpd : ∀ (c r : Nat) (tccp : opj_tccp) (q : Int), tcp.tccps[c]? = some tccp →
      (tccp.prcw[r]? = some q → 0 ≤ q) ∧ (tccp.prch[r]? = some q → 0 ≤ q))
    (hgrid : ∀ comp ∈ s.comps, ∀ comp' ∈ s.comps, comp = comp')
    (_hfit : build_fits image cp tileno s)
    (h1 : pi_next_nth n s = .ok (true, t)) (h2 : pi_next_nth (n + 1) s = .ok (true, u)) :
    ∃ k1 k2, rpcl_key s (pi_packet t) = some k1 ∧ rpcl_key s (pi_packet u) = some k2 ∧
      rpcl_lt k1 k2 := by
  obtain ⟨hg, htp, hfirst⟩ := pi_geom_decode hl ht hs hext hsub hpd
  have hc : ∀ comp ∈ s.comps, 0 ≤ comp.dx ∧ 0 ≤ comp.dy := by
    intro comp hcm
    obtain ⟨c, hc1⟩ := List.mem_iff_getElem?.mp hcm
    obtain ⟨p1, p2, _⟩ := hg.2.2 c comp hc1
    exact ⟨le_of_lt p1, le_of_lt p2⟩
  have hpos := pi_next_rpcl_order n s t u hprg hfirst hc h1 h2
  have hft := pi_core_frame (pi_next_nth_at n s t h1 (Or.inl hfirst)).2
  have hfu := pi_core_frame (pi_next_nth_at (n + 1) s u h2 (Or.inl hfirst)).2
  obtain ⟨comp, res, a1, a2, a3, a4, a5, a6, a7, a8, a9, a10, a11, a12, a13, a14⟩ :=
    pi_next_nth_coords hl ht hs (Or.inl hprg) hext hsub hpd h1
  obtain ⟨comp', res', b1, b2, b3, b4, b5, b6, b7, b8, b9, b10, b11, b12, b13, b14⟩ :=
    pi_next_nth_coords hl ht hs (Or.inl hprg) hext hsub hpd h2
  rw [hft.comps] at a1
  rw [hfu.comps] at b1
  have hcc : comp' = comp := hgrid _ (arr_get_mem b1) _ (arr_get_mem a1)
  subst hcc
  have kt : rpcl_key s (pi_packet t)
      = some (t.resno, pi_prcj t comp' res, pi_prci t comp' res, t.compno, t.layno) :=
    rpcl_key_coords a1 a2 a3 a4 a5 a6
  have ku : rpcl_key s (pi_packet u)
      = some (u.resno, pi_prcj u comp' res', pi_prci u comp' res', u.compno, u.layno) :=
    rpcl_key_coords b1 b2 b3 b4 b5 b6
  refine ⟨_, _, kt, ku, ?_⟩
  have hx0 : t.tx0 = u.tx0 := hft.tx0.trans hfu.tx0.symm
  have hy0 : t.ty0 = u.ty0 := hft.ty0.trans hfu.ty0.symm
  have hx0n : 0 ≤ t.tx0 := by rw [hft.tx0]; exact hext.1
  have hy0n : 0 ≤ t.ty0 := by rw [hft.ty0]; exact hext.2
  unfold rpcl_lt rpcl_pos at hpos
  dsimp only at hpos
  unfold rpcl_lt
  dsimp only
  rcases hpos with hr | ⟨hr, hrest⟩
  · exact Or.inl hr
  · refine Or.inr ⟨hr, ?_⟩
    have hres : res' = res := by
      rw [← hr] at b2
      rw [a2] at b2
      exact (Option.some.inj b2).symm
    subst hres
    rcases hrest with hy | ⟨hy, hrest⟩
    · exact Or.inl (pi_prcj_lt hr hy0 hy0n a14 hy a11 a9 b9)
    · refine Or.inr ⟨pi_prcj_congr comp' res' hr hy0 hy, ?_⟩
      rcases hrest with hx | ⟨hx, hrest⟩
      · exact Or.inl (pi_prci_lt hr hx0 hx0n a13 hx a10 a8 b8)
      · exact Or.inr ⟨pi_prci_congr comp' res' hr hx0 hx, hrest⟩

/-- Witness of `pi_next_rpcl_precinct_order`: on the tile of `ex_image_row` and
`ex_cp_grid`, whose two components have four precincts of 2 x 1 samples each, the second
and the third call report `(l, r, c, p) = (0, 0, 1, 0)` at `x = 0` and `(0, 0, 0, 1)` at
`x = 2`, with the keys `(resno, prcj, prci, compno, layno) = (0, 0, 0, 1, 0)` and
`(0, 0, 1, 0, 0)`. -/
theorem pi_next_rpcl_precinct_order_witness :
    pi_create_decode_v2 ex_image_row ex_cp_grid 0 = .ok [ex_slot_grid] ∧
    build_fits ex_image_row ex_cp_grid 0 ex_slot_grid ∧
    (∀ comp ∈ ex_slot_grid.comps, ∀ comp' ∈ ex_slot_grid.comps, comp = comp') ∧
    ∃ t u, pi_next_nth 1 ex_slot_grid = .ok (true, t) ∧
      pi_next_nth 2 ex_slot_grid = .ok (true, u) ∧
      pi_packet t = (0, 0, 1, 0) ∧ pi_packet u = (0, 0, 0, 1) ∧
      rpcl_key ex_slot_grid (pi_packet t) = some (0, 0, 0, 1, 0) ∧
      rpcl_key ex_slot_grid (pi_packet u) = some (0, 0, 1, 0, 0) ∧
      rpcl_lt (0, 0, 0, 1, 0) (0, 0, 1, 0, 0) := by
  have hfit : build_fits ex_image_row ex_cp_grid 0 ex_slot_grid := by
    unfold build_fits edges_fit walk_fits counts_fit
    decide
  have hgrid : ∀ comp ∈ ex_slot_grid.comps, ∀ comp' ∈ ex_slot_grid.comps, comp = comp' := by
    decide
  obtain ⟨k1, k2, e1, e2, e3⟩ := pi_next_rpcl_precinct_order ex_image_row ex_cp_grid 0
    [ex_slot_grid] _ ex_slot_grid _ _ 1 rfl rfl (List.mem_singleton.mpr rfl) rfl
    ⟨by decide, by decide⟩
    (by
      intro c ic hc
      have hm := List.getElem?_mem hc
      simp [ex_image_row] at hm
      subst hm
      exact ⟨by decide, by decide⟩)
    (by
      intro c r tccp q hc
      have hm := List.getElem?_mem hc
      simp [ex_cp_grid] at hm
      subst hm
      constructor
      · intro hq
        have hq1 := List.getElem?_mem hq
        simp at hq1
        omega
      · intro hq
        have hq1 := List.getElem?_mem hq
        simp at hq1
        omega)
    hgrid hfit rfl rfl
  have f1 : k1 = (0, 0, 0, 1, 0) := Option.some.inj (e1.symm.trans rfl)
  have f2 : k2 = (0, 0, 1, 0, 0) := Option.some.inj (e2.symm.trans rfl)
  subst f1 f2
  exact ⟨rfl, hfit, hgrid, _, _, rfl, rfl, rfl, rfl, e1, e2, e3⟩

end OpjPi
